import Mathlib

/-!
# dccrg: cell-id algebra and the refinement protocol

A shallow embedding of `dccrg_index.hpp` (class `Index`) and of the parts of
`dccrg.hpp` (class `Dccrg`) that take part in adaptive refinement.

Conventions of the embedding

* `uint64_t` values are natural numbers; every `uint64_t` operation of the
  source is followed by a reduction modulo `2^64` (`u64`).
* `int` values (refinement levels, neighbourhood offsets) are integers.
* `boost::unordered_set<uint64_t>` is a list of ids and
  `boost::unordered_map<uint64_t, V>` is an association list; the iteration
  order of the source containers is unspecified, the lists iterate front to back.
* the build that is modelled defines none of `DEBUG`, `USE_SFC`,
  `DCCRG_SEND_SINGLE_CELLS`, `DCCRG_CELL_DATA_SIZE_FROM_USER`.
-/

set_option linter.unusedVariables false

namespace dccrg

/-! ## Machine arithmetic -/

/-- Reduction of a natural number to the range of `uint64_t`. -/
def u64 (n : Nat) : Nat := n % 2 ^ 64

/-- The value of `uint64_t(1) << k`.  The source only shifts by amounts in
`0..63`; for other amounts (undefined in C++) the model takes `2^k mod 2^64`,
reading a negative `k` as `0`. -/
def shl1 (k : Int) : Nat := u64 (2 ^ k.toNat)

/-- Subtraction of `uint64_t` values, `a - b` modulo `2^64`. -/
def usub (a b : Nat) : Nat := u64 (a + (2 ^ 64 - b % 2 ^ 64))

/-- The constant `error_cell` of `dccrg_index.hpp`. -/
def error_cell : Nat := 0

/-- The constant `error_index` of `dccrg_index.hpp`,
`std::numeric_limits<uint64_t>::max()`. -/
def error_index : Nat := 2 ^ 64 - 1

/-- The type `Types<3>::indices_t` (declared in `dccrg_types.hpp`, which is not
part of the sources at hand): three `uint64_t` indices, read as `[0]`, `[1]`, `[2]`. -/
abbrev indices_t := Nat × Nat × Nat

/-- The type `Types<3>::neighborhood_item_t` (declared in `dccrg_types.hpp`):
three `int` offsets. -/
abbrev neighborhood_item_t := Int × Int × Int

/-! ## class Index -/

/-- The data members of `class Index`. -/
structure Index where
  x_length : Nat
  y_length : Nat
  z_length : Nat
  grid_length : Nat
  max_refinement_level : Int
  last_cell : Nat
deriving DecidableEq, Repr

namespace Index

/-- The term `x_length * y_length * z_length * (uint64_t(1) << 3 * i)` that the
loops of `Index` add per refinement level. -/
def level_term (ix : Index) (i : Int) : Nat :=
  u64 (u64 (u64 (ix.x_length * ix.y_length) * ix.z_length) * shl1 (3 * i))

/-- `Index::get_cell_from_indices`. -/
def get_cell_from_indices (ix : Index) (indices : indices_t) (refinement_level : Int) : Nat :=
  if indices.1 ≥ u64 (ix.x_length * shl1 ix.max_refinement_level) then error_cell
  else if indices.2.1 ≥ u64 (ix.y_length * shl1 ix.max_refinement_level) then error_cell
  else if indices.2.2 ≥ u64 (ix.z_length * shl1 ix.max_refinement_level) then error_cell
  else if refinement_level < 0 then error_cell
  else if refinement_level > ix.max_refinement_level then error_cell
  else
    -- cell numbering starts at 1; add ids of larger cells
    let cell := (List.range refinement_level.toNat).foldl
      (fun cell (i : Nat) => u64 (cell + ix.level_term (i : Int))) 1
    -- convert to indices of this cell's refinement level
    let d := shl1 (ix.max_refinement_level - refinement_level)
    let this_level_indices : indices_t := (indices.1 / d, indices.2.1 / d, indices.2.2 / d)
    let this_level_x_length := u64 (ix.x_length * shl1 refinement_level)
    let this_level_y_length := u64 (ix.y_length * shl1 refinement_level)
    u64 (cell + u64 (u64 (this_level_indices.1
      + u64 (this_level_indices.2.1 * this_level_x_length))
      + u64 (u64 (this_level_indices.2.2 * this_level_x_length) * this_level_y_length)))

/-- The `while` loop of `Index::get_refinement_level`; `fuel` bounds the number
of iterations, the loop itself runs at most `max_refinement_level + 1` times. -/
def refinement_level_loop (ix : Index) (cell : Nat) : Nat → Int → Nat → Int
  | 0, refinement_level, _ => refinement_level
  | fuel + 1, refinement_level, current_last =>
    if refinement_level ≤ ix.max_refinement_level then
      let current_last := u64 (current_last + ix.level_term refinement_level)
      if cell ≤ current_last then refinement_level
      else refinement_level_loop ix cell fuel (refinement_level + 1) current_last
    else refinement_level

/-- `Index::get_refinement_level`. -/
def get_refinement_level (ix : Index) (cell : Nat) : Int :=
  if cell = error_cell ∨ cell > ix.last_cell then -1
  else
    let refinement_level :=
      refinement_level_loop ix cell (ix.max_refinement_level + 1).toNat 0 0
    if refinement_level > ix.max_refinement_level then -1 else refinement_level

/-- `Index::get_indices`. -/
def get_indices (ix : Index) (cell : Nat) : indices_t :=
  if cell = error_cell ∨ cell > ix.last_cell then (error_index, error_index, error_index)
  else
    let refinement_level := ix.get_refinement_level cell
    -- substract ids of larger cells
    let cell := (List.range refinement_level.toNat).foldl
      (fun cell (i : Nat) => usub cell (ix.level_term (i : Int))) cell
    let cell := usub cell 1
    let d := shl1 (ix.max_refinement_level - refinement_level)
    (u64 ((cell % u64 (ix.x_length * shl1 refinement_level)) * d),
     u64 (((cell / u64 (ix.x_length * shl1 refinement_level))
        % u64 (ix.y_length * shl1 refinement_level)) * d),
     u64 ((cell / u64 (u64 (ix.x_length * ix.y_length) * shl1 (2 * refinement_level))) * d))

/-- `Index::get_cell_size_in_indices`. -/
def get_cell_size_in_indices (ix : Index) (cell : Nat) : Nat :=
  if cell = error_cell then error_index
  else
    let refinement_level := ix.get_refinement_level cell
    if refinement_level < 0 then error_index
    else shl1 (ix.max_refinement_level - refinement_level)

/-- `Index::get_parent_for_removed`. -/
def get_parent_for_removed (ix : Index) (cell : Nat) : Nat :=
  let refinement_level := ix.get_refinement_level cell
  if refinement_level < 0 ∨ refinement_level > ix.max_refinement_level then error_cell
  else if refinement_level = 0 then cell
  else ix.get_cell_from_indices (ix.get_indices cell) (refinement_level - 1)

/-- The number of ids of the refinement levels below `n` in a grid of `G`
root cells, in exact arithmetic: the sum of `G * 8^r` over `r < n`. -/
def ids_below (G : Nat) : Nat → Nat
  | 0 => 0
  | n + 1 => ids_below G n + G * 8 ^ n

/-- The ids of the grid fit in 64 bits: the maximum refinement level is not
negative, `grid_length` is the number of root cells, `last_cell` is the sum
over `r = 0..R` of `Lx*Ly*Lz*8^r`, and that sum is at most `2^64 - 1`. -/
def ids_fit (ix : Index) : Prop :=
  0 ≤ ix.max_refinement_level ∧
  ix.grid_length = ix.x_length * ix.y_length * ix.z_length ∧
  ix.last_cell = ids_below (ix.x_length * ix.y_length * ix.z_length)
    (ix.max_refinement_level.toNat + 1) ∧
  ix.last_cell ≤ 2 ^ 64 - 1

instance (ix : Index) : Decidable ix.ids_fit := by
  unfold ids_fit; infer_instance

end Index

end dccrg
namespace dccrg

/-! ## Containers -/

/-- A `boost::unordered_set<uint64_t>`: the list of its elements, without repetition. -/
abbrev uset := List Nat

/-- `s.insert(k)` of an unordered set. -/
def set_insert (s : uset) (k : Nat) : uset := if k ∈ s then s else s ++ [k]

/-- `s.erase(k)` of an unordered set. -/
def set_erase (s : uset) (k : Nat) : uset := s.filter (fun x => x != k)

/-- `s.insert(first, last)`: insertion of a range of values, in order. -/
def set_insert_range (s : uset) (ks : List Nat) : uset := ks.foldl set_insert s

/-- A `boost::unordered_map<K, V>` whose keys are cell ids or process numbers: the
list of its (key, value) pairs, every key at most once. -/
abbrev umap (V : Type) := List (Nat × V)

/-- The value stored under `k`, if there is one: `m.at(k)` when it does not throw. -/
def map_find {V : Type} : umap V → Nat → Option V
  | [], _ => none
  | (k', v) :: t, k => if k' = k then some v else map_find t k

/-- The test `m.count(k) > 0`. -/
def map_has {V : Type} (m : umap V) (k : Nat) : Bool := (map_find m k).isSome

/-- The assignment `m[k] = v`. -/
def map_set {V : Type} : umap V → Nat → V → umap V
  | [], k, v => [(k, v)]
  | (k', v') :: t, k, v => if k' = k then (k, v) :: t else (k', v') :: map_set t k v

/-- The statement `m[k];`: a default constructed value is stored under `k` unless
`k` already has a value. -/
def map_touch {V : Type} [Inhabited V] : umap V → Nat → umap V
  | [], k => [(k, default)]
  | (k', v') :: t, k => if k' = k then (k', v') :: t else (k', v') :: map_touch t k

/-- `m.erase(k)` of an unordered map. -/
def map_erase {V : Type} (m : umap V) (k : Nat) : umap V := m.filter (fun p => p.1 != k)

/-- The keys of a map, in iteration order. -/
def map_keys {V : Type} (m : umap V) : List Nat := m.map Prod.fst

/-! ## Loops over `uint64_t` counters -/

/-- The values taken by `v` in `for (v = start; v < bound; v += step)`. -/
def for_lt_loop (bound step : Nat) : Nat → Nat → List Nat
  | 0, _ => []
  | fuel + 1, v => if v < bound then v :: for_lt_loop bound step fuel (u64 (v + step)) else []

/-- The values taken by `v` in `for (v = start; v < bound; v += step)`; with a step of
at least 1 the loop ends within `bound - start` rounds. -/
def for_lt (start bound step : Nat) : List Nat := for_lt_loop bound step (bound - start) start

/-- The values taken by `v` in `for (v = start; v <= stop; v += step)`. -/
def for_le_loop (stop step : Nat) : Nat → Nat → List Nat
  | 0, _ => []
  | fuel + 1, v => if v ≤ stop then v :: for_le_loop stop step fuel (u64 (v + step)) else []

/-- The values taken by `v` in `for (v = start; v <= stop; v += step)`; with a step of
at least 1 and `stop < 2^64 - step` the loop ends within `stop - start + 1` rounds. -/
def for_le (start stop step : Nat) : List Nat :=
  for_le_loop stop step (stop + 1 - start) start

/-- Conversion of an `int` to `uint64_t`. -/
def int_to_u64 (z : Int) : Nat := (z % (2 ^ 64 : Int)).toNat

/-! ## class Dccrg -/

/-- The data members of `class Dccrg` on one process.  `index` is the `Index` base
class, `rank` and `comm_size` are `comm.rank()` and `comm.size()`.  The Zoltan
handle and the MPI request tables are left out.  Cell weights (`double` in the
source) are only stored and copied; they are rationals here. -/
structure Dccrg (UserData : Type) where
  index : Index
  initialized : Bool
  neighborhood_size : Nat
  rank : Nat
  comm_size : Nat
  periodic : Bool × Bool × Bool
  cells : umap UserData
  neighbors : umap (List Nat)
  neighborhood_of : List neighborhood_item_t
  neighborhood_to : List neighborhood_item_t
  neighbors_to : umap (List Nat)
  cell_process : umap Nat
  cells_with_remote_neighbors : uset
  remote_cells_with_local_neighbors : uset
  remote_neighbors : umap UserData
  cells_to_send : umap (List Nat)
  cells_to_receive : umap (List Nat)
  added_cells : uset
  removed_cells : uset
  incoming_data : umap (List UserData)
  outgoing_data : umap (List UserData)
  cells_to_refine : uset
  cells_to_unrefine : uset
  cells_not_to_unrefine : uset
  refined_cell_data : umap UserData
  unrefined_cell_data : umap UserData
  pin_requests : umap Int
  new_pin_requests : umap Int
  processes_per_part : List Nat
  partitioning_options : List (List (String × String))
  no_load_balancing : Bool
  reserved_options : List String
  cell_weights : umap Rat
deriving DecidableEq

namespace Dccrg

variable {UserData : Type}

/-- `Dccrg::operator []`: the payload the returned pointer refers to, `none` for
`NULL`. -/
def operator_index (g : Dccrg UserData) (cell : Nat) : Option UserData :=
  if map_has g.cells cell then map_find g.cells cell
  else if map_has g.remote_neighbors cell then map_find g.remote_neighbors cell
  else if map_has g.refined_cell_data cell then map_find g.refined_cell_data cell
  else if map_has g.unrefined_cell_data cell then map_find g.unrefined_cell_data cell
  else none

/-- `Dccrg::is_local`. -/
def is_local (g : Dccrg UserData) (cell : Nat) : Bool :=
  map_has g.cell_process cell && map_find g.cell_process cell == some g.rank

/-- `Dccrg::get_removed_cells`. -/
def get_removed_cells (g : Dccrg UserData) : List Nat := map_keys g.unrefined_cell_data

/-- `Dccrg::get_parent`. -/
def get_parent (g : Dccrg UserData) (cell : Nat) : Nat :=
  if ¬ map_has g.cell_process cell then 0
  else if g.index.get_refinement_level cell = 0 then cell
  else
    let parent := g.index.get_cell_from_indices (g.index.get_indices cell)
      (g.index.get_refinement_level cell - 1)
    if map_has g.cell_process parent then parent else cell

/-- `Dccrg::get_child`. -/
def get_child (g : Dccrg UserData) (cell : Nat) : Nat :=
  if ¬ map_has g.cell_process cell then error_cell
  else
    let refinement_level := g.index.get_refinement_level cell
    if refinement_level = g.index.max_refinement_level then cell
    else
      let child := g.index.get_cell_from_indices (g.index.get_indices cell)
        (refinement_level + 1)
      if map_has g.cell_process child then child else cell

/-- `Dccrg::get_all_children`. -/
def get_all_children (g : Dccrg UserData) (cell : Nat) : List Nat :=
  if cell = error_cell then []
  else if ¬ map_has g.cell_process cell then []
  else
    let refinement_level := g.index.get_refinement_level cell
    if refinement_level ≥ g.index.max_refinement_level then []
    else
      let indices := g.index.get_indices cell
      let refinement_level := refinement_level + 1
      let index_offset := shl1 (g.index.max_refinement_level - refinement_level)
      let offsets := for_lt 0 (u64 (2 * index_offset)) index_offset
      offsets.flatMap fun z_index_offset =>
        offsets.flatMap fun y_index_offset =>
          offsets.map fun x_index_offset =>
            g.index.get_cell_from_indices
              (u64 (indices.1 + x_index_offset),
               u64 (indices.2.1 + y_index_offset),
               u64 (indices.2.2 + z_index_offset))
              refinement_level

/-- `Dccrg::get_siblings`. -/
def get_siblings (g : Dccrg UserData) (cell : Nat) : List Nat :=
  let refinement_level := g.index.get_refinement_level cell
  if refinement_level < 0 ∨ refinement_level > g.index.max_refinement_level then []
  else if refinement_level = 0 then [cell]
  else g.get_all_children (g.get_parent cell)

/-- The recursion of `Dccrg::get_existing_cell (indices, minimum, maximum)`; every
call halves the range of levels, `fuel` bounds the depth. -/
def get_existing_cell_loop (g : Dccrg UserData) (indices : indices_t) :
    Nat → Int → Int → Nat
  | 0, _, _ => error_cell
  | fuel + 1, minimum_refinement_level, maximum_refinement_level =>
    if indices.1 ≥ u64 (g.index.x_length * shl1 g.index.max_refinement_level) then error_cell
    else if indices.2.1 ≥ u64 (g.index.y_length * shl1 g.index.max_refinement_level) then
      error_cell
    else if indices.2.2 ≥ u64 (g.index.z_length * shl1 g.index.max_refinement_level) then
      error_cell
    else if minimum_refinement_level > maximum_refinement_level then error_cell
    else
      let average_refinement_level :=
        (maximum_refinement_level + minimum_refinement_level).tdiv 2
      let average_cell := g.index.get_cell_from_indices indices average_refinement_level
      if ¬ map_has g.cell_process average_cell then
        -- search for larger cell
        if average_refinement_level > minimum_refinement_level then
          let larger_cell := get_existing_cell_loop g indices fuel
            minimum_refinement_level (average_refinement_level - 1)
          if ¬ map_has g.cell_process larger_cell then 0 else larger_cell
        else 0
      else
        -- search for smaller cell
        if average_refinement_level < maximum_refinement_level then
          let smaller_cell := get_existing_cell_loop g indices fuel
            (average_refinement_level + 1) maximum_refinement_level
          if ¬ map_has g.cell_process smaller_cell then average_cell else smaller_cell
        else average_cell

/-- `Dccrg::get_existing_cell (indices, minimum_refinement_level,
maximum_refinement_level)`.  The recursion is at most
`maximum - minimum + 1` deep; with an empty range of levels the result is
`error_cell`, as in the source. -/
def get_existing_cell (g : Dccrg UserData) (indices : indices_t)
    (minimum_refinement_level maximum_refinement_level : Int) : Nat :=
  g.get_existing_cell_loop indices
    (maximum_refinement_level - minimum_refinement_level + 1).toNat
    minimum_refinement_level maximum_refinement_level

/-- `Dccrg::find_cells`. -/
def find_cells (g : Dccrg UserData) (indices_min indices_max : indices_t)
    (minimum_refinement_level maximum_refinement_level : Int) : List Nat :=
  let index_increase := shl1 (g.index.max_refinement_level - maximum_refinement_level)
  let visited : List indices_t :=
    (for_le indices_min.2.2 indices_max.2.2 index_increase).flatMap fun i2 =>
      (for_le indices_min.2.1 indices_max.2.1 index_increase).flatMap fun i1 =>
        (for_le indices_min.1 indices_max.1 index_increase).map fun i0 => (i0, i1, i2)
  visited.foldl
    (fun result indices =>
      let cell := g.get_existing_cell indices minimum_refinement_level
        maximum_refinement_level
      if cell ≠ g.get_child cell then result
      else if cell ∈ result then result
      else result ++ [cell])
    []

/-- The body of the loop over the dimensions in `Dccrg::indices_from_neighborhood`,
for one dimension: the shifted index, or `none` when the neighbourhood item falls
outside of the grid in this dimension. -/
def indices_from_neighborhood_dimension (is_periodic : Bool)
    (grid_length size_in_indices index : Nat) (offset : Int) : Option Nat :=
  if offset < 0 then
    if is_periodic then
      some ((List.range offset.natAbs).foldl
        (fun temp _ =>
          if temp ≥ size_in_indices then usub temp size_in_indices
          else usub grid_length size_in_indices)
        index)
    else if index < u64 (offset.natAbs * size_in_indices) then none
    else some (u64 (index + u64 (int_to_u64 offset * size_in_indices)))
  else
    if is_periodic then
      some ((List.range offset.toNat).foldl
        (fun temp _ =>
          if temp < usub grid_length size_in_indices then u64 (temp + size_in_indices)
          else 0)
        index)
    else if u64 (index + u64 (int_to_u64 offset * size_in_indices)) ≥ grid_length then none
    else some (u64 (index + u64 (int_to_u64 offset * size_in_indices)))

/-- `Dccrg::indices_from_neighborhood`. -/
def indices_from_neighborhood (g : Dccrg UserData) (indices : indices_t)
    (size_in_indices : Nat) (neighborhood : List neighborhood_item_t) : List indices_t :=
  let grid_length : indices_t :=
    (u64 (g.index.x_length * shl1 g.index.max_refinement_level),
     u64 (g.index.y_length * shl1 g.index.max_refinement_level),
     u64 (g.index.z_length * shl1 g.index.max_refinement_level))
  neighborhood.map fun offsets =>
    match indices_from_neighborhood_dimension g.periodic.1 grid_length.1 size_in_indices
        indices.1 offsets.1 with
    | none => (error_index, error_index, error_index)
    | some t0 =>
      match indices_from_neighborhood_dimension g.periodic.2.1 grid_length.2.1
          size_in_indices indices.2.1 offsets.2.1 with
      | none => (error_index, error_index, error_index)
      | some t1 =>
        match indices_from_neighborhood_dimension g.periodic.2.2 grid_length.2.2
            size_in_indices indices.2.2 offsets.2.2 with
        | none => (error_index, error_index, error_index)
        | some t2 => (t0, t1, t2)

/-- The body of the loop over `indices_of` in `Dccrg::find_neighbors_of`: the
neighbors found at one item of the neighbourhood. -/
def find_neighbors_of_at (g : Dccrg UserData) (refinement_level : Int) (cell_size : Nat)
    (max_diff : Int) (index_of : indices_t) : List Nat :=
  if index_of.1 = error_index then [0]
  else
    let neighbor := g.get_existing_cell index_of
      (if refinement_level < max_diff then 0 else refinement_level - max_diff)
      (if refinement_level ≤ g.index.max_refinement_level - max_diff
        then refinement_level + max_diff else g.index.max_refinement_level)
    let neighbor_ref_lvl := g.index.get_refinement_level neighbor
    if neighbor_ref_lvl ≤ refinement_level then [neighbor]
    else
      -- add all cells at current search indices within size of given cell
      let index_max : indices_t :=
        (usub (u64 (index_of.1 + cell_size)) 1,
         usub (u64 (index_of.2.1 + cell_size)) 1,
         usub (u64 (index_of.2.2 + cell_size)) 1)
      g.find_cells index_of index_max
        (max 0 (refinement_level - max_diff))
        (min g.index.max_refinement_level (refinement_level + max_diff))

/-- `Dccrg::find_neighbors_of (cell, max_diff, has_children)`. -/
def find_neighbors_of (g : Dccrg UserData) (cell : Nat) (max_diff : Int)
    (has_children : Bool) : List Nat :=
  let refinement_level := g.index.get_refinement_level cell
  if ¬ map_has g.cell_process cell then []
  else if !has_children ∧ cell ≠ g.get_child cell then []
  else
    let cell_size := g.index.get_cell_size_in_indices cell
    let indices_of := g.indices_from_neighborhood (g.index.get_indices cell) cell_size
      g.neighborhood_of
    indices_of.flatMap (g.find_neighbors_of_at refinement_level cell_size max_diff)

/-- The searches of `Dccrg::find_neighbors_to`: the cells of refinement level
`level` without children at the items of `neighborhood_to` around `indices`, for
a cell size of `size_in_indices`. -/
def neighbors_to_at (g : Dccrg UserData) (indices : indices_t) (size_in_indices : Nat)
    (level : Int) : List Nat :=
  (g.indices_from_neighborhood indices size_in_indices g.neighborhood_to).flatMap
    fun search_index =>
      if search_index.1 = error_index then []
      else
        let found := g.index.get_cell_from_indices search_index level
        -- only add if found cell doesn't have children
        if found = g.get_child found then [found] else []

/-- `Dccrg::find_neighbors_to (cell)`. -/
def find_neighbors_to (g : Dccrg UserData) (cell : Nat) : List Nat :=
  if cell = 0 ∨ cell > g.index.last_cell ∨ ¬ map_has g.cell_process cell
      ∨ cell ≠ g.get_child cell then []
  else
    let refinement_level := g.index.get_refinement_level cell
    -- neighbors_to larger than given cell
    let larger :=
      if refinement_level > 0 then
        let parent := g.get_parent cell
        g.neighbors_to_at (g.index.get_indices parent)
          (g.index.get_cell_size_in_indices parent) (refinement_level - 1)
      else []
    -- neighbors_to smaller than given cell
    let smaller :=
      if refinement_level < g.index.max_refinement_level then
        let children := g.get_all_children cell
        let size_in_indices := g.index.get_cell_size_in_indices (children.headD 0)
        children.flatMap fun child =>
          g.neighbors_to_at (g.index.get_indices child) size_in_indices
            (refinement_level + 1)
      else []
    -- neighbors_to of the same size as given cell
    let same := g.neighbors_to_at (g.index.get_indices cell)
      (g.index.get_cell_size_in_indices cell) refinement_level
    set_insert_range [] (larger ++ smaller ++ same)

/-- `Dccrg::indices_overlap` for one dimension. -/
def indices_overlap (index1 size1 index2 size2 : Nat) : Bool :=
  decide (u64 (index1 + size1) > index2 ∧ index1 < u64 (index2 + size2))

/-- `Dccrg::overlapping_indices`. -/
def overlapping_indices (g : Dccrg UserData) (cell1 cell2 : Nat) : Int :=
  if ¬ map_has g.cell_process cell1 ∨ ¬ map_has g.cell_process cell2 then 0
  else
    let indices1 := g.index.get_indices cell1
    let indices2 := g.index.get_indices cell2
    let size1 := g.index.get_cell_size_in_indices cell1
    let size2 := g.index.get_cell_size_in_indices cell2
    (if indices_overlap indices1.1 size1 indices2.1 size2 then 1 else 0)
    + (if indices_overlap indices1.2.1 size1 indices2.2.1 size2 then 1 else 0)
    + (if indices_overlap indices1.2.2 size1 indices2.2.2 size2 then 1 else 0)

/-- The body of the loop over the dimensions in `Dccrg::is_neighbor`: the distance
in indices between the two cells in one dimension. -/
def is_neighbor_distance (is_periodic : Bool) (grid_length index1 index2 cell1_size
    cell2_size : Nat) : Nat :=
  if index1 ≤ index2 then
    let distance :=
      if index2 ≤ u64 (index1 + cell1_size) then 0
      else usub index2 (u64 (index1 + cell1_size))
    if is_periodic then
      let distance_to_end := usub grid_length (u64 (index2 + cell2_size))
      min distance (u64 (index1 + distance_to_end))
    else distance
  else
    let distance :=
      if index1 ≤ u64 (index2 + cell2_size) then 0
      else usub index1 (u64 (index2 + cell2_size))
    if is_periodic then
      let distance_to_end := usub grid_length (u64 (index1 + cell1_size))
      min distance (u64 (index2 + distance_to_end))
    else distance

/-- `Dccrg::is_neighbor`. -/
def is_neighbor (g : Dccrg UserData) (cell1 cell2 : Nat) : Bool :=
  let indices1 := g.index.get_indices cell1
  let indices2 := g.index.get_indices cell2
  let cell1_size := g.index.get_cell_size_in_indices cell1
  let cell2_size := g.index.get_cell_size_in_indices cell2
  let grid_length : indices_t :=
    (u64 (g.index.x_length * shl1 g.index.max_refinement_level),
     u64 (g.index.y_length * shl1 g.index.max_refinement_level),
     u64 (g.index.z_length * shl1 g.index.max_refinement_level))
  let max_distance :=
    max (max (max 0
      (is_neighbor_distance g.periodic.1 grid_length.1 indices1.1 indices2.1
        cell1_size cell2_size))
      (is_neighbor_distance g.periodic.2.1 grid_length.2.1 indices1.2.1 indices2.2.1
        cell1_size cell2_size))
      (is_neighbor_distance g.periodic.2.2 grid_length.2.2 indices1.2.2 indices2.2.2
        cell1_size cell2_size)
  if g.neighborhood_size = 0 then
    decide (max_distance < cell1_size ∧ g.overlapping_indices cell1 cell2 ≥ 2)
  else
    decide (max_distance < u64 (g.neighborhood_size * cell1_size))

/-- `Dccrg::find_neighbors_to (cell, found_neighbors_of)`. -/
def find_neighbors_to_from (g : Dccrg UserData) (cell : Nat)
    (found_neighbors_of : List Nat) : List Nat :=
  if cell = 0 ∨ cell > g.index.last_cell ∨ ¬ map_has g.cell_process cell
      ∨ cell ≠ g.get_child cell then []
  else
    -- get neighbors_to of given cell, first from its neighbors_of
    let from_neighbors_of := found_neighbors_of.filter fun neighbor_of =>
      neighbor_of != 0 && g.is_neighbor neighbor_of cell
    let refinement_level := g.index.get_refinement_level cell
    -- find cells larger than given cell for neighbors_to list
    let larger :=
      if refinement_level > 0 then
        let parent := g.get_parent cell
        g.neighbors_to_at (g.index.get_indices parent)
          (g.index.get_cell_size_in_indices parent) (refinement_level - 1)
      else []
    set_insert_range [] (from_neighbors_of ++ larger)

end Dccrg

end dccrg
namespace dccrg

namespace Dccrg

variable {UserData : Type}

/-! ### Neighbor bookkeeping

Where the source calls `m.at(k)` for a key that `m` does not hold, an exception ends
the program; the functions below then return `none`. -/

/-- `Dccrg::update_neighbors`. -/
def update_neighbors (g : Dccrg UserData) (cell : Nat) : Option (Dccrg UserData) :=
  if ¬ map_has g.cell_process cell then some g
  else if map_find g.cell_process cell ≠ some g.rank then some g
  else if cell ≠ g.get_child cell then some g
  else if ¬ map_has g.neighbors cell then none
  else if ¬ map_has g.neighbors_to cell then none
  else
    let found := g.find_neighbors_of cell 1 false
    some { g with
      neighbors := map_set g.neighbors cell found
      neighbors_to := map_set g.neighbors_to cell (g.find_neighbors_to_from cell found) }

/-- The two loops of `Dccrg::update_remote_neighbor_info (cell)` over a list of
neighbors of `cell`: the sets `cells_with_remote_neighbors` and
`remote_cells_with_local_neighbors` after the loop.  `skip_zero` tells whether the
loop skips the entries that are 0 (the loop over `neighbors` does, the loop over
`neighbors_to` does not). -/
def remote_neighbor_info_loop (g : Dccrg UserData) (cell : Nat) (skip_zero : Bool)
    (list : List Nat) (sets : uset × uset) : Option (uset × uset) :=
  list.foldlM
    (fun sets neighbor =>
      if skip_zero ∧ neighbor = 0 then some sets
      else
        match map_find g.cell_process neighbor with
        | none => none
        | some process =>
          if process ≠ g.rank then
            some (set_insert sets.1 cell, set_insert sets.2 neighbor)
          else some sets)
    sets

/-- `Dccrg::update_remote_neighbor_info (cell)`, as a function of the two sets it
changes. -/
def remote_neighbor_info_of (g : Dccrg UserData) (cell : Nat) (sets : uset × uset) :
    Option (uset × uset) :=
  if ¬ map_has g.cells cell then some sets
  else if cell ≠ g.get_child cell then some sets
  else
    match map_find g.neighbors cell, map_find g.neighbors_to cell with
    | some neighbors_of, some neighbors_to =>
      (remote_neighbor_info_loop g cell true neighbors_of (set_erase sets.1 cell, sets.2)).bind
        (remote_neighbor_info_loop g cell false neighbors_to)
    | _, _ => none

/-- `Dccrg::update_remote_neighbor_info (cell)`. -/
def update_remote_neighbor_info_cell (g : Dccrg UserData) (cell : Nat) :
    Option (Dccrg UserData) :=
  (g.remote_neighbor_info_of cell
    (g.cells_with_remote_neighbors, g.remote_cells_with_local_neighbors)).map fun sets =>
    { g with
      cells_with_remote_neighbors := sets.1
      remote_cells_with_local_neighbors := sets.2 }

/-- `Dccrg::update_remote_neighbor_info (void)`. -/
def update_remote_neighbor_info (g : Dccrg UserData) : Option (Dccrg UserData) :=
  ((map_keys g.cells).foldlM
    (fun sets cell =>
      if cell ≠ g.get_child cell then some sets
      else g.remote_neighbor_info_of cell sets)
    (([], []) : uset × uset)).map fun sets =>
    { g with
      cells_with_remote_neighbors := sets.1
      remote_cells_with_local_neighbors := sets.2 }

/-- Insertion of `cell` into the set stored under `process` in a map of sets (the
`unique_cells_to_send` and `unique_cells_to_receive` of
`recalculate_neighbor_update_send_receive_lists`). -/
def map_set_insert (m : umap uset) (process cell : Nat) : umap uset :=
  map_set m process (set_insert ((map_find m process).getD []) cell)

/-- `std::sort` of a vector of cell ids. -/
def sort_cells (l : List Nat) : List Nat := l.insertionSort (fun a b => a ≤ b)

/-- The loop over `cells_with_remote_neighbors` of
`Dccrg::recalculate_neighbor_update_send_receive_lists`: the maps
`unique_cells_to_send` and `unique_cells_to_receive`. -/
def unique_cells_to_send_receive (g : Dccrg UserData) : Option (umap uset × umap uset) :=
  g.cells_with_remote_neighbors.foldlM
    (fun (acc : umap uset × umap uset) cell =>
      match map_find g.neighbors cell, map_find g.neighbors_to cell with
      | some neighbors_of, some neighbors_to =>
        -- data must be received from neighbors_of
        (neighbors_of.foldlM
          (fun (receive : umap uset) neighbor =>
            if neighbor = 0 then some receive
            else
              match map_find g.cell_process neighbor with
              | none => none
              | some process =>
                if process ≠ g.rank then some (map_set_insert receive process neighbor)
                else some receive)
          acc.2).bind fun receive =>
        -- data must be sent to neighbors_to
        (neighbors_to.foldlM
          (fun (send : umap uset) neighbor =>
            if neighbor = 0 then some send
            else
              match map_find g.cell_process neighbor with
              | none => none
              | some process =>
                if process ≠ g.rank then some (map_set_insert send process cell)
                else some send)
          acc.1).map fun send => (send, receive)
      | _, _ => none)
    (([], []) : umap uset × umap uset)

/-- `Dccrg::recalculate_neighbor_update_send_receive_lists`. -/
def recalculate_neighbor_update_send_receive_lists (g : Dccrg UserData) :
    Option (Dccrg UserData) :=
  g.unique_cells_to_send_receive.map fun acc =>
    { g with
      cells_to_send := acc.1.map fun item => (item.1, sort_cells item.2)
      cells_to_receive := acc.2.map fun item => (item.1, sort_cells item.2) }

/-! ### Refinement requests -/

/-- Removal of every cell of `siblings` from `cells_to_unrefine`. -/
def erase_unrefines (cells_to_unrefine : uset) (siblings : List Nat) : uset :=
  siblings.foldl set_erase cells_to_unrefine

/-- `Dccrg::dont_unrefine`. -/
def dont_unrefine (g : Dccrg UserData) (cell : Nat) : Dccrg UserData :=
  if cell = error_cell then g
  else if ¬ map_has g.cell_process cell then g
  else if ¬ map_has g.cells cell then g
  else if g.index.get_refinement_level cell = 0 then g
  else if cell ≠ g.get_child cell then g
  else
    -- record only one sibling / process
    let siblings := g.get_all_children (g.get_parent cell)
    if siblings.any (fun sibling => decide (sibling ∈ g.cells_not_to_unrefine)) then g
    else
      { g with
        -- override local unrefines
        cells_to_unrefine := erase_unrefines g.cells_to_unrefine siblings
        cells_not_to_unrefine := set_insert g.cells_not_to_unrefine cell }

/-- The loops of `Dccrg::refine_completely` over `neighbors.at(cell)` and
`neighbors_to.at(cell)`: the unrefines of the siblings of every listed cell that is
not smaller than the refined cell are removed. -/
def override_neighbor_unrefines (g : Dccrg UserData) (refinement_level : Int)
    (list : List Nat) (cells_to_unrefine : uset) : uset :=
  list.foldl
    (fun cells_to_unrefine neighbor =>
      if g.index.get_refinement_level neighbor ≤ refinement_level then
        erase_unrefines cells_to_unrefine (g.get_all_children (g.get_parent neighbor))
      else cells_to_unrefine)
    cells_to_unrefine

/-- `Dccrg::refine_completely`. -/
def refine_completely (g : Dccrg UserData) (cell : Nat) : Option (Dccrg UserData) :=
  if cell = error_cell then some g
  else if ¬ map_has g.cell_process cell then some g
  else if ¬ map_has g.cells cell then some g
  else
    let refinement_level := g.index.get_refinement_level cell
    if refinement_level > g.index.max_refinement_level then some g
    -- not if cell has children
    else if cell ≠ g.get_child cell then some g
    else if refinement_level = g.index.max_refinement_level then some (g.dont_unrefine cell)
    else
      -- override local unrefines
      let unrefines := erase_unrefines g.cells_to_unrefine
        (g.get_all_children (g.get_parent cell))
      match map_find g.neighbors cell, map_find g.neighbors_to cell with
      | some neighbors_of, some neighbors_to =>
        some { g with
          cells_to_refine := set_insert g.cells_to_refine cell
          cells_to_unrefine :=
            g.override_neighbor_unrefines refinement_level neighbors_to
              (g.override_neighbor_unrefines refinement_level neighbors_of unrefines) }
      | _, _ => none

/-- `Dccrg::unrefine_completely`. -/
def unrefine_completely (g : Dccrg UserData) (cell : Nat) : Dccrg UserData :=
  if cell = error_cell then g
  else if ¬ map_has g.cell_process cell then g
  else if ¬ map_has g.cells cell then g
  else if g.index.get_refinement_level cell = 0 then g
  else
    let siblings := g.get_all_children (g.get_parent cell)
    -- don't unrefine if any sibling has children or cannot be unrefined
    if siblings.any (fun sibling =>
        decide (sibling ≠ g.get_child sibling) ||
        decide (sibling ∈ g.cells_to_refine) ||
        decide (sibling ∈ g.cells_not_to_unrefine)) then g
    else
      -- unrefinement succeeds if parent of unrefined will fulfill requirements
      let parent := g.get_parent cell
      let refinement_level := g.index.get_refinement_level parent
      let neighbors := g.find_neighbors_of parent 2 true
      let max_diff : Int := 1
      if neighbors.any (fun neighbor =>
          let neighbor_ref_lvl := g.index.get_refinement_level neighbor
          decide (neighbor_ref_lvl > refinement_level + max_diff) ||
          (decide (neighbor_ref_lvl = refinement_level + max_diff) &&
            decide (neighbor ∈ g.cells_to_refine))) then g
      -- record only one sibling to unrefine / process
      else if siblings.any (fun sibling => decide (sibling ∈ g.cells_to_unrefine)) then g
      else { g with cells_to_unrefine := set_insert g.cells_to_unrefine cell }

/-! ### The parts of `stop_refining` that run on one process -/

/-- The test and insertion that `Dccrg::induce_refines` applies to a local neighbor
of a refined cell. -/
def induce_local (g : Dccrg UserData) (refined : Nat) (list : List Nat)
    (unique_induced_refines : uset) : Option uset :=
  list.foldlM
    (fun unique_induced_refines neighbor =>
      if neighbor = 0 then some unique_induced_refines
      else
        match map_find g.cell_process neighbor with
        | none => none
        | some process =>
          if process ≠ g.rank then some unique_induced_refines
          else if g.index.get_refinement_level neighbor
              < g.index.get_refinement_level refined
              ∧ neighbor ∉ g.cells_to_refine then
            some (set_insert unique_induced_refines neighbor)
          else some unique_induced_refines)
    unique_induced_refines

/-- The body of the `while` loop of `Dccrg::induce_refines` on one process, given
the gathered `all_new_refines`: the state with the induced refines added to
`cells_to_refine`, and the next `new_refines`. -/
def induce_refines_round (g : Dccrg UserData) (all_new_refines : List (List Nat)) :
    Option (Dccrg UserData × List Nat) :=
  -- induced refines on this process
  all_new_refines[g.rank]?.bind fun own_refines =>
  (own_refines.foldlM
    (fun unique_induced_refines refined =>
      match map_find g.neighbors refined, map_find g.neighbors_to refined with
      | some neighbors_of, some neighbors_to =>
        (g.induce_local refined neighbors_of unique_induced_refines).bind
          (g.induce_local refined neighbors_to)
      | _, _ => none)
    ([] : uset)).bind fun local_induced =>
  -- refines induced here by other processes
  ((List.range g.comm_size).foldlM
    (fun unique_induced_refines process =>
      if process = g.rank then some unique_induced_refines
      else
        all_new_refines[process]?.map fun (refines : List Nat) =>
          refines.foldl
            (fun unique_induced_refines refined =>
              if refined ∉ g.remote_cells_with_local_neighbors then unique_induced_refines
              else
                g.cells_with_remote_neighbors.foldl
                  (fun unique_induced_refines loc =>
                    if g.is_neighbor loc refined
                        ∧ g.index.get_refinement_level loc
                          < g.index.get_refinement_level refined
                        ∧ loc ∉ g.cells_to_refine then
                      set_insert unique_induced_refines loc
                    else unique_induced_refines)
                  unique_induced_refines)
            unique_induced_refines)
    local_induced).map fun unique_induced_refines =>
  ({ g with cells_to_refine := set_insert_range g.cells_to_refine unique_induced_refines },
    unique_induced_refines)

/-- The first loop of `Dccrg::override_unrefines`: the local unrefines that are not
overridden (`final_unrefines`). -/
def final_unrefines (g : Dccrg UserData) : uset :=
  let max_diff : Int := 1
  g.cells_to_unrefine.foldl
    (fun final_unrefines unrefined =>
      -- don't unrefine if any sibling cannot be
      let parent := g.get_parent unrefined
      let siblings := g.get_all_children parent
      if siblings.any (fun sibling =>
          decide (sibling ∈ g.cells_to_refine) ||
          decide (sibling ∈ g.cells_not_to_unrefine)) then final_unrefines
      else
        -- ...parent of unrefined wouldn't fulfill requirements
        let refinement_level := g.index.get_refinement_level parent
        let neighbors := g.find_neighbors_of parent 2 true
        if neighbors.any (fun neighbor =>
            decide (g.index.get_refinement_level neighbor = refinement_level + max_diff) &&
            decide (neighbor ∈ g.cells_to_refine)) then final_unrefines
        else set_insert final_unrefines unrefined)
    []

end Dccrg

end dccrg
namespace dccrg

namespace Dccrg

variable {UserData : Type}

/-- `m[process].push_back(cell)` for a map of vectors. -/
def map_push (m : umap (List Nat)) (process cell : Nat) : umap (List Nat) :=
  map_set m process ((map_find m process).getD [] ++ [cell])

/-- The clearing of containers at the start of `Dccrg::execute_refines`. -/
def execute_refines_clear (g : Dccrg UserData) : Dccrg UserData :=
  { g with
    remote_neighbors := []
    cells_to_send := []
    cells_to_receive := []
    refined_cell_data := []
    unrefined_cell_data := []
    incoming_data := []
    outgoing_data := [] }

/-- The loop over the children of a refined cell in `Dccrg::execute_refines` that
adds them to the grid. -/
def add_children [Inhabited UserData] (g : Dccrg UserData) (process_of_refined : Nat)
    (children : List Nat) : Dccrg UserData :=
  children.foldl
    (fun g child =>
      let g := { g with cell_process := map_set g.cell_process child process_of_refined }
      if g.rank = process_of_refined then
        { g with
          cells := map_touch g.cells child
          neighbors := map_touch g.neighbors child
          neighbors_to := map_touch g.neighbors_to child }
      else g)
    g

/-- The inheritance of a value stored under `refined` in `Dccrg::execute_refines`
(pin requests, new pin requests, weights): every child gets the value and `refined`
loses it. -/
def inherit {V : Type} (m : umap V) (refined : Nat) (children : List Nat) : umap V :=
  match map_find m refined with
  | none => m
  | some v => map_erase (children.foldl (fun m child => map_set m child v) m) refined

/-- The loops of `Dccrg::execute_refines` that put the local cells of a neighbor
list of a refined cell into `update_neighbors`.  The loop over `neighbors` skips
the entries that are 0, the loop over `neighbors_to` does not. -/
def update_local_neighbors (g : Dccrg UserData) (skip_zero : Bool) (list : List Nat)
    (update_neighbors : uset) : Option uset :=
  list.foldlM
    (fun update_neighbors neighbor =>
      if skip_zero ∧ neighbor = 0 then some update_neighbors
      else
        match map_find g.cell_process neighbor with
        | none => none
        | some process =>
          if process = g.rank then some (set_insert update_neighbors neighbor)
          else some update_neighbors)
    update_neighbors

/-- The body of the loop over `cells_to_refine` in `Dccrg::execute_refines`.  The
accumulator holds the grid, `new_cells` and `update_neighbors`. -/
def execute_refines_refine [Inhabited UserData]
    (acc : Dccrg UserData × List Nat × uset) (refined : Nat) :
    Option (Dccrg UserData × List Nat × uset) :=
  let g := acc.1
  let new_cells := acc.2.1
  let update_neighbors := acc.2.2
  match map_find g.cell_process refined with
  | none => none
  | some process_of_refined =>
    -- move user data of refined cells into refined_cell_data
    (if g.rank = process_of_refined then
      match map_find g.cells refined with
      | none => none
      | some data =>
        some { g with
          refined_cell_data := map_set g.refined_cell_data refined data
          cells := map_erase g.cells refined }
    else some g).bind fun g =>
    -- add children of refined cells into the grid
    let children := g.get_all_children refined
    let g := g.add_children process_of_refined children
    let new_cells := if g.rank = process_of_refined then new_cells ++ children else new_cells
    -- children of refined cells inherit their pin request status and their weight
    let g := { g with
      pin_requests := inherit g.pin_requests refined children
      new_pin_requests := inherit g.new_pin_requests refined children
      cell_weights :=
        if g.rank = process_of_refined then inherit g.cell_weights refined children
        else g.cell_weights }
    -- use local neighbor lists to find cells whose neighbor lists have to updated
    (if g.rank = process_of_refined then
      match map_find g.neighbors refined, map_find g.neighbors_to refined with
      | some neighbors_of, some neighbors_to =>
        (g.update_local_neighbors true neighbors_of
          (set_insert_range update_neighbors children)).bind
          (g.update_local_neighbors false neighbors_to)
      | _, _ => none
    else some update_neighbors).map fun update_neighbors =>
    -- without using local neighbor lists figure out rest of the neighbor lists
    let update_neighbors :=
      if refined ∈ g.remote_cells_with_local_neighbors then
        (g.find_neighbors_of refined 2 true).foldl
          (fun update_neighbors neighbor =>
            if neighbor = 0 then update_neighbors
            else if g.is_local neighbor then set_insert update_neighbors neighbor
            else update_neighbors)
          update_neighbors
      else update_neighbors
    (g, new_cells, update_neighbors)

/-- The loop over `cells_to_unrefine` in `Dccrg::execute_refines` that collects
`parents_of_unrefined` and `all_to_unrefine`. -/
def collect_unrefines (g : Dccrg UserData) : uset × uset :=
  g.cells_to_unrefine.foldl
    (fun (acc : uset × uset) unrefined =>
      let parent_of_unrefined := g.get_parent unrefined
      (set_insert acc.1 parent_of_unrefined,
       set_insert_range acc.2 (g.get_all_children parent_of_unrefined)))
    ([], [])

/-- The body of the loop over `all_to_unrefine` in `Dccrg::execute_refines`.  The
accumulator holds the grid and `update_neighbors`. -/
def execute_refines_unrefine (acc : Dccrg UserData × uset) (unrefined : Nat) :
    Option (Dccrg UserData × uset) :=
  let g := acc.1
  let parent_of_unrefined := g.get_parent unrefined
  match map_find g.cell_process parent_of_unrefined, map_find g.cell_process unrefined with
  | some process_of_parent, some process_of_unrefined =>
    -- remove unrefined cells and their siblings from the grid, but not user data
    let g := { g with
      cell_process := map_erase g.cell_process unrefined
      pin_requests := map_erase g.pin_requests unrefined
      new_pin_requests := map_erase g.new_pin_requests unrefined
      cell_weights := map_erase g.cell_weights unrefined }
    let update_neighbors := set_erase acc.2 unrefined
    -- don't send unrefined cells' user data to self
    if g.rank = process_of_unrefined ∧ g.rank = process_of_parent then
      match map_find g.cells unrefined with
      | none => none
      | some data =>
        some ({ g with
          unrefined_cell_data := map_set g.unrefined_cell_data unrefined data
          cells := map_erase g.cells unrefined }, update_neighbors)
    -- send user data of removed cell to the parent's process
    else if g.rank = process_of_unrefined then
      some ({ g with cells_to_send := map_push g.cells_to_send process_of_parent unrefined },
        update_neighbors)
    -- receive user data of removed cell from its process
    else if g.rank = process_of_parent then
      some ({ g with
        cells_to_receive := map_push g.cells_to_receive process_of_unrefined unrefined },
        update_neighbors)
    else some (g, update_neighbors)
  | _, _ => none

/-- `Dccrg::start_user_data_transfers` on the sending and the receiving side of one
process: a receive is posted for every sender that has an entry in
`cells_to_receive`, and for every receiver that has an entry in `cells_to_send`
the list is sorted and the payloads are copied into `outgoing_data`.  The
`assert` on the payload fails when a cell to send has no payload. -/
def start_user_data_transfers (g : Dccrg UserData) : Option (Dccrg UserData) :=
  -- post all receives
  let g := (List.range g.comm_size).foldl
    (fun (g : Dccrg UserData) sender =>
      if sender = g.rank then g
      else if ¬ map_has g.cells_to_receive sender then g
      else { g with
        incoming_data :=
          if map_has g.incoming_data sender then g.incoming_data
          else g.incoming_data ++ [(sender, [])] })
    g
  -- gather all data to send
  (List.range g.comm_size).foldlM
    (fun (g : Dccrg UserData) receiver =>
      if receiver = g.rank then some g
      else
        match map_find g.cells_to_send receiver with
        | none => some g
        | some list =>
          let sorted := sort_cells list
          let g := { g with cells_to_send := map_set g.cells_to_send receiver sorted }
          (sorted.mapM g.operator_index).map fun data =>
            { g with
              outgoing_data := map_set g.outgoing_data receiver
                ((map_find g.outgoing_data receiver).getD [] ++ data) })
    g

/-- The loop over `parents_of_unrefined` in `Dccrg::execute_refines`.  The
accumulator holds the grid and `update_neighbors`. -/
def execute_refines_parent [Inhabited UserData] (acc : Dccrg UserData × uset)
    (parent : Nat) : Option (Dccrg UserData × uset) :=
  let g := acc.1
  let new_neighbors_of := g.find_neighbors_of parent 1 false
  (g.update_local_neighbors true new_neighbors_of acc.2).bind fun update_neighbors =>
  let new_neighbors_to := g.find_neighbors_to parent
  (g.update_local_neighbors false new_neighbors_to update_neighbors).bind
    fun update_neighbors =>
  -- add user data and neighbor lists of local parents of unrefined cells
  match map_find g.cell_process parent with
  | none => none
  | some process =>
    if process = g.rank then
      some ({ g with
        cells := map_touch g.cells parent
        neighbors := map_set g.neighbors parent new_neighbors_of
        neighbors_to := map_set g.neighbors_to parent new_neighbors_to }, update_neighbors)
    else some (g, update_neighbors)

/-- The loops of `Dccrg::execute_refines` that remove the neighbor lists of the
refined cells of this process and of all unrefined cells. -/
def remove_neighbor_lists (g : Dccrg UserData) (all_to_unrefine : uset) :
    Option (Dccrg UserData) :=
  (g.cells_to_refine.foldlM
    (fun (g : Dccrg UserData) refined =>
      match map_find g.cell_process refined with
      | none => none
      | some process =>
        if process = g.rank then
          some { g with
            neighbors := map_erase g.neighbors refined
            neighbors_to := map_erase g.neighbors_to refined }
        else some g)
    g).map fun g =>
  all_to_unrefine.foldl
    (fun (g : Dccrg UserData) unrefined =>
      { g with
        neighbors := map_erase g.neighbors unrefined
        neighbors_to := map_erase g.neighbors_to unrefined })
    g

/-- `Dccrg::execute_refines` on one process, from its start up to the call of
`wait_user_data_transfer_receives`: the grid, `new_cells` and `all_to_unrefine`. -/
def execute_refines_before_wait [Inhabited UserData] (g : Dccrg UserData) :
    Option (Dccrg UserData × List Nat × uset) :=
  let g := g.execute_refines_clear
  -- refines
  (g.cells_to_refine.foldlM execute_refines_refine (g, [], [])).bind fun acc =>
  let g := acc.1
  let new_cells := acc.2.1
  -- initially only one sibling is recorded per process when unrefining
  let collected := g.collect_unrefines
  let parents_of_unrefined := collected.1
  let all_to_unrefine := collected.2
  -- unrefines
  (all_to_unrefine.foldlM execute_refines_unrefine (g, acc.2.2)).bind fun acc =>
  acc.1.start_user_data_transfers.bind fun g =>
  -- update data for parents (and their neighborhood) of unrefined cells
  (parents_of_unrefined.foldlM execute_refines_parent (g, acc.2)).bind fun acc =>
  -- update neighbor lists of cells affected by refining / unrefining
  (acc.2.foldlM update_neighbors acc.1).bind fun g =>
  (g.remove_neighbor_lists all_to_unrefine).bind fun g =>
  g.update_remote_neighbor_info.map fun g =>
  (g, new_cells, all_to_unrefine)

/-- `Dccrg::wait_user_data_transfer_receives (unrefined_cell_data)`: the received
payloads are stored under the sorted cells of `cells_to_receive`. -/
def wait_user_data_transfer_receives (g : Dccrg UserData) : Option (Dccrg UserData) :=
  (g.incoming_data.foldlM
    (fun (g : Dccrg UserData) (item : Nat × List UserData) =>
      match map_find g.cells_to_receive item.1 with
      | none => none
      | some list =>
        let sorted := sort_cells list
        let g := { g with cells_to_receive := map_set g.cells_to_receive item.1 sorted }
        if sorted.length ≤ item.2.length then
          some { g with
            unrefined_cell_data :=
              (sorted.zip item.2).foldl
                (fun (m : umap UserData) (p : Nat × UserData) => map_set m p.1 p.2)
                g.unrefined_cell_data }
        else none)
    g).map fun (g : Dccrg UserData) => { g with incoming_data := [] }

/-- `Dccrg::execute_refines` on one process, from the call of
`wait_user_data_transfer_receives` to its end. -/
def execute_refines_after_wait (g : Dccrg UserData) (all_to_unrefine : uset) :
    Option (Dccrg UserData) :=
  g.wait_user_data_transfer_receives.bind fun g =>
  -- wait_user_data_transfer_sends
  let g := { g with outgoing_data := [] }
  let g := { g with cells_to_send := [], cells_to_receive := [] }
  -- remove user data of unrefined cells from this->cells
  let g := { g with cells := all_to_unrefine.foldl map_erase g.cells }
  let g := { g with cells_to_refine := [], cells_to_unrefine := [] }
  g.recalculate_neighbor_update_send_receive_lists

end Dccrg

/-! ## Collective operations

The grid is distributed over the processes of a communicator.  A `World` lists the
`Dccrg` instances of the processes, the instance of process `p` at position `p`.  A
collective operation runs on all of them; `all_gather` hands every process the
values of all processes. -/

/-- The `Dccrg` instances of all processes of the communicator. -/
abbrev World (UserData : Type) := List (Dccrg UserData)

variable {UserData : Type}

open Dccrg

/-- The rounds of the `while` loop of `Dccrg::induce_refines` on all processes.
Every process carries its `new_refines`; the loop ends when all of them are empty.
`none`: an exception on a process, or the fuel is used up. -/
def induce_refines_loop :
    Nat → List (Dccrg UserData × List Nat) → Option (List (Dccrg UserData × List Nat))
  | 0, state => if (state.map fun s => s.2.length).sum > 0 then none else some state
  | fuel + 1, state =>
    if (state.map fun s => s.2.length).sum > 0 then
      let all_new_refines := state.map fun s => s.2
      (state.mapM fun (s : Dccrg UserData × List Nat) =>
        s.1.induce_refines_round all_new_refines).bind
        (induce_refines_loop fuel)
    else some state

/-- The number of rounds after which the loop of `induce_refines` has ended: every
round with a new refine adds a cell of the directory or of
`cells_with_remote_neighbors` to `cells_to_refine` on some process. -/
def induce_refines_fuel (w : World UserData) : Nat :=
  (w.map fun g => g.cell_process.length + g.cells_with_remote_neighbors.length).sum + 1

/-- `Dccrg::induce_refines` on all processes. -/
def induce_refines (w : World UserData) : Option (World UserData) :=
  (induce_refines_loop (induce_refines_fuel w) (w.map fun g => (g, g.cells_to_refine))).map
    fun state =>
      -- add refines from all processes to cells_to_refine
      let all_refines := state.map fun s => s.1.cells_to_refine
      state.map fun s =>
        { s.1 with
          cells_to_refine :=
            (all_refines.take s.1.comm_size).foldl set_insert_range s.1.cells_to_refine }

/-- `Dccrg::all_to_all_set (cells_not_to_unrefine)` on all processes. -/
def all_to_all_set_cells_not_to_unrefine (w : World UserData) : World UserData :=
  let all_s := w.map fun g => g.cells_not_to_unrefine
  w.map fun g =>
    { g with cells_not_to_unrefine := all_s.foldl set_insert_range g.cells_not_to_unrefine }

/-- `Dccrg::override_unrefines` on all processes. -/
def override_unrefines (w : World UserData) : World UserData :=
  let all_unrefines := w.map fun g => g.final_unrefines
  w.map fun g =>
    { g with
      cells_to_unrefine := (all_unrefines.take g.comm_size).foldl set_insert_range [] }

/-- The payloads that process `g` receives between `start_user_data_transfers` and
`wait_user_data_transfer_receives`: from every other process `sender` of which it
expects data, the vector `outgoing_data[g.rank]` of that process.  The transfers
complete only if every posted receive meets a send and every send a receive;
otherwise the result is `none`. -/
def deliver (w : World UserData) (g : Dccrg UserData) : Option (umap (List UserData)) :=
  (List.range g.comm_size).foldlM
    (fun (incoming : umap (List UserData)) sender =>
      if sender = g.rank then some incoming
      else
        match w[sender]? with
        | none => none
        | some s =>
          match map_has g.cells_to_receive sender, map_find s.cells_to_send g.rank with
          | true, some _ =>
            some (map_set incoming sender ((map_find s.outgoing_data g.rank).getD []))
          | false, none => some incoming
          | _, _ => none)
    g.incoming_data

/-- `Dccrg::execute_refines` on all processes: the grid and the returned `new_cells`
of every process. -/
def execute_refines [Inhabited UserData] (w : World UserData) :
    Option (List (Dccrg UserData × List Nat)) :=
  (w.mapM fun (g : Dccrg UserData) => g.execute_refines_before_wait).bind fun before =>
  let sent : World UserData := before.map fun b => b.1
  before.mapM fun (b : Dccrg UserData × List Nat × uset) =>
    (deliver sent b.1).bind fun incoming =>
    ({ b.1 with incoming_data := incoming }.execute_refines_after_wait b.2.2).map fun g =>
    (g, b.2.1)

/-- `Dccrg::stop_refining` on all processes: the grid and the returned list of new
cells of every process. -/
def stop_refining [Inhabited UserData] (w : World UserData) :
    Option (List (Dccrg UserData × List Nat)) :=
  (induce_refines w).bind fun w =>
  -- update dont_refines between processes
  let w := all_to_all_set_cells_not_to_unrefine w
  let w := override_unrefines w
  let w : World UserData := w.map fun g => { g with cells_not_to_unrefine := [] }
  execute_refines w

end dccrg
namespace dccrg

namespace Index

/-- `Index::update_last_cell`. -/
def update_last_cell (ix : Index) : Index :=
  { ix with
    last_cell := (List.range (ix.max_refinement_level + 1).toNat).foldl
      (fun last_cell (i : Nat) => u64 (last_cell + u64 (ix.grid_length * shl1 (3 * (i : Int)))))
      0 }

/-- `Index::set_maximum_refinement_level`.  The bound
`get_maximum_possible_refinement_level()` is computed by the source in `double`
arithmetic; its value is the argument `maximum_possible` here. -/
def set_maximum_refinement_level (ix : Index) (maximum_possible : Int)
    (given_refinement_level : Int) : Index × Bool :=
  if given_refinement_level ≤ maximum_possible then
    ({ ix with max_refinement_level := given_refinement_level }.update_last_cell, true)
  else (ix, false)

end Index

namespace Dccrg

variable {UserData : Type}

/-- The neighbourhood `neighborhood_of` that `Dccrg::initialize` builds for a
neighbourhood size: the six face offsets for size 0, otherwise every offset of the
cube `[-size, size]^3` but the origin, `x` running fastest. -/
def make_neighborhood_of (neighborhood_size : Nat) : List neighborhood_item_t :=
  if neighborhood_size = 0 then
    [(0, 0, -1), (0, -1, 0), (-1, 0, 0), (1, 0, 0), (0, 1, 0), (0, 0, 1)]
  else
    let range : List Int :=
      (List.range (2 * neighborhood_size + 1)).map fun i => (i : Int) - neighborhood_size
    range.flatMap fun z => range.flatMap fun y => (range.filter fun x =>
      ¬ (x = 0 ∧ y = 0 ∧ z = 0)).map fun x => (x, y, z)

/-- The loop of `Dccrg::initialize` that creates the unrefined cells (without
`USE_SFC`): the directory, the local cells and the final `cell_to_create`. -/
def create_unrefined_cells [Inhabited UserData] (comm_size rank grid_length : Nat) :
    umap Nat × umap UserData × Nat :=
  let cells_per_process :=
    if grid_length < comm_size then 1
    else if grid_length % comm_size > 0 then u64 (grid_length / comm_size + 1)
    else grid_length / comm_size
  -- some processes get fewer cells if grid size not divisible by comm.size()
  let procs_with_fewer := usub (u64 (cells_per_process * comm_size)) grid_length
  (List.range comm_size).foldl
    (fun (acc : umap Nat × umap UserData × Nat) process =>
      let cells_to_create :=
        if process < procs_with_fewer then usub cells_per_process 1 else cells_per_process
      (List.range cells_to_create).foldl
        (fun (acc : umap Nat × umap UserData × Nat) _ =>
          (map_set acc.1 acc.2.2 process,
           (if process = rank then map_touch acc.2.1 acc.2.2 else acc.2.1),
           u64 (acc.2.2 + 1)))
        acc)
    ([], [], 1)

/-- The body of the loop of `Dccrg::initialize` that sets the neighbor lists of the
created local cells. -/
def initialize_neighbors (g : Dccrg UserData) (cell : Nat) : Dccrg UserData :=
  let g := { g with
    neighbors := map_set g.neighbors cell (g.find_neighbors_of cell 1 false) }
  { g with neighbors_to := map_set g.neighbors_to cell (g.find_neighbors_to cell) }

/-- `Dccrg::initialize` (the name itself is reserved in Lean), for a grid whose
lengths have been set (`index`).  The Zoltan set-up is left out; `maximum_possible` is the value of
`get_maximum_possible_refinement_level()`.  `none`: the function aborts, an
`assert` fails or an exception is thrown. -/
def initialize_grid [Inhabited UserData] (index : Index) (comm_size rank : Nat)
    (neighborhood_size : Nat) (maximum_refinement_level maximum_possible : Int)
    (periodic_in_x periodic_in_y periodic_in_z : Bool) : Option (Dccrg UserData) :=
  let neighborhood_of := make_neighborhood_of neighborhood_size
  let neighborhood_to : List neighborhood_item_t :=
    neighborhood_of.map fun offset => (-offset.1, -offset.2.1, -offset.2.2)
  let set_level :=
    if maximum_refinement_level < 0 then
      index.set_maximum_refinement_level maximum_possible maximum_possible
    else index.set_maximum_refinement_level maximum_possible maximum_refinement_level
  if ¬ set_level.2 then none
  else
    let index := set_level.1
    -- create unrefined cells
    let created : umap Nat × umap UserData × Nat :=
      create_unrefined_cells comm_size rank index.grid_length
    if created.2.2 ≠ u64 (index.grid_length + 1) then none
    else
      let g : Dccrg UserData :=
        { index := index
          initialized := false
          neighborhood_size := neighborhood_size
          rank := rank
          comm_size := comm_size
          periodic := (periodic_in_x, periodic_in_y, periodic_in_z)
          cells := created.2.1
          neighbors := []
          neighborhood_of := neighborhood_of
          neighborhood_to := neighborhood_to
          neighbors_to := []
          cell_process := created.1
          cells_with_remote_neighbors := []
          remote_cells_with_local_neighbors := []
          remote_neighbors := []
          cells_to_send := []
          cells_to_receive := []
          added_cells := []
          removed_cells := []
          incoming_data := []
          outgoing_data := []
          cells_to_refine := []
          cells_to_unrefine := []
          cells_not_to_unrefine := []
          refined_cell_data := []
          unrefined_cell_data := []
          pin_requests := []
          new_pin_requests := []
          processes_per_part := []
          partitioning_options := []
          no_load_balancing := false
          reserved_options := []
          cell_weights := [] }
      -- update neighbor lists of created cells
      let g := (map_keys g.cells).foldl initialize_neighbors g
      ((map_keys g.cells).foldlM update_remote_neighbor_info_cell g).bind fun g =>
      g.recalculate_neighbor_update_send_receive_lists.map fun g =>
      { g with initialized := true }

end Dccrg

variable {UserData : Type}

/-- `Dccrg::initialize` called on every process of a communicator of `comm_size`
processes with the same arguments. -/
def initialize_world [Inhabited UserData] (index : Index) (comm_size : Nat)
    (neighborhood_size : Nat) (maximum_refinement_level maximum_possible : Int)
    (periodic_in_x periodic_in_y periodic_in_z : Bool) : Option (World UserData) :=
  (List.range comm_size).mapM fun rank =>
    Dccrg.initialize_grid index comm_size rank neighborhood_size maximum_refinement_level
      maximum_possible periodic_in_x periodic_in_y periodic_in_z

/-- A request that the user makes on one process between two calls of
`stop_refining`. -/
inductive Request where
  | refine_completely (cell : Nat)
  | unrefine_completely (cell : Nat)
  | dont_unrefine (cell : Nat)
deriving DecidableEq, Repr

/-- The effect of a request on the process on which it is made. -/
def Request.apply (request : Request) (g : Dccrg UserData) : Option (Dccrg UserData) :=
  match request with
  | .refine_completely cell => g.refine_completely cell
  | .unrefine_completely cell => some (g.unrefine_completely cell)
  | .dont_unrefine cell => some (g.dont_unrefine cell)

/-- The requests `requests`, each made on the process named with it, in order. -/
def make_requests (w : World UserData) (requests : List (Nat × Request)) :
    Option (World UserData) :=
  requests.foldlM
    (fun (w : World UserData) (r : Nat × Request) =>
      match w[r.1]? with
      | none => none
      | some g => (r.2.apply g).map fun g => w.set r.1 g)
    w

end dccrg
namespace dccrg

/-! ## Predicates used by the statements -/

namespace Index

/-- Facts about a grid whose ids fit in 64 bits and that has at least one root cell;
`R` is the maximum refinement level as a natural number. -/
structure Fit (ix : Index) (R : Nat) : Prop where
  hR : ix.max_refinement_level = (R : Int)
  hlast : ix.last_cell = ids_below (ix.x_length * ix.y_length * ix.z_length) (R + 1)
  hfit : ix.last_cell < 2 ^ 64
  hx : 0 < ix.x_length
  hy : 0 < ix.y_length
  hz : 0 < ix.z_length

/-- A level and an index triple that name a cell: the level is in `[0, R]`, every
index is inside the grid and is a multiple of the cell size `2^(R - level)`. -/
def valid_pair (ix : Index) (level : Int) (indices : indices_t) : Prop :=
  0 ≤ level ∧ level ≤ ix.max_refinement_level ∧
  indices.1 < ix.x_length * 2 ^ ix.max_refinement_level.toNat ∧
  indices.2.1 < ix.y_length * 2 ^ ix.max_refinement_level.toNat ∧
  indices.2.2 < ix.z_length * 2 ^ ix.max_refinement_level.toNat ∧
  2 ^ (ix.max_refinement_level - level).toNat ∣ indices.1 ∧
  2 ^ (ix.max_refinement_level - level).toNat ∣ indices.2.1 ∧
  2 ^ (ix.max_refinement_level - level).toNat ∣ indices.2.2

/-- The indices of `indices` rounded down to multiples of the size `2^(R - level)`
of the cells of refinement level `level`. -/
def truncate (ix : Index) (level : Int) (indices : indices_t) : indices_t :=
  (indices.1 / 2 ^ (ix.max_refinement_level - level).toNat
      * 2 ^ (ix.max_refinement_level - level).toNat,
   indices.2.1 / 2 ^ (ix.max_refinement_level - level).toNat
      * 2 ^ (ix.max_refinement_level - level).toNat,
   indices.2.2 / 2 ^ (ix.max_refinement_level - level).toNat
      * 2 ^ (ix.max_refinement_level - level).toNat)

/-- The ids that `Dccrg::get_all_children` computes for `cell` once it has found
`cell` in the directory: the part of that function after its two guards. -/
def children_of (ix : Index) (cell : Nat) : List Nat :=
  let refinement_level := ix.get_refinement_level cell
  if refinement_level ≥ ix.max_refinement_level then []
  else
    let indices := ix.get_indices cell
    let refinement_level := refinement_level + 1
    let index_offset := shl1 (ix.max_refinement_level - refinement_level)
    let offsets := for_lt 0 (u64 (2 * index_offset)) index_offset
    offsets.flatMap fun z_index_offset =>
      offsets.flatMap fun y_index_offset =>
        offsets.map fun x_index_offset =>
          ix.get_cell_from_indices
            (u64 (indices.1 + x_index_offset),
             u64 (indices.2.1 + y_index_offset),
             u64 (indices.2.2 + z_index_offset))
            refinement_level

end Index

namespace Dccrg

variable {UserData : Type}

/-- The children of a cell, in the order of `get_all_children`, as a function of
its indices, of the level of the children and of their size. -/
def children_at (ix : Index) (indices : indices_t) (level : Int) (s : Nat) : List Nat :=
  [ix.get_cell_from_indices (indices.1, indices.2.1, indices.2.2) level,
   ix.get_cell_from_indices (indices.1 + s, indices.2.1, indices.2.2) level,
   ix.get_cell_from_indices (indices.1, indices.2.1 + s, indices.2.2) level,
   ix.get_cell_from_indices (indices.1 + s, indices.2.1 + s, indices.2.2) level,
   ix.get_cell_from_indices (indices.1, indices.2.1, indices.2.2 + s) level,
   ix.get_cell_from_indices (indices.1 + s, indices.2.1, indices.2.2 + s) level,
   ix.get_cell_from_indices (indices.1, indices.2.1 + s, indices.2.2 + s) level,
   ix.get_cell_from_indices (indices.1 + s, indices.2.1 + s, indices.2.2 + s) level]

/-- The eight corners `(x, y, z)` of a cell in the order of `get_all_children`. -/
def corners : List (Nat × Nat × Nat) :=
  [(0, 0, 0), (1, 0, 0), (0, 1, 0), (1, 1, 0), (0, 0, 1), (1, 0, 1), (0, 1, 1), (1, 1, 1)]

/-- A leaf: a cell of the directory without children, `get_child cell = cell`. -/
def is_leaf (g : Dccrg UserData) (cell : Nat) : Prop :=
  map_has g.cell_process cell = true ∧ g.get_child cell = cell

instance (g : Dccrg UserData) (cell : Nat) : Decidable (g.is_leaf cell) := by
  unfold is_leaf; infer_instance

/-- The footprint of `cell` holds `indices`: in every dimension the index is at
least the index of the cell and less than that index plus the size of the cell. -/
def in_footprint (g : Dccrg UserData) (cell : Nat) (indices : indices_t) : Prop :=
  (g.index.get_indices cell).1 ≤ indices.1 ∧
  indices.1 < (g.index.get_indices cell).1 + g.index.get_cell_size_in_indices cell ∧
  (g.index.get_indices cell).2.1 ≤ indices.2.1 ∧
  indices.2.1 < (g.index.get_indices cell).2.1 + g.index.get_cell_size_in_indices cell ∧
  (g.index.get_indices cell).2.2 ≤ indices.2.2 ∧
  indices.2.2 < (g.index.get_indices cell).2.2 + g.index.get_cell_size_in_indices cell

instance (g : Dccrg UserData) (cell : Nat) (indices : indices_t) :
    Decidable (g.in_footprint cell indices) := by
  unfold in_footprint; infer_instance

/-- The directory existence invariant: every id of the directory is a valid id,
every root cell is in the directory, and with every cell of a level above 0 the
directory holds its parent and all 8 children of that parent. -/
def existence_invariant (g : Dccrg UserData) : Prop :=
  (∀ c ∈ map_keys g.cell_process, 1 ≤ c ∧ c ≤ g.index.last_cell) ∧
  (∀ c, c < g.index.grid_length + 1 → 1 ≤ c → map_has g.cell_process c = true) ∧
  (∀ c ∈ map_keys g.cell_process, g.index.get_refinement_level c ≠ 0 →
    map_has g.cell_process (g.index.get_parent_for_removed c) = true ∧
    ∀ s ∈ g.index.children_of (g.index.get_parent_for_removed c),
      map_has g.cell_process s = true)

instance (g : Dccrg UserData) : Decidable g.existence_invariant := by
  unfold existence_invariant; infer_instance

/-- The local store of a process holds exactly the leaves that the directory
assigns to the process, and `cells_with_remote_neighbors` holds cells of the local
store only. -/
def local_store_ok (g : Dccrg UserData) : Prop :=
  (∀ c ∈ map_keys g.cells,
    map_find g.cell_process c = some g.rank ∧ g.get_child c = c) ∧
  (∀ c ∈ map_keys g.cell_process,
    map_find g.cell_process c = some g.rank → g.get_child c = c →
      map_has g.cells c = true) ∧
  (∀ c ∈ g.cells_with_remote_neighbors, map_has g.cells c = true)

instance (g : Dccrg UserData) : Decidable g.local_store_ok := by
  unfold local_store_ok; infer_instance

/-- Two processes hold the same grid: the same `Index`, the same neighbourhood and
periodicity, and directories with the same entries. -/
def same_grid (g g' : Dccrg UserData) : Prop :=
  g.index = g'.index ∧ g.periodic = g'.periodic ∧
  g.neighborhood_size = g'.neighborhood_size ∧
  g.neighborhood_of = g'.neighborhood_of ∧ g.neighborhood_to = g'.neighborhood_to ∧
  ∀ c ∈ map_keys g.cell_process, map_find g'.cell_process c = map_find g.cell_process c

instance (g g' : Dccrg UserData) : Decidable (g.same_grid g') := by
  unfold same_grid; infer_instance

/-- No refinement request is pending on the process. -/
def no_pending (g : Dccrg UserData) : Prop :=
  g.cells_to_refine = [] ∧ g.cells_to_unrefine = [] ∧ g.cells_not_to_unrefine = []

instance (g : Dccrg UserData) : Decidable g.no_pending := by
  unfold no_pending; infer_instance

/-- The 2:1 balance of the grid as the neighbor searches see it: for every leaf `a`
and every entry `b` other than 0 of `find_neighbors_of a` or `find_neighbors_to a`,
the refinement levels of `a` and `b` differ by at most 1. -/
def balanced (g : Dccrg UserData) : Prop :=
  ∀ a ∈ map_keys g.cell_process, g.is_leaf a →
    ∀ b ∈ g.find_neighbors_of a 1 false ++ g.find_neighbors_to a, b ≠ 0 →
      (g.index.get_refinement_level a - g.index.get_refinement_level b).natAbs ≤ 1

instance (g : Dccrg UserData) : Decidable g.balanced := by
  unfold balanced; infer_instance

/-- Every index triple of the root grid lies in the footprint of exactly one
leaf. -/
def covered_once (g : Dccrg UserData) : Prop :=
  ∀ indices : indices_t,
    indices.1 < g.index.x_length * 2 ^ g.index.max_refinement_level.toNat →
    indices.2.1 < g.index.y_length * 2 ^ g.index.max_refinement_level.toNat →
    indices.2.2 < g.index.z_length * 2 ^ g.index.max_refinement_level.toNat →
    ∃ c, (g.is_leaf c ∧ g.in_footprint c indices) ∧
      ∀ c', g.is_leaf c' ∧ g.in_footprint c' indices → c' = c

end Dccrg

variable {UserData : Type}

/-- A consistent world: process `p` stands at position `p` and knows the size of
the communicator, the ids of the grid fit in 64 bits, every process holds the same
grid, the directory satisfies the existence invariant and names only processes of
the communicator as owners, and every local store holds the local leaves. -/
def consistent (w : World UserData) : Prop :=
  w.map (fun g => g.rank) = List.range w.length ∧
  (∀ g ∈ w, g.comm_size = w.length ∧ g.index.ids_fit ∧ g.existence_invariant ∧
    g.local_store_ok ∧
    ∀ c ∈ map_keys g.cell_process, ∀ o ∈ map_find g.cell_process c, o < w.length) ∧
  ∀ g ∈ w, ∀ g' ∈ w, g.same_grid g'

instance (w : World UserData) : Decidable (consistent w) := by
  unfold consistent; infer_instance

/-- The world in which `execute_refines` runs during `stop_refining`. -/
def refines_prepared (w : World UserData) : Option (World UserData) :=
  (induce_refines w).map fun w =>
    (override_unrefines (all_to_all_set_cells_not_to_unrefine w)).map fun g =>
      { g with cells_not_to_unrefine := [] }

/-- The worlds that a program reaches: after the construction of the grid on all
processes (for a grid whose ids fit in 64 bits; the size of the communicator is an
`int`), and after every `stop_refining` that follows requests made through
`refine_completely`, `unrefine_completely` and `dont_unrefine`. -/
inductive Reachable [Inhabited UserData] : World UserData → Prop where
  | construction (index : Index) (comm_size neighborhood_size : Nat)
      (maximum_refinement_level maximum_possible : Int)
      (periodic_in_x periodic_in_y periodic_in_z : Bool) (w : World UserData) :
      comm_size < 2 ^ 31 →
      initialize_world index comm_size neighborhood_size maximum_refinement_level
        maximum_possible periodic_in_x periodic_in_y periodic_in_z = some w →
      (∀ g ∈ w, g.index.ids_fit) →
      Reachable w
  | stop_refining (w : World UserData) (requests : List (Nat × Request))
      (w1 : World UserData) (result : List (Dccrg UserData × List Nat)) :
      Reachable w →
      make_requests w requests = some w1 →
      stop_refining w1 = some result →
      Reachable (result.map fun r => r.1)

end dccrg
namespace dccrg

/-! ## Concrete grids -/

/-- A grid of 2 x 3 x 1 root cells with maximum refinement level 2: 6 + 48 + 384
ids. -/
def example_index : Index := ⟨2, 3, 1, 6, 2, 438⟩

/-- A process that holds the 2 root cells of a 2 x 1 x 1 grid with maximum
refinement level 1 and nothing else. -/
def example_grid : Dccrg Nat where
  index := ⟨2, 1, 1, 2, 1, 18⟩
  initialized := true
  neighborhood_size := 1
  rank := 0
  comm_size := 1
  periodic := (false, false, false)
  cells := [(1, 0), (2, 0)]
  neighbors := []
  neighborhood_of := []
  neighborhood_to := []
  neighbors_to := []
  cell_process := [(1, 0), (2, 0)]
  cells_with_remote_neighbors := []
  remote_cells_with_local_neighbors := []
  remote_neighbors := []
  cells_to_send := []
  cells_to_receive := []
  added_cells := []
  removed_cells := []
  incoming_data := []
  outgoing_data := []
  cells_to_refine := []
  cells_to_unrefine := []
  cells_not_to_unrefine := []
  refined_cell_data := []
  unrefined_cell_data := []
  pin_requests := []
  new_pin_requests := []
  processes_per_part := []
  partitioning_options := []
  no_load_balancing := false
  reserved_options := []
  cell_weights := []

end dccrg

namespace dccrg

/-- Two processes after the construction of a grid of 2 x 1 x 1 root cells with
maximum refinement level 1 and neighbourhood size 1 (20 is the value of
`get_maximum_possible_refinement_level()` for 2 root cells). -/
def example_world0 : World Nat :=
  (initialize_world ⟨2, 1, 1, 2, 0, 2⟩ 2 1 1 20 false false false).getD []

/-- The world `example_world0` after process 0 has called `refine_completely (1)`. -/
def example_world1 : World Nat :=
  (make_requests example_world0 [(0, Request.refine_completely 1)]).getD []

/-- The result of `stop_refining` in `example_world1`. -/
def example_result : List (Dccrg Nat × List Nat) :=
  (stop_refining example_world1).getD []

/-- The world in which `execute_refines` runs during `stop_refining` in
`example_world1`. -/
def example_prepared : World Nat :=
  (refines_prepared example_world1).getD []

/-- The processes after `stop_refining` in `example_world1`. -/
def example_world2 : World Nat := example_result.map fun r => r.1

/-- The world `example_world2` after process 0 has called `unrefine_completely (3)`. -/
def example_world3 : World Nat :=
  (make_requests example_world2 [(0, Request.unrefine_completely 3)]).getD []

/-- The world in which `execute_refines` runs during `stop_refining` in
`example_world3`. -/
def example_prepared3 : World Nat :=
  (refines_prepared example_world3).getD []

/-- The result of `stop_refining` in `example_world3`. -/
def example_result3 : List (Dccrg Nat × List Nat) :=
  (stop_refining example_world3).getD []

end dccrg

namespace dccrg

/-- Process 0 of two processes on a grid of 2 x 1 x 1 root cells with maximum
refinement level 2 and neighbourhood size 0 in which both root cells have been
refined: it holds the 8 children of cell 1. -/
def example_deep_first : Dccrg Nat where
  index := ⟨2, 1, 1, 2, 2, 146⟩
  initialized := true
  neighborhood_size := 0
  rank := 0
  comm_size := 2
  periodic := (false, false, false)
  cells := [(3, 0), (4, 0), (7, 0), (8, 0), (11, 0), (12, 0), (15, 0), (16, 0)]
  neighbors := [(3, [0, 0, 0, 4, 7, 11]), (4, [0, 0, 3, 5, 8, 12]),
    (7, [0, 3, 0, 8, 0, 15]), (8, [0, 4, 7, 9, 0, 16]), (11, [3, 0, 0, 12, 15, 0]),
    (12, [4, 0, 11, 13, 16, 0]), (15, [7, 11, 0, 16, 0, 0]), (16, [8, 12, 15, 17, 0, 0])]
  neighborhood_of := [(0, 0, -1), (0, -1, 0), (-1, 0, 0), (1, 0, 0), (0, 1, 0), (0, 0, 1)]
  neighborhood_to := [(0, 0, 1), (0, 1, 0), (1, 0, 0), (-1, 0, 0), (0, -1, 0), (0, 0, -1)]
  neighbors_to := [(3, [4, 7, 11]), (4, [3, 5, 8, 12]), (7, [3, 8, 15]), (8, [4, 7, 9, 16]),
    (11, [3, 12, 15]), (12, [4, 11, 13, 16]), (15, [7, 11, 16]), (16, [8, 12, 15, 17])]
  cell_process := [(1, 0), (2, 1), (3, 0), (4, 0), (7, 0), (8, 0), (11, 0), (12, 0),
    (15, 0), (16, 0), (5, 1), (6, 1), (9, 1), (10, 1), (13, 1), (14, 1), (17, 1), (18, 1)]
  cells_with_remote_neighbors := [4, 8, 12, 16]
  remote_cells_with_local_neighbors := [5, 9, 13, 17]
  remote_neighbors := []
  cells_to_send := [(1, [4, 8, 12, 16])]
  cells_to_receive := [(1, [5, 9, 13, 17])]
  added_cells := []
  removed_cells := []
  incoming_data := []
  outgoing_data := []
  cells_to_refine := []
  cells_to_unrefine := []
  cells_not_to_unrefine := []
  refined_cell_data := [(1, 0)]
  unrefined_cell_data := []
  pin_requests := []
  new_pin_requests := []
  processes_per_part := []
  partitioning_options := []
  no_load_balancing := false
  reserved_options := []
  cell_weights := []

/-- Process 1 of the same grid: it holds the 8 children of cell 2. -/
def example_deep_second : Dccrg Nat where
  index := ⟨2, 1, 1, 2, 2, 146⟩
  initialized := true
  neighborhood_size := 0
  rank := 1
  comm_size := 2
  periodic := (false, false, false)
  cells := [(5, 0), (6, 0), (9, 0), (10, 0), (13, 0), (14, 0), (17, 0), (18, 0)]
  neighbors := [(5, [0, 0, 4, 6, 9, 13]), (6, [0, 0, 5, 0, 10, 14]),
    (9, [0, 5, 8, 10, 0, 17]), (10, [0, 6, 9, 0, 0, 18]), (13, [5, 0, 12, 14, 17, 0]),
    (14, [6, 0, 13, 0, 18, 0]), (17, [9, 13, 16, 18, 0, 0]), (18, [10, 14, 17, 0, 0, 0])]
  neighborhood_of := [(0, 0, -1), (0, -1, 0), (-1, 0, 0), (1, 0, 0), (0, 1, 0), (0, 0, 1)]
  neighborhood_to := [(0, 0, 1), (0, 1, 0), (1, 0, 0), (-1, 0, 0), (0, -1, 0), (0, 0, -1)]
  neighbors_to := [(5, [4, 6, 9, 13]), (6, [5, 10, 14]), (9, [5, 8, 10, 17]), (10, [6, 9, 18]),
    (13, [5, 12, 14, 17]), (14, [6, 13, 18]), (17, [9, 13, 16, 18]), (18, [10, 14, 17])]
  cell_process := [(1, 0), (2, 1), (5, 1), (6, 1), (9, 1), (10, 1), (13, 1), (14, 1),
    (17, 1), (18, 1), (3, 0), (4, 0), (7, 0), (8, 0), (11, 0), (12, 0), (15, 0), (16, 0)]
  cells_with_remote_neighbors := [5, 9, 13, 17]
  remote_cells_with_local_neighbors := [4, 8, 12, 16]
  remote_neighbors := []
  cells_to_send := [(0, [5, 9, 13, 17])]
  cells_to_receive := [(0, [4, 8, 12, 16])]
  added_cells := []
  removed_cells := []
  incoming_data := []
  outgoing_data := []
  cells_to_refine := []
  cells_to_unrefine := []
  cells_not_to_unrefine := []
  refined_cell_data := [(2, 0)]
  unrefined_cell_data := []
  pin_requests := []
  new_pin_requests := []
  processes_per_part := []
  partitioning_options := []
  no_load_balancing := false
  reserved_options := []
  cell_weights := []

/-- The two processes `example_deep_first` and `example_deep_second`. -/
def example_deep1 : World Nat := [example_deep_first, example_deep_second]

/-- The world `example_deep1` after process 1 has called `unrefine_completely (5)`
and process 0 has called `refine_completely (4)`; the cells 4 and 5 are neighbors
of refinement level 1 with different parents. -/
def example_deep2 : World Nat :=
  (make_requests example_deep1
    [(1, Request.unrefine_completely 5), (0, Request.refine_completely 4)]).getD []

/-- The result of `stop_refining` in `example_deep2`. -/
def example_deep_result : List (Dccrg Nat × List Nat) :=
  (stop_refining example_deep2).getD []

/-- The process 0 of `example_deep2`. -/
def example_deep_rank0 : Dccrg Nat := (example_deep2[0]?).getD example_grid

end dccrg
namespace dccrg

namespace Dccrg

variable {UserData : Type}

/-! ## Frame predicates -/

/-- The members of the grid that neither a request nor `stop_refining` assigns: the
`Index`, the communicator, the periodicity and the neighbourhood. -/
def fixed (g : Dccrg UserData) :
    Index × Nat × Nat × (Bool × Bool × Bool) × Nat × List neighborhood_item_t
      × List neighborhood_item_t :=
  (g.index, g.rank, g.comm_size, g.periodic, g.neighborhood_size, g.neighborhood_of,
    g.neighborhood_to)

/-- The processes `g` and `g'` have the same fixed members and the same directory. -/
def same_directory (g g' : Dccrg UserData) : Prop :=
  g'.fixed = g.fixed ∧ g'.cell_process = g.cell_process

/-- The processes `g` and `g'` have the same payload stores. -/
def same_stores (g g' : Dccrg UserData) : Prop :=
  g'.cells = g.cells ∧ g'.refined_cell_data = g.refined_cell_data ∧
  g'.unrefined_cell_data = g.unrefined_cell_data ∧ g'.remote_neighbors = g.remote_neighbors

/-- The processes `g` and `g'` have the same pending requests. -/
def same_requests (g g' : Dccrg UserData) : Prop :=
  g'.cells_to_refine = g.cells_to_refine ∧ g'.cells_to_unrefine = g.cells_to_unrefine ∧
  g'.cells_not_to_unrefine = g.cells_not_to_unrefine

/-- The processes `g` and `g'` have the same transfer lists and buffers. -/
def same_transfers (g g' : Dccrg UserData) : Prop :=
  g'.cells_to_send = g.cells_to_send ∧ g'.cells_to_receive = g.cells_to_receive ∧
  g'.incoming_data = g.incoming_data ∧ g'.outgoing_data = g.outgoing_data

/-- The members of a process that the statements about refinement mention. -/
def relevant (g : Dccrg UserData) :=
  (g.fixed, g.cell_process, g.cells, g.refined_cell_data, g.unrefined_cell_data,
    g.remote_neighbors, g.cells_to_refine, g.cells_to_unrefine, g.cells_not_to_unrefine,
    g.cells_to_send, g.cells_to_receive, g.incoming_data, g.outgoing_data)

/-- The neighbor lists of a process and the sets derived from them. -/
def neighbor_data (g : Dccrg UserData) : umap (List Nat) × umap (List Nat) × uset × uset :=
  (g.neighbors, g.neighbors_to, g.cells_with_remote_neighbors,
    g.remote_cells_with_local_neighbors)

/-- The cells of `l` that the process owns and whose parent is owned by `p`, another
process: the cells it sends to `p` when they are unrefined. -/
def sends_to (g : Dccrg UserData) (l : List Nat) (p : Nat) : List Nat :=
  l.filter fun u => map_find g.cell_process u == some g.rank &&
    (map_find g.cell_process (g.get_parent u) == some p && p != g.rank)

/-- The cells of `l` owned by `q`, another process, whose parent the process owns:
the cells it receives from `q` when they are unrefined. -/
def receives_from (g : Dccrg UserData) (l : List Nat) (q : Nat) : List Nat :=
  l.filter fun u => map_find g.cell_process u == some q &&
    (q != g.rank && map_find g.cell_process (g.get_parent u) == some g.rank)

/-- The process owns both the cell and its parent. -/
def moved_locally (g : Dccrg UserData) (u : Nat) : Bool :=
  map_find g.cell_process u == some g.rank &&
    map_find g.cell_process (g.get_parent u) == some g.rank

end Dccrg

end dccrg
namespace dccrg

namespace Dccrg

variable {UserData : Type}

/-! ## Predicates on the pending requests -/

/-- The processes `g` and `g'` differ at most in their pending requests
(`cells_to_refine`, `cells_to_unrefine`, `cells_not_to_unrefine`). -/
def same_but_requests (g g' : Dccrg UserData) : Prop :=
  { g' with cells_to_refine := [], cells_to_unrefine := [], cells_not_to_unrefine := [] }
    = { g with cells_to_refine := [], cells_to_unrefine := [], cells_not_to_unrefine := [] }

/-- What `unrefine_completely` has checked for the cells of `cells_to_unrefine`:
the cell is in the directory above level 0 and none of its siblings has children. -/
def unrefines_checked (g : Dccrg UserData) : Prop :=
  ∀ u ∈ g.cells_to_unrefine, map_has g.cell_process u = true ∧
    g.index.get_refinement_level u ≠ 0 ∧
    ∀ s ∈ g.get_all_children (g.get_parent u), s = g.get_child s

/-- What `refine_completely` has checked for the cells of `cells_to_refine`: the
cell is a local cell without children below the maximum refinement level. -/
def refines_checked (g : Dccrg UserData) : Prop :=
  ∀ c ∈ g.cells_to_refine, map_has g.cell_process c = true ∧ map_has g.cells c = true ∧
    c = g.get_child c ∧ g.index.get_refinement_level c < g.index.max_refinement_level

end Dccrg

end dccrg

namespace dccrg

variable {UserData : Type}

/-- The invariant of the worlds that a program reaches: process `p` stands at
position `p` and knows the size of the communicator; on every process the ids fit
in 64 bits, the directory satisfies the existence invariant and no request is
pending; all processes have the same `Index` and the same cells in their
directories. -/
def grid_invariant (w : World UserData) : Prop :=
  w.map (fun g => g.rank) = List.range w.length ∧
  (∀ g ∈ w, g.comm_size = w.length ∧ g.index.ids_fit ∧ g.existence_invariant ∧
    g.no_pending) ∧
  ∀ g ∈ w, ∀ g' ∈ w, g'.index = g.index ∧
    ∀ c ∈ map_keys g.cell_process, map_has g'.cell_process c = true

instance (w : World UserData) : Decidable (grid_invariant w) := by
  unfold grid_invariant; infer_instance

/-- On every process of the world every index triple of the root grid lies in the
footprint of exactly one leaf. -/
def covered_once_everywhere (w : World UserData) : Prop := ∀ g ∈ w, g.covered_once

end dccrg
namespace dccrg

/-! ## Pin requests and the partition planner -/

/-- Conversion of an unsigned value to `int`: the value modulo `2^32`, read in two's
complement. -/
def to_int (v : Nat) : Int := ((v : Int) + 2 ^ 31) % 2 ^ 32 - 2 ^ 31

namespace Dccrg

variable {UserData : Type}

/-- `Dccrg::pin (cell, process)`. -/
def pin (g : Dccrg UserData) (cell : Nat) (process : Int) : Dccrg UserData :=
  if ¬ map_has g.cell_process cell then g
  else if map_find g.cell_process cell ≠ some g.rank then g
  else if cell ≠ g.get_child cell then g
  else if process < 0 ∨ process ≥ g.comm_size then g
  -- do nothing if the request already exists
  else if map_has g.pin_requests cell ∧ map_find g.pin_requests cell = some process then g
  else { g with new_pin_requests := map_set g.new_pin_requests cell process }

/-- `Dccrg::unpin`. -/
def unpin (g : Dccrg UserData) (cell : Nat) : Dccrg UserData :=
  if ¬ map_has g.cell_process cell then g
  else if map_find g.cell_process cell ≠ some g.rank then g
  else if cell ≠ g.get_child cell then g
  else if map_has g.pin_requests cell then
    { g with new_pin_requests := map_set g.new_pin_requests cell (-1) }
  else { g with new_pin_requests := map_erase g.new_pin_requests cell }

/-- The vectors `new_pinned_cells` and `new_pinned_processes` that a process hands to
`all_gather` in `Dccrg::update_pin_requests`, entry by entry; both are vectors of
`uint64_t`. -/
def new_pinned (g : Dccrg UserData) : List (Nat × Nat) :=
  g.new_pin_requests.map fun item => (item.1, int_to_u64 item.2)

/-- The loops of `Dccrg::update_pin_requests` over the gathered vectors: the table
`pin_requests` afterwards. -/
def apply_pin_requests (pin_requests : umap Int) (all_new_pinned : List (List (Nat × Nat))) :
    umap Int :=
  all_new_pinned.foldl
    (fun (pin_requests : umap Int) (of_process : List (Nat × Nat)) =>
      of_process.foldl
        (fun (pin_requests : umap Int) (item : Nat × Nat) =>
          let requested_process := to_int item.2
          if requested_process = -1 then map_erase pin_requests item.1
          else map_set pin_requests item.1 requested_process)
        pin_requests)
    pin_requests

/-- The output of `Zoltan_LB_Balance` on one process (a function of the Zoltan
library): whether it returned `ZOLTAN_OK`, the cells to receive with their sender
processes and the cells to send with their receiver processes. -/
structure ZoltanBalance where
  ok : Bool
  to_receive : List (Nat × Int)
  to_send : List (Nat × Int)
deriving DecidableEq

/-- The two loops of `Dccrg::make_new_partition` that fill `cells_to_receive`: the
vectors as pushed, before they are sorted, and `added_cells`.  The keys of
`cells_to_receive` are process numbers of type `int`; the maps of the model are
keyed by natural numbers, a process number is read through `Int.toNat`.  `none`:
`cell_process.at` throws. -/
def planned_receives (g : Dccrg UserData) (use_zoltan : Bool) (balance : ZoltanBalance) :
    Option (umap (List Nat) × uset) :=
  -- migration from user
  (g.pin_requests.foldlM
    (fun (acc : umap (List Nat) × uset) (pin_request : Nat × Int) =>
      match map_find g.cell_process pin_request.1 with
      | none => none
      | some current_process_of_cell =>
        if pin_request.2 = g.rank ∧ current_process_of_cell ≠ g.rank then
          some (map_push acc.1 current_process_of_cell pin_request.1,
            set_insert acc.2 pin_request.1)
        else some acc)
    (([], g.added_cells) : umap (List Nat) × uset)).map fun acc =>
  -- migration from Zoltan
  if use_zoltan then
    balance.to_receive.foldl
      (fun (acc : umap (List Nat) × uset) (item : Nat × Int) =>
        -- don't send / receive from self
        if item.2 = g.rank then acc
        -- skip user-migrated cells
        else if map_has g.pin_requests item.1 then acc
        else (map_push acc.1 item.2.toNat item.1, set_insert acc.2 item.1))
      acc
  else acc

/-- The two loops of `Dccrg::make_new_partition` that fill `cells_to_send`: the
vectors as pushed, before they are sorted, and `removed_cells`. -/
def planned_sends (g : Dccrg UserData) (use_zoltan : Bool) (balance : ZoltanBalance) :
    Option (umap (List Nat) × uset) :=
  -- migration from user
  (g.pin_requests.foldlM
    (fun (acc : umap (List Nat) × uset) (pin_request : Nat × Int) =>
      match map_find g.cell_process pin_request.1 with
      | none => none
      | some current_process_of_cell =>
        if pin_request.2 ≠ g.rank ∧ current_process_of_cell = g.rank then
          some (map_push acc.1 pin_request.2.toNat pin_request.1,
            set_insert acc.2 pin_request.1)
        else some acc)
    (([], g.removed_cells) : umap (List Nat) × uset)).map fun acc =>
  -- migration from Zoltan
  if use_zoltan then
    balance.to_send.foldl
      (fun (acc : umap (List Nat) × uset) (item : Nat × Int) =>
        -- don't send / receive from self
        if item.2 = g.rank then acc
        -- skip user-migrated cells
        else if map_has g.pin_requests item.1 then acc
        else (map_push acc.1 item.2.toNat item.1, set_insert acc.2 item.1))
      acc
  else acc

/-- The part of `Dccrg::make_new_partition` after `update_pin_requests`, on one
process.  `none`: the function aborts because Zoltan failed, or `cell_process.at`
throws. -/
def plan_partition (g : Dccrg UserData) (use_zoltan : Bool) (balance : ZoltanBalance) :
    Option (Dccrg UserData) :=
  if use_zoltan ∧ ¬ balance.ok ∧ ¬ g.no_load_balancing then none
  else
    (g.planned_receives use_zoltan balance).bind fun receives =>
    (g.planned_sends use_zoltan balance).map fun sends =>
    { g with
      -- receive cells in known order
      cells_to_receive := receives.1.map fun sender => (sender.1, sort_cells sender.2)
      added_cells := receives.2
      -- send cells in known order
      cells_to_send := sends.1.map fun receiver => (receiver.1, sort_cells receiver.2)
      removed_cells := sends.2 }

/-- `std::sort` of a vector of pairs of a cell and a message tag. -/
def sort_pairs (l : List (Nat × Int)) : List (Nat × Int) :=
  l.insertionSort fun a b => a.1 < b.1 ∨ (a.1 = b.1 ∧ a.2 ≤ b.2)

/-- The loop `for (unsigned int i = 0; i < v.size(); i++) v[i].second = i + 1` that
sets the message tags of a vector of pairs. -/
def set_tags (l : List (Nat × Int)) : List (Nat × Int) :=
  l.enum.map fun item => (item.2.1, to_int (item.1 + 1))

/-- The vector that a peer gets in the build with `DCCRG_SEND_SINGLE_CELLS`, given
the cells pushed for the peer: the pairs `(cell, -1)` are pushed, the vector is
sorted and the tags are set. -/
def single_cell_list (pushed : List Nat) : List (Nat × Int) :=
  set_tags (sort_pairs (pushed.map fun cell => (cell, (-1 : Int))))

end Dccrg

variable {UserData : Type}

open Dccrg

/-- `Dccrg::update_pin_requests` on all processes. -/
def update_pin_requests (w : World UserData) : World UserData :=
  let all_new_pinned := w.map new_pinned
  w.map fun g =>
    { g with
      pin_requests := apply_pin_requests g.pin_requests all_new_pinned
      new_pin_requests := [] }

/-- `Dccrg::make_new_partition` on all processes; `balance rank` is the output of
Zoltan on process `rank`. -/
def make_new_partition (w : World UserData) (use_zoltan : Bool)
    (balance : Nat → ZoltanBalance) : Option (World UserData) :=
  (update_pin_requests w).mapM fun g => g.plan_partition use_zoltan (balance g.rank)

end dccrg
namespace dccrg

namespace Dccrg

variable {UserData : Type}

/-! ## Predicates about the neighbor lists of a process -/

/-- The cell `n` is in the directory and owned by another process. -/
def is_remote (g : Dccrg UserData) (n : Nat) : Prop :=
  ∃ p, map_find g.cell_process n = some p ∧ p ≠ g.rank

/-- The stored neighbor lists of `cell` name a cell of another process: an entry
other than 0 of `neighbors[cell]` or an entry of `neighbors_to[cell]`. -/
def has_remote_neighbor (g : Dccrg UserData) (cell : Nat) : Prop :=
  ∃ neighbors_of neighbors_to, map_find g.neighbors cell = some neighbors_of ∧
    map_find g.neighbors_to cell = some neighbors_to ∧
    ((∃ n ∈ neighbors_of, n ≠ 0 ∧ g.is_remote n) ∨ ∃ n ∈ neighbors_to, g.is_remote n)

end Dccrg

end dccrg
namespace dccrg

namespace Dccrg

variable {UserData : Type}

/-! ## The geometry of the neighbor lists -/

/-- The index triple `q` is the one that `indices_from_neighborhood` computes from
the index triple `p`, the cell size `size` and the neighbourhood item `o`. -/
def shifted (g : Dccrg UserData) (p : indices_t) (size : Nat) (o : neighborhood_item_t)
    (q : indices_t) : Prop :=
  indices_from_neighborhood_dimension g.periodic.1
    (u64 (g.index.x_length * shl1 g.index.max_refinement_level)) size p.1 o.1 = some q.1 ∧
  indices_from_neighborhood_dimension g.periodic.2.1
    (u64 (g.index.y_length * shl1 g.index.max_refinement_level)) size p.2.1 o.2.1
    = some q.2.1 ∧
  indices_from_neighborhood_dimension g.periodic.2.2
    (u64 (g.index.z_length * shl1 g.index.max_refinement_level)) size p.2.2 o.2.2
    = some q.2.2

instance (g : Dccrg UserData) (p : indices_t) (size : Nat) (o : neighborhood_item_t)
    (q : indices_t) : Decidable (g.shifted p size o q) := by
  unfold shifted; infer_instance

/-- The indices that `indices_from_neighborhood` computes for the items of
`neighborhood_of` and `neighborhood_to` do not overflow: in every dimension the
length of the grid in indices plus the largest shift is below `2^64`.  With a maximum
refinement level of at least 1 this holds for all offsets of type `int`. -/
def reach_fits (g : Dccrg UserData) : Prop :=
  ∀ o ∈ g.neighborhood_of,
    g.index.x_length * 2 ^ g.index.max_refinement_level.toNat
      + o.1.natAbs * 2 ^ g.index.max_refinement_level.toNat < 2 ^ 64 ∧
    g.index.y_length * 2 ^ g.index.max_refinement_level.toNat
      + o.2.1.natAbs * 2 ^ g.index.max_refinement_level.toNat < 2 ^ 64 ∧
    g.index.z_length * 2 ^ g.index.max_refinement_level.toNat
      + o.2.2.natAbs * 2 ^ g.index.max_refinement_level.toNat < 2 ^ 64

instance (g : Dccrg UserData) : Decidable g.reach_fits := by
  unfold reach_fits; infer_instance

/-- The relation behind both neighbor lists, "`b` sees `a`": the levels of `a` and `b`
differ by at most 1 and, for an item `o` of `neighborhood_of`, the cube of the size of
`b` at the position that `o` gives for `b` and the footprint of `a` lie one inside the
other (`q` and the indices of `a` agree after rounding down to the larger of the two
sizes). -/
def sees (g : Dccrg UserData) (b a : Nat) : Prop :=
  (g.index.get_refinement_level a - g.index.get_refinement_level b).natAbs ≤ 1 ∧
  ∃ o ∈ g.neighborhood_of, ∃ q : indices_t,
    g.shifted (g.index.get_indices b) (g.index.get_cell_size_in_indices b) o q ∧
    q.1 / max (g.index.get_cell_size_in_indices a) (g.index.get_cell_size_in_indices b)
      = (g.index.get_indices a).1
        / max (g.index.get_cell_size_in_indices a) (g.index.get_cell_size_in_indices b) ∧
    q.2.1 / max (g.index.get_cell_size_in_indices a) (g.index.get_cell_size_in_indices b)
      = (g.index.get_indices a).2.1
        / max (g.index.get_cell_size_in_indices a) (g.index.get_cell_size_in_indices b) ∧
    q.2.2 / max (g.index.get_cell_size_in_indices a) (g.index.get_cell_size_in_indices b)
      = (g.index.get_indices a).2.2
        / max (g.index.get_cell_size_in_indices a) (g.index.get_cell_size_in_indices b)

/-- The index `index` moved by `offset` cells of size `size` in a dimension of length
`grid_length`: modulo the length of the grid in a periodic dimension, and `none`
outside of the grid in a dimension that is not periodic. -/
def shift_index (is_periodic : Bool) (grid_length size index : Nat) (offset : Int) :
    Option Nat :=
  if is_periodic then some (((index : Int) + offset * size) % grid_length).toNat
  else if 0 ≤ (index : Int) + offset * size ∧ (index : Int) + offset * size < grid_length
    then some ((index : Int) + offset * size).toNat
  else none

/-- The position `get_indices(c) + offset * size(c)` of the neighbor of `c` at the
item `offset` of the neighbourhood, `none` when it falls outside of the grid. -/
def neighbor_position (g : Dccrg UserData) (c : Nat) (offset : neighborhood_item_t) :
    Option indices_t :=
  (shift_index g.periodic.1 (g.index.x_length * 2 ^ g.index.max_refinement_level.toNat)
    (g.index.get_cell_size_in_indices c) (g.index.get_indices c).1 offset.1).bind fun x =>
  (shift_index g.periodic.2.1 (g.index.y_length * 2 ^ g.index.max_refinement_level.toNat)
    (g.index.get_cell_size_in_indices c) (g.index.get_indices c).2.1 offset.2.1).bind fun y =>
  (shift_index g.periodic.2.2 (g.index.z_length * 2 ^ g.index.max_refinement_level.toNat)
    (g.index.get_cell_size_in_indices c) (g.index.get_indices c).2.2 offset.2.2).map fun z =>
  (x, y, z)

/-- The leaf whose footprint holds the index triple `p`. -/
def covering_leaf (g : Dccrg UserData) (p : indices_t) : Option Nat :=
  (map_keys g.cell_process).find? fun n => decide (g.is_leaf n ∧ g.in_footprint n p)

/-- The footprint of `n` and the cube of side `size` at `p` have an index triple in
common. -/
def meets (g : Dccrg UserData) (n : Nat) (p : indices_t) (size : Nat) : Prop :=
  (g.index.get_indices n).1 < p.1 + size ∧
  p.1 < (g.index.get_indices n).1 + g.index.get_cell_size_in_indices n ∧
  (g.index.get_indices n).2.1 < p.2.1 + size ∧
  p.2.1 < (g.index.get_indices n).2.1 + g.index.get_cell_size_in_indices n ∧
  (g.index.get_indices n).2.2 < p.2.2 + size ∧
  p.2.2 < (g.index.get_indices n).2.2 + g.index.get_cell_size_in_indices n

instance (g : Dccrg UserData) (n : Nat) (p : indices_t) (size : Nat) :
    Decidable (g.meets n p size) := by
  unfold meets; infer_instance

/-- The 2:1 balance around the cell `c`: every leaf whose footprint meets the cube of
the size of `c` at a neighbor position of `c` has a refinement level that differs from
the level of `c` by at most 1. -/
def balanced_around (g : Dccrg UserData) (c : Nat) : Prop :=
  ∀ o ∈ g.neighborhood_of, ∀ p ∈ g.neighbor_position c o,
    ∀ n ∈ map_keys g.cell_process, g.is_leaf n →
      g.meets n p (g.index.get_cell_size_in_indices c) →
      (g.index.get_refinement_level c - g.index.get_refinement_level n).natAbs ≤ 1

instance (g : Dccrg UserData) (c : Nat) : Decidable (g.balanced_around c) := by
  unfold balanced_around; infer_instance

/-- The segment of `find_neighbors_of (c)` for the item `offset` of the neighbourhood,
in the words of the specification: `[0]` when the neighbor position falls outside of
the grid, the leaf that covers the position when its level is the level of `c` or one
less, and otherwise the 8 children, in the order of `get_all_children`, of the cell of
the level of `c` at the position. -/
def neighbor_segment (g : Dccrg UserData) (c : Nat) (offset : neighborhood_item_t) :
    List Nat :=
  match g.neighbor_position c offset with
  | none => [0]
  | some p =>
    match g.covering_leaf p with
    | none => []
    | some n =>
      if g.index.get_refinement_level n = g.index.get_refinement_level c
          ∨ g.index.get_refinement_level n = g.index.get_refinement_level c - 1 then [n]
      else g.get_all_children
        (g.index.get_cell_from_indices p (g.index.get_refinement_level c))

/-! ## `get_neighbors_of (cell, i, j, k)` -/

/-- The body of the three nested loops of `Dccrg::get_neighbors_of (cell, i, j, k)`
for the offsets `current`.  The state is `index`, `return_neighbors` and whether the
loops have been ended (by `current_i = current_j = current_k = last_offset + 1`).
`none`: the stored neighbor list is missing or is read past its end. -/
def get_neighbors_of_step (g : Dccrg UserData) (cell : Nat) (refinement_level : Int)
    (i j k : Int) (state : Nat × List Nat × Bool) (current : Int × Int × Int) :
    Option (Nat × List Nat × Bool) :=
  if state.2.2 then some state
  else if current.1 = 0 ∧ current.2.1 = 0 ∧ current.2.2 = 0 then some state
  -- skip diagonal offsets
  else if g.neighborhood_size = 0 ∧
      (if current.2.2 = 0 then 1 else 0) + (if current.2.1 = 0 then 1 else 0)
        + (if current.1 = 0 then 1 else 0) ≠ (2 : Int) then some state
  else
    match map_find g.neighbors cell with
    | none => none
    | some list =>
      match list[state.1]? with
      | none => none
      | some first =>
        let current_refinement_level := g.index.get_refinement_level first
        if i = current.1 ∧ j = current.2.1 ∧ k = current.2.2 then
          if current_refinement_level = -1 then some (state.1 + 1, state.2.1 ++ [0], true)
          else if current_refinement_level > refinement_level then
            ((List.range 7).mapM fun t => list[state.1 + 1 + t]?).map fun rest =>
              (state.1 + 8, state.2.1 ++ first :: rest, true)
          else some (state.1 + 1, state.2.1 ++ [first], true)
        else if current_refinement_level > refinement_level then
          some (state.1 + 8, state.2.1, false)
        else some (state.1 + 1, state.2.1, false)

/-- `Dccrg::get_neighbors_of (cell, i, j, k)`.  The loops run `current_k`,
`current_j` and `current_i` (the innermost) from `-last_offset` to `last_offset`. -/
def get_neighbors_of (g : Dccrg UserData) (cell : Nat) (i j k : Int) : Option (List Nat) :=
  if ¬ map_has g.cell_process cell ∨ map_find g.cell_process cell ≠ some g.rank
      ∨ (i = 0 ∧ j = 0 ∧ k = 0) then some []
  else
    let refinement_level := g.index.get_refinement_level cell
    let last_offset : Int := if g.neighborhood_size > 0 then to_int g.neighborhood_size else 1
    let range : List Int :=
      (List.range (2 * last_offset + 1).toNat).map fun t => (t : Int) - last_offset
    let offsets : List (Int × Int × Int) :=
      range.flatMap fun current_k => range.flatMap fun current_j =>
        range.map fun current_i => (current_i, current_j, current_k)
    (offsets.foldlM (g.get_neighbors_of_step cell refinement_level i j k)
      ((0, [], false) : Nat × List Nat × Bool)).map fun state => state.2.1

end Dccrg

end dccrg
namespace dccrg

open Dccrg

/-! ## Concrete runs of the neighbor data and partition functions -/

/-- The process `example_deep_first` after `update_remote_neighbor_info ()`. -/
def example_deep_info : Dccrg Nat :=
  (example_deep_first.update_remote_neighbor_info).getD example_deep_first

/-- The process `example_deep_info` after
`recalculate_neighbor_update_send_receive_lists`. -/
def example_deep_lists : Dccrg Nat :=
  (example_deep_info.recalculate_neighbor_update_send_receive_lists).getD example_deep_info

/-- The world `example_deep1` after process 0 has called `pin (3, 1)`. -/
def example_pinned : World Nat := [example_deep_first.pin 3 1, example_deep_second]

/-- An output of Zoltan for the two processes of `example_pinned`: process 0 is to
send the cells 4 and 3 to process 1. -/
def example_balance (rank : Nat) : ZoltanBalance :=
  if rank = 0 then ⟨true, [], [(4, 1), (3, 1)]⟩ else ⟨true, [(4, 0), (3, 0)], []⟩

/-- The world `example_pinned` after `make_new_partition (true)`. -/
def example_planned : World Nat :=
  (make_new_partition example_pinned true example_balance).getD []

end dccrg
namespace dccrg

open Dccrg

/-- The process `example_deep_first` with the lists `neighbors_to` in the order of
`find_neighbors_to`. -/
def example_set_first : Dccrg Nat :=
  { example_deep_first with
    neighbors_to := [(3, [11, 7, 4]), (4, [12, 8, 5, 3]), (7, [15, 8, 3]), (8, [16, 9, 7, 4]),
      (11, [15, 12, 3]), (12, [16, 13, 11, 4]), (15, [16, 11, 7]), (16, [17, 15, 12, 8])] }

/-- The process `example_deep_second` with the lists `neighbors_to` in the order of
`find_neighbors_to`. -/
def example_set_second : Dccrg Nat :=
  { example_deep_second with
    neighbors_to := [(5, [13, 9, 6, 4]), (6, [14, 10, 5]), (9, [17, 10, 8, 5]),
      (10, [18, 9, 6]), (13, [17, 14, 12, 5]), (14, [18, 13, 6]), (17, [18, 16, 13, 9]),
      (18, [17, 14, 10])] }

/-- The two processes `example_set_first` and `example_set_second`. -/
def example_set : World Nat := [example_set_first, example_set_second]

/-- The process `example_set_first` after `update_remote_neighbor_info ()`. -/
def example_set_first_info : Dccrg Nat :=
  (example_set_first.update_remote_neighbor_info).getD example_set_first

/-- The process `example_set_first_info` after
`recalculate_neighbor_update_send_receive_lists`. -/
def example_set_first_lists : Dccrg Nat :=
  (example_set_first_info.recalculate_neighbor_update_send_receive_lists).getD
    example_set_first_info

/-- The process `example_set_second` after `update_remote_neighbor_info ()`. -/
def example_set_second_info : Dccrg Nat :=
  (example_set_second.update_remote_neighbor_info).getD example_set_second

/-- The process `example_set_second_info` after
`recalculate_neighbor_update_send_receive_lists`. -/
def example_set_second_lists : Dccrg Nat :=
  (example_set_second_info.recalculate_neighbor_update_send_receive_lists).getD
    example_set_second_info

end dccrg
namespace dccrg

open Dccrg

/-- A single process on a grid of 2 x 1 x 1 root cells with maximum refinement level 1
and neighbourhood size 0 in which cell 1 has been refined: the leaves are cell 2 and
the 8 children of cell 1, with their neighbor lists. -/
def example_mixed : Dccrg Nat :=
  { example_grid with
    neighborhood_size := 0
    neighborhood_of := [(0, 0, -1), (0, -1, 0), (-1, 0, 0), (1, 0, 0), (0, 1, 0), (0, 0, 1)]
    neighborhood_to := [(0, 0, 1), (0, 1, 0), (1, 0, 0), (-1, 0, 0), (0, -1, 0), (0, 0, -1)]
    cells := [(2, 0), (3, 0), (4, 0), (7, 0), (8, 0), (11, 0), (12, 0), (15, 0), (16, 0)]
    cell_process := [(1, 0), (2, 0), (3, 0), (4, 0), (7, 0), (8, 0), (11, 0), (12, 0),
      (15, 0), (16, 0)]
    neighbors := [(2, [0, 0, 3, 4, 7, 8, 11, 12, 15, 16, 0, 0, 0]), (3, [0, 0, 0, 4, 7, 11]),
      (4, [0, 0, 3, 2, 8, 12]), (7, [0, 3, 0, 8, 0, 15]), (8, [0, 4, 7, 2, 0, 16]),
      (11, [3, 0, 0, 12, 15, 0]), (12, [4, 0, 11, 2, 16, 0]), (15, [7, 11, 0, 16, 0, 0]),
      (16, [8, 12, 15, 2, 0, 0])]
    neighbors_to := [(2, [4, 8, 12, 16]), (3, [2, 11, 7, 4]), (4, [2, 12, 8, 3]),
      (7, [2, 15, 8, 3]), (8, [2, 16, 7, 4]), (11, [2, 15, 12, 3]), (12, [2, 16, 11, 4]),
      (15, [2, 16, 11, 7]), (16, [2, 15, 12, 8])] }

end dccrg
namespace dccrg

namespace Dccrg

variable {UserData : Type}

/-! ## Requests made on one process -/

/-- The requests `requests` made in order on one process.  `none`: a call throws. -/
def apply_requests (g : Dccrg UserData) (requests : List Request) :
    Option (Dccrg UserData) :=
  requests.foldlM (fun (g : Dccrg UserData) (r : Request) => r.apply g) g

/-- The request sets respect the sibling groups: `cells_to_unrefine` has no duplicates
and holds only cells of the directory above level 0, each of which is one of its
siblings (the cells of `get_all_children (get_parent (u))`); of the siblings of such a
cell no other one is in `cells_to_unrefine` and none is in `cells_to_refine` or in
`cells_not_to_unrefine`. -/
def unrefines_exclusive (g : Dccrg UserData) : Prop :=
  g.cells_to_unrefine.Nodup ∧
  ∀ u ∈ g.cells_to_unrefine,
    (map_has g.cell_process u = true ∧ g.index.get_refinement_level u ≠ 0) ∧
    u ∈ g.get_all_children (g.get_parent u) ∧
    ∀ s ∈ g.get_all_children (g.get_parent u),
      (s ∈ g.cells_to_unrefine → s = u) ∧ s ∉ g.cells_to_refine ∧
      s ∉ g.cells_not_to_unrefine

instance (g : Dccrg UserData) : Decidable g.unrefines_exclusive := by
  unfold unrefines_exclusive; infer_instance

/-- The tables of a process that the children of a refined cell inherit from:
`pin_requests`, `new_pin_requests` and `cell_weights`. -/
def pin_data (g : Dccrg UserData) : umap Int × umap Int × umap Rat :=
  (g.pin_requests, g.new_pin_requests, g.cell_weights)

end Dccrg

end dccrg
namespace dccrg

/-! ## Values of type `double`

`Index::set_length` and `Index::get_maximum_possible_refinement_level` compute with
values of type `double` (IEEE 754 binary64, rounding to nearest, ties to even).  The
values that occur are conversions of numbers of type `uint64_t` and `int` that are not
negative, their products and sums: a finite value is a natural number of 53
significant bits below `2^1024`; a product or a sum that is too large is infinite, and
the product of 0 and infinity is a NaN. -/

/-- A value of type `double` as `Index` computes with it. -/
inductive Double where
  | finite (value : Nat)
  | infinity
  | nan
deriving DecidableEq, Repr

/-- The number of bits that the rounding of `n` to 53 significant bits drops: the
least `shift` with `n / 2^shift < 2^53`. -/
def dropped_bits (n : Nat) : Nat :=
  ((List.range 1100).find? fun shift => decide (n / 2 ^ shift < 2 ^ 53)).getD 1100

/-- Rounding of a natural number to 53 significant bits, to nearest, ties to even. -/
def round53 (n : Nat) : Nat :=
  let shift := dropped_bits n
  let quotient := n / 2 ^ shift
  let rest := n % 2 ^ shift
  if 2 * rest < 2 ^ shift ∨ (2 * rest = 2 ^ shift ∧ quotient % 2 = 0) then
    quotient * 2 ^ shift
  else (quotient + 1) * 2 ^ shift

namespace Double

/-- The conversion of a natural number to `double`: the nearest value of 53
significant bits, infinity from `2^1024` on. -/
def of_nat (n : Nat) : Double :=
  if round53 n < 2 ^ 1024 then finite (round53 n) else infinity

/-- The product of two values of type `double`. -/
def mul : Double → Double → Double
  | finite a, finite b => of_nat (a * b)
  | finite a, infinity => if a = 0 then nan else infinity
  | infinity, finite b => if b = 0 then nan else infinity
  | infinity, infinity => infinity
  | _, _ => nan

/-- The sum of two values of type `double`. -/
def add : Double → Double → Double
  | finite a, finite b => of_nat (a + b)
  | finite _, infinity => infinity
  | infinity, finite _ => infinity
  | infinity, infinity => infinity
  | _, _ => nan

/-- The comparison `a <= b` of two values of type `double`; it is false when one of
them is a NaN. -/
def le : Double → Double → Bool
  | finite a, finite b => decide (a ≤ b)
  | finite _, infinity => true
  | infinity, infinity => true
  | _, _ => false

/-- The comparison `a > b` of two values of type `double`; it is false when one of
them is a NaN. -/
def gt : Double → Double → Bool
  | finite a, finite b => decide (a > b)
  | infinity, finite _ => true
  | _, _ => false

/-- The value of `pow (double (8), double (refinement_level))` for a refinement level
that is not negative: the power of two `8^refinement_level`, infinity from
`8^342 = 2^1026` on. -/
def pow8 (refinement_level : Int) : Double := of_nat (8 ^ refinement_level.toNat)

end Double

namespace Index

/-- The `while` loop of `Index::get_maximum_possible_refinement_level`.  `none`: the
loop has not ended after `fuel` rounds. -/
def maximum_possible_loop (ix : Index) : Nat → Int → Double → Option Int
  | 0, _, _ => none
  | fuel + 1, refinement_level, current_last =>
    if current_last.le (Double.of_nat (2 ^ 64 - 1)) then
      maximum_possible_loop ix fuel (refinement_level + 1)
        (current_last.add
          ((Double.of_nat ix.grid_length).mul (Double.pow8 refinement_level)))
    else some (refinement_level - 2)

/-- `Index::get_maximum_possible_refinement_level`.  The loop ends after at most 344
rounds, because `pow (8, 342)` is infinite. -/
def get_maximum_possible_refinement_level (ix : Index) : Option Int :=
  ix.maximum_possible_loop 400 0 (Double.finite 0)

/-- `Index::set_length`: the `Index` afterwards and the returned value. -/
def set_length (ix : Index) (given_x_length given_y_length given_z_length : Nat) :
    Option (Index × Bool) :=
  if given_x_length = 0 ∨ given_y_length = 0 ∨ given_z_length = 0 then some (ix, false)
  else
    let old_x_length := ix.x_length
    let old_y_length := ix.y_length
    let old_z_length := ix.z_length
    let ix := { ix with
      x_length := given_x_length
      y_length := given_y_length
      z_length := given_z_length }
    if (((Double.of_nat ix.x_length).add (Double.of_nat ix.x_length)).add
        (Double.of_nat ix.x_length)).gt (Double.of_nat (2 ^ 64 - 1)) then
      some ({ ix with
        x_length := old_x_length
        y_length := old_y_length
        z_length := old_z_length }, false)
    else
      let old_grid_length := ix.grid_length
      let ix := { ix with
        grid_length := u64 (u64 (ix.x_length * ix.y_length) * ix.z_length) }
      ix.get_maximum_possible_refinement_level.bind fun maximum_possible =>
      if ix.max_refinement_level > maximum_possible then
        some ({ ix with
          x_length := old_x_length
          y_length := old_y_length
          z_length := old_z_length
          grid_length := old_grid_length }, false)
      else some (ix.update_last_cell, true)

end Index

/-- The `Index` that the constructor of `Index` creates: a grid of 1 cell with maximum
refinement level 0. -/
def default_index : Index := ⟨1, 1, 1, 1, 0, 1⟩

end dccrg
namespace dccrg

namespace Dccrg

variable {UserData : Type}

/-! ## Preparation of a migration -/

/-- `Dccrg::wait_user_data_transfer_receives (cells)`: the received payloads are stored
in `cells` under the sorted cells of `cells_to_receive`. -/
def wait_user_data_transfer_receives_cells (g : Dccrg UserData) :
    Option (Dccrg UserData) :=
  (g.incoming_data.foldlM
    (fun (g : Dccrg UserData) (item : Nat × List UserData) =>
      match map_find g.cells_to_receive item.1 with
      | none => none
      | some list =>
        let sorted := sort_cells list
        let g := { g with cells_to_receive := map_set g.cells_to_receive item.1 sorted }
        if sorted.length ≤ item.2.length then
          some { g with
            cells :=
              (sorted.zip item.2).foldl
                (fun (m : umap UserData) (p : Nat × UserData) => map_set m p.1 p.2)
                g.cells }
        else none)
    g).map fun (g : Dccrg UserData) => { g with incoming_data := [] }

/-- `Dccrg::prepare_to_move_cells` on one process, from its start up to the call of
`wait_user_data_transfer_receives`. -/
def prepare_to_move_cells_start (g : Dccrg UserData) : Option (Dccrg UserData) :=
  let g := { g with
    cells_with_remote_neighbors := []
    remote_cells_with_local_neighbors := []
    remote_neighbors := []
    cells_to_refine := []
    refined_cell_data := []
    cells_to_unrefine := []
    unrefined_cell_data := [] }
  g.start_user_data_transfers

end Dccrg

variable {UserData : Type}

open Dccrg

/-- `Dccrg::prepare_to_move_cells` on all processes. -/
def prepare_to_move_cells (w : World UserData) : Option (World UserData) :=
  (w.mapM fun (g : Dccrg UserData) => g.prepare_to_move_cells_start).bind fun sent =>
  sent.mapM fun (g : Dccrg UserData) =>
    (deliver sent g).bind fun incoming =>
    ({ g with incoming_data := incoming }.wait_user_data_transfer_receives_cells).map
      fun (g : Dccrg UserData) =>
        -- wait_user_data_transfer_sends
        { g with outgoing_data := [] }

/-- `Dccrg::prepare_to_migrate_cells` on all processes; `balance rank` is the output of
Zoltan on process `rank`. -/
def prepare_to_migrate_cells (w : World UserData) (balance : Nat → ZoltanBalance) :
    Option (World UserData) :=
  (make_new_partition w true balance).bind prepare_to_move_cells

/-- `Dccrg::prepare_to_balance_load` on all processes. -/
def prepare_to_balance_load (w : World UserData) (balance : Nat → ZoltanBalance) :
    Option (World UserData) :=
  (make_new_partition w true balance).bind prepare_to_move_cells

/-- The part of `Dccrg::migrate_cells (has_been_prepared)` before `move_cells`, on all
processes. -/
def migrate_cells_partition (w : World UserData) (has_been_prepared : Bool)
    (balance : Nat → ZoltanBalance) : Option (World UserData) :=
  if ¬ has_been_prepared then make_new_partition w false balance else some w

/-- The send and receive lists of every process of a world. -/
def migration_lists (w : World UserData) :
    List (List (Nat × List Nat) × List (Nat × List Nat)) :=
  w.map fun g => (g.cells_to_send, g.cells_to_receive)

/-- The sets `added_cells` and `removed_cells` of every process of a world. -/
def migration_sets (w : World UserData) : List (List Nat × List Nat) :=
  w.map fun g => (g.added_cells, g.removed_cells)

/-- The pin tables `pin_requests` and `new_pin_requests` of every process of a world. -/
def pin_tables (w : World UserData) : List (List (Nat × Int) × List (Nat × Int)) :=
  w.map fun g => (g.pin_requests, g.new_pin_requests)

end dccrg
namespace dccrg

open Dccrg

/-! ## Concrete runs of requests -/

/-- The process `example_mixed` after `unrefine_completely (3)`,
`unrefine_completely (4)` and `refine_completely (2)`. -/
def example_requested : Dccrg Nat :=
  (example_mixed.apply_requests [Request.unrefine_completely 3,
    Request.unrefine_completely 4, Request.refine_completely 2]).getD example_mixed

/-- The `Index` of a grid of 2049638230412172402 x 1 x 1 root cells with maximum
refinement level 0; 9 times the number of root cells is `2^64 + 2`. -/
def example_wide_index : Index :=
  ⟨2049638230412172402, 1, 1, 2049638230412172402, 0, 2049638230412172402⟩

/-- The world `example_world0` in which cell 1 is pinned to process 0, its owner, and in
which process 0 has asked to pin it to process 1 and has given it the weight 5. -/
def example_heir0 : World Nat :=
  example_world0.map fun g =>
    { g with
      pin_requests := [(1, 0)]
      new_pin_requests := if g.rank = 0 then [(1, 1)] else []
      cell_weights := if g.rank = 0 then [(1, 5)] else [] }

/-- The world `example_heir0` after process 0 has called `refine_completely (1)`. -/
def example_heir1 : World Nat :=
  (make_requests example_heir0 [(0, Request.refine_completely 1)]).getD []

/-- The world in which `execute_refines` runs during `stop_refining` in
`example_heir1`. -/
def example_heir_prepared : World Nat := (refines_prepared example_heir1).getD []

/-- The result of `stop_refining` in `example_heir1`. -/
def example_heir_result : List (Dccrg Nat × List Nat) :=
  (stop_refining example_heir1).getD []

/-- The world `example_world2`, in which cell 1 has the children 3, 4, 7, 8, 11, 12, 15
and 16, with cell 3 pinned to process 0. -/
def example_pin2 : World Nat :=
  example_world2.map fun g => { g with pin_requests := [(3, 0)] }

/-- The world `example_pin2` after process 0 has called `unrefine_completely (3)`. -/
def example_pin3 : World Nat :=
  (make_requests example_pin2 [(0, Request.unrefine_completely 3)]).getD []

/-- The world in which `execute_refines` runs during `stop_refining` in
`example_pin3`. -/
def example_pin_prepared : World Nat := (refines_prepared example_pin3).getD []

/-- The result of `stop_refining` in `example_pin3`. -/
def example_pin_result : List (Dccrg Nat × List Nat) :=
  (stop_refining example_pin3).getD []

/-- Process `rank` of the world `example_prepared`. -/
def example_prepared_rank (rank : Nat) : Dccrg Nat :=
  (example_prepared[rank]?).getD example_grid

/-- The state of process `rank` of `example_prepared` when `execute_refines` reaches
`wait_user_data_transfer_receives`, with `new_cells` and `all_to_unrefine`. -/
def example_prepared_before (rank : Nat) : Dccrg Nat × List Nat × uset :=
  ((example_prepared_rank rank).execute_refines_before_wait).getD (example_grid, [], [])

/-- Process `rank` of `example_prepared` after `execute_refines`; no payload is
transferred in this run. -/
def example_prepared_after (rank : Nat) : Dccrg Nat :=
  (({ (example_prepared_before rank).1 with incoming_data := [] }).execute_refines_after_wait
    (example_prepared_before rank).2.2).getD example_grid

end dccrg
namespace dccrg

namespace Dccrg

variable {UserData : Type}

/-! ## Hierarchial partitioning -/

/-- `Dccrg::get_part_number`: the part number of this process on the hierarchy level
`level` of load balancing.  The state of the loop is `(process, part)`.  `none`: the
level is invalid (`*error = ZOLTAN_FATAL`, the returned value is -1). -/
def get_part_number (g : Dccrg UserData) (level : Int) : Option Nat :=
  if level < 0 ∨ level ≥ (g.processes_per_part.length : Int) then none
  else
    some ((List.range (level.toNat + 1)).foldl
      (fun (state : Nat × Nat) i =>
        (state.1 % g.processes_per_part.getD i 0, state.1 / g.processes_per_part.getD i 0))
      (g.rank, 0)).2

/-- Modelled from the spec: the part number of `rank` on the level `level` in the words
of the specification, `rank` divided by the product of `processes_per_part[i]` for
`i = 0 .. level`. -/
def part_number_by_product (rank : Nat) (processes_per_part : List Nat) (level : Nat) :
    Nat :=
  rank / ((processes_per_part.take (level + 1)).foldl (fun product p => product * p) 1)

end Dccrg

/-- Process 7 of a communicator with two levels of hierarchial partitioning: parts of
12 processes, each divided into parts of 6 processes. -/
def example_hierarchy : Dccrg Nat :=
  { example_grid with rank := 7, comm_size := 24, processes_per_part := [12, 6] }

end dccrg
namespace dccrg

/-- Modelled from the spec: the directory of the unrefined cells in the words of the
specification, contiguous ascending blocks of ids in the order of the processes `ps`.
Process `p` owns the next `count p` ids after the `n` ids of the processes before
it. -/
def block_list (count : Nat → Nat) : List Nat → Nat → umap Nat
  | [], _ => []
  | p :: t, n =>
    (List.range (count p)).map (fun i => (1 + (n + i), p)) ++ block_list count t (n + count p)

/-- The number of cells that the directory `directory` assigns to the process
`process`. -/
def cells_owned (directory : umap Nat) (process : Nat) : Nat :=
  (directory.filter fun entry => entry.2 = process).length

end dccrg
namespace dccrg

namespace Index

/-- Modelled from the spec: the id of the root cell at the offset `o`, counted in root
cells, from the root cell `c`, and 0 when the offset leaves the grid.  The root cell
`c` stands at `x = (c - 1) mod x_length`, `y = (c - 1) / x_length mod y_length` and
`z = (c - 1) / (x_length * y_length)`. -/
def root_neighbor (ix : Index) (c : Nat) (o : neighborhood_item_t) : Nat :=
  let x : Int := (((c - 1) % ix.x_length : Nat) : Int) + o.1
  let y : Int := (((c - 1) / ix.x_length % ix.y_length : Nat) : Int) + o.2.1
  let z : Int := (((c - 1) / (ix.x_length * ix.y_length) : Nat) : Int) + o.2.2
  if 0 ≤ x ∧ x < ix.x_length ∧ 0 ≤ y ∧ y < ix.y_length ∧ 0 ≤ z ∧ z < ix.z_length then
    1 + x.toNat + y.toNat * ix.x_length + z.toNat * ix.x_length * ix.y_length
  else 0

/-- The root cell `c` is a corner of the grid: in every dimension it is the first or
the last root cell. -/
def is_corner (ix : Index) (c : Nat) : Prop :=
  ((c - 1) % ix.x_length = 0 ∨ (c - 1) % ix.x_length = ix.x_length - 1) ∧
  ((c - 1) / ix.x_length % ix.y_length = 0 ∨
    (c - 1) / ix.x_length % ix.y_length = ix.y_length - 1) ∧
  ((c - 1) / (ix.x_length * ix.y_length) = 0 ∨
    (c - 1) / (ix.x_length * ix.y_length) = ix.z_length - 1)

instance (ix : Index) (c : Nat) : Decidable (ix.is_corner c) := by
  unfold is_corner; infer_instance

end Index

end dccrg
namespace dccrg

namespace Dccrg

variable {UserData : Type}

/-- What `unrefine_completely` has checked about the neighbors of the parent for the
cells of `cells_to_unrefine`: no cell of `find_neighbors_of (parent, 2, true)` is more
than one level below the parent. -/
def unrefines_level_checked (g : Dccrg UserData) : Prop :=
  ∀ u ∈ g.cells_to_unrefine, ∀ n ∈ g.find_neighbors_of (g.get_parent u) 2 true,
    g.index.get_refinement_level n ≤ g.index.get_refinement_level (g.get_parent u) + 1

instance (g : Dccrg UserData) : Decidable g.unrefines_level_checked := by
  unfold unrefines_level_checked; infer_instance

end Dccrg

/-- The single process `example_mixed` after `unrefine_completely (3)` and
`unrefine_completely (11)`, two siblings: only the first request is recorded. -/
def example_unrefine_world : World Nat :=
  [(example_mixed.apply_requests [Request.unrefine_completely 3,
    Request.unrefine_completely 11]).getD example_mixed]

end dccrg
namespace dccrg

namespace Dccrg

variable {UserData : Type}

/-- The neighbor data of a process as `update_neighbors` and
`update_remote_neighbor_info` leave them: for every local cell `neighbors` holds
`find_neighbors_of` and `neighbors_to` holds the cells of `find_neighbors_to`; a local
cell with a neighbor of another process is in `cells_with_remote_neighbors`, and that
neighbor is in `remote_cells_with_local_neighbors`. -/
def neighbor_info_ok (g : Dccrg UserData) : Prop :=
  (∀ c ∈ map_keys g.cells,
    map_find g.neighbors c = some (g.find_neighbors_of c 1 false) ∧
    (map_find g.neighbors_to c).isSome = true ∧
    ∀ neighbors_to ∈ map_find g.neighbors_to c,
      (∀ n ∈ neighbors_to, n ∈ g.find_neighbors_to c) ∧
      ∀ n ∈ g.find_neighbors_to c, n ∈ neighbors_to) ∧
  ∀ c ∈ map_keys g.cells,
    ∀ n ∈ g.find_neighbors_of c 1 false ++ g.find_neighbors_to c, n ≠ 0 →
      map_find g.cell_process n ≠ some g.rank →
      c ∈ g.cells_with_remote_neighbors ∧ n ∈ g.remote_cells_with_local_neighbors

instance (g : Dccrg UserData) : Decidable g.neighbor_info_ok := by
  unfold neighbor_info_ok; infer_instance

end Dccrg

variable {UserData : Type}

/-- The state of the loop of `induce_refines` belongs to the world `w`: process `i`
differs from `w[i]` in `cells_to_refine` only, its new refines are in its
`cells_to_refine`, and its `cells_to_refine` holds local cells only. -/
def induce_frame (w : World UserData) (state : List (Dccrg UserData × List Nat)) : Prop :=
  state.length = w.length ∧
  ∀ (i : Nat) (g : Dccrg UserData) (s : Dccrg UserData × List Nat),
    w[i]? = some g → state[i]? = some s →
    s.1 = { g with cells_to_refine := s.1.cells_to_refine } ∧
    (∀ c ∈ s.2, c ∈ s.1.cells_to_refine) ∧
    ∀ c ∈ s.1.cells_to_refine, map_has g.cells c = true

/-- The refines that the loop of `induce_refines` has dealt with are closed under the
2:1 rule: when `c` is in `cells_to_refine` of a process and not among its new refines,
every larger neighbor `n` of `c` is in `cells_to_refine` of the process that owns
`n`. -/
def refines_closed_in (w : World UserData) (state : List (Dccrg UserData × List Nat)) :
    Prop :=
  ∀ (p : Nat) (gp : Dccrg UserData) (sp : Dccrg UserData × List Nat),
    w[p]? = some gp → state[p]? = some sp →
    ∀ c ∈ sp.1.cells_to_refine, c ∉ sp.2 →
    ∀ (q : Nat) (gq : Dccrg UserData) (sq : Dccrg UserData × List Nat),
    w[q]? = some gq → state[q]? = some sq →
    ∀ n, n ≠ 0 → map_find gq.cell_process n = some q →
      gq.index.get_refinement_level n < gq.index.get_refinement_level c →
      (n ∈ gq.find_neighbors_of c 1 false ∨ n ∈ gq.find_neighbors_to c) →
      n ∈ sq.1.cells_to_refine

end dccrg
namespace dccrg

namespace Dccrg

variable {UserData : Type}

/-- The first `DEBUG` check at the end of `Dccrg::induce_refines`, "check that all
required refines have been induced": `false` when the check aborts. -/
def induce_refines_check (g : Dccrg UserData) : Bool :=
  g.cells_to_refine.all fun refined =>
    -- neighbors_of
    ((g.find_neighbors_of refined 1 false).all fun neighbor_of =>
      if neighbor_of = 0 then true
      else if g.index.get_refinement_level neighbor_of < g.index.get_refinement_level refined
          ∧ neighbor_of ∉ g.cells_to_refine then false
      else true)
    -- neighbors_to
    && (g.find_neighbors_to refined).all fun neighbor_to =>
      if neighbor_to = 0 then true
      else if g.index.get_refinement_level neighbor_to < g.index.get_refinement_level refined
          ∧ neighbor_to ∉ g.cells_to_refine then false
      else true

end Dccrg

end dccrg
namespace dccrg

open Dccrg

/-- A single process that holds the 8 root cells of an unrefined grid of 2 x 2 x 2 root
cells with maximum refinement level 0 and neighbourhood size 1, not periodic. -/
def example_cube : Dccrg Nat :=
  { example_grid with
    index := ⟨2, 2, 2, 8, 0, 8⟩
    neighborhood_of := Dccrg.make_neighborhood_of 1
    neighborhood_to := (Dccrg.make_neighborhood_of 1).map fun o => (-o.1, -o.2.1, -o.2.2)
    cells := [(1, 0), (2, 0), (3, 0), (4, 0), (5, 0), (6, 0), (7, 0), (8, 0)]
    cell_process := [(1, 0), (2, 0), (3, 0), (4, 0), (5, 0), (6, 0), (7, 0), (8, 0)] }

end dccrg

namespace dccrg

/-- Process 0 of two processes on a grid of 2 x 1 x 1 root cells with maximum
refinement level 2 and neighbourhood size 0 in which cell 1 has been refined: it holds
the 8 children of cell 1, and it has called `refine_completely (4)`. -/
def example_induce_first : Dccrg Nat where
  index := ⟨2, 1, 1, 2, 2, 146⟩
  initialized := true
  neighborhood_size := 0
  rank := 0
  comm_size := 2
  periodic := (false, false, false)
  cells := [(3, 0), (4, 0), (7, 0), (8, 0), (11, 0), (12, 0), (15, 0), (16, 0)]
  neighbors := [(3, [0, 0, 0, 4, 7, 11]), (4, [0, 0, 3, 2, 8, 12]),
    (7, [0, 3, 0, 8, 0, 15]), (8, [0, 4, 7, 2, 0, 16]), (11, [3, 0, 0, 12, 15, 0]),
    (12, [4, 0, 11, 2, 16, 0]), (15, [7, 11, 0, 16, 0, 0]), (16, [8, 12, 15, 2, 0, 0])]
  neighborhood_of := [(0, 0, -1), (0, -1, 0), (-1, 0, 0), (1, 0, 0), (0, 1, 0), (0, 0, 1)]
  neighborhood_to := [(0, 0, 1), (0, 1, 0), (1, 0, 0), (-1, 0, 0), (0, -1, 0), (0, 0, -1)]
  neighbors_to := [(3, [4, 7, 11, 2]), (4, [3, 2, 8, 12]), (7, [3, 8, 15, 2]),
    (8, [4, 7, 2, 16]), (11, [3, 12, 15, 2]), (12, [4, 11, 2, 16]), (15, [7, 11, 16, 2]),
    (16, [8, 12, 15, 2])]
  cell_process := [(1, 0), (2, 1), (3, 0), (4, 0), (7, 0), (8, 0), (11, 0), (12, 0),
    (15, 0), (16, 0)]
  cells_with_remote_neighbors := [3, 4, 7, 8, 11, 12, 15, 16]
  remote_cells_with_local_neighbors := [2]
  remote_neighbors := []
  cells_to_send := [(1, [3, 4, 7, 8, 11, 12, 15, 16])]
  cells_to_receive := [(1, [2])]
  added_cells := []
  removed_cells := []
  incoming_data := []
  outgoing_data := []
  cells_to_refine := [4]
  cells_to_unrefine := []
  cells_not_to_unrefine := []
  refined_cell_data := [(1, 0)]
  unrefined_cell_data := []
  pin_requests := []
  new_pin_requests := []
  processes_per_part := []
  partitioning_options := []
  no_load_balancing := false
  reserved_options := []
  cell_weights := []

/-- Process 1 of the same grid: it holds cell 2 and has made no request. -/
def example_induce_second : Dccrg Nat where
  index := ⟨2, 1, 1, 2, 2, 146⟩
  initialized := true
  neighborhood_size := 0
  rank := 1
  comm_size := 2
  periodic := (false, false, false)
  cells := [(2, 0)]
  neighbors := [(2, [0, 0, 3, 4, 7, 8, 11, 12, 15, 16, 0, 0, 0])]
  neighborhood_of := [(0, 0, -1), (0, -1, 0), (-1, 0, 0), (1, 0, 0), (0, 1, 0), (0, 0, 1)]
  neighborhood_to := [(0, 0, 1), (0, 1, 0), (1, 0, 0), (-1, 0, 0), (0, -1, 0), (0, 0, -1)]
  neighbors_to := [(2, [4, 8, 12, 16])]
  cell_process := [(1, 0), (2, 1), (3, 0), (4, 0), (7, 0), (8, 0), (11, 0), (12, 0),
    (15, 0), (16, 0)]
  cells_with_remote_neighbors := [2]
  remote_cells_with_local_neighbors := [3, 4, 7, 8, 11, 12, 15, 16]
  remote_neighbors := []
  cells_to_send := [(0, [2])]
  cells_to_receive := [(0, [3, 4, 7, 8, 11, 12, 15, 16])]
  added_cells := []
  removed_cells := []
  incoming_data := []
  outgoing_data := []
  cells_to_refine := []
  cells_to_unrefine := []
  cells_not_to_unrefine := []
  refined_cell_data := []
  unrefined_cell_data := []
  pin_requests := []
  new_pin_requests := []
  processes_per_part := []
  partitioning_options := []
  no_load_balancing := false
  reserved_options := []
  cell_weights := []

/-- The two processes of a grid in which the refine of cell 4, requested on process 0,
induces the refine of cell 2 on process 1. -/
def example_induce_world : World Nat := [example_induce_first, example_induce_second]

end dccrg
namespace dccrg
namespace Index

/-! ## Exact arithmetic of the id bands -/

theorem ids_below_succ (G n : Nat) : ids_below G (n + 1) = ids_below G n + G * 8 ^ n := rfl

theorem ids_below_mono (G : Nat) {n m : Nat} (h : n ≤ m) : ids_below G n ≤ ids_below G m := by
  induction m with
  | zero => simp_all
  | succ k ih =>
    rcases Nat.lt_or_ge n (k + 1) with h1 | h1
    · have := ih (by omega); rw [ids_below_succ]; omega
    · have : n = k + 1 := by omega
      subst this; exact le_refl _

theorem ids_below_term_le (G : Nat) {r m : Nat} (h : r < m) :
    ids_below G r + G * 8 ^ r ≤ ids_below G m := by
  have := ids_below_mono G (show r + 1 ≤ m from h)
  rwa [ids_below_succ] at this

theorem u64_of_lt {n : Nat} (h : n < 2 ^ 64) : u64 n = n := Nat.mod_eq_of_lt h

theorem shl1_natCast (n : Nat) : shl1 (n : Int) = u64 (2 ^ n) := by
  simp [shl1]

theorem Fit.of_ids_fit {ix : Index} (h : ix.ids_fit) (hx : 0 < ix.x_length)
    (hy : 0 < ix.y_length) (hz : 0 < ix.z_length) :
    Fit ix ix.max_refinement_level.toNat := by
  obtain ⟨h0, _, h2, h3⟩ := h
  refine ⟨(Int.toNat_of_nonneg h0).symm, h2, ?_, hx, hy, hz⟩
  have : (2 : Nat) ^ 64 - 1 < 2 ^ 64 := by norm_num
  omega

section
variable {ix : Index} {R : Nat} (F : Fit ix R)
include F

theorem Fit.G_pos : 0 < ix.x_length * ix.y_length * ix.z_length :=
  Nat.mul_pos (Nat.mul_pos F.hx F.hy) F.hz

theorem Fit.term_lt {r : Nat} (hr : r ≤ R) :
    ix.x_length * ix.y_length * ix.z_length * 8 ^ r < 2 ^ 64 := by
  have := ids_below_term_le (ix.x_length * ix.y_length * ix.z_length) (show r < R + 1 by omega)
  have h2 := F.hfit
  rw [F.hlast] at h2
  omega

theorem Fit.pow8_lt {r : Nat} (hr : r ≤ R) : 8 ^ r < 2 ^ 64 := by
  have h1 := F.term_lt hr
  have h2 := F.G_pos
  calc 8 ^ r = 1 * 8 ^ r := by ring
    _ ≤ ix.x_length * ix.y_length * ix.z_length * 8 ^ r := Nat.mul_le_mul_right _ h2
    _ < 2 ^ 64 := h1

theorem Fit.level_term_eq {r : Nat} (hr : r ≤ R) :
    ix.level_term (r : Int) = ix.x_length * ix.y_length * ix.z_length * 8 ^ r := by
  have h1 := F.term_lt hr
  have h8 := F.pow8_lt hr
  have hp : 0 < 8 ^ r := by positivity
  have e3 : (3 * (r : Int)) = ((3 * r : Nat) : Int) := by push_cast; rfl
  have e8 : 2 ^ (3 * r) = 8 ^ r := by rw [pow_mul]; norm_num
  have hxyz : ix.x_length * ix.y_length * ix.z_length < 2 ^ 64 :=
    lt_of_le_of_lt (Nat.le_mul_of_pos_right _ hp) h1
  have hxy : ix.x_length * ix.y_length < 2 ^ 64 :=
    lt_of_le_of_lt (Nat.le_mul_of_pos_right _ F.hz) hxyz
  unfold level_term
  rw [e3, shl1_natCast, e8, u64_of_lt h8, u64_of_lt hxy, u64_of_lt hxyz, u64_of_lt h1]

end

end Index
end dccrg

namespace dccrg
namespace Index

section
variable {ix : Index} {R : Nat} (F : Fit ix R)
include F

theorem Fit.pow2_lt {r : Nat} (hr : r ≤ R) : 2 ^ r < 2 ^ 64 := by
  have h8 := F.pow8_lt hr
  have : 2 ^ r ≤ 8 ^ r := Nat.pow_le_pow_left (by norm_num) r
  omega

theorem Fit.shl1_eq {r : Nat} (hr : r ≤ R) : shl1 (r : Int) = 2 ^ r := by
  rw [shl1_natCast, u64_of_lt (F.pow2_lt hr)]

theorem Fit.xyz_pow_le {r : Nat} (a b c : Nat) (ha : a ≤ 1) (hb : b ≤ 1) (hc : c ≤ 1) :
    ix.x_length ^ a * ix.y_length ^ b * ix.z_length ^ c * 2 ^ ((a + b + c) * r)
      ≤ ix.x_length * ix.y_length * ix.z_length * 8 ^ r := by
  have hx := F.hx
  have hy := F.hy
  have hz := F.hz
  have e8 : (8 : Nat) ^ r = 2 ^ (3 * r) := by rw [pow_mul]; norm_num
  rw [e8]
  apply Nat.mul_le_mul
  · apply Nat.mul_le_mul
    · apply Nat.mul_le_mul
      · interval_cases a
        · simp; omega
        · simp
      · interval_cases b
        · simp; omega
        · simp
    · interval_cases c
      · simp; omega
      · simp
  · apply Nat.pow_le_pow_right (by norm_num)
    apply Nat.mul_le_mul_right
    omega

theorem Fit.x_lt {r : Nat} (hr : r ≤ R) : ix.x_length * 2 ^ r < 2 ^ 64 := by
  have := F.xyz_pow_le (r := r) 1 0 0 (by norm_num) (by norm_num) (by norm_num)
  have h := F.term_lt hr
  simp at this
  omega

theorem Fit.y_lt {r : Nat} (hr : r ≤ R) : ix.y_length * 2 ^ r < 2 ^ 64 := by
  have := F.xyz_pow_le (r := r) 0 1 0 (by norm_num) (by norm_num) (by norm_num)
  have h := F.term_lt hr
  simp at this
  omega

theorem Fit.z_lt {r : Nat} (hr : r ≤ R) : ix.z_length * 2 ^ r < 2 ^ 64 := by
  have := F.xyz_pow_le (r := r) 0 0 1 (by norm_num) (by norm_num) (by norm_num)
  have h := F.term_lt hr
  simp at this
  omega

theorem Fit.xy_lt {r : Nat} (hr : r ≤ R) : ix.x_length * ix.y_length * 2 ^ (2 * r) < 2 ^ 64 := by
  have := F.xyz_pow_le (r := r) 1 1 0 (by norm_num) (by norm_num) (by norm_num)
  have h := F.term_lt hr
  simp at this
  omega

theorem Fit.xlen_eq {r : Nat} (hr : r ≤ R) :
    u64 (ix.x_length * shl1 (r : Int)) = ix.x_length * 2 ^ r := by
  rw [F.shl1_eq hr, u64_of_lt (F.x_lt hr)]

theorem Fit.ylen_eq {r : Nat} (hr : r ≤ R) :
    u64 (ix.y_length * shl1 (r : Int)) = ix.y_length * 2 ^ r := by
  rw [F.shl1_eq hr, u64_of_lt (F.y_lt hr)]

theorem Fit.zlen_eq {r : Nat} (hr : r ≤ R) :
    u64 (ix.z_length * shl1 (r : Int)) = ix.z_length * 2 ^ r := by
  rw [F.shl1_eq hr, u64_of_lt (F.z_lt hr)]

theorem Fit.ids_below_lt {r : Nat} (hr : r ≤ R + 1) :
    ids_below (ix.x_length * ix.y_length * ix.z_length) r < 2 ^ 64 := by
  have h1 := ids_below_mono (ix.x_length * ix.y_length * ix.z_length) hr
  have h2 := F.hfit
  rw [F.hlast] at h2
  omega

/-- The loop that adds the ids of the larger cells. -/
theorem Fit.add_loop {r : Nat} (hr : r ≤ R) :
    (List.range r).foldl (fun cell (i : Nat) => u64 (cell + ix.level_term (i : Int))) 1
      = 1 + ids_below (ix.x_length * ix.y_length * ix.z_length) r := by
  induction r with
  | zero => simp [ids_below]
  | succ k ih =>
    rw [List.range_succ, List.foldl_append, ih (by omega)]
    simp only [List.foldl_cons, List.foldl_nil]
    rw [F.level_term_eq (by omega), ids_below_succ]
    have h1 := ids_below_term_le (ix.x_length * ix.y_length * ix.z_length)
      (show k + 1 < R + 1 by omega)
    have h2 := F.ids_below_lt (le_refl (R + 1))
    rw [ids_below_succ] at h1
    have hp : 0 < ix.x_length * ix.y_length * ix.z_length * 8 ^ (k + 1) :=
      Nat.mul_pos F.G_pos (by positivity)
    rw [u64_of_lt (by omega)]
    omega

/-- The loop that subtracts the ids of the larger cells. -/
theorem Fit.sub_loop {r : Nat} (hr : r ≤ R) (cell : Nat)
    (h1 : ids_below (ix.x_length * ix.y_length * ix.z_length) r ≤ cell) (h2 : cell < 2 ^ 64) :
    (List.range r).foldl (fun cell (i : Nat) => usub cell (ix.level_term (i : Int))) cell
      = cell - ids_below (ix.x_length * ix.y_length * ix.z_length) r := by
  induction r with
  | zero => simp [ids_below]
  | succ k ih =>
    rw [ids_below_succ] at h1
    rw [List.range_succ, List.foldl_append, ih (by omega) (by omega)]
    simp only [List.foldl_cons, List.foldl_nil]
    rw [F.level_term_eq (by omega), ids_below_succ]
    have h3 := F.term_lt (show k ≤ R by omega)
    unfold usub
    rw [Nat.mod_eq_of_lt h3]
    unfold u64
    have e : cell - ids_below (ix.x_length * ix.y_length * ix.z_length) k
        + (2 ^ 64 - ix.x_length * ix.y_length * ix.z_length * 8 ^ k)
        = (cell - (ids_below (ix.x_length * ix.y_length * ix.z_length) k
          + ix.x_length * ix.y_length * ix.z_length * 8 ^ k)) + 2 ^ 64 := by omega
    rw [e, Nat.add_mod_right, Nat.mod_eq_of_lt (by omega)]

theorem Fit.loop_spec (cell : Nat)
    (hc : cell ≤ ids_below (ix.x_length * ix.y_length * ix.z_length) (R + 1)) :
    ∀ (fuel k : Nat), fuel + k = R + 1 →
      ids_below (ix.x_length * ix.y_length * ix.z_length) k < cell →
      ∃ m, k ≤ m ∧ m ≤ R ∧ ids_below (ix.x_length * ix.y_length * ix.z_length) m < cell ∧
        cell ≤ ids_below (ix.x_length * ix.y_length * ix.z_length) (m + 1) ∧
        refinement_level_loop ix cell fuel (k : Int)
          (ids_below (ix.x_length * ix.y_length * ix.z_length) k) = (m : Int) := by
  intro fuel
  induction fuel with
  | zero =>
    intro k hk hlt
    simp at hk
    subst hk
    omega
  | succ f ih =>
    intro k hk hlt
    have hkR : k ≤ R := by omega
    unfold refinement_level_loop
    have hle : (k : Int) ≤ ix.max_refinement_level := by rw [F.hR]; exact_mod_cast hkR
    rw [if_pos hle, F.level_term_eq hkR, ← ids_below_succ, u64_of_lt (F.ids_below_lt (by omega))]
    by_cases h : cell ≤ ids_below (ix.x_length * ix.y_length * ix.z_length) (k + 1)
    · exact ⟨k, le_refl _, hkR, hlt, h, by simp [h]⟩
    · obtain ⟨m, hm1, hm2, hm3, hm4, hm5⟩ := ih (k + 1) (by omega) (by omega)
      refine ⟨m, by omega, hm2, hm3, hm4, ?_⟩
      simp only [h, if_false]
      have : ((k : Int) + 1) = ((k + 1 : Nat) : Int) := by push_cast; rfl
      rw [this]
      exact hm5

omit F in
theorem band_unique {ix : Index} {cell r m : Nat}
    (h1 : ids_below (ix.x_length * ix.y_length * ix.z_length) r < cell)
    (h2 : cell ≤ ids_below (ix.x_length * ix.y_length * ix.z_length) (r + 1))
    (h3 : ids_below (ix.x_length * ix.y_length * ix.z_length) m < cell)
    (h4 : cell ≤ ids_below (ix.x_length * ix.y_length * ix.z_length) (m + 1)) : r = m := by
  rcases Nat.lt_trichotomy r m with h | h | h
  · have := ids_below_mono (ix.x_length * ix.y_length * ix.z_length) (show r + 1 ≤ m by omega)
    omega
  · exact h
  · have := ids_below_mono (ix.x_length * ix.y_length * ix.z_length) (show m + 1 ≤ r by omega)
    omega

/-- Every valid id lies in exactly one level band. -/
theorem Fit.exists_band {cell : Nat} (h1 : 1 ≤ cell) (h2 : cell ≤ ix.last_cell) :
    ∃ r, r ≤ R ∧ ids_below (ix.x_length * ix.y_length * ix.z_length) r < cell ∧
      cell ≤ ids_below (ix.x_length * ix.y_length * ix.z_length) (r + 1) ∧
      ix.get_refinement_level cell = (r : Int) := by
  rw [F.hlast] at h2
  obtain ⟨m, _, hm2, hm3, hm4, hm5⟩ := F.loop_spec cell h2 (R + 1) 0 (by omega)
    (by simp [ids_below]; omega)
  refine ⟨m, hm2, hm3, hm4, ?_⟩
  unfold get_refinement_level
  have hne : ¬ (cell = error_cell ∨ cell > ix.last_cell) := by
    rw [F.hlast]; unfold error_cell; omega
  rw [if_neg hne]
  have e : (ix.max_refinement_level + 1).toNat = R + 1 := by rw [F.hR]; omega
  rw [e]
  simp only [ids_below, Nat.cast_zero] at hm5
  simp only [hm5]
  rw [F.hR, if_neg (by omega)]

theorem Fit.get_refinement_level_eq {cell r : Nat} (hr : r ≤ R)
    (h1 : ids_below (ix.x_length * ix.y_length * ix.z_length) r < cell)
    (h2 : cell ≤ ids_below (ix.x_length * ix.y_length * ix.z_length) (r + 1)) :
    ix.get_refinement_level cell = (r : Int) := by
  have hl : cell ≤ ix.last_cell := by
    rw [F.hlast]
    exact le_trans h2 (ids_below_mono _ (by omega))
  obtain ⟨m, _, hm3, hm4, hm5⟩ := F.exists_band (by omega) hl
  rw [hm5, band_unique h1 h2 hm3 hm4]

end

end Index
end dccrg

namespace dccrg
namespace Index

section
variable {ix : Index} {R : Nat} (F : Fit ix R)
include F

theorem Fit.shl1_sub_eq {r : Nat} (hr : r ≤ R) :
    shl1 (ix.max_refinement_level - (r : Int)) = 2 ^ (R - r) := by
  have e : ix.max_refinement_level - (r : Int) = ((R - r : Nat) : Int) := by
    rw [F.hR]; omega
  rw [e, F.shl1_eq (by omega)]

omit F in
theorem offset_lt {X Y Z a b c : Nat} (ha : a < X) (hb : b < Y) (hc : c < Z) :
    a + b * X + c * X * Y < X * Y * Z := by
  have h1 : a + b * X < X * Y := by
    calc a + b * X < X + b * X := by omega
      _ = (b + 1) * X := by ring
      _ ≤ Y * X := Nat.mul_le_mul_right _ hb
      _ = X * Y := by ring
  calc a + b * X + c * X * Y < X * Y + c * X * Y := by omega
    _ = (c + 1) * (X * Y) := by ring
    _ ≤ Z * (X * Y) := Nat.mul_le_mul_right _ hc
    _ = X * Y * Z := by ring

omit F in
theorem level_lengths_mul (ix : Index) (r : Nat) :
    ix.x_length * 2 ^ r * (ix.y_length * 2 ^ r) * (ix.z_length * 2 ^ r)
      = ix.x_length * ix.y_length * ix.z_length * 8 ^ r := by
  have e8 : (8 : Nat) ^ r = 2 ^ r * 2 ^ r * 2 ^ r := by
    have : (8 : Nat) = 2 * 2 * 2 := by norm_num
    rw [this, mul_pow, mul_pow]
  rw [e8]; ring

omit F in
theorem div_pow_lt {i L R r : Nat} (hr : r ≤ R) (h : i < L * 2 ^ R) :
    i / 2 ^ (R - r) < L * 2 ^ r := by
  rw [Nat.div_lt_iff_lt_mul (by positivity)]
  have : L * 2 ^ r * 2 ^ (R - r) = L * 2 ^ R := by
    rw [mul_assoc, ← pow_add]; congr 2; omega
  omega

/-- `get_cell_from_indices` in exact arithmetic. -/
theorem Fit.get_cell_from_indices_eq {i0 i1 i2 r : Nat} (hr : r ≤ R)
    (h0 : i0 < ix.x_length * 2 ^ R) (h1 : i1 < ix.y_length * 2 ^ R)
    (h2 : i2 < ix.z_length * 2 ^ R) :
    ix.get_cell_from_indices (i0, i1, i2) (r : Int)
      = 1 + ids_below (ix.x_length * ix.y_length * ix.z_length) r
        + (i0 / 2 ^ (R - r) + i1 / 2 ^ (R - r) * (ix.x_length * 2 ^ r)
          + i2 / 2 ^ (R - r) * (ix.x_length * 2 ^ r) * (ix.y_length * 2 ^ r)) := by
  have ha := div_pow_lt hr h0
  have hb := div_pow_lt hr h1
  have hc := div_pow_lt hr h2
  have hoff := offset_lt ha hb hc
  rw [level_lengths_mul] at hoff
  have hterm := ids_below_term_le (ix.x_length * ix.y_length * ix.z_length)
    (show r < R + 1 by omega)
  have hlast := F.ids_below_lt (le_refl (R + 1))
  unfold get_cell_from_indices
  simp only [F.hR, F.xlen_eq (le_refl R), F.ylen_eq (le_refl R), F.zlen_eq (le_refl R)]
  rw [if_neg (by omega), if_neg (by omega), if_neg (by omega), if_neg (by omega),
    if_neg (by omega)]
  simp only [Int.toNat_ofNat, F.add_loop hr, F.xlen_eq hr, F.ylen_eq hr]
  rw [← F.hR, F.shl1_sub_eq hr]
  generalize i0 / 2 ^ (R - r) = a at *
  generalize i1 / 2 ^ (R - r) = b at *
  generalize i2 / 2 ^ (R - r) = c at *
  have hcX : c * (ix.x_length * 2 ^ r) ≤ c * (ix.x_length * 2 ^ r) * (ix.y_length * 2 ^ r) :=
    Nat.le_mul_of_pos_right _ (Nat.mul_pos F.hy (by positivity))
  generalize b * (ix.x_length * 2 ^ r) = P at *
  generalize c * (ix.x_length * 2 ^ r) = Q' at *
  generalize ix.x_length * ix.y_length * ix.z_length * 8 ^ r = T at *
  rw [u64_of_lt (show P < 2 ^ 64 by omega), u64_of_lt (show Q' < 2 ^ 64 by omega)]
  generalize Q' * (ix.y_length * 2 ^ r) = Q at *
  rw [u64_of_lt (show Q < 2 ^ 64 by omega), u64_of_lt (show a + P < 2 ^ 64 by omega),
    u64_of_lt (show a + P + Q < 2 ^ 64 by omega), u64_of_lt (by omega)]

/-- `get_indices` in exact arithmetic, for the id at offset `off` of band `r`. -/
theorem Fit.get_indices_eq {r off : Nat} (hr : r ≤ R)
    (hoff : off < ix.x_length * ix.y_length * ix.z_length * 8 ^ r) :
    ix.get_indices (1 + ids_below (ix.x_length * ix.y_length * ix.z_length) r + off)
      = (off % (ix.x_length * 2 ^ r) * 2 ^ (R - r),
         off / (ix.x_length * 2 ^ r) % (ix.y_length * 2 ^ r) * 2 ^ (R - r),
         off / (ix.x_length * 2 ^ r * (ix.y_length * 2 ^ r)) * 2 ^ (R - r)) := by
  have hterm := ids_below_term_le (ix.x_length * ix.y_length * ix.z_length)
    (show r < R + 1 by omega)
  have hlast := F.ids_below_lt (le_refl (R + 1))
  have hlvl := F.get_refinement_level_eq hr
    (show ids_below (ix.x_length * ix.y_length * ix.z_length) r
      < 1 + ids_below (ix.x_length * ix.y_length * ix.z_length) r + off by omega)
    (by rw [ids_below_succ]; omega)
  have hX : 0 < ix.x_length * 2 ^ r := Nat.mul_pos F.hx (by positivity)
  have hY : 0 < ix.y_length * 2 ^ r := Nat.mul_pos F.hy (by positivity)
  have hd : 2 ^ r * 2 ^ (R - r) = 2 ^ R := by rw [← pow_add]; congr 1; omega
  unfold get_indices
  have hne : ¬ (1 + ids_below (ix.x_length * ix.y_length * ix.z_length) r + off = error_cell ∨
      1 + ids_below (ix.x_length * ix.y_length * ix.z_length) r + off > ix.last_cell) := by
    rw [F.hlast]; unfold error_cell; omega
  rw [if_neg hne]
  simp only [hlvl, Int.toNat_ofNat]
  rw [F.sub_loop hr _ (by omega) (by omega), F.shl1_sub_eq hr, F.xlen_eq hr, F.ylen_eq hr]
  have e2 : (2 * (r : Int)) = ((2 * r : Nat) : Int) := by push_cast; rfl
  have hxy := F.xy_lt hr
  have hxy' : ix.x_length * ix.y_length < 2 ^ 64 :=
    lt_of_le_of_lt (Nat.le_mul_of_pos_right _ (by positivity)) hxy
  have h2r : 2 ^ (2 * r) < 2 ^ 64 :=
    lt_of_le_of_lt (Nat.le_mul_of_pos_left _ (Nat.mul_pos F.hx F.hy)) hxy
  rw [e2, shl1_natCast, u64_of_lt h2r, u64_of_lt hxy', u64_of_lt hxy]
  have esub : usub (1 + ids_below (ix.x_length * ix.y_length * ix.z_length) r + off
      - ids_below (ix.x_length * ix.y_length * ix.z_length) r) 1 = off := by
    unfold usub u64
    have : 1 + ids_below (ix.x_length * ix.y_length * ix.z_length) r + off
      - ids_below (ix.x_length * ix.y_length * ix.z_length) r + (2 ^ 64 - 1 % 2 ^ 64)
      = off + 2 ^ 64 := by
      have h1 : 1 % 2 ^ 64 = 1 := Nat.mod_eq_of_lt (by norm_num)
      rw [h1]; omega
    rw [this, Nat.add_mod_right, Nat.mod_eq_of_lt (by omega)]
  rw [esub]
  have eXY : ix.x_length * ix.y_length * 2 ^ (2 * r)
      = ix.x_length * 2 ^ r * (ix.y_length * 2 ^ r) := by
    rw [two_mul, pow_add]; ring
  rw [eXY]
  have hxR := F.x_lt (le_refl R)
  have hyR := F.y_lt (le_refl R)
  have hzR := F.z_lt (le_refl R)
  have b0 : off % (ix.x_length * 2 ^ r) * 2 ^ (R - r) < ix.x_length * 2 ^ R := by
    calc off % (ix.x_length * 2 ^ r) * 2 ^ (R - r)
        < ix.x_length * 2 ^ r * 2 ^ (R - r) :=
          Nat.mul_lt_mul_of_pos_right (Nat.mod_lt _ hX) (by positivity)
      _ = ix.x_length * 2 ^ R := by rw [mul_assoc, hd]
  have b1 : off / (ix.x_length * 2 ^ r) % (ix.y_length * 2 ^ r) * 2 ^ (R - r)
      < ix.y_length * 2 ^ R := by
    calc off / (ix.x_length * 2 ^ r) % (ix.y_length * 2 ^ r) * 2 ^ (R - r)
        < ix.y_length * 2 ^ r * 2 ^ (R - r) :=
          Nat.mul_lt_mul_of_pos_right (Nat.mod_lt _ hY) (by positivity)
      _ = ix.y_length * 2 ^ R := by rw [mul_assoc, hd]
  have b2 : off / (ix.x_length * 2 ^ r * (ix.y_length * 2 ^ r)) * 2 ^ (R - r)
      < ix.z_length * 2 ^ R := by
    have : off / (ix.x_length * 2 ^ r * (ix.y_length * 2 ^ r)) < ix.z_length * 2 ^ r := by
      rw [Nat.div_lt_iff_lt_mul (Nat.mul_pos hX hY)]
      rw [← level_lengths_mul] at hoff
      calc off < ix.x_length * 2 ^ r * (ix.y_length * 2 ^ r) * (ix.z_length * 2 ^ r) := hoff
        _ = _ := by ring
    calc off / (ix.x_length * 2 ^ r * (ix.y_length * 2 ^ r)) * 2 ^ (R - r)
        < ix.z_length * 2 ^ r * 2 ^ (R - r) :=
          Nat.mul_lt_mul_of_pos_right this (by positivity)
      _ = ix.z_length * 2 ^ R := by rw [mul_assoc, hd]
  rw [u64_of_lt (by omega), u64_of_lt (by omega), u64_of_lt (by omega)]

end

end Index
end dccrg

namespace dccrg
namespace Index

theorem decode_offset {X Y a b : Nat} (c : Nat) (ha : a < X) (hb : b < Y) :
    (a + b * X + c * X * Y) % X = a ∧ (a + b * X + c * X * Y) / X % Y = b ∧
      (a + b * X + c * X * Y) / (X * Y) = c := by
  have hX : 0 < X := by omega
  have hY : 0 < Y := by omega
  have e1 : a + b * X + c * X * Y = a + X * (b + Y * c) := by ring
  have hdiv : (a + X * (b + Y * c)) / X = b + Y * c := by
    rw [Nat.add_mul_div_left _ _ hX, Nat.div_eq_of_lt ha, Nat.zero_add]
  refine ⟨?_, ?_, ?_⟩
  · rw [e1, Nat.add_mul_mod_self_left, Nat.mod_eq_of_lt ha]
  · rw [e1, hdiv, Nat.add_mul_mod_self_left, Nat.mod_eq_of_lt hb]
  · rw [← Nat.div_div_eq_div_mul, e1, hdiv, Nat.add_mul_div_left _ _ hY,
      Nat.div_eq_of_lt hb, Nat.zero_add]

theorem encode_offset (X Y off : Nat) :
    off % X + off / X % Y * X + off / (X * Y) * X * Y = off := by
  rw [← Nat.div_div_eq_div_mul]
  have h1 := Nat.div_add_mod off X
  have h2 := Nat.div_add_mod (off / X) Y
  calc off % X + off / X % Y * X + off / X / Y * X * Y
      = X * (Y * (off / X / Y) + off / X % Y) + off % X := by ring
    _ = off := by rw [h2, h1]

theorem Fit.of_index_lt {ix : Index} (h : ix.ids_fit) {i0 i1 i2 : Nat}
    (h0 : i0 < ix.x_length * 2 ^ ix.max_refinement_level.toNat)
    (h1 : i1 < ix.y_length * 2 ^ ix.max_refinement_level.toNat)
    (h2 : i2 < ix.z_length * 2 ^ ix.max_refinement_level.toNat) :
    Fit ix ix.max_refinement_level.toNat := by
  apply Fit.of_ids_fit h
  · rcases Nat.eq_zero_or_pos ix.x_length with h | h
    · rw [h] at h0; simp at h0
    · exact h
  · rcases Nat.eq_zero_or_pos ix.y_length with h | h
    · rw [h] at h1; simp at h1
    · exact h
  · rcases Nat.eq_zero_or_pos ix.z_length with h | h
    · rw [h] at h2; simp at h2
    · exact h

/-- Encoding followed by decoding, in a grid with `Fit` facts. -/
theorem Fit.roundtrip_indices {ix : Index} {R : Nat} (F : Fit ix R) {i0 i1 i2 r : Nat}
    (hr : r ≤ R) (h0 : i0 < ix.x_length * 2 ^ R) (h1 : i1 < ix.y_length * 2 ^ R)
    (h2 : i2 < ix.z_length * 2 ^ R) :
    ix.get_indices (ix.get_cell_from_indices (i0, i1, i2) (r : Int))
      = (i0 / 2 ^ (R - r) * 2 ^ (R - r), i1 / 2 ^ (R - r) * 2 ^ (R - r),
         i2 / 2 ^ (R - r) * 2 ^ (R - r)) ∧
    ix.get_refinement_level (ix.get_cell_from_indices (i0, i1, i2) (r : Int)) = (r : Int) ∧
    ids_below (ix.x_length * ix.y_length * ix.z_length) r
      < ix.get_cell_from_indices (i0, i1, i2) (r : Int) ∧
    ix.get_cell_from_indices (i0, i1, i2) (r : Int)
      ≤ ids_below (ix.x_length * ix.y_length * ix.z_length) (r + 1) := by
  have ha := div_pow_lt hr h0
  have hb := div_pow_lt hr h1
  have hc := div_pow_lt hr h2
  have hoff := offset_lt ha hb hc
  rw [level_lengths_mul] at hoff
  obtain ⟨d1, d2, d3⟩ := decode_offset (i2 / 2 ^ (R - r)) ha hb
  rw [F.get_cell_from_indices_eq hr h0 h1 h2]
  refine ⟨?_, ?_, ?_, ?_⟩
  · rw [F.get_indices_eq hr hoff, d1, d2, d3]
  · exact F.get_refinement_level_eq hr (by omega) (by rw [ids_below_succ]; omega)
  · omega
  · rw [ids_below_succ]; omega

end Index

open Index

/-- C1 (round trip indices → id → indices): in a grid whose ids fit in 64 bits, for
every level `r` with `0 ≤ r ≤ R` and every index triple inside the grid,
`get_indices (get_cell_from_indices indices r)` is the triple with every component
rounded down to a multiple of `2^(R-r)`, and
`get_refinement_level (get_cell_from_indices indices r)` is `r`. -/
theorem C1_indices_of_cell_from_indices (ix : Index) (hfit : ix.ids_fit)
    (indices : indices_t) (r : Int) (hr0 : 0 ≤ r) (hr : r ≤ ix.max_refinement_level)
    (h0 : indices.1 < ix.x_length * 2 ^ ix.max_refinement_level.toNat)
    (h1 : indices.2.1 < ix.y_length * 2 ^ ix.max_refinement_level.toNat)
    (h2 : indices.2.2 < ix.z_length * 2 ^ ix.max_refinement_level.toNat) :
    ix.get_indices (ix.get_cell_from_indices indices r) = ix.truncate r indices ∧
    ix.get_refinement_level (ix.get_cell_from_indices indices r) = r := by
  obtain ⟨i0, i1, i2⟩ := indices
  have F := Fit.of_index_lt hfit h0 h1 h2
  obtain ⟨k, rfl⟩ := Int.eq_ofNat_of_zero_le hr0
  have hk : k ≤ ix.max_refinement_level.toNat := by omega
  obtain ⟨e1, e2, _, _⟩ := F.roundtrip_indices hk h0 h1 h2
  have e : (ix.max_refinement_level - (k : Int)).toNat = ix.max_refinement_level.toNat - k := by
    omega
  refine ⟨?_, e2⟩
  rw [e1]
  simp only [truncate, e]

end dccrg

namespace dccrg
namespace Index

/-- Decoding followed by encoding, in a grid with `Fit` facts: the decoded pair is
valid and encodes back to the id. -/
theorem Fit.roundtrip_cell {ix : Index} {R : Nat} (F : Fit ix R) {c : Nat}
    (h1 : 1 ≤ c) (h2 : c ≤ ix.last_cell) :
    ∃ r : Nat, r ≤ R ∧ ix.get_refinement_level c = (r : Int) ∧
      (ix.get_indices c).1 < ix.x_length * 2 ^ R ∧
      (ix.get_indices c).2.1 < ix.y_length * 2 ^ R ∧
      (ix.get_indices c).2.2 < ix.z_length * 2 ^ R ∧
      2 ^ (R - r) ∣ (ix.get_indices c).1 ∧
      2 ^ (R - r) ∣ (ix.get_indices c).2.1 ∧
      2 ^ (R - r) ∣ (ix.get_indices c).2.2 ∧
      ix.get_cell_from_indices (ix.get_indices c) (r : Int) = c := by
  obtain ⟨r, hr, hb1, hb2, hlvl⟩ := F.exists_band h1 h2
  refine ⟨r, hr, hlvl, ?_⟩
  rw [ids_below_succ] at hb2
  obtain ⟨off, rfl⟩ : ∃ off, c = 1 + ids_below (ix.x_length * ix.y_length * ix.z_length) r + off :=
    ⟨c - 1 - ids_below (ix.x_length * ix.y_length * ix.z_length) r, by omega⟩
  have hoff : off < ix.x_length * ix.y_length * ix.z_length * 8 ^ r := by omega
  have hX : 0 < ix.x_length * 2 ^ r := Nat.mul_pos F.hx (by positivity)
  have hY : 0 < ix.y_length * 2 ^ r := Nat.mul_pos F.hy (by positivity)
  have hd : 2 ^ r * 2 ^ (R - r) = 2 ^ R := by rw [← pow_add]; congr 1; omega
  have hp : 0 < 2 ^ (R - r) := by positivity
  have b0 : off % (ix.x_length * 2 ^ r) * 2 ^ (R - r) < ix.x_length * 2 ^ R := by
    calc off % (ix.x_length * 2 ^ r) * 2 ^ (R - r)
        < ix.x_length * 2 ^ r * 2 ^ (R - r) :=
          Nat.mul_lt_mul_of_pos_right (Nat.mod_lt _ hX) hp
      _ = ix.x_length * 2 ^ R := by rw [mul_assoc, hd]
  have b1 : off / (ix.x_length * 2 ^ r) % (ix.y_length * 2 ^ r) * 2 ^ (R - r)
      < ix.y_length * 2 ^ R := by
    calc off / (ix.x_length * 2 ^ r) % (ix.y_length * 2 ^ r) * 2 ^ (R - r)
        < ix.y_length * 2 ^ r * 2 ^ (R - r) :=
          Nat.mul_lt_mul_of_pos_right (Nat.mod_lt _ hY) hp
      _ = ix.y_length * 2 ^ R := by rw [mul_assoc, hd]
  have b2 : off / (ix.x_length * 2 ^ r * (ix.y_length * 2 ^ r)) * 2 ^ (R - r)
      < ix.z_length * 2 ^ R := by
    have : off / (ix.x_length * 2 ^ r * (ix.y_length * 2 ^ r)) < ix.z_length * 2 ^ r := by
      rw [Nat.div_lt_iff_lt_mul (Nat.mul_pos hX hY)]
      rw [← level_lengths_mul] at hoff
      calc off < ix.x_length * 2 ^ r * (ix.y_length * 2 ^ r) * (ix.z_length * 2 ^ r) := hoff
        _ = _ := by ring
    calc off / (ix.x_length * 2 ^ r * (ix.y_length * 2 ^ r)) * 2 ^ (R - r)
        < ix.z_length * 2 ^ r * 2 ^ (R - r) :=
          Nat.mul_lt_mul_of_pos_right this hp
      _ = ix.z_length * 2 ^ R := by rw [mul_assoc, hd]
  rw [F.get_indices_eq hr hoff]
  refine ⟨b0, b1, b2, Dvd.intro_left _ rfl, Dvd.intro_left _ rfl, Dvd.intro_left _ rfl, ?_⟩
  rw [F.get_cell_from_indices_eq hr b0 b1 b2]
  simp only [Nat.mul_div_cancel _ hp]
  rw [encode_offset]

end Index

open Index

/-- C2 (round trip id → indices → id, bijection): in a grid whose ids fit in 64 bits,
every id `c` with `1 ≤ c ≤ last_cell` decodes to a pair (level, index triple) that is
valid (level in `[0, R]`, indices inside the grid and aligned to the cell size), the
pair encodes back to `c`, and no other valid pair encodes to `c`. -/
theorem C2_cell_from_indices_of_indices (ix : Index) (hfit : ix.ids_fit) (c : Nat)
    (h1 : 1 ≤ c) (h2 : c ≤ ix.last_cell) :
    ix.get_cell_from_indices (ix.get_indices c) (ix.get_refinement_level c) = c ∧
    ix.valid_pair (ix.get_refinement_level c) (ix.get_indices c) ∧
    ∀ (level : Int) (indices : indices_t), ix.valid_pair level indices →
      ix.get_cell_from_indices indices level = c →
      level = ix.get_refinement_level c ∧ indices = ix.get_indices c := by
  have hG : 0 < ix.x_length * ix.y_length * ix.z_length := by
    rcases Nat.eq_zero_or_pos (ix.x_length * ix.y_length * ix.z_length) with h | h
    · have := hfit.2.2.1
      rw [h] at this
      have z : ∀ n, ids_below 0 n = 0 := by
        intro n; induction n with
        | zero => rfl
        | succ k ih => rw [ids_below_succ, ih]; simp
      rw [z] at this
      omega
    · exact h
  have hz : 0 < ix.z_length := Nat.pos_of_mul_pos_left hG
  have hxy : 0 < ix.x_length * ix.y_length := Nat.pos_of_mul_pos_right hG
  have F := Fit.of_ids_fit hfit (Nat.pos_of_mul_pos_right hxy) (Nat.pos_of_mul_pos_left hxy) hz
  obtain ⟨r, hr, hlvl, b0, b1, b2, d0, d1, d2, hrt⟩ := F.roundtrip_cell h1 h2
  have h0R := hfit.1
  have e : (ix.max_refinement_level - (r : Int)).toNat = ix.max_refinement_level.toNat - r := by
    omega
  rw [hlvl]
  refine ⟨hrt, ⟨by omega, by omega, b0, b1, b2, ?_, ?_, ?_⟩, ?_⟩
  · rw [e]; exact d0
  · rw [e]; exact d1
  · rw [e]; exact d2
  · rintro level ⟨i0, i1, i2⟩ ⟨v1, v2, v3, v4, v5, v6, v7, v8⟩ henc
    obtain ⟨k, rfl⟩ := Int.eq_ofNat_of_zero_le v1
    have hk : k ≤ ix.max_refinement_level.toNat := by omega
    obtain ⟨e1, e2, _, _⟩ := F.roundtrip_indices hk v3 v4 v5
    rw [henc] at e1 e2
    have ek : (ix.max_refinement_level - (k : Int)).toNat
        = ix.max_refinement_level.toNat - k := by omega
    rw [ek] at v6 v7 v8
    simp only at v6 v7 v8
    rw [Nat.div_mul_cancel v6, Nat.div_mul_cancel v7, Nat.div_mul_cancel v8] at e1
    rw [hlvl] at e2
    exact ⟨e2.symm, e1.symm⟩

/-- C5 (error results of the encoding): in a grid whose ids fit in 64 bits,
`get_cell_from_indices indices level` is 0 exactly when an index component `d` is
at least `L_d * 2^R` or `level < 0` or `level > R`; in every other case the result
lies in `[1, last_cell]` and in the id band of `level`, that is above the number of
ids of the levels below `level` and at most the number of ids up to `level`. -/
theorem C5_cell_from_indices_error (ix : Index) (hfit : ix.ids_fit)
    (indices : indices_t) (level : Int) :
    (ix.get_cell_from_indices indices level = 0 ↔
      (indices.1 ≥ ix.x_length * 2 ^ ix.max_refinement_level.toNat ∨
       indices.2.1 ≥ ix.y_length * 2 ^ ix.max_refinement_level.toNat ∨
       indices.2.2 ≥ ix.z_length * 2 ^ ix.max_refinement_level.toNat ∨
       level < 0 ∨ level > ix.max_refinement_level)) ∧
    (¬ (indices.1 ≥ ix.x_length * 2 ^ ix.max_refinement_level.toNat ∨
       indices.2.1 ≥ ix.y_length * 2 ^ ix.max_refinement_level.toNat ∨
       indices.2.2 ≥ ix.z_length * 2 ^ ix.max_refinement_level.toNat ∨
       level < 0 ∨ level > ix.max_refinement_level) →
      1 ≤ ix.get_cell_from_indices indices level ∧
      ix.get_cell_from_indices indices level ≤ ix.last_cell ∧
      ids_below (ix.x_length * ix.y_length * ix.z_length) level.toNat
        < ix.get_cell_from_indices indices level ∧
      ix.get_cell_from_indices indices level
        ≤ ids_below (ix.x_length * ix.y_length * ix.z_length) (level.toNat + 1)) := by
  obtain ⟨i0, i1, i2⟩ := indices
  have key : ¬ (i0 ≥ ix.x_length * 2 ^ ix.max_refinement_level.toNat ∨
       i1 ≥ ix.y_length * 2 ^ ix.max_refinement_level.toNat ∨
       i2 ≥ ix.z_length * 2 ^ ix.max_refinement_level.toNat ∨
       level < 0 ∨ level > ix.max_refinement_level) →
      1 ≤ ix.get_cell_from_indices (i0, i1, i2) level ∧
      ix.get_cell_from_indices (i0, i1, i2) level ≤ ix.last_cell ∧
      ids_below (ix.x_length * ix.y_length * ix.z_length) level.toNat
        < ix.get_cell_from_indices (i0, i1, i2) level ∧
      ix.get_cell_from_indices (i0, i1, i2) level
        ≤ ids_below (ix.x_length * ix.y_length * ix.z_length) (level.toNat + 1) := by
    intro hn
    simp only [not_or, not_le, not_lt, ge_iff_le, gt_iff_lt] at hn
    obtain ⟨h0, h1, h2, hl0, hl1⟩ := hn
    have F := Fit.of_index_lt hfit h0 h1 h2
    obtain ⟨k, rfl⟩ := Int.eq_ofNat_of_zero_le hl0
    have hk : k ≤ ix.max_refinement_level.toNat := by omega
    obtain ⟨_, _, e3, e4⟩ := F.roundtrip_indices hk h0 h1 h2
    simp only [Int.toNat_ofNat]
    refine ⟨by omega, ?_, e3, e4⟩
    rw [F.hlast]
    exact le_trans e4 (ids_below_mono _ (by omega))
  refine ⟨⟨?_, ?_⟩, key⟩
  · intro h0
    by_contra hn
    have := (key hn).1
    omega
  · intro h
    unfold get_cell_from_indices error_cell
    by_cases hx : ix.x_length = 0
    · simp [hx, u64]
    by_cases hy : ix.y_length = 0
    · simp [hy, u64]
    by_cases hz : ix.z_length = 0
    · simp [hz, u64]
    have F := Fit.of_ids_fit hfit (Nat.pos_of_ne_zero hx) (Nat.pos_of_ne_zero hy)
      (Nat.pos_of_ne_zero hz)
    have eR : shl1 ix.max_refinement_level = 2 ^ ix.max_refinement_level.toNat := by
      have := F.shl1_eq (le_refl ix.max_refinement_level.toNat)
      rwa [← F.hR] at this
    rw [eR, u64_of_lt (F.x_lt (le_refl _)), u64_of_lt (F.y_lt (le_refl _)),
      u64_of_lt (F.z_lt (le_refl _))]
    rcases h with h | h | h | h | h
    · rw [if_pos h]
    · rw [if_pos h]; simp
    · rw [if_pos h]; simp
    · rw [if_pos h]; simp
    · rw [if_pos h]; simp

end dccrg
namespace dccrg

open Index

namespace Index

theorem level_nonneg_valid {ix : Index} {c : Nat} (h : 0 ≤ ix.get_refinement_level c) :
    1 ≤ c ∧ c ≤ ix.last_cell := by
  unfold get_refinement_level at h
  by_contra hn
  rw [if_pos (by unfold error_cell; omega)] at h
  omega

theorem Fit.of_valid_cell {ix : Index} (hfit : ix.ids_fit) {c : Nat} (h1 : 1 ≤ c)
    (h2 : c ≤ ix.last_cell) : Fit ix ix.max_refinement_level.toNat := by
  have hG : 0 < ix.x_length * ix.y_length * ix.z_length := by
    rcases Nat.eq_zero_or_pos (ix.x_length * ix.y_length * ix.z_length) with h | h
    · have := hfit.2.2.1
      rw [h] at this
      have z : ∀ n, ids_below 0 n = 0 := by
        intro n; induction n with
        | zero => rfl
        | succ k ih => rw [ids_below_succ, ih]; simp
      rw [z] at this
      omega
    · exact h
  have hz : 0 < ix.z_length := Nat.pos_of_mul_pos_left hG
  have hxy : 0 < ix.x_length * ix.y_length := Nat.pos_of_mul_pos_right hG
  exact Fit.of_ids_fit hfit (Nat.pos_of_mul_pos_right hxy) (Nat.pos_of_mul_pos_left hxy) hz

end Index

theorem for_lt_two {s : Nat} (hs : 0 < s) (h : 2 * s < 2 ^ 64) :
    for_lt 0 (u64 (2 * s)) s = [0, s] := by
  rw [u64_of_lt h]
  unfold for_lt
  obtain ⟨n, hn⟩ : ∃ n, 2 * s - 0 = n + 2 := ⟨2 * s - 2, by omega⟩
  rw [hn]
  simp only [for_lt_loop]
  rw [if_pos (by omega), Nat.zero_add, u64_of_lt (by omega), if_pos (by omega)]
  congr 2
  cases n with
  | zero => rfl
  | succ k =>
    simp only [for_lt_loop]
    rw [u64_of_lt (by omega), if_neg (by omega)]

namespace Dccrg

variable {UserData : Type}

theorem aligned_add_lt {i L R r s : Nat} (hr : r < R) (hs : s = 2 ^ (R - r - 1))
    (hd : 2 ^ (R - r) ∣ i) (hi : i < L * 2 ^ R) : i + s < L * 2 ^ R ∧ 2 ^ (R - r) = 2 * s ∧
      0 < s := by
  have e2 : 2 ^ (R - r) = 2 * s := by
    rw [hs, ← pow_succ']; congr 1; omega
  have hspos : 0 < s := by rw [hs]; positivity
  refine ⟨?_, e2, hspos⟩
  obtain ⟨k, rfl⟩ := hd
  have eR : L * 2 ^ R = 2 ^ (R - r) * (L * 2 ^ r) := by
    rw [mul_comm (2 ^ (R - r)), mul_assoc, ← pow_add]; congr 2; omega
  rw [eR] at hi ⊢
  have hk : k < L * 2 ^ r := lt_of_mul_lt_mul_left hi (Nat.zero_le _)
  calc 2 ^ (R - r) * k + s < 2 ^ (R - r) * k + 2 ^ (R - r) := by omega
    _ = 2 ^ (R - r) * (k + 1) := by ring
    _ ≤ 2 ^ (R - r) * (L * 2 ^ r) := Nat.mul_le_mul_left _ hk

theorem get_all_children_eq_children_of (g : Dccrg UserData) (c : Nat) :
    g.get_all_children c
      = if c = error_cell ∨ map_has g.cell_process c = false then []
        else g.index.children_of c := by
  unfold get_all_children children_of
  by_cases h1 : c = error_cell
  · simp [h1]
  · by_cases h2 : map_has g.cell_process c = true
    · simp [h1, h2]
    · simp [h1, h2]

theorem get_all_children_of_has (g : Dccrg UserData) {c : Nat} (h0 : c ≠ 0)
    (h : map_has g.cell_process c = true) :
    g.get_all_children c = g.index.children_of c := by
  rw [get_all_children_eq_children_of, if_neg]
  simp [h, error_cell, h0]

/-- `children_of` of a valid cell below the maximum refinement level, in a grid with
`Fit` facts. -/
theorem children_of_eq {ix : Index} {R : Nat} (F : Fit ix R) {c r : Nat}
    (hlvl : ix.get_refinement_level c = (r : Int)) (hr : r < R) :
    ix.children_of c
      = children_at ix (ix.get_indices c) ((r : Int) + 1) (2 ^ (R - r - 1)) := by
  have hvalid : 1 ≤ c ∧ c ≤ ix.last_cell :=
    level_nonneg_valid (show 0 ≤ ix.get_refinement_level c by omega)
  obtain ⟨r', hr', hlvl', b0, b1, b2, d0, d1, d2, _⟩ := F.roundtrip_cell hvalid.1 hvalid.2
  have : r' = r := by rw [hlvl] at hlvl'; exact_mod_cast hlvl'.symm
  subst this
  obtain ⟨a0, e2, hs⟩ := aligned_add_lt hr rfl d0 b0
  obtain ⟨a1, _, _⟩ := aligned_add_lt hr rfl d1 b1
  obtain ⟨a2, _, _⟩ := aligned_add_lt hr rfl d2 b2
  have hxR := F.x_lt (le_refl R)
  have hyR := F.y_lt (le_refl R)
  have hzR := F.z_lt (le_refl R)
  have hs64 : 2 * 2 ^ (R - r' - 1) < 2 ^ 64 := by
    rw [← e2]; exact F.pow2_lt (by omega)
  have hoff : shl1 (ix.max_refinement_level - ((r' : Int) + 1)) = 2 ^ (R - r' - 1) := by
    have := F.shl1_sub_eq (show r' + 1 ≤ R by omega)
    have e : ((r' + 1 : Nat) : Int) = (r' : Int) + 1 := by push_cast; rfl
    rw [e] at this
    rw [this]; congr 1
  unfold children_of
  simp only [hlvl]
  rw [if_neg (by rw [F.hR]; omega)]
  simp only [hoff, for_lt_two hs hs64, children_at, List.flatMap_cons, List.flatMap_nil,
    List.map_cons, List.map_nil, List.append_nil, List.cons_append, List.nil_append,
    Nat.add_zero]
  rw [u64_of_lt (show (ix.get_indices c).1 < 2 ^ 64 by omega),
    u64_of_lt (show (ix.get_indices c).2.1 < 2 ^ 64 by omega),
    u64_of_lt (show (ix.get_indices c).2.2 < 2 ^ 64 by omega),
    u64_of_lt (show (ix.get_indices c).1 + 2 ^ (R - r' - 1) < 2 ^ 64 by omega),
    u64_of_lt (show (ix.get_indices c).2.1 + 2 ^ (R - r' - 1) < 2 ^ 64 by omega),
    u64_of_lt (show (ix.get_indices c).2.2 + 2 ^ (R - r' - 1) < 2 ^ 64 by omega)]

/-- `get_all_children` of a valid cell of the directory below the maximum
refinement level, in a grid with `Fit` facts. -/
theorem get_all_children_eq (g : Dccrg UserData) {R : Nat} (F : Fit g.index R) {c r : Nat}
    (hc : map_has g.cell_process c = true) (hlvl : g.index.get_refinement_level c = (r : Int))
    (hr : r < R) :
    g.get_all_children c
      = children_at g.index (g.index.get_indices c) ((r : Int) + 1) (2 ^ (R - r - 1)) := by
  have hvalid : 1 ≤ c ∧ c ≤ g.index.last_cell :=
    level_nonneg_valid (show 0 ≤ g.index.get_refinement_level c by omega)
  rw [get_all_children_of_has g (by omega) hc, children_of_eq F hlvl hr]

end Dccrg

end dccrg

namespace dccrg
open Index
namespace Dccrg
variable {UserData : Type}

theorem children_at_eq_map (ix : Index) (indices : indices_t) (level : Int) (s : Nat) :
    children_at ix indices level s = corners.map fun b =>
      ix.get_cell_from_indices
        (indices.1 + b.1 * s, indices.2.1 + b.2.1 * s, indices.2.2 + b.2.2 * s) level := by
  simp [children_at, corners]

/-- Facts about the child of a valid cell `c` of level `r < R` at the corner
`(x, y, z)`. -/
theorem child_facts {ix : Index} {R : Nat} (F : Fit ix R) {c r : Nat}
    (hlvl : ix.get_refinement_level c = (r : Int)) (hr : r < R)
    {x y z : Nat} (hx : x < 2) (hy : y < 2) (hz : z < 2) :
    ix.get_refinement_level (ix.get_cell_from_indices
        ((ix.get_indices c).1 + x * 2 ^ (R - r - 1),
         (ix.get_indices c).2.1 + y * 2 ^ (R - r - 1),
         (ix.get_indices c).2.2 + z * 2 ^ (R - r - 1)) ((r : Int) + 1)) = (r : Int) + 1 ∧
    ix.get_indices (ix.get_cell_from_indices
        ((ix.get_indices c).1 + x * 2 ^ (R - r - 1),
         (ix.get_indices c).2.1 + y * 2 ^ (R - r - 1),
         (ix.get_indices c).2.2 + z * 2 ^ (R - r - 1)) ((r : Int) + 1))
      = ((ix.get_indices c).1 + x * 2 ^ (R - r - 1),
         (ix.get_indices c).2.1 + y * 2 ^ (R - r - 1),
         (ix.get_indices c).2.2 + z * 2 ^ (R - r - 1)) ∧
    ix.get_parent_for_removed (ix.get_cell_from_indices
        ((ix.get_indices c).1 + x * 2 ^ (R - r - 1),
         (ix.get_indices c).2.1 + y * 2 ^ (R - r - 1),
         (ix.get_indices c).2.2 + z * 2 ^ (R - r - 1)) ((r : Int) + 1)) = c ∧
    1 ≤ ix.get_cell_from_indices
        ((ix.get_indices c).1 + x * 2 ^ (R - r - 1),
         (ix.get_indices c).2.1 + y * 2 ^ (R - r - 1),
         (ix.get_indices c).2.2 + z * 2 ^ (R - r - 1)) ((r : Int) + 1) ∧
    ix.get_cell_from_indices
        ((ix.get_indices c).1 + x * 2 ^ (R - r - 1),
         (ix.get_indices c).2.1 + y * 2 ^ (R - r - 1),
         (ix.get_indices c).2.2 + z * 2 ^ (R - r - 1)) ((r : Int) + 1) ≤ ix.last_cell := by
  have hvalid : 1 ≤ c ∧ c ≤ ix.last_cell := by
    unfold get_refinement_level at hlvl
    by_contra hn
    rw [if_pos (by unfold error_cell; omega)] at hlvl
    omega
  obtain ⟨r', hr', hlvl', b0, b1, b2, d0, d1, d2, hrt⟩ := F.roundtrip_cell hvalid.1 hvalid.2
  have : r' = r := by rw [hlvl] at hlvl'; exact_mod_cast hlvl'.symm
  subst this
  obtain ⟨a0, e2, hs⟩ := aligned_add_lt hr rfl d0 b0
  obtain ⟨a1, _, _⟩ := aligned_add_lt hr rfl d1 b1
  obtain ⟨a2, _, _⟩ := aligned_add_lt hr rfl d2 b2
  generalize hsdef : 2 ^ (R - r' - 1) = s at *
  generalize ix.get_indices c = idx at *
  obtain ⟨i0, i1, i2⟩ := idx
  simp only at b0 b1 b2 d0 d1 d2 a0 a1 a2 ⊢
  have hx0 : i0 + x * s < ix.x_length * 2 ^ R := by interval_cases x <;> simp <;> assumption
  have hy0 : i1 + y * s < ix.y_length * 2 ^ R := by interval_cases y <;> simp <;> assumption
  have hz0 : i2 + z * s < ix.z_length * 2 ^ R := by interval_cases z <;> simp <;> assumption
  have e1 : ((r' + 1 : Nat) : Int) = (r' : Int) + 1 := by push_cast; rfl
  have es : 2 ^ (R - (r' + 1)) = s := by rw [← hsdef]; congr 1
  obtain ⟨q1, q2, q3, q4⟩ := F.roundtrip_indices (show r' + 1 ≤ R by omega) hx0 hy0 hz0
  rw [e1, es] at q1
  rw [e1] at q2 q3 q4
  have hdvd : ∀ i w, 2 ^ (R - r') ∣ i → w < 2 → (i + w * s) / s * s = i + w * s ∧
      (i + w * s) / 2 ^ (R - r') = i / 2 ^ (R - r') := by
    intro i w hd hw
    rw [e2] at hd ⊢
    obtain ⟨k, rfl⟩ := hd
    constructor
    · have : 2 * s * k + w * s = (2 * k + w) * s := by ring
      rw [this, Nat.mul_div_cancel _ hs]
    · rw [Nat.mul_div_cancel_left _ (by omega : 0 < 2 * s)]
      rw [Nat.add_comm, Nat.add_mul_div_left _ _ (by omega : 0 < 2 * s)]
      have : w * s / (2 * s) = 0 := by
        apply Nat.div_eq_of_lt
        interval_cases w <;> omega
      omega
  have hlast : ix.get_cell_from_indices (i0 + x * s, i1 + y * s, i2 + z * s) ((r' : Int) + 1)
      ≤ ix.last_cell := by
    rw [F.hlast]
    exact le_trans q4 (ids_below_mono _ (by omega))
  refine ⟨q2, ?_, ?_, by omega, hlast⟩
  · rw [q1, (hdvd i0 x d0 hx).1, (hdvd i1 y d1 hy).1, (hdvd i2 z d2 hz).1]
  · unfold get_parent_for_removed
    simp only [q2]
    rw [if_neg (by rw [F.hR]; omega), if_neg (by omega)]
    rw [q1, (hdvd i0 x d0 hx).1, (hdvd i1 y d1 hy).1, (hdvd i2 z d2 hz).1]
    have : (r' : Int) + 1 - 1 = (r' : Int) := by omega
    rw [this, F.get_cell_from_indices_eq hr' hx0 hy0 hz0, (hdvd i0 x d0 hx).2,
      (hdvd i1 y d1 hy).2, (hdvd i2 z d2 hz).2, ← F.get_cell_from_indices_eq hr' b0 b1 b2]
    exact hrt


theorem corners_get? {x y z : Nat} (hx : x < 2) (hy : y < 2) (hz : z < 2) :
    corners.get? (x + 2 * y + 4 * z) = some (x, y, z) := by
  interval_cases x <;> interval_cases y <;> interval_cases z <;> rfl

theorem corners_lt {b : Nat × Nat × Nat} (h : b ∈ corners) : b.1 < 2 ∧ b.2.1 < 2 ∧ b.2.2 < 2 := by
  simp only [corners, List.mem_cons, List.mem_singleton, List.not_mem_nil, or_false] at h
  rcases h with h | h | h | h | h | h | h | h <;> subst h <;> simp

end Dccrg

open Dccrg

/-- C3 (parent of a child): in a grid whose ids fit in 64 bits, for every cell `c`
of the directory with `0 ≤ level(c) < R` and every `k` in `0..7`, the `k`-th
element of `get_all_children c` exists and its `get_parent_for_removed` is `c`. -/
theorem C3_parent_of_children {UserData : Type} (g : Dccrg UserData)
    (hfit : g.index.ids_fit) (c : Nat) (hc : map_has g.cell_process c = true)
    (h0 : 0 ≤ g.index.get_refinement_level c)
    (hR : g.index.get_refinement_level c < g.index.max_refinement_level)
    (k : Nat) (hk : k < 8) :
    ((g.get_all_children c).get? k).map g.index.get_parent_for_removed = some c := by
  obtain ⟨v1, v2⟩ := level_nonneg_valid h0
  have F := Fit.of_valid_cell hfit v1 v2
  obtain ⟨r, hr⟩ := Int.eq_ofNat_of_zero_le h0
  have hrR : r < g.index.max_refinement_level.toNat := by omega
  rw [get_all_children_eq g F hc hr hrR, children_at_eq_map, List.get?_map]
  have hlen : k < corners.length := by simpa [corners] using hk
  rw [List.get?_eq_get hlen]
  simp only [Option.map_some']
  have hb := corners_lt (List.get_mem corners k hlen)
  rw [(child_facts F hr hrR hb.1 hb.2.1 hb.2.2).2.2.1]

/-- C4 (children of a cell): in a grid whose ids fit in 64 bits, for every cell `c`
of the directory with level `0 ≤ l < R`, `get_all_children c` has exactly 8 pairwise
distinct elements and its element number `x + 2*y + 4*z` (`x, y, z` in `{0,1}`) is
`get_cell_from_indices (get_indices c + (x, y, z) * 2^(R-l-1)) (l+1)`; the list is
empty when `level(c) = R` or `c` is not in the directory. -/
theorem C4_all_children {UserData : Type} (g : Dccrg UserData) (hfit : g.index.ids_fit)
    (c : Nat) :
    (map_has g.cell_process c = true → 0 ≤ g.index.get_refinement_level c →
      g.index.get_refinement_level c < g.index.max_refinement_level →
      (g.get_all_children c).length = 8 ∧ (g.get_all_children c).Nodup ∧
      ∀ x y z : Nat, x < 2 → y < 2 → z < 2 →
        (g.get_all_children c).get? (x + 2 * y + 4 * z) = some
          (g.index.get_cell_from_indices
            ((g.index.get_indices c).1 + x * 2 ^
                (g.index.max_refinement_level - g.index.get_refinement_level c - 1).toNat,
             (g.index.get_indices c).2.1 + y * 2 ^
                (g.index.max_refinement_level - g.index.get_refinement_level c - 1).toNat,
             (g.index.get_indices c).2.2 + z * 2 ^
                (g.index.max_refinement_level - g.index.get_refinement_level c - 1).toNat)
            (g.index.get_refinement_level c + 1))) ∧
    ((g.index.get_refinement_level c = g.index.max_refinement_level ∨
        map_has g.cell_process c = false) → g.get_all_children c = []) := by
  constructor
  · intro hc h0 hR
    obtain ⟨v1, v2⟩ := level_nonneg_valid h0
    have F := Fit.of_valid_cell hfit v1 v2
    obtain ⟨r, hr⟩ := Int.eq_ofNat_of_zero_le h0
    have hrR : r < g.index.max_refinement_level.toNat := by omega
    have es : (g.index.max_refinement_level - g.index.get_refinement_level c - 1).toNat
        = g.index.max_refinement_level.toNat - r - 1 := by omega
    rw [get_all_children_eq g F hc hr hrR, children_at_eq_map, es, hr]
    refine ⟨by simp [corners], ?_, ?_⟩
    · apply List.Nodup.map_on _ (by decide)
      intro a ha b hb hab
      have la := corners_lt ha
      have lb := corners_lt hb
      have fa := (child_facts F hr hrR la.1 la.2.1 la.2.2).2.1
      have fb := (child_facts F hr hrR lb.1 lb.2.1 lb.2.2).2.1
      rw [hab, fb] at fa
      have hs : 0 < 2 ^ (g.index.max_refinement_level.toNat - r - 1) := by positivity
      simp only [Prod.mk.injEq, Nat.add_left_cancel_iff] at fa
      obtain ⟨a0, a1, a2⟩ := a
      obtain ⟨b0, b1, b2⟩ := b
      simp only at fa
      have e0 := Nat.eq_of_mul_eq_mul_right hs fa.1
      have e1 := Nat.eq_of_mul_eq_mul_right hs fa.2.1
      have e2 := Nat.eq_of_mul_eq_mul_right hs fa.2.2
      rw [e0, e1, e2]
    · intro x y z hx hy hz
      rw [List.get?_map, corners_get? hx hy hz]
      rfl
  · intro h
    unfold get_all_children
    rcases h with h | h
    · by_cases h1 : c = error_cell
      · rw [if_pos h1]
      · rw [if_neg h1]
        by_cases h2 : ¬map_has g.cell_process c = true
        · rw [if_pos h2]
        · rw [if_neg h2]
          simp only [h]
          rw [if_pos (le_refl _)]
    · by_cases h1 : c = error_cell
      · rw [if_pos h1]
      · rw [if_neg h1, if_pos (by simp [h])]

end dccrg
namespace dccrg

/-! ## Lemmas about the containers -/

section containers

variable {V : Type}

@[simp] theorem map_find_nil (k : Nat) : map_find ([] : umap V) k = none := rfl

theorem map_find_cons (p : Nat × V) (t : umap V) (k : Nat) :
    map_find (p :: t) k = if p.1 = k then some p.2 else map_find t k := rfl

theorem map_has_iff (m : umap V) (k : Nat) :
    map_has m k = true ↔ ∃ v, map_find m k = some v := by
  unfold map_has
  exact Option.isSome_iff_exists

theorem map_has_false_iff (m : umap V) (k : Nat) :
    map_has m k = false ↔ map_find m k = none := by
  unfold map_has
  cases map_find m k <;> simp

theorem map_find_set (m : umap V) (k : Nat) (v : V) (k' : Nat) :
    map_find (map_set m k v) k' = if k = k' then some v else map_find m k' := by
  induction m with
  | nil => simp [map_set, map_find_cons]
  | cons p t ih =>
    obtain ⟨a, b⟩ := p
    unfold map_set
    by_cases h : a = k
    · subst h
      simp only [if_true, map_find_cons]
      by_cases h2 : a = k'
      · simp [h2]
      · simp [h2]
    · simp only [h, if_false, map_find_cons, ih]
      by_cases h2 : a = k'
      · subst h2
        simp [Ne.symm h]
      · simp [h2]

theorem map_find_touch [Inhabited V] (m : umap V) (k k' : Nat) :
    map_find (map_touch m k) k'
      = if k = k' then some ((map_find m k).getD default) else map_find m k' := by
  induction m with
  | nil => simp [map_touch, map_find_cons]
  | cons p t ih =>
    obtain ⟨a, b⟩ := p
    unfold map_touch
    by_cases h : a = k
    · subst h
      simp only [if_true, map_find_cons]
      by_cases h2 : a = k'
      · simp [h2]
      · simp [h2]
    · simp only [h, if_false, map_find_cons, ih]
      by_cases h2 : a = k'
      · subst h2
        simp [Ne.symm h]
      · simp [h2]

theorem map_find_erase (m : umap V) (k k' : Nat) :
    map_find (map_erase m k) k' = if k = k' then none else map_find m k' := by
  induction m with
  | nil => simp [map_erase]
  | cons p t ih =>
    obtain ⟨a, b⟩ := p
    unfold map_erase at ih ⊢
    by_cases h : a = k
    · subst h
      simp only [List.filter_cons, bne_self_eq_false, Bool.false_eq_true, if_false, ih,
        map_find_cons]
      by_cases h2 : a = k'
      · simp [h2]
      · simp [h2]
    · have hb : ((a, b).1 != k) = true := by simpa using h
      simp only [List.filter_cons, hb, if_true, map_find_cons, ih]
      by_cases h2 : a = k'
      · subst h2
        simp [Ne.symm h]
      · simp [h2]

theorem map_has_set (m : umap V) (k : Nat) (v : V) (k' : Nat) :
    map_has (map_set m k v) k' = (decide (k = k') || map_has m k') := by
  unfold map_has
  rw [map_find_set]
  by_cases h : k = k' <;> simp [h]

theorem map_has_touch [Inhabited V] (m : umap V) (k k' : Nat) :
    map_has (map_touch m k) k' = (decide (k = k') || map_has m k') := by
  unfold map_has
  rw [map_find_touch]
  by_cases h : k = k' <;> simp [h]

theorem map_has_erase (m : umap V) (k k' : Nat) :
    map_has (map_erase m k) k' = (!decide (k = k') && map_has m k') := by
  unfold map_has
  rw [map_find_erase]
  by_cases h : k = k' <;> simp [h]

theorem mem_map_keys (m : umap V) (k : Nat) : k ∈ map_keys m ↔ map_has m k = true := by
  induction m with
  | nil => simp [map_keys, map_has]
  | cons p t ih =>
    obtain ⟨a, b⟩ := p
    unfold map_keys at ih ⊢
    unfold map_has at ih ⊢
    simp only [List.map_cons, List.mem_cons, map_find_cons, ih]
    by_cases h : a = k
    · simp [h]
    · simp [h, Ne.symm h]

theorem map_find_foldl_set (l : List Nat) (v : V) (m : umap V) (k : Nat) :
    map_find (l.foldl (fun m child => map_set m child v) m) k
      = if k ∈ l then some v else map_find m k := by
  induction l generalizing m with
  | nil => simp
  | cons a t ih =>
    simp only [List.foldl_cons, ih, map_find_set, List.mem_cons]
    by_cases h1 : k ∈ t
    · simp [h1]
    · by_cases h2 : a = k
      · simp [h2]
      · simp [h1, h2, Ne.symm h2]

theorem map_has_foldl_touch [Inhabited V] (l : List Nat) (m : umap V) (k : Nat) :
    map_has (l.foldl map_touch m) k = (decide (k ∈ l) || map_has m k) := by
  induction l generalizing m with
  | nil => simp
  | cons a t ih =>
    simp only [List.foldl_cons, ih, map_has_touch, List.mem_cons]
    by_cases h1 : k ∈ t
    · simp [h1]
    · by_cases h2 : a = k
      · simp [h2]
      · simp [h1, h2, Ne.symm h2]

theorem map_find_foldl_touch_of_has [Inhabited V] (l : List Nat) (m : umap V) (k : Nat)
    (h : map_has m k = true) : map_find (l.foldl map_touch m) k = map_find m k := by
  induction l generalizing m with
  | nil => simp
  | cons a t ih =>
    simp only [List.foldl_cons]
    rw [ih _ (by rw [map_has_touch, h]; simp), map_find_touch]
    by_cases h2 : a = k
    · subst h2
      obtain ⟨v, hv⟩ := (map_has_iff m a).1 h
      simp [hv]
    · simp [h2]

theorem map_find_foldl_touch_of_not_mem [Inhabited V] (l : List Nat) (m : umap V) (k : Nat)
    (h : k ∉ l) : map_find (l.foldl map_touch m) k = map_find m k := by
  induction l generalizing m with
  | nil => simp
  | cons a t ih =>
    simp only [List.mem_cons, not_or] at h
    simp only [List.foldl_cons]
    rw [ih _ h.2, map_find_touch, if_neg (Ne.symm h.1)]

theorem map_find_foldl_erase (l : List Nat) (m : umap V) (k : Nat) :
    map_find (l.foldl map_erase m) k = if k ∈ l then none else map_find m k := by
  induction l generalizing m with
  | nil => simp
  | cons a t ih =>
    simp only [List.foldl_cons, ih, map_find_erase, List.mem_cons]
    by_cases h1 : k ∈ t
    · simp [h1]
    · by_cases h2 : a = k
      · simp [h2]
      · simp [h1, h2, Ne.symm h2]

theorem map_has_foldl_erase (l : List Nat) (m : umap V) (k : Nat) :
    map_has (l.foldl map_erase m) k = (!decide (k ∈ l) && map_has m k) := by
  unfold map_has
  rw [map_find_foldl_erase]
  by_cases h : k ∈ l <;> simp [h]

end containers

theorem mem_set_insert (s : uset) (a k : Nat) : k ∈ set_insert s a ↔ k ∈ s ∨ k = a := by
  unfold set_insert
  by_cases h : a ∈ s
  · rw [if_pos h]
    constructor
    · exact Or.inl
    · rintro (h1 | h1)
      · exact h1
      · rw [h1]; exact h
  · rw [if_neg h]; simp

theorem mem_set_erase (s : uset) (a k : Nat) : k ∈ set_erase s a ↔ k ∈ s ∧ k ≠ a := by
  unfold set_erase
  simp

theorem mem_set_insert_range (s : uset) (l : List Nat) (k : Nat) :
    k ∈ set_insert_range s l ↔ k ∈ s ∨ k ∈ l := by
  unfold set_insert_range
  induction l generalizing s with
  | nil => simp
  | cons a t ih =>
    simp only [List.foldl_cons, ih, mem_set_insert, List.mem_cons]
    tauto

theorem mem_foldl_set_insert_range (ls : List (List Nat)) (s : uset) (k : Nat) :
    k ∈ ls.foldl set_insert_range s ↔ k ∈ s ∨ ∃ l ∈ ls, k ∈ l := by
  induction ls generalizing s with
  | nil => simp
  | cons a t ih =>
    simp only [List.foldl_cons, ih, mem_set_insert_range, List.mem_cons]
    constructor
    · rintro ((h | h) | ⟨l, hl, hk⟩)
      · exact Or.inl h
      · exact Or.inr ⟨a, Or.inl rfl, h⟩
      · exact Or.inr ⟨l, Or.inr hl, hk⟩
    · rintro (h | ⟨l, hl | hl, hk⟩)
      · exact Or.inl (Or.inl h)
      · subst hl; exact Or.inl (Or.inr hk)
      · exact Or.inr ⟨l, hl, hk⟩

theorem set_insert_nodup (s : uset) (a : Nat) (h : s.Nodup) : (set_insert s a).Nodup := by
  unfold set_insert
  by_cases ha : a ∈ s
  · rw [if_pos ha]; exact h
  · rw [if_neg ha]
    rw [List.nodup_append]
    refine ⟨h, List.nodup_singleton a, ?_⟩
    intro x hx hx'
    simp only [List.mem_singleton] at hx'
    subst hx'
    exact ha hx

theorem set_insert_range_nodup (s : uset) (l : List Nat) (h : s.Nodup) :
    (set_insert_range s l).Nodup := by
  unfold set_insert_range
  induction l generalizing s with
  | nil => exact h
  | cons a t ih =>
    simp only [List.foldl_cons]
    exact ih _ (set_insert_nodup s a h)

/-! ## Loops in the `Option` monad -/

/-- A property that holds at the start of a loop and is kept by every round that
succeeds holds after the loop.  The property may speak of the elements already
visited. -/
theorem foldlM_invariant {σ α : Type} (f : σ → α → Option σ) (P : List α → σ → Prop)
    (l : List α) (s0 sN : σ) (h0 : P [] s0)
    (hstep : ∀ done a s s', P done s → a ∈ l → f s a = some s' → P (done ++ [a]) s')
    (h : l.foldlM f s0 = some sN) : P l sN := by
  have key : ∀ (rest done : List α) (s : σ), done ++ rest = l → P done s →
      rest.foldlM f s = some sN → P l sN := by
    intro rest
    induction rest with
    | nil =>
      intro done s hl hP hf
      simp only [List.foldlM_nil, Option.pure_def, Option.some.injEq] at hf
      rw [List.append_nil] at hl
      rw [← hl, ← hf]; exact hP
    | cons a t ih =>
      intro done s hl hP hf
      simp only [List.foldlM_cons, Option.bind_eq_bind] at hf
      cases hfa : f s a with
      | none => rw [hfa] at hf; simp at hf
      | some s' =>
        rw [hfa] at hf
        simp only [Option.some_bind] at hf
        have hmem : a ∈ l := by rw [← hl]; simp
        exact ih (done ++ [a]) s' (by rw [← hl]; simp) (hstep done a s s' hP hmem hfa) hf
  exact key l [] s0 rfl h0 h

/-- The same for a loop that cannot fail. -/
theorem foldl_invariant {σ α : Type} (f : σ → α → σ) (P : List α → σ → Prop)
    (l : List α) (s0 : σ) (h0 : P [] s0)
    (hstep : ∀ done a s, P done s → a ∈ l → P (done ++ [a]) (f s a)) :
    P l (l.foldl f s0) := by
  have key : ∀ (rest done : List α) (s : σ), done ++ rest = l → P done s →
      P l (rest.foldl f s) := by
    intro rest
    induction rest with
    | nil =>
      intro done s hl hP
      rw [List.append_nil] at hl
      rw [← hl]; exact hP
    | cons a t ih =>
      intro done s hl hP
      have hmem : a ∈ l := by rw [← hl]; simp
      exact ih (done ++ [a]) (f s a) (by rw [← hl]; simp) (hstep done a s hP hmem)
  exact key l [] s0 rfl h0

/-- `mapM` in the `Option` monad succeeds exactly when it succeeds on every element,
and then lists the results in order. -/
theorem mapM_some_iff {α β : Type} (f : α → Option β) (l : List α) (r : List β) :
    l.mapM f = some r ↔ List.Forall₂ (fun a b => f a = some b) l r := by
  induction l generalizing r with
  | nil =>
    simp only [List.mapM_nil, Option.pure_def, Option.some.injEq]
    constructor
    · rintro rfl; exact List.Forall₂.nil
    · intro h; cases h; rfl
  | cons a t ih =>
    simp only [List.mapM_cons, Option.pure_def, Option.bind_eq_bind]
    cases hfa : f a with
    | none =>
      simp only [Option.none_bind]
      constructor
      · intro h; simp at h
      · intro h
        cases h with
        | cons h1 _ => rw [hfa] at h1; simp at h1
    | some b =>
      simp only [Option.some_bind]
      cases ht : t.mapM f with
      | none =>
        simp only [Option.none_bind]
        constructor
        · intro h; simp at h
        · intro h
          cases h with
          | cons h1 h2 =>
            have := (ih _).2 h2
            rw [ht] at this; simp at this
      | some r' =>
        simp only [Option.some_bind, Option.some.injEq]
        constructor
        · rintro rfl
          exact List.Forall₂.cons hfa ((ih _).1 ht)
        · intro h
          cases h with
          | cons h1 h2 =>
            rw [hfa] at h1
            simp only [Option.some.injEq] at h1
            have := (ih _).2 h2
            rw [ht] at this
            simp only [Option.some.injEq] at this
            rw [h1, this]

end dccrg
namespace dccrg
open Index
namespace Index

section
variable {ix : Index} {R : Nat} (F : Fit ix R)
include F

/-- The id of the cell of level `r` that covers `indices` only depends on the
indices divided by the cell size. -/
theorem Fit.enc_congr {i0 i1 i2 j0 j1 j2 r : Nat} (hr : r ≤ R)
    (h0 : i0 < ix.x_length * 2 ^ R) (h1 : i1 < ix.y_length * 2 ^ R)
    (h2 : i2 < ix.z_length * 2 ^ R)
    (k0 : j0 < ix.x_length * 2 ^ R) (k1 : j1 < ix.y_length * 2 ^ R)
    (k2 : j2 < ix.z_length * 2 ^ R)
    (e0 : i0 / 2 ^ (R - r) = j0 / 2 ^ (R - r)) (e1 : i1 / 2 ^ (R - r) = j1 / 2 ^ (R - r))
    (e2 : i2 / 2 ^ (R - r) = j2 / 2 ^ (R - r)) :
    ix.get_cell_from_indices (i0, i1, i2) (r : Int)
      = ix.get_cell_from_indices (j0, j1, j2) (r : Int) := by
  rw [F.get_cell_from_indices_eq hr h0 h1 h2, F.get_cell_from_indices_eq hr k0 k1 k2,
    e0, e1, e2]

/-- Two in-grid index triples are covered by the same cell of level `r` only if
they agree after division by the cell size. -/
theorem Fit.enc_inj {i0 i1 i2 j0 j1 j2 r : Nat} (hr : r ≤ R)
    (h0 : i0 < ix.x_length * 2 ^ R) (h1 : i1 < ix.y_length * 2 ^ R)
    (h2 : i2 < ix.z_length * 2 ^ R)
    (k0 : j0 < ix.x_length * 2 ^ R) (k1 : j1 < ix.y_length * 2 ^ R)
    (k2 : j2 < ix.z_length * 2 ^ R)
    (e : ix.get_cell_from_indices (i0, i1, i2) (r : Int)
      = ix.get_cell_from_indices (j0, j1, j2) (r : Int)) :
    i0 / 2 ^ (R - r) = j0 / 2 ^ (R - r) ∧ i1 / 2 ^ (R - r) = j1 / 2 ^ (R - r) ∧
      i2 / 2 ^ (R - r) = j2 / 2 ^ (R - r) := by
  have a := (F.roundtrip_indices hr h0 h1 h2).1
  have b := (F.roundtrip_indices hr k0 k1 k2).1
  rw [e, b] at a
  simp only [Prod.mk.injEq] at a
  have hp : 0 < 2 ^ (R - r) := by positivity
  exact ⟨(Nat.eq_of_mul_eq_mul_right hp a.1).symm, (Nat.eq_of_mul_eq_mul_right hp a.2.1).symm,
    (Nat.eq_of_mul_eq_mul_right hp a.2.2).symm⟩

omit F in
theorem div_mul_lt_of_lt {i L R r : Nat} (hr : r ≤ R) (h : i < L * 2 ^ R) :
    i / 2 ^ (R - r) * 2 ^ (R - r) < L * 2 ^ R :=
  lt_of_le_of_lt (Nat.div_mul_le_self _ _) h

/-- The parent of the cell of level `r + 1` that covers `indices` is the cell of
level `r` that covers them. -/
theorem Fit.parent_enc {i0 i1 i2 r : Nat} (hr : r < R)
    (h0 : i0 < ix.x_length * 2 ^ R) (h1 : i1 < ix.y_length * 2 ^ R)
    (h2 : i2 < ix.z_length * 2 ^ R) :
    ix.get_parent_for_removed (ix.get_cell_from_indices (i0, i1, i2) ((r : Int) + 1))
      = ix.get_cell_from_indices (i0, i1, i2) (r : Int) := by
  have e1 : ((r + 1 : Nat) : Int) = (r : Int) + 1 := by push_cast; rfl
  obtain ⟨q1, q2, _, _⟩ := F.roundtrip_indices (show r + 1 ≤ R by omega) h0 h1 h2
  rw [e1] at q1 q2
  unfold get_parent_for_removed
  simp only [q2]
  rw [if_neg (by rw [F.hR]; omega), if_neg (by omega), q1]
  have : (r : Int) + 1 - 1 = (r : Int) := by omega
  rw [this]
  have hd : ∀ i, i / 2 ^ (R - (r + 1)) * 2 ^ (R - (r + 1)) / 2 ^ (R - r) = i / 2 ^ (R - r) := by
    intro i
    have e2 : 2 ^ (R - r) = 2 ^ (R - (r + 1)) * 2 := by
      rw [← pow_succ]; congr 1; omega
    have hp : 0 < 2 ^ (R - (r + 1)) := by positivity
    rw [e2, ← Nat.div_div_eq_div_mul, Nat.mul_div_cancel _ hp, Nat.div_div_eq_div_mul]
  exact F.enc_congr (by omega) (div_mul_lt_of_lt (by omega) h0)
    (div_mul_lt_of_lt (by omega) h1) (div_mul_lt_of_lt (by omega) h2) h0 h1 h2
    (hd i0) (hd i1) (hd i2)

/-- A valid cell is the cell of its level that covers any index triple of its
footprint. -/
theorem Fit.eq_enc_of_footprint {c r : Nat} {i0 i1 i2 : Nat}
    (hlvl : ix.get_refinement_level c = (r : Int))
    (f0 : (ix.get_indices c).1 ≤ i0) (f0' : i0 < (ix.get_indices c).1 + 2 ^ (R - r))
    (f1 : (ix.get_indices c).2.1 ≤ i1) (f1' : i1 < (ix.get_indices c).2.1 + 2 ^ (R - r))
    (f2 : (ix.get_indices c).2.2 ≤ i2) (f2' : i2 < (ix.get_indices c).2.2 + 2 ^ (R - r))
    (h0 : i0 < ix.x_length * 2 ^ R) (h1 : i1 < ix.y_length * 2 ^ R)
    (h2 : i2 < ix.z_length * 2 ^ R) :
    c = ix.get_cell_from_indices (i0, i1, i2) (r : Int) := by
  obtain ⟨v1, v2⟩ := level_nonneg_valid (show 0 ≤ ix.get_refinement_level c by omega)
  obtain ⟨r', hr', hlvl', b0, b1, b2, d0, d1, d2, hrt⟩ := F.roundtrip_cell v1 v2
  have : r' = r := by rw [hlvl] at hlvl'; exact_mod_cast hlvl'.symm
  subst this
  have hd : ∀ a i, 2 ^ (R - r') ∣ a → a ≤ i → i < a + 2 ^ (R - r') →
      a / 2 ^ (R - r') = i / 2 ^ (R - r') := by
    intro a i ha h1 h2
    have hp : 0 < 2 ^ (R - r') := by positivity
    obtain ⟨k, rfl⟩ := ha
    rw [Nat.mul_div_cancel_left _ hp]
    symm
    apply Nat.div_eq_of_lt_le
    · rw [mul_comm]; exact h1
    · calc i < 2 ^ (R - r') * k + 2 ^ (R - r') := h2
        _ = (k + 1) * 2 ^ (R - r') := by ring
  rw [← hrt]
  generalize ix.get_indices c = idx at *
  obtain ⟨a0, a1, a2⟩ := idx
  exact F.enc_congr hr' b0 b1 b2 h0 h1 h2 (hd a0 i0 d0 f0 f0') (hd a1 i1 d1 f1 f1')
    (hd a2 i2 d2 f2 f2')

/-- The size in indices of a valid cell of level `r`. -/
theorem Fit.size_eq {c r : Nat} (hlvl : ix.get_refinement_level c = (r : Int)) :
    ix.get_cell_size_in_indices c = 2 ^ (R - r) := by
  obtain ⟨v1, v2⟩ := level_nonneg_valid (show 0 ≤ ix.get_refinement_level c by omega)
  obtain ⟨r', hr', hlvl', _⟩ := F.roundtrip_cell v1 v2
  have : r' = r := by rw [hlvl] at hlvl'; exact_mod_cast hlvl'.symm
  subst this
  unfold get_cell_size_in_indices
  rw [if_neg (by unfold error_cell; omega)]
  simp only [hlvl]
  rw [if_neg (by omega), F.shl1_sub_eq hr']

end

end Index

end dccrg
namespace dccrg
open Index
namespace Dccrg
variable {UserData : Type}

theorem mem_corners {x y z : Nat} (hx : x < 2) (hy : y < 2) (hz : z < 2) :
    (x, y, z) ∈ corners := by
  interval_cases x <;> interval_cases y <;> interval_cases z <;> simp [corners]

/-- The children of a valid cell `c` of level `r < R` are the cells of level `r + 1`
whose parent is `c`. -/
theorem mem_children_of_iff {ix : Index} {R : Nat} (F : Fit ix R) {c r : Nat}
    (hlvl : ix.get_refinement_level c = (r : Int)) (hr : r < R) (x : Nat) :
    x ∈ ix.children_of c ↔
      ix.get_refinement_level x = (r : Int) + 1 ∧ ix.get_parent_for_removed x = c := by
  rw [children_of_eq F hlvl hr, children_at_eq_map]
  constructor
  · intro hx
    obtain ⟨b, hb, rfl⟩ := List.mem_map.1 hx
    have lb := corners_lt hb
    have f := child_facts F hlvl hr lb.1 lb.2.1 lb.2.2
    exact ⟨f.1, f.2.2.1⟩
  · rintro ⟨hx, hp⟩
    have e1 : ((r + 1 : Nat) : Int) = (r : Int) + 1 := by push_cast; rfl
    rw [← e1] at hx
    obtain ⟨v1, v2⟩ := level_nonneg_valid (show 0 ≤ ix.get_refinement_level x by omega)
    obtain ⟨r', hr', hlvl', b0, b1, b2, d0, d1, d2, hrt⟩ := F.roundtrip_cell v1 v2
    have : r' = r + 1 := by rw [hx] at hlvl'; exact_mod_cast hlvl'.symm
    subst this
    obtain ⟨w1, w2⟩ := level_nonneg_valid (show 0 ≤ ix.get_refinement_level c by omega)
    obtain ⟨r'', hr'', hlvl'', c0, c1, c2, g0, g1, g2, hrt'⟩ := F.roundtrip_cell w1 w2
    have : r'' = r := by rw [hlvl] at hlvl''; exact_mod_cast hlvl''.symm
    subst this
    generalize hidx : ix.get_indices x = idx at *
    obtain ⟨i0, i1, i2⟩ := idx
    have hpar : ix.get_parent_for_removed x
        = ix.get_cell_from_indices (i0, i1, i2) (r'' : Int) := by
      conv_lhs => rw [← hrt]
      rw [e1, F.parent_enc hr b0 b1 b2]
    rw [hpar, ← hrt'] at hp
    generalize hidc : ix.get_indices c = idc at *
    obtain ⟨j0, j1, j2⟩ := idc
    simp only at b0 b1 b2 d0 d1 d2 c0 c1 c2 g0 g1 g2
    obtain ⟨q0, q1, q2⟩ := F.enc_inj hr'' b0 b1 b2 c0 c1 c2 hp
    have e2 : 2 ^ (R - r'') = 2 * 2 ^ (R - (r'' + 1)) := by
      rw [← pow_succ']; congr 1; omega
    have es : R - r'' - 1 = R - (r'' + 1) := by omega
    rw [es]
    have hs : 0 < 2 ^ (R - (r'' + 1)) := by positivity
    generalize 2 ^ (R - (r'' + 1)) = s at *
    rw [e2] at q0 q1 q2 g0 g1 g2
    have key : ∀ i j, s ∣ i → 2 * s ∣ j → i / (2 * s) = j / (2 * s) →
        ∃ b, b < 2 ∧ i = j + b * s := by
      intro i j hi hj hq
      obtain ⟨m, rfl⟩ := hi
      obtain ⟨k, rfl⟩ := hj
      rw [Nat.mul_div_cancel_left _ (by omega : 0 < 2 * s), Nat.mul_comm 2 s,
        ← Nat.div_div_eq_div_mul, Nat.mul_div_cancel_left _ hs] at hq
      refine ⟨m % 2, Nat.mod_lt _ (by norm_num), ?_⟩
      have hm : m = 2 * k + m % 2 := by omega
      conv_lhs => rw [hm]
      ring
    obtain ⟨x0, hx0, rfl⟩ := key i0 j0 d0 g0 q0
    obtain ⟨x1, hx1, rfl⟩ := key i1 j1 d1 g1 q1
    obtain ⟨x2, hx2, rfl⟩ := key i2 j2 d2 g2 q2
    rw [List.mem_map]
    refine ⟨(x0, x1, x2), mem_corners hx0 hx1 hx2, ?_⟩
    rw [← e1]
    exact hrt

end Dccrg
end dccrg
namespace dccrg
open Index
namespace Dccrg
variable {UserData : Type}

section coverage
variable (g : Dccrg UserData) {R : Nat} (F : Fit g.index R)
  (hinv : g.existence_invariant) {i0 i1 i2 : Nat}
  (h0 : i0 < g.index.x_length * 2 ^ R) (h1 : i1 < g.index.y_length * 2 ^ R)
  (h2 : i2 < g.index.z_length * 2 ^ R)
include F hinv h0 h1 h2

theorem cover_root (hfit : g.index.ids_fit) :
    map_has g.cell_process (g.index.get_cell_from_indices (i0, i1, i2) ((0 : Nat) : Int))
      = true := by
  obtain ⟨_, _, q3, q4⟩ := F.roundtrip_indices (Nat.zero_le R) h0 h1 h2
  apply hinv.2.1
  · rw [hfit.2.1]
    simp only [ids_below, Nat.zero_add, pow_zero, Nat.mul_one] at q4
    omega
  · omega

theorem cover_parent {r : Nat} (hr : r < R)
    (h : map_has g.cell_process
      (g.index.get_cell_from_indices (i0, i1, i2) ((r : Int) + 1)) = true) :
    map_has g.cell_process (g.index.get_cell_from_indices (i0, i1, i2) (r : Int)) = true := by
  have e1 : ((r + 1 : Nat) : Int) = (r : Int) + 1 := by push_cast; rfl
  have q2 := (F.roundtrip_indices (show r + 1 ≤ R by omega) h0 h1 h2).2.1
  rw [e1] at q2
  have := (hinv.2.2 _ ((mem_map_keys _ _).2 h) (by rw [q2]; omega)).1
  rwa [F.parent_enc hr h0 h1 h2] at this

theorem cover_child_iff {r : Nat} (hr : r < R)
    (h : map_has g.cell_process (g.index.get_cell_from_indices (i0, i1, i2) (r : Int)) = true) :
    g.get_child (g.index.get_cell_from_indices (i0, i1, i2) (r : Int))
        = g.index.get_cell_from_indices (i0, i1, i2) (r : Int) ↔
      map_has g.cell_process
        (g.index.get_cell_from_indices (i0, i1, i2) ((r : Int) + 1)) = false := by
  have e1 : ((r + 1 : Nat) : Int) = (r : Int) + 1 := by push_cast; rfl
  obtain ⟨q1, q2, _, _⟩ := F.roundtrip_indices (show r ≤ R by omega) h0 h1 h2
  obtain ⟨p1, p2, _, _⟩ := F.roundtrip_indices (show r + 1 ≤ R by omega) h0 h1 h2
  rw [e1] at p1 p2
  have t0 := div_mul_lt_of_lt (show r ≤ R by omega) h0
  have t1 := div_mul_lt_of_lt (show r ≤ R by omega) h1
  have t2 := div_mul_lt_of_lt (show r ≤ R by omega) h2
  obtain ⟨c1, c2, _, _⟩ := F.roundtrip_indices (show r + 1 ≤ R by omega) t0 t1 t2
  rw [e1] at c1 c2
  have hdd : ∀ i, i / 2 ^ (R - r) * 2 ^ (R - r) / 2 ^ (R - r) = i / 2 ^ (R - r) := by
    intro i; exact Nat.mul_div_cancel _ (by positivity)
  have cpar : g.index.get_parent_for_removed (g.index.get_cell_from_indices
      (i0 / 2 ^ (R - r) * 2 ^ (R - r), i1 / 2 ^ (R - r) * 2 ^ (R - r),
        i2 / 2 ^ (R - r) * 2 ^ (R - r)) ((r : Int) + 1))
      = g.index.get_cell_from_indices (i0, i1, i2) (r : Int) := by
    rw [F.parent_enc hr t0 t1 t2]
    exact F.enc_congr (by omega) t0 t1 t2 h0 h1 h2 (hdd i0) (hdd i1) (hdd i2)
  have mem1 := (mem_children_of_iff F q2 hr _).2 ⟨c2, cpar⟩
  have mem2 := (mem_children_of_iff F q2 hr _).2 ⟨p2, F.parent_enc hr h0 h1 h2⟩
  unfold get_child
  rw [if_neg (by simp [h])]
  simp only [q2, q1]
  rw [if_neg (by rw [F.hR]; omega)]
  by_cases hc : map_has g.cell_process (g.index.get_cell_from_indices
      (i0 / 2 ^ (R - r) * 2 ^ (R - r), i1 / 2 ^ (R - r) * 2 ^ (R - r),
        i2 / 2 ^ (R - r) * 2 ^ (R - r)) ((r : Int) + 1)) = true
  · rw [if_pos hc]
    have hall := (hinv.2.2 _ ((mem_map_keys _ _).2 hc) (by rw [c2]; omega)).2
    rw [cpar] at hall
    have := hall _ mem2
    constructor
    · intro heq
      have := congrArg g.index.get_refinement_level heq
      rw [c2, q2] at this
      omega
    · intro hn; rw [this] at hn; simp at hn
  · rw [if_neg hc]
    constructor
    · intro _
      by_contra hn
      have hn' : map_has g.cell_process
          (g.index.get_cell_from_indices (i0, i1, i2) ((r : Int) + 1)) = true := by
        simpa using hn
      have hall := (hinv.2.2 _ ((mem_map_keys _ _).2 hn') (by rw [p2]; omega)).2
      rw [F.parent_enc hr h0 h1 h2] at hall
      exact hc (hall _ mem1)
    · intro _; rfl

theorem cover_leaf_iff {r : Nat} (hr : r ≤ R) :
    g.is_leaf (g.index.get_cell_from_indices (i0, i1, i2) (r : Int)) ↔
      map_has g.cell_process (g.index.get_cell_from_indices (i0, i1, i2) (r : Int)) = true ∧
      (r = R ∨ map_has g.cell_process
        (g.index.get_cell_from_indices (i0, i1, i2) ((r : Int) + 1)) = false) := by
  unfold is_leaf
  constructor
  · rintro ⟨ha, hb⟩
    refine ⟨ha, ?_⟩
    rcases Nat.lt_or_ge r R with hlt | hge
    · exact Or.inr ((cover_child_iff g F hinv h0 h1 h2 hlt ha).1 hb)
    · exact Or.inl (by omega)
  · rintro ⟨ha, hb⟩
    refine ⟨ha, ?_⟩
    rcases Nat.lt_or_ge r R with hlt | hge
    · rcases hb with hb | hb
      · omega
      · exact (cover_child_iff g F hinv h0 h1 h2 hlt ha).2 hb
    · have : r = R := by omega
      subst this
      have q2 := (F.roundtrip_indices (le_refl r) h0 h1 h2).2.1
      unfold get_child
      rw [if_neg (by simp [ha])]
      simp only [q2]
      rw [if_pos F.hR.symm]

theorem cover_exists : ∀ (n r : Nat), r + n = R →
    map_has g.cell_process (g.index.get_cell_from_indices (i0, i1, i2) (r : Int)) = true →
    ∃ m, m ≤ R ∧ g.is_leaf (g.index.get_cell_from_indices (i0, i1, i2) (m : Int)) := by
  intro n
  induction n with
  | zero =>
    intro r hr h
    have : r = R := by omega
    subst this
    exact ⟨r, le_refl _, (cover_leaf_iff g F hinv h0 h1 h2 (le_refl r)).2 ⟨h, Or.inl rfl⟩⟩
  | succ k ih =>
    intro r hr h
    by_cases hc : map_has g.cell_process
        (g.index.get_cell_from_indices (i0, i1, i2) ((r : Int) + 1)) = true
    · have e1 : ((r + 1 : Nat) : Int) = (r : Int) + 1 := by push_cast; rfl
      exact ih (r + 1) (by omega) (by rw [e1]; exact hc)
    · exact ⟨r, by omega, (cover_leaf_iff g F hinv h0 h1 h2 (by omega)).2
        ⟨h, Or.inr (by simpa using hc)⟩⟩

theorem cover_down : ∀ (n r : Nat), r + n ≤ R →
    map_has g.cell_process
      (g.index.get_cell_from_indices (i0, i1, i2) ((r + n : Nat) : Int)) = true →
    map_has g.cell_process (g.index.get_cell_from_indices (i0, i1, i2) (r : Int)) = true := by
  intro n
  induction n with
  | zero => intro r _ h; exact h
  | succ k ih =>
    intro r hr h
    apply ih r (by omega)
    have e1 : ((r + (k + 1) : Nat) : Int) = ((r + k : Nat) : Int) + 1 := by push_cast; ring
    rw [e1] at h
    exact cover_parent g F hinv h0 h1 h2 (by omega) h

end coverage

/-- In a grid whose ids fit in 64 bits and whose directory satisfies the existence
invariant every index triple of the root grid lies in the footprint of exactly one
leaf. -/
theorem covered_once_of_invariant (g : Dccrg UserData) (hfit : g.index.ids_fit)
    (hinv : g.existence_invariant) : g.covered_once := by
  rintro ⟨i0, i1, i2⟩ h0 h1 h2
  simp only at h0 h1 h2
  have F := Fit.of_index_lt hfit h0 h1 h2
  generalize hR : g.index.max_refinement_level.toNat = R at F h0 h1 h2
  obtain ⟨m, hm, hleaf⟩ := cover_exists g F hinv h0 h1 h2 R 0 (by omega)
    (cover_root g F hinv h0 h1 h2 hfit)
  obtain ⟨q1, q2, _, _⟩ := F.roundtrip_indices hm h0 h1 h2
  have hpos : 0 < 2 ^ (R - m) := by positivity
  refine ⟨_, ⟨hleaf, ?_⟩, ?_⟩
  · unfold in_footprint
    rw [F.size_eq q2, q1]
    refine ⟨Nat.div_mul_le_self _ _, ?_, Nat.div_mul_le_self _ _, ?_,
      Nat.div_mul_le_self _ _, ?_⟩ <;> exact Nat.lt_div_mul_add hpos
  · rintro c ⟨hl, hf⟩
    have hv := hinv.1 c ((mem_map_keys _ _).2 hl.1)
    obtain ⟨r, hr, hlvl, _⟩ := F.roundtrip_cell hv.1 hv.2
    unfold in_footprint at hf
    rw [F.size_eq hlvl] at hf
    obtain ⟨f0, f0', f1, f1', f2, f2'⟩ := hf
    have hc := F.eq_enc_of_footprint hlvl f0 f0' f1 f1' f2 f2' h0 h1 h2
    rw [hc] at hl
    have a := (cover_leaf_iff g F hinv h0 h1 h2 hr).1 hl
    have b := (cover_leaf_iff g F hinv h0 h1 h2 hm).1 hleaf
    have key : ∀ (x y : Nat), x ≤ R → y ≤ R → x < y →
        map_has g.cell_process (g.index.get_cell_from_indices (i0, i1, i2) (y : Int)) = true →
        (x = R ∨ map_has g.cell_process
          (g.index.get_cell_from_indices (i0, i1, i2) ((x : Int) + 1)) = false) → False := by
      intro x y hx hy hxy hE hN
      rcases hN with hN | hN
      · omega
      · have e : y = (x + 1) + (y - (x + 1)) := by omega
        rw [e] at hE
        have := cover_down g F hinv h0 h1 h2 (y - (x + 1)) (x + 1) (by omega) hE
        have e1 : ((x + 1 : Nat) : Int) = (x : Int) + 1 := by push_cast; rfl
        rw [e1, hN] at this
        exact Bool.noConfusion this
    rcases Nat.lt_trichotomy r m with h | h | h
    · exact (key r m hr hm h b.1 a.2).elim
    · rw [hc, h]
    · exact (key m r hm hr h a.1 b.2).elim

end Dccrg
end dccrg
namespace dccrg
open Index
namespace Index

theorem enc_zero_of_out {ix : Index} (hfit : ix.ids_fit) {indices : indices_t} {level : Int}
    (h : indices.1 ≥ ix.x_length * 2 ^ ix.max_refinement_level.toNat ∨
       indices.2.1 ≥ ix.y_length * 2 ^ ix.max_refinement_level.toNat ∨
       indices.2.2 ≥ ix.z_length * 2 ^ ix.max_refinement_level.toNat ∨
       level < 0 ∨ level > ix.max_refinement_level) :
    ix.get_cell_from_indices indices level = 0 := by
  unfold get_cell_from_indices error_cell
  by_cases hx : ix.x_length = 0
  · simp [hx, u64]
  by_cases hy : ix.y_length = 0
  · simp [hy, u64]
  by_cases hz : ix.z_length = 0
  · simp [hz, u64]
  have F := Fit.of_ids_fit hfit (Nat.pos_of_ne_zero hx) (Nat.pos_of_ne_zero hy)
    (Nat.pos_of_ne_zero hz)
  have eR : shl1 ix.max_refinement_level = 2 ^ ix.max_refinement_level.toNat := by
    have := F.shl1_eq (le_refl ix.max_refinement_level.toNat)
    rwa [← F.hR] at this
  rw [eR, u64_of_lt (F.x_lt (le_refl _)), u64_of_lt (F.y_lt (le_refl _)),
    u64_of_lt (F.z_lt (le_refl _))]
  rcases h with h | h | h | h | h
  · rw [if_pos h]
  · rw [if_pos h]; simp
  · rw [if_pos h]; simp
  · rw [if_pos h]; simp
  · rw [if_pos h]; simp

/-- A result of `get_cell_from_indices` other than 0 is a valid id of the requested
level, and the arguments were in range. -/
theorem enc_facts {ix : Index} (hfit : ix.ids_fit) {indices : indices_t} {level : Int}
    (h : ix.get_cell_from_indices indices level ≠ 0) :
    0 ≤ level ∧ level ≤ ix.max_refinement_level ∧
    indices.1 < ix.x_length * 2 ^ ix.max_refinement_level.toNat ∧
    indices.2.1 < ix.y_length * 2 ^ ix.max_refinement_level.toNat ∧
    indices.2.2 < ix.z_length * 2 ^ ix.max_refinement_level.toNat ∧
    ix.get_refinement_level (ix.get_cell_from_indices indices level) = level ∧
    1 ≤ ix.get_cell_from_indices indices level ∧
    ix.get_cell_from_indices indices level ≤ ix.last_cell := by
  have hin : ¬ (indices.1 ≥ ix.x_length * 2 ^ ix.max_refinement_level.toNat ∨
       indices.2.1 ≥ ix.y_length * 2 ^ ix.max_refinement_level.toNat ∨
       indices.2.2 ≥ ix.z_length * 2 ^ ix.max_refinement_level.toNat ∨
       level < 0 ∨ level > ix.max_refinement_level) := fun hn => h (enc_zero_of_out hfit hn)
  simp only [not_or, not_le, not_lt, ge_iff_le, gt_iff_lt] at hin
  obtain ⟨h0, h1, h2, hl0, hl1⟩ := hin
  obtain ⟨i0, i1, i2⟩ := indices
  have F := Fit.of_index_lt hfit h0 h1 h2
  obtain ⟨k, rfl⟩ := Int.eq_ofNat_of_zero_le hl0
  have hk : k ≤ ix.max_refinement_level.toNat := by omega
  obtain ⟨_, e2, e3, e4⟩ := F.roundtrip_indices hk h0 h1 h2
  refine ⟨hl0, hl1, h0, h1, h2, e2, by omega, ?_⟩
  rw [F.hlast]
  exact le_trans e4 (ids_below_mono _ (by omega))

theorem refinement_level_loop_ge (ix : Index) (cell : Nat) :
    ∀ (fuel : Nat) (l : Int) (cur : Nat), l ≤ ix.refinement_level_loop cell fuel l cur := by
  intro fuel
  induction fuel with
  | zero => intro l cur; exact le_refl _
  | succ n ih =>
    intro l cur
    unfold refinement_level_loop
    simp only
    split_ifs
    · exact le_refl _
    · exact le_trans (by omega) (ih (l + 1) _)
    · exact le_refl _

/-- The result of `get_refinement_level` is -1 or a level of the grid. -/
theorem level_range (ix : Index) (h : 0 ≤ ix.max_refinement_level) (cell : Nat) :
    -1 ≤ ix.get_refinement_level cell ∧
    ix.get_refinement_level cell ≤ ix.max_refinement_level := by
  unfold get_refinement_level
  have := refinement_level_loop_ge ix cell (ix.max_refinement_level + 1).toNat 0 0
  simp only
  split_ifs <;> omega

end Index

namespace Dccrg
variable {UserData : Type}

/-- A result of `get_existing_cell` is 0 or a cell of the directory that
`get_cell_from_indices` gives for a level of the searched range. -/
theorem get_existing_cell_loop_spec (g : Dccrg UserData) (indices : indices_t) :
    ∀ (fuel : Nat) (lo hi : Int), 0 ≤ lo →
      g.get_existing_cell_loop indices fuel lo hi = 0 ∨
      ∃ r : Int, lo ≤ r ∧ r ≤ hi ∧
        g.get_existing_cell_loop indices fuel lo hi
          = g.index.get_cell_from_indices indices r ∧
        map_has g.cell_process (g.index.get_cell_from_indices indices r) = true := by
  intro fuel
  induction fuel with
  | zero => intro lo hi _; left; rfl
  | succ n ih =>
    intro lo hi hlo
    unfold get_existing_cell_loop
    simp only [error_cell]
    by_cases c1 : indices.1 ≥ u64 (g.index.x_length * shl1 g.index.max_refinement_level)
    · rw [if_pos c1]; left; rfl
    rw [if_neg c1]
    by_cases c2 : indices.2.1 ≥ u64 (g.index.y_length * shl1 g.index.max_refinement_level)
    · rw [if_pos c2]; left; rfl
    rw [if_neg c2]
    by_cases c3 : indices.2.2 ≥ u64 (g.index.z_length * shl1 g.index.max_refinement_level)
    · rw [if_pos c3]; left; rfl
    rw [if_neg c3]
    by_cases c4 : lo > hi
    · rw [if_pos c4]; left; rfl
    rw [if_neg c4]
    have havg := Int.tdiv_eq_ediv (show 0 ≤ hi + lo by omega) (show (0:Int) ≤ 2 by omega)
    generalize (hi + lo).tdiv 2 = avg at havg ⊢
    by_cases c5 : map_has g.cell_process (g.index.get_cell_from_indices indices avg) = true
    · rw [if_neg (by simpa using c5)]
      by_cases c6 : avg < hi
      · rw [if_pos c6]
        rcases ih (avg + 1) hi (by omega) with h | ⟨r, h1, h2, h3, h4⟩
        · rw [h]
          have : map_has g.cell_process 0 = false ∨ map_has g.cell_process 0 = true := by
            cases map_has g.cell_process 0 <;> simp
          rcases this with h0 | h0
          · rw [if_pos (by simpa using h0)]
            exact Or.inr ⟨avg, by omega, by omega, rfl, c5⟩
          · rw [if_neg (by simpa using h0)]; left; rfl
        · rw [h3, if_neg (by simpa using h4)]
          exact Or.inr ⟨r, by omega, h2, rfl, h4⟩
      · rw [if_neg c6]
        exact Or.inr ⟨avg, by omega, by omega, rfl, c5⟩
    · rw [if_pos (by simpa using c5)]
      by_cases c6 : avg > lo
      · rw [if_pos c6]
        rcases ih lo (avg - 1) hlo with h | ⟨r, h1, h2, h3, h4⟩
        · rw [h]
          by_cases h0 : map_has g.cell_process 0 = true
          · rw [if_neg (by simpa using h0)]; left; rfl
          · rw [if_pos (by simpa using h0)]; left; rfl
        · rw [h3, if_neg (by simpa using h4)]
          exact Or.inr ⟨r, h1, by omega, rfl, h4⟩
      · rw [if_neg c6]; left; rfl

theorem get_existing_cell_spec (g : Dccrg UserData) (indices : indices_t) (lo hi : Int)
    (hlo : 0 ≤ lo) :
    g.get_existing_cell indices lo hi = 0 ∨
      ∃ r : Int, lo ≤ r ∧ r ≤ hi ∧
        g.get_existing_cell indices lo hi = g.index.get_cell_from_indices indices r ∧
        map_has g.cell_process (g.index.get_cell_from_indices indices r) = true :=
  get_existing_cell_loop_spec g indices _ lo hi hlo

/-- The level of a result of `get_existing_cell` other than 0 lies in the searched
range. -/
theorem get_existing_cell_level (g : Dccrg UserData) (hfit : g.index.ids_fit)
    (indices : indices_t) (lo hi : Int) (hlo : 0 ≤ lo)
    (h : g.get_existing_cell indices lo hi ≠ 0) :
    lo ≤ g.index.get_refinement_level (g.get_existing_cell indices lo hi) ∧
    g.index.get_refinement_level (g.get_existing_cell indices lo hi) ≤ hi ∧
    map_has g.cell_process (g.get_existing_cell indices lo hi) = true := by
  rcases get_existing_cell_spec g indices lo hi hlo with h0 | ⟨r, h1, h2, h3, h4⟩
  · exact absurd h0 h
  · rw [h3] at h ⊢
    rw [(enc_facts hfit h).2.2.2.2.2.1]
    exact ⟨h1, h2, h4⟩

theorem mem_find_cells (g : Dccrg UserData) (lo_idx hi_idx : indices_t) (lo hi : Int)
    (b : Nat) (hb : b ∈ g.find_cells lo_idx hi_idx lo hi) :
    ∃ indices, b = g.get_existing_cell indices lo hi := by
  unfold find_cells at hb
  simp only at hb
  revert hb
  generalize (List.flatMap _ _ : List indices_t) = visited
  have key : ∀ (l : List indices_t) (acc : List Nat),
      (∀ b ∈ acc, ∃ indices, b = g.get_existing_cell indices lo hi) →
      ∀ b ∈ l.foldl (fun result indices =>
          if g.get_existing_cell indices lo hi ≠ g.get_child (g.get_existing_cell indices lo hi)
          then result
          else if g.get_existing_cell indices lo hi ∈ result then result
          else result ++ [g.get_existing_cell indices lo hi]) acc,
        ∃ indices, b = g.get_existing_cell indices lo hi := by
    intro l
    induction l with
    | nil => intro acc h; simpa using h
    | cons a t ih =>
      intro acc h
      rw [List.foldl_cons]
      apply ih
      split_ifs
      · exact h
      · exact h
      · intro b hb
        rcases List.mem_append.1 hb with hb | hb
        · exact h b hb
        · exact ⟨a, by simpa using hb⟩
  exact key visited [] (by simp) b

/-- The level of an entry other than 0 of `find_neighbors_of cell 1 false` differs
from the level of `cell` by at most 1. -/
theorem find_neighbors_of_level (g : Dccrg UserData) (hfit : g.index.ids_fit) (a b : Nat)
    (hb : b ∈ g.find_neighbors_of a 1 false) (hb0 : b ≠ 0) :
    (g.index.get_refinement_level a - g.index.get_refinement_level b).natAbs ≤ 1 := by
  unfold find_neighbors_of at hb
  simp only at hb
  by_cases c1 : ¬ map_has g.cell_process a = true
  · rw [if_pos c1] at hb; simp at hb
  rw [if_neg c1] at hb
  by_cases c2 : (!false) = true ∧ a ≠ g.get_child a
  · rw [if_pos c2] at hb; simp at hb
  rw [if_neg c2] at hb
  · obtain ⟨index_of, _, hb⟩ := List.mem_flatMap.1 hb
    unfold find_neighbors_of_at at hb
    simp only at hb
    obtain ⟨hlvl, hlvl2⟩ := level_range g.index hfit.1 a
    generalize g.index.get_refinement_level a = l at hb hlvl hlvl2 ⊢
    have hR := hfit.1
    have hlo : (0 : Int) ≤ (if l < 1 then 0 else l - 1) := by split_ifs <;> omega
    have e1 : (if l < 1 then 0 else l - 1) = max 0 (l - 1) := by
      split_ifs <;> omega
    have e2 : (if l ≤ g.index.max_refinement_level - 1 then l + 1
        else g.index.max_refinement_level) = min g.index.max_refinement_level (l + 1) := by
      split_ifs <;> omega
    have key : ∀ indices, g.get_existing_cell indices (max 0 (l - 1))
        (min g.index.max_refinement_level (l + 1)) ≠ 0 →
        (l - g.index.get_refinement_level (g.get_existing_cell indices (max 0 (l - 1))
          (min g.index.max_refinement_level (l + 1)))).natAbs ≤ 1 := by
      intro indices h
      have := get_existing_cell_level g hfit indices _ _ (by omega) h
      omega
    rw [e1, e2] at hb
    split_ifs at hb with d1 d2
    · simp at hb; exact absurd hb hb0
    · simp only [List.mem_singleton] at hb
      subst hb
      exact key _ hb0
    · obtain ⟨indices, rfl⟩ := mem_find_cells g _ _ _ _ b hb
      exact key _ hb0

theorem neighbors_to_at_level (g : Dccrg UserData) (hfit : g.index.ids_fit)
    (indices : indices_t) (size : Nat) (level : Int) (b : Nat)
    (hb : b ∈ g.neighbors_to_at indices size level) (hb0 : b ≠ 0) :
    g.index.get_refinement_level b = level := by
  unfold neighbors_to_at at hb
  obtain ⟨search_index, _, hb⟩ := List.mem_flatMap.1 hb
  simp only at hb
  split_ifs at hb
  · simp at hb
  · simp only [List.mem_singleton] at hb
    subst hb
    exact (enc_facts hfit hb0).2.2.2.2.2.1
  · simp at hb

/-- The level of an entry other than 0 of `find_neighbors_to cell` differs from the
level of `cell` by at most 1. -/
theorem find_neighbors_to_level (g : Dccrg UserData) (hfit : g.index.ids_fit) (a b : Nat)
    (hb : b ∈ g.find_neighbors_to a) (hb0 : b ≠ 0) :
    (g.index.get_refinement_level a - g.index.get_refinement_level b).natAbs ≤ 1 := by
  unfold find_neighbors_to at hb
  split_ifs at hb with c1
  · simp at hb
  · simp only at hb
    rw [mem_set_insert_range] at hb
    simp only [List.not_mem_nil, false_or, List.mem_append] at hb
    rcases hb with (hb | hb) | hb
    · split_ifs at hb
      · rw [neighbors_to_at_level g hfit _ _ _ b hb hb0]; omega
      · simp at hb
    · split_ifs at hb
      · obtain ⟨child, _, hb⟩ := List.mem_flatMap.1 hb
        rw [neighbors_to_at_level g hfit _ _ _ b hb hb0]; omega
      · simp at hb
    · rw [neighbors_to_at_level g hfit _ _ _ b hb hb0]; omega

/-- In a grid whose ids fit in 64 bits the neighbor searches only return cells
whose level differs by at most 1 from the level of the cell they start from. -/
theorem balanced_of_ids_fit (g : Dccrg UserData) (hfit : g.index.ids_fit) : g.balanced := by
  intro a _ _ b hb hb0
  rcases List.mem_append.1 hb with hb | hb
  · exact find_neighbors_of_level g hfit a b hb hb0
  · exact find_neighbors_to_level g hfit a b hb hb0

end Dccrg
end dccrg
namespace dccrg
open Index

theorem foldlM_preserves {σ α β : Type} (f : σ → α → Option σ) (q : σ → β)
    (hstep : ∀ s a s', f s a = some s' → q s' = q s) :
    ∀ (l : List α) (s0 sN : σ), l.foldlM f s0 = some sN → q sN = q s0 := by
  intro l
  induction l with
  | nil => intro s0 sN h; simp at h; rw [h]
  | cons a t ih =>
    intro s0 sN h
    rw [List.foldlM_cons] at h
    cases hf : f s0 a with
    | none => rw [hf] at h; simp at h
    | some s1 =>
      rw [hf] at h
      simp only [Option.some_bind, Option.bind_eq_bind] at h
      rw [ih s1 sN h, hstep s0 a s1 hf]

theorem foldl_preserves {σ α β : Type} (f : σ → α → σ) (q : σ → β)
    (hstep : ∀ s a, q (f s a) = q s) :
    ∀ (l : List α) (s0 : σ), q (l.foldl f s0) = q s0 := by
  intro l
  induction l with
  | nil => intro s0; rfl
  | cons a t ih => intro s0; rw [List.foldl_cons, ih, hstep]

namespace Dccrg
variable {UserData : Type}

theorem same_all_of_relevant {g g' : Dccrg UserData} (h : g'.relevant = g.relevant) :
    g.same_directory g' ∧ g.same_stores g' ∧ g.same_requests g' ∧ g.same_transfers g' := by
  unfold relevant at h
  simp only [Prod.mk.injEq] at h
  obtain ⟨a1, a2, a3, a4, a5, a6, a7, a8, a9, a10, a11, a12, a13⟩ := h
  exact ⟨⟨a1, a2⟩, ⟨a3, a4, a5, a6⟩, ⟨a7, a8, a9⟩, ⟨a10, a11, a12, a13⟩⟩

theorem update_neighbors_frame (g g' : Dccrg UserData) (cell : Nat)
    (h : g.update_neighbors cell = some g') : g'.relevant = g.relevant := by
  unfold update_neighbors at h
  split_ifs at h
  all_goals (simp only [Option.some.injEq] at h; subst h; rfl)

theorem remove_neighbor_lists_frame (g g' : Dccrg UserData) (atu : uset)
    (h : g.remove_neighbor_lists atu = some g') : g'.relevant = g.relevant := by
  unfold remove_neighbor_lists at h
  simp only [Option.map_eq_some'] at h
  obtain ⟨g1, h1, h2⟩ := h
  have e1 := foldlM_preserves _ (relevant : Dccrg UserData → _) (by
      intro s a s' hs
      split at hs
      · cases hs
      · split_ifs at hs <;> simp only [Option.some.injEq] at hs <;> subst hs <;> rfl) _ _ _ h1
  have e2 := foldl_preserves (fun (g : Dccrg UserData) unrefined =>
      { g with
        neighbors := map_erase g.neighbors unrefined
        neighbors_to := map_erase g.neighbors_to unrefined })
    relevant (by intro s a; rfl) atu g1
  rw [h2, e1] at e2
  exact e2

theorem update_remote_neighbor_info_frame (g g' : Dccrg UserData)
    (h : g.update_remote_neighbor_info = some g') : g'.relevant = g.relevant := by
  unfold update_remote_neighbor_info at h
  simp only [Option.map_eq_some'] at h
  obtain ⟨sets, _, h2⟩ := h
  subst h2
  rfl

theorem update_remote_neighbor_info_cell_frame (g g' : Dccrg UserData) (cell : Nat)
    (h : g.update_remote_neighbor_info_cell cell = some g') : g'.relevant = g.relevant := by
  unfold update_remote_neighbor_info_cell at h
  simp only [Option.map_eq_some'] at h
  obtain ⟨sets, _, h2⟩ := h
  subst h2
  rfl

end Dccrg
end dccrg
namespace dccrg
open Index
namespace Index

/-- A valid id has a level in `[0, R]`. -/
theorem level_of_valid {ix : Index} (hfit : ix.ids_fit) {c : Nat} (h1 : 1 ≤ c)
    (h2 : c ≤ ix.last_cell) :
    0 ≤ ix.get_refinement_level c ∧ ix.get_refinement_level c ≤ ix.max_refinement_level := by
  have F := Fit.of_valid_cell hfit h1 h2
  obtain ⟨r, hr, hlvl, _⟩ := F.roundtrip_cell h1 h2
  rw [hlvl, F.hR]
  omega

/-- The children of a valid cell: their level, their parent, and they are valid. -/
theorem children_of_facts {ix : Index} (hfit : ix.ids_fit) {c : Nat} (h1 : 1 ≤ c)
    (h2 : c ≤ ix.last_cell) {x : Nat} (hx : x ∈ ix.children_of c) :
    ix.get_refinement_level x = ix.get_refinement_level c + 1 ∧
    ix.get_parent_for_removed x = c ∧ 1 ≤ x ∧ x ≤ ix.last_cell ∧
    ix.get_refinement_level c < ix.max_refinement_level := by
  have F := Fit.of_valid_cell hfit h1 h2
  obtain ⟨r, hr, hlvl, _⟩ := F.roundtrip_cell h1 h2
  by_cases hlt : r < ix.max_refinement_level.toNat
  · obtain ⟨a, b⟩ := (Dccrg.mem_children_of_iff F hlvl hlt x).1 hx
    obtain ⟨v1, v2⟩ := level_nonneg_valid (show 0 ≤ ix.get_refinement_level x by omega)
    refine ⟨by rw [a, hlvl], b, v1, v2, ?_⟩
    rw [hlvl, F.hR]; omega
  · unfold children_of at hx
    simp only at hx
    rw [if_pos (by rw [hlvl, F.hR]; omega)] at hx
    simp at hx

/-- A valid cell of a level above 0 is a child of its parent. -/
theorem mem_children_of_parent {ix : Index} (hfit : ix.ids_fit) {x : Nat} (h1 : 1 ≤ x)
    (h2 : x ≤ ix.last_cell) (h0 : ix.get_refinement_level x ≠ 0) :
    x ∈ ix.children_of (ix.get_parent_for_removed x) ∧
    ix.get_refinement_level (ix.get_parent_for_removed x) = ix.get_refinement_level x - 1 ∧
    1 ≤ ix.get_parent_for_removed x ∧ ix.get_parent_for_removed x ≤ ix.last_cell := by
  have F := Fit.of_valid_cell hfit h1 h2
  obtain ⟨r, hr, hlvl, b0, b1, b2, _, _, _, hrt⟩ := F.roundtrip_cell h1 h2
  obtain ⟨k, rfl⟩ : ∃ k, r = k + 1 := ⟨r - 1, by
    have : r ≠ 0 := by intro h; rw [h] at hlvl; exact h0 hlvl
    omega⟩
  have e1 : ((k + 1 : Nat) : Int) = (k : Int) + 1 := by push_cast; rfl
  generalize hidx : ix.get_indices x = idx at *
  obtain ⟨i0, i1, i2⟩ := idx
  have hpar : ix.get_parent_for_removed x = ix.get_cell_from_indices (i0, i1, i2) (k : Int) := by
    conv_lhs => rw [← hrt]
    rw [e1, F.parent_enc (by omega) b0 b1 b2]
  obtain ⟨_, q2, q3, q4⟩ := F.roundtrip_indices (show k ≤ _ by omega) b0 b1 b2
  have hv : 1 ≤ ix.get_parent_for_removed x ∧ ix.get_parent_for_removed x ≤ ix.last_cell := by
    rw [hpar]
    exact level_nonneg_valid (by rw [q2]; omega)
  refine ⟨?_, ?_, hv.1, hv.2⟩
  · rw [Dccrg.mem_children_of_iff F (by rw [hpar]; exact q2) (by omega)]
    exact ⟨by rw [hlvl, e1], rfl⟩
  · rw [hpar, q2, hlvl, e1]; omega

/-- A cell is a child of at most one valid cell. -/
theorem children_of_parent_unique {ix : Index} (hfit : ix.ids_fit) {a b x : Nat}
    (a1 : 1 ≤ a) (a2 : a ≤ ix.last_cell) (b1 : 1 ≤ b) (b2 : b ≤ ix.last_cell)
    (ha : x ∈ ix.children_of a) (hb : x ∈ ix.children_of b) : a = b := by
  rw [← (children_of_facts hfit a1 a2 ha).2.1, ← (children_of_facts hfit b1 b2 hb).2.1]

/-- The root cells are the valid cells of level 0. -/
theorem level_zero_iff {ix : Index} (hfit : ix.ids_fit) {c : Nat} (h1 : 1 ≤ c)
    (h2 : c ≤ ix.last_cell) :
    ix.get_refinement_level c = 0 ↔ c < ix.grid_length + 1 := by
  have F := Fit.of_valid_cell hfit h1 h2
  obtain ⟨r, hr, hlvl, b0, b1, b2, _, _, _, hrt⟩ := F.roundtrip_cell h1 h2
  generalize hidx : ix.get_indices c = idx at *
  obtain ⟨i0, i1, i2⟩ := idx
  obtain ⟨_, _, q3, q4⟩ := F.roundtrip_indices hr b0 b1 b2
  rw [hrt] at q3 q4
  rw [hlvl, hfit.2.1]
  constructor
  · intro h
    have : r = 0 := by exact_mod_cast h
    subst this
    simp only [ids_below, pow_zero, Nat.mul_one, Nat.zero_add] at q4
    omega
  · intro h
    by_contra hn
    have : 1 ≤ r := by
      rcases Nat.eq_zero_or_pos r with h | h
      · rw [h] at hn; exact absurd rfl hn
      · exact h
    have := ids_below_mono (ix.x_length * ix.y_length * ix.z_length) this
    simp only [ids_below, pow_zero, Nat.mul_one, Nat.zero_add] at this
    omega

end Index
namespace Dccrg
variable {UserData : Type}

/-- Two processes have the same `Index` and directories with the same cells. -/
theorem get_child_congr {V : Type} (g : Dccrg UserData) (g' : Dccrg V)
    (hi : g'.index = g.index)
    (hd : ∀ c, map_has g'.cell_process c = map_has g.cell_process c) (c : Nat) :
    g'.get_child c = g.get_child c := by
  unfold get_child
  simp only [hi, hd]

theorem get_parent_congr {V : Type} (g : Dccrg UserData) (g' : Dccrg V)
    (hi : g'.index = g.index)
    (hd : ∀ c, map_has g'.cell_process c = map_has g.cell_process c) (c : Nat) :
    g'.get_parent c = g.get_parent c := by
  unfold get_parent
  simp only [hi, hd]

theorem get_all_children_congr {V : Type} (g : Dccrg UserData) (g' : Dccrg V)
    (hi : g'.index = g.index)
    (hd : ∀ c, map_has g'.cell_process c = map_has g.cell_process c) (c : Nat) :
    g'.get_all_children c = g.get_all_children c := by
  rw [get_all_children_eq_children_of, get_all_children_eq_children_of, hi, hd]

/-- In a directory with the existence invariant `get_parent` is the parent by ids. -/
theorem get_parent_eq (g : Dccrg UserData) (hfit : g.index.ids_fit)
    (hinv : g.existence_invariant) {c : Nat} (hc : map_has g.cell_process c = true) :
    g.get_parent c = g.index.get_parent_for_removed c ∧
    map_has g.cell_process (g.index.get_parent_for_removed c) = true := by
  obtain ⟨v1, v2⟩ := hinv.1 c ((mem_map_keys _ _).2 hc)
  obtain ⟨l0, l1⟩ := level_of_valid hfit v1 v2
  unfold get_parent
  rw [if_neg (by simp [hc])]
  by_cases h0 : g.index.get_refinement_level c = 0
  · rw [if_pos h0]
    unfold get_parent_for_removed
    simp only [h0]
    rw [if_neg (by have := hfit.1; omega)]
    simp only [if_true]
    exact ⟨trivial, hc⟩
  · rw [if_neg h0]
    have hp := (hinv.2.2 c ((mem_map_keys _ _).2 hc) h0).1
    have e : g.index.get_parent_for_removed c = g.index.get_cell_from_indices
        (g.index.get_indices c) (g.index.get_refinement_level c - 1) := by
      unfold get_parent_for_removed
      simp only
      rw [if_neg (by omega), if_neg h0]
    rw [← e]
    simp only [hp, if_true]
    trivial

/-- In a directory with the existence invariant a cell is a leaf exactly when none
of its children is in the directory. -/
theorem leaf_iff_no_child (g : Dccrg UserData) (hfit : g.index.ids_fit)
    (hinv : g.existence_invariant) {c : Nat} (hc : map_has g.cell_process c = true) :
    g.get_child c = c ↔ ∀ x ∈ g.index.children_of c, map_has g.cell_process x = false := by
  obtain ⟨v1, v2⟩ := hinv.1 c ((mem_map_keys _ _).2 hc)
  have F := Fit.of_valid_cell hfit v1 v2
  obtain ⟨r, hr, hlvl, b0, b1, b2, _, _, _, hrt⟩ := F.roundtrip_cell v1 v2
  generalize hidx : g.index.get_indices c = idx at *
  obtain ⟨i0, i1, i2⟩ := idx
  rw [← hrt] at hc
  rcases Nat.lt_or_ge r g.index.max_refinement_level.toNat with hlt | hge
  · have key := cover_child_iff g F hinv b0 b1 b2 hlt hc
    rw [hrt] at key
    rw [key]
    have hmem : g.index.get_cell_from_indices (i0, i1, i2) ((r : Int) + 1)
        ∈ g.index.children_of c := by
      rw [mem_children_of_iff F hlvl hlt]
      have e1 : ((r + 1 : Nat) : Int) = (r : Int) + 1 := by push_cast; rfl
      obtain ⟨_, q2, _, _⟩ := F.roundtrip_indices (show r + 1 ≤ _ by omega) b0 b1 b2
      rw [e1] at q2
      refine ⟨q2, ?_⟩
      rw [F.parent_enc hlt b0 b1 b2, hrt]
    constructor
    · intro h x hx
      by_contra hn
      have hx' : map_has g.cell_process x = true := by simpa using hn
      obtain ⟨a, b⟩ := (mem_children_of_iff F hlvl hlt x).1 hx
      have := (hinv.2.2 x ((mem_map_keys _ _).2 hx') (by rw [a]; omega)).2
      rw [b] at this
      rw [this _ hmem] at h
      exact Bool.noConfusion h
    · intro h
      exact h _ hmem
  · have e : g.index.children_of c = [] := by
      unfold children_of
      simp only
      rw [if_pos (by rw [hlvl, F.hR]; omega)]
    rw [e]
    simp only [List.not_mem_nil, false_implies, implies_true, iff_true]
    rw [hrt] at hc
    unfold get_child
    rw [if_neg (by simp [hc])]
    simp only
    rw [if_pos (by rw [hlvl, F.hR]; omega)]

end Dccrg
end dccrg
namespace dccrg
open Index
namespace Dccrg
variable {UserData : Type}

theorem add_children_eq [Inhabited UserData] (children : List Nat) (p : Nat) :
    ∀ g : Dccrg UserData, g.add_children p children =
      { g with
        cell_process := children.foldl (fun m c => map_set m c p) g.cell_process
        cells := if g.rank = p then children.foldl map_touch g.cells else g.cells
        neighbors := if g.rank = p then children.foldl map_touch g.neighbors else g.neighbors
        neighbors_to :=
          if g.rank = p then children.foldl map_touch g.neighbors_to else g.neighbors_to } := by
  induction children with
  | nil => intro g; simp [add_children]
  | cons a t ih =>
    intro g
    unfold add_children at ih ⊢
    rw [List.foldl_cons, ih]
    by_cases h : g.rank = p
    · simp [h]
    · simp [h]

theorem execute_refines_refine_eq [Inhabited UserData] (g : Dccrg UserData) (nc : List Nat)
    (upd : uset) (r : Nat) (g' : Dccrg UserData) (nc' : List Nat) (upd' : uset)
    (h : execute_refines_refine (g, nc, upd) r = some (g', nc', upd')) :
    ∃ p, map_find g.cell_process r = some p ∧
      g'.cell_process = (g.get_all_children r).foldl (fun m c => map_set m c p) g.cell_process ∧
      (p = g.rank → ∃ data, map_find g.cells r = some data ∧
        nc' = nc ++ g.get_all_children r ∧
        g' = { g with
          cell_process := g'.cell_process
          cells := (g.get_all_children r).foldl map_touch (map_erase g.cells r)
          refined_cell_data := map_set g.refined_cell_data r data
          neighbors := g'.neighbors
          neighbors_to := g'.neighbors_to
          pin_requests := g'.pin_requests
          new_pin_requests := g'.new_pin_requests
          cell_weights := g'.cell_weights }) ∧
      (p ≠ g.rank → nc' = nc ∧
        g' = { g with
          cell_process := g'.cell_process
          pin_requests := g'.pin_requests
          new_pin_requests := g'.new_pin_requests }) := by
  unfold execute_refines_refine at h
  simp only at h
  cases hp : map_find g.cell_process r with
  | none => rw [hp] at h; simp at h
  | some p =>
    rw [hp] at h
    simp only at h
    refine ⟨p, rfl, ?_⟩
    by_cases hr : g.rank = p
    · subst hr
      rw [if_pos rfl] at h
      cases hd : map_find g.cells r with
      | none => rw [hd] at h; simp at h
      | some data =>
        rw [hd] at h
        simp only [Option.some_bind, add_children_eq, if_true, Option.map_eq_some'] at h
        obtain ⟨u, _, h⟩ := h
        simp only [Prod.mk.injEq] at h
        obtain ⟨h1, h2, _⟩ := h
        subst h1 h2
        refine ⟨rfl, ?_, ?_⟩
        · intro _; exact ⟨data, rfl, rfl, rfl⟩
        · intro hn; exact absurd rfl hn
    · rw [if_neg hr] at h
      simp only [Option.some_bind, add_children_eq, hr, if_false, Option.map_eq_some'] at h
      obtain ⟨u, _, h⟩ := h
      simp only [Prod.mk.injEq] at h
      obtain ⟨h1, h2, _⟩ := h
      subst h1 h2
      refine ⟨rfl, ?_, ?_⟩
      · intro hn; exact absurd hn.symm hr
      · intro _; exact ⟨rfl, rfl⟩

theorem execute_refines_refine_frame [Inhabited UserData] (g : Dccrg UserData)
    (nc : List Nat) (upd : uset) (r : Nat) (g' : Dccrg UserData) (nc' : List Nat)
    (upd' : uset) (h : execute_refines_refine (g, nc, upd) r = some (g', nc', upd')) :
    g'.fixed = g.fixed ∧ g.same_requests g' ∧ g.same_transfers g' ∧
    g'.unrefined_cell_data = g.unrefined_cell_data ∧
    g'.remote_neighbors = g.remote_neighbors := by
  obtain ⟨p, _, _, h1, h2⟩ := execute_refines_refine_eq g nc upd r g' nc' upd' h
  by_cases hp : p = g.rank
  · obtain ⟨data, _, _, e⟩ := h1 hp
    rw [e]
    exact ⟨rfl, ⟨rfl, rfl, rfl⟩, ⟨rfl, rfl, rfl, rfl⟩, rfl, rfl⟩
  · obtain ⟨_, e⟩ := h2 hp
    rw [e]
    exact ⟨rfl, ⟨rfl, rfl, rfl⟩, ⟨rfl, rfl, rfl, rfl⟩, rfl, rfl⟩

theorem map_has_foldl_set {V : Type} (l : List Nat) (v : V) (m : umap V) (k : Nat) :
    map_has (l.foldl (fun m child => map_set m child v) m) k
      = (decide (k ∈ l) || map_has m k) := by
  unfold map_has
  rw [map_find_foldl_set]
  by_cases h : k ∈ l <;> simp [h]

/-- One round of the loop over `cells_to_refine`: the refined cell is in the
directory, its children join the directory, and the existence invariant is kept. -/
theorem execute_refines_refine_directory [Inhabited UserData] (g : Dccrg UserData)
    (hfit : g.index.ids_fit) (hinv : g.existence_invariant)
    (nc : List Nat) (upd : uset) (r : Nat) (g' : Dccrg UserData) (nc' : List Nat)
    (upd' : uset) (h : execute_refines_refine (g, nc, upd) r = some (g', nc', upd')) :
    map_has g.cell_process r = true ∧
    (∀ x, map_has g'.cell_process x = true ↔
      map_has g.cell_process x = true ∨ x ∈ g.index.children_of r) ∧
    g'.existence_invariant := by
  obtain ⟨hfix, _⟩ := execute_refines_refine_frame g nc upd r g' nc' upd' h
  have hix : g'.index = g.index := congrArg (fun t => t.1) hfix
  obtain ⟨p, hp, hdir, _⟩ := execute_refines_refine_eq g nc upd r g' nc' upd' h
  have hr : map_has g.cell_process r = true := (map_has_iff _ _).2 ⟨p, hp⟩
  obtain ⟨v1, v2⟩ := hinv.1 r ((mem_map_keys _ _).2 hr)
  rw [get_all_children_of_has g (by omega) hr] at hdir
  have hhas : ∀ x, map_has g'.cell_process x = true ↔
      map_has g.cell_process x = true ∨ x ∈ g.index.children_of r := by
    intro x
    rw [hdir, map_has_foldl_set]
    simp only [Bool.or_eq_true, decide_eq_true_eq]
    exact or_comm
  refine ⟨hr, hhas, ?_, ?_, ?_⟩
  · intro x hx
    rw [mem_map_keys, hhas] at hx
    rw [hix]
    rcases hx with hx | hx
    · exact hinv.1 x ((mem_map_keys _ _).2 hx)
    · have := children_of_facts hfit v1 v2 hx
      exact ⟨this.2.2.1, this.2.2.2.1⟩
  · intro x hx1 hx2
    rw [hix] at hx1
    exact (hhas x).2 (Or.inl (hinv.2.1 x hx1 hx2))
  · intro x hx hl
    rw [mem_map_keys, hhas] at hx
    rw [hix] at hl ⊢
    rcases hx with hx | hx
    · obtain ⟨a, b⟩ := hinv.2.2 x ((mem_map_keys _ _).2 hx) hl
      exact ⟨(hhas _).2 (Or.inl a), fun s hs => (hhas _).2 (Or.inl (b s hs))⟩
    · have := children_of_facts hfit v1 v2 hx
      rw [this.2.1]
      exact ⟨(hhas _).2 (Or.inl hr), fun s hs => (hhas _).2 (Or.inr hs)⟩

/-- The loop over `cells_to_refine`: the children of the refined cells join the
directory, and the existence invariant is kept. -/
theorem refine_loop_directory [Inhabited UserData] (g : Dccrg UserData)
    (hfit : g.index.ids_fit) (hinv : g.existence_invariant) (l : List Nat)
    (nc : List Nat) (upd : uset) (acc : Dccrg UserData × List Nat × uset)
    (h : l.foldlM execute_refines_refine (g, nc, upd) = some acc) :
    acc.1.fixed = g.fixed ∧ g.same_requests acc.1 ∧ g.same_transfers acc.1 ∧
    acc.1.unrefined_cell_data = g.unrefined_cell_data ∧
    acc.1.remote_neighbors = g.remote_neighbors ∧
    (∀ x, map_has acc.1.cell_process x = true ↔
      map_has g.cell_process x = true ∨ ∃ r ∈ l, x ∈ g.index.children_of r) ∧
    acc.1.existence_invariant ∧ ∀ r ∈ l, map_has acc.1.cell_process r = true := by
  refine foldlM_invariant execute_refines_refine
    (fun done (s : Dccrg UserData × List Nat × uset) =>
      s.1.fixed = g.fixed ∧ g.same_requests s.1 ∧ g.same_transfers s.1 ∧
      s.1.unrefined_cell_data = g.unrefined_cell_data ∧
      s.1.remote_neighbors = g.remote_neighbors ∧
      (∀ x, map_has s.1.cell_process x = true ↔
        map_has g.cell_process x = true ∨ ∃ r ∈ done, x ∈ g.index.children_of r) ∧
      s.1.existence_invariant ∧ ∀ r ∈ done, map_has s.1.cell_process r = true)
    l (g, nc, upd) acc ?_ ?_ h
  · exact ⟨rfl, ⟨rfl, rfl, rfl⟩, ⟨rfl, rfl, rfl, rfl⟩, rfl, rfl, by simp, hinv, by simp⟩
  · rintro done a ⟨s, snc, supd⟩ ⟨s', snc', supd'⟩ ⟨f1, f2, f3, f4, f5, f6, f7, f8⟩ _ hs
    simp only at f1 f2 f3 f4 f5 f6 f7 f8 ⊢
    have hix : s.index = g.index := congrArg (fun t => t.1) f1
    obtain ⟨e1, e2, e3, e4, e5⟩ := execute_refines_refine_frame s snc supd a s' snc' supd' hs
    obtain ⟨d1, d2, d3⟩ := execute_refines_refine_directory s (by rw [hix]; exact hfit) f7
      snc supd a s' snc' supd' hs
    refine ⟨e1.trans f1, ?_, ?_, e4.trans f4, e5.trans f5, ?_, d3, ?_⟩
    · exact ⟨e2.1.trans f2.1, e2.2.1.trans f2.2.1, e2.2.2.trans f2.2.2⟩
    · exact ⟨e3.1.trans f3.1, e3.2.1.trans f3.2.1, e3.2.2.1.trans f3.2.2.1,
        e3.2.2.2.trans f3.2.2.2⟩
    · intro x
      rw [d2, f6, hix]
      simp only [List.mem_append, List.mem_singleton]
      constructor
      · rintro ((h | ⟨r, hr, hx⟩) | h)
        · exact Or.inl h
        · exact Or.inr ⟨r, Or.inl hr, hx⟩
        · exact Or.inr ⟨a, Or.inr rfl, h⟩
      · rintro (h | ⟨r, hr | rfl, hx⟩)
        · exact Or.inl (Or.inl h)
        · exact Or.inl (Or.inr ⟨r, hr, hx⟩)
        · exact Or.inr hx
    · intro r hr
      rcases List.mem_append.1 hr with hr | hr
      · exact (d2 r).2 (Or.inl (f8 r hr))
      · simp only [List.mem_singleton] at hr
        subst hr
        exact (d2 r).2 (Or.inl d1)

theorem execute_refines_unrefine_eq (g : Dccrg UserData) (upd : uset) (u : Nat)
    (g' : Dccrg UserData) (upd' : uset)
    (h : execute_refines_unrefine (g, upd) u = some (g', upd')) :
    ∃ pp pu, map_find g.cell_process (g.get_parent u) = some pp ∧
      map_find g.cell_process u = some pu ∧
      (g.rank = pu ∧ g.rank = pp → ∃ data, map_find g.cells u = some data ∧
        g' = { g with
          cell_process := map_erase g.cell_process u
          pin_requests := g'.pin_requests
          new_pin_requests := g'.new_pin_requests
          cell_weights := g'.cell_weights
          unrefined_cell_data := map_set g.unrefined_cell_data u data
          cells := map_erase g.cells u }) ∧
      (g.rank = pu ∧ g.rank ≠ pp →
        g' = { g with
          cell_process := map_erase g.cell_process u
          pin_requests := g'.pin_requests
          new_pin_requests := g'.new_pin_requests
          cell_weights := g'.cell_weights
          cells_to_send := map_push g.cells_to_send pp u }) ∧
      (g.rank ≠ pu ∧ g.rank = pp →
        g' = { g with
          cell_process := map_erase g.cell_process u
          pin_requests := g'.pin_requests
          new_pin_requests := g'.new_pin_requests
          cell_weights := g'.cell_weights
          cells_to_receive := map_push g.cells_to_receive pu u }) ∧
      (g.rank ≠ pu ∧ g.rank ≠ pp →
        g' = { g with
          cell_process := map_erase g.cell_process u
          pin_requests := g'.pin_requests
          new_pin_requests := g'.new_pin_requests
          cell_weights := g'.cell_weights }) := by
  unfold execute_refines_unrefine at h
  simp only at h
  cases hpp : map_find g.cell_process (g.get_parent u) with
  | none => rw [hpp] at h; simp at h
  | some pp =>
    cases hpu : map_find g.cell_process u with
    | none => rw [hpp, hpu] at h; simp at h
    | some pu =>
      rw [hpp, hpu] at h
      simp only at h
      refine ⟨pp, pu, rfl, rfl, ?_⟩
      by_cases c1 : g.rank = pu
      · by_cases c2 : g.rank = pp
        · rw [if_pos ⟨c1, c2⟩] at h
          cases hd : map_find g.cells u with
          | none => rw [hd] at h; simp at h
          | some data =>
            rw [hd] at h
            simp only [Option.some.injEq, Prod.mk.injEq] at h
            obtain ⟨h1, _⟩ := h
            subst h1
            exact ⟨fun _ => ⟨data, rfl, rfl⟩, fun hn => absurd c2 hn.2,
              fun hn => absurd c1 hn.1, fun hn => absurd c1 hn.1⟩
        · rw [if_neg (fun hn => c2 hn.2), if_pos c1] at h
          simp only [Option.some.injEq, Prod.mk.injEq] at h
          obtain ⟨h1, _⟩ := h
          subst h1
          exact ⟨fun hn => absurd hn.2 c2, fun _ => rfl,
            fun hn => absurd c1 hn.1, fun hn => absurd c1 hn.1⟩
      · by_cases c2 : g.rank = pp
        · rw [if_neg (fun hn => c1 hn.1), if_neg c1, if_pos c2] at h
          simp only [Option.some.injEq, Prod.mk.injEq] at h
          obtain ⟨h1, _⟩ := h
          subst h1
          exact ⟨fun hn => absurd hn.1 c1, fun hn => absurd hn.1 c1, fun _ => rfl,
            fun hn => absurd c2 hn.2⟩
        · rw [if_neg (fun hn => c1 hn.1), if_neg c1, if_neg c2] at h
          simp only [Option.some.injEq, Prod.mk.injEq] at h
          obtain ⟨h1, _⟩ := h
          subst h1
          exact ⟨fun hn => absurd hn.1 c1, fun hn => absurd hn.1 c1,
            fun hn => absurd hn.2 c2, fun _ => rfl⟩

theorem execute_refines_unrefine_frame (g : Dccrg UserData) (upd : uset) (u : Nat)
    (g' : Dccrg UserData) (upd' : uset)
    (h : execute_refines_unrefine (g, upd) u = some (g', upd')) :
    g'.fixed = g.fixed ∧ g.same_requests g' ∧
    g'.cell_process = map_erase g.cell_process u ∧
    g'.refined_cell_data = g.refined_cell_data ∧
    g'.remote_neighbors = g.remote_neighbors ∧
    g'.incoming_data = g.incoming_data ∧ g'.outgoing_data = g.outgoing_data := by
  obtain ⟨pp, pu, _, _, h1, h2, h3, h4⟩ := execute_refines_unrefine_eq g upd u g' upd' h
  by_cases c1 : g.rank = pu
  · by_cases c2 : g.rank = pp
    · obtain ⟨data, _, e⟩ := h1 ⟨c1, c2⟩
      rw [e]
      exact ⟨rfl, ⟨rfl, rfl, rfl⟩, rfl, rfl, rfl, rfl, rfl⟩
    · rw [h2 ⟨c1, c2⟩]
      exact ⟨rfl, ⟨rfl, rfl, rfl⟩, rfl, rfl, rfl, rfl, rfl⟩
  · by_cases c2 : g.rank = pp
    · rw [h3 ⟨c1, c2⟩]
      exact ⟨rfl, ⟨rfl, rfl, rfl⟩, rfl, rfl, rfl, rfl, rfl⟩
    · rw [h4 ⟨c1, c2⟩]
      exact ⟨rfl, ⟨rfl, rfl, rfl⟩, rfl, rfl, rfl, rfl, rfl⟩

/-- The loop over `all_to_unrefine`: the unrefined cells leave the directory. -/
theorem unrefine_loop_directory (g : Dccrg UserData) (l : List Nat) (upd : uset)
    (acc : Dccrg UserData × uset)
    (h : l.foldlM execute_refines_unrefine (g, upd) = some acc) :
    acc.1.fixed = g.fixed ∧ g.same_requests acc.1 ∧
    acc.1.cell_process = l.foldl map_erase g.cell_process ∧
    acc.1.refined_cell_data = g.refined_cell_data ∧
    acc.1.remote_neighbors = g.remote_neighbors ∧
    acc.1.incoming_data = g.incoming_data ∧ acc.1.outgoing_data = g.outgoing_data := by
  refine foldlM_invariant execute_refines_unrefine
    (fun done (s : Dccrg UserData × uset) =>
      s.1.fixed = g.fixed ∧ g.same_requests s.1 ∧
      s.1.cell_process = done.foldl map_erase g.cell_process ∧
      s.1.refined_cell_data = g.refined_cell_data ∧
      s.1.remote_neighbors = g.remote_neighbors ∧
      s.1.incoming_data = g.incoming_data ∧ s.1.outgoing_data = g.outgoing_data)
    l (g, upd) acc ?_ ?_ h
  · exact ⟨rfl, ⟨rfl, rfl, rfl⟩, rfl, rfl, rfl, rfl, rfl⟩
  · rintro done a ⟨s, supd⟩ ⟨s', supd'⟩ ⟨f1, f2, f3, f4, f5, f6, f7⟩ _ hs
    simp only at f1 f2 f3 f4 f5 f6 f7 ⊢
    obtain ⟨e1, e2, e3, e4, e5, e6, e7⟩ := execute_refines_unrefine_frame s supd a s' supd' hs
    refine ⟨e1.trans f1, ⟨e2.1.trans f2.1, e2.2.1.trans f2.2.1, e2.2.2.trans f2.2.2⟩, ?_,
      e4.trans f4, e5.trans f5, e6.trans f6, e7.trans f7⟩
    rw [e3, f3, List.foldl_append]
    rfl

end Dccrg
end dccrg
namespace dccrg
open Index
namespace Dccrg
variable {UserData : Type}

theorem start_user_data_transfers_frame (g g' : Dccrg UserData)
    (h : g.start_user_data_transfers = some g') :
    g.same_directory g' ∧ g.same_stores g' ∧ g.same_requests g' := by
  unfold start_user_data_transfers at h
  simp only at h
  have e1 := foldl_preserves (fun (g : Dccrg UserData) sender =>
      if sender = g.rank then g
      else if ¬ map_has g.cells_to_receive sender then g
      else { g with
        incoming_data :=
          if map_has g.incoming_data sender then g.incoming_data
          else g.incoming_data ++ [(sender, [])] })
    (fun s : Dccrg UserData => (s.fixed, s.cell_process, s.cells, s.refined_cell_data,
      s.unrefined_cell_data, s.remote_neighbors, s.cells_to_refine, s.cells_to_unrefine,
      s.cells_not_to_unrefine)) (by intro s a; simp only; split_ifs <;> rfl)
    (List.range g.comm_size) g
  have e2 := foldlM_preserves _
    (fun s : Dccrg UserData => (s.fixed, s.cell_process, s.cells, s.refined_cell_data,
      s.unrefined_cell_data, s.remote_neighbors, s.cells_to_refine, s.cells_to_unrefine,
      s.cells_not_to_unrefine)) (by
      intro s a s' hs
      split_ifs at hs
      · simp only [Option.some.injEq] at hs; subst hs; rfl
      · split at hs
        · simp only [Option.some.injEq] at hs; subst hs; rfl
        · simp only [Option.map_eq_some'] at hs
          obtain ⟨d, _, hs⟩ := hs
          subst hs; rfl) _ _ _ h
  simp only at e1 e2
  rw [e1] at e2
  simp only [Prod.mk.injEq] at e2
  obtain ⟨a1, a2, a3, a4, a5, a6, a7, a8, a9⟩ := e2
  exact ⟨⟨a1, a2⟩, ⟨a3, a4, a5, a6⟩, ⟨a7, a8, a9⟩⟩

theorem execute_refines_parent_frame [Inhabited UserData] (g : Dccrg UserData) (upd : uset)
    (parent : Nat) (g' : Dccrg UserData) (upd' : uset)
    (h : execute_refines_parent (g, upd) parent = some (g', upd')) :
    g.same_directory g' ∧ g.same_requests g' ∧ g.same_transfers g' ∧
    g'.refined_cell_data = g.refined_cell_data ∧
    g'.unrefined_cell_data = g.unrefined_cell_data ∧
    g'.remote_neighbors = g.remote_neighbors := by
  unfold execute_refines_parent at h
  simp only [Option.bind_eq_some] at h
  obtain ⟨u1, _, u2, _, h⟩ := h
  split at h
  · cases h
  · split_ifs at h
    all_goals
      simp only [Option.some.injEq, Prod.mk.injEq] at h
      obtain ⟨h, _⟩ := h
      subst h
      exact ⟨⟨rfl, rfl⟩, ⟨rfl, rfl, rfl⟩, ⟨rfl, rfl, rfl, rfl⟩, rfl, rfl, rfl⟩

theorem parent_loop_frame [Inhabited UserData] (g : Dccrg UserData) (l : List Nat)
    (upd : uset) (acc : Dccrg UserData × uset)
    (h : l.foldlM execute_refines_parent (g, upd) = some acc) :
    g.same_directory acc.1 ∧ g.same_requests acc.1 ∧ g.same_transfers acc.1 ∧
    acc.1.refined_cell_data = g.refined_cell_data ∧
    acc.1.unrefined_cell_data = g.unrefined_cell_data ∧
    acc.1.remote_neighbors = g.remote_neighbors := by
  have e := foldlM_preserves execute_refines_parent
    (fun s : Dccrg UserData × uset => (s.1.fixed, s.1.cell_process, s.1.cells_to_refine,
      s.1.cells_to_unrefine, s.1.cells_not_to_unrefine, s.1.cells_to_send,
      s.1.cells_to_receive, s.1.incoming_data, s.1.outgoing_data, s.1.refined_cell_data,
      s.1.unrefined_cell_data, s.1.remote_neighbors)) (by
      rintro ⟨s, su⟩ a ⟨s', su'⟩ hs
      obtain ⟨⟨a1, a2⟩, ⟨a3, a4, a5⟩, ⟨a6, a7, a8, a9⟩, a10, a11, a12⟩ :=
        execute_refines_parent_frame s su a s' su' hs
      simp only [a1, a2, a3, a4, a5, a6, a7, a8, a9, a10, a11, a12]) _ _ _ h
  simp only [Prod.mk.injEq] at e
  obtain ⟨a1, a2, a3, a4, a5, a6, a7, a8, a9, a10, a11, a12⟩ := e
  exact ⟨⟨a1, a2⟩, ⟨a3, a4, a5⟩, ⟨a6, a7, a8, a9⟩, a10, a11, a12⟩

theorem update_neighbors_loop_frame (g g' : Dccrg UserData) (l : List Nat)
    (h : l.foldlM update_neighbors g = some g') : g'.relevant = g.relevant :=
  foldlM_preserves update_neighbors relevant
    (fun s a s' hs => update_neighbors_frame s s' a hs) l g g' h

theorem recalculate_frame (g g' : Dccrg UserData)
    (h : g.recalculate_neighbor_update_send_receive_lists = some g') :
    g.same_directory g' ∧ g.same_stores g' ∧ g.same_requests g' := by
  unfold recalculate_neighbor_update_send_receive_lists at h
  simp only [Option.map_eq_some'] at h
  obtain ⟨acc, _, h⟩ := h
  subst h
  exact ⟨⟨rfl, rfl⟩, ⟨rfl, rfl, rfl, rfl⟩, ⟨rfl, rfl, rfl⟩⟩

theorem wait_user_data_transfer_receives_frame (g g' : Dccrg UserData)
    (h : g.wait_user_data_transfer_receives = some g') :
    g.same_directory g' ∧ g.same_requests g' ∧ g'.cells = g.cells ∧
    g'.refined_cell_data = g.refined_cell_data ∧
    g'.remote_neighbors = g.remote_neighbors := by
  unfold wait_user_data_transfer_receives at h
  simp only [Option.map_eq_some'] at h
  obtain ⟨g1, h1, h2⟩ := h
  have e := foldlM_preserves _
    (fun s : Dccrg UserData => (s.fixed, s.cell_process, s.cells_to_refine,
      s.cells_to_unrefine, s.cells_not_to_unrefine, s.cells, s.refined_cell_data,
      s.remote_neighbors)) (by
      intro s a s' hs
      split at hs
      · cases hs
      · split_ifs at hs
        simp only [Option.some.injEq] at hs; subst hs; rfl) _ _ _ h1
  subst h2
  simp only [Prod.mk.injEq] at e
  obtain ⟨a1, a2, a3, a4, a5, a6, a7, a8⟩ := e
  exact ⟨⟨a1, a2⟩, ⟨a3, a4, a5⟩, a6, a7, a8⟩

end Dccrg
end dccrg
namespace dccrg
open Index
namespace Dccrg
variable {UserData : Type}

theorem mem_collect_unrefines (g : Dccrg UserData) (s : Nat) :
    s ∈ g.collect_unrefines.2 ↔
      ∃ u ∈ g.cells_to_unrefine, s ∈ g.get_all_children (g.get_parent u) := by
  unfold collect_unrefines
  have key : ∀ (l : List Nat) (acc : uset × uset),
      s ∈ (l.foldl (fun (acc : uset × uset) unrefined =>
        (set_insert acc.1 (g.get_parent unrefined),
         set_insert_range acc.2 (g.get_all_children (g.get_parent unrefined)))) acc).2 ↔
      s ∈ acc.2 ∨ ∃ u ∈ l, s ∈ g.get_all_children (g.get_parent u) := by
    intro l
    induction l with
    | nil => intro acc; simp
    | cons a t ih =>
      intro acc
      rw [List.foldl_cons, ih]
      simp only [mem_set_insert_range, List.mem_cons, exists_eq_or_imp]
      tauto
  rw [key]
  simp

theorem mem_collect_parents (g : Dccrg UserData) (s : Nat) :
    s ∈ g.collect_unrefines.1 ↔ ∃ u ∈ g.cells_to_unrefine, s = g.get_parent u := by
  unfold collect_unrefines
  have key : ∀ (l : List Nat) (acc : uset × uset),
      s ∈ (l.foldl (fun (acc : uset × uset) unrefined =>
        (set_insert acc.1 (g.get_parent unrefined),
         set_insert_range acc.2 (g.get_all_children (g.get_parent unrefined)))) acc).1 ↔
      s ∈ acc.1 ∨ ∃ u ∈ l, s = g.get_parent u := by
    intro l
    induction l with
    | nil => intro acc; simp
    | cons a t ih =>
      intro acc
      rw [List.foldl_cons, ih]
      simp only [mem_set_insert, List.mem_cons, exists_eq_or_imp]
      tauto
  rw [key]
  simp

/-- The directory after the part of `execute_refines` before the wait for the
transfers: the directory after the loop over the refines, without the cells of
`all_to_unrefine`. -/
theorem before_wait_directory [Inhabited UserData] (g : Dccrg UserData)
    (hfit : g.index.ids_fit) (hinv : g.existence_invariant)
    (res : Dccrg UserData × List Nat × uset)
    (h : g.execute_refines_before_wait = some res) :
    ∃ g1 : Dccrg UserData,
      g1.fixed = g.fixed ∧ g1.cells_to_unrefine = g.cells_to_unrefine ∧
      (∀ x, map_has g1.cell_process x = true ↔
        map_has g.cell_process x = true ∨ ∃ r ∈ g.cells_to_refine, x ∈ g.index.children_of r) ∧
      g1.existence_invariant ∧
      (∀ r ∈ g.cells_to_refine, map_has g1.cell_process r = true) ∧
      res.2.2 = g1.collect_unrefines.2 ∧
      res.1.cell_process = res.2.2.foldl map_erase g1.cell_process ∧
      res.1.fixed = g.fixed ∧ g.same_requests res.1 := by
  unfold execute_refines_before_wait at h
  simp only [Option.bind_eq_some, Option.map_eq_some'] at h
  obtain ⟨acc1, h1, acc2, h2, g3, h3, acc4, h4, g5, h5, g6, h6, g7, h7, hres⟩ := h
  subst hres
  have hclear : g.execute_refines_clear.fixed = g.fixed ∧
      g.execute_refines_clear.cell_process = g.cell_process ∧
      g.same_requests g.execute_refines_clear := ⟨rfl, rfl, rfl, rfl, rfl⟩
  have hix : g.execute_refines_clear.index = g.index := rfl
  obtain ⟨a1, a2, _, _, _, a6, a7, a8⟩ := refine_loop_directory g.execute_refines_clear
    (by rw [hix]; exact hfit) hinv _ _ _ _ h1
  obtain ⟨b1, b2, b3, _⟩ := unrefine_loop_directory _ _ _ _ h2
  obtain ⟨⟨c1, c2⟩, _, c3⟩ := start_user_data_transfers_frame _ _ h3
  obtain ⟨⟨d1, d2⟩, d3, _⟩ := parent_loop_frame _ _ _ _ h4
  obtain ⟨⟨e1, e2⟩, _, e3, _⟩ := same_all_of_relevant (update_neighbors_loop_frame _ _ _ h5)
  obtain ⟨⟨f1, f2⟩, _, f3, _⟩ := same_all_of_relevant (remove_neighbor_lists_frame _ _ _ h6)
  obtain ⟨⟨k1, k2⟩, _, k3, _⟩ :=
    same_all_of_relevant (update_remote_neighbor_info_frame _ _ h7)
  refine ⟨acc1.1, a1, a2.2.1, a6, a7, a8, rfl, ?_, ?_, ?_⟩
  · simp only
    rw [k2, f2, e2, d2, c2, b3]
  · simp only
    rw [k1, f1, e1, d1, c1, b1, a1]
    rfl
  · simp only
    exact ⟨k3.1.trans (f3.1.trans (e3.1.trans (d3.1.trans (c3.1.trans (b2.1.trans a2.1))))),
      k3.2.1.trans (f3.2.1.trans (e3.2.1.trans (d3.2.1.trans (c3.2.1.trans
        (b2.2.1.trans a2.2.1))))),
      k3.2.2.trans (f3.2.2.trans (e3.2.2.trans (d3.2.2.trans (c3.2.2.trans
        (b2.2.2.trans a2.2.2)))))⟩

/-- The part of `execute_refines` after the wait for the transfers keeps the
directory and clears the refines and unrefines. -/
theorem after_wait_directory (g g' : Dccrg UserData) (atu : uset)
    (h : g.execute_refines_after_wait atu = some g') :
    g.same_directory g' ∧ g'.cells_to_refine = [] ∧ g'.cells_to_unrefine = [] ∧
    g'.cells_not_to_unrefine = g.cells_not_to_unrefine := by
  unfold execute_refines_after_wait at h
  simp only [Option.bind_eq_some] at h
  obtain ⟨g1, h1, h2⟩ := h
  obtain ⟨⟨a1, a2⟩, a3, _⟩ := wait_user_data_transfer_receives_frame _ _ h1
  obtain ⟨⟨b1, b2⟩, _, b3⟩ := recalculate_frame _ _ h2
  exact ⟨⟨b1.trans a1, b2.trans a2⟩, b3.1, b3.2.1, b3.2.2.trans a3.2.2⟩

end Dccrg
end dccrg
namespace dccrg
open Index
namespace Dccrg
variable {UserData : Type}

/-- Removing complete groups of siblings that are leaves keeps the existence
invariant. -/
theorem unrefine_keeps_invariant (g1 g' : Dccrg UserData) (hfit : g1.index.ids_fit)
    (hinv : g1.existence_invariant) (atu CU : List Nat)
    (hatu : ∀ x, x ∈ atu ↔
      ∃ u ∈ CU, x ∈ g1.index.children_of (g1.index.get_parent_for_removed u))
    (hCU : ∀ u ∈ CU, map_has g1.cell_process u = true ∧
      g1.index.get_refinement_level u ≠ 0 ∧
      ∀ s ∈ g1.index.children_of (g1.index.get_parent_for_removed u),
        ∀ x ∈ g1.index.children_of s, map_has g1.cell_process x = false)
    (hix : g'.index = g1.index)
    (hdir : ∀ x, map_has g'.cell_process x = true ↔
      map_has g1.cell_process x = true ∧ x ∉ atu) :
    g'.existence_invariant := by
  have hpar : ∀ u ∈ CU, 1 ≤ g1.index.get_parent_for_removed u ∧
      g1.index.get_parent_for_removed u ≤ g1.index.last_cell := by
    intro u hu
    obtain ⟨a, b, _⟩ := hCU u hu
    obtain ⟨v1, v2⟩ := hinv.1 u ((mem_map_keys _ _).2 a)
    have := mem_children_of_parent hfit v1 v2 b
    exact ⟨this.2.2.1, this.2.2.2⟩
  refine ⟨?_, ?_, ?_⟩
  · intro x hx
    rw [mem_map_keys, hdir] at hx
    rw [hix]
    exact hinv.1 x ((mem_map_keys _ _).2 hx.1)
  · intro c hc1 hc2
    rw [hix] at hc1
    rw [hdir]
    have hc := hinv.2.1 c hc1 hc2
    refine ⟨hc, ?_⟩
    intro hn
    obtain ⟨u, hu, hx⟩ := (hatu c).1 hn
    obtain ⟨p1, p2⟩ := hpar u hu
    have f := children_of_facts hfit p1 p2 hx
    obtain ⟨v1, v2⟩ := hinv.1 c ((mem_map_keys _ _).2 hc)
    have l0 := (level_zero_iff hfit v1 v2).2 hc1
    have := (level_of_valid hfit p1 p2).1
    omega
  · intro x hx hl
    rw [mem_map_keys, hdir] at hx
    rw [hix] at hl ⊢
    obtain ⟨hx1, hx2⟩ := hx
    obtain ⟨v1, v2⟩ := hinv.1 x ((mem_map_keys _ _).2 hx1)
    obtain ⟨a, b⟩ := hinv.2.2 x ((mem_map_keys _ _).2 hx1) hl
    have hmem := (mem_children_of_parent hfit v1 v2 hl).1
    refine ⟨(hdir _).2 ⟨a, ?_⟩, ?_⟩
    · intro hn
      obtain ⟨u, hu, hP⟩ := (hatu _).1 hn
      have := (hCU u hu).2.2 _ hP x hmem
      rw [hx1] at this
      exact Bool.noConfusion this
    · intro t ht
      refine (hdir _).2 ⟨b t ht, ?_⟩
      intro hn
      obtain ⟨u, hu, hP⟩ := (hatu _).1 hn
      obtain ⟨p1, p2⟩ := hpar u hu
      obtain ⟨q1, q2⟩ := hinv.1 _ ((mem_map_keys _ _).2 a)
      have e := children_of_parent_unique hfit q1 q2 p1 p2 ht hP
      rw [e] at hmem
      exact hx2 ((hatu x).2 ⟨u, hu, hmem⟩)

/-- The directory of a process after `execute_refines`, when every unrefined cell
is a cell of the directory above level 0 whose siblings are leaves that are not
refined: the children of the refined cells have joined, the siblings of the
unrefined cells have left, and the existence invariant holds. -/
theorem rank_directory [Inhabited UserData] (g : Dccrg UserData) (hfit : g.index.ids_fit)
    (hinv : g.existence_invariant)
    (hCU : ∀ u ∈ g.cells_to_unrefine, map_has g.cell_process u = true ∧
      g.index.get_refinement_level u ≠ 0 ∧
      ∀ s ∈ g.index.children_of (g.index.get_parent_for_removed u),
        (∀ x ∈ g.index.children_of s, map_has g.cell_process x = false) ∧
        s ∉ g.cells_to_refine)
    (b : Dccrg UserData × List Nat × uset) (hb : g.execute_refines_before_wait = some b)
    (incoming : umap (List UserData)) (g' : Dccrg UserData)
    (ha : ({ b.1 with incoming_data := incoming }).execute_refines_after_wait b.2.2
      = some g') :
    g'.fixed = g.fixed ∧ g'.cells_to_refine = [] ∧ g'.cells_to_unrefine = [] ∧
    g'.cells_not_to_unrefine = g.cells_not_to_unrefine ∧ g'.existence_invariant ∧
    (∀ r ∈ g.cells_to_refine, map_has g.cell_process r = true ∨
      ∃ r' ∈ g.cells_to_refine, r ∈ g.index.children_of r') ∧
    (∀ x, x ∈ b.2.2 ↔ ∃ u ∈ g.cells_to_unrefine,
        x ∈ g.index.children_of (g.index.get_parent_for_removed u)) ∧
    ∀ x, map_has g'.cell_process x = true ↔
      (map_has g.cell_process x = true ∨
        ∃ r ∈ g.cells_to_refine, x ∈ g.index.children_of r) ∧
      ¬ ∃ u ∈ g.cells_to_unrefine,
        x ∈ g.index.children_of (g.index.get_parent_for_removed u) := by
  obtain ⟨g1, a1, a2, a3, a4, a5, a6, a7, a8, a9⟩ := before_wait_directory g hfit hinv b hb
  obtain ⟨⟨c1, c2⟩, c3, c4, c5⟩ := after_wait_directory _ _ _ ha
  have hix1 : g1.index = g.index := congrArg (fun t => t.1) a1
  have hfit1 : g1.index.ids_fit := by rw [hix1]; exact hfit
  have hfix : g'.fixed = g.fixed := c1.trans a8
  have hix : g'.index = g1.index := by
    rw [hix1]; exact congrArg (fun t => t.1) hfix
  have hu1 : ∀ u ∈ g.cells_to_unrefine, map_has g1.cell_process u = true :=
    fun u hu => (a3 u).2 (Or.inl (hCU u hu).1)
  have hatu : ∀ x, x ∈ b.2.2 ↔
      ∃ u ∈ g.cells_to_unrefine,
        x ∈ g1.index.children_of (g1.index.get_parent_for_removed u) := by
    intro x
    rw [a6, mem_collect_unrefines, a2]
    constructor
    · rintro ⟨u, hu, hx⟩
      obtain ⟨e1, e2⟩ := get_parent_eq g1 hfit1 a4 (hu1 u hu)
      rw [e1] at hx
      obtain ⟨v1, _⟩ := a4.1 _ ((mem_map_keys _ _).2 e2)
      rw [get_all_children_of_has g1 (by omega) e2] at hx
      exact ⟨u, hu, hx⟩
    · rintro ⟨u, hu, hx⟩
      obtain ⟨e1, e2⟩ := get_parent_eq g1 hfit1 a4 (hu1 u hu)
      obtain ⟨v1, _⟩ := a4.1 _ ((mem_map_keys _ _).2 e2)
      refine ⟨u, hu, ?_⟩
      rw [e1, get_all_children_of_has g1 (by omega) e2]
      exact hx
  have hdir : ∀ x, map_has g'.cell_process x = true ↔
      map_has g1.cell_process x = true ∧ x ∉ b.2.2 := by
    intro x
    rw [c2]
    simp only
    rw [a7, map_has_foldl_erase]
    simp only [Bool.and_eq_true, Bool.not_eq_true', decide_eq_false_iff_not]
    exact and_comm
  have hCU1 : ∀ u ∈ g.cells_to_unrefine, map_has g1.cell_process u = true ∧
      g1.index.get_refinement_level u ≠ 0 ∧
      ∀ s ∈ g1.index.children_of (g1.index.get_parent_for_removed u),
        ∀ x ∈ g1.index.children_of s, map_has g1.cell_process x = false := by
    intro u hu
    obtain ⟨h1, h2, h3⟩ := hCU u hu
    rw [hix1]
    refine ⟨hu1 u hu, h2, ?_⟩
    intro s hs x hx
    by_contra hn
    have hx1 : map_has g1.cell_process x = true := by simpa using hn
    rcases (a3 x).1 hx1 with h | ⟨r, hr, hxr⟩
    · rw [(h3 s hs).1 x hx] at h
      exact Bool.noConfusion h
    · obtain ⟨v1, v2⟩ := a4.1 r ((mem_map_keys _ _).2 (a5 r hr))
      obtain ⟨w1, w2⟩ := hinv.1 u ((mem_map_keys _ _).2 h1)
      have hp := mem_children_of_parent hfit w1 w2 h2
      have hsv := children_of_facts hfit hp.2.2.1 hp.2.2.2 hs
      rw [hix1] at v2
      have := children_of_parent_unique hfit hsv.2.2.1 hsv.2.2.2.1 v1 v2 hx hxr
      subst this
      exact (h3 s hs).2 hr
  have hinv' := unrefine_keeps_invariant g1 g' hfit1 a4 b.2.2 g.cells_to_unrefine hatu hCU1
    hix hdir
  refine ⟨hfix, c3, c4, ?_, hinv', ?_, ?_, ?_⟩
  · rw [c5]; exact a9.2.2
  · intro r hr
    exact (a3 r).1 (a5 r hr)
  · intro x
    rw [hatu, hix1]
  · intro x
    rw [hdir, a3, hatu, hix1]

end Dccrg
end dccrg
namespace dccrg
open Index
namespace Dccrg
variable {UserData : Type}

theorem mem_erase_unrefines {s : uset} {l : List Nat} {x : Nat}
    (h : x ∈ erase_unrefines s l) : x ∈ s := by
  unfold erase_unrefines at h
  induction l generalizing s with
  | nil => exact h
  | cons a t ih =>
    rw [List.foldl_cons] at h
    exact ((mem_set_erase _ _ _).1 (ih h)).1

theorem mem_override_neighbor_unrefines (g : Dccrg UserData) (lvl : Int) (l : List Nat)
    {s : uset} {x : Nat} (h : x ∈ g.override_neighbor_unrefines lvl l s) : x ∈ s := by
  unfold override_neighbor_unrefines at h
  induction l generalizing s with
  | nil => exact h
  | cons a t ih =>
    rw [List.foldl_cons] at h
    have := ih h
    split_ifs at this
    · exact mem_erase_unrefines this
    · exact this

theorem dont_unrefine_spec (g : Dccrg UserData) (cell : Nat) :
    g.same_but_requests (g.dont_unrefine cell) ∧
    (g.dont_unrefine cell).cells_to_refine = g.cells_to_refine ∧
    ∀ x ∈ (g.dont_unrefine cell).cells_to_unrefine, x ∈ g.cells_to_unrefine := by
  unfold dont_unrefine same_but_requests
  simp only
  split_ifs
  all_goals first
    | exact ⟨rfl, rfl, fun x hx => hx⟩
    | exact ⟨rfl, rfl, fun x hx => mem_erase_unrefines hx⟩

theorem unrefine_completely_spec (g : Dccrg UserData) (cell : Nat) :
    g.same_but_requests (g.unrefine_completely cell) ∧
    (g.unrefine_completely cell).cells_to_refine = g.cells_to_refine ∧
    ∀ x ∈ (g.unrefine_completely cell).cells_to_unrefine, x ∈ g.cells_to_unrefine ∨
      (x = cell ∧ map_has g.cell_process cell = true ∧
        g.index.get_refinement_level cell ≠ 0 ∧
        ∀ s ∈ g.get_all_children (g.get_parent cell), s = g.get_child s) := by
  unfold unrefine_completely same_but_requests
  simp only
  split_ifs with c1 c2 c3 c4 c5 c6 c7
  all_goals first
    | exact ⟨rfl, rfl, fun x hx => Or.inl hx⟩
    | skip
  refine ⟨rfl, rfl, ?_⟩
  intro x hx
  rcases (mem_set_insert _ _ _).1 hx with hx | hx
  · exact Or.inl hx
  · refine Or.inr ⟨hx, by simpa using c2, c4, ?_⟩
    intro s hs
    by_contra hn
    apply c5
    rw [List.any_eq_true]
    exact ⟨s, hs, by simp [hn]⟩

theorem refine_completely_spec (g g' : Dccrg UserData) (cell : Nat)
    (h : g.refine_completely cell = some g') :
    g.same_but_requests g' ∧
    (∀ x ∈ g'.cells_to_unrefine, x ∈ g.cells_to_unrefine) ∧
    (∀ x ∈ g.cells_to_refine, x ∈ g'.cells_to_refine) ∧
    ∀ x ∈ g'.cells_to_refine, x ∈ g.cells_to_refine ∨
      (x = cell ∧ map_has g.cell_process cell = true ∧ map_has g.cells cell = true ∧
        cell = g.get_child cell ∧
        g.index.get_refinement_level cell < g.index.max_refinement_level) := by
  unfold refine_completely at h
  unfold same_but_requests
  simp only at h
  split_ifs at h with c1 c2 c3 c4 c5 c6
  all_goals first
    | (simp only [Option.some.injEq] at h; subst h
       exact ⟨rfl, fun x hx => hx, fun x hx => hx, fun x hx => Or.inl hx⟩)
    | skip
  · simp only [Option.some.injEq] at h; subst h
    obtain ⟨a, b, c⟩ := dont_unrefine_spec g cell
    unfold same_but_requests at a
    exact ⟨a, c, fun x hx => by rw [b]; exact hx, fun x hx => Or.inl (by rw [b] at hx; exact hx)⟩
  · split at h
    · simp only [Option.some.injEq] at h; subst h
      refine ⟨rfl, ?_, ?_, ?_⟩
      · intro x hx
        exact mem_erase_unrefines (mem_override_neighbor_unrefines _ _ _
          (mem_override_neighbor_unrefines _ _ _ hx))
      · intro x hx
        exact (mem_set_insert _ _ _).2 (Or.inl hx)
      · intro x hx
        rcases (mem_set_insert _ _ _).1 hx with hx | hx
        · exact Or.inl hx
        · refine Or.inr ⟨hx, by simpa using c2, by simpa using c3, by simpa using c5, ?_⟩
          omega
    · cases h

end Dccrg
end dccrg
namespace dccrg
open Index

theorem forall₂_set {α : Type} {R : α → α → Prop} :
    ∀ (w w1 : List α) (i : Nat) (g1 g2 : α), List.Forall₂ R w w1 → w1[i]? = some g1 →
      (∀ g, R g g1 → R g g2) → List.Forall₂ R w (w1.set i g2) := by
  intro w w1 i g1 g2 h
  induction h generalizing i with
  | nil => intro h1 _; simp at h1
  | cons hab _ ih =>
    intro h1 h2
    cases i with
    | zero =>
      simp only [List.getElem?_cons_zero, Option.some.injEq] at h1
      subst h1
      exact List.Forall₂.cons (h2 _ hab) (by assumption)
    | succ n =>
      simp only [List.getElem?_cons_succ] at h1
      exact List.Forall₂.cons hab (ih n h1 h2)

theorem forall₂_refl {α : Type} {R : α → α → Prop} (h : ∀ a, R a a) :
    ∀ w : List α, List.Forall₂ R w w := by
  intro w
  induction w with
  | nil => exact List.Forall₂.nil
  | cons a t ih => exact List.Forall₂.cons (h a) ih

namespace Dccrg
variable {UserData : Type}

theorem same_but_requests_fields {g g' : Dccrg UserData} (h : g.same_but_requests g') :
    g'.fixed = g.fixed ∧ g'.cell_process = g.cell_process ∧ g.same_stores g' ∧
    g.same_transfers g' ∧ g'.neighbor_data = g.neighbor_data := by
  unfold same_but_requests at h
  have e1 := congrArg fixed h
  have e2 := congrArg Dccrg.cell_process h
  have e3 := congrArg Dccrg.cells h
  have e4 := congrArg Dccrg.refined_cell_data h
  have e5 := congrArg Dccrg.unrefined_cell_data h
  have e6 := congrArg Dccrg.remote_neighbors h
  have e7 := congrArg Dccrg.cells_to_send h
  have e8 := congrArg Dccrg.cells_to_receive h
  have e9 := congrArg Dccrg.incoming_data h
  have e10 := congrArg Dccrg.outgoing_data h
  have e11 := congrArg neighbor_data h
  exact ⟨e1, e2, ⟨e3, e4, e5, e6⟩, ⟨e7, e8, e9, e10⟩, e11⟩

theorem same_but_requests_trans {g g' g'' : Dccrg UserData} (h : g.same_but_requests g')
    (h' : g'.same_but_requests g'') : g.same_but_requests g'' := by
  unfold same_but_requests at *
  exact h'.trans h

theorem unrefines_checked_congr {g g' : Dccrg UserData} (hi : g'.index = g.index)
    (hd : g'.cell_process = g.cell_process)
    (hs : ∀ u ∈ g'.cells_to_unrefine, u ∈ g.cells_to_unrefine ∨
      (map_has g.cell_process u = true ∧ g.index.get_refinement_level u ≠ 0 ∧
        ∀ s ∈ g.get_all_children (g.get_parent u), s = g.get_child s))
    (h : g.unrefines_checked) : g'.unrefines_checked := by
  intro u hu
  have hd' : ∀ c, map_has g'.cell_process c = map_has g.cell_process c := by
    intro c; rw [hd]
  rw [get_parent_congr g g' hi hd', get_all_children_congr g g' hi hd', hi, hd]
  rcases hs u hu with hs | hs
  · obtain ⟨a, b, c⟩ := h u hs
    exact ⟨a, b, fun s hs' => by rw [get_child_congr g g' hi hd']; exact c s hs'⟩
  · obtain ⟨a, b, c⟩ := hs
    exact ⟨a, b, fun s hs' => by rw [get_child_congr g g' hi hd']; exact c s hs'⟩

theorem refines_checked_congr {g g' : Dccrg UserData} (hi : g'.index = g.index)
    (hd : g'.cell_process = g.cell_process) (hc : g'.cells = g.cells)
    (hs : ∀ c ∈ g'.cells_to_refine, c ∈ g.cells_to_refine ∨
      (map_has g.cell_process c = true ∧ map_has g.cells c = true ∧ c = g.get_child c ∧
        g.index.get_refinement_level c < g.index.max_refinement_level))
    (h : g.refines_checked) : g'.refines_checked := by
  intro c hc'
  have hd' : ∀ c, map_has g'.cell_process c = map_has g.cell_process c := by
    intro c; rw [hd]
  rw [get_child_congr g g' hi hd', hi, hd, hc]
  rcases hs c hc' with hs | hs
  · exact h c hs
  · exact hs

/-- A request changes nothing but the pending requests, and the cells it adds to
them have passed the checks of `unrefine_completely` or `refine_completely`. -/
theorem request_apply_spec (r : Request) (g g' : Dccrg UserData)
    (h : r.apply g = some g') :
    g.same_but_requests g' ∧ (g.unrefines_checked → g'.unrefines_checked) ∧
    (g.refines_checked → g'.refines_checked) := by
  cases r with
  | refine_completely cell =>
    obtain ⟨a, b, _, d⟩ := refine_completely_spec g g' cell h
    obtain ⟨f1, f2, f3, _⟩ := same_but_requests_fields a
    have hi : g'.index = g.index := congrArg (fun t => t.1) f1
    refine ⟨a, unrefines_checked_congr hi f2 (fun u hu => Or.inl (b u hu)),
      refines_checked_congr hi f2 f3.1 ?_⟩
    intro c hc
    rcases d c hc with h | ⟨rfl, h⟩
    · exact Or.inl h
    · exact Or.inr h
  | unrefine_completely cell =>
    simp only [Request.apply, Option.some.injEq] at h
    subst h
    obtain ⟨a, b, d⟩ := unrefine_completely_spec g cell
    obtain ⟨f1, f2, f3, _⟩ := same_but_requests_fields a
    have hi : (g.unrefine_completely cell).index = g.index := congrArg (fun t => t.1) f1
    refine ⟨a, unrefines_checked_congr hi f2 ?_,
      refines_checked_congr hi f2 f3.1 (fun c hc => Or.inl (by rw [b] at hc; exact hc))⟩
    intro u hu
    rcases d u hu with h | ⟨rfl, h⟩
    · exact Or.inl h
    · exact Or.inr h
  | dont_unrefine cell =>
    simp only [Request.apply, Option.some.injEq] at h
    subst h
    obtain ⟨a, b, d⟩ := dont_unrefine_spec g cell
    obtain ⟨f1, f2, f3, _⟩ := same_but_requests_fields a
    have hi : (g.dont_unrefine cell).index = g.index := congrArg (fun t => t.1) f1
    exact ⟨a, unrefines_checked_congr hi f2 (fun u hu => Or.inl (d u hu)),
      refines_checked_congr hi f2 f3.1 (fun c hc => Or.inl (by rw [b] at hc; exact hc))⟩

end Dccrg

open Dccrg
variable {UserData : Type}

/-- The requests made between two calls of `stop_refining` change nothing but the
pending requests of the processes. -/
theorem make_requests_spec (requests : List (Nat × Request)) :
    ∀ (w w' : World UserData), make_requests w requests = some w' →
      List.Forall₂ (fun g g' => g.same_but_requests g' ∧
        (g.unrefines_checked → g'.unrefines_checked) ∧
        (g.refines_checked → g'.refines_checked)) w w' := by
  have key : ∀ (w0 w w' : World UserData),
      List.Forall₂ (fun g g' => g.same_but_requests g' ∧
        (g.unrefines_checked → g'.unrefines_checked) ∧
        (g.refines_checked → g'.refines_checked)) w0 w →
      make_requests w requests = some w' →
      List.Forall₂ (fun g g' => g.same_but_requests g' ∧
        (g.unrefines_checked → g'.unrefines_checked) ∧
        (g.refines_checked → g'.refines_checked)) w0 w' := by
    unfold make_requests
    induction requests with
    | nil =>
      intro w0 w w' h0 h
      simp only [List.foldlM_nil, Option.pure_def, Option.some.injEq] at h
      subst h; exact h0
    | cons r t ih =>
      intro w0 w w' h0 h
      rw [List.foldlM_cons] at h
      simp only [Option.bind_eq_bind, Option.bind_eq_some] at h
      obtain ⟨w1, h1, h2⟩ := h
      refine ih w0 w1 w' ?_ h2
      cases hg : w[r.1]? with
      | none => rw [hg] at h1; simp at h1
      | some g =>
        rw [hg] at h1
        simp only [Option.map_eq_some'] at h1
        obtain ⟨g', hg', rfl⟩ := h1
        obtain ⟨a, b, c⟩ := request_apply_spec r.2 g g' hg'
        refine forall₂_set w0 w r.1 g g' h0 hg ?_
        intro g0 ⟨a0, b0, c0⟩
        exact ⟨same_but_requests_trans a0 a, fun h => b (b0 h), fun h => c (c0 h)⟩
  intro w w' h
  exact key w w w' (forall₂_refl (fun g => ⟨rfl, id, id⟩) w) h

end dccrg
namespace dccrg
open Index
namespace Dccrg
variable {UserData : Type}

theorem get_existing_cell_loop_congr {V : Type} (g : Dccrg UserData) (g' : Dccrg V)
    (hi : g'.index = g.index) (hd : g'.cell_process = g.cell_process) (indices : indices_t) :
    ∀ (fuel : Nat) (lo hi : Int),
      g'.get_existing_cell_loop indices fuel lo hi
        = g.get_existing_cell_loop indices fuel lo hi := by
  intro fuel
  induction fuel with
  | zero => intro lo hi; rfl
  | succ n ih =>
    intro lo hi'
    unfold get_existing_cell_loop
    simp only [hi, hd, ih]

theorem find_neighbors_of_congr {V : Type} (g : Dccrg UserData) (g' : Dccrg V)
    (hf : g'.fixed = g.fixed) (hd : g'.cell_process = g.cell_process) (c : Nat) (m : Int)
    (b : Bool) : g'.find_neighbors_of c m b = g.find_neighbors_of c m b := by
  unfold fixed at hf
  simp only [Prod.mk.injEq] at hf
  obtain ⟨h1, h2, h3, h4, h5, h6, h7⟩ := hf
  have hd' : ∀ c, map_has g'.cell_process c = map_has g.cell_process c := by
    intro c; rw [hd]
  have hgc := get_child_congr g g' h1 hd'
  have hex : ∀ idx lo hi, g'.get_existing_cell idx lo hi = g.get_existing_cell idx lo hi := by
    intro idx lo hi
    unfold get_existing_cell
    exact get_existing_cell_loop_congr g g' h1 hd idx _ lo hi
  have hfc : ∀ a b lo hi, g'.find_cells a b lo hi = g.find_cells a b lo hi := by
    intro a b lo hi
    unfold find_cells
    simp only [h1, hex, hgc]
  have hifn : ∀ idx sz nb, g'.indices_from_neighborhood idx sz nb
      = g.indices_from_neighborhood idx sz nb := by
    intro idx sz nb
    unfold indices_from_neighborhood
    simp only [h1, h4]
  have hat : ∀ l sz md idx, g'.find_neighbors_of_at l sz md idx
      = g.find_neighbors_of_at l sz md idx := by
    intro l sz md idx
    unfold find_neighbors_of_at
    simp only [h1, hex, hfc]
  have hat' : ∀ l sz md, g'.find_neighbors_of_at l sz md = g.find_neighbors_of_at l sz md :=
    fun l sz md => funext (hat l sz md)
  unfold find_neighbors_of
  simp only [h1, hd, hgc, hifn, h6, hat']

end Dccrg
end dccrg
namespace dccrg
open Index
namespace Dccrg
variable {UserData : Type}

/-- A cell that `induce_refines` may add on process `g`: a cell below the maximum
refinement level that is in the directory or in `cells_with_remote_neighbors`. -/
theorem induce_local_spec (g : Dccrg UserData) (h0 : 0 ≤ g.index.max_refinement_level)
    (refined : Nat) (list : List Nat) (acc out : uset)
    (h : g.induce_local refined list acc = some out) :
    ∀ c ∈ out, c ∈ acc ∨
      (g.index.get_refinement_level c < g.index.max_refinement_level ∧
        map_find g.cell_process c = some g.rank) := by
  unfold induce_local at h
  refine foldlM_invariant _ (fun _ (s : uset) => ∀ c ∈ s, c ∈ acc ∨
      (g.index.get_refinement_level c < g.index.max_refinement_level ∧
        map_find g.cell_process c = some g.rank)) list acc out (fun c hc => Or.inl hc) ?_ h
  intro done a s s' hs _ hstep
  simp only at hstep
  by_cases c1 : a = 0
  · rw [if_pos c1] at hstep
    simp only [Option.some.injEq] at hstep; subst hstep; exact hs
  · rw [if_neg c1] at hstep
    cases hp : map_find g.cell_process a with
    | none => rw [hp] at hstep; simp at hstep
    | some p =>
      rw [hp] at hstep
      simp only at hstep
      split_ifs at hstep with c2 c3
      · simp only [Option.some.injEq] at hstep; subst hstep; exact hs
      · simp only [Option.some.injEq] at hstep; subst hstep
        intro c hc
        rcases (mem_set_insert _ _ _).1 hc with hc | hc
        · exact hs c hc
        · subst hc
          have := (level_range g.index h0 refined).2
          exact Or.inr ⟨by omega, by rw [hp]; congr 1; by_contra hn; exact c2 hn⟩
      · simp only [Option.some.injEq] at hstep; subst hstep; exact hs

theorem induce_refines_round_spec (g : Dccrg UserData)
    (h0 : 0 ≤ g.index.max_refinement_level) (all_new_refines : List (List Nat))
    (res : Dccrg UserData × List Nat)
    (h : g.induce_refines_round all_new_refines = some res) :
    res.1 = { g with cells_to_refine := set_insert_range g.cells_to_refine res.2 } ∧
    ∀ c ∈ res.2, g.index.get_refinement_level c < g.index.max_refinement_level ∧
      (map_find g.cell_process c = some g.rank ∨ c ∈ g.cells_with_remote_neighbors) := by
  unfold induce_refines_round at h
  simp only [Option.bind_eq_some, Option.map_eq_some'] at h
  obtain ⟨own, _, loc, h1, uir, h2, hres⟩ := h
  subst hres
  refine ⟨rfl, ?_⟩
  simp only
  have hloc : ∀ c ∈ loc, g.index.get_refinement_level c < g.index.max_refinement_level ∧
      (map_find g.cell_process c = some g.rank ∨ c ∈ g.cells_with_remote_neighbors) := by
    refine foldlM_invariant _ (fun _ (s : uset) => ∀ c ∈ s,
      g.index.get_refinement_level c < g.index.max_refinement_level ∧
      (map_find g.cell_process c = some g.rank ∨ c ∈ g.cells_with_remote_neighbors)) own [] loc
      (by simp) ?_ h1
    intro done a s s' hs _ hstep
    simp only at hstep
    split at hstep
    · simp only [Option.bind_eq_some] at hstep
      obtain ⟨mid, m1, m2⟩ := hstep
      intro c hc
      rcases induce_local_spec g h0 _ _ _ _ m2 c hc with hc | hc
      · rcases induce_local_spec g h0 _ _ _ _ m1 c hc with hc | hc
        · exact hs c hc
        · exact ⟨hc.1, Or.inl hc.2⟩
      · exact ⟨hc.1, Or.inl hc.2⟩
    · cases hstep
  refine foldlM_invariant _ (fun _ (s : uset) => ∀ c ∈ s,
      g.index.get_refinement_level c < g.index.max_refinement_level ∧
      (map_find g.cell_process c = some g.rank ∨ c ∈ g.cells_with_remote_neighbors))
      (List.range g.comm_size) loc uir hloc ?_ h2
  intro done a s s' hs _ hstep
  simp only at hstep
  split_ifs at hstep
  · simp only [Option.some.injEq] at hstep; subst hstep; exact hs
  · simp only [Option.map_eq_some'] at hstep
    obtain ⟨refines, _, hstep⟩ := hstep
    subst hstep
    refine foldl_invariant _ (fun _ (s : uset) => ∀ c ∈ s,
      g.index.get_refinement_level c < g.index.max_refinement_level ∧
      (map_find g.cell_process c = some g.rank ∨ c ∈ g.cells_with_remote_neighbors)) refines s hs ?_
    intro done1 refined s1 hs1 _
    split_ifs
    swap
    · exact hs1
    · refine foldl_invariant _ (fun done2 (s : uset) => (∀ c ∈ s,
        g.index.get_refinement_level c < g.index.max_refinement_level ∧
        (map_find g.cell_process c = some g.rank ∨ c ∈ g.cells_with_remote_neighbors)))
        g.cells_with_remote_neighbors s1 hs1 ?_
      intro done2 loc' s2 hs2 hmem
      split_ifs with c3
      · intro c hc
        rcases (mem_set_insert _ _ _).1 hc with hc | hc
        · exact hs2 c hc
        · subst hc
          have := (level_range g.index h0 refined).2
          exact ⟨by omega, Or.inr hmem⟩
      · exact hs2

end Dccrg

theorem forall₂_comp {α β γ : Type} {R : α → β → Prop} {S : β → γ → Prop}
    {T : α → γ → Prop} (hT : ∀ x y z, R x y → S y z → T x z) :
    ∀ (a : List α) (b : List β) (c : List γ), List.Forall₂ R a b → List.Forall₂ S b c →
      List.Forall₂ T a c := by
  intro a b c h
  induction h generalizing c with
  | nil => intro h2; cases h2; exact List.Forall₂.nil
  | cons hab _ ih =>
    intro h2
    cases h2 with
    | cons hbc ht => exact List.Forall₂.cons (hT _ _ _ hab hbc) (ih _ ht)

theorem forall₂_map_right {α β γ : Type} {R : α → γ → Prop} (f : β → γ) :
    ∀ (a : List α) (b : List β), List.Forall₂ (fun x y => R x (f y)) a b →
      List.Forall₂ R a (b.map f) := by
  intro a b h
  induction h with
  | nil => exact List.Forall₂.nil
  | cons hab _ ih => exact List.Forall₂.cons hab ih

theorem forall₂_mem_right {α β : Type} {R : α → β → Prop} :
    ∀ (a : List α) (b : List β), List.Forall₂ R a b → ∀ y ∈ b, ∃ x ∈ a, R x y := by
  intro a b h
  induction h with
  | nil => intro y hy; simp at hy
  | cons hab _ ih =>
    intro y hy
    rcases List.mem_cons.1 hy with rfl | hy
    · exact ⟨_, List.mem_cons_self _ _, hab⟩
    · obtain ⟨x, hx, hr⟩ := ih y hy
      exact ⟨x, List.mem_cons_of_mem _ hx, hr⟩

theorem forall₂_and_left {α β : Type} {R : α → β → Prop} {P : α → Prop} :
    ∀ (a : List α) (b : List β), List.Forall₂ R a b → (∀ x ∈ a, P x) →
      List.Forall₂ (fun x y => P x ∧ R x y) a b := by
  intro a b h
  induction h with
  | nil => intro _; exact List.Forall₂.nil
  | cons hab _ ih =>
    intro hP
    exact List.Forall₂.cons ⟨hP _ (List.mem_cons_self _ _), hab⟩
      (ih (fun x hx => hP x (List.mem_cons_of_mem _ hx)))

theorem forall₂_mem_left {α β : Type} {R : α → β → Prop} :
    ∀ (a : List α) (b : List β), List.Forall₂ R a b → ∀ x ∈ a, ∃ y ∈ b, R x y := by
  intro a b h
  induction h with
  | nil => intro y hy; simp at hy
  | cons hab _ ih =>
    intro y hy
    rcases List.mem_cons.1 hy with rfl | hy
    · exact ⟨_, List.mem_cons_self _ _, hab⟩
    · obtain ⟨x, hx, hr⟩ := ih y hy
      exact ⟨x, List.mem_cons_of_mem _ hx, hr⟩

namespace Dccrg
variable {UserData : Type}

/-- The relation between a process before `induce_refines` and during its loop:
only `cells_to_refine` changes, it grows, and what joins it is a cell below the
maximum refinement level of the directory or of `cells_with_remote_neighbors`. -/
theorem induce_refines_loop_spec (w : World UserData)
    (h0 : ∀ g ∈ w, 0 ≤ g.index.max_refinement_level) :
    ∀ (fuel : Nat) (state state' : List (Dccrg UserData × List Nat)),
      List.Forall₂ (fun (g : Dccrg UserData) (s : Dccrg UserData × List Nat) =>
        s.1 = { g with cells_to_refine := s.1.cells_to_refine } ∧
        (∀ c ∈ g.cells_to_refine, c ∈ s.1.cells_to_refine) ∧
        ∀ c ∈ s.1.cells_to_refine, c ∈ g.cells_to_refine ∨
          (g.index.get_refinement_level c < g.index.max_refinement_level ∧
            (map_find g.cell_process c = some g.rank ∨ c ∈ g.cells_with_remote_neighbors))) w state →
      induce_refines_loop fuel state = some state' →
      List.Forall₂ (fun (g : Dccrg UserData) (s : Dccrg UserData × List Nat) =>
        s.1 = { g with cells_to_refine := s.1.cells_to_refine } ∧
        (∀ c ∈ g.cells_to_refine, c ∈ s.1.cells_to_refine) ∧
        ∀ c ∈ s.1.cells_to_refine, c ∈ g.cells_to_refine ∨
          (g.index.get_refinement_level c < g.index.max_refinement_level ∧
            (map_find g.cell_process c = some g.rank ∨ c ∈ g.cells_with_remote_neighbors))) w state' := by
  intro fuel
  induction fuel with
  | zero =>
    intro state state' hrel h
    unfold induce_refines_loop at h
    split_ifs at h
    simp only [Option.some.injEq] at h; subst h; exact hrel
  | succ n ih =>
    intro state state' hrel h
    unfold induce_refines_loop at h
    split_ifs at h
    · simp only [Option.bind_eq_some] at h
      obtain ⟨state1, h1, h2⟩ := h
      refine ih state1 state' ?_ h2
      rw [mapM_some_iff] at h1
      have hrel' : List.Forall₂ (fun (g : Dccrg UserData) (s : Dccrg UserData × List Nat) =>
          0 ≤ g.index.max_refinement_level ∧
          s.1 = { g with cells_to_refine := s.1.cells_to_refine } ∧
          (∀ c ∈ g.cells_to_refine, c ∈ s.1.cells_to_refine) ∧
          ∀ c ∈ s.1.cells_to_refine, c ∈ g.cells_to_refine ∨
            (g.index.get_refinement_level c < g.index.max_refinement_level ∧
              (map_find g.cell_process c = some g.rank ∨ c ∈ g.cells_with_remote_neighbors)))
          w state := forall₂_and_left w state hrel h0
      refine forall₂_comp ?_ w state state1 hrel' h1
      rintro g s s1 ⟨hR, a1, a2, a3⟩ hround
      have hix : s.1.index = g.index := by rw [a1]
      have hcp : s.1.cell_process = g.cell_process := by rw [a1]
      have hcw : s.1.cells_with_remote_neighbors = g.cells_with_remote_neighbors := by rw [a1]
      have hrk : s.1.rank = g.rank := by rw [a1]
      obtain ⟨b1, b2⟩ := induce_refines_round_spec s.1 (by rw [hix]; exact hR) _ s1 hround
      rw [hix, hcp, hcw, hrk] at b2
      refine ⟨?_, ?_, ?_⟩
      · rw [b1, a1]
      · intro c hc
        rw [b1]
        exact (mem_set_insert_range _ _ _).2 (Or.inl (a2 c hc))
      · intro c hc
        rw [b1] at hc
        rcases (mem_set_insert_range _ _ _).1 hc with hc | hc
        · exact a3 c hc
        · exact Or.inr (b2 c hc)
    · simp only [Option.some.injEq] at h; subst h; exact hrel

/-- The unrefines that `override_unrefines` keeps on a process: those for which no
sibling is to be refined or not to be unrefined, and for which no neighbor of the
parent one level below the parent is to be refined. -/
theorem mem_final_unrefines (g : Dccrg UserData) (u : Nat) :
    u ∈ g.final_unrefines ↔ u ∈ g.cells_to_unrefine ∧
      (∀ s ∈ g.get_all_children (g.get_parent u),
        s ∉ g.cells_to_refine ∧ s ∉ g.cells_not_to_unrefine) ∧
      ∀ n ∈ g.find_neighbors_of (g.get_parent u) 2 true,
        ¬ (g.index.get_refinement_level n = g.index.get_refinement_level (g.get_parent u) + 1
          ∧ n ∈ g.cells_to_refine) := by
  unfold final_unrefines
  simp only
  refine foldl_invariant _ (fun done (acc : uset) => u ∈ acc ↔ u ∈ done ∧
      (∀ s ∈ g.get_all_children (g.get_parent u),
        s ∉ g.cells_to_refine ∧ s ∉ g.cells_not_to_unrefine) ∧
      ∀ n ∈ g.find_neighbors_of (g.get_parent u) 2 true,
        ¬ (g.index.get_refinement_level n = g.index.get_refinement_level (g.get_parent u) + 1
          ∧ n ∈ g.cells_to_refine)) g.cells_to_unrefine [] (by simp) ?_
  intro done a acc hacc _
  simp only [List.mem_append, List.mem_singleton]
  by_cases c1 : (g.get_all_children (g.get_parent a)).any (fun sibling =>
      decide (sibling ∈ g.cells_to_refine) || decide (sibling ∈ g.cells_not_to_unrefine)) = true
  · rw [if_pos c1, hacc]
    constructor
    · rintro ⟨h1, h2⟩; exact ⟨Or.inl h1, h2⟩
    · rintro ⟨h1 | h1, h2⟩
      · exact ⟨h1, h2⟩
      · subst h1
        exfalso
        rw [List.any_eq_true] at c1
        obtain ⟨s, hs, hc⟩ := c1
        have := h2.1 s hs
        simp only [Bool.or_eq_true, decide_eq_true_eq] at hc
        tauto
  · rw [if_neg c1]
    by_cases c2 : (g.find_neighbors_of (g.get_parent a) 2 true).any (fun neighbor =>
        decide (g.index.get_refinement_level neighbor
          = g.index.get_refinement_level (g.get_parent a) + 1) &&
        decide (neighbor ∈ g.cells_to_refine)) = true
    · rw [if_pos c2, hacc]
      constructor
      · rintro ⟨h1, h2⟩; exact ⟨Or.inl h1, h2⟩
      · rintro ⟨h1 | h1, h2⟩
        · exact ⟨h1, h2⟩
        · subst h1
          exfalso
          rw [List.any_eq_true] at c2
          obtain ⟨n, hn, hc⟩ := c2
          have := h2.2 n hn
          simp only [Bool.and_eq_true, decide_eq_true_eq] at hc
          tauto
    · rw [if_neg c2, mem_set_insert, hacc]
      constructor
      · rintro (⟨h1, h2⟩ | h1)
        · exact ⟨Or.inl h1, h2⟩
        · subst h1
          refine ⟨Or.inr rfl, ?_, ?_⟩
          · intro s hs
            have : ¬ (decide (s ∈ g.cells_to_refine) ||
                decide (s ∈ g.cells_not_to_unrefine)) = true := by
              intro hn
              exact c1 (List.any_eq_true.2 ⟨s, hs, hn⟩)
            simp only [Bool.or_eq_true, decide_eq_true_eq, not_or] at this
            exact this
          · intro n hn hc
            apply c2
            rw [List.any_eq_true]
            exact ⟨n, hn, by simp [hc.1, hc.2]⟩
      · rintro ⟨h1 | h1, h2⟩
        · exact Or.inl ⟨h1, h2⟩
        · exact Or.inr h1

theorem final_unrefines_transfer (g ga : Dccrg UserData) (hf : ga.fixed = g.fixed)
    (hd : ga.cell_process = g.cell_process)
    (hu : ga.cells_to_unrefine = g.cells_to_unrefine) (u : Nat)
    (h : u ∈ ga.final_unrefines) :
    u ∈ g.cells_to_unrefine ∧
    (∀ s ∈ g.get_all_children (g.get_parent u),
      s ∉ ga.cells_to_refine ∧ s ∉ ga.cells_not_to_unrefine) ∧
    ∀ n ∈ g.find_neighbors_of (g.get_parent u) 2 true,
      ¬ (g.index.get_refinement_level n = g.index.get_refinement_level (g.get_parent u) + 1
        ∧ n ∈ ga.cells_to_refine) := by
  rw [mem_final_unrefines] at h
  have h1 : ga.index = g.index := congrArg (fun t => t.1) hf
  have hd' : ∀ c, map_has ga.cell_process c = map_has g.cell_process c := by
    intro c; rw [hd]
  rw [get_parent_congr g ga h1 hd', get_all_children_congr g ga h1 hd',
    find_neighbors_of_congr g ga hf hd, h1, hu] at h
  exact h

end Dccrg

open Dccrg
variable {UserData : Type}

theorem forall₂_length {α β : Type} {R : α → β → Prop} :
    ∀ (a : List α) (b : List β), List.Forall₂ R a b → a.length = b.length := by
  intro a b h
  induction h with
  | nil => rfl
  | cons _ _ ih => simp [ih]

/-- `induce_refines` on all processes: only `cells_to_refine` changes, it grows, it
ends as the same set on every process, and what has joined it is a cell below the
maximum refinement level of the directory or of `cells_with_remote_neighbors` of a
process. -/
theorem induce_refines_spec (w wi : World UserData)
    (h0 : ∀ g ∈ w, 0 ≤ g.index.max_refinement_level)
    (hcs : ∀ g ∈ w, g.comm_size = w.length) (h : induce_refines w = some wi) :
    List.Forall₂ (fun (g gi : Dccrg UserData) =>
      gi = { g with cells_to_refine := gi.cells_to_refine } ∧
      ∀ c ∈ g.cells_to_refine, c ∈ gi.cells_to_refine) w wi ∧
    ∀ gi ∈ wi, ∀ c ∈ gi.cells_to_refine, (∀ gj ∈ wi, c ∈ gj.cells_to_refine) ∧
      ∃ g ∈ w, c ∈ g.cells_to_refine ∨
        (g.index.get_refinement_level c < g.index.max_refinement_level ∧
          (map_find g.cell_process c = some g.rank ∨ c ∈ g.cells_with_remote_neighbors)) := by
  unfold induce_refines at h
  simp only [Option.map_eq_some'] at h
  obtain ⟨state, hloop, hwi⟩ := h
  have hstart : List.Forall₂ (fun (g : Dccrg UserData) (s : Dccrg UserData × List Nat) =>
        s.1 = { g with cells_to_refine := s.1.cells_to_refine } ∧
        (∀ c ∈ g.cells_to_refine, c ∈ s.1.cells_to_refine) ∧
        ∀ c ∈ s.1.cells_to_refine, c ∈ g.cells_to_refine ∨
          (g.index.get_refinement_level c < g.index.max_refinement_level ∧
            (map_find g.cell_process c = some g.rank ∨ c ∈ g.cells_with_remote_neighbors)))
      w (w.map fun g => (g, g.cells_to_refine)) := by
    apply forall₂_map_right
    exact forall₂_refl (fun g => ⟨rfl, fun c hc => hc, fun c hc => Or.inl hc⟩) w
  have hrel := induce_refines_loop_spec w h0 _ _ _ hstart hloop
  have hlen := forall₂_length _ _ hrel
  have hX : ∀ s ∈ state, ∀ c,
      c ∈ ((state.map fun s => s.1.cells_to_refine).take s.1.comm_size).foldl
        set_insert_range s.1.cells_to_refine ↔ ∃ s' ∈ state, c ∈ s'.1.cells_to_refine := by
    intro s hs c
    obtain ⟨g, hg, a1, _⟩ := forall₂_mem_right _ _ hrel s hs
    have hc : s.1.comm_size = state.length := by
      rw [a1]; simp only; rw [hcs g hg, hlen]
    rw [hc, mem_foldl_set_insert_range]
    have : (state.map fun s => s.1.cells_to_refine).take state.length
        = state.map fun s => s.1.cells_to_refine := by
      apply List.take_of_length_le
      simp
    rw [this]
    constructor
    · rintro (h | ⟨l, hl, hcl⟩)
      · exact ⟨s, hs, h⟩
      · obtain ⟨s', hs', rfl⟩ := List.mem_map.1 hl
        exact ⟨s', hs', hcl⟩
    · rintro ⟨s', hs', hcl⟩
      exact Or.inr ⟨_, List.mem_map.2 ⟨s', hs', rfl⟩, hcl⟩
  subst hwi
  constructor
  · apply forall₂_map_right
    have hrel2 := forall₂_and_left (P := fun _ => True) w state hrel (fun _ _ => trivial)
    have : List.Forall₂ (fun (g : Dccrg UserData) (s : Dccrg UserData × List Nat) =>
        s ∈ state ∧ s.1 = { g with cells_to_refine := s.1.cells_to_refine } ∧
        (∀ c ∈ g.cells_to_refine, c ∈ s.1.cells_to_refine)) w state := by
      have key : ∀ (a : List (Dccrg UserData)) (b : List (Dccrg UserData × List Nat)),
          List.Forall₂ (fun (g : Dccrg UserData) (s : Dccrg UserData × List Nat) => True ∧
            (s.1 = { g with cells_to_refine := s.1.cells_to_refine } ∧
            (∀ c ∈ g.cells_to_refine, c ∈ s.1.cells_to_refine) ∧
            ∀ c ∈ s.1.cells_to_refine, c ∈ g.cells_to_refine ∨
              (g.index.get_refinement_level c < g.index.max_refinement_level ∧
              (map_find g.cell_process c = some g.rank ∨ c ∈ g.cells_with_remote_neighbors)))) a b →
          (∀ s ∈ b, s ∈ state) →
          List.Forall₂ (fun (g : Dccrg UserData) (s : Dccrg UserData × List Nat) =>
            s ∈ state ∧ s.1 = { g with cells_to_refine := s.1.cells_to_refine } ∧
            (∀ c ∈ g.cells_to_refine, c ∈ s.1.cells_to_refine)) a b := by
        intro a b hab
        induction hab with
        | nil => intro _; exact List.Forall₂.nil
        | cons hxy _ ih =>
          intro hb
          exact List.Forall₂.cons ⟨hb _ (List.mem_cons_self _ _), hxy.2.1, hxy.2.2.1⟩
            (ih (fun s hs => hb s (List.mem_cons_of_mem _ hs)))
      exact key w state hrel2 (fun s hs => hs)
    refine forall₂_comp (S := fun (s s' : Dccrg UserData × List Nat) => s = s') ?_ w state state
      this (forall₂_refl (fun _ => rfl) state)
    rintro g s s' ⟨hs, a1, a2⟩ rfl
    refine ⟨?_, ?_⟩
    · simp only
      generalize List.foldl set_insert_range _ _ = X
      conv_lhs => rw [a1]
    · intro c hc
      simp only
      rw [hX s hs]
      exact ⟨s, hs, a2 c hc⟩
  · intro gi hgi c hc
    obtain ⟨s, hs, rfl⟩ := List.mem_map.1 hgi
    simp only at hc
    rw [hX s hs] at hc
    obtain ⟨s', hs', hcs'⟩ := hc
    constructor
    · intro gj hgj
      obtain ⟨t, ht, rfl⟩ := List.mem_map.1 hgj
      simp only
      rw [hX t ht]
      exact ⟨s', hs', hcs'⟩
    · obtain ⟨g, hg, _, _, a3⟩ := forall₂_mem_right _ _ hrel s' hs'
      exact ⟨g, hg, a3 c hcs'⟩

/-- The world in which `execute_refines` runs: every process differs from its
state before `stop_refining` only in its pending requests, `cells_not_to_unrefine`
is empty, `cells_to_refine` and `cells_to_unrefine` are the same sets on all
processes, the refines are those of `induce_refines`, and every unrefine has
passed `override_unrefines` on the process that requested it. -/
theorem refines_prepared_spec (w wp : World UserData)
    (h0 : ∀ g ∈ w, 0 ≤ g.index.max_refinement_level)
    (hcs : ∀ g ∈ w, g.comm_size = w.length) (h : refines_prepared w = some wp) :
    List.Forall₂ (fun (g gp : Dccrg UserData) => g.same_but_requests gp ∧
      gp.cells_not_to_unrefine = [] ∧ ∀ c ∈ g.cells_to_refine, c ∈ gp.cells_to_refine) w wp ∧
    (∀ gp ∈ wp, ∀ c ∈ gp.cells_to_refine, (∀ gq ∈ wp, c ∈ gq.cells_to_refine) ∧
      ∃ g ∈ w, c ∈ g.cells_to_refine ∨
        (g.index.get_refinement_level c < g.index.max_refinement_level ∧
          (map_find g.cell_process c = some g.rank ∨ c ∈ g.cells_with_remote_neighbors))) ∧
    ∀ gp ∈ wp, ∀ u ∈ gp.cells_to_unrefine, (∀ gq ∈ wp, u ∈ gq.cells_to_unrefine) ∧
      ∃ g ∈ w, u ∈ g.cells_to_unrefine ∧
        (∀ s ∈ g.get_all_children (g.get_parent u), s ∉ gp.cells_to_refine) ∧
        ∀ n ∈ g.find_neighbors_of (g.get_parent u) 2 true,
          ¬ (g.index.get_refinement_level n
              = g.index.get_refinement_level (g.get_parent u) + 1 ∧
            n ∈ gp.cells_to_refine) := by
  unfold refines_prepared at h
  simp only [Option.map_eq_some'] at h
  obtain ⟨wi, hwi, hwp⟩ := h
  obtain ⟨hrel, hX⟩ := induce_refines_spec w wi h0 hcs hwi
  have hlen := forall₂_length _ _ hrel
  have hcsi : ∀ gi ∈ wi, gi.comm_size = wi.length := by
    intro gi hgi
    obtain ⟨g, hg, a1, _⟩ := forall₂_mem_right _ _ hrel gi hgi
    rw [a1]; simp only; rw [hcs g hg, hlen]
  -- the unrefines after override_unrefines
  have hU : ∀ ga ∈ all_to_all_set_cells_not_to_unrefine wi, ∀ u,
      u ∈ (((all_to_all_set_cells_not_to_unrefine wi).map fun g => g.final_unrefines).take
        ga.comm_size).foldl set_insert_range [] ↔
      ∃ gb ∈ all_to_all_set_cells_not_to_unrefine wi, u ∈ gb.final_unrefines := by
    intro ga hga u
    unfold all_to_all_set_cells_not_to_unrefine at hga
    obtain ⟨gi, hgi, rfl⟩ := List.mem_map.1 hga
    simp only
    rw [hcsi gi hgi, mem_foldl_set_insert_range]
    have : ((all_to_all_set_cells_not_to_unrefine wi).map fun g => g.final_unrefines).take
        wi.length = (all_to_all_set_cells_not_to_unrefine wi).map fun g => g.final_unrefines := by
      apply List.take_of_length_le
      simp [all_to_all_set_cells_not_to_unrefine]
    rw [this]
    constructor
    · rintro (h | ⟨l, hl, hcl⟩)
      · simp at h
      · obtain ⟨s', hs', rfl⟩ := List.mem_map.1 hl
        exact ⟨s', hs', hcl⟩
    · rintro ⟨s', hs', hcl⟩
      exact Or.inr ⟨_, List.mem_map.2 ⟨s', hs', rfl⟩, hcl⟩
  subst hwp
  unfold override_unrefines
  simp only [List.map_map]
  refine ⟨?_, ?_, ?_⟩
  · unfold all_to_all_set_cells_not_to_unrefine
    simp only [List.map_map]
    apply forall₂_map_right
    refine forall₂_comp (S := fun (s s' : Dccrg UserData) => s = s') ?_ w wi wi
      hrel (forall₂_refl (fun _ => rfl) wi)
    rintro g gi gi' ⟨a1, a2⟩ rfl
    refine ⟨?_, rfl, a2⟩
    unfold same_but_requests
    simp only [Function.comp]
    conv_lhs => rw [a1]
  · intro gp hgp c hc
    obtain ⟨ga, hga, rfl⟩ := List.mem_map.1 hgp
    unfold all_to_all_set_cells_not_to_unrefine at hga
    obtain ⟨gi, hgi, rfl⟩ := List.mem_map.1 hga
    simp only [Function.comp] at hc ⊢
    obtain ⟨b1, b2⟩ := hX gi hgi c hc
    refine ⟨?_, b2⟩
    intro gq hgq
    obtain ⟨gb, hgb, rfl⟩ := List.mem_map.1 hgq
    unfold all_to_all_set_cells_not_to_unrefine at hgb
    obtain ⟨gj, hgj, rfl⟩ := List.mem_map.1 hgb
    exact b1 gj hgj
  · intro gp hgp u hu
    obtain ⟨ga, hga, rfl⟩ := List.mem_map.1 hgp
    simp only [Function.comp] at hu ⊢
    rw [hU ga hga] at hu
    obtain ⟨gb, hgb, hub⟩ := hu
    constructor
    · intro gq hgq
      obtain ⟨gc, hgc, rfl⟩ := List.mem_map.1 hgq
      simp only [Function.comp]
      rw [hU gc hgc]
      exact ⟨gb, hgb, hub⟩
    · unfold all_to_all_set_cells_not_to_unrefine at hgb hga
      obtain ⟨gj, hgj, rfl⟩ := List.mem_map.1 hgb
      obtain ⟨gi, hgi, rfl⟩ := List.mem_map.1 hga
      obtain ⟨g, hg, a1, _⟩ := forall₂_mem_right _ _ hrel gj hgj
      have hmem' : ∀ c, c ∈ gi.cells_to_refine → c ∈ gj.cells_to_refine :=
        fun c hc => (hX gi hgi c hc).1 gj hgj
      have e1 : gj.fixed = g.fixed := by
        have := congrArg fixed a1; exact this
      have e2 : gj.cell_process = g.cell_process := by
        have := congrArg Dccrg.cell_process a1; exact this
      have e3 : gj.cells_to_unrefine = g.cells_to_unrefine := by
        have := congrArg Dccrg.cells_to_unrefine a1; exact this
      have key := final_unrefines_transfer g _ (by exact e1) (by exact e2) (by exact e3) u hub
      obtain ⟨c1, c2, c3⟩ := key
      exact ⟨g, hg, c1, fun s hs hn => (c2 s hs).1 (hmem' s hn),
        fun n hn hc => c3 n hn ⟨hc.1, hmem' n hc.2⟩⟩

end dccrg
namespace dccrg
open Index Dccrg
variable {UserData : Type}

theorem stop_refining_eq [Inhabited UserData] (w : World UserData) :
    stop_refining w = (refines_prepared w).bind execute_refines := by
  unfold stop_refining refines_prepared
  cases induce_refines w <;> rfl

theorem execute_refines_spec [Inhabited UserData] (w : World UserData)
    (result : List (Dccrg UserData × List Nat)) (h : execute_refines w = some result) :
    ∃ before : List (Dccrg UserData × List Nat × uset),
      List.Forall₂ (fun g b => g.execute_refines_before_wait = some b) w before ∧
      List.Forall₂ (fun (b : Dccrg UserData × List Nat × uset)
          (r : Dccrg UserData × List Nat) =>
        ∃ incoming, deliver (before.map fun b => b.1) b.1 = some incoming ∧
          ({ b.1 with incoming_data := incoming }).execute_refines_after_wait b.2.2
            = some r.1 ∧ r.2 = b.2.1) before result := by
  unfold execute_refines at h
  simp only [Option.bind_eq_some] at h
  obtain ⟨before, h1, h2⟩ := h
  rw [mapM_some_iff] at h1 h2
  refine ⟨before, h1, ?_⟩
  refine forall₂_comp (S := fun (s s' : Dccrg UserData × List Nat) => s = s') ?_ _ _ _
      h2 (forall₂_refl (fun _ => rfl) result)
  rintro b r r' hb rfl
  simp only [Option.bind_eq_some, Option.map_eq_some'] at hb
  obtain ⟨incoming, i1, g', i2, rfl⟩ := hb
  exact ⟨incoming, i1, i2, rfl⟩

end dccrg
namespace dccrg
open Index Dccrg
variable {UserData : Type}

theorem forall₂_and_both {α β : Type} {R : α → β → Prop} {P : α → Prop} {Q : β → Prop} :
    ∀ (a : List α) (b : List β), List.Forall₂ R a b → (∀ x ∈ a, P x) → (∀ y ∈ b, Q y) →
      List.Forall₂ (fun x y => (P x ∧ Q y) ∧ R x y) a b := by
  intro a b h
  induction h with
  | nil => intro _ _; exact List.Forall₂.nil
  | cons hab _ ih =>
    intro hP hQ
    exact List.Forall₂.cons ⟨⟨hP _ (List.mem_cons_self _ _), hQ _ (List.mem_cons_self _ _)⟩, hab⟩
      (ih (fun x hx => hP x (List.mem_cons_of_mem _ hx))
        (fun x hx => hQ x (List.mem_cons_of_mem _ hx)))

theorem forall₂_with_mem {α β : Type} {R : α → β → Prop} (a : List α) (b : List β)
    (h : List.Forall₂ R a b) : List.Forall₂ (fun x y => (x ∈ a ∧ y ∈ b) ∧ R x y) a b :=
  forall₂_and_both a b h (fun _ hx => hx) (fun _ hy => hy)

theorem forall₂_imp {α β : Type} {R S : α → β → Prop} (hRS : ∀ x y, R x y → S x y) :
    ∀ (a : List α) (b : List β), List.Forall₂ R a b → List.Forall₂ S a b := by
  intro a b h
  induction h with
  | nil => exact List.Forall₂.nil
  | cons hab _ ih => exact List.Forall₂.cons (hRS _ _ hab) ih

theorem forall₂_map_eq {α β γ : Type} (f : α → γ) (k : β → γ) :
    ∀ (a : List α) (b : List β), List.Forall₂ (fun x y => k y = f x) a b →
      b.map k = a.map f := by
  intro a b h
  induction h with
  | nil => rfl
  | cons hab _ ih => simp [hab, ih]

/-- The steps of `stop_refining` after the requests `requests`, position by
position: the process before the requests, after the requests, when
`execute_refines` starts, at the wait for the transfers, and at the end. -/
theorem stop_refining_chain [Inhabited UserData] (w0 w1 : World UserData)
    (requests : List (Nat × Request)) (result : List (Dccrg UserData × List Nat))
    (hinv : grid_invariant w0)
    (hreq : make_requests w0 requests = some w1) (hstop : stop_refining w1 = some result) :
    ∃ (wp : World UserData) (before : List (Dccrg UserData × List Nat × uset)),
      refines_prepared w1 = some wp ∧
      (∀ g ∈ w1, 0 ≤ g.index.max_refinement_level ∧ g.comm_size = w1.length) ∧
      List.Forall₂ (fun (g0 : Dccrg UserData) (r : Dccrg UserData × List Nat) =>
        ∃ g1 ∈ w1, ∃ gp ∈ wp, ∃ b ∈ before, g0 ∈ w0 ∧ r ∈ result ∧
          (g0.same_but_requests g1 ∧ (g0.unrefines_checked → g1.unrefines_checked) ∧
            (g0.refines_checked → g1.refines_checked)) ∧
          (g1.same_but_requests gp ∧ gp.cells_not_to_unrefine = [] ∧
            ∀ c ∈ g1.cells_to_refine, c ∈ gp.cells_to_refine) ∧
          gp.execute_refines_before_wait = some b ∧
          ∃ incoming, deliver (before.map fun b => b.1) b.1 = some incoming ∧
            ({ b.1 with incoming_data := incoming }).execute_refines_after_wait b.2.2
              = some r.1 ∧ r.2 = b.2.1) w0 result := by
  rw [stop_refining_eq] at hstop
  simp only [Option.bind_eq_some] at hstop
  obtain ⟨wp, hwp, hex⟩ := hstop
  obtain ⟨before, hb1, hb2⟩ := execute_refines_spec wp result hex
  have r01 := forall₂_with_mem _ _ (make_requests_spec requests w0 w1 hreq)
  have hlen01 := forall₂_length _ _ r01
  have h1 : ∀ g ∈ w1, 0 ≤ g.index.max_refinement_level ∧ g.comm_size = w1.length := by
    intro g1 hg1
    obtain ⟨g0, hg0, _, a, _⟩ := forall₂_mem_right _ _ r01 g1 hg1
    obtain ⟨f1, _⟩ := same_but_requests_fields a
    unfold fixed at f1
    simp only [Prod.mk.injEq] at f1
    obtain ⟨hcs, hfit, _⟩ := hinv.2.1 g0 hg0
    rw [f1.1, f1.2.2.1, hcs, hlen01]
    exact ⟨hfit.1, rfl⟩
  obtain ⟨r1p, _, _⟩ := refines_prepared_spec w1 wp (fun g hg => (h1 g hg).1)
    (fun g hg => (h1 g hg).2) hwp
  refine ⟨wp, before, hwp, h1, ?_⟩
  have r1p' := forall₂_with_mem _ _ r1p
  have rpb := forall₂_with_mem _ _ hb1
  have rbr := forall₂_with_mem _ _ hb2
  have c1 := forall₂_comp (T := fun (g0 gp : Dccrg UserData) =>
      ∃ g1 ∈ w1, g0 ∈ w0 ∧ gp ∈ wp ∧
        (g0.same_but_requests g1 ∧ (g0.unrefines_checked → g1.unrefines_checked) ∧
          (g0.refines_checked → g1.refines_checked)) ∧
        (g1.same_but_requests gp ∧ gp.cells_not_to_unrefine = [] ∧
          ∀ c ∈ g1.cells_to_refine, c ∈ gp.cells_to_refine))
    (fun g0 g1 gp ⟨⟨m0, m1⟩, a⟩ ⟨⟨_, mp⟩, b⟩ => ⟨g1, m1, m0, mp, a, b⟩) _ _ _ r01 r1p'
  have c2 := forall₂_comp (T := fun (g0 : Dccrg UserData)
      (b : Dccrg UserData × List Nat × uset) =>
      ∃ g1 ∈ w1, ∃ gp ∈ wp, g0 ∈ w0 ∧ b ∈ before ∧
        (g0.same_but_requests g1 ∧ (g0.unrefines_checked → g1.unrefines_checked) ∧
          (g0.refines_checked → g1.refines_checked)) ∧
        (g1.same_but_requests gp ∧ gp.cells_not_to_unrefine = [] ∧
          ∀ c ∈ g1.cells_to_refine, c ∈ gp.cells_to_refine) ∧
        gp.execute_refines_before_wait = some b)
    (fun g0 gp b ⟨g1, m1, m0, mp, a, a'⟩ ⟨⟨_, mb⟩, hb⟩ =>
      ⟨g1, m1, gp, mp, m0, mb, a, a', hb⟩) _ _ _ c1 rpb
  exact forall₂_comp
    (fun g0 b r ⟨g1, m1, gp, mp, m0, mb, a, a', hb⟩ ⟨⟨_, mr⟩, hr⟩ =>
      ⟨g1, m1, gp, mp, b, mb, m0, mr, a, a', hb, hr⟩) _ _ _ c2 rbr

namespace Dccrg

theorem existence_invariant_congr {V : Type} {g : Dccrg UserData} {g' : Dccrg V}
    (hi : g'.index = g.index)
    (hd : ∀ c, map_has g'.cell_process c = map_has g.cell_process c)
    (h : g.existence_invariant) : g'.existence_invariant := by
  unfold existence_invariant at h ⊢
  simp only [mem_map_keys, hi, hd] at h ⊢
  exact h

theorem no_pending_checked {g : Dccrg UserData} (h : g.no_pending) :
    g.unrefines_checked ∧ g.refines_checked := by
  obtain ⟨h1, h2, _⟩ := h
  unfold unrefines_checked refines_checked
  rw [h1, h2]
  simp

end Dccrg

theorem grid_invariant_has {w : World UserData} (h : grid_invariant w)
    {g g' : Dccrg UserData} (hg : g ∈ w) (hg' : g' ∈ w) (c : Nat) :
    map_has g'.cell_process c = map_has g.cell_process c := by
  have a := (h.2.2 g hg g' hg').2 c
  have b := (h.2.2 g' hg' g hg).2 c
  rw [mem_map_keys] at a b
  cases h1 : map_has g.cell_process c <;> cases h2 : map_has g'.cell_process c
  · rfl
  · rw [b h2] at h1; exact Bool.noConfusion h1
  · rw [a h1] at h2; exact Bool.noConfusion h2
  · rfl

/-- The hypotheses of `rank_directory` hold on every process when
`execute_refines` starts. -/
theorem prepared_unrefines_checked (w0 w1 wp : World UserData)
    (requests : List (Nat × Request)) (hinv : grid_invariant w0)
    (hreq : make_requests w0 requests = some w1) (hwp : refines_prepared w1 = some wp)
    (g0 g1 gp : Dccrg UserData) (hg0 : g0 ∈ w0) (hgp : gp ∈ wp)
    (h01 : g0.same_but_requests g1) (h1p : g1.same_but_requests gp) :
    gp.index = g0.index ∧ gp.cell_process = g0.cell_process ∧
    ∀ u ∈ gp.cells_to_unrefine, map_has gp.cell_process u = true ∧
      gp.index.get_refinement_level u ≠ 0 ∧
      ∀ s ∈ gp.index.children_of (gp.index.get_parent_for_removed u),
        (∀ x ∈ gp.index.children_of s, map_has gp.cell_process x = false) ∧
        s ∉ gp.cells_to_refine := by
  have r01 := forall₂_with_mem _ _ (make_requests_spec requests w0 w1 hreq)
  have hlen01 := forall₂_length _ _ r01
  have h1 : ∀ g ∈ w1, 0 ≤ g.index.max_refinement_level ∧ g.comm_size = w1.length := by
    intro g1 hg1
    obtain ⟨g0, hg0, _, a, _⟩ := forall₂_mem_right _ _ r01 g1 hg1
    obtain ⟨f1, _⟩ := same_but_requests_fields a
    unfold fixed at f1
    simp only [Prod.mk.injEq] at f1
    obtain ⟨hcs, hfit, _⟩ := hinv.2.1 g0 hg0
    rw [f1.1, f1.2.2.1, hcs, hlen01]
    exact ⟨hfit.1, rfl⟩
  obtain ⟨_, _, hU⟩ := refines_prepared_spec w1 wp (fun g hg => (h1 g hg).1)
    (fun g hg => (h1 g hg).2) hwp
  obtain ⟨f1, f2, _⟩ := same_but_requests_fields (same_but_requests_trans h01 h1p)
  have hix : gp.index = g0.index := congrArg (fun t => t.1) f1
  obtain ⟨_, hfit, hex, _⟩ := hinv.2.1 g0 hg0
  have hfitp : gp.index.ids_fit := by rw [hix]; exact hfit
  have hexp : gp.existence_invariant :=
    existence_invariant_congr hix (by intro c; rw [f2]) hex
  refine ⟨hix, f2, ?_⟩
  intro u hu
  obtain ⟨_, g1q, hg1q, u1, u2, _⟩ := hU gp hgp u hu
  obtain ⟨g0q, hg0q, _, a, b, _⟩ := forall₂_mem_right _ _ r01 g1q hg1q
  obtain ⟨k1, k2, _⟩ := same_but_requests_fields a
  have hixq : g1q.index = gp.index := by
    have e : g1q.index = g0q.index := congrArg (fun t => t.1) k1
    rw [hix, e]
    exact (hinv.2.2 g0 hg0 g0q hg0q).1
  have hdq : ∀ c, map_has g1q.cell_process c = map_has gp.cell_process c := by
    intro c
    rw [k2, f2]
    exact grid_invariant_has hinv hg0 hg0q c
  obtain ⟨v1, v2, v3⟩ := b (no_pending_checked (hinv.2.1 g0q hg0q).2.2.2).1 u u1
  rw [hdq] at v1
  rw [hixq] at v2
  rw [get_parent_congr gp g1q hixq hdq, get_all_children_congr gp g1q hixq hdq] at v3 u2
  obtain ⟨p1, p2⟩ := get_parent_eq gp hfitp hexp v1
  obtain ⟨q1, q2⟩ := hexp.1 _ ((mem_map_keys _ _).2 p2)
  rw [p1, get_all_children_of_has gp (by omega) p2] at v3 u2
  refine ⟨v1, v2, ?_⟩
  intro s hs
  refine ⟨?_, u2 s hs⟩
  have hsd : map_has gp.cell_process s = true :=
    (hexp.2.2 u ((mem_map_keys _ _).2 v1) v2).2 s hs
  have := v3 s hs
  rw [get_child_congr gp g1q hixq hdq] at this
  exact (leaf_iff_no_child gp hfitp hexp hsd).1 this.symm

/-- The directories after `stop_refining`, position by position: the children of
the refined cells have joined the directory, the siblings of the unrefined cells
have left it, the existence invariant holds and no request is pending. -/
theorem stop_refining_directory [Inhabited UserData] (w0 w1 : World UserData)
    (requests : List (Nat × Request)) (result : List (Dccrg UserData × List Nat))
    (hinv : grid_invariant w0)
    (hreq : make_requests w0 requests = some w1) (hstop : stop_refining w1 = some result) :
    ∃ wp : World UserData, refines_prepared w1 = some wp ∧
      List.Forall₂ (fun (g0 : Dccrg UserData) (r : Dccrg UserData × List Nat) =>
        r.1.fixed = g0.fixed ∧ r.1.no_pending ∧ r.1.existence_invariant ∧
        ∀ x, map_has r.1.cell_process x = true ↔
          (map_has g0.cell_process x = true ∨
            ∃ gp ∈ wp, ∃ c ∈ gp.cells_to_refine, x ∈ g0.index.children_of c) ∧
          ¬ ∃ gp ∈ wp, ∃ u ∈ gp.cells_to_unrefine,
            x ∈ g0.index.children_of (g0.index.get_parent_for_removed u)) w0 result := by
  obtain ⟨wp, before, hwp, h1, hchain⟩ :=
    stop_refining_chain w0 w1 requests result hinv hreq hstop
  obtain ⟨_, hR, hU⟩ := refines_prepared_spec w1 wp (fun g hg => (h1 g hg).1)
    (fun g hg => (h1 g hg).2) hwp
  refine ⟨wp, hwp, forall₂_imp ?_ _ _ hchain⟩
  rintro g0 r ⟨g1, hg1, gp, hgp, b, hb, hg0, hr, ⟨a1, _⟩, ⟨a2, a3, _⟩, hbw, inc, _, haw, _⟩
  obtain ⟨hix, hcp, hCU⟩ :=
    prepared_unrefines_checked w0 w1 wp requests hinv hreq hwp g0 g1 gp hg0 hgp a1 a2
  obtain ⟨_, hfit, hex, _⟩ := hinv.2.1 g0 hg0
  obtain ⟨c1, c2, c3, c4, c5, _, _, c8⟩ := rank_directory gp (by rw [hix]; exact hfit)
    (existence_invariant_congr hix (by intro c; rw [hcp]) hex) hCU b hbw inc r.1 haw
  obtain ⟨f1, _⟩ := same_but_requests_fields (same_but_requests_trans a1 a2)
  refine ⟨c1.trans f1, ⟨c2, c3, c4.trans a3⟩, c5, ?_⟩
  intro x
  rw [c8, hix, hcp]
  constructor
  · rintro ⟨h | ⟨c, hc, hx⟩, hn⟩
    · exact ⟨Or.inl h, fun ⟨gq, hgq, u, hu, hxu⟩ => hn ⟨u, (hU gq hgq u hu).1 gp hgp, hxu⟩⟩
    · exact ⟨Or.inr ⟨gp, hgp, c, hc, hx⟩,
        fun ⟨gq, hgq, u, hu, hxu⟩ => hn ⟨u, (hU gq hgq u hu).1 gp hgp, hxu⟩⟩
  · rintro ⟨h | ⟨gq, hgq, c, hc, hx⟩, hn⟩
    · exact ⟨Or.inl h, fun ⟨u, hu, hxu⟩ => hn ⟨gp, hgp, u, hu, hxu⟩⟩
    · exact ⟨Or.inr ⟨c, (hR gq hgq c hc).1 gp hgp, hx⟩,
        fun ⟨u, hu, hxu⟩ => hn ⟨gp, hgp, u, hu, hxu⟩⟩

/-- `stop_refining` after any requests keeps the invariant of the reachable
worlds. -/
theorem stop_refining_invariant [Inhabited UserData] (w0 w1 : World UserData)
    (requests : List (Nat × Request)) (result : List (Dccrg UserData × List Nat))
    (hinv : grid_invariant w0)
    (hreq : make_requests w0 requests = some w1) (hstop : stop_refining w1 = some result) :
    grid_invariant (result.map fun r => r.1) := by
  obtain ⟨wp, hwp, hrel⟩ := stop_refining_directory w0 w1 requests result hinv hreq hstop
  have hlen := forall₂_length _ _ hrel
  have hrel' := forall₂_with_mem _ _ hrel
  refine ⟨?_, ?_, ?_⟩
  · rw [List.map_map, List.length_map, ← hlen, ← hinv.1]
    apply forall₂_map_eq
    refine forall₂_imp ?_ _ _ hrel
    rintro g0 r ⟨h, _⟩
    unfold fixed at h
    simp only [Prod.mk.injEq] at h
    exact h.2.1
  · intro g hg
    obtain ⟨r, hr, rfl⟩ := List.mem_map.1 hg
    obtain ⟨g0, hg0, h, hnp, hex, _⟩ := forall₂_mem_right _ _ hrel r hr
    obtain ⟨hcs, hfit, _⟩ := hinv.2.1 g0 hg0
    unfold fixed at h
    simp only [Prod.mk.injEq] at h
    rw [h.1, h.2.2.1, List.length_map, ← hlen]
    exact ⟨hcs, hfit, hex, hnp⟩
  · intro g hg g' hg'
    obtain ⟨r, hr, rfl⟩ := List.mem_map.1 hg
    obtain ⟨r', hr', rfl⟩ := List.mem_map.1 hg'
    obtain ⟨g0, hg0, h, _, _, hd⟩ := forall₂_mem_right _ _ hrel r hr
    obtain ⟨g0', hg0', h', _, _, hd'⟩ := forall₂_mem_right _ _ hrel r' hr'
    have e : r.1.index = g0.index := congrArg (fun t => t.1) h
    have e' : r'.1.index = g0'.index := congrArg (fun t => t.1) h'
    have e0 := (hinv.2.2 g0 hg0 g0' hg0').1
    refine ⟨by rw [e, e', e0], ?_⟩
    intro c hc
    rw [mem_map_keys, hd] at hc
    rw [hd', e0, grid_invariant_has hinv hg0 hg0']
    exact hc

end dccrg
namespace dccrg
open Index Dccrg
variable {UserData : Type}

theorem sum_map_ite_range (pwf a b : Nat) :
    ∀ m, ((List.range m).map fun p => if p < pwf then a else b).sum
      = min m pwf * a + (m - min m pwf) * b := by
  intro m
  induction m with
  | zero => simp
  | succ k ih =>
    rw [List.range_succ, List.map_append, List.sum_append, ih]
    simp only [List.map_cons, List.map_nil, List.sum_cons, List.sum_nil, Nat.add_zero]
    by_cases h : k < pwf
    · rw [if_pos h, Nat.min_eq_left (by omega), Nat.min_eq_left (by omega)]
      simp only [Nat.sub_self, Nat.zero_mul, Nat.add_zero]
      ring
    · rw [if_neg h, Nat.min_eq_right (by omega), Nat.min_eq_right (by omega)]
      have : k + 1 - pwf = (k - pwf) + 1 := by omega
      rw [this]
      ring

/-- The inner loop of the creation of the unrefined cells adds the next `k` ids
to the directory. -/
theorem create_inner [Inhabited UserData] (process rank : Nat) :
    ∀ (k : Nat) (acc : umap Nat × umap UserData × Nat) (n : Nat),
      acc.2.2 = u64 (1 + n) → n + k < 2 ^ 64 →
      (∀ c, map_has acc.1 c = true ↔ 1 ≤ c ∧ c ≤ n) →
      ((List.range k).foldl
        (fun (acc : umap Nat × umap UserData × Nat) (_ : Nat) =>
          (map_set acc.1 acc.2.2 process,
           (if process = rank then map_touch acc.2.1 acc.2.2 else acc.2.1),
           u64 (acc.2.2 + 1))) acc).2.2 = u64 (1 + (n + k)) ∧
      ∀ c, map_has ((List.range k).foldl
        (fun (acc : umap Nat × umap UserData × Nat) (_ : Nat) =>
          (map_set acc.1 acc.2.2 process,
           (if process = rank then map_touch acc.2.1 acc.2.2 else acc.2.1),
           u64 (acc.2.2 + 1))) acc).1 c = true ↔ 1 ≤ c ∧ c ≤ n + k := by
  intro k
  induction k with
  | zero => intro acc n h1 _ h3; exact ⟨h1, h3⟩
  | succ j ih =>
    intro acc n h1 h2 h3
    rw [List.range_succ, List.foldl_append]
    obtain ⟨a1, a2⟩ := ih acc n h1 (by omega) h3
    simp only [List.foldl_cons, List.foldl_nil]
    have e : u64 (1 + (n + j)) = 1 + (n + j) :=
      u64_of_lt (show 1 + (n + j) < 2 ^ 64 by omega)
    constructor
    · rw [a1, e]; congr 1
    · intro c
      rw [map_has_set, a1, e]
      simp only [Bool.or_eq_true, decide_eq_true_eq, a2]
      omega

/-- The loop over the processes of the creation of the unrefined cells. -/
theorem create_outer [Inhabited UserData] (rank : Nat) (ctc : Nat → Nat) :
    ∀ (ps : List Nat) (acc : umap Nat × umap UserData × Nat) (n : Nat),
      acc.2.2 = u64 (1 + n) → n + (ps.map ctc).sum < 2 ^ 64 →
      (∀ c, map_has acc.1 c = true ↔ 1 ≤ c ∧ c ≤ n) →
      (ps.foldl (fun (acc : umap Nat × umap UserData × Nat) process =>
        (List.range (ctc process)).foldl
          (fun (acc : umap Nat × umap UserData × Nat) (_ : Nat) =>
            (map_set acc.1 acc.2.2 process,
             (if process = rank then map_touch acc.2.1 acc.2.2 else acc.2.1),
             u64 (acc.2.2 + 1))) acc) acc).2.2 = u64 (1 + (n + (ps.map ctc).sum)) ∧
      ∀ c, map_has (ps.foldl (fun (acc : umap Nat × umap UserData × Nat) process =>
        (List.range (ctc process)).foldl
          (fun (acc : umap Nat × umap UserData × Nat) (_ : Nat) =>
            (map_set acc.1 acc.2.2 process,
             (if process = rank then map_touch acc.2.1 acc.2.2 else acc.2.1),
             u64 (acc.2.2 + 1))) acc) acc).1 c = true ↔ 1 ≤ c ∧ c ≤ n + (ps.map ctc).sum := by
  intro ps
  induction ps with
  | nil => intro acc n h1 _ h3; exact ⟨h1, by simpa using h3⟩
  | cons p t ih =>
    intro acc n h1 h2 h3
    simp only [List.map_cons, List.sum_cons] at h2 ⊢
    rw [List.foldl_cons]
    obtain ⟨a1, a2⟩ := create_inner p rank (ctc p) acc n h1 (by omega) h3
    obtain ⟨b1, b2⟩ := ih _ (n + ctc p) a1 (by omega) a2
    rw [Nat.add_assoc] at b1 b2
    exact ⟨b1, b2⟩

/-- The directory that `initialize` creates holds exactly the ids `1..grid_length`. -/
theorem create_unrefined_cells_directory [Inhabited UserData] (comm_size rank G : Nat)
    (hcs : comm_size < 2 ^ 64) (hpos : 0 < comm_size) (hG : G < 2 ^ 64) (c : Nat) :
    map_has (create_unrefined_cells comm_size rank G :
      umap Nat × umap UserData × Nat).1 c = true ↔ 1 ≤ c ∧ c ≤ G := by
  unfold create_unrefined_cells
  simp only
  have key : ∀ (cpp pwf : Nat), 1 ≤ cpp → cpp < 2 ^ 64 → pwf ≤ comm_size →
      comm_size * cpp = G + pwf →
      ((List.range comm_size).map fun p => if p < pwf then usub cpp 1 else cpp).sum = G := by
    intro cpp pwf h1 hc h2 h3
    have e : usub cpp 1 = cpp - 1 := by
      unfold usub u64
      have h1' : (1 : Nat) % 2 ^ 64 = 1 := Nat.mod_eq_of_lt (by norm_num)
      rw [h1']
      omega
    rw [e, sum_map_ite_range, Nat.min_eq_right h2]
    have : pwf * (cpp - 1) + (comm_size - pwf) * cpp + pwf = comm_size * cpp := by
      obtain ⟨d, rfl⟩ : ∃ d, cpp = d + 1 := ⟨cpp - 1, by omega⟩
      obtain ⟨e, rfl⟩ : ∃ e, comm_size = pwf + e := ⟨comm_size - pwf, by omega⟩
      simp only [Nat.add_sub_cancel, Nat.add_sub_cancel_left]
      ring
    omega
  have facts : ∃ cpp pwf, 1 ≤ cpp ∧ cpp < 2 ^ 64 ∧ pwf ≤ comm_size ∧
      comm_size * cpp = G + pwf ∧
      (if G < comm_size then 1
        else if G % comm_size > 0 then u64 (G / comm_size + 1) else G / comm_size) = cpp ∧
      usub (u64 (cpp * comm_size)) G = pwf := by
    have hdm := Nat.div_add_mod G comm_size
    have hml := Nat.mod_lt G hpos
    by_cases c1 : G < comm_size
    · refine ⟨1, comm_size - G, le_refl 1, by norm_num, by omega, by omega, by rw [if_pos c1], ?_⟩
      rw [Nat.one_mul, u64_of_lt hcs]
      unfold usub u64
      omega
    · by_cases c2 : G % comm_size > 0
      · have hq : G / comm_size + 1 < 2 ^ 64 := by
          have h2 : 2 ≤ comm_size := by
            by_contra hn
            have : comm_size = 1 := by omega
            rw [this, Nat.mod_one] at c2
            omega
          have : 2 * (G / comm_size) ≤ comm_size * (G / comm_size) :=
            Nat.mul_le_mul_right _ h2
          omega
        refine ⟨G / comm_size + 1, comm_size - G % comm_size, Nat.le_add_left 1 _, hq,
          Nat.sub_le _ _, ?_,
          by rw [if_neg c1, if_pos c2, u64_of_lt hq], ?_⟩
        · rw [Nat.mul_add, Nat.mul_one]; omega
        · have e : (G / comm_size + 1) * comm_size = G + (comm_size - G % comm_size) := by
            rw [Nat.add_mul, Nat.one_mul, Nat.mul_comm]; omega
          rw [e]
          unfold usub u64
          omega
      · have hz : G % comm_size = 0 := by omega
        have hq : 1 ≤ G / comm_size := Nat.div_pos (by omega) hpos
        have hle : G / comm_size ≤ G := Nat.div_le_self _ _
        refine ⟨G / comm_size, 0, hq, by omega, by omega, by omega,
          by rw [if_neg c1, if_neg c2], ?_⟩
        have e : G / comm_size * comm_size = G := by rw [Nat.mul_comm]; omega
        rw [e]
        unfold usub u64
        omega
  obtain ⟨cpp, pwf, f1, f2, f3, f4, f5, f6⟩ := facts
  rw [f5, f6]
  have hsum := key cpp pwf f1 f2 f3 f4
  have := (@create_outer UserData _ rank
    (fun p => if p < pwf then usub cpp 1 else cpp) (List.range comm_size) ([], [], 1) 0 rfl
    (by rw [hsum]; omega) (by intro c; simp only [map_has, map_find]; simp; omega)).2 c
  rw [hsum, Nat.zero_add] at this
  exact this

/-- What `initialize` leaves on a process: its rank, the size of the communicator,
an `Index` that does not depend on the process, no pending request, and the directory
of the unrefined cells. -/
theorem initialize_grid_spec [Inhabited UserData] (index : Index) (comm_size rank : Nat)
    (neighborhood_size : Nat) (maximum_refinement_level maximum_possible : Int)
    (periodic_in_x periodic_in_y periodic_in_z : Bool) (g : Dccrg UserData)
    (h : Dccrg.initialize_grid index comm_size rank neighborhood_size
      maximum_refinement_level maximum_possible periodic_in_x periodic_in_y periodic_in_z
      = some g) :
    g.rank = rank ∧ g.comm_size = comm_size ∧
    g.index = (if maximum_refinement_level < 0 then
        index.set_maximum_refinement_level maximum_possible maximum_possible
      else index.set_maximum_refinement_level maximum_possible maximum_refinement_level).1 ∧
    g.no_pending ∧
    g.cell_process = (create_unrefined_cells comm_size rank g.index.grid_length :
      umap Nat × umap UserData × Nat).1 := by
  unfold Dccrg.initialize_grid at h
  simp only at h
  generalize (if maximum_refinement_level < 0 then
        index.set_maximum_refinement_level maximum_possible maximum_possible
      else index.set_maximum_refinement_level maximum_possible maximum_refinement_level)
    = sl at h ⊢
  split_ifs at h with c1 c2
  simp only [Option.bind_eq_some, Option.map_eq_some'] at h
  obtain ⟨g1, h1, g2, h2, h3⟩ := h
  subst h3
  have e1 := foldlM_preserves update_remote_neighbor_info_cell
    (fun s : Dccrg UserData => (s.fixed, s.cell_process, s.cells_to_refine,
      s.cells_to_unrefine, s.cells_not_to_unrefine)) (by
      intro s a s' hs
      obtain ⟨⟨a1, a2⟩, _, ⟨a3, a4, a5⟩, _⟩ :=
        same_all_of_relevant (update_remote_neighbor_info_cell_frame s s' a hs)
      simp only [a1, a2, a3, a4, a5]) _ _ _ h1
  obtain ⟨⟨b1, b2⟩, _, ⟨b3, b4, b5⟩⟩ := recalculate_frame _ _ h2
  have e0 := fun (g0 : Dccrg UserData) (l : List Nat) => foldl_preserves
    initialize_neighbors
    (fun s : Dccrg UserData => (s.fixed, s.cell_process, s.cells_to_refine,
      s.cells_to_unrefine, s.cells_not_to_unrefine)) (by intro s a; rfl) l g0
  simp only at e0 e1
  rw [e0] at e1
  simp only [Prod.mk.injEq] at e1
  obtain ⟨d1, d2, d3, d4, d5⟩ := e1
  have hfix := b1.trans d1
  unfold fixed at hfix
  simp only [Prod.mk.injEq] at hfix
  obtain ⟨k1, k2, k3, _⟩ := hfix
  refine ⟨k2, k3, k1, ⟨b3.trans d3, b4.trans d4, b5.trans d5⟩, ?_⟩
  simp only
  rw [b2, d2, k1]

theorem grid_length_le_last {ix : Index} (hfit : ix.ids_fit) :
    ix.grid_length ≤ ix.last_cell ∧ ix.last_cell < 2 ^ 64 := by
  obtain ⟨f0, f1, f2, f3⟩ := hfit
  have e1 : ids_below (ix.x_length * ix.y_length * ix.z_length) 1
      = ix.x_length * ix.y_length * ix.z_length := by simp [ids_below]
  have := ids_below_mono (ix.x_length * ix.y_length * ix.z_length)
    (show 1 ≤ ix.max_refinement_level.toNat + 1 by omega)
  rw [e1, ← f2, ← f1] at this
  have h64 : (2 : Nat) ^ 64 - 1 < 2 ^ 64 := by norm_num
  exact ⟨this, by omega⟩

/-- The construction of the grid on all processes establishes the invariant of
the reachable worlds, for a grid whose ids fit in 64 bits. -/
theorem initialize_world_invariant [Inhabited UserData] (index : Index)
    (comm_size neighborhood_size : Nat) (maximum_refinement_level maximum_possible : Int)
    (periodic_in_x periodic_in_y periodic_in_z : Bool) (w : World UserData)
    (hcs : comm_size < 2 ^ 31)
    (h : initialize_world index comm_size neighborhood_size maximum_refinement_level
      maximum_possible periodic_in_x periodic_in_y periodic_in_z = some w)
    (hfit : ∀ g ∈ w, g.index.ids_fit) : grid_invariant w := by
  unfold initialize_world at h
  rw [mapM_some_iff] at h
  have hlen := forall₂_length _ _ h
  rw [List.length_range] at hlen
  have hspec : ∀ g ∈ w, g.comm_size = comm_size ∧
      g.index = (if maximum_refinement_level < 0 then
        index.set_maximum_refinement_level maximum_possible maximum_possible
      else index.set_maximum_refinement_level maximum_possible maximum_refinement_level).1 ∧
      g.no_pending ∧ ∀ c, map_has g.cell_process c = true ↔ 1 ≤ c ∧ c ≤ g.index.grid_length := by
    intro g hg
    obtain ⟨rank, hrank, hinit⟩ := forall₂_mem_right _ _ h g hg
    obtain ⟨_, a2, a3, a4, a5⟩ := initialize_grid_spec _ _ _ _ _ _ _ _ _ g hinit
    refine ⟨a2, a3, a4, ?_⟩
    intro c
    rw [a5]
    have hpos : 0 < comm_size := by
      have := List.mem_range.1 hrank
      omega
    have hG : g.index.grid_length < 2 ^ 64 := by
      have := grid_length_le_last (hfit g hg)
      omega
    exact create_unrefined_cells_directory comm_size rank _
      (lt_trans hcs (by norm_num)) hpos hG c
  refine ⟨?_, ?_, ?_⟩
  · rw [← hlen]
    have := forall₂_map_eq (fun (r : Nat) => r) (fun (g : Dccrg UserData) => g.rank)
      (List.range comm_size) w (forall₂_imp (fun rank g hg =>
        (initialize_grid_spec _ _ _ _ _ _ _ _ _ g hg).1) _ _ h)
    rw [this, List.map_id']
  · intro g hg
    obtain ⟨a1, a2, a3, a4⟩ := hspec g hg
    have hf := hfit g hg
    refine ⟨by rw [a1, hlen], hf, ⟨?_, ?_, ?_⟩, a3⟩
    · intro c hc
      rw [mem_map_keys, a4] at hc
      have := grid_length_le_last hf
      omega
    · intro c hc1 hc2
      rw [a4]; omega
    · intro c hc hl
      rw [mem_map_keys, a4] at hc
      exfalso
      apply hl
      have := grid_length_le_last hf
      exact (level_zero_iff (hfit g hg) hc.1 (by omega)).2 (by omega)
  · intro g hg g' hg'
    obtain ⟨_, a2, _, a4⟩ := hspec g hg
    obtain ⟨_, b2, _, b4⟩ := hspec g' hg'
    refine ⟨by rw [a2, b2], ?_⟩
    intro c hc
    rw [mem_map_keys, a4] at hc
    rw [b4, b2, ← a2]
    exact hc

end dccrg
namespace dccrg
open Index Dccrg
variable {UserData : Type}

namespace Dccrg

theorem local_store_ok_congr {g g' : Dccrg UserData} (hi : g'.index = g.index)
    (hr : g'.rank = g.rank) (hd : g'.cell_process = g.cell_process)
    (hc : g'.cells = g.cells)
    (hw : g'.cells_with_remote_neighbors = g.cells_with_remote_neighbors)
    (h : g.local_store_ok) : g'.local_store_ok := by
  have hd' : ∀ c, map_has g'.cell_process c = map_has g.cell_process c := by
    intro c; rw [hd]
  unfold local_store_ok at h ⊢
  simp only [get_child_congr g g' hi hd', hr, hd, hc, hw]
  exact h

end Dccrg

/-- A world that differs from a consistent world only in the pending requests of
its processes is consistent. -/
theorem consistent_of_same_but_requests (w w' : World UserData)
    (hrel : List.Forall₂ (fun g g' => g.same_but_requests g') w w') (h : consistent w) :
    consistent w' := by
  have hlen := forall₂_length _ _ hrel
  obtain ⟨h1, h2, h3⟩ := h
  have hf : ∀ g' ∈ w', ∃ g ∈ w, g'.fixed = g.fixed ∧ g'.cell_process = g.cell_process ∧
      g'.cells = g.cells ∧
      g'.cells_with_remote_neighbors = g.cells_with_remote_neighbors := by
    intro g' hg'
    obtain ⟨g, hg, a⟩ := forall₂_mem_right _ _ hrel g' hg'
    obtain ⟨f1, f2, f3, _, f5⟩ := same_but_requests_fields a
    unfold neighbor_data at f5
    simp only [Prod.mk.injEq] at f5
    exact ⟨g, hg, f1, f2, f3.1, f5.2.2.1⟩
  refine ⟨?_, ?_, ?_⟩
  · rw [← hlen, ← h1]
    apply forall₂_map_eq
    refine forall₂_imp ?_ _ _ hrel
    intro g g' a
    obtain ⟨f1, _⟩ := same_but_requests_fields a
    unfold fixed at f1
    simp only [Prod.mk.injEq] at f1
    exact f1.2.1
  · intro g' hg'
    obtain ⟨g, hg, f1, f2, f3, f4⟩ := hf g' hg'
    obtain ⟨a1, a2, a3, a4, a5⟩ := h2 g hg
    unfold fixed at f1
    simp only [Prod.mk.injEq] at f1
    obtain ⟨k1, k2, k3, _⟩ := f1
    refine ⟨by rw [k3, a1, hlen], by rw [k1]; exact a2,
      existence_invariant_congr k1 (by intro c; rw [f2]) a3,
      local_store_ok_congr k1 k2 f2 f3 f4 a4, ?_⟩
    rw [f2, ← hlen]
    exact a5
  · intro g' hg' g'' hg''
    obtain ⟨g, hg, f1, f2, _⟩ := hf g' hg'
    obtain ⟨gb, hgb, e1, e2, _⟩ := hf g'' hg''
    have := h3 g hg gb hgb
    unfold same_grid at this ⊢
    unfold fixed at f1 e1
    simp only [Prod.mk.injEq] at f1 e1
    obtain ⟨k1, k2, k3, k4, k5, k6, k7⟩ := f1
    obtain ⟨m1, m2, m3, m4, m5, m6, m7⟩ := e1
    rw [k1, k4, k5, k6, k7, m1, m4, m5, m6, m7, f2, e2]
    exact this

theorem consistent_grid_invariant (w : World UserData) (h : consistent w)
    (hnp : ∀ g ∈ w, g.no_pending) : grid_invariant w := by
  obtain ⟨h1, h2, h3⟩ := h
  refine ⟨h1, ?_, ?_⟩
  · intro g hg
    obtain ⟨a1, a2, a3, _⟩ := h2 g hg
    exact ⟨a1, a2, a3, hnp g hg⟩
  · intro g hg g' hg'
    obtain ⟨b1, _, _, _, _, b6⟩ := h3 g hg g' hg'
    refine ⟨b1.symm, ?_⟩
    intro c hc
    have := b6 c hc
    rw [mem_map_keys, map_has_iff] at hc
    obtain ⟨v, hv⟩ := hc
    rw [map_has_iff]
    exact ⟨v, by rw [this, hv]⟩

/-- In a consistent world every process has the same owner for every cell. -/
theorem consistent_owner {w : World UserData} (h : consistent w) {g g' : Dccrg UserData}
    (hg : g ∈ w) (hg' : g' ∈ w) (c : Nat) :
    map_find g'.cell_process c = map_find g.cell_process c := by
  cases h1 : map_find g.cell_process c with
  | some v =>
    have := (h.2.2 g hg g' hg').2.2.2.2.2 c ((mem_map_keys _ _).2 ((map_has_iff _ _).2 ⟨v, h1⟩))
    rw [this, h1]
  | none =>
    cases h2 : map_find g'.cell_process c with
    | none => rfl
    | some v =>
      have := (h.2.2 g' hg' g hg).2.2.2.2.2 c
        ((mem_map_keys _ _).2 ((map_has_iff _ _).2 ⟨v, h2⟩))
      rw [h1, h2] at this
      exact absurd this (by simp)

/-- In a consistent world the owner of a cell is a process of the world. -/
theorem consistent_owner_exists {w : World UserData} (h : consistent w)
    {g : Dccrg UserData} (hg : g ∈ w) {c q : Nat} (hc : map_find g.cell_process c = some q) :
    ∃ gq ∈ w, gq.rank = q := by
  have hq := (h.2.1 g hg).2.2.2.2 c ((mem_map_keys _ _).2 ((map_has_iff _ _).2 ⟨q, hc⟩)) q
    (by rw [hc]; rfl)
  have hmem : q ∈ w.map fun g => g.rank := by
    rw [h.1]; exact List.mem_range.2 hq
  obtain ⟨gq, hgq, hr⟩ := List.mem_map.1 hmem
  exact ⟨gq, hgq, hr⟩

end dccrg
namespace dccrg
open Index Dccrg
namespace Dccrg
variable {UserData : Type}

/-- The steps of `execute_refines` on one process up to the wait for the transfers. -/
theorem before_wait_steps [Inhabited UserData] (g : Dccrg UserData)
    (res : Dccrg UserData × List Nat × uset)
    (h : g.execute_refines_before_wait = some res) :
    ∃ (acc1 : Dccrg UserData × List Nat × uset) (acc2 : Dccrg UserData × uset)
      (g3 : Dccrg UserData) (acc4 : Dccrg UserData × uset) (g5 g6 : Dccrg UserData),
      g.cells_to_refine.foldlM execute_refines_refine (g.execute_refines_clear, [], [])
        = some acc1 ∧
      acc1.1.collect_unrefines.2.foldlM execute_refines_unrefine (acc1.1, acc1.2.2)
        = some acc2 ∧
      acc2.1.start_user_data_transfers = some g3 ∧
      acc1.1.collect_unrefines.1.foldlM execute_refines_parent (g3, acc2.2) = some acc4 ∧
      acc4.2.foldlM update_neighbors acc4.1 = some g5 ∧
      g5.remove_neighbor_lists acc1.1.collect_unrefines.2 = some g6 ∧
      g6.update_remote_neighbor_info = some res.1 ∧
      res.2.1 = acc1.2.1 ∧ res.2.2 = acc1.1.collect_unrefines.2 := by
  unfold execute_refines_before_wait at h
  simp only [Option.bind_eq_some, Option.map_eq_some'] at h
  obtain ⟨acc1, h1, acc2, h2, g3, h3, acc4, h4, g5, h5, g6, h6, g7, h7, hres⟩ := h
  subst hres
  exact ⟨acc1, acc2, g3, acc4, g5, g6, h1, h2, h3, h4, h5, h6, h7, rfl, rfl⟩

/-- The loop over `cells_to_refine` on the owner of a cell `c` of level `n`: if
the refined cells below level `n` have no children in the directory, the loop only
succeeds when `c` is in the local store. -/
theorem refine_loop_owner_has [Inhabited UserData] (g : Dccrg UserData)
    (hfit : g.index.ids_fit) (hinv : g.existence_invariant) (l : List Nat) (n : Int)
    (hlow : ∀ c ∈ l, g.index.get_refinement_level c < n →
      ∀ x ∈ g.index.children_of c, map_has g.cell_process x = false)
    (nc : List Nat) (upd : uset) (acc : Dccrg UserData × List Nat × uset)
    (h : l.foldlM execute_refines_refine (g, nc, upd) = some acc) :
    ∀ c ∈ l, g.index.get_refinement_level c = n →
      map_find g.cell_process c = some g.rank → map_has g.cells c = true := by
  have key := foldlM_invariant execute_refines_refine
    (fun done (s : Dccrg UserData × List Nat × uset) =>
      s.1.fixed = g.fixed ∧ s.1.existence_invariant ∧
      (∀ x, map_has g.cell_process x = true → g.index.get_refinement_level x ≤ n →
        map_find s.1.cell_process x = map_find g.cell_process x ∧
        (map_has s.1.cells x = true → map_has g.cells x = true)) ∧
      ∀ c ∈ done, g.index.get_refinement_level c = n →
        map_find g.cell_process c = some g.rank → map_has g.cells c = true)
    l (g, nc, upd) acc ⟨rfl, hinv, fun x _ _ => ⟨rfl, fun h => h⟩, by simp⟩ ?_ h
  · exact key.2.2.2
  · rintro done a ⟨s, snc, supd⟩ ⟨s', snc', supd'⟩ ⟨f1, f2, f3, f4⟩ ha hs
    simp only at f1 f2 f3 f4 ⊢
    have hix : s.index = g.index := congrArg (fun t => t.1) f1
    have hrk : s.rank = g.rank := congrArg (fun t => t.2.1) f1
    obtain ⟨e1, _⟩ := execute_refines_refine_frame s snc supd a s' snc' supd' hs
    obtain ⟨d1, d2, d3⟩ := execute_refines_refine_directory s (by rw [hix]; exact hfit) f2
      snc supd a s' snc' supd' hs
    obtain ⟨p, hp, hdir, hown, hother⟩ := execute_refines_refine_eq s snc supd a s' snc' supd' hs
    obtain ⟨v1, v2⟩ := f2.1 a ((mem_map_keys _ _).2 d1)
    rw [get_all_children_of_has s (by omega) d1, hix] at hdir hown
    rw [hix] at v2
    have hnot : ∀ x, map_has g.cell_process x = true → g.index.get_refinement_level x ≤ n →
        x ∉ g.index.children_of a := by
      intro x hx hl hmem
      have f := children_of_facts hfit v1 v2 hmem
      have := hlow a ha (by omega) x hmem
      rw [hx] at this
      exact Bool.noConfusion this
    refine ⟨e1.trans f1, d3, ?_, ?_⟩
    · intro x hx hl
      obtain ⟨g1, g2⟩ := f3 x hx hl
      refine ⟨?_, ?_⟩
      · rw [hdir, map_find_foldl_set, if_neg (hnot x hx hl), g1]
      · intro hc
        apply g2
        by_cases hpr : p = s.rank
        · obtain ⟨data, _, _, e⟩ := hown hpr
          rw [e] at hc
          simp only at hc
          rw [map_has_foldl_touch] at hc
          simp only [Bool.or_eq_true, decide_eq_true_eq] at hc
          rcases hc with hc | hc
          · exact absurd hc (hnot x hx hl)
          · rw [map_has_erase] at hc
            simp only [Bool.and_eq_true] at hc
            exact hc.2
        · obtain ⟨_, e⟩ := hother hpr
          rw [e] at hc
          exact hc
    · intro c hc hl ho
      rcases List.mem_append.1 hc with hc | hc
      · exact f4 c hc hl ho
      · simp only [List.mem_singleton] at hc
        subst hc
        have hcd : map_has g.cell_process c = true := (map_has_iff _ _).2 ⟨_, ho⟩
        obtain ⟨g1, g2⟩ := f3 c hcd (by omega)
        apply g2
        rw [g1, ho] at hp
        simp only [Option.some.injEq] at hp
        obtain ⟨data, hd, _⟩ := hown (by rw [← hp, hrk])
        exact (map_has_iff _ _).2 ⟨data, hd⟩

end Dccrg
end dccrg

namespace dccrg
open Index Dccrg
variable {UserData : Type}

/-- Every cell of the global refine set is a leaf, and it is in the local store of
its owner: otherwise `execute_refines` does not return on the owner. -/
theorem refines_are_leaves [Inhabited UserData] (wp : World UserData)
    (before : List (Dccrg UserData × List Nat × uset)) (hcons : consistent wp)
    (hsame : ∀ gp ∈ wp, ∀ c ∈ gp.cells_to_refine, ∀ gq ∈ wp, c ∈ gq.cells_to_refine)
    (hdir : ∀ gp ∈ wp, ∀ c ∈ gp.cells_to_refine, map_has gp.cell_process c = true)
    (hbefore : List.Forall₂ (fun g b => g.execute_refines_before_wait = some b) wp before) :
    ∀ gp ∈ wp, ∀ c ∈ gp.cells_to_refine, gp.get_child c = c ∧
      (map_find gp.cell_process c = some gp.rank → map_has gp.cells c = true) := by
  have hcongr : ∀ g ∈ wp, ∀ g' ∈ wp, g'.index = g.index ∧
      ∀ c, map_has g'.cell_process c = map_has g.cell_process c := by
    intro g hg g' hg'
    refine ⟨(hcons.2.2 g hg g' hg').1.symm, ?_⟩
    intro c
    unfold map_has
    rw [consistent_owner hcons hg hg' c]
  have hleaf : ∀ gp ∈ wp, ∀ c, map_has gp.cell_process c = true →
      (∀ gq ∈ wp, map_find gq.cell_process c = some gq.rank → map_has gq.cells c = true) →
      gp.get_child c = c := by
    intro gp hgp c hc hown
    obtain ⟨q, hq⟩ := (map_has_iff _ _).1 hc
    obtain ⟨gq, hgq, hr⟩ := consistent_owner_exists hcons hgp hq
    have e := consistent_owner hcons hgp hgq c
    have := hown gq hgq (by rw [e, hq, hr])
    have hl := ((hcons.2.1 gq hgq).2.2.2.1.1 c ((mem_map_keys _ _).2 this)).2
    obtain ⟨i1, i2⟩ := hcongr gq hgq gp hgp
    rw [get_child_congr gq gp i1 i2]
    exact hl
  have main : ∀ (n : Nat), ∀ gp ∈ wp, ∀ c ∈ gp.cells_to_refine,
      gp.index.get_refinement_level c = (n : Int) →
      ∀ gq ∈ wp, map_find gq.cell_process c = some gq.rank → map_has gq.cells c = true := by
    intro n
    induction n using Nat.strong_induction_on with
    | _ n ih =>
      intro gp hgp c hc hlvl gq hgq hown
      obtain ⟨b, _, hb⟩ := forall₂_mem_left _ _ hbefore gq hgq
      obtain ⟨acc1, _, _, _, _, _, h1, _⟩ := before_wait_steps gq b hb
      obtain ⟨_, hfit, hex, _⟩ := hcons.2.1 gq hgq
      obtain ⟨i1, i2⟩ := hcongr gp hgp gq hgq
      refine refine_loop_owner_has gq.execute_refines_clear hfit hex gq.cells_to_refine (n : Int)
        ?_ [] [] acc1 h1 c (hsame gp hgp c hc gq hgq) (by
          show gq.index.get_refinement_level c = (n : Int)
          rw [i1]; exact hlvl) hown
      intro c' hc' hl' x hx
      have hl'' : gq.index.get_refinement_level c' < (n : Int) := hl'
      have hx' : x ∈ gq.index.children_of c' := hx
      show map_has gq.cell_process x = false
      have hcd := hdir gq hgq c' hc'
      obtain ⟨v1, v2⟩ := hex.1 c' ((mem_map_keys _ _).2 hcd)
      obtain ⟨l0, _⟩ := level_of_valid hfit v1 v2
      obtain ⟨m, hm⟩ := Int.eq_ofNat_of_zero_le l0
      have hmn : m < n := by omega
      have := hleaf gq hgq c' hcd (ih m hmn gq hgq c' hc' hm)
      exact (leaf_iff_no_child gq hfit hex hcd).1 this x hx'
  intro gp hgp c hc
  have hcd := hdir gp hgp c hc
  obtain ⟨_, hfit, hex, _⟩ := hcons.2.1 gp hgp
  obtain ⟨v1, v2⟩ := hex.1 c ((mem_map_keys _ _).2 hcd)
  obtain ⟨l0, _⟩ := level_of_valid hfit v1 v2
  obtain ⟨n, hn⟩ := Int.eq_ofNat_of_zero_le l0
  exact ⟨hleaf gp hgp c hcd (main n gp hgp c hc hn), main n gp hgp c hc hn gp hgp⟩

end dccrg
namespace dccrg
open Index Dccrg
namespace Dccrg
variable {UserData : Type}

/-- The loop over `cells_to_refine` when every refined cell is a leaf of the
directory: the directory, the local store, `refined_cell_data` and `new_cells`
after the loop. -/
theorem refine_loop_spec [Inhabited UserData] (g : Dccrg UserData)
    (hfit : g.index.ids_fit) (hinv : g.existence_invariant) (l : List Nat)
    (hleaf : ∀ c ∈ l, map_has g.cell_process c = true ∧
      ∀ x ∈ g.index.children_of c, map_has g.cell_process x = false)
    (nc : List Nat) (upd : uset) (acc : Dccrg UserData × List Nat × uset)
    (h : l.foldlM execute_refines_refine (g, nc, upd) = some acc) :
    (∀ r ∈ l, ∀ x ∈ g.index.children_of r,
      map_find acc.1.cell_process x = map_find g.cell_process r) ∧
    (∀ x, (∀ r ∈ l, x ∉ g.index.children_of r) →
      map_find acc.1.cell_process x = map_find g.cell_process x) ∧
    (∀ r ∈ l, map_find g.cell_process r = some g.rank →
      map_has acc.1.cells r = false ∧
      (∀ x ∈ g.index.children_of r, map_has acc.1.cells x = true) ∧
      map_find acc.1.refined_cell_data r = map_find g.cells r ∧
      map_has g.cells r = true) ∧
    (∀ x, (x ∈ l → map_find g.cell_process x ≠ some g.rank) →
      (∀ r ∈ l, x ∉ g.index.children_of r) →
      map_find acc.1.cells x = map_find g.cells x) ∧
    (∀ x, map_has acc.1.refined_cell_data x = true →
      map_has g.refined_cell_data x = true ∨ x ∈ l) ∧
    acc.2.1 = nc ++ (l.filter fun c => map_find g.cell_process c == some g.rank).flatMap
      g.index.children_of := by
  have hchild_not_l : ∀ r ∈ l, ∀ x ∈ g.index.children_of r, x ∉ l := by
    intro r hr x hx hxl
    have := (hleaf r hr).2 x hx
    rw [(hleaf x hxl).1] at this
    exact Bool.noConfusion this
  have hvalid : ∀ r ∈ l, 1 ≤ r ∧ r ≤ g.index.last_cell :=
    fun r hr => hinv.1 r ((mem_map_keys _ _).2 (hleaf r hr).1)
  have key := foldlM_invariant execute_refines_refine
    (fun done (s : Dccrg UserData × List Nat × uset) =>
      (∀ r ∈ done, r ∈ l) ∧
      s.1.fixed = g.fixed ∧ s.1.existence_invariant ∧
      (∀ r ∈ done, ∀ x ∈ g.index.children_of r,
        map_find s.1.cell_process x = map_find g.cell_process r) ∧
      (∀ x, (∀ r ∈ done, x ∉ g.index.children_of r) →
        map_find s.1.cell_process x = map_find g.cell_process x) ∧
      (∀ r ∈ done, map_find g.cell_process r = some g.rank →
        map_has s.1.cells r = false ∧
        (∀ x ∈ g.index.children_of r, map_has s.1.cells x = true) ∧
        map_find s.1.refined_cell_data r = map_find g.cells r ∧
        map_has g.cells r = true) ∧
      (∀ x, (x ∈ done → map_find g.cell_process x ≠ some g.rank) →
        (∀ r ∈ done, x ∉ g.index.children_of r) →
        map_find s.1.cells x = map_find g.cells x) ∧
      (∀ x, map_has s.1.refined_cell_data x = true →
        map_has g.refined_cell_data x = true ∨ x ∈ done) ∧
      s.2.1 = nc ++ (done.filter fun c => map_find g.cell_process c == some g.rank).flatMap
        g.index.children_of)
    l (g, nc, upd) acc ?_ ?_ h
  · exact ⟨key.2.2.2.1, key.2.2.2.2.1, key.2.2.2.2.2.1, key.2.2.2.2.2.2.1,
      key.2.2.2.2.2.2.2.1, key.2.2.2.2.2.2.2.2⟩
  · refine ⟨by simp, rfl, hinv, by simp, fun x _ => rfl, by simp, fun x _ _ => rfl,
      fun x hx => Or.inl hx, by simp⟩
  · rintro done a ⟨s, snc, supd⟩ ⟨s', snc', supd'⟩ ⟨f0, f1, f2, f3, f4, f5, f6, f7, f8⟩ ha hs
    simp only at f0 f1 f2 f3 f4 f5 f6 f7 f8 ⊢
    have hix : s.index = g.index := congrArg (fun t => t.1) f1
    have hrk : s.rank = g.rank := congrArg (fun t => t.2.1) f1
    obtain ⟨e1, _⟩ := execute_refines_refine_frame s snc supd a s' snc' supd' hs
    obtain ⟨d1, d2, d3⟩ := execute_refines_refine_directory s (by rw [hix]; exact hfit) f2
      snc supd a s' snc' supd' hs
    obtain ⟨p, hp, hdir, hown, hother⟩ := execute_refines_refine_eq s snc supd a s' snc' supd' hs
    obtain ⟨v1, v2⟩ := hvalid a ha
    rw [get_all_children_of_has s (by omega) d1, hix] at hdir hown
    -- the refined cell is not a child of a refined cell
    have ha_nochild : ∀ r ∈ l, a ∉ g.index.children_of r :=
      fun r hr hmem => hchild_not_l r hr a hmem ha
    have hpa : map_find g.cell_process a = some p := by
      rw [← f4 a (fun r hr => ha_nochild r (f0 r hr))]
      exact hp
    -- a cell refined before is not a child of the refined cell
    have hdone_nochild : ∀ r ∈ l, r ∉ g.index.children_of a :=
      fun r hr hmem => hchild_not_l a ha r hmem hr
    have huniq : ∀ r ∈ l, ∀ x, x ∈ g.index.children_of r → x ∈ g.index.children_of a →
        r = a := by
      intro r hr x h1 h2
      obtain ⟨w1, w2⟩ := hvalid r hr
      exact children_of_parent_unique hfit w1 w2 v1 v2 h1 h2
    have hnotself : a ∉ g.index.children_of a := ha_nochild a ha
    -- the cell has not been refined before on its owner
    have hfresh : p = g.rank → a ∉ done := by
      intro hpr hmem
      obtain ⟨data, hd, _⟩ := hown (by rw [hpr, hrk])
      have := (f5 a hmem (by rw [hpa, hpr])).1
      rw [(map_has_false_iff _ _).1 this] at hd
      exact absurd hd (by simp)
    have hcells : p = g.rank → ∃ data, map_find g.cells a = some data ∧
        snc' = snc ++ g.index.children_of a ∧
        s'.cells = (g.index.children_of a).foldl map_touch (map_erase s.cells a) ∧
        s'.refined_cell_data = map_set s.refined_cell_data a data := by
      intro hpr
      obtain ⟨data, hd, hn, e⟩ := hown (by rw [hpr, hrk])
      refine ⟨data, ?_, hn, by rw [e], by rw [e]⟩
      rw [← f6 a (fun hmem => absurd hmem (hfresh hpr))
        (fun r hr => ha_nochild r (f0 r hr))]
      exact hd
    have hnocells : p ≠ g.rank → snc' = snc ∧ s'.cells = s.cells ∧
        s'.refined_cell_data = s.refined_cell_data := by
      intro hpr
      obtain ⟨hn, e⟩ := hother (by rw [hrk]; exact hpr)
      exact ⟨hn, by rw [e], by rw [e]⟩
    refine ⟨?_, e1.trans f1, d3, ?_, ?_, ?_, ?_, ?_, ?_⟩
    · intro r hr
      rcases List.mem_append.1 hr with hr | hr
      · exact f0 r hr
      · simp only [List.mem_singleton] at hr; rw [hr]; exact ha
    · intro r hr x hx
      rw [hdir, map_find_foldl_set]
      rcases List.mem_append.1 hr with hr | hr
      · by_cases hxa : x ∈ g.index.children_of a
        · rw [if_pos hxa, huniq r (f0 r hr) x hx hxa, hpa]
        · rw [if_neg hxa]; exact f3 r hr x hx
      · simp only [List.mem_singleton] at hr
        subst hr
        rw [if_pos hx, hpa]
    · intro x hx
      rw [hdir, map_find_foldl_set, if_neg (hx a (by simp))]
      exact f4 x (fun r hr => hx r (List.mem_append.2 (Or.inl hr)))
    · intro r hr hor
      by_cases hpr : p = g.rank
      · obtain ⟨data, hd, _, hc, hrcd⟩ := hcells hpr
        rcases List.mem_append.1 hr with hr | hr
        · obtain ⟨b1, b2, b3, b4⟩ := f5 r hr hor
          have hra : r ≠ a := fun e => hfresh hpr (e ▸ hr)
          refine ⟨?_, ?_, ?_, b4⟩
          · rw [hc, map_has_foldl_touch, map_has_erase, b1]
            simp [hdone_nochild r (f0 r hr)]
          · intro x hx
            rw [hc, map_has_foldl_touch, map_has_erase, b2 x hx]
            have : a ≠ x := fun e => ha_nochild r (f0 r hr) (e ▸ hx)
            simp [this]
          · rw [hrcd, map_find_set, if_neg (fun e => hra e.symm)]
            exact b3
        · simp only [List.mem_singleton] at hr
          subst hr
          refine ⟨?_, ?_, ?_, (map_has_iff _ _).2 ⟨data, hd⟩⟩
          · rw [hc, map_has_foldl_touch, map_has_erase]
            simp [hnotself]
          · intro x hx
            rw [hc, map_has_foldl_touch]
            simp [hx]
          · rw [hrcd, map_find_set, if_pos rfl, hd]
      · obtain ⟨_, hc, hrcd⟩ := hnocells hpr
        rcases List.mem_append.1 hr with hr | hr
        · rw [hc, hrcd]; exact f5 r hr hor
        · simp only [List.mem_singleton] at hr
          subst hr
          rw [hpa] at hor
          simp only [Option.some.injEq] at hor
          exact absurd hor hpr
    · intro x hx1 hx2
      have hx2' : ∀ r ∈ done, x ∉ g.index.children_of r :=
        fun r hr => hx2 r (List.mem_append.2 (Or.inl hr))
      have hx1' : x ∈ done → map_find g.cell_process x ≠ some g.rank :=
        fun hm => hx1 (List.mem_append.2 (Or.inl hm))
      by_cases hpr : p = g.rank
      · obtain ⟨data, hd, _, hc, _⟩ := hcells hpr
        have hxa : a ≠ x := by
          intro e
          subst e
          exact hx1 (by simp) (by rw [hpa, hpr])
        rw [hc, map_find_foldl_touch_of_not_mem _ _ _ (hx2 a (by simp)), map_find_erase,
          if_neg hxa]
        exact f6 x hx1' hx2'
      · obtain ⟨_, hc, _⟩ := hnocells hpr
        rw [hc]
        exact f6 x hx1' hx2'
    · intro x hx
      by_cases hpr : p = g.rank
      · obtain ⟨data, _, _, _, hrcd⟩ := hcells hpr
        rw [hrcd, map_has_set] at hx
        simp only [Bool.or_eq_true, decide_eq_true_eq] at hx
        rcases hx with hx | hx
        · exact Or.inr (List.mem_append.2 (Or.inr (by simp [hx])))
        · rcases f7 x hx with h | h
          · exact Or.inl h
          · exact Or.inr (List.mem_append.2 (Or.inl h))
      · obtain ⟨_, _, hrcd⟩ := hnocells hpr
        rw [hrcd] at hx
        rcases f7 x hx with h | h
        · exact Or.inl h
        · exact Or.inr (List.mem_append.2 (Or.inl h))
    · rw [List.filter_append, List.flatMap_append]
      by_cases hpr : p = g.rank
      · obtain ⟨data, _, hn, _, _⟩ := hcells hpr
        rw [hn, f8]
        simp [hpa, hpr]
      · obtain ⟨hn, _, _⟩ := hnocells hpr
        rw [hn, f8]
        have : (map_find g.cell_process a == some g.rank) = false := by
          rw [hpa]; simp [hpr]
        simp [this]

end Dccrg
end dccrg
namespace dccrg
open Index Dccrg
namespace Dccrg
variable {UserData : Type}

/-- The loop over `all_to_unrefine` and the local store: only cells of the list
leave the store, and the payloads of the other cells stay. -/
theorem unrefine_loop_cells (g : Dccrg UserData) (l : List Nat) (upd : uset)
    (acc : Dccrg UserData × uset)
    (h : l.foldlM execute_refines_unrefine (g, upd) = some acc) :
    (∀ x, x ∉ l → map_find acc.1.cells x = map_find g.cells x) ∧
    (∀ x, map_has acc.1.cells x = true → map_find acc.1.cells x = map_find g.cells x) := by
  refine foldlM_invariant execute_refines_unrefine
    (fun done (s : Dccrg UserData × uset) =>
      (∀ x, x ∉ done → map_find s.1.cells x = map_find g.cells x) ∧
      (∀ x, map_has s.1.cells x = true → map_find s.1.cells x = map_find g.cells x))
    l (g, upd) acc ⟨fun x _ => rfl, fun x _ => rfl⟩ ?_ h
  rintro done a ⟨s, supd⟩ ⟨s', supd'⟩ ⟨f1, f2⟩ _ hs
  simp only at f1 f2 ⊢
  obtain ⟨pp, pu, _, _, h1, h2, h3, h4⟩ := execute_refines_unrefine_eq s supd a s' supd' hs
  have hc : s'.cells = s.cells ∨ s'.cells = map_erase s.cells a := by
    by_cases c1 : s.rank = pu
    · by_cases c2 : s.rank = pp
      · obtain ⟨data, _, e⟩ := h1 ⟨c1, c2⟩
        right; rw [e]
      · left; rw [h2 ⟨c1, c2⟩]
    · by_cases c2 : s.rank = pp
      · left; rw [h3 ⟨c1, c2⟩]
      · left; rw [h4 ⟨c1, c2⟩]
  rcases hc with hc | hc
  · rw [hc]
    exact ⟨fun x hx => f1 x (fun hn => hx (List.mem_append.2 (Or.inl hn))), f2⟩
  · rw [hc]
    constructor
    · intro x hx
      rw [map_find_erase, if_neg (fun e => hx (List.mem_append.2 (Or.inr (by simp [e]))))]
      exact f1 x (fun hn => hx (List.mem_append.2 (Or.inl hn)))
    · intro x hx
      rw [map_has_erase] at hx
      simp only [Bool.and_eq_true, Bool.not_eq_true', decide_eq_false_iff_not] at hx
      rw [map_find_erase, if_neg hx.1]
      exact f2 x hx.2

/-- The loop over `parents_of_unrefined` and the local store: the payloads of the
store stay, and what joins the store is a parent that the directory gives to this
process. -/
theorem parent_loop_cells [Inhabited UserData] (g : Dccrg UserData) (l : List Nat)
    (upd : uset) (acc : Dccrg UserData × uset)
    (h : l.foldlM execute_refines_parent (g, upd) = some acc) :
    (∀ x, map_has g.cells x = true → map_find acc.1.cells x = map_find g.cells x) ∧
    (∀ x, map_has acc.1.cells x = true → map_has g.cells x = true ∨
      (x ∈ l ∧ map_find g.cell_process x = some g.rank)) ∧
    (∀ x ∈ l, map_find g.cell_process x = some g.rank → map_has acc.1.cells x = true) := by
  refine foldlM_invariant execute_refines_parent
    (fun done (s : Dccrg UserData × uset) =>
      (s.1.rank = g.rank ∧ s.1.cell_process = g.cell_process) ∧
      (∀ x, map_has g.cells x = true → map_find s.1.cells x = map_find g.cells x) ∧
      (∀ x, map_has s.1.cells x = true → map_has g.cells x = true ∨
        (x ∈ done ∧ map_find g.cell_process x = some g.rank)) ∧
      (∀ x ∈ done, map_find g.cell_process x = some g.rank → map_has s.1.cells x = true))
    l (g, upd) acc ⟨⟨rfl, rfl⟩, fun x _ => rfl, fun x hx => Or.inl hx, by simp⟩ ?_ h
    |> fun k => ⟨k.2.1, k.2.2.1, k.2.2.2⟩
  rintro done a ⟨s, supd⟩ ⟨s', supd'⟩ ⟨⟨f0, f0'⟩, f1, f2, f3⟩ _ hs
  simp only at f0 f0' f1 f2 f3 ⊢
  obtain ⟨⟨a1, a2⟩, _⟩ := execute_refines_parent_frame s supd a s' supd' hs
  have hrk : s'.rank = s.rank := congrArg (fun t => t.2.1) a1
  have hc : (map_find s.cell_process a = some s.rank ∧ s'.cells = map_touch s.cells a) ∨
      (map_find s.cell_process a ≠ some s.rank ∧ s'.cells = s.cells) := by
    unfold execute_refines_parent at hs
    simp only [Option.bind_eq_some] at hs
    obtain ⟨u1, _, u2, _, hs⟩ := hs
    cases hp : map_find s.cell_process a with
    | none => rw [hp] at hs; simp at hs
    | some p =>
      rw [hp] at hs
      simp only at hs
      by_cases hpr : p = s.rank
      · rw [if_pos hpr] at hs
        simp only [Option.some.injEq, Prod.mk.injEq] at hs
        left
        exact ⟨by rw [hpr], by rw [← hs.1]⟩
      · rw [if_neg hpr] at hs
        simp only [Option.some.injEq, Prod.mk.injEq] at hs
        right
        exact ⟨by simpa using hpr, by rw [← hs.1]⟩
  refine ⟨⟨hrk.trans f0, a2.trans f0'⟩, ?_, ?_, ?_⟩
  · intro x hx
    rcases hc with ⟨_, hc⟩ | ⟨_, hc⟩
    · rw [hc, map_find_touch]
      by_cases e : a = x
      · subst e
        rw [if_pos rfl, f1 a hx]
        obtain ⟨v, hv⟩ := (map_has_iff _ _).1 hx
        rw [hv]; rfl
      · rw [if_neg e]; exact f1 x hx
    · rw [hc]; exact f1 x hx
  · intro x hx
    rcases hc with ⟨ho, hc⟩ | ⟨_, hc⟩
    · rw [hc, map_has_touch] at hx
      simp only [Bool.or_eq_true, decide_eq_true_eq] at hx
      rcases hx with hx | hx
      · subst hx
        right
        exact ⟨List.mem_append.2 (Or.inr (by simp)), by rw [← f0', ← f0]; exact ho⟩
      · rcases f2 x hx with h | ⟨h, h'⟩
        · exact Or.inl h
        · exact Or.inr ⟨List.mem_append.2 (Or.inl h), h'⟩
    · rw [hc] at hx
      rcases f2 x hx with h | ⟨h, h'⟩
      · exact Or.inl h
      · exact Or.inr ⟨List.mem_append.2 (Or.inl h), h'⟩
  · intro x hx ho
    rcases List.mem_append.1 hx with hx | hx
    · rcases hc with ⟨_, hc⟩ | ⟨_, hc⟩
      · rw [hc, map_has_touch, f3 x hx ho]; simp
      · rw [hc]; exact f3 x hx ho
    · simp only [List.mem_singleton] at hx
      subst hx
      rcases hc with ⟨_, hc⟩ | ⟨hn, _⟩
      · rw [hc, map_has_touch]; simp
      · rw [f0', f0] at hn
        exact absurd ho hn

end Dccrg
end dccrg

namespace dccrg
open Index Dccrg
namespace Dccrg
variable {UserData : Type}

/-- The steps of `execute_refines` on one process after the wait for the
transfers. -/
theorem after_wait_steps (g g' : Dccrg UserData) (atu : uset)
    (h : g.execute_refines_after_wait atu = some g') :
    ∃ g1, g.wait_user_data_transfer_receives = some g1 ∧
      g'.cells = atu.foldl map_erase g1.cells ∧
      g'.refined_cell_data = g1.refined_cell_data ∧
      g'.unrefined_cell_data = g1.unrefined_cell_data ∧
      g'.remote_neighbors = g1.remote_neighbors ∧
      g.same_directory g' := by
  have hd := (after_wait_directory g g' atu h).1
  unfold execute_refines_after_wait at h
  simp only [Option.bind_eq_some] at h
  obtain ⟨g1, h1, h2⟩ := h
  obtain ⟨_, ⟨b1, b2, b3, b4⟩, _⟩ := recalculate_frame _ _ h2
  exact ⟨g1, h1, b1, b2, b3, b4, hd⟩

theorem refine_loop_frame [Inhabited UserData] (g : Dccrg UserData) (l : List Nat)
    (nc : List Nat) (upd : uset) (acc : Dccrg UserData × List Nat × uset)
    (h : l.foldlM execute_refines_refine (g, nc, upd) = some acc) :
    acc.1.fixed = g.fixed ∧ g.same_requests acc.1 ∧ g.same_transfers acc.1 ∧
    acc.1.unrefined_cell_data = g.unrefined_cell_data ∧
    acc.1.remote_neighbors = g.remote_neighbors := by
  have e := foldlM_preserves execute_refines_refine
    (fun s : Dccrg UserData × List Nat × uset => (s.1.fixed, s.1.cells_to_refine,
      s.1.cells_to_unrefine, s.1.cells_not_to_unrefine, s.1.cells_to_send,
      s.1.cells_to_receive, s.1.incoming_data, s.1.outgoing_data, s.1.unrefined_cell_data,
      s.1.remote_neighbors)) (by
      rintro ⟨s, sn, su⟩ a ⟨s', sn', su'⟩ hs
      obtain ⟨a1, ⟨a2, a3, a4⟩, ⟨a5, a6, a7, a8⟩, a9, a10⟩ :=
        execute_refines_refine_frame s sn su a s' sn' su' hs
      simp only [a1, a2, a3, a4, a5, a6, a7, a8, a9, a10]) _ _ _ h
  simp only [Prod.mk.injEq] at e
  obtain ⟨a1, a2, a3, a4, a5, a6, a7, a8, a9, a10⟩ := e
  exact ⟨a1, ⟨a2, a3, a4⟩, ⟨a5, a6, a7, a8⟩, a9, a10⟩

/-- The local store, `refined_cell_data` and `remote_neighbors` of a process after
`execute_refines`, in terms of the state after the loop over the refines. -/
theorem rank_stores [Inhabited UserData] (g : Dccrg UserData)
    (b : Dccrg UserData × List Nat × uset) (hb : g.execute_refines_before_wait = some b)
    (incoming : umap (List UserData)) (g' : Dccrg UserData)
    (ha : ({ b.1 with incoming_data := incoming }).execute_refines_after_wait b.2.2
      = some g') :
    ∃ acc1 : Dccrg UserData × List Nat × uset,
      g.cells_to_refine.foldlM execute_refines_refine (g.execute_refines_clear, [], [])
        = some acc1 ∧
      b.2.1 = acc1.2.1 ∧ b.2.2 = acc1.1.collect_unrefines.2 ∧
      g'.refined_cell_data = acc1.1.refined_cell_data ∧
      g'.remote_neighbors = [] ∧
      g'.cell_process = b.2.2.foldl map_erase acc1.1.cell_process ∧
      (∀ x, x ∉ b.2.2 → map_has acc1.1.cells x = true →
        map_find g'.cells x = map_find acc1.1.cells x) ∧
      (∀ x, map_has g'.cells x = true → x ∉ b.2.2 ∧
        (map_has acc1.1.cells x = true ∨ x ∈ acc1.1.collect_unrefines.1)) ∧
      (∀ x ∈ acc1.1.collect_unrefines.1, x ∉ b.2.2 →
        map_find g'.cell_process x = some g'.rank → map_has g'.cells x = true) := by
  obtain ⟨acc1, acc2, g3, acc4, g5, g6, h1, h2, h3, h4, h5, h6, h7, e1, e2⟩ :=
    before_wait_steps g b hb
  obtain ⟨gw, hw, w1, w2, w3, w4, ⟨w5, w6⟩⟩ := after_wait_steps _ _ _ ha
  obtain ⟨_, _, wc, wr, wn⟩ := wait_user_data_transfer_receives_frame _ _ hw
  obtain ⟨_, ⟨k1, k2, k3, k4⟩, _, _⟩ :=
    same_all_of_relevant (update_remote_neighbor_info_frame _ _ h7)
  obtain ⟨_, ⟨m1, m2, m3, m4⟩, _, _⟩ :=
    same_all_of_relevant (remove_neighbor_lists_frame _ _ _ h6)
  obtain ⟨_, ⟨n1, n2, n3, n4⟩, _, _⟩ :=
    same_all_of_relevant (update_neighbors_loop_frame _ _ _ h5)
  obtain ⟨⟨p0, p0'⟩, _, _, p2, p3, p4⟩ := parent_loop_frame _ _ _ _ h4
  obtain ⟨q1, q2, q3⟩ := parent_loop_cells _ _ _ _ h4
  obtain ⟨⟨s0, s0'⟩, ⟨s1, s2, s3, s4⟩, _⟩ := start_user_data_transfers_frame _ _ h3
  obtain ⟨u0, _, u0', u2, u3, _⟩ := unrefine_loop_directory _ _ _ _ h2
  obtain ⟨c1, c2⟩ := unrefine_loop_cells _ _ _ _ h2
  obtain ⟨r0, _, _, _, r5⟩ := refine_loop_frame _ _ _ _ _ h1
  have hatu : b.2.2 = acc1.1.collect_unrefines.2 := e2
  have hcells' : g'.cells = b.2.2.foldl map_erase acc4.1.cells := by
    rw [w1, wc]
    simp only
    rw [k1, m1, n1]
  have hdir' : g'.cell_process = g3.cell_process := by
    rw [w6]
    simp only
    rw [(same_all_of_relevant (update_remote_neighbor_info_frame _ _ h7)).1.2,
      (same_all_of_relevant (remove_neighbor_lists_frame _ _ _ h6)).1.2,
      (same_all_of_relevant (update_neighbors_loop_frame _ _ _ h5)).1.2, p0']
  have hrank' : g'.rank = g3.rank := by
    have e : g'.fixed = g3.fixed := by
      have e0 : ({ b.1 with incoming_data := incoming } : Dccrg UserData).fixed
          = b.1.fixed := rfl
      rw [w5, e0]
      rw [(same_all_of_relevant (update_remote_neighbor_info_frame _ _ h7)).1.1,
        (same_all_of_relevant (remove_neighbor_lists_frame _ _ _ h6)).1.1,
        (same_all_of_relevant (update_neighbors_loop_frame _ _ _ h5)).1.1, p0]
    exact congrArg (fun t => t.2.1) e
  refine ⟨acc1, h1, e1, e2, ?_, ?_, ?_, ?_, ?_, ?_⟩
  · rw [w2, wr]
    simp only
    rw [k2, m2, n2, p2, s2, u2]
  · rw [w4, wn]
    simp only
    rw [k4, m4, n4, p4, s4, u3, r5]
    rfl
  · rw [hdir', s0', u0', hatu]
  · intro x hx hc
    have h2' : map_has acc2.1.cells x = true := by
      rw [map_has_iff]
      obtain ⟨v, hv⟩ := (map_has_iff _ _).1 hc
      exact ⟨v, by rw [c1 x (by rw [← hatu]; exact hx), hv]⟩
    rw [hcells', map_find_foldl_erase, if_neg hx, q1 x (by rw [s1]; exact h2'), s1,
      c1 x (by rw [← hatu]; exact hx)]
  · intro x hx
    rw [hcells', map_has_foldl_erase] at hx
    simp only [Bool.and_eq_true, Bool.not_eq_true', decide_eq_false_iff_not] at hx
    refine ⟨hx.1, ?_⟩
    rcases q2 x hx.2 with h | ⟨h, _⟩
    · left
      rw [s1] at h
      obtain ⟨v, hv⟩ := (map_has_iff _ _).1 h
      rw [map_has_iff]
      exact ⟨v, by rw [← c2 x h, hv]⟩
    · exact Or.inr h
  · intro x hx hn ho
    rw [hcells', map_has_foldl_erase]
    simp only [Bool.and_eq_true, Bool.not_eq_true', decide_eq_false_iff_not]
    refine ⟨hn, q3 x hx ?_⟩
    rw [← hdir', ← hrank']
    exact ho

end Dccrg
end dccrg
namespace dccrg
open Index Dccrg
namespace Dccrg
variable {UserData : Type}

theorem children_of_length {ix : Index} (hfit : ix.ids_fit) {c : Nat} (h1 : 1 ≤ c)
    (h2 : c ≤ ix.last_cell) (hl : ix.get_refinement_level c < ix.max_refinement_level) :
    (ix.children_of c).length = 8 ∧ (ix.children_of c).Nodup := by
  have F := Fit.of_valid_cell hfit h1 h2
  obtain ⟨r, hr, hlvl, _⟩ := F.roundtrip_cell h1 h2
  have hlt : r < ix.max_refinement_level.toNat := by
    rw [hlvl, F.hR] at hl; omega
  rw [children_of_eq F hlvl hlt, children_at_eq_map]
  refine ⟨by simp [corners], ?_⟩
  apply List.Nodup.map_on _ (by decide)
  intro a ha b hb hab
  have la := corners_lt ha
  have lb := corners_lt hb
  have fa := (child_facts F hlvl hlt la.1 la.2.1 la.2.2).2.1
  have fb := (child_facts F hlvl hlt lb.1 lb.2.1 lb.2.2).2.1
  rw [hab, fb] at fa
  have hs : 0 < 2 ^ (ix.max_refinement_level.toNat - r - 1) := by positivity
  simp only [Prod.mk.injEq, Nat.add_left_cancel_iff] at fa
  obtain ⟨a0, a1, a2⟩ := a
  obtain ⟨b0, b1, b2⟩ := b
  simp only at fa
  have e0 := Nat.eq_of_mul_eq_mul_right hs fa.1
  have e1 := Nat.eq_of_mul_eq_mul_right hs fa.2.1
  have e2 := Nat.eq_of_mul_eq_mul_right hs fa.2.2
  rw [e0, e1, e2]

/-- The refined cells of a process after `execute_refines`, when every refined cell
is a leaf below the maximum refinement level. -/
theorem rank_refined_cells [Inhabited UserData] (g : Dccrg UserData)
    (hfit : g.index.ids_fit) (hinv : g.existence_invariant)
    (hCU : ∀ u ∈ g.cells_to_unrefine, map_has g.cell_process u = true ∧
      g.index.get_refinement_level u ≠ 0 ∧
      ∀ s ∈ g.index.children_of (g.index.get_parent_for_removed u),
        (∀ x ∈ g.index.children_of s, map_has g.cell_process x = false) ∧
        s ∉ g.cells_to_refine)
    (hleaf : ∀ c ∈ g.cells_to_refine, map_has g.cell_process c = true ∧
      ∀ x ∈ g.index.children_of c, map_has g.cell_process x = false)
    (hlvl : ∀ c ∈ g.cells_to_refine,
      g.index.get_refinement_level c < g.index.max_refinement_level)
    (b : Dccrg UserData × List Nat × uset) (hb : g.execute_refines_before_wait = some b)
    (incoming : umap (List UserData)) (g' : Dccrg UserData)
    (ha : ({ b.1 with incoming_data := incoming }).execute_refines_after_wait b.2.2
      = some g') :
    (∀ c ∈ g.cells_to_refine,
      map_find g'.cell_process c = map_find g.cell_process c ∧
      (g.get_all_children c).length = 8 ∧ (g.get_all_children c).Nodup ∧
      (∀ x ∈ g.get_all_children c, map_find g'.cell_process x = map_find g.cell_process c) ∧
      (map_find g.cell_process c = some g.rank →
        map_has g'.cells c = false ∧
        (∀ x ∈ g.get_all_children c, map_has g'.cells x = true) ∧
        ∃ data, map_find g.cells c = some data ∧
          map_find g'.refined_cell_data c = some data ∧ g'.operator_index c = some data)) ∧
    b.2.1 = (g.cells_to_refine.filter fun c =>
      map_find g.cell_process c == some g.rank).flatMap g.get_all_children := by
  obtain ⟨acc1, h1, e1, e2, s1, s2, s3, s4, s5, s6⟩ := rank_stores g b hb incoming g' ha
  obtain ⟨_, _, _, _, _, _, hatu, _⟩ := rank_directory g hfit hinv hCU b hb incoming g' ha
  obtain ⟨A1, A2, A3, A4, A5, A6⟩ := refine_loop_spec g.execute_refines_clear hfit hinv
    g.cells_to_refine hleaf [] [] acc1 h1
  obtain ⟨_, _, _, _, _, _, B7, _⟩ := refine_loop_directory g.execute_refines_clear hfit hinv
    g.cells_to_refine [] [] acc1 h1
  have hix : acc1.1.index = g.index := by
    have := (refine_loop_frame _ _ _ _ _ h1).1
    exact congrArg (fun t => t.1) this
  have hctu : acc1.1.cells_to_unrefine = g.cells_to_unrefine :=
    (refine_loop_frame _ _ _ _ _ h1).2.1.2.1
  change ∀ r ∈ g.cells_to_refine, ∀ x ∈ g.index.children_of r,
      map_find acc1.1.cell_process x = map_find g.cell_process r at A1
  change ∀ x, (∀ r ∈ g.cells_to_refine, x ∉ g.index.children_of r) →
      map_find acc1.1.cell_process x = map_find g.cell_process x at A2
  change ∀ r ∈ g.cells_to_refine, map_find g.cell_process r = some g.rank →
      map_has acc1.1.cells r = false ∧
      (∀ x ∈ g.index.children_of r, map_has acc1.1.cells x = true) ∧
      map_find acc1.1.refined_cell_data r = map_find g.cells r ∧
      map_has g.cells r = true at A3
  change acc1.2.1 = [] ++ (g.cells_to_refine.filter fun c =>
      map_find g.cell_process c == some g.rank).flatMap g.index.children_of at A6
  have hvalid : ∀ c ∈ g.cells_to_refine, 1 ≤ c ∧ c ≤ g.index.last_cell :=
    fun c hc => hinv.1 c ((mem_map_keys _ _).2 (hleaf c hc).1)
  have hgac : ∀ c ∈ g.cells_to_refine, g.get_all_children c = g.index.children_of c :=
    fun c hc => get_all_children_of_has g (by have := (hvalid c hc).1; omega) (hleaf c hc).1
  -- a refined cell is not a child of a refined cell
  have hnochild : ∀ c ∈ g.cells_to_refine, ∀ r ∈ g.cells_to_refine,
      c ∉ g.index.children_of r := by
    intro c hc r hr hmem
    have := (hleaf r hr).2 c hmem
    rw [(hleaf c hc).1] at this
    exact Bool.noConfusion this
  -- a refined cell and its children are not unrefined
  have hc_atu : ∀ c ∈ g.cells_to_refine, c ∉ b.2.2 := by
    intro c hc hn
    obtain ⟨u, hu, hx⟩ := (hatu c).1 hn
    exact ((hCU u hu).2.2 c hx).2 hc
  have hparent : ∀ c ∈ g.cells_to_refine, ∀ u ∈ g.cells_to_unrefine,
      g.index.get_parent_for_removed u ≠ c := by
    intro c hc u hu e
    obtain ⟨u1, u2, _⟩ := hCU u hu
    obtain ⟨w1, w2⟩ := hinv.1 u ((mem_map_keys _ _).2 u1)
    have := (mem_children_of_parent hfit w1 w2 u2).1
    rw [e] at this
    have := (hleaf c hc).2 u this
    rw [u1] at this
    exact Bool.noConfusion this
  have hx_atu : ∀ c ∈ g.cells_to_refine, ∀ x ∈ g.index.children_of c, x ∉ b.2.2 := by
    intro c hc x hx hn
    obtain ⟨u, hu, hxu⟩ := (hatu x).1 hn
    obtain ⟨u1, u2, _⟩ := hCU u hu
    obtain ⟨w1, w2⟩ := hinv.1 u ((mem_map_keys _ _).2 u1)
    obtain ⟨_, _, p1, p2⟩ := mem_children_of_parent hfit w1 w2 u2
    obtain ⟨v1, v2⟩ := hvalid c hc
    exact hparent c hc u hu (children_of_parent_unique hfit p1 p2 v1 v2 hxu hx)
  have hc_parent : ∀ c ∈ g.cells_to_refine, c ∉ acc1.1.collect_unrefines.1 := by
    intro c hc hn
    obtain ⟨u, hu, e⟩ := (mem_collect_parents _ _).1 hn
    rw [hctu] at hu
    have hu1 : map_has acc1.1.cell_process u = true := by
      obtain ⟨_, _, _, _, _, B6, _⟩ := refine_loop_directory g.execute_refines_clear hfit hinv
        g.cells_to_refine [] [] acc1 h1
      exact (B6 u).2 (Or.inl (hCU u hu).1)
    rw [(get_parent_eq acc1.1 (by rw [hix]; exact hfit) B7 hu1).1, hix] at e
    exact hparent c hc u hu e.symm
  constructor
  · intro c hc
    have hd1 : map_find acc1.1.cell_process c = map_find g.cell_process c :=
      A2 c (fun r hr => hnochild c hc r hr)
    refine ⟨?_, ?_, ?_, ?_, ?_⟩
    · rw [s3, map_find_foldl_erase, if_neg (hc_atu c hc), hd1]
    · rw [hgac c hc]
      exact (children_of_length hfit (hvalid c hc).1 (hvalid c hc).2 (hlvl c hc)).1
    · rw [hgac c hc]
      exact (children_of_length hfit (hvalid c hc).1 (hvalid c hc).2 (hlvl c hc)).2
    · intro x hx
      rw [hgac c hc] at hx
      rw [s3, map_find_foldl_erase, if_neg (hx_atu c hc x hx)]
      exact A1 c hc x hx
    · intro ho
      obtain ⟨a1, a2, a3, a4⟩ := A3 c hc ho
      have hnc : map_has g'.cells c = false := by
        by_contra hn
        have hn' : map_has g'.cells c = true := by simpa using hn
        rcases (s5 c hn').2 with h | h
        · rw [a1] at h; exact Bool.noConfusion h
        · exact hc_parent c hc h
      refine ⟨hnc, ?_, ?_⟩
      · intro x hx
        rw [hgac c hc] at hx
        have := s4 x (hx_atu c hc x hx) (a2 x hx)
        rw [map_has_iff]
        obtain ⟨v, hv⟩ := (map_has_iff _ _).1 (a2 x hx)
        exact ⟨v, by rw [this, hv]⟩
      · obtain ⟨data, hd⟩ := (map_has_iff _ _).1 a4
        have hr : map_find g'.refined_cell_data c = some data := by
          rw [s1, a3, hd]
        refine ⟨data, hd, hr, ?_⟩
        unfold operator_index
        rw [hnc, s2]
        have hr' : map_has g'.refined_cell_data c = true := (map_has_iff _ _).2 ⟨data, hr⟩
        simp [map_has, map_find, hr]
  · rw [e1, A6, List.nil_append]
    rw [List.flatMap_congr]
    intro c hc
    exact (hgac c (List.mem_filter.1 hc).1).symm

end Dccrg
end dccrg
namespace dccrg
open Index Dccrg
variable {UserData : Type}

/-- When `execute_refines` starts, the world is consistent and every cell of the
refine set is a leaf of the directory below the maximum refinement level. -/
theorem prepared_refines_leaves [Inhabited UserData] (w0 w1 wp : World UserData)
    (requests : List (Nat × Request)) (before : List (Dccrg UserData × List Nat × uset))
    (hcons : consistent w0) (hnp : ∀ g ∈ w0, g.no_pending)
    (hreq : make_requests w0 requests = some w1) (hwp : refines_prepared w1 = some wp)
    (hbefore : List.Forall₂ (fun g b => g.execute_refines_before_wait = some b) wp before) :
    consistent wp ∧
    ∀ gp ∈ wp, ∀ c ∈ gp.cells_to_refine, map_has gp.cell_process c = true ∧
      (∀ x ∈ gp.index.children_of c, map_has gp.cell_process x = false) ∧
      gp.index.get_refinement_level c < gp.index.max_refinement_level ∧
      (map_find gp.cell_process c = some gp.rank → map_has gp.cells c = true) ∧
      ∀ gq ∈ wp, c ∈ gq.cells_to_refine := by
  have hinv := consistent_grid_invariant w0 hcons hnp
  have r01 := make_requests_spec requests w0 w1 hreq
  have hlen01 := forall₂_length _ _ r01
  have hc1 : consistent w1 :=
    consistent_of_same_but_requests w0 w1 (forall₂_imp (fun _ _ h => h.1) _ _ r01) hcons
  have h1 : ∀ g ∈ w1, 0 ≤ g.index.max_refinement_level ∧ g.comm_size = w1.length :=
    fun g hg => ⟨(hc1.2.1 g hg).2.1.1, (hc1.2.1 g hg).1⟩
  obtain ⟨r1p, hR, _⟩ := refines_prepared_spec w1 wp (fun g hg => (h1 g hg).1)
    (fun g hg => (h1 g hg).2) hwp
  have hcp : consistent wp :=
    consistent_of_same_but_requests w1 wp (forall₂_imp (fun _ _ h => h.1) _ _ r1p) hc1
  have hck : ∀ g1 ∈ w1, g1.refines_checked := by
    intro g1 hg1
    obtain ⟨g0, hg0, _, _, a⟩ := forall₂_mem_right _ _ r01 g1 hg1
    exact a (no_pending_checked (hnp g0 hg0)).2
  -- every cell of the refine set is in the directory, below the maximum level
  have hdl : ∀ gp ∈ wp, ∀ c ∈ gp.cells_to_refine, map_has gp.cell_process c = true ∧
      gp.index.get_refinement_level c < gp.index.max_refinement_level := by
    intro gp hgp c hc
    obtain ⟨g1, hg1, a, _⟩ := forall₂_mem_right _ _ r1p gp hgp
    obtain ⟨f1, f2, _⟩ := same_but_requests_fields a
    obtain ⟨_, g, hg, hcase⟩ := hR gp hgp c hc
    have hix : gp.index = g.index := by
      have e := (hc1.2.2 g hg g1 hg1).1
      unfold fixed at f1
      simp only [Prod.mk.injEq] at f1
      exact f1.1.trans e.symm
    have hhas : map_has gp.cell_process c = map_has g.cell_process c := by
      rw [f2]
      unfold map_has
      rw [consistent_owner hc1 hg hg1 c]
    rw [hhas, hix]
    rcases hcase with h | ⟨hl, h | h⟩
    · obtain ⟨k1, _, _, k4⟩ := hck g hg c h
      exact ⟨k1, k4⟩
    · exact ⟨(map_has_iff _ _).2 ⟨_, h⟩, hl⟩
    · have hcell := (hc1.2.1 g hg).2.2.2.1.2.2 c h
      have := ((hc1.2.1 g hg).2.2.2.1.1 c ((mem_map_keys _ _).2 hcell)).1
      exact ⟨(map_has_iff _ _).2 ⟨_, this⟩, hl⟩
  have hleaves := refines_are_leaves wp before hcp
    (fun gp hgp c hc gq hgq => (hR gp hgp c hc).1 gq hgq)
    (fun gp hgp c hc => (hdl gp hgp c hc).1) hbefore
  refine ⟨hcp, ?_⟩
  intro gp hgp c hc
  obtain ⟨d1, d2⟩ := hdl gp hgp c hc
  obtain ⟨l1, l2⟩ := hleaves gp hgp c hc
  obtain ⟨_, hfit, hex, _⟩ := hcp.2.1 gp hgp
  exact ⟨d1, (leaf_iff_no_child gp hfit hex d1).1 l1, d2, l2, (hR gp hgp c hc).1⟩

end dccrg
namespace dccrg
open Index Dccrg
namespace Dccrg
variable {UserData : Type}

theorem get_parent_stable (g s : Dccrg UserData) (hi : s.index = g.index) {u : Nat}
    (hs : map_has s.cell_process u = true)
    (hsub : ∀ x, map_has s.cell_process x = true → map_has g.cell_process x = true)
    (hp : map_has s.cell_process (g.get_parent u) = true) :
    s.get_parent u = g.get_parent u := by
  have hg := hsub u hs
  unfold get_parent at hp ⊢
  rw [hi]
  simp only [hs, hg, not_true_eq_false, if_false] at hp ⊢
  by_cases h0 : g.index.get_refinement_level u = 0
  · simp only [h0, if_true]
  · simp only [h0, if_false] at hp ⊢
    by_cases h1 : map_has g.cell_process (g.index.get_cell_from_indices (g.index.get_indices u)
        (g.index.get_refinement_level u - 1)) = true
    · rw [if_pos h1] at hp ⊢
      rw [if_pos hp]
    · rw [if_neg h1]
      rw [if_neg (fun h => h1 (hsub _ h))]

theorem map_find_push (m : umap (List Nat)) (p u k : Nat) :
    map_find (map_push m p u) k
      = if p = k then some ((map_find m p).getD [] ++ [u]) else map_find m k := by
  unfold map_push
  rw [map_find_set]

theorem option_list_step (m : Option (List Nat)) (F : List Nat) (a : Nat) (c : Prop)
    [Decidable c] (hm : m = if F = [] then none else some F) :
    (if c then some (m.getD [] ++ [a]) else m)
      = if F ++ (if c then [a] else []) = [] then none
        else some (F ++ (if c then [a] else [])) := by
  subst hm
  by_cases hc : c
  · simp only [hc, if_true]
    by_cases hF : F = []
    · simp [hF]
    · simp [hF]
  · simp only [hc, if_false, List.append_nil]

/-- The loop over `all_to_unrefine`: the payloads moved to `unrefined_cell_data`,
the local store and the lists of cells to send and to receive. -/
theorem unrefine_loop_transfers (g : Dccrg UserData) (l : List Nat) (upd : uset)
    (acc : Dccrg UserData × uset)
    (hpar : ∀ u ∈ l, g.get_parent u ∉ l ∧ map_has g.cell_process (g.get_parent u) = true)
    (hcts : g.cells_to_send = []) (hctr : g.cells_to_receive = [])
    (h : l.foldlM execute_refines_unrefine (g, upd) = some acc) :
    (∀ x, map_find acc.1.unrefined_cell_data x
      = if x ∈ l ∧ g.moved_locally x = true then map_find g.cells x
        else map_find g.unrefined_cell_data x) ∧
    (∀ x, map_find acc.1.cells x
      = if x ∈ l ∧ g.moved_locally x = true then none else map_find g.cells x) ∧
    (∀ x ∈ l, g.moved_locally x = true → map_has g.cells x = true) ∧
    (∀ p, map_find acc.1.cells_to_send p
      = if g.sends_to l p = [] then none else some (g.sends_to l p)) ∧
    (∀ q, map_find acc.1.cells_to_receive q
      = if g.receives_from l q = [] then none else some (g.receives_from l q)) ∧
    ∀ x ∈ l, map_has g.cell_process x = true := by
  refine (foldlM_invariant execute_refines_unrefine
    (fun done (s : Dccrg UserData × uset) =>
      (s.1.index = g.index ∧ s.1.rank = g.rank ∧
        s.1.cell_process = done.foldl map_erase g.cell_process ∧ ∀ x ∈ done, x ∈ l) ∧
      (∀ x, map_find s.1.unrefined_cell_data x
        = if x ∈ done ∧ g.moved_locally x = true then map_find g.cells x
          else map_find g.unrefined_cell_data x) ∧
      (∀ x, map_find s.1.cells x
        = if x ∈ done ∧ g.moved_locally x = true then none else map_find g.cells x) ∧
      (∀ x ∈ done, g.moved_locally x = true → map_has g.cells x = true) ∧
      (∀ p, map_find s.1.cells_to_send p
        = if g.sends_to done p = [] then none else some (g.sends_to done p)) ∧
      (∀ q, map_find s.1.cells_to_receive q
        = if g.receives_from done q = [] then none else some (g.receives_from done q)) ∧
      ∀ x ∈ done, map_has g.cell_process x = true)
    l (g, upd) acc ?_ ?_ h).2
  · refine ⟨⟨rfl, rfl, rfl, ?_⟩, ?_, ?_, ?_, ?_, ?_, ?_⟩
    · intro x hx; simp at hx
    · intro x; simp
    · intro x; simp
    · intro x hx; simp at hx
    · intro p; simp [sends_to, hcts, map_find]
    · intro q; simp [receives_from, hctr, map_find]
    · intro x hx; simp at hx
  · rintro done a ⟨s, supd⟩ ⟨s', supd'⟩ ⟨⟨i1, i2, i3, i4⟩, f1, f2, f3, f4, f5, f6⟩ ha hs
    simp only at i1 i2 i3 i4 f1 f2 f3 f4 f5 f6 ⊢
    obtain ⟨pp, pu, hpp, hpu, h1, h2, h3, h4⟩ :=
      execute_refines_unrefine_eq s supd a s' supd' hs
    obtain ⟨e1, _, e3, _⟩ := execute_refines_unrefine_frame s supd a s' supd' hs
    -- the cell is not yet erased, and its parent is never erased
    have hnd : a ∉ done := by
      intro hn
      rw [i3, map_find_foldl_erase, if_pos hn] at hpu
      exact absurd hpu (by simp)
    have hsa : map_find s.cell_process a = map_find g.cell_process a := by
      rw [i3, map_find_foldl_erase, if_neg hnd]
    have hpd : g.get_parent a ∉ done := fun hn => (hpar a ha).1 (i4 _ hn)
    have hsub : ∀ x, map_has s.cell_process x = true → map_has g.cell_process x = true := by
      intro x hx
      rw [i3, map_has_foldl_erase] at hx
      simp only [Bool.and_eq_true] at hx
      exact hx.2
    have hsp : s.get_parent a = g.get_parent a := by
      refine get_parent_stable g s i1 ((map_has_iff _ _).2 ⟨pu, hpu⟩) hsub ?_
      rw [i3, map_has_foldl_erase, (hpar a ha).2]
      simp [hpd]
    have hgp : map_find g.cell_process (g.get_parent a) = some pp := by
      rw [← hpp, hsp, i3, map_find_foldl_erase, if_neg hpd]
    have hgu : map_find g.cell_process a = some pu := by rw [← hsa, hpu]
    have hml : g.moved_locally a = (decide (pu = g.rank) && decide (pp = g.rank)) := by
      unfold moved_locally
      rw [hgu, hgp]
      by_cases c1 : pu = g.rank <;> by_cases c2 : pp = g.rank <;> simp [c1, c2]
    have hst : ∀ p, g.sends_to (done ++ [a]) p = g.sends_to done p ++
        if pu = g.rank ∧ pp ≠ g.rank ∧ pp = p then [a] else [] := by
      intro p
      unfold sends_to
      rw [List.filter_append]
      congr 1
      simp only [List.filter_cons, List.filter_nil, hgu, hgp]
      by_cases c1 : pu = g.rank <;> by_cases c2 : pp = p <;> by_cases c3 : p = g.rank <;>
        simp [c1, c2, c3]
    have hrf : ∀ q, g.receives_from (done ++ [a]) q = g.receives_from done q ++
        if pu ≠ g.rank ∧ pp = g.rank ∧ pu = q then [a] else [] := by
      intro q
      unfold receives_from
      rw [List.filter_append]
      congr 1
      simp only [List.filter_cons, List.filter_nil, hgu, hgp]
      by_cases c1 : pu = q <;> by_cases c2 : pp = g.rank <;> by_cases c3 : q = g.rank <;>
        simp [c1, c2, c3]
    have hrk : s'.rank = g.rank := by
      have := congrArg (fun t => t.2.1) e1
      exact this.trans i2
    have hix : s'.index = g.index := by
      have := congrArg (fun t => t.1) e1
      exact this.trans i1
    -- the stores and the lists after the step
    have hstep : (∀ x, map_find s'.unrefined_cell_data x
          = if x = a ∧ g.moved_locally a = true then map_find g.cells a
            else map_find s.unrefined_cell_data x) ∧
        (∀ x, map_find s'.cells x
          = if x = a ∧ g.moved_locally a = true then none else map_find s.cells x) ∧
        (g.moved_locally a = true → map_has g.cells a = true) ∧
        (∀ p, map_find s'.cells_to_send p
          = if pu = g.rank ∧ pp ≠ g.rank ∧ pp = p
            then some ((map_find s.cells_to_send p).getD [] ++ [a])
            else map_find s.cells_to_send p) ∧
        (∀ q, map_find s'.cells_to_receive q
          = if pu ≠ g.rank ∧ pp = g.rank ∧ pu = q
            then some ((map_find s.cells_to_receive q).getD [] ++ [a])
            else map_find s.cells_to_receive q) := by
      rw [i2] at h1 h2 h3 h4
      have hca : map_find s.cells a = map_find g.cells a := by
        rw [f2 a, if_neg (fun hn => hnd hn.1)]
      by_cases c1 : g.rank = pu
      · by_cases c2 : g.rank = pp
        · obtain ⟨data, hd, e⟩ := h1 ⟨c1, c2⟩
          have m1 : s'.unrefined_cell_data = map_set s.unrefined_cell_data a data := by
            rw [e]
          have m2 : s'.cells = map_erase s.cells a := by rw [e]
          have m3 : s'.cells_to_send = s.cells_to_send := by rw [e]
          have m4 : s'.cells_to_receive = s.cells_to_receive := by rw [e]
          rw [hca] at hd
          have hm : g.moved_locally a = true := by rw [hml]; simp [← c1, ← c2]
          refine ⟨?_, ?_, fun _ => (map_has_iff _ _).2 ⟨data, hd⟩, ?_, ?_⟩
          · intro x
            rw [m1, map_find_set, hd]
            by_cases hx : a = x
            · subst hx; simp [hm, hd]
            · simp [hx, Ne.symm hx]
          · intro x
            rw [m2, map_find_erase]
            by_cases hx : a = x
            · subst hx; simp [hm, hd]
            · simp [hx, Ne.symm hx]
          · intro p
            rw [m3, if_neg (fun hn => hn.2.1 c2.symm)]
          · intro q
            rw [m4, if_neg (fun hn => hn.1 c1.symm)]
        · have e := h2 ⟨c1, c2⟩
          have m1 : s'.unrefined_cell_data = s.unrefined_cell_data := by rw [e]
          have m2 : s'.cells = s.cells := by rw [e]
          have m3 : s'.cells_to_send = map_push s.cells_to_send pp a := by rw [e]
          have m4 : s'.cells_to_receive = s.cells_to_receive := by rw [e]
          have hm : g.moved_locally a = false := by
            rw [hml]; simp [Ne.symm c2]
          refine ⟨?_, ?_, fun hn => absurd hn (by simp [hm]), ?_, ?_⟩
          · intro x; rw [m1]; simp [hm]
          · intro x; rw [m2]; simp [hm]
          · intro p
            rw [m3, map_find_push]
            by_cases hp : pp = p
            · subst hp
              rw [if_pos rfl, if_pos ⟨c1.symm, Ne.symm c2, rfl⟩]
            · rw [if_neg hp, if_neg (fun hn => hp hn.2.2)]
          · intro q
            rw [m4, if_neg (fun hn => hn.1 c1.symm)]
      · by_cases c2 : g.rank = pp
        · have e := h3 ⟨c1, c2⟩
          have m1 : s'.unrefined_cell_data = s.unrefined_cell_data := by rw [e]
          have m2 : s'.cells = s.cells := by rw [e]
          have m3 : s'.cells_to_send = s.cells_to_send := by rw [e]
          have m4 : s'.cells_to_receive = map_push s.cells_to_receive pu a := by rw [e]
          have hm : g.moved_locally a = false := by
            rw [hml]; simp [Ne.symm c1]
          refine ⟨?_, ?_, fun hn => absurd hn (by simp [hm]), ?_, ?_⟩
          · intro x; rw [m1]; simp [hm]
          · intro x; rw [m2]; simp [hm]
          · intro p
            rw [m3, if_neg (fun hn => c1 hn.1.symm)]
          · intro q
            rw [m4, map_find_push]
            by_cases hq : pu = q
            · subst hq
              rw [if_pos rfl, if_pos ⟨Ne.symm c1, c2.symm, rfl⟩]
            · rw [if_neg hq, if_neg (fun hn => hq hn.2.2)]
        · have e := h4 ⟨c1, c2⟩
          have m1 : s'.unrefined_cell_data = s.unrefined_cell_data := by rw [e]
          have m2 : s'.cells = s.cells := by rw [e]
          have m3 : s'.cells_to_send = s.cells_to_send := by rw [e]
          have m4 : s'.cells_to_receive = s.cells_to_receive := by rw [e]
          have hm : g.moved_locally a = false := by
            rw [hml]; simp [Ne.symm c1]
          refine ⟨?_, ?_, fun hn => absurd hn (by simp [hm]), ?_, ?_⟩
          · intro x; rw [m1]; simp [hm]
          · intro x; rw [m2]; simp [hm]
          · intro p
            rw [m3, if_neg (fun hn => c1 hn.1.symm)]
          · intro q
            rw [m4, if_neg (fun hn => c2 hn.2.1.symm)]
    obtain ⟨s1, s2, s3, s4, s5⟩ := hstep
    refine ⟨⟨hix, hrk, ?_, ?_⟩, ?_, ?_, ?_, ?_, ?_, ?_⟩
    · rw [e3, i3, List.foldl_append]; rfl
    · intro x hx
      rcases List.mem_append.1 hx with hx | hx
      · exact i4 x hx
      · simp only [List.mem_singleton] at hx; rw [hx]; exact ha
    · intro x
      rw [s1, f1]
      by_cases hx : x = a
      · subst hx
        by_cases hm : g.moved_locally x = true
        · simp [hm]
        · simp [hm]
      · simp [hx]
    · intro x
      rw [s2, f2]
      by_cases hx : x = a
      · subst hx
        by_cases hm : g.moved_locally x = true
        · simp [hm]
        · simp [hm]
      · simp [hx]
    · intro x hx
      rcases List.mem_append.1 hx with hx | hx
      · exact f3 x hx
      · simp only [List.mem_singleton] at hx; rw [hx]; exact s3
    · intro p
      rw [s4, hst]
      exact option_list_step _ _ a _ (f4 p)
    · intro q
      rw [s5, hrf]
      exact option_list_step _ _ a _ (f5 q)
    · intro x hx
      rcases List.mem_append.1 hx with hx | hx
      · exact f6 x hx
      · simp only [List.mem_singleton] at hx; rw [hx]
        exact (map_has_iff _ _).2 ⟨pu, hgu⟩
end Dccrg
end dccrg
namespace dccrg
open Index Dccrg

theorem foldlM_invariant_nodup {σ α : Type} (f : σ → α → Option σ)
    (P : List α → σ → Prop) (l : List α) (hnd : l.Nodup) (s0 sN : σ) (h0 : P [] s0)
    (hstep : ∀ done a s s', P done s → a ∈ l → a ∉ done → f s a = some s' →
      P (done ++ [a]) s')
    (h : l.foldlM f s0 = some sN) : P l sN := by
  have key : ∀ (rest done : List α) (s : σ), done ++ rest = l → P done s →
      rest.foldlM f s = some sN → P l sN := by
    intro rest
    induction rest with
    | nil =>
      intro done s hl hP hf
      simp only [List.foldlM_nil, Option.pure_def, Option.some.injEq] at hf
      rw [List.append_nil] at hl
      rw [← hl, ← hf]; exact hP
    | cons a t ih =>
      intro done s hl hP hf
      simp only [List.foldlM_cons, Option.bind_eq_bind] at hf
      cases hfa : f s a with
      | none => rw [hfa] at hf; simp at hf
      | some s' =>
        rw [hfa] at hf
        simp only [Option.some_bind] at hf
        have hmem : a ∈ l := by rw [← hl]; simp
        have hnot : a ∉ done := by
          intro hn
          rw [← hl] at hnd
          exact (List.nodup_append.1 hnd).2.2 hn (List.mem_cons_self _ _)
        exact ih (done ++ [a]) s' (by rw [← hl]; simp)
          (hstep done a s s' hP hmem hnot hfa) hf
  exact key l [] s0 rfl h0 h

namespace Dccrg
variable {UserData : Type}

theorem operator_index_congr {g g' : Dccrg UserData} (h : g.same_stores g') :
    g'.operator_index = g.operator_index := by
  obtain ⟨a, b, c, d⟩ := h
  funext x
  unfold operator_index
  rw [a, b, c, d]

/-- `start_user_data_transfers` after the containers of the transfers were cleared:
the posted receives have no payloads yet, and the payloads to send to a process are
those of the sorted cells of `cells_to_send`. -/
theorem start_user_data_transfers_spec (g g' : Dccrg UserData)
    (hout : g.outgoing_data = []) (hin : g.incoming_data = [])
    (h : g.start_user_data_transfers = some g') :
    g'.cells_to_receive = g.cells_to_receive ∧
    (∀ item ∈ g'.incoming_data, item.2 = []) ∧
    ∀ p data, map_find g'.outgoing_data p = some data →
      ∃ list, map_find g.cells_to_send p = some list ∧
        List.Forall₂ (fun u d => g.operator_index u = some d) (sort_cells list) data := by
  unfold start_user_data_transfers at h
  simp only at h
  have e1 := foldl_invariant (fun (g : Dccrg UserData) sender =>
      if sender = g.rank then g
      else if ¬ map_has g.cells_to_receive sender then g
      else { g with
        incoming_data :=
          if map_has g.incoming_data sender then g.incoming_data
          else g.incoming_data ++ [(sender, [])] })
    (fun _ (s : Dccrg UserData) => (s.rank = g.rank ∧ s.comm_size = g.comm_size ∧
      g.same_stores s ∧
      s.cells_to_send = g.cells_to_send ∧ s.cells_to_receive = g.cells_to_receive ∧
      s.outgoing_data = g.outgoing_data) ∧ ∀ item ∈ s.incoming_data, item.2 = [])
    (List.range g.comm_size) g
    ⟨⟨rfl, rfl, ⟨rfl, rfl, rfl, rfl⟩, rfl, rfl, rfl⟩, by rw [hin]; simp⟩ (by
      rintro done a s ⟨hs, hi⟩ _
      simp only
      by_cases c1 : a = s.rank
      · rw [if_pos c1]; exact ⟨hs, hi⟩
      · rw [if_neg c1]
        by_cases c2 : ¬ map_has s.cells_to_receive a = true
        · rw [if_pos c2]; exact ⟨hs, hi⟩
        · rw [if_neg c2]
          refine ⟨hs, ?_⟩
          by_cases c3 : map_has s.incoming_data a = true
          · simp only [c3, if_true]; exact hi
          · simp only [c3]
            intro item hitem
            simp only [Bool.false_eq_true, if_false, List.mem_append,
              List.mem_singleton] at hitem
            rcases hitem with hitem | hitem
            · exact hi item hitem
            · rw [hitem])
  generalize (List.range g.comm_size).foldl _ g = g1 at e1 h
  obtain ⟨⟨k1, k2, k3, k4, k5, k6⟩, k7⟩ := e1
  have e2 := foldlM_invariant_nodup _
    (fun done (s : Dccrg UserData) => (s.rank = g.rank ∧ g.same_stores s ∧
      s.cells_to_receive = g.cells_to_receive ∧ s.incoming_data = g1.incoming_data) ∧
      (∀ p, p ∉ done → map_find s.cells_to_send p = map_find g.cells_to_send p ∧
        map_find s.outgoing_data p = none) ∧
      ∀ p data, map_find s.outgoing_data p = some data →
        ∃ list, map_find g.cells_to_send p = some list ∧
          List.Forall₂ (fun u d => g.operator_index u = some d) (sort_cells list) data)
    (List.range g1.comm_size) (List.nodup_range _) g1 g'
    ⟨⟨k1, k3, k5, rfl⟩, fun p _ => ⟨by rw [k4], by rw [k6, hout]; rfl⟩,
      fun p data hp => by rw [k6, hout] at hp; exact absurd hp (by simp [map_find])⟩ (by
      rintro done a s s' ⟨⟨m1, m2, m3, m4⟩, m5, m6⟩ _ hnd hs
      by_cases ha : a = s.rank
      · rw [if_pos ha] at hs
        simp only [Option.some.injEq] at hs
        subst hs
        exact ⟨⟨m1, m2, m3, m4⟩,
          fun p hp => m5 p (fun hn => hp (List.mem_append.2 (Or.inl hn))), m6⟩
      · rw [if_neg ha] at hs
        obtain ⟨n1, n2⟩ := m5 a hnd
        cases hl : map_find g.cells_to_send a with
        | none =>
          rw [n1, hl] at hs
          simp only [Option.some.injEq] at hs
          subst hs
          exact ⟨⟨m1, m2, m3, m4⟩,
            fun p hp => m5 p (fun hn => hp (List.mem_append.2 (Or.inl hn))), m6⟩
        | some list =>
          rw [n1, hl] at hs
          simp only [Option.map_eq_some'] at hs
          obtain ⟨data, hd, hs⟩ := hs
          rw [mapM_some_iff] at hd
          subst hs
          refine ⟨⟨m1, m2, m3, m4⟩, ?_, ?_⟩
          · intro p hp
            have hpa : a ≠ p := fun e => hp (List.mem_append.2 (Or.inr (by simp [e])))
            have := m5 p (fun hn => hp (List.mem_append.2 (Or.inl hn)))
            simp only [map_find_set, if_neg hpa]
            exact this
          · intro p data' hp
            simp only [map_find_set] at hp
            by_cases hpa : a = p
            · rw [if_pos hpa, n2] at hp
              simp only [Option.getD_none, List.nil_append, Option.some.injEq] at hp
              subst hp
              subst hpa
              refine ⟨list, hl, ?_⟩
              refine forall₂_imp ?_ _ _ hd
              intro u d hud
              rw [← congrFun (operator_index_congr m2) u]
              exact hud
            · rw [if_neg hpa] at hp
              exact m6 p data' hp) h
  obtain ⟨⟨_, _, m3, m4⟩, _, m6⟩ := e2
  refine ⟨m3, ?_, m6⟩
  rw [m4]
  exact k7

end Dccrg
end dccrg
namespace dccrg
open Index Dccrg

variable {V : Type}

theorem mem_map_set (m : umap V) (k : Nat) (v : V) (x : Nat × V) (h : x ∈ map_set m k v) :
    x ∈ m ∨ x = (k, v) := by
  induction m with
  | nil =>
    simp only [map_set, List.mem_singleton] at h
    exact Or.inr h
  | cons p t ih =>
    obtain ⟨k', v'⟩ := p
    simp only [map_set] at h
    by_cases hk : k' = k
    · rw [if_pos hk] at h
      rcases List.mem_cons.1 h with h | h
      · exact Or.inr h
      · exact Or.inl (List.mem_cons_of_mem _ h)
    · rw [if_neg hk] at h
      rcases List.mem_cons.1 h with h | h
      · exact Or.inl (by rw [h]; exact List.mem_cons_self _ _)
      · rcases ih h with h | h
        · exact Or.inl (List.mem_cons_of_mem _ h)
        · exact Or.inr h

theorem map_find_foldl_set_pairs (pairs : List (Nat × V)) (m : umap V) (u : Nat) (d : V)
    (h : map_find (pairs.foldl (fun (m : umap V) (p : Nat × V) => map_set m p.1 p.2) m) u
      = some d) :
    map_find m u = some d ∨ (u, d) ∈ pairs := by
  induction pairs generalizing m with
  | nil => exact Or.inl h
  | cons p t ih =>
    rw [List.foldl_cons] at h
    rcases ih _ h with h | h
    · rw [map_find_set] at h
      by_cases hp : p.1 = u
      · rw [if_pos hp] at h
        simp only [Option.some.injEq] at h
        right
        rw [← hp, ← h]
        exact List.mem_cons_self _ _
      · rw [if_neg hp] at h
        exact Or.inl h
    · exact Or.inr (List.mem_cons_of_mem _ h)

theorem sort_cells_idem (l : List Nat) : sort_cells (sort_cells l) = sort_cells l := by
  unfold sort_cells
  exact List.Sorted.insertionSort_eq (List.sorted_insertionSort _ l)

theorem mem_sort_cells (l : List Nat) (u : Nat) : u ∈ sort_cells l ↔ u ∈ l := by
  unfold sort_cells
  exact (List.perm_insertionSort _ l).mem_iff

theorem sort_cells_eq_of_mem {l l' : List Nat} (hl : l.Nodup) (hl' : l'.Nodup)
    (h : ∀ u, u ∈ l ↔ u ∈ l') : sort_cells l = sort_cells l' := by
  unfold sort_cells
  have hp : l.Perm l' := (List.perm_ext_iff_of_nodup hl hl').2 h
  exact List.eq_of_perm_of_sorted
    (((List.perm_insertionSort _ l).trans hp).trans (List.perm_insertionSort _ l').symm)
    (List.sorted_insertionSort _ l) (List.sorted_insertionSort _ l')

namespace Dccrg
variable {UserData : Type}

/-- `wait_user_data_transfer_receives`: a payload of `unrefined_cell_data` was there
before or was received for a cell of `cells_to_receive`. -/
theorem wait_user_data_transfer_receives_spec (g g' : Dccrg UserData)
    (Pay : Nat → UserData → Prop)
    (hpay : ∀ item ∈ g.incoming_data, ∀ list, map_find g.cells_to_receive item.1 = some list →
      ∀ pr ∈ (sort_cells list).zip item.2, Pay pr.1 pr.2)
    (h : g.wait_user_data_transfer_receives = some g') :
    ∀ u d, map_find g'.unrefined_cell_data u = some d →
      map_find g.unrefined_cell_data u = some d ∨
      (Pay u d ∧ ∃ q list, map_find g.cells_to_receive q = some list ∧ u ∈ list) := by
  unfold wait_user_data_transfer_receives at h
  simp only [Option.map_eq_some'] at h
  obtain ⟨g1, h1, h2⟩ := h
  subst h2
  have e := foldlM_invariant _
    (fun _ (s : Dccrg UserData) =>
      (∀ q list', map_find s.cells_to_receive q = some list' →
        ∃ list, map_find g.cells_to_receive q = some list ∧
          sort_cells list' = sort_cells list) ∧
      ∀ u d, map_find s.unrefined_cell_data u = some d →
        map_find g.unrefined_cell_data u = some d ∨
        (Pay u d ∧ ∃ q list, map_find g.cells_to_receive q = some list ∧ u ∈ list))
    g.incoming_data g g1 ⟨fun q list' hq => ⟨list', hq, rfl⟩, fun u d hu => Or.inl hu⟩ (by
      rintro done item s s' ⟨m1, m2⟩ hitem hs
      cases hl : map_find s.cells_to_receive item.1 with
      | none => rw [hl] at hs; simp at hs
      | some list' =>
        rw [hl] at hs
        simp only at hs
        obtain ⟨list, hlist, hsort⟩ := m1 _ _ hl
        by_cases hlen : (sort_cells list').length ≤ item.2.length
        · rw [if_pos hlen] at hs
          simp only [Option.some.injEq] at hs
          subst hs
          refine ⟨?_, ?_⟩
          · intro q l2 hq
            simp only [map_find_set] at hq
            by_cases hqe : item.1 = q
            · rw [if_pos hqe] at hq
              simp only [Option.some.injEq] at hq
              subst hq
              subst hqe
              exact ⟨list, hlist, by rw [sort_cells_idem, hsort]⟩
            · rw [if_neg hqe] at hq
              exact m1 q l2 hq
          · intro u d hu
            simp only at hu
            rcases map_find_foldl_set_pairs _ _ u d hu with hu | hu
            · exact m2 u d hu
            · right
              rw [hsort] at hu
              refine ⟨hpay item hitem list hlist (u, d) hu, item.1, list, hlist, ?_⟩
              exact (mem_sort_cells _ _).1 (List.of_mem_zip hu).1
        · rw [if_neg hlen] at hs
          cases hs) h1
  exact e.2

end Dccrg

/-- The payloads delivered to a process: an item of the result is a posted receive
without payload or holds what the sender put in `outgoing_data` for the process. -/
theorem deliver_spec {UserData : Type} (w : World UserData) (g : Dccrg UserData)
    (incoming : umap (List UserData)) (h : deliver w g = some incoming) :
    ∀ item ∈ incoming, item ∈ g.incoming_data ∨
      ∃ s, w[item.1]? = some s ∧ item.1 ≠ g.rank ∧
        item.2 = (map_find s.outgoing_data g.rank).getD [] := by
  unfold deliver at h
  refine foldlM_invariant _
    (fun _ (inc : umap (List UserData)) => ∀ item ∈ inc, item ∈ g.incoming_data ∨
      ∃ s, w[item.1]? = some s ∧ item.1 ≠ g.rank ∧
        item.2 = (map_find s.outgoing_data g.rank).getD [])
    (List.range g.comm_size) g.incoming_data incoming (fun item hi => Or.inl hi) ?_ h
  rintro done sender inc inc' hinv _ hs
  simp only at hs
  by_cases c1 : sender = g.rank
  · rw [if_pos c1] at hs
    simp only [Option.some.injEq] at hs
    subst hs; exact hinv
  · rw [if_neg c1] at hs
    cases hw : w[sender]? with
    | none => rw [hw] at hs; simp at hs
    | some s =>
      rw [hw] at hs
      simp only at hs
      split at hs
      · simp only [Option.some.injEq] at hs
        subst hs
        intro item hitem
        rcases mem_map_set _ _ _ _ hitem with hitem | hitem
        · exact hinv item hitem
        · right
          rw [hitem]
          exact ⟨s, hw, c1, rfl⟩
      · simp only [Option.some.injEq] at hs
        subst hs; exact hinv
      · cases hs

end dccrg
namespace dccrg
open Index Dccrg
namespace Dccrg
variable {UserData : Type}

theorem collect_unrefines_nodup (g : Dccrg UserData) : g.collect_unrefines.2.Nodup := by
  unfold collect_unrefines
  exact foldl_invariant _ (fun _ (s : uset × uset) => s.2.Nodup) g.cells_to_unrefine ([], [])
    List.nodup_nil (fun done a s hs _ => set_insert_range_nodup _ _ hs)

/-- The cells of `all_to_unrefine` after the loop over the refined cells, in terms
of the grid before `execute_refines`. -/
theorem unrefine_set_facts [Inhabited UserData] (g : Dccrg UserData)
    (hfit : g.index.ids_fit) (hinv : g.existence_invariant)
    (hCU : ∀ u ∈ g.cells_to_unrefine, map_has g.cell_process u = true ∧
      g.index.get_refinement_level u ≠ 0 ∧
      ∀ s ∈ g.index.children_of (g.index.get_parent_for_removed u),
        (∀ x ∈ g.index.children_of s, map_has g.cell_process x = false) ∧
        s ∉ g.cells_to_refine)
    (hleaf : ∀ c ∈ g.cells_to_refine, map_has g.cell_process c = true ∧
      ∀ x ∈ g.index.children_of c, map_has g.cell_process x = false)
    (acc1 : Dccrg UserData × List Nat × uset)
    (h1 : g.cells_to_refine.foldlM execute_refines_refine (g.execute_refines_clear, [], [])
      = some acc1) :
    (acc1.1.index = g.index ∧ acc1.1.rank = g.rank ∧ acc1.1.existence_invariant) ∧
    (acc1.1.cells_to_send = [] ∧ acc1.1.cells_to_receive = [] ∧
      acc1.1.incoming_data = [] ∧ acc1.1.outgoing_data = [] ∧
      acc1.1.unrefined_cell_data = []) ∧
    (∀ x, map_has acc1.1.refined_cell_data x = true → x ∈ g.cells_to_refine) ∧
    (∀ u, u ∈ acc1.1.collect_unrefines.2 ↔ ∃ c ∈ g.cells_to_unrefine,
      u ∈ g.index.children_of (g.index.get_parent_for_removed c)) ∧
    ∀ u ∈ acc1.1.collect_unrefines.2,
      (∃ c ∈ g.cells_to_unrefine,
        u ∈ g.index.children_of (g.index.get_parent_for_removed c) ∧
        g.index.get_parent_for_removed u = g.index.get_parent_for_removed c) ∧
      map_has g.cell_process u = true ∧ u ∉ g.cells_to_refine ∧
      (∀ x ∈ g.index.children_of u, map_has g.cell_process x = false) ∧
      map_find acc1.1.cell_process u = map_find g.cell_process u ∧
      acc1.1.get_parent u = g.index.get_parent_for_removed u ∧
      g.index.get_parent_for_removed u ∉ acc1.1.collect_unrefines.2 ∧
      map_has g.cell_process (g.index.get_parent_for_removed u) = true ∧
      map_find acc1.1.cell_process (g.index.get_parent_for_removed u)
        = map_find g.cell_process (g.index.get_parent_for_removed u) ∧
      map_find acc1.1.cells u = map_find g.cells u := by
  obtain ⟨A1, A2, A3, A4, A5, A6⟩ := refine_loop_spec g.execute_refines_clear hfit hinv
    g.cells_to_refine hleaf [] [] acc1 h1
  obtain ⟨B1, B2, B3, B4, B5, B6, B7, B8⟩ := refine_loop_directory g.execute_refines_clear
    hfit hinv g.cells_to_refine [] [] acc1 h1
  change ∀ x, (∀ r ∈ g.cells_to_refine, x ∉ g.index.children_of r) →
      map_find acc1.1.cell_process x = map_find g.cell_process x at A2
  change ∀ x, (x ∈ g.cells_to_refine → map_find g.cell_process x ≠ some g.rank) →
      (∀ r ∈ g.cells_to_refine, x ∉ g.index.children_of r) →
      map_find acc1.1.cells x = map_find g.cells x at A4
  change ∀ x, map_has acc1.1.refined_cell_data x = true →
      map_has ([] : umap UserData) x = true ∨ x ∈ g.cells_to_refine at A5
  change ∀ x, map_has acc1.1.cell_process x = true ↔
      map_has g.cell_process x = true ∨
        ∃ r ∈ g.cells_to_refine, x ∈ g.index.children_of r at B6
  have hix : acc1.1.index = g.index := congrArg (fun t => t.1) B1
  have hrk : acc1.1.rank = g.rank := congrArg (fun t => t.2.1) B1
  have hctu : acc1.1.cells_to_unrefine = g.cells_to_unrefine := B2.2.1
  have hfit1 : acc1.1.index.ids_fit := by rw [hix]; exact hfit
  -- a cell of the directory is not the child of a refined cell
  have hnc : ∀ x, map_has g.cell_process x = true →
      ∀ r ∈ g.cells_to_refine, x ∉ g.index.children_of r := by
    intro x hx r hr hn
    have := (hleaf r hr).2 x hn
    rw [hx] at this
    exact Bool.noConfusion this
  have hmem : ∀ u, u ∈ acc1.1.collect_unrefines.2 ↔ ∃ c ∈ g.cells_to_unrefine,
      u ∈ g.index.children_of (g.index.get_parent_for_removed c) := by
    intro u
    rw [mem_collect_unrefines, hctu]
    have hch : ∀ c ∈ g.cells_to_unrefine,
        acc1.1.get_all_children (acc1.1.get_parent c)
          = g.index.children_of (g.index.get_parent_for_removed c) := by
      intro c hc
      obtain ⟨e1, e2⟩ := get_parent_eq acc1.1 hfit1 B7 ((B6 c).2 (Or.inl (hCU c hc).1))
      obtain ⟨v1, _⟩ := B7.1 _ ((mem_map_keys _ _).2 e2)
      rw [e1, get_all_children_of_has acc1.1 (by omega) e2, hix]
    constructor
    · rintro ⟨c, hc, hu⟩
      exact ⟨c, hc, by rw [← hch c hc]; exact hu⟩
    · rintro ⟨c, hc, hu⟩
      exact ⟨c, hc, by rw [hch c hc]; exact hu⟩
  refine ⟨⟨hix, hrk, B7⟩, ⟨B3.1, B3.2.1, B3.2.2.1, B3.2.2.2, B4⟩, ?_, hmem, ?_⟩
  · intro x hx
    rcases A5 x hx with h | h
    · exact absurd h (by simp [map_has, map_find])
    · exact h
  intro u hu
  obtain ⟨c, hc, huc⟩ := (hmem u).1 hu
  obtain ⟨c1, c2, c3⟩ := hCU c hc
  obtain ⟨cv1, cv2⟩ := hinv.1 c ((mem_map_keys _ _).2 c1)
  obtain ⟨p1, p2, p3, p4⟩ := mem_children_of_parent hfit cv1 cv2 c2
  obtain ⟨q1, q2, q3, q4, q5⟩ := children_of_facts hfit p3 p4 huc
  obtain ⟨i1, i2⟩ := hinv.2.2 c ((mem_map_keys _ _).2 c1) c2
  have hud : map_has g.cell_process u = true := i2 u huc
  have hpu : map_has g.cell_process (g.index.get_parent_for_removed u) = true := by
    rw [q2]; exact i1
  refine ⟨⟨c, hc, huc, q2⟩, hud, (c3 u huc).2, (c3 u huc).1, A2 u (hnc u hud), ?_, ?_, hpu,
    A2 _ (hnc _ hpu), A4 u (fun h => absurd h (c3 u huc).2) (hnc u hud)⟩
  · rw [(get_parent_eq acc1.1 hfit1 B7 ((B6 u).2 (Or.inl hud))).1, hix]
  · intro hn
    rw [q2] at hn
    obtain ⟨c', hc', hpc⟩ := (hmem _).1 hn
    have := ((hCU c' hc').2.2 _ hpc).1 c p1
    rw [c1] at this
    exact Bool.noConfusion this

end Dccrg
end dccrg
namespace dccrg
open Index Dccrg
namespace Dccrg
variable {UserData : Type}

/-- The transfer lists, the buffers and the payloads of local unrefines of a process
when it waits for the transfers of `execute_refines`, in terms of the grid before
`execute_refines`. -/
theorem rank_transfer_lists [Inhabited UserData] (g : Dccrg UserData)
    (hfit : g.index.ids_fit) (hinv : g.existence_invariant)
    (hCU : ∀ u ∈ g.cells_to_unrefine, map_has g.cell_process u = true ∧
      g.index.get_refinement_level u ≠ 0 ∧
      ∀ s ∈ g.index.children_of (g.index.get_parent_for_removed u),
        (∀ x ∈ g.index.children_of s, map_has g.cell_process x = false) ∧
        s ∉ g.cells_to_refine)
    (hleaf : ∀ c ∈ g.cells_to_refine, map_has g.cell_process c = true ∧
      ∀ x ∈ g.index.children_of c, map_has g.cell_process x = false)
    (hstore : g.local_store_ok)
    (b : Dccrg UserData × List Nat × uset) (hb : g.execute_refines_before_wait = some b) :
    (∀ item ∈ b.1.incoming_data, item.2 = []) ∧
    (∀ q list, map_find b.1.cells_to_receive q = some list →
      list.Nodup ∧ ∀ u, u ∈ list ↔
        (u ∈ b.2.2 ∧ map_find g.cell_process u = some q ∧ q ≠ g.rank ∧
          map_find g.cell_process (g.index.get_parent_for_removed u) = some g.rank)) ∧
    (∀ p data, map_find b.1.outgoing_data p = some data →
      ∃ list, list.Nodup ∧
        (∀ u, u ∈ list ↔
          (u ∈ b.2.2 ∧ map_find g.cell_process u = some g.rank ∧
            map_find g.cell_process (g.index.get_parent_for_removed u) = some p ∧
            p ≠ g.rank)) ∧
        List.Forall₂ (fun u d => map_find g.cells u = some d) (sort_cells list) data) ∧
    (∀ u d, map_find b.1.unrefined_cell_data u = some d →
      u ∈ b.2.2 ∧ map_find g.cell_process u = some g.rank ∧
      map_find g.cell_process (g.index.get_parent_for_removed u) = some g.rank ∧
      map_find g.cells u = some d) ∧
    (∀ u, u ∈ b.2.2 ↔ ∃ c ∈ g.cells_to_unrefine,
      u ∈ g.index.children_of (g.index.get_parent_for_removed c)) ∧
    b.1.rank = g.rank := by
  obtain ⟨acc1, acc2, g3, acc4, g5, g6, h1, h2, h3, h4, h5, h6, h7, _, hatu⟩ :=
    before_wait_steps g b hb
  obtain ⟨⟨hix, hrk, hinv1⟩, ⟨t1, t2, t3, t4, t5⟩, _, hmemU, U⟩ :=
    unrefine_set_facts g hfit hinv hCU hleaf acc1 h1
  have hnd := collect_unrefines_nodup acc1.1
  rw [← hatu] at h2 U hnd hmemU
  -- the loop over the unrefined cells
  obtain ⟨L1, L2, _, L4, L5, _⟩ := unrefine_loop_transfers acc1.1 b.2.2 acc1.2.2 acc2
    (fun u hu => by
      obtain ⟨_, _, _, _, _, u6, u7, u8, u9, _⟩ := U u hu
      rw [u6]
      exact ⟨u7, by unfold map_has at u8 ⊢; rw [u9]; exact u8⟩) t1 t2 h2
  obtain ⟨_, _, _, _, _, d6, d7⟩ := unrefine_loop_directory _ _ _ _ h2
  -- the start of the transfers and the steps up to the wait
  obtain ⟨S1, S2, S3⟩ := start_user_data_transfers_spec acc2.1 g3 (d7.trans t4)
    (d6.trans t3) h3
  obtain ⟨_, ⟨_, _, s3, _⟩, _⟩ := start_user_data_transfers_frame _ _ h3
  obtain ⟨pd, _, ⟨p1, p2, p3, p4⟩, _, p5, _⟩ := parent_loop_frame _ _ _ _ h4
  have r5 := update_neighbors_loop_frame _ _ _ h5
  have r6 := remove_neighbor_lists_frame _ _ _ h6
  have r7 := update_remote_neighbor_info_frame _ _ h7
  have hrel : b.1.relevant = acc4.1.relevant := r7.trans (r6.trans r5)
  unfold relevant at hrel
  simp only [Prod.mk.injEq] at hrel
  obtain ⟨x1, _, _, _, x5, _, _, _, _, _, x11, x12, x13⟩ := hrel
  -- the conditions of the loop in terms of the grid before `execute_refines`
  have hml : ∀ u ∈ b.2.2, (acc1.1.moved_locally u = true ↔
      map_find g.cell_process u = some g.rank ∧
      map_find g.cell_process (g.index.get_parent_for_removed u) = some g.rank) := by
    intro u hu
    obtain ⟨_, _, _, _, u5, u6, _, _, u9, _⟩ := U u hu
    unfold moved_locally
    rw [u6, u5, u9, hrk]
    simp
  refine ⟨?_, ?_, ?_, ?_, hmemU, ?_⟩
  · rw [x12, p3]; exact S2
  · intro q list hq
    rw [x11, p2, S1, L5] at hq
    split_ifs at hq with he
    simp only [Option.some.injEq] at hq
    subst hq
    refine ⟨hnd.filter _, ?_⟩
    intro u
    unfold receives_from
    rw [List.mem_filter]
    constructor
    · rintro ⟨hu, hc⟩
      obtain ⟨_, _, _, _, u5, u6, _, _, u9, _⟩ := U u hu
      rw [u6, u5, u9, hrk] at hc
      simp only [Bool.and_eq_true, beq_iff_eq, bne_iff_ne, ne_eq] at hc
      exact ⟨hu, hc.1, hc.2.1, hc.2.2⟩
    · rintro ⟨hu, c1, c2, c3⟩
      obtain ⟨_, _, _, _, u5, u6, _, _, u9, _⟩ := U u hu
      refine ⟨hu, ?_⟩
      rw [u6, u5, u9, hrk]
      simp only [Bool.and_eq_true, beq_iff_eq, bne_iff_ne, ne_eq]
      exact ⟨c1, c2, c3⟩
  · intro p data hp
    rw [x13, p4] at hp
    obtain ⟨list, hl, hf⟩ := S3 p data hp
    rw [L4] at hl
    split_ifs at hl with he
    simp only [Option.some.injEq] at hl
    subst hl
    have hmem : ∀ u, u ∈ acc1.1.sends_to b.2.2 p ↔
        (u ∈ b.2.2 ∧ map_find g.cell_process u = some g.rank ∧
          map_find g.cell_process (g.index.get_parent_for_removed u) = some p ∧
          p ≠ g.rank) := by
      intro u
      unfold sends_to
      rw [List.mem_filter]
      constructor
      · rintro ⟨hu, hc⟩
        obtain ⟨_, _, _, _, u5, u6, _, _, u9, _⟩ := U u hu
        rw [u6, u5, u9, hrk] at hc
        simp only [Bool.and_eq_true, beq_iff_eq, bne_iff_ne, ne_eq] at hc
        exact ⟨hu, hc.1, hc.2.1, hc.2.2⟩
      · rintro ⟨hu, c1, c2, c3⟩
        obtain ⟨_, _, _, _, u5, u6, _, _, u9, _⟩ := U u hu
        refine ⟨hu, ?_⟩
        rw [u6, u5, u9, hrk]
        simp only [Bool.and_eq_true, beq_iff_eq, bne_iff_ne, ne_eq]
        exact ⟨c1, c2, c3⟩
    refine ⟨_, hnd.filter _, hmem, ?_⟩
    refine forall₂_imp ?_ _ _ (forall₂_with_mem _ _ hf)
    rintro u d ⟨⟨hu, _⟩, hop⟩
    obtain ⟨hu1, c1, c2, c3⟩ := (hmem u).1 ((mem_sort_cells _ _).1 hu)
    obtain ⟨_, u2, _, u4, _, _, _, _, _, u10⟩ := U u hu1
    have hnl : ¬ (u ∈ b.2.2 ∧ acc1.1.moved_locally u = true) := by
      rintro ⟨_, hn⟩
      have := ((hml u hu1).1 hn).2
      rw [c2] at this
      simp only [Option.some.injEq] at this
      exact c3 this
    have hcell : map_find acc2.1.cells u = map_find g.cells u := by
      rw [L2, if_neg hnl, u10]
    have hhas : map_has g.cells u = true :=
      hstore.2.1 u ((mem_map_keys _ _).2 u2) c1 ((leaf_iff_no_child g hfit hinv u2).2 u4)
    unfold operator_index at hop
    rw [show map_has acc2.1.cells u = true by unfold map_has at hhas ⊢; rw [hcell]; exact hhas,
      if_pos rfl, hcell] at hop
    exact hop
  · intro u d hu
    rw [x5, p5, s3, L1] at hu
    split_ifs at hu with hc
    · obtain ⟨_, _, _, _, _, _, _, _, _, u10⟩ := U u hc.1
      rw [u10] at hu
      exact ⟨hc.1, ((hml u hc.1).1 hc.2).1, ((hml u hc.1).1 hc.2).2, hu⟩
    · rw [t5] at hu
      exact absurd hu (by simp [map_find])
  · have e1 := congrArg (fun t => t.2.1) x1
    have e2 := congrArg (fun t => t.2.1) pd.1
    have e3 := congrArg (fun t => t.2.1) (start_user_data_transfers_frame _ _ h3).1.1
    have e4 := congrArg (fun t => t.2.1) (unrefine_loop_directory _ _ _ _ h2).1
    simp only [fixed] at e1 e2 e3 e4
    rw [e1, e2, e3, e4, hrk]

end Dccrg
end dccrg
namespace dccrg
open Index Dccrg
namespace Dccrg
variable {UserData : Type}

/-- The cells of `get_removed_cells` of a process after `execute_refines`, when the
payloads received for the sorted cells of `cells_to_receive` satisfy `Pay`. -/
theorem rank_removed_cells [Inhabited UserData] (g : Dccrg UserData)
    (hfit : g.index.ids_fit) (hinv : g.existence_invariant)
    (hCU : ∀ u ∈ g.cells_to_unrefine, map_has g.cell_process u = true ∧
      g.index.get_refinement_level u ≠ 0 ∧
      ∀ s ∈ g.index.children_of (g.index.get_parent_for_removed u),
        (∀ x ∈ g.index.children_of s, map_has g.cell_process x = false) ∧
        s ∉ g.cells_to_refine)
    (hleaf : ∀ c ∈ g.cells_to_refine, map_has g.cell_process c = true ∧
      ∀ x ∈ g.index.children_of c, map_has g.cell_process x = false)
    (hstore : g.local_store_ok)
    (b : Dccrg UserData × List Nat × uset) (hb : g.execute_refines_before_wait = some b)
    (incoming : umap (List UserData)) (g' : Dccrg UserData)
    (ha : ({ b.1 with incoming_data := incoming }).execute_refines_after_wait b.2.2
      = some g')
    (Pay : Nat → UserData → Prop)
    (hinc : ∀ item ∈ incoming, ∀ list, map_find b.1.cells_to_receive item.1 = some list →
      ∀ pr ∈ (sort_cells list).zip item.2, Pay pr.1 pr.2) :
    ∀ u ∈ g'.get_removed_cells,
      u ∈ b.2.2 ∧
      map_find g.cell_process (g.index.get_parent_for_removed u) = some g.rank ∧
      (∃ d, g'.operator_index u = some d ∧
        ((map_find g.cell_process u = some g.rank ∧ map_find g.cells u = some d) ∨
          (map_find g.cell_process u ≠ some g.rank ∧ Pay u d))) ∧
      map_has g'.cell_process u = false ∧ map_has g'.cells u = false ∧
      map_find g'.cell_process (g.index.get_parent_for_removed u) = some g'.rank ∧
      (∀ x ∈ g.index.children_of (g.index.get_parent_for_removed u),
        map_has g'.cell_process x = false) ∧
      map_has g'.cells (g.index.get_parent_for_removed u) = true ∧
      g'.operator_index (g.index.get_parent_for_removed u)
        = map_find g'.cells (g.index.get_parent_for_removed u) := by
  obtain ⟨acc1, h1, _, e2, s1, s2, s3, _, s5, s6⟩ := rank_stores g b hb incoming g' ha
  obtain ⟨hfix, _, _, _, _, _, hatu, _⟩ := rank_directory g hfit hinv hCU b hb incoming g' ha
  obtain ⟨⟨hix, hrk, hinv1⟩, _, hrcd, _, U⟩ := unrefine_set_facts g hfit hinv hCU hleaf acc1 h1
  obtain ⟨_, T2, _, T4, _⟩ := rank_transfer_lists g hfit hinv hCU hleaf hstore b hb
  obtain ⟨g1, w1, _, _, w4, _⟩ := after_wait_steps _ _ _ ha
  have hwait := wait_user_data_transfer_receives_spec _ g1 Pay hinc w1
  have hrk' : g'.rank = g.rank := congrArg (fun t => t.2.1) hfix
  rw [← e2] at U
  intro u hu
  unfold get_removed_cells at hu
  rw [mem_map_keys, map_has_iff] at hu
  obtain ⟨d, hd⟩ := hu
  -- the payload was moved on this process or received
  have hcase : u ∈ b.2.2 ∧
      map_find g.cell_process (g.index.get_parent_for_removed u) = some g.rank ∧
      ((map_find g.cell_process u = some g.rank ∧ map_find g.cells u = some d) ∨
        (map_find g.cell_process u ≠ some g.rank ∧ Pay u d)) := by
    rw [w4] at hd
    rcases hwait u d hd with h | ⟨hp, q, list, hq, hul⟩
    · obtain ⟨a1, a2, a3, a4⟩ := T4 u d h
      exact ⟨a1, a3, Or.inl ⟨a2, a4⟩⟩
    · obtain ⟨a1, a2, a3, a4⟩ := ((T2 q list hq).2 u).1 hul
      refine ⟨a1, a4, Or.inr ⟨?_, hp⟩⟩
      rw [a2]
      intro hn
      simp only [Option.some.injEq] at hn
      exact a3 hn
  obtain ⟨hu1, hpo, hpay⟩ := hcase
  obtain ⟨⟨c, hc, huc, hpc⟩, u2, u3, _, _, _, u7, _, u9, _⟩ := U u hu1
  have hcells : map_has g'.cells u = false := by
    by_contra hn
    have hn' : map_has g'.cells u = true := by simpa using hn
    exact (s5 u hn').1 hu1
  have hnr : map_has g'.refined_cell_data u = false := by
    by_contra hn
    have hn' : map_has g'.refined_cell_data u = true := by simpa using hn
    rw [s1] at hn'
    exact u3 (hrcd u hn')
  have hop : g'.operator_index u = some d := by
    unfold operator_index
    rw [hcells, s2, hnr]
    simp [map_has, map_find, hd]
  have hpd : map_find g'.cell_process (g.index.get_parent_for_removed u) = some g'.rank := by
    rw [s3, map_find_foldl_erase, if_neg u7, u9, hpo, hrk']
  -- the parent is one of the parents of the unrefined cells
  have hpar : g.index.get_parent_for_removed u ∈ acc1.1.collect_unrefines.1 := by
    rw [mem_collect_parents]
    have hctu : acc1.1.cells_to_unrefine = g.cells_to_unrefine :=
      (refine_loop_frame _ _ _ _ _ h1).2.1.2.1
    rw [hctu]
    refine ⟨c, hc, ?_⟩
    obtain ⟨c1, c2, _⟩ := hCU c hc
    obtain ⟨cv1, cv2⟩ := hinv.1 c ((mem_map_keys _ _).2 c1)
    have hcatu : c ∈ b.2.2 :=
      (hatu c).2 ⟨c, hc, (mem_children_of_parent hfit cv1 cv2 c2).1⟩
    obtain ⟨_, _, _, _, _, k6, _⟩ := U c hcatu
    rw [k6, hpc]
  have hpc' : map_has g'.cells (g.index.get_parent_for_removed u) = true :=
    s6 _ hpar u7 hpd
  refine ⟨hu1, hpo, ⟨d, hop, hpay⟩, ?_, hcells, hpd, ?_, hpc', ?_⟩
  · rw [s3, map_has_foldl_erase]
    simp [hu1]
  · intro x hx
    rw [s3, map_has_foldl_erase]
    have : x ∈ b.2.2 := (hatu x).2 ⟨c, hc, by rw [← hpc]; exact hx⟩
    simp [this]
  · unfold operator_index
    rw [hpc', if_pos rfl]

end Dccrg
end dccrg
namespace dccrg
open Index Dccrg
variable {UserData : Type}

theorem forall₂_getElem?_right {α β : Type} {R : α → β → Prop} {l : List α} {l' : List β}
    (h : List.Forall₂ R l l') (i : Nat) (b : β) (hb : l'[i]? = some b) :
    ∃ a, l[i]? = some a ∧ R a b := by
  induction h generalizing i with
  | nil => simp at hb
  | cons hab _ ih =>
    cases i with
    | zero =>
      simp only [List.getElem?_cons_zero, Option.some.injEq] at hb ⊢
      subst hb
      exact ⟨_, rfl, hab⟩
    | succ n =>
      simp only [List.getElem?_cons_succ] at hb ⊢
      exact ih n hb

theorem rank_of_getElem? {w : World UserData} (h : consistent w) {q : Nat}
    {g : Dccrg UserData} (hq : w[q]? = some g) : g.rank = q ∧ g ∈ w := by
  have hmem : g ∈ w := by
    obtain ⟨hl, he⟩ := List.getElem?_eq_some.1 hq
    rw [← he]
    exact List.getElem_mem _
  have h1 : (w.map fun g => g.rank)[q]? = some g.rank := by
    rw [List.getElem?_map, hq]; rfl
  rw [h.1] at h1
  have hlt : q < w.length := by
    by_contra hn
    rw [List.getElem?_eq_none (by omega)] at hq
    cases hq
  rw [List.getElem?_range hlt] at h1
  simp only [Option.some.injEq] at h1
  exact ⟨h1.symm, hmem⟩

/-- The payloads that a process receives during `execute_refines` for the sorted
cells of `cells_to_receive` are the payloads of these cells on their owners. -/
theorem incoming_payloads [Inhabited UserData] (wp : World UserData)
    (before : List (Dccrg UserData × List Nat × uset)) (hcp : consistent wp)
    (hb1 : List.Forall₂ (fun g b => g.execute_refines_before_wait = some b) wp before)
    (hCU : ∀ gp ∈ wp, ∀ u ∈ gp.cells_to_unrefine, map_has gp.cell_process u = true ∧
      gp.index.get_refinement_level u ≠ 0 ∧
      ∀ s ∈ gp.index.children_of (gp.index.get_parent_for_removed u),
        (∀ x ∈ gp.index.children_of s, map_has gp.cell_process x = false) ∧
        s ∉ gp.cells_to_refine)
    (hleaf : ∀ gp ∈ wp, ∀ c ∈ gp.cells_to_refine, map_has gp.cell_process c = true ∧
      ∀ x ∈ gp.index.children_of c, map_has gp.cell_process x = false)
    (hsame : ∀ gp ∈ wp, ∀ u ∈ gp.cells_to_unrefine, ∀ gq ∈ wp, u ∈ gq.cells_to_unrefine)
    (gp : Dccrg UserData) (hgp : gp ∈ wp) (b : Dccrg UserData × List Nat × uset)
    (hb : gp.execute_refines_before_wait = some b) (incoming : umap (List UserData))
    (hd : deliver (before.map fun b => b.1) b.1 = some incoming) :
    ∀ item ∈ incoming, ∀ list, map_find b.1.cells_to_receive item.1 = some list →
      ∀ pr ∈ (sort_cells list).zip item.2,
        ∃ gq ∈ wp, map_find gq.cell_process pr.1 = some gq.rank ∧
          map_find gq.cells pr.1 = some pr.2 := by
  intro item hitem list hl pr hpr
  obtain ⟨_, hfit, hinv, hstore, _⟩ := hcp.2.1 gp hgp
  obtain ⟨P1, P2, _, _, P5, P6⟩ :=
    rank_transfer_lists gp hfit hinv (hCU gp hgp) (hleaf gp hgp) hstore b hb
  rcases deliver_spec _ _ _ hd item hitem with h | ⟨s, hs, hne, hdata⟩
  · rw [P1 item h, List.zip_nil_right] at hpr
    cases hpr
  · rw [List.getElem?_map] at hs
    simp only [Option.map_eq_some'] at hs
    obtain ⟨bq, hbq, rfl⟩ := hs
    obtain ⟨gq, hgq, hq⟩ := forall₂_getElem?_right hb1 _ _ hbq
    obtain ⟨hrq, hgqm⟩ := rank_of_getElem? hcp hgq
    obtain ⟨_, hfitq, hinvq, hstoreq, _⟩ := hcp.2.1 gq hgqm
    obtain ⟨_, _, Q3, _, Q5, _⟩ :=
      rank_transfer_lists gq hfitq hinvq (hCU gq hgqm) (hleaf gq hgqm) hstoreq bq hq
    cases hout : map_find bq.1.outgoing_data b.1.rank with
    | none =>
      rw [hout] at hdata
      rw [hdata] at hpr
      simp at hpr
    | some data =>
      rw [hout] at hdata
      simp only [Option.getD_some] at hdata
      obtain ⟨list', hnd', hmem', hF⟩ := Q3 _ data hout
      obtain ⟨hnd, hmem⟩ := P2 _ list hl
      have hix : gq.index = gp.index := ((hcp.2.2 gp hgp gq hgqm).1).symm
      have hown : ∀ c, map_find gq.cell_process c = map_find gp.cell_process c :=
        fun c => consistent_owner hcp hgp hgqm c
      have hatu : ∀ u, u ∈ b.2.2 ↔ u ∈ bq.2.2 := by
        intro u
        rw [P5, Q5, hix]
        constructor
        · rintro ⟨c, hc, hu⟩
          exact ⟨c, hsame gp hgp c hc gq hgqm, hu⟩
        · rintro ⟨c, hc, hu⟩
          exact ⟨c, hsame gq hgqm c hc gp hgp, hu⟩
      have hsort : sort_cells list = sort_cells list' := by
        apply sort_cells_eq_of_mem hnd hnd'
        intro u
        rw [hmem, hmem', hatu, hix, hown, hown, P6, hrq]
        constructor
        · rintro ⟨a1, a2, a3, a4⟩
          exact ⟨a1, a2, a4, Ne.symm a3⟩
        · rintro ⟨a1, a2, a3, a4⟩
          exact ⟨a1, a2, Ne.symm a4, a3⟩
      rw [hsort, hdata] at hpr
      have hcell := (List.forall₂_iff_zip.1 hF).2 hpr
      have hin : pr.1 ∈ list' := (mem_sort_cells _ _).1 (List.of_mem_zip hpr).1
      exact ⟨gq, hgqm, ((hmem' pr.1).1 hin).2.1, hcell⟩

end dccrg
namespace dccrg
open Index Dccrg
namespace Dccrg
variable {UserData : Type}

/-- The binary search of `get_existing_cell` finds the cell of level `r` when the
cells of the levels `lo..r` at the indices are in the directory and those of the
levels `r+1..hi` are not. -/
theorem get_existing_cell_loop_exact (g : Dccrg UserData) {R : Nat} (F : Fit g.index R)
    (h00 : map_has g.cell_process 0 = false) {indices : indices_t}
    (h0 : indices.1 < g.index.x_length * 2 ^ R) (h1 : indices.2.1 < g.index.y_length * 2 ^ R)
    (h2 : indices.2.2 < g.index.z_length * 2 ^ R) :
    ∀ (fuel : Nat) (lo hi r : Int), 0 ≤ lo → lo ≤ r → r ≤ hi → hi - lo + 1 ≤ fuel →
      (∀ r' : Int, lo ≤ r' → r' ≤ r →
        map_has g.cell_process (g.index.get_cell_from_indices indices r') = true) →
      (∀ r' : Int, r < r' → r' ≤ hi →
        map_has g.cell_process (g.index.get_cell_from_indices indices r') = false) →
      g.get_existing_cell_loop indices fuel lo hi = g.index.get_cell_from_indices indices r := by
  intro fuel
  induction fuel with
  | zero => intro lo hi r _ _ _ hf; omega
  | succ n ih =>
    intro lo hi r hlo hlr hrh hf hex hnex
    unfold get_existing_cell_loop
    simp only [error_cell]
    rw [F.hR, F.xlen_eq (le_refl R), F.ylen_eq (le_refl R), F.zlen_eq (le_refl R)]
    rw [if_neg (by omega), if_neg (by omega), if_neg (by omega), if_neg (by omega)]
    have havg := Int.tdiv_eq_ediv (show 0 ≤ hi + lo by omega) (show (0:Int) ≤ 2 by omega)
    generalize (hi + lo).tdiv 2 = avg at havg ⊢
    by_cases c5 : map_has g.cell_process (g.index.get_cell_from_indices indices avg) = true
    · rw [if_neg (by simpa using c5)]
      have har : avg ≤ r := by
        by_contra hn
        have := hnex avg (by omega) (by omega)
        rw [c5] at this
        exact Bool.noConfusion this
      by_cases c6 : avg < hi
      · rw [if_pos c6]
        by_cases hra : r = avg
        · subst hra
          rcases get_existing_cell_loop_spec g indices n (r + 1) hi (by omega) with
            h | ⟨r', a1, a2, _, a4⟩
          · rw [h, if_pos (by simpa using h00)]
          · have := hnex r' (by omega) a2
            rw [a4] at this
            exact Bool.noConfusion this
        · have e := ih (avg + 1) hi r (by omega) (by omega) hrh (by omega)
            (fun r' a b => hex r' (by omega) b) hnex
          rw [e, if_neg (by simpa using hex r hlr (le_refl r))]
      · rw [if_neg c6]
        have : r = avg := by omega
        rw [this]
    · rw [if_pos (by simpa using c5)]
      have har : r < avg := by
        by_contra hn
        exact c5 (hex avg (by omega) (by omega))
      rw [if_pos (by omega)]
      have e := ih lo (avg - 1) r hlo hlr (by omega) (by omega) hex
        (fun r' a b => by
          by_cases hr' : r' ≤ hi
          · exact hnex r' a hr'
          · omega)
      rw [e, if_neg (by simpa using hex r hlr (le_refl r))]

/-- In a directory with the existence invariant `get_existing_cell` finds the cell
of level `r` of the searched range that is in the directory when `r` is the last
level of the range or the cell of the next level is not in the directory. -/
theorem get_existing_cell_exact (g : Dccrg UserData) {R : Nat} (F : Fit g.index R)
    (hinv : g.existence_invariant) {i0 i1 i2 : Nat}
    (h0 : i0 < g.index.x_length * 2 ^ R) (h1 : i1 < g.index.y_length * 2 ^ R)
    (h2 : i2 < g.index.z_length * 2 ^ R) (lo hi r : Nat) (hlr : lo ≤ r) (hrh : r ≤ hi)
    (hR : hi ≤ R)
    (hex : map_has g.cell_process (g.index.get_cell_from_indices (i0, i1, i2) (r : Int)) = true)
    (hleaf : r = hi ∨ map_has g.cell_process
      (g.index.get_cell_from_indices (i0, i1, i2) ((r : Int) + 1)) = false) :
    g.get_existing_cell (i0, i1, i2) (lo : Int) (hi : Int)
      = g.index.get_cell_from_indices (i0, i1, i2) (r : Int) := by
  have h00 : map_has g.cell_process 0 = false := by
    by_contra hn
    have := (hinv.1 0 ((mem_map_keys _ _).2 (by simpa using hn))).1
    omega
  unfold get_existing_cell
  refine get_existing_cell_loop_exact g F h00 h0 h1 h2 _ _ _ _ (by omega) (by omega) (by omega)
    (by omega) ?_ ?_
  · intro r' a b
    obtain ⟨m, rfl⟩ := Int.eq_ofNat_of_zero_le (show 0 ≤ r' by omega)
    have hm : m ≤ r := by omega
    obtain ⟨d, rfl⟩ : ∃ d, r = m + d := ⟨r - m, by omega⟩
    exact cover_down g F hinv h0 h1 h2 d m (by omega) hex
  · intro r' a b
    obtain ⟨m, rfl⟩ := Int.eq_ofNat_of_zero_le (show 0 ≤ r' by omega)
    rcases hleaf with hl | hl
    · omega
    · by_contra hn
      have hm : r + 1 ≤ m := by omega
      obtain ⟨d, rfl⟩ : ∃ d, m = (r + 1) + d := ⟨m - (r + 1), by omega⟩
      have := cover_down g F hinv h0 h1 h2 d (r + 1) (by omega) (by simpa using hn)
      have e1 : ((r + 1 : Nat) : Int) = (r : Int) + 1 := by push_cast; rfl
      rw [e1, hl] at this
      exact Bool.noConfusion this

end Dccrg
end dccrg
namespace dccrg
open Index Dccrg

theorem mem_for_le_loop (stop step : Nat) (hs : 1 ≤ step) (hov : stop + step < 2 ^ 64) :
    ∀ (j fuel v : Nat), v + j * step ≤ stop → stop + 1 ≤ fuel + v →
      v + j * step ∈ for_le_loop stop step fuel v := by
  intro j
  induction j with
  | zero =>
    intro fuel v hv hf
    obtain ⟨f, rfl⟩ : ∃ f, fuel = f + 1 := ⟨fuel - 1, by omega⟩
    unfold for_le_loop
    rw [if_pos (by omega)]
    simp
  | succ j ih =>
    intro fuel v hv hf
    have hv' : v + step + j * step ≤ stop := by
      have : (j + 1) * step = step + j * step := by ring
      omega
    obtain ⟨f, rfl⟩ : ∃ f, fuel = f + 1 := ⟨fuel - 1, by omega⟩
    unfold for_le_loop
    have hle : v ≤ stop := by
      have := Nat.le_add_right v ((j + 1) * step)
      omega
    rw [if_pos hle, u64_of_lt (by omega)]
    have e : v + (j + 1) * step = v + step + j * step := by ring
    rw [e]
    exact List.mem_cons_of_mem _ (ih f (v + step) hv' (by omega))

theorem mem_for_le (start stop step j : Nat) (hs : 1 ≤ step) (hov : stop + step < 2 ^ 64)
    (h : start + j * step ≤ stop) : start + j * step ∈ for_le start stop step := by
  unfold for_le
  exact mem_for_le_loop stop step hs hov j _ start h (by
    have := Nat.le_add_right start (j * step)
    omega)

theorem for_le_loop_bounds (stop step : Nat) (hov : stop + step < 2 ^ 64) :
    ∀ (fuel v x : Nat), x ∈ for_le_loop stop step fuel v → v ≤ x ∧ x ≤ stop := by
  intro fuel
  induction fuel with
  | zero => intro v x hx; simp [for_le_loop] at hx
  | succ f ih =>
    intro v x hx
    unfold for_le_loop at hx
    by_cases hv : v ≤ stop
    · rw [if_pos hv, u64_of_lt (by omega)] at hx
      rcases List.mem_cons.1 hx with h | h
      · subst h; exact ⟨le_refl _, hv⟩
      · have := ih (v + step) x h
        omega
    · rw [if_neg hv] at hx
      simp at hx

theorem for_le_bounds (start stop step x : Nat) (hov : stop + step < 2 ^ 64)
    (hx : x ∈ for_le start stop step) : start ≤ x ∧ x ≤ stop :=
  for_le_loop_bounds stop step hov _ _ _ hx

namespace Dccrg
variable {UserData : Type}

/-- The entries of `find_cells` are the cells without children that
`get_existing_cell` finds at the visited indices. -/
theorem mem_find_cells_iff (g : Dccrg UserData) (imin imax : indices_t) (lo hi : Int)
    (b : Nat) :
    b ∈ g.find_cells imin imax lo hi ↔
      ∃ i0 i1 i2,
        i0 ∈ for_le imin.1 imax.1 (shl1 (g.index.max_refinement_level - hi)) ∧
        i1 ∈ for_le imin.2.1 imax.2.1 (shl1 (g.index.max_refinement_level - hi)) ∧
        i2 ∈ for_le imin.2.2 imax.2.2 (shl1 (g.index.max_refinement_level - hi)) ∧
        b = g.get_existing_cell (i0, i1, i2) lo hi ∧ b = g.get_child b := by
  unfold find_cells
  simp only
  have hvis : ∀ idx : indices_t,
      idx ∈ ((for_le imin.2.2 imax.2.2 (shl1 (g.index.max_refinement_level - hi))).flatMap
        fun i2 => (for_le imin.2.1 imax.2.1 (shl1 (g.index.max_refinement_level - hi))).flatMap
          fun i1 => (for_le imin.1 imax.1 (shl1 (g.index.max_refinement_level - hi))).map
            fun i0 => (i0, i1, i2)) ↔
      idx.1 ∈ for_le imin.1 imax.1 (shl1 (g.index.max_refinement_level - hi)) ∧
      idx.2.1 ∈ for_le imin.2.1 imax.2.1 (shl1 (g.index.max_refinement_level - hi)) ∧
      idx.2.2 ∈ for_le imin.2.2 imax.2.2 (shl1 (g.index.max_refinement_level - hi)) := by
    rintro ⟨a0, a1, a2⟩
    simp only [List.mem_flatMap, List.mem_map, Prod.mk.injEq]
    constructor
    · rintro ⟨i2, h2, i1, h1, i0, h0, rfl, rfl, rfl⟩
      exact ⟨h0, h1, h2⟩
    · rintro ⟨h0, h1, h2⟩
      exact ⟨a2, h2, a1, h1, a0, h0, rfl, rfl, rfl⟩
  generalize (List.flatMap _ _ : List indices_t) = visited at hvis
  have key : ∀ (l : List indices_t) (acc : List Nat),
      b ∈ l.foldl (fun result indices =>
          if g.get_existing_cell indices lo hi ≠ g.get_child (g.get_existing_cell indices lo hi)
          then result
          else if g.get_existing_cell indices lo hi ∈ result then result
          else result ++ [g.get_existing_cell indices lo hi]) acc ↔
        b ∈ acc ∨ ∃ idx ∈ l, b = g.get_existing_cell idx lo hi ∧ b = g.get_child b := by
    intro l
    induction l with
    | nil => intro acc; simp
    | cons idx t ih =>
      intro acc
      rw [List.foldl_cons, ih]
      by_cases c1 : g.get_existing_cell idx lo hi
          ≠ g.get_child (g.get_existing_cell idx lo hi)
      · rw [if_pos c1]
        constructor
        · rintro (h | ⟨i, hi, h⟩)
          · exact Or.inl h
          · exact Or.inr ⟨i, List.mem_cons_of_mem _ hi, h⟩
        · rintro (h | ⟨i, hi, h1, h2⟩)
          · exact Or.inl h
          · rcases List.mem_cons.1 hi with e | e
            · subst e
              rw [h1] at h2
              exact absurd h2 c1
            · exact Or.inr ⟨i, e, h1, h2⟩
      · rw [if_neg c1]
        have c1' : g.get_existing_cell idx lo hi
            = g.get_child (g.get_existing_cell idx lo hi) := by
          by_contra hn; exact c1 hn
        by_cases c2 : g.get_existing_cell idx lo hi ∈ acc
        · rw [if_pos c2]
          constructor
          · rintro (h | ⟨i, hi, h⟩)
            · exact Or.inl h
            · exact Or.inr ⟨i, List.mem_cons_of_mem _ hi, h⟩
          · rintro (h | ⟨i, hi, h1, h2⟩)
            · exact Or.inl h
            · rcases List.mem_cons.1 hi with e | e
              · subst e
                rw [h1]
                exact Or.inl c2
              · exact Or.inr ⟨i, e, h1, h2⟩
        · rw [if_neg c2]
          constructor
          · rintro (h | ⟨i, hi, h⟩)
            · rcases List.mem_append.1 h with h | h
              · exact Or.inl h
              · simp only [List.mem_singleton] at h
                exact Or.inr ⟨idx, List.mem_cons_self _ _, h, by rw [h]; exact c1'⟩
            · exact Or.inr ⟨i, List.mem_cons_of_mem _ hi, h⟩
          · rintro (h | ⟨i, hi, h1, h2⟩)
            · exact Or.inl (List.mem_append.2 (Or.inl h))
            · rcases List.mem_cons.1 hi with e | e
              · subst e
                exact Or.inl (List.mem_append.2 (Or.inr (by simp [h1])))
              · exact Or.inr ⟨i, e, h1, h2⟩
  rw [key]
  simp only [List.not_mem_nil, false_or]
  constructor
  · rintro ⟨idx, hidx, h1, h2⟩
    obtain ⟨a0, a1, a2⟩ := (hvis idx).1 hidx
    exact ⟨idx.1, idx.2.1, idx.2.2, a0, a1, a2, h1, h2⟩
  · rintro ⟨i0, i1, i2, a0, a1, a2, h1, h2⟩
    exact ⟨(i0, i1, i2), (hvis _).2 ⟨a0, a1, a2⟩, h1, h2⟩

end Dccrg
end dccrg
namespace dccrg
open Index Dccrg

theorem usub_eq {a b : Nat} (hb : b ≤ a) (ha : a < 2 ^ 64) : usub a b = a - b := by
  unfold usub u64
  rw [Nat.mod_eq_of_lt (by omega : b < 2 ^ 64)]
  have : a + (2 ^ 64 - b) = (a - b) + 2 ^ 64 := by omega
  rw [this, Nat.add_mod_right]
  exact Nat.mod_eq_of_lt (by omega)

theorem int_to_u64_of_nonneg {z : Int} (h0 : 0 ≤ z) (h1 : z < 2 ^ 64) :
    int_to_u64 z = z.toNat := by
  unfold int_to_u64
  rw [Int.emod_eq_of_lt h0 h1]

theorem int_to_u64_of_neg {z : Int} (h0 : z < 0) (h1 : -(2 ^ 64) ≤ z) :
    int_to_u64 z = 2 ^ 64 - z.natAbs := by
  unfold int_to_u64
  have : z % (2 ^ 64 : Int) = z + 2 ^ 64 := by
    rw [← Int.add_emod_self]
    exact Int.emod_eq_of_lt (by omega) (by omega)
  rw [this]
  omega

/-- The steps of a periodic shift to lower indices. -/
theorem periodic_down (G s : Nat) (hs : 0 < s) (hsG : s ∣ G) (hG0 : 0 < G)
    (hG : G < 2 ^ 64) :
    ∀ (k t : Nat), t < G → s ∣ t →
      (((List.range k).foldl
        (fun temp _ => if temp ≥ s then usub temp s else usub G s) t : Nat) : Int)
        = ((t : Int) - k * s) % G := by
  intro k
  induction k with
  | zero =>
    intro t ht _
    simp only [List.range_zero, List.foldl_nil, Nat.cast_zero, zero_mul, sub_zero]
    rw [Int.emod_eq_of_lt (by omega) (by omega)]
  | succ k ih =>
    intro t ht hst
    rw [List.range_succ, List.foldl_append, List.foldl_cons, List.foldl_nil]
    have e := ih t ht hst
    generalize (List.range k).foldl
      (fun temp _ => if temp ≥ s then usub temp s else usub G s) t = u at e ⊢
    have hsle : s ≤ G := Nat.le_of_dvd hG0 hsG
    have hu0 : (0 : Int) ≤ u := by omega
    have huG : (u : Int) < G := by
      rw [e]; exact Int.emod_lt_of_pos _ (by omega)
    have hsu : (s : Int) ∣ u := by
      rw [e]
      have h1 : (s : Int) ∣ (t : Int) - k * s :=
        Dvd.dvd.sub (Int.natCast_dvd_natCast.2 hst) (Dvd.intro_left _ rfl)
      rw [Int.emod_def]
      exact Dvd.dvd.sub h1 (Dvd.dvd.mul_right (Int.natCast_dvd_natCast.2 hsG) _)
    have hstep : ((t : Int) - (k + 1 : Nat) * s) % G = ((u : Int) - s) % G := by
      rw [e]
      have : (t : Int) - (k + 1 : Nat) * s = ((t : Int) - k * s) - s := by push_cast; ring
      rw [this, Int.sub_emod, Int.sub_emod (((t : Int) - k * s) % G) s G,
        Int.emod_emod_of_dvd _ (dvd_refl _)]
    rw [hstep]
    by_cases c : u ≥ s
    · rw [if_pos c, usub_eq c (by omega)]
      rw [Int.emod_eq_of_lt (by omega) (by omega)]
      omega
    · rw [if_neg c, usub_eq hsle hG]
      have hu : u = 0 := by
        obtain ⟨q, hq⟩ := hsu
        have hq0 : q = 0 := by
          by_contra hn
          have : (1 : Int) ≤ q := by
            rcases lt_trichotomy q 0 with h | h | h
            · nlinarith
            · exact absurd h hn
            · omega
          nlinarith
        rw [hq0] at hq
        omega
      rw [hu]
      have : ((0 : Nat) : Int) - s = (G - s : Int) - G := by ring
      rw [this, Int.sub_emod, Int.emod_self, sub_zero, Int.emod_emod_of_dvd _ (dvd_refl _)]
      rw [Int.emod_eq_of_lt (by omega) (by omega)]
      omega

/-- The steps of a periodic shift to higher indices. -/
theorem periodic_up (G s : Nat) (hs : 0 < s) (hsG : s ∣ G) (hG0 : 0 < G)
    (hG : G < 2 ^ 64) :
    ∀ (k t : Nat), t < G → s ∣ t →
      (((List.range k).foldl
        (fun temp _ => if temp < usub G s then u64 (temp + s) else 0) t : Nat) : Int)
        = ((t : Int) + k * s) % G := by
  intro k
  induction k with
  | zero =>
    intro t ht _
    simp only [List.range_zero, List.foldl_nil, Nat.cast_zero, zero_mul, add_zero]
    rw [Int.emod_eq_of_lt (by omega) (by omega)]
  | succ k ih =>
    intro t ht hst
    rw [List.range_succ, List.foldl_append, List.foldl_cons, List.foldl_nil]
    have e := ih t ht hst
    generalize (List.range k).foldl
      (fun temp _ => if temp < usub G s then u64 (temp + s) else 0) t = u at e ⊢
    have hsle : s ≤ G := Nat.le_of_dvd hG0 hsG
    have hu0 : (0 : Int) ≤ u := by omega
    have huG : (u : Int) < G := by
      rw [e]; exact Int.emod_lt_of_pos _ (by omega)
    have hsu : (s : Int) ∣ u := by
      rw [e]
      have h1 : (s : Int) ∣ (t : Int) + k * s :=
        Dvd.dvd.add (Int.natCast_dvd_natCast.2 hst) (Dvd.intro_left _ rfl)
      rw [Int.emod_def]
      exact Dvd.dvd.sub h1 (Dvd.dvd.mul_right (Int.natCast_dvd_natCast.2 hsG) _)
    have hstep : ((t : Int) + (k + 1 : Nat) * s) % G = ((u : Int) + s) % G := by
      rw [e]
      have : (t : Int) + (k + 1 : Nat) * s = ((t : Int) + k * s) + s := by push_cast; ring
      rw [this, Int.add_emod, Int.add_emod (((t : Int) + k * s) % G) s G,
        Int.emod_emod_of_dvd _ (dvd_refl _)]
    rw [hstep, usub_eq hsle hG]
    -- `u` is a multiple of `s` below `G`, so it is at most `G - s`
    have hle : u + s ≤ G := by
      obtain ⟨q, hq⟩ := hsu
      obtain ⟨N, hN⟩ := hsG
      have hq1 : q < N := by
        by_contra hn
        have : (N : Int) ≤ q := by omega
        have : (s : Int) * N ≤ s * q := by nlinarith
        have hN' : (G : Int) = s * N := by exact_mod_cast hN
        omega
      have : (s : Int) * (q + 1) ≤ s * N := by nlinarith
      have hN' : (G : Int) = s * N := by exact_mod_cast hN
      have : (u : Int) + s ≤ G := by rw [hq, hN']; linarith
      omega
    by_cases c : u < G - s
    · rw [if_pos c, u64_of_lt (by omega)]
      rw [Int.emod_eq_of_lt (by omega) (by omega)]
      push_cast; ring
    · rw [if_neg c]
      have : (u : Int) + s = G := by omega
      rw [this, Int.emod_self]
      rfl

/-- `indices_from_neighborhood_dimension` in exact arithmetic, for an index that is a
multiple of the size, in a grid whose length is a multiple of the size. -/
theorem indices_from_neighborhood_dimension_spec (p : Bool) (G s t : Nat) (o : Int)
    (hs : 0 < s) (hsG : s ∣ G) (ht : t < G) (hst : s ∣ t)
    (hov : G + o.natAbs * s < 2 ^ 64) (t' : Nat) :
    Dccrg.indices_from_neighborhood_dimension p G s t o = some t' ↔
      (p = true ∧ (t' : Int) = ((t : Int) + o * s) % G) ∨
      (p = false ∧ (t' : Int) = t + o * s ∧ t' < G) := by
  have hG0 : 0 < G := by omega
  have hG : G < 2 ^ 64 := by omega
  have hos : o.natAbs * s < 2 ^ 64 := by omega
  have hoabs : o.natAbs < 2 ^ 64 := by
    have : o.natAbs * 1 ≤ o.natAbs * s := Nat.mul_le_mul_left _ hs
    omega
  unfold Dccrg.indices_from_neighborhood_dimension
  by_cases ho : o < 0
  · rw [if_pos ho]
    have hoeq : (o : Int) * s = -((o.natAbs * s : Nat) : Int) := by
      push_cast
      rw [abs_of_neg ho]
      ring
    cases p with
    | true =>
      simp only [if_true, Option.some.injEq, true_and, Bool.true_eq_false, false_and,
        or_false]
      have e := periodic_down G s hs hsG hG0 hG o.natAbs t ht hst
      have e2 : ((t : Int) - (o.natAbs : Nat) * s) = (t : Int) + o * s := by
        rw [hoeq]; push_cast; ring
      rw [e2] at e
      constructor
      · intro h; rw [← h]; exact e
      · intro h; exact Int.ofNat_inj.1 (e.trans h.symm)
    | false =>
      simp only [Bool.false_eq_true, if_false, false_and, false_or, true_and]
      rw [u64_of_lt hos]
      by_cases c : t < o.natAbs * s
      · rw [if_pos c]
        constructor
        · intro h; cases h
        · rintro ⟨h, _⟩
          rw [hoeq] at h
          omega
      · rw [if_neg c]
        have hval : u64 (t + u64 (int_to_u64 o * s)) = t - o.natAbs * s := by
          rw [int_to_u64_of_neg ho (by omega)]
          have h1 : (2 ^ 64 - o.natAbs) * s = 2 ^ 64 * s - o.natAbs * s :=
            Nat.sub_mul _ _ _
          by_cases hz : o.natAbs * s = 0
          · have : o.natAbs = 0 := by
              rcases Nat.mul_eq_zero.1 hz with h | h
              · exact h
              · omega
            omega
          have h2 : u64 ((2 ^ 64 - o.natAbs) * s) = 2 ^ 64 - o.natAbs * s := by
            unfold u64
            rw [h1]
            obtain ⟨s', rfl⟩ : ∃ s', s = s' + 1 := ⟨s - 1, by omega⟩
            have : 2 ^ 64 * (s' + 1) - o.natAbs * (s' + 1)
                = (2 ^ 64 - o.natAbs * (s' + 1)) + 2 ^ 64 * s' := by
              have := Nat.mul_succ (2 ^ 64) s'
              omega
            rw [this, Nat.add_mul_mod_self_left]
            exact Nat.mod_eq_of_lt (by omega)
          rw [h2]
          unfold u64
          have : t + (2 ^ 64 - o.natAbs * s) = (t - o.natAbs * s) + 2 ^ 64 := by omega
          rw [this, Nat.add_mod_right]
          exact Nat.mod_eq_of_lt (by omega)
        rw [hval]
        simp only [Option.some.injEq]
        constructor
        · intro h
          rw [hoeq, ← h]
          omega
        · rintro ⟨h, _⟩
          rw [hoeq] at h
          omega
  · rw [if_neg ho]
    have hoeq : (o : Int) * s = ((o.natAbs * s : Nat) : Int) := by
      push_cast
      rw [abs_of_nonneg (by omega)]
    have hto : o.toNat = o.natAbs := by omega
    cases p with
    | true =>
      simp only [if_true, Option.some.injEq, true_and, Bool.true_eq_false, false_and,
        or_false]
      have e := periodic_up G s hs hsG hG0 hG o.natAbs t ht hst
      have e2 : ((t : Int) + (o.natAbs : Nat) * s) = (t : Int) + o * s := by
        rw [hoeq]; push_cast; ring
      rw [e2] at e
      rw [hto]
      constructor
      · intro h; rw [← h]; exact e
      · intro h; exact Int.ofNat_inj.1 (e.trans h.symm)
    | false =>
      simp only [Bool.false_eq_true, if_false, false_and, false_or, true_and]
      have hval : u64 (t + u64 (int_to_u64 o * s)) = t + o.natAbs * s := by
        rw [int_to_u64_of_nonneg (by omega) (by omega), hto, u64_of_lt hos,
          u64_of_lt (by omega)]
      rw [hval]
      by_cases c : t + o.natAbs * s ≥ G
      · rw [if_pos c]
        constructor
        · intro h; cases h
        · rintro ⟨h, h'⟩
          rw [hoeq] at h
          omega
      · rw [if_neg c]
        simp only [Option.some.injEq]
        constructor
        · intro h
          rw [hoeq, ← h]
          constructor
          · push_cast; ring
          · omega
        · rintro ⟨h, _⟩
          rw [hoeq] at h
          omega

end dccrg
namespace dccrg
open Index Dccrg

/-- The window of the parent grid: when the index `t2` is the index `t1` shifted by
`o` cells of size `s`, the aligned index of the parent of `t1` is the aligned
index of the parent of `t2` shifted by `k` cells of size `2 * s`, where `k` is not
further from 0 than `o`. -/
theorem parent_window (s N : Nat) (hs : 0 < s) (t1 t2 : Nat) (o : Int) (p : Bool)
    (h1 : s ∣ t1) (h2 : s ∣ t2) (ht1 : t1 < 2 * s * N)
    (hrel : (p = true ∧ (t2 : Int) = ((t1 : Int) + o * s) % ((2 * s * N : Nat) : Int)) ∨
      (p = false ∧ (t2 : Int) = t1 + o * s ∧ t2 < 2 * s * N)) :
    ∃ k : Int, k.natAbs ≤ (o.natAbs + 1) / 2 ∧ (o = 0 → k = 0) ∧
      (k = 0 → t1 / (2 * s) * (2 * s) = t2 / (2 * s) * (2 * s)) ∧
      ((p = true ∧ ((t1 / (2 * s) * (2 * s) : Nat) : Int)
          = (((t2 / (2 * s) * (2 * s) : Nat) : Int) + k * ((2 * s : Nat) : Int))
            % ((2 * s * N : Nat) : Int)) ∨
        (p = false ∧ ((t1 / (2 * s) * (2 * s) : Nat) : Int)
          = ((t2 / (2 * s) * (2 * s) : Nat) : Int) + k * ((2 * s : Nat) : Int) ∧
          t1 / (2 * s) * (2 * s) < 2 * s * N)) := by
  obtain ⟨a1, rfl⟩ := h1
  obtain ⟨a2, rfl⟩ := h2
  have hdiv : ∀ a : Nat, s * a / (2 * s) * (2 * s) = s * (a / 2 * 2) := by
    intro a
    rw [Nat.mul_comm 2 s, Nat.mul_div_mul_left _ _ hs]
    ring
  rw [hdiv a1, hdiv a2]
  have hW : s * (a1 / 2 * 2) < 2 * s * N := by
    have : a1 / 2 * 2 ≤ a1 := Nat.div_mul_le_self a1 2
    have : s * (a1 / 2 * 2) ≤ s * a1 := Nat.mul_le_mul_left s this
    omega
  -- the relation of the cell numbers
  have hQ : ∃ Q : Int, (a2 : Int) = a1 + o - 2 * Q ∧ (p = false → Q = 0) ∧
      ∃ M : Int, Q = N * M := by
    rcases hrel with ⟨_, h⟩ | ⟨hp, h, _⟩
    · rename_i hp
      rw [Int.emod_def] at h
      generalize (((s * a1 : Nat) : Int) + o * s) / ((2 * s * N : Nat) : Int) = M at h
      refine ⟨N * M, ?_, (fun hf => by rw [hp] at hf; cases hf), M, rfl⟩
      push_cast at h
      have hs' : (s : Int) ≠ 0 := by omega
      have : (s : Int) * a2 = s * (a1 + o - 2 * (N * M)) := by rw [h]; ring
      exact mul_left_cancel₀ hs' this
    · refine ⟨0, ?_, fun _ => rfl, 0, by ring⟩
      push_cast at h
      have hs' : (s : Int) ≠ 0 := by omega
      have : (s : Int) * a2 = s * (a1 + o - 2 * 0) := by rw [h]; ring
      exact mul_left_cancel₀ hs' this
  obtain ⟨Q, hQ1, hQ2, M, hQ3⟩ := hQ
  -- the shift of the parent window
  obtain ⟨k, hk⟩ : ∃ k : Int, 2 * k = (a2 : Int) % 2 - (a1 : Int) % 2 - o := ⟨
    ((a2 : Int) % 2 - (a1 : Int) % 2 - o) / 2, by omega⟩
  have hn1 : ((a1 / 2 * 2 : Nat) : Int) = (a1 : Int) - (a1 : Int) % 2 := by omega
  have hn2 : ((a2 / 2 * 2 : Nat) : Int) = (a2 : Int) - (a2 : Int) % 2 := by omega
  have hrelk : ((a1 / 2 * 2 : Nat) : Int) = ((a2 / 2 * 2 : Nat) : Int) + 2 * k + 2 * Q := by
    omega
  refine ⟨k, by omega, fun ho => by omega, ?_, ?_⟩
  · intro hk0
    have ht2 : s * a2 < 2 * s * N := by
      rcases hrel with ⟨_, h⟩ | ⟨_, _, h⟩
      · have hpos : (0 : Int) < ((2 * s * N : Nat) : Int) := by omega
        have := Int.emod_lt_of_pos (((s * a1 : Nat) : Int) + o * s) hpos
        rw [← h] at this
        exact_mod_cast this
      · exact h
    have hb1 : a1 < 2 * N := by
      have : s * a1 < s * (2 * N) := by rw [← Nat.mul_assoc, Nat.mul_comm s 2]; exact ht1
      exact Nat.lt_of_mul_lt_mul_left this
    have hb2 : a2 < 2 * N := by
      have : s * a2 < s * (2 * N) := by rw [← Nat.mul_assoc, Nat.mul_comm s 2]; exact ht2
      exact Nat.lt_of_mul_lt_mul_left this
    have hM : M = 0 := by
      rcases lt_trichotomy M 0 with h | h | h
      · have : (N : Int) * M ≤ N * (-1) :=
          mul_le_mul_of_nonneg_left (by omega) (by omega)
        omega
      · exact h
      · have : (N : Int) * 1 ≤ N * M :=
          mul_le_mul_of_nonneg_left (by omega) (by omega)
        omega
    have : a1 / 2 * 2 = a2 / 2 * 2 := by
      rw [hM] at hQ3
      omega
    rw [this]
  · cases p with
    | true =>
      left
      refine ⟨rfl, ?_⟩
      have e : (((s * (a2 / 2 * 2) : Nat) : Int) + k * ((2 * s : Nat) : Int))
          = ((s * (a1 / 2 * 2) : Nat) : Int) + ((2 * s * N : Nat) : Int) * (-M) := by
        push_cast
        push_cast at hrelk
        rw [hrelk, hQ3]
        ring
      rw [e, Int.add_mul_emod_self_left, Int.emod_eq_of_lt (by omega) (by omega)]
    | false =>
      right
      refine ⟨rfl, ?_, hW⟩
      have := hQ2 rfl
      push_cast
      push_cast at hrelk
      rw [hrelk, this]
      ring

end dccrg
namespace dccrg
open Index Dccrg
namespace Dccrg

theorem mem_offset_range (n : Nat) (x : Int) :
    x ∈ (List.range (2 * n + 1)).map (fun i => (i : Int) - n) ↔ x.natAbs ≤ n := by
  simp only [List.mem_map, List.bind_eq_flatMap, List.mem_flatMap, List.pure_def,
    List.mem_singleton, List.mem_range]
  constructor
  · rintro ⟨i, ⟨a, ha, rfl⟩, rfl⟩
    omega
  · intro h
    exact ⟨x + n, ⟨(x + n).toNat, by omega, by omega⟩, by omega⟩

/-- The offsets of the neighbourhood of a size above 0. -/
theorem mem_make_neighborhood_of (n : Nat) (hn : 1 ≤ n) (x y z : Int) :
    (x, y, z) ∈ make_neighborhood_of n ↔
      x.natAbs ≤ n ∧ y.natAbs ≤ n ∧ z.natAbs ≤ n ∧ ¬ (x = 0 ∧ y = 0 ∧ z = 0) := by
  unfold make_neighborhood_of
  rw [if_neg (by omega)]
  simp only [List.mem_flatMap, List.mem_map, List.mem_filter, Prod.mk.injEq,
    decide_eq_true_eq]
  constructor
  · rintro ⟨z', hz, y', hy, x', ⟨hx, hne⟩, rfl, rfl, rfl⟩
    exact ⟨(mem_offset_range n _).1 (List.mem_map.2 hx),
      (mem_offset_range n _).1 (List.mem_map.2 hy),
      (mem_offset_range n _).1 (List.mem_map.2 hz), hne⟩
  · rintro ⟨hx, hy, hz, hne⟩
    exact ⟨z, List.mem_map.1 ((mem_offset_range n z).2 hz), y,
      List.mem_map.1 ((mem_offset_range n y).2 hy), x,
      ⟨List.mem_map.1 ((mem_offset_range n x).2 hx), hne⟩, rfl, rfl, rfl⟩

/-- The offsets of the neighbourhood of size 0. -/
theorem mem_make_neighborhood_of_zero (x y z : Int) :
    (x, y, z) ∈ make_neighborhood_of 0 ↔
      (x = 0 ∧ y = 0 ∧ z.natAbs = 1) ∨ (x = 0 ∧ y.natAbs = 1 ∧ z = 0) ∨
        (x.natAbs = 1 ∧ y = 0 ∧ z = 0) := by
  unfold make_neighborhood_of
  rw [if_pos rfl]
  simp only [List.mem_cons, Prod.mk.injEq, List.mem_singleton, List.not_mem_nil, or_false]
  omega

end Dccrg
end dccrg
namespace dccrg
open Index Dccrg

theorem dimension_result (p : Bool) (G s t : Nat) (o : Int)
    (hs : 0 < s) (hsG : s ∣ G) (ht : t < G) (hst : s ∣ t)
    (hov : G + o.natAbs * s < 2 ^ 64) (t' : Nat)
    (h : Dccrg.indices_from_neighborhood_dimension p G s t o = some t') :
    t' < G ∧ s ∣ t' := by
  have hG0 : (0 : Int) < G := by omega
  have hd : (s : Int) ∣ (t : Int) + o * s :=
    Dvd.dvd.add (Int.natCast_dvd_natCast.2 hst) (Dvd.intro_left _ rfl)
  rcases (indices_from_neighborhood_dimension_spec p G s t o hs hsG ht hst hov t').1 h with
    ⟨_, e⟩ | ⟨_, e, hlt⟩
  · constructor
    · have := Int.emod_lt_of_pos ((t : Int) + o * s) hG0
      rw [← e] at this
      exact_mod_cast this
    · apply Int.natCast_dvd_natCast.1
      rw [e, Int.emod_def]
      exact Dvd.dvd.sub hd (Dvd.dvd.mul_right (Int.natCast_dvd_natCast.2 hsG) _)
  · exact ⟨hlt, Int.natCast_dvd_natCast.1 (by rw [e]; exact hd)⟩

namespace Index
variable {ix : Index} {R : Nat}

/-- With a maximum refinement level above 0 the shifted indices do not overflow. -/
theorem Fit.shift_fits (F : Fit ix R) (hR : 1 ≤ R) {r : Nat} (hr : r ≤ R) (k : Nat)
    (hk : k < 2 ^ 31) :
    ix.x_length * 2 ^ R + k * 2 ^ r < 2 ^ 64 ∧ ix.y_length * 2 ^ R + k * 2 ^ r < 2 ^ 64 ∧
    ix.z_length * 2 ^ R + k * 2 ^ r < 2 ^ 64 := by
  have h8 := F.term_lt (le_refl R)
  have hx := F.hx
  have hy := F.hy
  have hz := F.hz
  have e8 : (8 : Nat) ^ R = 2 ^ R * 4 ^ R := by
    rw [← Nat.mul_pow]
  have h4 : 4 ≤ 4 ^ R := by
    calc 4 = 4 ^ 1 := by norm_num
      _ ≤ 4 ^ R := Nat.pow_le_pow_right (by norm_num) hR
  have hR21 : R ≤ 21 := by
    by_contra hn
    have h22 : (8 : Nat) ^ 22 ≤ 8 ^ R := Nat.pow_le_pow_right (by norm_num) (by omega)
    have hlt := F.pow8_lt (le_refl R)
    have : (2 : Nat) ^ 64 < 8 ^ 22 := by norm_num
    omega
  have hpr : 2 ^ r ≤ 2 ^ 21 := Nat.pow_le_pow_right (by norm_num) (by omega)
  have hk2 : k * 2 ^ r ≤ 2 ^ 31 * 2 ^ 21 := Nat.mul_le_mul (by omega) hpr
  have key : ∀ L : Nat, 1 ≤ L → L * 8 ^ R < 2 ^ 64 → L * 2 ^ R + k * 2 ^ r < 2 ^ 64 := by
    intro L _ hL
    rw [e8, ← Nat.mul_assoc] at hL
    have h5 : L * 2 ^ R * 4 ≤ L * 2 ^ R * 4 ^ R := Nat.mul_le_mul_left _ h4
    have h6 : (2 : Nat) ^ 31 * 2 ^ 21 = 2 ^ 52 := by norm_num
    have h7 : (2 : Nat) ^ 52 + 2 ^ 62 < 2 ^ 64 := by norm_num
    have h8 : (2 : Nat) ^ 64 = 4 * 2 ^ 62 := by norm_num
    omega
  have hxyz : ∀ a b c : Nat, 1 ≤ b → 1 ≤ c → a * b * c * 8 ^ R < 2 ^ 64 →
      a * 8 ^ R < 2 ^ 64 := by
    intro a b c hb hc h
    have : a * 8 ^ R ≤ a * b * c * 8 ^ R := by
      apply Nat.mul_le_mul_right
      calc a = a * 1 * 1 := by ring
        _ ≤ a * b * c := Nat.mul_le_mul (Nat.mul_le_mul_left _ hb) hc
    omega
  refine ⟨key _ hx (hxyz _ _ _ hy hz h8), key _ hy (hxyz _ ix.x_length ix.z_length hx hz ?_),
    key _ hz (hxyz _ ix.x_length ix.y_length hx hy ?_)⟩
  · have : ix.y_length * ix.x_length * ix.z_length = ix.x_length * ix.y_length * ix.z_length := by
      ring
    rw [this]; exact h8
  · have : ix.z_length * ix.x_length * ix.y_length = ix.x_length * ix.y_length * ix.z_length := by
      ring
    rw [this]; exact h8

end Index
end dccrg
namespace dccrg
open Index Dccrg
namespace Dccrg
variable {UserData : Type}

theorem mem_indices_from_neighborhood (g : Dccrg UserData) (indices : indices_t)
    (size : Nat) (nb : List neighborhood_item_t) (index_of : indices_t)
    (h : index_of ∈ g.indices_from_neighborhood indices size nb) :
    ∃ o ∈ nb, index_of = (error_index, error_index, error_index) ∨
      (indices_from_neighborhood_dimension g.periodic.1
          (u64 (g.index.x_length * shl1 g.index.max_refinement_level)) size indices.1 o.1
          = some index_of.1 ∧
        indices_from_neighborhood_dimension g.periodic.2.1
          (u64 (g.index.y_length * shl1 g.index.max_refinement_level)) size indices.2.1 o.2.1
          = some index_of.2.1 ∧
        indices_from_neighborhood_dimension g.periodic.2.2
          (u64 (g.index.z_length * shl1 g.index.max_refinement_level)) size indices.2.2 o.2.2
          = some index_of.2.2) := by
  unfold indices_from_neighborhood at h
  simp only [List.mem_map] at h
  obtain ⟨o, ho, h⟩ := h
  refine ⟨o, ho, ?_⟩
  cases h0 : indices_from_neighborhood_dimension g.periodic.1
      (u64 (g.index.x_length * shl1 g.index.max_refinement_level)) size indices.1 o.1 with
  | none => rw [h0] at h; exact Or.inl h.symm
  | some t0 =>
    rw [h0] at h
    simp only at h
    cases h1 : indices_from_neighborhood_dimension g.periodic.2.1
        (u64 (g.index.y_length * shl1 g.index.max_refinement_level)) size indices.2.1
        o.2.1 with
    | none => rw [h1] at h; exact Or.inl h.symm
    | some t1 =>
      rw [h1] at h
      simp only at h
      cases h2 : indices_from_neighborhood_dimension g.periodic.2.2
          (u64 (g.index.z_length * shl1 g.index.max_refinement_level)) size indices.2.2
          o.2.2 with
      | none => rw [h2] at h; exact Or.inl h.symm
      | some t2 =>
        rw [h2] at h
        simp only at h
        right
        rw [← h]
        exact ⟨rfl, rfl, rfl⟩

theorem indices_from_neighborhood_mem (g : Dccrg UserData) (indices : indices_t)
    (size : Nat) (nb : List neighborhood_item_t) (o : neighborhood_item_t) (ho : o ∈ nb)
    (t0 t1 t2 : Nat)
    (h0 : indices_from_neighborhood_dimension g.periodic.1
      (u64 (g.index.x_length * shl1 g.index.max_refinement_level)) size indices.1 o.1
      = some t0)
    (h1 : indices_from_neighborhood_dimension g.periodic.2.1
      (u64 (g.index.y_length * shl1 g.index.max_refinement_level)) size indices.2.1 o.2.1
      = some t1)
    (h2 : indices_from_neighborhood_dimension g.periodic.2.2
      (u64 (g.index.z_length * shl1 g.index.max_refinement_level)) size indices.2.2 o.2.2
      = some t2) :
    (t0, t1, t2) ∈ g.indices_from_neighborhood indices size nb := by
  unfold indices_from_neighborhood
  simp only [List.mem_map]
  refine ⟨o, ho, ?_⟩
  rw [h0, h1, h2]

/-- A neighbor of `c1` of the level of `c1`: its indices are those of `c1` shifted
by an item of the neighbourhood. -/
theorem neighbor_offset (g : Dccrg UserData) {R : Nat} (F : Fit g.index R) (hR : 1 ≤ R)
    (hfit : g.index.ids_fit)
    (hnb : ∀ o ∈ g.neighborhood_of,
      o.1.natAbs < 2 ^ 31 ∧ o.2.1.natAbs < 2 ^ 31 ∧ o.2.2.natAbs < 2 ^ 31)
    (c1 c2 l : Nat) (hl1 : g.index.get_refinement_level c1 = (l : Int))
    (hl2 : g.index.get_refinement_level c2 = (l : Int))
    (hc2 : c2 ∈ g.find_neighbors_of c1 1 false) :
    ∃ o ∈ g.neighborhood_of,
      indices_from_neighborhood_dimension g.periodic.1 (g.index.x_length * 2 ^ R)
        (2 ^ (R - l)) (g.index.get_indices c1).1 o.1 = some (g.index.get_indices c2).1 ∧
      indices_from_neighborhood_dimension g.periodic.2.1 (g.index.y_length * 2 ^ R)
        (2 ^ (R - l)) (g.index.get_indices c1).2.1 o.2.1
        = some (g.index.get_indices c2).2.1 ∧
      indices_from_neighborhood_dimension g.periodic.2.2 (g.index.z_length * 2 ^ R)
        (2 ^ (R - l)) (g.index.get_indices c1).2.2 o.2.2
        = some (g.index.get_indices c2).2.2 := by
  obtain ⟨v1, v2⟩ := level_nonneg_valid (show 0 ≤ g.index.get_refinement_level c1 by omega)
  obtain ⟨w1, w2⟩ := level_nonneg_valid (show 0 ≤ g.index.get_refinement_level c2 by omega)
  obtain ⟨l', hl', hlvl', b0, b1, b2, d0, d1, d2, _⟩ := F.roundtrip_cell v1 v2
  have : l' = l := by rw [hl1] at hlvl'; exact_mod_cast hlvl'.symm
  subst this
  have hc20 : c2 ≠ 0 := by omega
  have hs : 0 < 2 ^ (R - l') := by positivity
  have hsR : 2 ^ (R - l') ∣ 2 ^ R := pow_dvd_pow 2 (by omega)
  unfold find_neighbors_of at hc2
  simp only at hc2
  by_cases c1' : ¬ map_has g.cell_process c1 = true
  · rw [if_pos c1'] at hc2; simp at hc2
  rw [if_neg c1'] at hc2
  by_cases c2' : (!false) = true ∧ c1 ≠ g.get_child c1
  · rw [if_pos c2'] at hc2; simp at hc2
  rw [if_neg c2'] at hc2
  obtain ⟨index_of, hio, hc2⟩ := List.mem_flatMap.1 hc2
  rw [F.size_eq hl1] at hio hc2
  rw [hl1] at hc2
  obtain ⟨o, ho, hcase⟩ := mem_indices_from_neighborhood g _ _ _ _ hio
  rw [F.hR, F.xlen_eq (le_refl R), F.ylen_eq (le_refl R), F.zlen_eq (le_refl R)] at hcase
  unfold find_neighbors_of_at at hc2
  simp only at hc2
  rcases hcase with herr | ⟨e0, e1, e2⟩
  · rw [herr, if_pos rfl] at hc2
    simp only [List.mem_singleton] at hc2
    exact absurd hc2 hc20
  obtain ⟨n0, n1, n2⟩ := hnb o ho
  have hsub : R - l' ≤ R := Nat.sub_le _ _
  obtain ⟨f0, _, _⟩ := F.shift_fits hR hsub o.1.natAbs n0
  obtain ⟨_, f1, _⟩ := F.shift_fits hR hsub o.2.1.natAbs n1
  obtain ⟨_, _, f2⟩ := F.shift_fits hR hsub o.2.2.natAbs n2
  obtain ⟨r0, s0⟩ := dimension_result _ _ _ _ _ hs (Dvd.dvd.mul_left hsR _) b0 d0 f0 _ e0
  obtain ⟨r1, s1⟩ := dimension_result _ _ _ _ _ hs (Dvd.dvd.mul_left hsR _) b1 d1 f1 _ e1
  obtain ⟨r2, s2⟩ := dimension_result _ _ _ _ _ hs (Dvd.dvd.mul_left hsR _) b2 d2 f2 _ e2
  obtain ⟨t0, t1, t2⟩ := index_of
  simp only at e0 e1 e2 r0 r1 r2 s0 s1 s2 hc2
  -- the index is the one of the cell of level `l'` found there
  have hkey : ∀ i0 i1 i2 : Nat, t0 ≤ i0 → i0 < t0 + 2 ^ (R - l') → t1 ≤ i1 →
      i1 < t1 + 2 ^ (R - l') → t2 ≤ i2 → i2 < t2 + 2 ^ (R - l') →
      ∀ r : Int, c2 = g.index.get_cell_from_indices (i0, i1, i2) r →
      g.index.get_indices c2 = (t0, t1, t2) := by
    intro i0 i1 i2 a0 a0' a1 a1' a2 a2' r hc
    have hne : g.index.get_cell_from_indices (i0, i1, i2) r ≠ 0 := by rw [← hc]; exact hc20
    obtain ⟨_, _, k0, k1, k2, klvl, _⟩ := enc_facts hfit hne
    rw [← hc, hl2] at klvl
    rw [F.hR] at k0 k1 k2
    simp only [Int.toNat_ofNat] at k0 k1 k2
    rw [hc, ← klvl, (F.roundtrip_indices hl' k0 k1 k2).1]
    have hd : ∀ t i : Nat, 2 ^ (R - l') ∣ t → t ≤ i → i < t + 2 ^ (R - l') →
        i / 2 ^ (R - l') * 2 ^ (R - l') = t := by
      intro t i ⟨q, hq⟩ hti hit
      subst hq
      have : i / 2 ^ (R - l') = q := by
        apply Nat.div_eq_of_lt_le
        · rw [Nat.mul_comm]; exact hti
        · rw [Nat.mul_comm]
          have : 2 ^ (R - l') * (q + 1) = 2 ^ (R - l') * q + 2 ^ (R - l') := by ring
          omega
      rw [this, Nat.mul_comm]
    rw [hd t0 i0 s0 a0 a0', hd t1 i1 s1 a1 a1', hd t2 i2 s2 a2 a2']
  have hlt : ∀ t : Nat, t < 2 ^ (R - l') + t := by intro t; omega
  have hres : g.index.get_indices c2 = (t0, t1, t2) := by
    by_cases ce : t0 = error_index
    · rw [if_pos ce] at hc2
      simp only [List.mem_singleton] at hc2
      exact absurd hc2 hc20
    rw [if_neg ce] at hc2
    have hlo0 : (0 : Int) ≤ (if (l' : Int) < 1 then 0 else (l' : Int) - 1) := by
      split_ifs <;> omega
    generalize (if (l' : Int) < 1 then (0 : Int) else (l' : Int) - 1) = lo at hc2 hlo0
    generalize (if (l' : Int) ≤ g.index.max_refinement_level - 1 then (l' : Int) + 1
      else g.index.max_refinement_level) = hi at hc2
    by_cases hb : g.index.get_refinement_level (g.get_existing_cell (t0, t1, t2) lo hi)
        ≤ (l' : Int)
    · rw [if_pos hb] at hc2
      simp only [List.mem_singleton] at hc2
      rcases get_existing_cell_spec g (t0, t1, t2) lo hi hlo0 with h | ⟨r, _, _, h, _⟩
      · rw [h] at hc2; exact absurd hc2 hc20
      · exact hkey t0 t1 t2 (le_refl _) (by omega) (le_refl _) (by omega) (le_refl _)
          (by omega) r (hc2.trans h)
    · rw [if_neg hb, mem_find_cells_iff] at hc2
      obtain ⟨i0, i1, i2, m0, m1, m2, hc, _⟩ := hc2
      simp only at m0 m1 m2
      obtain ⟨g0, _, _⟩ := F.shift_fits hR (le_refl R) 1 (by norm_num)
      obtain ⟨_, g1, _⟩ := F.shift_fits hR (le_refl R) 1 (by norm_num)
      obtain ⟨_, _, g2⟩ := F.shift_fits hR (le_refl R) 1 (by norm_num)
      have hstep : shl1 (g.index.max_refinement_level
          - min g.index.max_refinement_level ((l' : Int) + 1)) ≤ 2 ^ R := by
        unfold shl1 u64
        refine le_trans (Nat.mod_le _ _) (Nat.pow_le_pow_right (by norm_num) ?_)
        rw [F.hR]
        omega
      have hle : ∀ t G : Nat, t < G → 2 ^ (R - l') ∣ t → 2 ^ (R - l') ∣ G →
          t + 2 ^ (R - l') ≤ G := by
        intro t G htG ⟨q, hq⟩ ⟨N, hN⟩
        subst hq hN
        have : q < N := Nat.lt_of_mul_lt_mul_left htG
        have : 2 ^ (R - l') * (q + 1) ≤ 2 ^ (R - l') * N := Nat.mul_le_mul_left _ this
        have e : 2 ^ (R - l') * (q + 1) = 2 ^ (R - l') * q + 2 ^ (R - l') := by ring
        omega
      have hm : ∀ t G : Nat, t < G → 2 ^ (R - l') ∣ t → 2 ^ (R - l') ∣ G →
          G + 1 * 2 ^ R < 2 ^ 64 →
          usub (u64 (t + 2 ^ (R - l'))) 1 = t + 2 ^ (R - l') - 1 ∧
          t + 2 ^ (R - l') - 1 + shl1 (g.index.max_refinement_level
            - min g.index.max_refinement_level ((l' : Int) + 1)) < 2 ^ 64 := by
        intro t G htG hdt hdG hG
        have := hle t G htG hdt hdG
        rw [u64_of_lt (by omega), usub_eq (by omega) (by omega)]
        exact ⟨rfl, by omega⟩
      obtain ⟨q0, q0'⟩ := hm t0 _ r0 s0 (Dvd.dvd.mul_left hsR _) g0
      obtain ⟨q1, q1'⟩ := hm t1 _ r1 s1 (Dvd.dvd.mul_left hsR _) g1
      obtain ⟨q2, q2'⟩ := hm t2 _ r2 s2 (Dvd.dvd.mul_left hsR _) g2
      rw [q0] at m0
      rw [q1] at m1
      rw [q2] at m2
      have a0 := for_le_bounds _ _ _ _ q0' m0
      have a1 := for_le_bounds _ _ _ _ q1' m1
      have a2 := for_le_bounds _ _ _ _ q2' m2
      rcases get_existing_cell_spec g (i0, i1, i2) (max 0 ((l' : Int) - 1))
          (min g.index.max_refinement_level ((l' : Int) + 1))
          (by omega) with h | ⟨r, _, _, h, _⟩
      · rw [h] at hc; exact absurd hc hc20
      · exact hkey i0 i1 i2 a0.1 (by omega) a1.1 (by omega) a2.1 (by omega) r (hc.trans h)
  rw [hres]
  exact ⟨o, ho, e0, e1, e2⟩

end Dccrg
end dccrg
namespace dccrg
open Index Dccrg

/-- An index that is a multiple of the size `2^(R-(m+1))` is visited by the loop of
`find_cells` over the window of size `2^(R-m)` that holds it. -/
theorem for_le_window (R m t G : Nat) (hm : m + 1 ≤ R) (htG : t < G)
    (hG : 2 ^ (R - m) ∣ G) (hdt : 2 ^ (R - (m + 1)) ∣ t) (hov : G + 1 * 2 ^ R < 2 ^ 64) :
    t ∈ for_le (t / 2 ^ (R - m) * 2 ^ (R - m))
      (usub (u64 (t / 2 ^ (R - m) * 2 ^ (R - m) + 2 ^ (R - m))) 1)
      (2 ^ (R - min R (m + 2))) := by
  obtain ⟨N, hN⟩ := hG
  have hS : 0 < 2 ^ (R - m) := by positivity
  have hq : t / 2 ^ (R - m) < N := by
    apply Nat.div_lt_of_lt_mul
    rw [← hN]; exact htG
  generalize hS' : 2 ^ (R - m) = S at *
  generalize hW : t / S * S = W at *
  have hWS : W + S ≤ G := by
    have : (t / S + 1) * S ≤ N * S := Nat.mul_le_mul_right _ hq
    rw [hN, Nat.mul_comm S N]
    have e : (t / S + 1) * S = t / S * S + S := by ring
    omega
  have hSR : S ≤ 2 ^ R := by
    rw [← hS']; exact Nat.pow_le_pow_right (by norm_num) (Nat.sub_le _ _)
  have hstR : 2 ^ (R - min R (m + 2)) ≤ 2 ^ R :=
    Nat.pow_le_pow_right (by norm_num) (Nat.sub_le _ _)
  have hdstep : 2 ^ (R - min R (m + 2)) ∣ 2 ^ (R - (m + 1)) := pow_dvd_pow 2 (by omega)
  have hdS : 2 ^ (R - min R (m + 2)) ∣ S := by
    rw [← hS']; exact pow_dvd_pow 2 (by omega)
  have hd1 : 2 ^ (R - min R (m + 2)) ∣ t := dvd_trans hdstep hdt
  have hd2 : 2 ^ (R - min R (m + 2)) ∣ W := by
    rw [← hW]; exact Dvd.dvd.mul_left hdS _
  have hle : W ≤ t := by rw [← hW]; exact Nat.div_mul_le_self _ _
  have hmod : t < W + S := by
    have := Nat.lt_div_mul_add hS (a := t)
    omega
  generalize 2 ^ (R - min R (m + 2)) = step at *
  generalize 2 ^ R = PR at *
  have hstep1 : 1 ≤ step := by
    rcases Nat.eq_zero_or_pos step with h | h
    · subst h
      obtain ⟨q, hq⟩ := hdS
      omega
    · exact h
  clear hdstep hdS hN hq hdt
  rw [u64_of_lt (by omega), usub_eq (by omega) (by omega)]
  obtain ⟨j, hj⟩ := (Nat.dvd_sub' hd1 hd2)
  have ht : t = W + j * step := by
    rw [Nat.mul_comm j, ← hj]; omega
  have hmem := mem_for_le W (W + S - 1) step j hstep1 (by omega) (by rw [← ht]; omega)
  rw [← ht] at hmem
  exact hmem

namespace Dccrg
variable {UserData : Type}

/-- The search over the levels `m-2 .. m+2` at indices where the cell of level
`m + 1` is in the directory finds a cell above level `m`. -/
theorem search_below (g : Dccrg UserData) {R : Nat} (F : Fit g.index R)
    (hinv : g.existence_invariant) {i0 i1 i2 : Nat}
    (h0 : i0 < g.index.x_length * 2 ^ R) (h1 : i1 < g.index.y_length * 2 ^ R)
    (h2 : i2 < g.index.z_length * 2 ^ R) (m : Nat) (hm : m + 1 ≤ R)
    (hex : map_has g.cell_process
      (g.index.get_cell_from_indices (i0, i1, i2) ((m + 1 : Nat) : Int)) = true) :
    ∃ r : Nat, m + 1 ≤ r ∧
      g.index.get_refinement_level (g.get_existing_cell (i0, i1, i2) ((m - 2 : Nat) : Int)
        ((min R (m + 2) : Nat) : Int)) = (r : Int) := by
  obtain ⟨ml, hml, hleafW⟩ := cover_exists g F hinv h0 h1 h2 (R - (m + 1)) (m + 1) (by omega)
    hex
  obtain ⟨hexl, hnext⟩ := (cover_leaf_iff g F hinv h0 h1 h2 hml).1 hleafW
  have hml1 : m + 1 ≤ ml := by
    by_contra hn
    rcases hnext with h | h
    · omega
    · obtain ⟨d, hd⟩ : ∃ d, m + 1 = (ml + 1) + d := ⟨m - ml, by omega⟩
      have := cover_down g F hinv h0 h1 h2 d (ml + 1) (by omega) (by rw [← hd]; exact hex)
      have e : ((ml + 1 : Nat) : Int) = (ml : Int) + 1 := by push_cast; rfl
      rw [e, h] at this
      exact Bool.noConfusion this
  refine ⟨min ml (min R (m + 2)), by omega, ?_⟩
  have hfound : g.get_existing_cell (i0, i1, i2) ((m - 2 : Nat) : Int)
      ((min R (m + 2) : Nat) : Int)
      = g.index.get_cell_from_indices (i0, i1, i2) ((min ml (min R (m + 2)) : Nat) : Int) := by
    apply get_existing_cell_exact g F hinv h0 h1 h2 _ _ _ (by omega) (by omega) (by omega)
    · obtain ⟨d, hd⟩ : ∃ d, ml = min ml (min R (m + 2)) + d :=
        ⟨ml - min ml (min R (m + 2)), by omega⟩
      exact cover_down g F hinv h0 h1 h2 d _ (by omega) (by rw [← hd]; exact hexl)
    · by_cases hc : ml ≤ min R (m + 2)
      · rw [Nat.min_eq_left hc]
        rcases hnext with h | h
        · left; omega
        · right; exact h
      · left; omega
  rw [hfound]
  exact (F.roundtrip_indices (by omega) h0 h1 h2).2.1

/-- The search over the levels `m-2 .. m+2` at the indices of a leaf of level
`m + 1` finds the leaf. -/
theorem search_leaf (g : Dccrg UserData) {R : Nat} (F : Fit g.index R)
    (hinv : g.existence_invariant) (c1 m : Nat) (hm : m + 1 ≤ R)
    (hl1 : g.index.get_refinement_level c1 = ((m + 1 : Nat) : Int)) (hleaf : g.is_leaf c1) :
    g.get_existing_cell (g.index.get_indices c1) ((m - 2 : Nat) : Int)
      ((min R (m + 2) : Nat) : Int) = c1 := by
  obtain ⟨v1, v2⟩ := level_nonneg_valid (show 0 ≤ g.index.get_refinement_level c1 by omega)
  obtain ⟨l', hl', hlvl', b0, b1, b2, d0, d1, d2, hrt⟩ := F.roundtrip_cell v1 v2
  have : l' = m + 1 := by rw [hl1] at hlvl'; exact_mod_cast hlvl'.symm
  subst this
  have em1 : ((m + 1 : Nat) : Int) = (m : Int) + 1 := by push_cast; rfl
  generalize hidx : g.index.get_indices c1 = idx at *
  obtain ⟨t0, t1, t2⟩ := idx
  have h3 : g.get_existing_cell (t0, t1, t2) ((m - 2 : Nat) : Int)
      ((min R (m + 2) : Nat) : Int)
      = g.index.get_cell_from_indices (t0, t1, t2) ((m + 1 : Nat) : Int) := by
    apply get_existing_cell_exact g F hinv b0 b1 b2 _ _ _ (by omega) (by omega) (by omega)
    · rw [hrt]; exact hleaf.1
    · have := (cover_leaf_iff g F hinv b0 b1 b2 hm).1 (by rw [hrt]; exact hleaf)
      rcases this.2 with h | h
      · left; omega
      · right; exact h
  rw [h3, hrt]

/-- With a leaf `c1` of level `m + 1` the directory holds the cell of level `m + 1`
at the corner of the window of size `2^(R-m)` around `c1`. -/
theorem window_sibling (g : Dccrg UserData) {R : Nat} (F : Fit g.index R)
    (hinv : g.existence_invariant) (c1 m : Nat) (hm : m + 1 ≤ R)
    (hl1 : g.index.get_refinement_level c1 = ((m + 1 : Nat) : Int))
    (hc1 : map_has g.cell_process c1 = true) :
    map_has g.cell_process (g.index.get_cell_from_indices
      ((g.index.get_indices c1).1 / 2 ^ (R - m) * 2 ^ (R - m),
        (g.index.get_indices c1).2.1 / 2 ^ (R - m) * 2 ^ (R - m),
        (g.index.get_indices c1).2.2 / 2 ^ (R - m) * 2 ^ (R - m)) ((m + 1 : Nat) : Int))
      = true := by
  obtain ⟨v1, v2⟩ := level_nonneg_valid (show 0 ≤ g.index.get_refinement_level c1 by omega)
  obtain ⟨l', hl', hlvl', b0, b1, b2, d0, d1, d2, hrt⟩ := F.roundtrip_cell v1 v2
  have : l' = m + 1 := by rw [hl1] at hlvl'; exact_mod_cast hlvl'.symm
  subst this
  generalize hidx : g.index.get_indices c1 = idx at *
  obtain ⟨t0, t1, t2⟩ := idx
  simp only at b0 b1 b2 ⊢
  have hS : 0 < 2 ^ (R - m) := by positivity
  have hW : ∀ t G : Nat, t < G → t / 2 ^ (R - m) * 2 ^ (R - m) < G :=
    fun t G h => lt_of_le_of_lt (Nat.div_mul_le_self _ _) h
  have hWd : ∀ t : Nat, (t / 2 ^ (R - m) * 2 ^ (R - m)) / 2 ^ (R - m) = t / 2 ^ (R - m) :=
    fun t => Nat.mul_div_cancel _ hS
  have w0 := hW t0 _ b0
  have w1 := hW t1 _ b1
  have w2 := hW t2 _ b2
  have em1 : ((m + 1 : Nat) : Int) = (m : Int) + 1 := by push_cast; rfl
  have hcong : g.index.get_cell_from_indices
        (t0 / 2 ^ (R - m) * 2 ^ (R - m), t1 / 2 ^ (R - m) * 2 ^ (R - m),
          t2 / 2 ^ (R - m) * 2 ^ (R - m)) (m : Int)
        = g.index.get_cell_from_indices (t0, t1, t2) (m : Int) :=
    F.enc_congr (by omega) w0 w1 w2 b0 b1 b2 (hWd t0) (hWd t1) (hWd t2)
  obtain ⟨_, hsib⟩ := hinv.2.2 c1 ((mem_map_keys _ _).2 hc1) (by rw [hl1]; omega)
  apply hsib
  have hpar : g.index.get_parent_for_removed c1
      = g.index.get_cell_from_indices (t0, t1, t2) (m : Int) := by
    rw [← hrt, em1]
    exact F.parent_enc (by omega) b0 b1 b2
  have hplvl : g.index.get_refinement_level (g.index.get_parent_for_removed c1) = (m : Int) := by
    rw [hpar]
    exact (F.roundtrip_indices (by omega) b0 b1 b2).2.1
  rw [mem_children_of_iff F hplvl (by omega)]
  refine ⟨?_, ?_⟩
  · rw [← em1]
    exact (F.roundtrip_indices hm w0 w1 w2).2.1
  · rw [em1, F.parent_enc (by omega) w0 w1 w2, hpar]
    exact hcong

/-- A leaf `c1` of level `m + 1` is found by `find_neighbors_of (P, 2, true)` when an
item of the neighbourhood shifts the indices of the cell `P` of level `m` to the
corner of the window of size `2^(R-m)` around `c1`. -/
theorem leaf_in_parent_neighborhood (g : Dccrg UserData) {R : Nat} (F : Fit g.index R)
    (hinv : g.existence_invariant)
    (c1 P m : Nat) (hm : m + 1 ≤ R)
    (hl1 : g.index.get_refinement_level c1 = ((m + 1 : Nat) : Int)) (hleaf : g.is_leaf c1)
    (hP : map_has g.cell_process P = true)
    (hlP : g.index.get_refinement_level P = (m : Int))
    (k : neighborhood_item_t) (hk : k ∈ g.neighborhood_of)
    (e0 : indices_from_neighborhood_dimension g.periodic.1 (g.index.x_length * 2 ^ R)
      (2 ^ (R - m)) (g.index.get_indices P).1 k.1
      = some ((g.index.get_indices c1).1 / 2 ^ (R - m) * 2 ^ (R - m)))
    (e1 : indices_from_neighborhood_dimension g.periodic.2.1 (g.index.y_length * 2 ^ R)
      (2 ^ (R - m)) (g.index.get_indices P).2.1 k.2.1
      = some ((g.index.get_indices c1).2.1 / 2 ^ (R - m) * 2 ^ (R - m)))
    (e2 : indices_from_neighborhood_dimension g.periodic.2.2 (g.index.z_length * 2 ^ R)
      (2 ^ (R - m)) (g.index.get_indices P).2.2 k.2.2
      = some ((g.index.get_indices c1).2.2 / 2 ^ (R - m) * 2 ^ (R - m))) :
    c1 ∈ g.find_neighbors_of P 2 true := by
  have hR : 1 ≤ R := by omega
  obtain ⟨v1, v2⟩ := level_nonneg_valid (show 0 ≤ g.index.get_refinement_level c1 by omega)
  obtain ⟨l', hl', hlvl', b0, b1, b2, d0, d1, d2, _⟩ := F.roundtrip_cell v1 v2
  have : l' = m + 1 := by rw [hl1] at hlvl'; exact_mod_cast hlvl'.symm
  subst this
  have hexW := window_sibling g F hinv c1 m hm hl1 hleaf.1
  have hsearch := search_leaf g F hinv c1 m hm hl1 hleaf
  obtain ⟨g0, g1, g2⟩ := F.shift_fits hR (le_refl R) 1 (by norm_num)
  have hdR : 2 ^ (R - m) ∣ 2 ^ R := pow_dvd_pow 2 (Nat.sub_le _ _)
  have f0 := for_le_window R m _ _ hm b0 (Dvd.dvd.mul_left hdR _) d0 g0
  have f1 := for_le_window R m _ _ hm b1 (Dvd.dvd.mul_left hdR _) d1 g1
  have f2 := for_le_window R m _ _ hm b2 (Dvd.dvd.mul_left hdR _) d2 g2
  have w0 : (g.index.get_indices c1).1 / 2 ^ (R - m) * 2 ^ (R - m)
      < g.index.x_length * 2 ^ R := lt_of_le_of_lt (Nat.div_mul_le_self _ _) b0
  have w1 : (g.index.get_indices c1).2.1 / 2 ^ (R - m) * 2 ^ (R - m)
      < g.index.y_length * 2 ^ R := lt_of_le_of_lt (Nat.div_mul_le_self _ _) b1
  have w2 : (g.index.get_indices c1).2.2 / 2 ^ (R - m) * 2 ^ (R - m)
      < g.index.z_length * 2 ^ R := lt_of_le_of_lt (Nat.div_mul_le_self _ _) b2
  obtain ⟨r, hr, hlvlr⟩ := search_below g F hinv w0 w1 w2 m hm hexW
  generalize (g.index.get_indices c1).1 / 2 ^ (R - m) * 2 ^ (R - m) = W0 at *
  generalize (g.index.get_indices c1).2.1 / 2 ^ (R - m) * 2 ^ (R - m) = W1 at *
  generalize (g.index.get_indices c1).2.2 / 2 ^ (R - m) * 2 ^ (R - m) = W2 at *
  clear hexW d0 d1 d2 b0 b1 b2 v1 v2 hlvl'
  have hlo : (if (m : Int) < 2 then (0 : Int) else (m : Int) - 2) = ((m - 2 : Nat) : Int) := by
    split_ifs <;> omega
  have hhi : (if (m : Int) ≤ g.index.max_refinement_level - 2 then (m : Int) + 2
      else g.index.max_refinement_level) = ((min R (m + 2) : Nat) : Int) := by
    rw [F.hR]
    split_ifs <;> omega
  have hlo' : max (0 : Int) ((m : Int) - 2) = ((m - 2 : Nat) : Int) := by omega
  have hhi' : min g.index.max_refinement_level ((m : Int) + 2)
      = ((min R (m + 2) : Nat) : Int) := by
    rw [F.hR]; omega
  have hstep : shl1 (g.index.max_refinement_level - ((min R (m + 2) : Nat) : Int))
      = 2 ^ (R - min R (m + 2)) := by
    rw [F.hR]
    have : (R : Int) - ((min R (m + 2) : Nat) : Int) = ((R - min R (m + 2) : Nat) : Int) := by
      omega
    rw [this, F.shl1_eq (Nat.sub_le _ _)]
  have herr : ¬ W0 = error_index := by unfold error_index; omega
  unfold find_neighbors_of
  simp only
  rw [if_neg (by simp [hP]), if_neg (by simp), List.mem_flatMap]
  refine ⟨(W0, W1, W2), ?_, ?_⟩
  · apply indices_from_neighborhood_mem g _ _ _ k hk
    · rw [F.hR, F.xlen_eq (le_refl R), F.size_eq hlP]; exact e0
    · rw [F.hR, F.ylen_eq (le_refl R), F.size_eq hlP]; exact e1
    · rw [F.hR, F.zlen_eq (le_refl R), F.size_eq hlP]; exact e2
  · unfold find_neighbors_of_at
    simp only
    rw [if_neg herr, F.size_eq hlP, hlP, hlo, hhi, hlvlr, if_neg (by omega), hlo', hhi',
      mem_find_cells_iff, hstep]
    exact ⟨_, _, _, f0, f1, f2, hsearch.symm, hleaf.2.symm⟩

end Dccrg
end dccrg
namespace dccrg
open Index Dccrg
/-- One dimension of the step from a neighbor relation of two cells of level `m + 1`
to the neighbourhood of the parent. -/
theorem parent_dimension (p : Bool) (L R m : Nat) (hm : m + 1 ≤ R) (t1 t2 : Nat) (o : Int)
    (b1 : t1 < L * 2 ^ R) (b2 : t2 < L * 2 ^ R) (d1 : 2 ^ (R - (m + 1)) ∣ t1)
    (hov1 : L * 2 ^ R + o.natAbs * 2 ^ (R - (m + 1)) < 2 ^ 64)
    (hovk : ∀ k : Nat, k < 2 ^ 31 → L * 2 ^ R + k * 2 ^ (R - m) < 2 ^ 64)
    (ho31 : o.natAbs < 2 ^ 31)
    (e : Dccrg.indices_from_neighborhood_dimension p (L * 2 ^ R) (2 ^ (R - (m + 1))) t1 o
      = some t2) :
    ∃ k : Int, (k.natAbs ≤ (o.natAbs + 1) / 2 ∧ (o = 0 → k = 0)) ∧
      (k = 0 → t1 / 2 ^ (R - m) * 2 ^ (R - m) = t2 / 2 ^ (R - m) * 2 ^ (R - m)) ∧
      Dccrg.indices_from_neighborhood_dimension p (L * 2 ^ R) (2 ^ (R - m))
        (t2 / 2 ^ (R - m) * 2 ^ (R - m)) k = some (t1 / 2 ^ (R - m) * 2 ^ (R - m)) := by
  have hs : 0 < 2 ^ (R - (m + 1)) := by positivity
  have hSs : 2 ^ (R - m) = 2 * 2 ^ (R - (m + 1)) := by
    rw [← pow_succ']; congr 1; omega
  have hG : L * 2 ^ R = 2 * 2 ^ (R - (m + 1)) * (L * 2 ^ m) := by
    have : 2 ^ R = 2 ^ (R - (m + 1)) * 2 ^ (m + 1) := by
      rw [← pow_add]; congr 1; omega
    rw [this, pow_succ]; ring
  have hsG : 2 ^ (R - (m + 1)) ∣ L * 2 ^ R := ⟨2 * (L * 2 ^ m), by rw [hG]; ring⟩
  obtain ⟨_, d2⟩ := dimension_result p _ _ t1 o hs hsG b1 d1 hov1 t2 e
  have hrel := (indices_from_neighborhood_dimension_spec p _ _ t1 o hs hsG b1 d1 hov1 t2).1 e
  rw [hSs]
  generalize 2 ^ (R - (m + 1)) = s at *
  rw [hG] at hrel b1 b2 ⊢
  obtain ⟨k, hk1, hk2, hk3, hk4⟩ := parent_window s (L * 2 ^ m) hs t1 t2 o p d1 d2 b1 hrel
  refine ⟨k, ⟨hk1, hk2⟩, hk3, ?_⟩
  have hk31 : k.natAbs < 2 ^ 31 := by omega
  have hov := hovk k.natAbs hk31
  rw [hSs, hG] at hov
  have hW2 : t2 / (2 * s) * (2 * s) < 2 * s * (L * 2 ^ m) :=
    lt_of_le_of_lt (Nat.div_mul_le_self _ _) b2
  exact (indices_from_neighborhood_dimension_spec p _ (2 * s) _ k (by omega)
    ⟨L * 2 ^ m, rfl⟩ hW2 (Dvd.intro_left _ rfl) hov _).2 hk4

namespace Dccrg
variable {UserData : Type}

theorem neighborhood_bounds (n : Nat) (hn : n < 2 ^ 31) :
    ∀ o ∈ make_neighborhood_of n,
      o.1.natAbs < 2 ^ 31 ∧ o.2.1.natAbs < 2 ^ 31 ∧ o.2.2.natAbs < 2 ^ 31 := by
  rintro ⟨x, y, z⟩ ho
  by_cases h0 : n = 0
  · subst h0
    rw [mem_make_neighborhood_of_zero] at ho
    simp only
    omega
  · rw [mem_make_neighborhood_of n (by omega)] at ho
    simp only
    omega

/-- The item of the neighbourhood of the parent: from an item `o` of the
neighbourhood and shifts `k` that are 0 where `o` is 0 and otherwise not further from
0 than `o`, either all shifts are 0 or `k` is an item of the neighbourhood. -/
theorem parent_offset_mem (n : Nat) (o k : neighborhood_item_t)
    (ho : o ∈ make_neighborhood_of n)
    (h0 : k.1.natAbs ≤ (o.1.natAbs + 1) / 2 ∧ (o.1 = 0 → k.1 = 0))
    (h1 : k.2.1.natAbs ≤ (o.2.1.natAbs + 1) / 2 ∧ (o.2.1 = 0 → k.2.1 = 0))
    (h2 : k.2.2.natAbs ≤ (o.2.2.natAbs + 1) / 2 ∧ (o.2.2 = 0 → k.2.2 = 0)) :
    (k.1 = 0 ∧ k.2.1 = 0 ∧ k.2.2 = 0) ∨ k ∈ make_neighborhood_of n := by
  obtain ⟨x, y, z⟩ := o
  obtain ⟨a, b, c⟩ := k
  simp only at h0 h1 h2 ⊢
  by_cases hz : a = 0 ∧ b = 0 ∧ c = 0
  · exact Or.inl hz
  right
  by_cases hn : n = 0
  · subst hn
    rw [mem_make_neighborhood_of_zero] at ho ⊢
    rcases ho with ⟨hx, hy, hz'⟩ | ⟨hx, hy, hz'⟩ | ⟨hx, hy, hz'⟩
    · have ha := h0.2 hx
      have hb := h1.2 hy
      have hc : c.natAbs ≤ 1 := by have := h2.1; omega
      have hc0 : c ≠ 0 := fun h => hz ⟨ha, hb, h⟩
      exact Or.inl ⟨ha, hb, by omega⟩
    · have ha := h0.2 hx
      have hc := h2.2 hz'
      have hb : b.natAbs ≤ 1 := by have := h1.1; omega
      have hb0 : b ≠ 0 := fun h => hz ⟨ha, h, hc⟩
      exact Or.inr (Or.inl ⟨ha, by omega, hc⟩)
    · have hb := h1.2 hy
      have hc := h2.2 hz'
      have ha : a.natAbs ≤ 1 := by have := h0.1; omega
      have ha0 : a ≠ 0 := fun h => hz ⟨h, hb, hc⟩
      exact Or.inr (Or.inr ⟨by omega, hb, hc⟩)
  · rw [mem_make_neighborhood_of n (by omega)] at ho ⊢
    obtain ⟨ox, oy, oz, _⟩ := ho
    have ka := h0.1
    have kb := h1.1
    have kc := h2.1
    refine ⟨by omega, by omega, by omega, hz⟩

/-- The geometry behind the override of unrefines: a leaf `c1` of level `l > 0` that
has the cell `c2` of the same level among its neighbors is a sibling of `c2` or is
found by `find_neighbors_of (parent of c2, 2, true)`. -/
theorem neighbor_in_parent_neighborhood (g : Dccrg UserData) (hfit : g.index.ids_fit)
    (hinv : g.existence_invariant) (hn : g.neighborhood_size < 2 ^ 31)
    (hnb : g.neighborhood_of = make_neighborhood_of g.neighborhood_size)
    (c1 c2 l : Nat) (hl : 1 ≤ l) (hl1 : g.index.get_refinement_level c1 = (l : Int))
    (hl2 : g.index.get_refinement_level c2 = (l : Int)) (hleaf : g.is_leaf c1)
    (hd2 : map_has g.cell_process c2 = true)
    (hc2 : c2 ∈ g.find_neighbors_of c1 1 false) :
    c1 ∈ g.index.children_of (g.index.get_parent_for_removed c2) ∨
    c1 ∈ g.find_neighbors_of (g.index.get_parent_for_removed c2) 2 true := by
  obtain ⟨m, rfl⟩ : ∃ m, l = m + 1 := ⟨l - 1, by omega⟩
  obtain ⟨v1, v2⟩ := level_nonneg_valid (show 0 ≤ g.index.get_refinement_level c1 by omega)
  obtain ⟨w1, w2⟩ := level_nonneg_valid (show 0 ≤ g.index.get_refinement_level c2 by omega)
  have F := Fit.of_valid_cell hfit v1 v2
  generalize hRdef : g.index.max_refinement_level.toNat = R at F
  obtain ⟨l1, hl1', hlvl1, b0, b1, b2, d0, d1, d2, hrt1⟩ := F.roundtrip_cell v1 v2
  have : l1 = m + 1 := by rw [hl1] at hlvl1; exact_mod_cast hlvl1.symm
  subst this
  obtain ⟨l2, _, hlvl2, a0, a1, a2, q0, q1, q2, hrt2⟩ := F.roundtrip_cell w1 w2
  have : l2 = m + 1 := by rw [hl2] at hlvl2; exact_mod_cast hlvl2.symm
  subst this
  have hR : 1 ≤ R := by omega
  have em1 : ((m + 1 : Nat) : Int) = (m : Int) + 1 := by push_cast; rfl
  have hbounds := neighborhood_bounds g.neighborhood_size hn
  rw [← hnb] at hbounds
  obtain ⟨o, ho, e0, e1, e2⟩ := neighbor_offset g F hR hfit hbounds c1 c2 (m + 1) hl1 hl2 hc2
  obtain ⟨n0, n1, n2⟩ := hbounds o ho
  -- the parent of `c2`
  have hparent : g.index.get_parent_for_removed c2
      = g.index.get_cell_from_indices (g.index.get_indices c2) (m : Int) := by
    conv_lhs => rw [← hrt2, em1]
    exact F.parent_enc (by omega) a0 a1 a2
  have hPlvl : g.index.get_refinement_level (g.index.get_parent_for_removed c2) = (m : Int) := by
    rw [hparent]
    exact (F.roundtrip_indices (by omega) a0 a1 a2).2.1
  have hPidx : g.index.get_indices (g.index.get_parent_for_removed c2)
      = ((g.index.get_indices c2).1 / 2 ^ (R - m) * 2 ^ (R - m),
         (g.index.get_indices c2).2.1 / 2 ^ (R - m) * 2 ^ (R - m),
         (g.index.get_indices c2).2.2 / 2 ^ (R - m) * 2 ^ (R - m)) := by
    rw [hparent]
    exact (F.roundtrip_indices (by omega) a0 a1 a2).1
  have hPdir : map_has g.cell_process (g.index.get_parent_for_removed c2) = true :=
    (hinv.2.2 c2 ((mem_map_keys _ _).2 hd2) (by rw [hl2]; omega)).1
  -- the shifts of the parent, dimension by dimension
  have hovk : ∀ k : Nat, k < 2 ^ 31 →
      g.index.x_length * 2 ^ R + k * 2 ^ (R - m) < 2 ^ 64 ∧
      g.index.y_length * 2 ^ R + k * 2 ^ (R - m) < 2 ^ 64 ∧
      g.index.z_length * 2 ^ R + k * 2 ^ (R - m) < 2 ^ 64 :=
    fun k hk => F.shift_fits hR (Nat.sub_le _ _) k hk
  obtain ⟨f0, _, _⟩ := F.shift_fits hR (Nat.sub_le R (m + 1)) o.1.natAbs n0
  obtain ⟨_, f1, _⟩ := F.shift_fits hR (Nat.sub_le R (m + 1)) o.2.1.natAbs n1
  obtain ⟨_, _, f2⟩ := F.shift_fits hR (Nat.sub_le R (m + 1)) o.2.2.natAbs n2
  obtain ⟨k0, hk0, hz0, p0⟩ := parent_dimension _ _ R m hl1' _ _ _ b0 a0 d0 f0
    (fun k hk => (hovk k hk).1) n0 e0
  obtain ⟨k1, hk1, hz1, p1⟩ := parent_dimension _ _ R m hl1' _ _ _ b1 a1 d1 f1
    (fun k hk => (hovk k hk).2.1) n1 e1
  obtain ⟨k2, hk2, hz2, p2⟩ := parent_dimension _ _ R m hl1' _ _ _ b2 a2 d2 f2
    (fun k hk => (hovk k hk).2.2) n2 e2
  rw [hnb] at ho
  rcases parent_offset_mem g.neighborhood_size o (k0, k1, k2) ho hk0 hk1 hk2 with
    ⟨z0, z1, z2⟩ | hmem
  · -- `c1` is a child of the parent of `c2`
    left
    rw [mem_children_of_iff F hPlvl (by omega)]
    refine ⟨by rw [hl1, em1], ?_⟩
    have hpar1 : g.index.get_parent_for_removed c1
        = g.index.get_cell_from_indices (g.index.get_indices c1) (m : Int) := by
      conv_lhs => rw [← hrt1, em1]
      exact F.parent_enc (by omega) b0 b1 b2
    rw [hpar1, hparent]
    have hS : 0 < 2 ^ (R - m) := by positivity
    exact F.enc_congr (by omega) b0 b1 b2 a0 a1 a2
      (Nat.eq_of_mul_eq_mul_right hS (hz0 z0)) (Nat.eq_of_mul_eq_mul_right hS (hz1 z1))
      (Nat.eq_of_mul_eq_mul_right hS (hz2 z2))
  · right
    rw [← hnb] at hmem
    refine leaf_in_parent_neighborhood g F hinv c1 _ m hl1' hl1 hleaf hPdir hPlvl
      (k0, k1, k2) hmem ?_ ?_ ?_
    · rw [hPidx]; exact p0
    · rw [hPidx]; exact p1
    · rw [hPidx]; exact p2

end Dccrg
end dccrg
namespace dccrg
open Index Dccrg
namespace Dccrg
variable {UserData : Type}

theorem get_existing_cell_loop_same_grid {V : Type} (g : Dccrg UserData) (g' : Dccrg V)
    (hi : g'.index = g.index)
    (hd : ∀ c, map_has g'.cell_process c = map_has g.cell_process c) (indices : indices_t) :
    ∀ (fuel : Nat) (lo hi : Int),
      g'.get_existing_cell_loop indices fuel lo hi
        = g.get_existing_cell_loop indices fuel lo hi := by
  intro fuel
  induction fuel with
  | zero => intro lo hi; rfl
  | succ n ih =>
    intro lo hi'
    unfold get_existing_cell_loop
    simp only [hi, hd, ih]

/-- The neighbor search gives the same result on two processes with the same `Index`,
periodicity and neighbourhood whose directories hold the same cells. -/
theorem find_neighbors_of_same_grid {V : Type} (g : Dccrg UserData) (g' : Dccrg V)
    (h1 : g'.index = g.index) (h4 : g'.periodic = g.periodic)
    (h6 : g'.neighborhood_of = g.neighborhood_of)
    (hd : ∀ c, map_has g'.cell_process c = map_has g.cell_process c) (c : Nat) (m : Int)
    (b : Bool) : g'.find_neighbors_of c m b = g.find_neighbors_of c m b := by
  have hgc := get_child_congr g g' h1 hd
  have hex : ∀ idx lo hi, g'.get_existing_cell idx lo hi = g.get_existing_cell idx lo hi := by
    intro idx lo hi
    unfold get_existing_cell
    exact get_existing_cell_loop_same_grid g g' h1 hd idx _ lo hi
  have hfc : ∀ a b lo hi, g'.find_cells a b lo hi = g.find_cells a b lo hi := by
    intro a b lo hi
    unfold find_cells
    simp only [h1, hex, hgc]
  have hifn : ∀ idx sz nb, g'.indices_from_neighborhood idx sz nb
      = g.indices_from_neighborhood idx sz nb := by
    intro idx sz nb
    unfold indices_from_neighborhood
    simp only [h1, h4]
  have hat : ∀ l sz md idx, g'.find_neighbors_of_at l sz md idx
      = g.find_neighbors_of_at l sz md idx := by
    intro l sz md idx
    unfold find_neighbors_of_at
    simp only [h1, hex, hfc]
  have hat' : ∀ l sz md, g'.find_neighbors_of_at l sz md = g.find_neighbors_of_at l sz md :=
    fun l sz md => funext (hat l sz md)
  unfold find_neighbors_of
  simp only [h1, hd, hgc, hifn, h6, hat']

theorem find_neighbors_of_leaf (g : Dccrg UserData) (c x : Nat)
    (h : x ∈ g.find_neighbors_of c 1 false) : g.is_leaf c := by
  unfold find_neighbors_of at h
  simp only at h
  by_cases c1 : ¬ map_has g.cell_process c = true
  · rw [if_pos c1] at h; simp at h
  rw [if_neg c1] at h
  by_cases c2 : (!false) = true ∧ c ≠ g.get_child c
  · rw [if_pos c2] at h; simp at h
  constructor
  · by_contra hn; exact c1 hn
  · by_contra hn
    exact c2 ⟨rfl, fun e => hn e.symm⟩

end Dccrg

variable {UserData : Type}

theorem world_same_grid {w : World UserData} (h : consistent w) {g g' : Dccrg UserData}
    (hg : g ∈ w) (hg' : g' ∈ w) :
    g'.index = g.index ∧ g'.periodic = g.periodic ∧
    g'.neighborhood_of = g.neighborhood_of ∧
    ∀ c, map_has g'.cell_process c = map_has g.cell_process c := by
  obtain ⟨a1, a2, _, a4, _, _⟩ := h.2.2 g hg g' hg'
  refine ⟨a1.symm, a2.symm, a4.symm, ?_⟩
  intro c
  unfold map_has
  rw [consistent_owner h hg hg' c]

theorem same_but_requests_grid {g g' : Dccrg UserData} (h : g.same_but_requests g') :
    g'.index = g.index ∧ g'.periodic = g.periodic ∧
    g'.neighborhood_size = g.neighborhood_size ∧
    g'.neighborhood_of = g.neighborhood_of ∧
    ∀ c, map_has g'.cell_process c = map_has g.cell_process c := by
  obtain ⟨f1, f2, _⟩ := same_but_requests_fields h
  unfold fixed at f1
  simp only [Prod.mk.injEq] at f1
  obtain ⟨h1, _, _, h4, h5, h6, _⟩ := f1
  exact ⟨h1, h4, h5, h6, fun c => by rw [f2]⟩

end dccrg
namespace dccrg
open Index Dccrg
variable {UserData : Type}

/-- When `execute_refines` starts after a refine request for `c1`, no cell that will be
unrefined has the neighbor `c2` of `c1` or a child of `c1` among its siblings. -/
theorem unrefines_spare_neighbor [Inhabited UserData] (w0 w1 wp : World UserData)
    (requests : List (Nat × Request)) (before : List (Dccrg UserData × List Nat × uset))
    (hcons : consistent w0) (hnp : ∀ g ∈ w0, g.no_pending)
    (hnbh : ∀ g ∈ w0, g.neighborhood_size < 2 ^ 31 ∧
      g.neighborhood_of = make_neighborhood_of g.neighborhood_size)
    (hreq : make_requests w0 requests = some w1) (hwp : refines_prepared w1 = some wp)
    (hb1 : List.Forall₂ (fun g b => g.execute_refines_before_wait = some b) wp before)
    (c1 c2 : Nat) (g1 : Dccrg UserData) (hg1 : g1 ∈ w1) (hc1 : c1 ∈ g1.cells_to_refine)
    (gn : Dccrg UserData) (hgn : gn ∈ w1) (hleaf2 : gn.is_leaf c2)
    (hlvl : gn.index.get_refinement_level c2 = gn.index.get_refinement_level c1)
    (hnbr : c2 ∈ gn.find_neighbors_of c1 1 false) :
    (∃ gp, gp ∈ wp) ∧
    ∀ gp ∈ wp, gp.index = gn.index ∧ c1 ∈ gp.cells_to_refine ∧
      (gn.index.children_of c1).length = 8 ∧
      ∀ u ∈ gp.cells_to_unrefine,
        c2 ∉ gn.index.children_of (gn.index.get_parent_for_removed u) ∧
        ∀ x ∈ gn.index.children_of c1,
          x ∉ gn.index.children_of (gn.index.get_parent_for_removed u) := by
  have hinv := consistent_grid_invariant w0 hcons hnp
  obtain ⟨hcp, hleaves⟩ :=
    prepared_refines_leaves w0 w1 wp requests before hcons hnp hreq hwp hb1
  have r01 := forall₂_with_mem _ _ (make_requests_spec requests w0 w1 hreq)
  have hc1w : consistent w1 := consistent_of_same_but_requests w0 w1
    (forall₂_imp (fun _ _ h => h.2.1) _ _ r01) hcons
  obtain ⟨r1p, hR, hU⟩ := refines_prepared_spec w1 wp (fun g hg => (hc1w.2.1 g hg).2.1.1)
    (fun g hg => (hc1w.2.1 g hg).1) hwp
  have hCU : ∀ gp ∈ wp, ∀ u ∈ gp.cells_to_unrefine, map_has gp.cell_process u = true ∧
      gp.index.get_refinement_level u ≠ 0 ∧
      ∀ s ∈ gp.index.children_of (gp.index.get_parent_for_removed u),
        (∀ x ∈ gp.index.children_of s, map_has gp.cell_process x = false) ∧
        s ∉ gp.cells_to_refine := by
    intro gp hgp
    obtain ⟨g1, hg1, a2, _⟩ := forall₂_mem_right _ _ r1p gp hgp
    obtain ⟨g0, _, ⟨hg0, _⟩, a1, _⟩ := forall₂_mem_right _ _ r01 g1 hg1
    exact (prepared_unrefines_checked w0 w1 wp requests hinv hreq hwp g0 g1 gp hg0 hgp
      a1 a2).2.2
  -- every process of `wp` and of `w1` holds the grid of `gn`
  have hgridp : ∀ gp ∈ wp, gp.index = gn.index ∧
      ∀ c, map_has gp.cell_process c = map_has gn.cell_process c := by
    intro gp hgp
    obtain ⟨g1', hg1', a2, _⟩ := forall₂_mem_right _ _ r1p gp hgp
    obtain ⟨i1, _, _, _, i5⟩ := same_but_requests_grid a2
    obtain ⟨j1, _, _, j4⟩ := world_same_grid hc1w hgn hg1'
    exact ⟨i1.trans j1, fun c => (i5 c).trans (j4 c)⟩
  -- `c1` is in the refine set of every process
  have hc1p : ∀ gp ∈ wp, c1 ∈ gp.cells_to_refine := by
    obtain ⟨gp1, hgp1, _, _, a3⟩ := forall₂_mem_left _ _ r1p g1 hg1
    exact (hR gp1 hgp1 c1 (a3 c1 hc1)).1
  obtain ⟨_, hfitn, hinvn, _⟩ := hc1w.2.1 gn hgn
  have hleaf1 := find_neighbors_of_leaf gn c1 c2 hnbr
  obtain ⟨v1, v2⟩ := hinvn.1 c1 ((mem_map_keys _ _).2 hleaf1.1)
  obtain ⟨w1', w2'⟩ := hinvn.1 c2 ((mem_map_keys _ _).2 hleaf2.1)
  obtain ⟨hl0, _⟩ := level_of_valid hfitn v1 v2
  obtain ⟨l, hl⟩ := Int.eq_ofNat_of_zero_le hl0
  -- the neighbourhood of `gn`
  have hnbn : gn.neighborhood_size < 2 ^ 31 ∧
      gn.neighborhood_of = make_neighborhood_of gn.neighborhood_size := by
    obtain ⟨g0, _, ⟨hg0, _⟩, a1, _⟩ := forall₂_mem_right _ _ r01 gn hgn
    obtain ⟨_, _, i3, i4, _⟩ := same_but_requests_grid a1
    rw [i3, i4]
    exact hnbh g0 hg0
  refine ⟨by
    obtain ⟨gp1, hgp1, _⟩ := forall₂_mem_left _ _ r1p g1 hg1
    exact ⟨gp1, hgp1⟩, ?_⟩
  intro gp hgp
  obtain ⟨hixp, hhasp⟩ := hgridp gp hgp
  obtain ⟨k1, k2, k3, _⟩ := hleaves gp hgp c1 (hc1p gp hgp)
  rw [hixp] at k2 k3
  refine ⟨hixp, hc1p gp hgp, (children_of_length hfitn v1 v2 k3).1, ?_⟩
  intro u hu
  obtain ⟨u1, u2, u3⟩ := hCU gp hgp u hu
  rw [hixp] at u2 u3
  rw [hhasp] at u1
  obtain ⟨uv1, uv2⟩ := hinvn.1 u ((mem_map_keys _ _).2 u1)
  obtain ⟨p1, p2, p3, p4⟩ := mem_children_of_parent hfitn uv1 uv2 u2
  constructor
  · intro hn
    obtain ⟨q1, q2, _, _, _⟩ := children_of_facts hfitn p3 p4 hn
    obtain ⟨pl0, _⟩ := level_of_valid hfitn p3 p4
    have hl2 : gn.index.get_refinement_level c2 = (l : Int) := by rw [hlvl, hl]
    have hl1 : 1 ≤ l := by omega
    -- the process that requested the unrefine
    obtain ⟨_, g, hg, _, A, B⟩ := hU gp hgp u hu
    obtain ⟨j1, j2, j3, j4⟩ := world_same_grid hc1w hgn hg
    obtain ⟨_, hfitg, hinvg, _⟩ := hc1w.2.1 g hg
    obtain ⟨e1, e2⟩ := get_parent_eq g hfitg hinvg (by rw [j4]; exact u1)
    rw [j1] at e1 e2
    rw [e1] at A B
    rcases neighbor_in_parent_neighborhood gn hfitn hinvn hnbn.1 hnbn.2 c1 c2 l hl1 hl hl2
      hleaf1 hleaf2.1 hnbr with h | h
    · rw [q2] at h
      rw [get_all_children_of_has g (by omega) e2, j1] at A
      exact A c1 h (hc1p gp hgp)
    · rw [q2] at h
      rw [find_neighbors_of_same_grid gn g j1 j2 j3 j4, j1] at B
      exact B c1 h ⟨by rw [hl, ← hl2, q1], hc1p gp hgp⟩
  · intro x hx hn
    have := children_of_parent_unique hfitn v1 v2 p3 p4 hx hn
    rw [← this] at p1
    have := k2 u p1
    rw [hhasp, u1] at this
    exact Bool.noConfusion this

end dccrg
namespace dccrg
open Index Dccrg
variable {UserData : Type}

theorem map_set_idem {V : Type} (m : umap V) (k : Nat) (v : V) :
    map_set (map_set m k v) k v = map_set m k v := by
  induction m with
  | nil => simp [map_set]
  | cons a t ih =>
    obtain ⟨k', v'⟩ := a
    by_cases h : k' = k
    · simp [map_set, h]
    · simp [map_set, h, ih]

end dccrg
namespace dccrg
open Index Dccrg
variable {UserData : Type}

theorem remote_neighbor_info_loop_spec (g : Dccrg UserData) (cell : Nat) (skip : Bool)
    (list : List Nat) (sets sets' : uset × uset)
    (h : g.remote_neighbor_info_loop cell skip list sets = some sets') :
    (∀ k, k ∈ sets'.1 ↔ k ∈ sets.1 ∨
      (k = cell ∧ ∃ n ∈ list, ¬ (skip = true ∧ n = 0) ∧ g.is_remote n)) ∧
    (∀ k, k ∈ sets'.2 ↔ k ∈ sets.2 ∨
      (k ∈ list ∧ ¬ (skip = true ∧ k = 0) ∧ g.is_remote k)) ∧
    ∀ n ∈ list, ¬ (skip = true ∧ n = 0) → map_has g.cell_process n = true := by
  refine foldlM_invariant _
    (fun done (s : uset × uset) =>
      (∀ k, k ∈ s.1 ↔ k ∈ sets.1 ∨
        (k = cell ∧ ∃ n ∈ done, ¬ (skip = true ∧ n = 0) ∧ g.is_remote n)) ∧
      (∀ k, k ∈ s.2 ↔ k ∈ sets.2 ∨ (k ∈ done ∧ ¬ (skip = true ∧ k = 0) ∧ g.is_remote k)) ∧
      ∀ n ∈ done, ¬ (skip = true ∧ n = 0) → map_has g.cell_process n = true)
    list sets sets' ?_ ?_ h
  · simp
  · intro done a s s' ih _ hs
    obtain ⟨i1, i2, i3⟩ := ih
    simp only at hs
    by_cases hz : skip = true ∧ a = 0
    · rw [if_pos hz] at hs
      cases hs
      refine ⟨fun k => ?_, fun k => ?_, fun n hn hn0 => ?_⟩
      · rw [i1 k]
        constructor
        · rintro (h | ⟨h, n, hn, h1, h2⟩)
          · exact Or.inl h
          · exact Or.inr ⟨h, n, List.mem_append_left _ hn, h1, h2⟩
        · rintro (h | ⟨h, n, hn, h1, h2⟩)
          · exact Or.inl h
          · rcases List.mem_append.1 hn with hn | hn
            · exact Or.inr ⟨h, n, hn, h1, h2⟩
            · rw [List.mem_singleton] at hn
              subst hn
              exact absurd hz h1
      · rw [i2 k]
        constructor
        · rintro (h | ⟨hn, h1, h2⟩)
          · exact Or.inl h
          · exact Or.inr ⟨List.mem_append_left _ hn, h1, h2⟩
        · rintro (h | ⟨hn, h1, h2⟩)
          · exact Or.inl h
          · rcases List.mem_append.1 hn with hn | hn
            · exact Or.inr ⟨hn, h1, h2⟩
            · rw [List.mem_singleton] at hn
              subst hn
              exact absurd hz h1
      · rcases List.mem_append.1 hn with hn | hn
        · exact i3 n hn hn0
        · rw [List.mem_singleton] at hn
          subst hn
          exact absurd hz hn0
    · rw [if_neg hz] at hs
      cases hp : map_find g.cell_process a with
      | none => rw [hp] at hs; cases hs
      | some p =>
        rw [hp] at hs
        simp only at hs
        have hhas : map_has g.cell_process a = true := (map_has_iff _ _).2 ⟨p, hp⟩
        have h3 : ∀ n ∈ done ++ [a], ¬ (skip = true ∧ n = 0) →
            map_has g.cell_process n = true := by
          intro n hn hn0
          rcases List.mem_append.1 hn with hn | hn
          · exact i3 n hn hn0
          · rw [List.mem_singleton] at hn
            subst hn
            exact hhas
        by_cases hr : p ≠ g.rank
        · rw [if_pos hr] at hs
          cases hs
          refine ⟨fun k => ?_, fun k => ?_, h3⟩
          · rw [mem_set_insert, i1 k]
            constructor
            · rintro ((h | ⟨h, n, hn, h1, h2⟩) | h)
              · exact Or.inl h
              · exact Or.inr ⟨h, n, List.mem_append_left _ hn, h1, h2⟩
              · exact Or.inr ⟨h, a, by simp, hz, p, hp, hr⟩
            · rintro (h | ⟨h, n, hn, h1, h2⟩)
              · exact Or.inl (Or.inl h)
              · exact Or.inr h
          · rw [mem_set_insert, i2 k]
            constructor
            · rintro ((h | ⟨hn, h1, h2⟩) | h)
              · exact Or.inl h
              · exact Or.inr ⟨List.mem_append_left _ hn, h1, h2⟩
              · subst h
                exact Or.inr ⟨by simp, hz, p, hp, hr⟩
            · rintro (h | ⟨hn, h1, h2⟩)
              · exact Or.inl (Or.inl h)
              · rcases List.mem_append.1 hn with hn | hn
                · exact Or.inl (Or.inr ⟨hn, h1, h2⟩)
                · rw [List.mem_singleton] at hn
                  exact Or.inr hn
        · rw [if_neg hr] at hs
          cases hs
          have hnot : ¬ g.is_remote a := by
            rintro ⟨p', hp', hne⟩
            rw [hp] at hp'
            cases hp'
            exact hr hne
          refine ⟨fun k => ?_, fun k => ?_, h3⟩
          · rw [i1 k]
            constructor
            · rintro (h | ⟨h, n, hn, h1, h2⟩)
              · exact Or.inl h
              · exact Or.inr ⟨h, n, List.mem_append_left _ hn, h1, h2⟩
            · rintro (h | ⟨h, n, hn, h1, h2⟩)
              · exact Or.inl h
              · rcases List.mem_append.1 hn with hn | hn
                · exact Or.inr ⟨h, n, hn, h1, h2⟩
                · rw [List.mem_singleton] at hn
                  subst hn
                  exact absurd h2 hnot
          · rw [i2 k]
            constructor
            · rintro (h | ⟨hn, h1, h2⟩)
              · exact Or.inl h
              · exact Or.inr ⟨List.mem_append_left _ hn, h1, h2⟩
            · rintro (h | ⟨hn, h1, h2⟩)
              · exact Or.inl h
              · rcases List.mem_append.1 hn with hn | hn
                · exact Or.inr ⟨hn, h1, h2⟩
                · rw [List.mem_singleton] at hn
                  subst hn
                  exact absurd h2 hnot

theorem remote_neighbor_info_of_spec (g : Dccrg UserData) (cell : Nat)
    (sets sets' : uset × uset) (hc : map_has g.cells cell = true)
    (hl : g.get_child cell = cell) (h : g.remote_neighbor_info_of cell sets = some sets') :
    (∃ neighbors_of neighbors_to, map_find g.neighbors cell = some neighbors_of ∧
      map_find g.neighbors_to cell = some neighbors_to ∧
      (∀ n ∈ neighbors_of, n ≠ 0 → map_has g.cell_process n = true) ∧
      ∀ n ∈ neighbors_to, map_has g.cell_process n = true) ∧
    (∀ k, k ∈ sets'.1 ↔ (k ∈ sets.1 ∧ k ≠ cell) ∨ (k = cell ∧ g.has_remote_neighbor cell)) ∧
    ∀ k, k ∈ sets'.2 ↔ k ∈ sets.2 ∨
      ∃ neighbors_of neighbors_to, map_find g.neighbors cell = some neighbors_of ∧
        map_find g.neighbors_to cell = some neighbors_to ∧
        ((k ∈ neighbors_of ∧ k ≠ 0) ∨ k ∈ neighbors_to) ∧ g.is_remote k := by
  unfold remote_neighbor_info_of at h
  rw [if_neg (by simp [hc]), if_neg (by simp [hl])] at h
  cases ho : map_find g.neighbors cell with
  | none => rw [ho] at h; cases h
  | some lo =>
    cases ht : map_find g.neighbors_to cell with
    | none => rw [ho, ht] at h; cases h
    | some lt =>
      rw [ho, ht] at h
      simp only at h
      cases hm : g.remote_neighbor_info_loop cell true lo (set_erase sets.1 cell, sets.2) with
      | none => rw [hm] at h; cases h
      | some mid =>
        rw [hm] at h
        simp only [Option.some_bind] at h
        obtain ⟨a1, a2, a3⟩ := remote_neighbor_info_loop_spec g cell true lo _ mid hm
        obtain ⟨b1, b2, b3⟩ := remote_neighbor_info_loop_spec g cell false lt mid sets' h
        refine ⟨⟨lo, lt, rfl, rfl, fun n hn hn0 => a3 n hn (fun hh => hn0 hh.2),
          fun n hn => b3 n hn (by simp)⟩, fun k => ?_, fun k => ?_⟩
        · rw [b1 k, a1 k, mem_set_erase]
          constructor
          · rintro ((h | ⟨h, n, hn, h1, h2⟩) | ⟨h, n, hn, _, h2⟩)
            · exact Or.inl h
            · exact Or.inr ⟨h, lo, lt, ho, ht, Or.inl ⟨n, hn, fun hh => h1 ⟨rfl, hh⟩, h2⟩⟩
            · exact Or.inr ⟨h, lo, lt, ho, ht, Or.inr ⟨n, hn, h2⟩⟩
          · rintro (h | ⟨h, lo', lt', ho', ht', hh⟩)
            · exact Or.inl (Or.inl h)
            · rw [ho] at ho'
              rw [ht] at ht'
              cases ho'
              cases ht'
              rcases hh with ⟨n, hn, h1, h2⟩ | ⟨n, hn, h2⟩
              · exact Or.inl (Or.inr ⟨h, n, hn, fun hh => h1 hh.2, h2⟩)
              · exact Or.inr ⟨h, n, hn, by simp, h2⟩
        · rw [b2 k, a2 k]
          constructor
          · rintro ((h | ⟨hn, h1, h2⟩) | ⟨hn, _, h2⟩)
            · exact Or.inl h
            · exact Or.inr ⟨lo, lt, rfl, rfl, Or.inl ⟨hn, fun hh => h1 ⟨rfl, hh⟩⟩, h2⟩
            · exact Or.inr ⟨lo, lt, rfl, rfl, Or.inr hn, h2⟩
          · rintro (h | ⟨lo', lt', ho', ht', hh, h2⟩)
            · exact Or.inl (Or.inl h)
            · cases ho'
              cases ht'
              rcases hh with ⟨hn, h1⟩ | hn
              · exact Or.inl (Or.inr ⟨hn, fun hh => h1 hh.2, h2⟩)
              · exact Or.inr ⟨hn, by simp, h2⟩

theorem update_remote_neighbor_info_spec (g g1 : Dccrg UserData)
    (h : g.update_remote_neighbor_info = some g1) :
    (∃ sets : uset × uset, g1 = { g with
      cells_with_remote_neighbors := sets.1
      remote_cells_with_local_neighbors := sets.2 }) ∧
    (∀ c ∈ map_keys g.cells, g.get_child c = c →
      ∃ neighbors_of neighbors_to, map_find g.neighbors c = some neighbors_of ∧
        map_find g.neighbors_to c = some neighbors_to ∧
        (∀ n ∈ neighbors_of, n ≠ 0 → map_has g.cell_process n = true) ∧
        ∀ n ∈ neighbors_to, map_has g.cell_process n = true) ∧
    (∀ k, k ∈ g1.cells_with_remote_neighbors ↔
      k ∈ map_keys g.cells ∧ g.get_child k = k ∧ g.has_remote_neighbor k) ∧
    ∀ k, k ∈ g1.remote_cells_with_local_neighbors ↔
      ∃ c ∈ map_keys g.cells, g.get_child c = c ∧
        ∃ neighbors_of neighbors_to, map_find g.neighbors c = some neighbors_of ∧
          map_find g.neighbors_to c = some neighbors_to ∧
          ((k ∈ neighbors_of ∧ k ≠ 0) ∨ k ∈ neighbors_to) ∧ g.is_remote k := by
  unfold update_remote_neighbor_info at h
  cases hf : (map_keys g.cells).foldlM
      (fun sets cell =>
        if cell ≠ g.get_child cell then some sets
        else g.remote_neighbor_info_of cell sets)
      (([], []) : uset × uset) with
  | none => rw [hf] at h; cases h
  | some sets =>
    rw [hf] at h
    simp only [Option.map_some', Option.some.injEq] at h
    have inv := foldlM_invariant _
      (fun done (s : uset × uset) =>
        (∀ c ∈ done, g.get_child c = c →
          ∃ neighbors_of neighbors_to, map_find g.neighbors c = some neighbors_of ∧
            map_find g.neighbors_to c = some neighbors_to ∧
            (∀ n ∈ neighbors_of, n ≠ 0 → map_has g.cell_process n = true) ∧
            ∀ n ∈ neighbors_to, map_has g.cell_process n = true) ∧
        (∀ k, k ∈ s.1 ↔ k ∈ done ∧ g.get_child k = k ∧ g.has_remote_neighbor k) ∧
        ∀ k, k ∈ s.2 ↔
          ∃ c ∈ done, g.get_child c = c ∧
            ∃ neighbors_of neighbors_to, map_find g.neighbors c = some neighbors_of ∧
              map_find g.neighbors_to c = some neighbors_to ∧
              ((k ∈ neighbors_of ∧ k ≠ 0) ∨ k ∈ neighbors_to) ∧ g.is_remote k)
      (map_keys g.cells) ([], []) sets (by simp) ?_ hf
    · subst h
      exact ⟨⟨sets, rfl⟩, inv.1, inv.2.1, inv.2.2⟩
    · intro done a s s' ih ha hs
      obtain ⟨i1, i2, i3⟩ := ih
      simp only at hs
      by_cases hl : a ≠ g.get_child a
      · rw [if_pos hl] at hs
        cases hs
        refine ⟨fun c hc hcl => ?_, fun k => ?_, fun k => ?_⟩
        · rcases List.mem_append.1 hc with hc | hc
          · exact i1 c hc hcl
          · rw [List.mem_singleton] at hc
            subst hc
            exact absurd hcl.symm hl
        · rw [i2 k]
          constructor
          · rintro ⟨h1, h2, h3⟩
            exact ⟨List.mem_append_left _ h1, h2, h3⟩
          · rintro ⟨h1, h2, h3⟩
            rcases List.mem_append.1 h1 with h1 | h1
            · exact ⟨h1, h2, h3⟩
            · rw [List.mem_singleton] at h1
              subst h1
              exact absurd h2.symm hl
        · rw [i3 k]
          constructor
          · rintro ⟨c, h1, h2⟩
            exact ⟨c, List.mem_append_left _ h1, h2⟩
          · rintro ⟨c, h1, h2⟩
            rcases List.mem_append.1 h1 with h1 | h1
            · exact ⟨c, h1, h2⟩
            · rw [List.mem_singleton] at h1
              subst h1
              exact absurd h2.1.symm hl
      · rw [if_neg hl] at hs
        have hl' : g.get_child a = a := by
          by_contra hh
          exact hl (fun e => hh e.symm)
        obtain ⟨e1, e2, e3⟩ := remote_neighbor_info_of_spec g a s s'
          ((mem_map_keys _ _).1 ha) hl' hs
        refine ⟨fun c hc hcl => ?_, fun k => ?_, fun k => ?_⟩
        · rcases List.mem_append.1 hc with hc | hc
          · exact i1 c hc hcl
          · rw [List.mem_singleton] at hc
            subst hc
            exact e1
        · rw [e2 k, i2 k]
          constructor
          · rintro (⟨⟨h1, h2, h3⟩, _⟩ | ⟨h1, h2⟩)
            · exact ⟨List.mem_append_left _ h1, h2, h3⟩
            · subst h1
              exact ⟨by simp, hl', h2⟩
          · rintro ⟨h1, h2, h3⟩
            by_cases hk : k = a
            · subst hk
              exact Or.inr ⟨rfl, h3⟩
            · rcases List.mem_append.1 h1 with h1 | h1
              · exact Or.inl ⟨⟨h1, h2, h3⟩, hk⟩
              · rw [List.mem_singleton] at h1
                exact absurd h1 hk
        · rw [e3 k, i3 k]
          constructor
          · rintro (⟨c, h1, h2⟩ | h)
            · exact ⟨c, List.mem_append_left _ h1, h2⟩
            · exact ⟨a, by simp, hl', h⟩
          · rintro ⟨c, h1, h2, h3⟩
            rcases List.mem_append.1 h1 with h1 | h1
            · exact Or.inl ⟨c, h1, h2, h3⟩
            · rw [List.mem_singleton] at h1
              subst h1
              exact Or.inr h3


theorem mem_map_set_insert (m : umap uset) (p c q k : Nat) :
    k ∈ (map_find (map_set_insert m p c) q).getD [] ↔
      k ∈ (map_find m q).getD [] ∨ (p = q ∧ k = c) := by
  unfold map_set_insert
  rw [map_find_set]
  by_cases hpq : p = q
  · subst hpq
    simp [mem_set_insert]
  · simp [hpq]

theorem map_set_insert_nodup (m : umap uset) (p c : Nat)
    (h : ∀ q, ((map_find m q).getD []).Nodup) :
    ∀ q, ((map_find (map_set_insert m p c) q).getD []).Nodup := by
  intro q
  unfold map_set_insert
  rw [map_find_set]
  by_cases hpq : p = q
  · subst hpq
    simpa using set_insert_nodup _ c (h p)
  · simpa [hpq] using h q

theorem receive_loop_spec (g : Dccrg UserData) (list : List Nat) (m m' : umap uset)
    (hnd : ∀ q, ((map_find m q).getD []).Nodup)
    (h : list.foldlM
      (fun (receive : umap uset) neighbor =>
        if neighbor = 0 then some receive
        else
          match map_find g.cell_process neighbor with
          | none => none
          | some process =>
            if process ≠ g.rank then some (map_set_insert receive process neighbor)
            else some receive)
      m = some m') :
    (∀ q, ((map_find m' q).getD []).Nodup) ∧
    ∀ q k, k ∈ (map_find m' q).getD [] ↔ k ∈ (map_find m q).getD [] ∨
      (k ∈ list ∧ k ≠ 0 ∧ map_find g.cell_process k = some q ∧ q ≠ g.rank) := by
  refine foldlM_invariant _
    (fun done (s : umap uset) =>
      (∀ q, ((map_find s q).getD []).Nodup) ∧
      ∀ q k, k ∈ (map_find s q).getD [] ↔ k ∈ (map_find m q).getD [] ∨
        (k ∈ done ∧ k ≠ 0 ∧ map_find g.cell_process k = some q ∧ q ≠ g.rank))
    list m m' ⟨hnd, by simp⟩ ?_ h
  intro done a s s' ih _ hs
  obtain ⟨i1, i2⟩ := ih
  simp only at hs
  have keep : ¬ (a ≠ 0 ∧ ∃ q, map_find g.cell_process a = some q ∧ q ≠ g.rank) →
      ∀ q k, k ∈ (map_find s q).getD [] ↔ k ∈ (map_find m q).getD [] ∨
        (k ∈ done ++ [a] ∧ k ≠ 0 ∧ map_find g.cell_process k = some q ∧ q ≠ g.rank) := by
    intro hno q k
    rw [i2 q k]
    constructor
    · rintro (h | ⟨h1, h2⟩)
      · exact Or.inl h
      · exact Or.inr ⟨List.mem_append_left _ h1, h2⟩
    · rintro (h | ⟨h1, h2, h3, h4⟩)
      · exact Or.inl h
      · rcases List.mem_append.1 h1 with h1 | h1
        · exact Or.inr ⟨h1, h2, h3, h4⟩
        · rw [List.mem_singleton] at h1
          subst h1
          exact absurd ⟨h2, q, h3, h4⟩ hno
  by_cases hz : a = 0
  · rw [if_pos hz] at hs
    cases hs
    exact ⟨i1, keep (fun hh => hh.1 hz)⟩
  · rw [if_neg hz] at hs
    cases hp : map_find g.cell_process a with
    | none => rw [hp] at hs; cases hs
    | some p =>
      rw [hp] at hs
      simp only at hs
      by_cases hr : p ≠ g.rank
      · rw [if_pos hr] at hs
        cases hs
        refine ⟨map_set_insert_nodup _ _ _ i1, fun q k => ?_⟩
        rw [mem_map_set_insert, i2 q k]
        constructor
        · rintro ((h | ⟨h1, h2⟩) | ⟨h1, h2⟩)
          · exact Or.inl h
          · exact Or.inr ⟨List.mem_append_left _ h1, h2⟩
          · subst h1 h2
            exact Or.inr ⟨by simp, hz, hp, hr⟩
        · rintro (h | ⟨h1, h2, h3, h4⟩)
          · exact Or.inl (Or.inl h)
          · rcases List.mem_append.1 h1 with h1 | h1
            · exact Or.inl (Or.inr ⟨h1, h2, h3, h4⟩)
            · rw [List.mem_singleton] at h1
              subst h1
              rw [hp] at h3
              cases h3
              exact Or.inr ⟨rfl, rfl⟩
      · rw [if_neg hr] at hs
        cases hs
        refine ⟨i1, keep ?_⟩
        rintro ⟨_, q, hq, hne⟩
        rw [hp] at hq
        cases hq
        exact hr hne

theorem send_loop_spec (g : Dccrg UserData) (cell : Nat) (list : List Nat)
    (m m' : umap uset) (hnd : ∀ q, ((map_find m q).getD []).Nodup)
    (h : list.foldlM
      (fun (send : umap uset) neighbor =>
        if neighbor = 0 then some send
        else
          match map_find g.cell_process neighbor with
          | none => none
          | some process =>
            if process ≠ g.rank then some (map_set_insert send process cell)
            else some send)
      m = some m') :
    (∀ q, ((map_find m' q).getD []).Nodup) ∧
    ∀ q k, k ∈ (map_find m' q).getD [] ↔ k ∈ (map_find m q).getD [] ∨
      (k = cell ∧ ∃ n ∈ list, n ≠ 0 ∧ map_find g.cell_process n = some q ∧ q ≠ g.rank) := by
  refine foldlM_invariant _
    (fun done (s : umap uset) =>
      (∀ q, ((map_find s q).getD []).Nodup) ∧
      ∀ q k, k ∈ (map_find s q).getD [] ↔ k ∈ (map_find m q).getD [] ∨
        (k = cell ∧ ∃ n ∈ done, n ≠ 0 ∧ map_find g.cell_process n = some q ∧ q ≠ g.rank))
    list m m' ⟨hnd, by simp⟩ ?_ h
  intro done a s s' ih _ hs
  obtain ⟨i1, i2⟩ := ih
  simp only at hs
  have keep : ¬ (a ≠ 0 ∧ ∃ q, map_find g.cell_process a = some q ∧ q ≠ g.rank) →
      ∀ q k, k ∈ (map_find s q).getD [] ↔ k ∈ (map_find m q).getD [] ∨
        (k = cell ∧ ∃ n ∈ done ++ [a], n ≠ 0 ∧ map_find g.cell_process n = some q ∧
          q ≠ g.rank) := by
    intro hno q k
    rw [i2 q k]
    constructor
    · rintro (h | ⟨h0, n, h1, h2⟩)
      · exact Or.inl h
      · exact Or.inr ⟨h0, n, List.mem_append_left _ h1, h2⟩
    · rintro (h | ⟨h0, n, h1, h2, h3, h4⟩)
      · exact Or.inl h
      · rcases List.mem_append.1 h1 with h1 | h1
        · exact Or.inr ⟨h0, n, h1, h2, h3, h4⟩
        · rw [List.mem_singleton] at h1
          subst h1
          exact absurd ⟨h2, q, h3, h4⟩ hno
  by_cases hz : a = 0
  · rw [if_pos hz] at hs
    cases hs
    exact ⟨i1, keep (fun hh => hh.1 hz)⟩
  · rw [if_neg hz] at hs
    cases hp : map_find g.cell_process a with
    | none => rw [hp] at hs; cases hs
    | some p =>
      rw [hp] at hs
      simp only at hs
      by_cases hr : p ≠ g.rank
      · rw [if_pos hr] at hs
        cases hs
        refine ⟨map_set_insert_nodup _ _ _ i1, fun q k => ?_⟩
        rw [mem_map_set_insert, i2 q k]
        constructor
        · rintro ((h | ⟨h0, n, h1, h2⟩) | ⟨h1, h2⟩)
          · exact Or.inl h
          · exact Or.inr ⟨h0, n, List.mem_append_left _ h1, h2⟩
          · subst h1
            exact Or.inr ⟨h2, a, by simp, hz, hp, hr⟩
        · rintro (h | ⟨h0, n, h1, h2, h3, h4⟩)
          · exact Or.inl (Or.inl h)
          · rcases List.mem_append.1 h1 with h1 | h1
            · exact Or.inl (Or.inr ⟨h0, n, h1, h2, h3, h4⟩)
            · rw [List.mem_singleton] at h1
              subst h1
              rw [hp] at h3
              cases h3
              exact Or.inr ⟨rfl, h0⟩
      · rw [if_neg hr] at hs
        cases hs
        refine ⟨i1, keep ?_⟩
        rintro ⟨_, q, hq, hne⟩
        rw [hp] at hq
        cases hq
        exact hr hne

theorem unique_cells_to_send_receive_spec (g : Dccrg UserData)
    (acc : umap uset × umap uset) (h : g.unique_cells_to_send_receive = some acc) :
    (∀ q, ((map_find acc.1 q).getD []).Nodup) ∧ (∀ q, ((map_find acc.2 q).getD []).Nodup) ∧
    (∀ q k, k ∈ (map_find acc.1 q).getD [] ↔
      k ∈ g.cells_with_remote_neighbors ∧ ∃ neighbors_to,
        map_find g.neighbors_to k = some neighbors_to ∧
        ∃ n ∈ neighbors_to, n ≠ 0 ∧ map_find g.cell_process n = some q ∧ q ≠ g.rank) ∧
    ∀ q k, k ∈ (map_find acc.2 q).getD [] ↔
      ∃ c ∈ g.cells_with_remote_neighbors, ∃ neighbors_of,
        map_find g.neighbors c = some neighbors_of ∧ k ∈ neighbors_of ∧ k ≠ 0 ∧
        map_find g.cell_process k = some q ∧ q ≠ g.rank := by
  unfold unique_cells_to_send_receive at h
  refine foldlM_invariant _
    (fun done (s : umap uset × umap uset) =>
      (∀ q, ((map_find s.1 q).getD []).Nodup) ∧ (∀ q, ((map_find s.2 q).getD []).Nodup) ∧
      (∀ q k, k ∈ (map_find s.1 q).getD [] ↔
        k ∈ done ∧ ∃ neighbors_to,
          map_find g.neighbors_to k = some neighbors_to ∧
          ∃ n ∈ neighbors_to, n ≠ 0 ∧ map_find g.cell_process n = some q ∧ q ≠ g.rank) ∧
      ∀ q k, k ∈ (map_find s.2 q).getD [] ↔
        ∃ c ∈ done, ∃ neighbors_of,
          map_find g.neighbors c = some neighbors_of ∧ k ∈ neighbors_of ∧ k ≠ 0 ∧
          map_find g.cell_process k = some q ∧ q ≠ g.rank)
    g.cells_with_remote_neighbors ([], []) acc ?_ ?_ h
  · simp [map_find]
  · intro done a s s' ih _ hs
    obtain ⟨i1, i2, i3, i4⟩ := ih
    simp only at hs
    cases ho : map_find g.neighbors a with
    | none => rw [ho] at hs; cases hs
    | some lo =>
      cases ht : map_find g.neighbors_to a with
      | none => rw [ho, ht] at hs; cases hs
      | some lt =>
        rw [ho, ht] at hs
        simp only at hs
        obtain ⟨receive, hrec, hs⟩ := Option.bind_eq_some.1 hs
        obtain ⟨send, hsend, hs⟩ := Option.map_eq_some'.1 hs
        subst hs
        obtain ⟨r1, r2⟩ := receive_loop_spec g lo s.2 receive i2 hrec
        obtain ⟨s1, s2⟩ := send_loop_spec g a lt s.1 send i1 hsend
        refine ⟨s1, r1, fun q k => ?_, fun q k => ?_⟩
        · rw [s2 q k, i3 q k]
          constructor
          · rintro (⟨h1, h2⟩ | ⟨h1, h2⟩)
            · exact ⟨List.mem_append_left _ h1, h2⟩
            · subst h1
              exact ⟨by simp, lt, ht, h2⟩
          · rintro ⟨h1, lt', ht', h2⟩
            by_cases hk : k = a
            · subst hk
              rw [ht] at ht'
              cases ht'
              exact Or.inr ⟨rfl, h2⟩
            · rcases List.mem_append.1 h1 with h1 | h1
              · exact Or.inl ⟨h1, lt', ht', h2⟩
              · rw [List.mem_singleton] at h1
                exact absurd h1 hk
        · rw [r2 q k, i4 q k]
          constructor
          · rintro (⟨c, h1, h2⟩ | h)
            · exact ⟨c, List.mem_append_left _ h1, h2⟩
            · exact ⟨a, by simp, lo, ho, h⟩
          · rintro ⟨c, h1, lo', ho', h2⟩
            rcases List.mem_append.1 h1 with h1 | h1
            · exact Or.inl ⟨c, h1, lo', ho', h2⟩
            · rw [List.mem_singleton] at h1
              subst h1
              rw [ho] at ho'
              cases ho'
              exact Or.inr h2

theorem map_find_map_values {V W : Type} (f : V → W) (m : umap V) (k : Nat) :
    map_find (m.map fun item => (item.1, f item.2)) k = (map_find m k).map f := by
  induction m with
  | nil => simp [map_find]
  | cons a t ih =>
    obtain ⟨k', v⟩ := a
    simp only [List.map_cons, map_find_cons]
    by_cases h : k' = k
    · simp [h]
    · simp [h, ih]

theorem sort_cells_sorted (l : List Nat) : (sort_cells l).Sorted (fun a b => a ≤ b) :=
  List.sorted_insertionSort (fun a b => a ≤ b) l

theorem sort_cells_strict (l : List Nat) (h : l.Nodup) :
    (sort_cells l).Sorted (fun a b => a < b) := by
  have h1 := sort_cells_sorted l
  have h2 : (sort_cells l).Nodup :=
    (List.perm_insertionSort (fun a b => a ≤ b) l).nodup_iff.2 h
  exact (List.Sorted.lt_of_le h1 h2)


theorem map_keys_set {V : Type} (m : umap V) (k : Nat) (v : V) :
    map_keys (map_set m k v) = if k ∈ map_keys m then map_keys m else map_keys m ++ [k] := by
  induction m with
  | nil => simp [map_set, map_keys]
  | cons a t ih =>
    obtain ⟨k', v'⟩ := a
    by_cases h : k' = k
    · subst h
      simp [map_set, map_keys]
    · have h' : ¬ k = k' := fun e => h e.symm
      unfold map_keys at ih
      by_cases hk : k ∈ List.map Prod.fst t
      · simp [map_set, map_keys, h, h', hk, ih]
      · simp [map_set, map_keys, h, h', hk, ih]

theorem map_keys_set_nodup {V : Type} (m : umap V) (k : Nat) (v : V)
    (h : (map_keys m).Nodup) : (map_keys (map_set m k v)).Nodup := by
  rw [map_keys_set]
  by_cases hk : k ∈ map_keys m
  · rw [if_pos hk]; exact h
  · rw [if_neg hk]
    exact List.nodup_append.2 ⟨h, List.nodup_singleton k, by
      intro a ha hb
      rw [List.mem_singleton] at hb
      subst hb
      exact hk ha⟩

theorem map_find_of_mem {V : Type} (m : umap V) (h : (map_keys m).Nodup) (k : Nat) (v : V)
    (hm : (k, v) ∈ m) : map_find m k = some v := by
  induction m with
  | nil => cases hm
  | cons a t ih =>
    obtain ⟨k', v'⟩ := a
    unfold map_keys at h ih
    rw [List.map_cons, List.nodup_cons] at h
    rw [map_find_cons]
    rcases List.mem_cons.1 hm with e | e
    · cases e
      simp
    · have hne : k' ≠ k := by
        intro e'
        subst e'
        exact h.1 (List.mem_map.2 ⟨(k', v), e, rfl⟩)
      simp only [hne, if_false]
      exact ih h.2 e

theorem mem_of_map_find {V : Type} (m : umap V) (k : Nat) (v : V)
    (h : map_find m k = some v) : (k, v) ∈ m := by
  induction m with
  | nil => simp [map_find] at h
  | cons a t ih =>
    obtain ⟨k', v'⟩ := a
    rw [map_find_cons] at h
    by_cases e : k' = k
    · simp only [e, if_true, Option.some.injEq] at h
      subst h
      subst e
      exact List.mem_cons_self _ _
    · simp only [e, if_false] at h
      exact List.mem_cons_of_mem _ (ih h)

theorem unique_cells_to_send_receive_keys (g : Dccrg UserData)
    (acc : umap uset × umap uset) (h : g.unique_cells_to_send_receive = some acc) :
    (map_keys acc.1).Nodup ∧ (map_keys acc.2).Nodup := by
  unfold unique_cells_to_send_receive at h
  refine foldlM_invariant _
    (fun _ (s : umap uset × umap uset) => (map_keys s.1).Nodup ∧ (map_keys s.2).Nodup)
    g.cells_with_remote_neighbors ([], []) acc ?_ ?_ h
  · simp [map_keys]
  · intro done a s s' ih _ hs
    simp only at hs
    cases ho : map_find g.neighbors a with
    | none => rw [ho] at hs; cases hs
    | some lo =>
      cases ht : map_find g.neighbors_to a with
      | none => rw [ho, ht] at hs; cases hs
      | some lt =>
        rw [ho, ht] at hs
        simp only at hs
        obtain ⟨receive, hrec, hs⟩ := Option.bind_eq_some.1 hs
        obtain ⟨send, hsend, hs⟩ := Option.map_eq_some'.1 hs
        subst hs
        constructor
        · refine foldlM_invariant _ (fun _ (m : umap uset) => (map_keys m).Nodup)
            lt s.1 send ih.1 ?_ hsend
          intro _ n m m' hm _ hstep
          simp only at hstep
          by_cases hz : n = 0
          · rw [if_pos hz] at hstep; cases hstep; exact hm
          · rw [if_neg hz] at hstep
            cases hp : map_find g.cell_process n with
            | none => rw [hp] at hstep; cases hstep
            | some p =>
              rw [hp] at hstep
              simp only at hstep
              by_cases hr : p ≠ g.rank
              · rw [if_pos hr] at hstep
                cases hstep
                exact map_keys_set_nodup _ _ _ hm
              · rw [if_neg hr] at hstep; cases hstep; exact hm
        · refine foldlM_invariant _ (fun _ (m : umap uset) => (map_keys m).Nodup)
            lo s.2 receive ih.2 ?_ hrec
          intro _ n m m' hm _ hstep
          simp only at hstep
          by_cases hz : n = 0
          · rw [if_pos hz] at hstep; cases hstep; exact hm
          · rw [if_neg hz] at hstep
            cases hp : map_find g.cell_process n with
            | none => rw [hp] at hstep; cases hstep
            | some p =>
              rw [hp] at hstep
              simp only at hstep
              by_cases hr : p ≠ g.rank
              · rw [if_pos hr] at hstep
                cases hstep
                exact map_keys_set_nodup _ _ _ hm
              · rw [if_neg hr] at hstep; cases hstep; exact hm

theorem map_keys_map_values {V W : Type} (f : V → W) (m : umap V) :
    map_keys (m.map fun item => (item.1, f item.2)) = map_keys m := by
  unfold map_keys
  rw [List.map_map]
  rfl

end dccrg
namespace dccrg
open Index Dccrg
variable {UserData : Type}

theorem mem_map_push (m : umap (List Nat)) (p c r x : Nat) :
    x ∈ (map_find (map_push m p c) r).getD [] ↔
      x ∈ (map_find m r).getD [] ∨ (p = r ∧ x = c) := by
  rw [map_find_push]
  by_cases h : p = r
  · subst h
    simp
  · simp [h]

theorem pin_loop_spec (cp : umap Nat) (cond : Nat × Int → Nat → Prop)
    [∀ a b, Decidable (cond a b)] (key : Nat × Int → Nat → Nat) (L : List (Nat × Int))
    (init acc : umap (List Nat) × uset)
    (h : L.foldlM
      (fun (acc : umap (List Nat) × uset) (pin_request : Nat × Int) =>
        match map_find cp pin_request.1 with
        | none => none
        | some current_process_of_cell =>
          if cond pin_request current_process_of_cell then
            some (map_push acc.1 (key pin_request current_process_of_cell) pin_request.1,
              set_insert acc.2 pin_request.1)
          else some acc)
      init = some acc) :
    ∀ r x, x ∈ (map_find acc.1 r).getD [] ↔ x ∈ (map_find init.1 r).getD [] ∨
      ∃ item ∈ L, ∃ cur, map_find cp item.1 = some cur ∧ cond item cur ∧
        key item cur = r ∧ item.1 = x := by
  refine foldlM_invariant _
    (fun done (s : umap (List Nat) × uset) =>
      ∀ r x, x ∈ (map_find s.1 r).getD [] ↔ x ∈ (map_find init.1 r).getD [] ∨
        ∃ item ∈ done, ∃ cur, map_find cp item.1 = some cur ∧ cond item cur ∧
          key item cur = r ∧ item.1 = x)
    L init acc (by simp) ?_ h
  intro done a s s' ih _ hs
  simp only at hs
  cases hp : map_find cp a.1 with
  | none => rw [hp] at hs; cases hs
  | some cur =>
    rw [hp] at hs
    simp only at hs
    by_cases hc : cond a cur
    · rw [if_pos hc] at hs
      cases hs
      intro r x
      rw [mem_map_push, ih r x]
      constructor
      · rintro ((h | ⟨item, h1, h2⟩) | ⟨h1, h2⟩)
        · exact Or.inl h
        · exact Or.inr ⟨item, List.mem_append_left _ h1, h2⟩
        · exact Or.inr ⟨a, by simp, cur, hp, hc, h1, h2.symm⟩
      · rintro (h | ⟨item, h1, cur', h2, h3, h4, h5⟩)
        · exact Or.inl (Or.inl h)
        · rcases List.mem_append.1 h1 with h1 | h1
          · exact Or.inl (Or.inr ⟨item, h1, cur', h2, h3, h4, h5⟩)
          · rw [List.mem_singleton] at h1
            subst h1
            rw [hp] at h2
            cases h2
            exact Or.inr ⟨h4, h5.symm⟩
    · rw [if_neg hc] at hs
      cases hs
      intro r x
      rw [ih r x]
      constructor
      · rintro (h | ⟨item, h1, h2⟩)
        · exact Or.inl h
        · exact Or.inr ⟨item, List.mem_append_left _ h1, h2⟩
      · rintro (h | ⟨item, h1, cur', h2, h3, h4, h5⟩)
        · exact Or.inl h
        · rcases List.mem_append.1 h1 with h1 | h1
          · exact Or.inr ⟨item, h1, cur', h2, h3, h4, h5⟩
          · rw [List.mem_singleton] at h1
            subst h1
            rw [hp] at h2
            cases h2
            exact absurd h3 hc

theorem zoltan_loop_spec (c1 c2 : Nat × Int → Prop) [DecidablePred c1] [DecidablePred c2]
    (L : List (Nat × Int)) (init : umap (List Nat) × uset) :
    ∀ r x, x ∈ (map_find (L.foldl
      (fun (acc : umap (List Nat) × uset) (item : Nat × Int) =>
        if c1 item then acc
        else if c2 item then acc
        else (map_push acc.1 item.2.toNat item.1, set_insert acc.2 item.1))
      init).1 r).getD [] ↔ x ∈ (map_find init.1 r).getD [] ∨
      ∃ item ∈ L, ¬ c1 item ∧ ¬ c2 item ∧ item.2.toNat = r ∧ item.1 = x := by
  refine foldl_invariant _
    (fun done (s : umap (List Nat) × uset) =>
      ∀ r x, x ∈ (map_find s.1 r).getD [] ↔ x ∈ (map_find init.1 r).getD [] ∨
        ∃ item ∈ done, ¬ c1 item ∧ ¬ c2 item ∧ item.2.toNat = r ∧ item.1 = x)
    L init (by simp) ?_
  intro done a s ih _ r x
  by_cases h1 : c1 a
  · rw [if_pos h1, ih r x]
    constructor
    · rintro (h | ⟨item, hi, h2⟩)
      · exact Or.inl h
      · exact Or.inr ⟨item, List.mem_append_left _ hi, h2⟩
    · rintro (h | ⟨item, hi, h2, h3⟩)
      · exact Or.inl h
      · rcases List.mem_append.1 hi with hi | hi
        · exact Or.inr ⟨item, hi, h2, h3⟩
        · rw [List.mem_singleton] at hi
          subst hi
          exact absurd h1 h2
  · rw [if_neg h1]
    by_cases h2 : c2 a
    · rw [if_pos h2, ih r x]
      constructor
      · rintro (h | ⟨item, hi, h3⟩)
        · exact Or.inl h
        · exact Or.inr ⟨item, List.mem_append_left _ hi, h3⟩
      · rintro (h | ⟨item, hi, h3, h4, h5⟩)
        · exact Or.inl h
        · rcases List.mem_append.1 hi with hi | hi
          · exact Or.inr ⟨item, hi, h3, h4, h5⟩
          · rw [List.mem_singleton] at hi
            subst hi
            exact absurd h2 h4
    · rw [if_neg h2, mem_map_push, ih r x]
      constructor
      · rintro ((h | ⟨item, hi, h3⟩) | ⟨h3, h4⟩)
        · exact Or.inl h
        · exact Or.inr ⟨item, List.mem_append_left _ hi, h3⟩
        · exact Or.inr ⟨a, by simp, h1, h2, h3, h4.symm⟩
      · rintro (h | ⟨item, hi, h3, h4, h5, h6⟩)
        · exact Or.inl (Or.inl h)
        · rcases List.mem_append.1 hi with hi | hi
          · exact Or.inl (Or.inr ⟨item, hi, h3, h4, h5, h6⟩)
          · rw [List.mem_singleton] at hi
            subst hi
            exact Or.inr ⟨h5, h6.symm⟩


theorem planned_sends_spec (g : Dccrg UserData) (use_zoltan : Bool)
    (balance : ZoltanBalance) (sends : umap (List Nat) × uset)
    (h : g.planned_sends use_zoltan balance = some sends) :
    ∀ r x, x ∈ (map_find sends.1 r).getD [] ↔
      (∃ item ∈ g.pin_requests, item.2 ≠ (g.rank : Int) ∧
        map_find g.cell_process item.1 = some g.rank ∧ item.2.toNat = r ∧ item.1 = x) ∨
      (use_zoltan = true ∧ ∃ item ∈ balance.to_send, item.2 ≠ (g.rank : Int) ∧
        map_has g.pin_requests item.1 = false ∧ item.2.toNat = r ∧ item.1 = x) := by
  unfold planned_sends at h
  obtain ⟨acc, hacc, e⟩ := Option.map_eq_some'.1 h
  have hp := pin_loop_spec g.cell_process
    (fun pr cur => pr.2 ≠ (g.rank : Int) ∧ cur = g.rank) (fun pr _ => pr.2.toNat)
    g.pin_requests _ acc hacc
  have hpins : ∀ r x, x ∈ (map_find acc.1 r).getD [] ↔
      ∃ item ∈ g.pin_requests, item.2 ≠ (g.rank : Int) ∧
        map_find g.cell_process item.1 = some g.rank ∧ item.2.toNat = r ∧ item.1 = x := by
    intro r x
    rw [hp r x]
    constructor
    · rintro (h | ⟨item, h1, cur, h2, ⟨h3, h4⟩, h5, h6⟩)
      · simp [map_find] at h
      · subst h4
        exact ⟨item, h1, h3, h2, h5, h6⟩
    · rintro ⟨item, h1, h3, h2, h5, h6⟩
      exact Or.inr ⟨item, h1, g.rank, h2, ⟨h3, rfl⟩, h5, h6⟩
  intro r x
  cases huz : use_zoltan with
  | false =>
    rw [huz] at e
    simp only [Bool.false_eq_true, if_false] at e
    subst e
    rw [hpins r x]
    simp
  | true =>
    rw [huz] at e
    simp only [if_true] at e
    subst e
    rw [zoltan_loop_spec (fun item => item.2 = (g.rank : Int))
      (fun item => map_has g.pin_requests item.1 = true) balance.to_send acc r x, hpins r x]
    simp

theorem planned_receives_spec (g : Dccrg UserData) (use_zoltan : Bool)
    (balance : ZoltanBalance) (receives : umap (List Nat) × uset)
    (h : g.planned_receives use_zoltan balance = some receives) :
    ∀ r x, x ∈ (map_find receives.1 r).getD [] ↔
      (∃ item ∈ g.pin_requests, item.2 = (g.rank : Int) ∧
        map_find g.cell_process item.1 = some r ∧ r ≠ g.rank ∧ item.1 = x) ∨
      (use_zoltan = true ∧ ∃ item ∈ balance.to_receive, item.2 ≠ (g.rank : Int) ∧
        map_has g.pin_requests item.1 = false ∧ item.2.toNat = r ∧ item.1 = x) := by
  unfold planned_receives at h
  obtain ⟨acc, hacc, e⟩ := Option.map_eq_some'.1 h
  have hp := pin_loop_spec g.cell_process
    (fun pr cur => pr.2 = (g.rank : Int) ∧ cur ≠ g.rank) (fun _ cur => cur)
    g.pin_requests _ acc hacc
  have hpins : ∀ r x, x ∈ (map_find acc.1 r).getD [] ↔
      ∃ item ∈ g.pin_requests, item.2 = (g.rank : Int) ∧
        map_find g.cell_process item.1 = some r ∧ r ≠ g.rank ∧ item.1 = x := by
    intro r x
    rw [hp r x]
    constructor
    · rintro (h | ⟨item, h1, cur, h2, ⟨h3, h4⟩, h5, h6⟩)
      · simp [map_find] at h
      · subst h5
        exact ⟨item, h1, h3, h2, h4, h6⟩
    · rintro ⟨item, h1, h3, h2, h4, h6⟩
      exact Or.inr ⟨item, h1, r, h2, ⟨h3, h4⟩, rfl, h6⟩
  intro r x
  cases huz : use_zoltan with
  | false =>
    rw [huz] at e
    simp only [Bool.false_eq_true, if_false] at e
    subst e
    rw [hpins r x]
    simp
  | true =>
    rw [huz] at e
    simp only [if_true] at e
    subst e
    rw [zoltan_loop_spec (fun item => item.2 = (g.rank : Int))
      (fun item => map_has g.pin_requests item.1 = true) balance.to_receive acc r x,
      hpins r x]
    simp

theorem map_keys_erase_nodup {V : Type} (m : umap V) (k : Nat) (h : (map_keys m).Nodup) :
    (map_keys (map_erase m k)).Nodup := by
  unfold map_keys map_erase
  unfold map_keys at h
  exact (List.Sublist.map Prod.fst (List.filter_sublist m)).nodup h

theorem apply_pin_requests_nodup (pins : umap Int) (all : List (List (Nat × Nat)))
    (h : (map_keys pins).Nodup) : (map_keys (apply_pin_requests pins all)).Nodup := by
  unfold apply_pin_requests
  refine foldl_invariant _ (fun _ (s : umap Int) => (map_keys s).Nodup) all pins h ?_
  intro _ a s hs _
  refine foldl_invariant _ (fun _ (s : umap Int) => (map_keys s).Nodup) a s hs ?_
  intro _ item s' hs' _
  show (map_keys (if to_int item.2 = -1 then map_erase s' item.1
    else map_set s' item.1 (to_int item.2))).Nodup
  by_cases hz : to_int item.2 = -1
  · rw [if_pos hz]
    exact map_keys_erase_nodup _ _ hs'
  · rw [if_neg hz]
    exact map_keys_set_nodup _ _ _ hs'

theorem sort_pairs_of_cells (l : List Nat) :
    sort_pairs (l.map fun cell => (cell, (-1 : Int)))
      = (sort_cells l).map fun cell => (cell, (-1 : Int)) := by
  unfold sort_pairs sort_cells
  symm
  apply List.map_insertionSort
  intro a _ b _
  constructor
  · intro hab
    rcases Nat.lt_or_ge a b with h | h
    · exact Or.inl h
    · exact Or.inr ⟨Nat.le_antisymm hab h, le_refl _⟩
  · rintro (h | ⟨h, _⟩)
    · exact Nat.le_of_lt h
    · exact Nat.le_of_eq h

theorem to_int_of_lt {v : Nat} (h : v < 2 ^ 31) : to_int v = (v : Int) := by
  unfold to_int
  have h1 : (0 : Int) ≤ (v : Int) + 2 ^ 31 := by positivity
  have h2 : (v : Int) + 2 ^ 31 < 2 ^ 32 := by
    have : (v : Int) < 2 ^ 31 := by exact_mod_cast h
    linarith
  rw [Int.emod_eq_of_lt h1 h2]
  ring

theorem single_cell_list_getElem? (l : List Nat) (i : Nat) :
    (single_cell_list l)[i]? = ((sort_cells l)[i]?).map fun cell => (cell, to_int (i + 1)) := by
  unfold single_cell_list set_tags
  rw [sort_pairs_of_cells, List.getElem?_map, List.getElem?_enum, List.getElem?_map]
  cases (sort_cells l)[i]? with
  | none => rfl
  | some c => rfl

theorem plan_partition_lists (g g' : Dccrg UserData) (use_zoltan : Bool)
    (balance : ZoltanBalance) (hkeys : (map_keys g.pin_requests).Nodup)
    (hpins : ∀ item ∈ g.pin_requests, 0 ≤ item.2)
    (hbal : ∀ item ∈ balance.to_send ++ balance.to_receive, 0 ≤ item.2)
    (h : g.plan_partition use_zoltan balance = some g') :
    (g'.pin_requests = g.pin_requests ∧ g'.cell_process = g.cell_process ∧
      g'.rank = g.rank) ∧
    (∀ r c, c ∈ (map_find g'.cells_to_send r).getD [] ↔
      r ≠ g.rank ∧
      ((map_find g.pin_requests c = some (r : Int) ∧
          map_find g.cell_process c = some g.rank) ∨
        (map_has g.pin_requests c = false ∧ use_zoltan = true ∧
          (c, (r : Int)) ∈ balance.to_send))) ∧
    (∀ s c, c ∈ (map_find g'.cells_to_receive s).getD [] ↔
      s ≠ g.rank ∧
      ((map_find g.pin_requests c = some (g.rank : Int) ∧
          map_find g.cell_process c = some s) ∨
        (map_has g.pin_requests c = false ∧ use_zoltan = true ∧
          (c, (s : Int)) ∈ balance.to_receive))) ∧
    (∀ r, ((map_find g'.cells_to_send r).getD []).Sorted (fun a b => a ≤ b)) ∧
    (∀ s, ((map_find g'.cells_to_receive s).getD []).Sorted (fun a b => a ≤ b)) ∧
    ∃ sends receives, g.planned_sends use_zoltan balance = some sends ∧
      g.planned_receives use_zoltan balance = some receives ∧
      (∀ r i, (single_cell_list ((map_find sends.1 r).getD []))[i]?
        = (((map_find g'.cells_to_send r).getD [])[i]?).map fun cell =>
          (cell, to_int (i + 1))) ∧
      ∀ s i, (single_cell_list ((map_find receives.1 s).getD []))[i]?
        = (((map_find g'.cells_to_receive s).getD [])[i]?).map fun cell =>
          (cell, to_int (i + 1)) := by
  unfold plan_partition at h
  by_cases hab : use_zoltan = true ∧ ¬ balance.ok = true ∧ ¬ g.no_load_balancing = true
  · rw [if_pos hab] at h; cases h
  · rw [if_neg hab] at h
    obtain ⟨receives, hrec, h⟩ := Option.bind_eq_some.1 h
    obtain ⟨sends, hsend, h⟩ := Option.map_eq_some'.1 h
    have hs := planned_sends_spec g use_zoltan balance sends hsend
    have hr := planned_receives_spec g use_zoltan balance receives hrec
    have fs : ∀ r, (map_find g'.cells_to_send r).getD []
        = sort_cells ((map_find sends.1 r).getD []) := by
      intro r
      rw [← h]
      show (map_find (sends.1.map fun receiver => (receiver.1, sort_cells receiver.2)) r).getD []
        = _
      rw [map_find_map_values]
      cases map_find sends.1 r with
      | none => simp [sort_cells]
      | some l => simp
    have fr : ∀ r, (map_find g'.cells_to_receive r).getD []
        = sort_cells ((map_find receives.1 r).getD []) := by
      intro r
      rw [← h]
      show (map_find (receives.1.map fun sender => (sender.1, sort_cells sender.2)) r).getD []
        = _
      rw [map_find_map_values]
      cases map_find receives.1 r with
      | none => simp [sort_cells]
      | some l => simp
    refine ⟨⟨by rw [← h], by rw [← h], by rw [← h]⟩, fun r c => ?_, fun s c => ?_,
      fun r => by rw [fs]; exact sort_cells_sorted _,
      fun s => by rw [fr]; exact sort_cells_sorted _,
      sends, receives, hsend, hrec,
      fun r i => by rw [fs]; exact single_cell_list_getElem? _ i,
      fun s i => by rw [fr]; exact single_cell_list_getElem? _ i⟩
    · rw [fs, mem_sort_cells, hs r c]
      constructor
      · rintro (⟨item, h1, h2, h3, h4, h5⟩ | ⟨hz, item, h1, h2, h3, h4, h5⟩)
        · have h0 := hpins item h1
          have e : item.2 = (r : Int) := by rw [← h4]; exact (Int.toNat_of_nonneg h0).symm
          subst h5
          refine ⟨fun e' => h2 (by rw [e, e']), Or.inl ⟨?_, h3⟩⟩
          rw [← e]
          exact map_find_of_mem _ hkeys _ _ h1
        · have h0 := hbal item (List.mem_append_left _ h1)
          have e : item.2 = (r : Int) := by rw [← h4]; exact (Int.toNat_of_nonneg h0).symm
          subst h5
          refine ⟨fun e' => h2 (by rw [e, e']), Or.inr ⟨h3, hz, ?_⟩⟩
          rw [← e]
          exact h1
      · rintro ⟨hne, ⟨h1, h2⟩ | ⟨h1, h2, h3⟩⟩
        · exact Or.inl ⟨(c, (r : Int)), mem_of_map_find _ _ _ h1,
            fun e => hne (Int.ofNat_inj.1 e), h2, by simp, rfl⟩
        · exact Or.inr ⟨h2, (c, (r : Int)), h3, fun e => hne (Int.ofNat_inj.1 e), h1,
            by simp, rfl⟩
    · rw [fr, mem_sort_cells, hr s c]
      constructor
      · rintro (⟨item, h1, h2, h3, h4, h5⟩ | ⟨hz, item, h1, h2, h3, h4, h5⟩)
        · subst h5
          refine ⟨h4, Or.inl ⟨?_, h3⟩⟩
          rw [← h2]
          exact map_find_of_mem _ hkeys _ _ h1
        · have h0 := hbal item (List.mem_append_right _ h1)
          have e : item.2 = (s : Int) := by rw [← h4]; exact (Int.toNat_of_nonneg h0).symm
          subst h5
          refine ⟨fun e' => h2 (by rw [e, e']), Or.inr ⟨h3, hz, ?_⟩⟩
          rw [← e]
          exact h1
      · rintro ⟨hne, ⟨h1, h2⟩ | ⟨h1, h2, h3⟩⟩
        · exact Or.inl ⟨(c, (g.rank : Int)), mem_of_map_find _ _ _ h1, rfl, h2, hne, rfl⟩
        · exact Or.inr ⟨h2, (c, (s : Int)), h3, fun e => hne (Int.ofNat_inj.1 e), h1,
            by simp, rfl⟩


theorem single_cell_list_length (l : List Nat) :
    (single_cell_list l).length = (sort_cells l).length := by
  unfold single_cell_list set_tags sort_pairs sort_cells
  simp

theorem update_pin_requests_keys (w : World UserData)
    (hkeys : ∀ g ∈ w, (map_keys g.pin_requests).Nodup) :
    ∀ g ∈ update_pin_requests w, (map_keys g.pin_requests).Nodup := by
  intro g hg
  unfold update_pin_requests at hg
  obtain ⟨g0, hg0, e⟩ := List.mem_map.1 hg
  subst e
  exact apply_pin_requests_nodup _ _ (hkeys g0 hg0)

end dccrg
namespace dccrg
open Index Dccrg
variable {UserData : Type}

theorem dimension_reverse (p : Bool) (G s t : Nat) (o : Int)
    (hs : 0 < s) (hsG : s ∣ G) (ht : t < G) (hst : s ∣ t)
    (hov : G + o.natAbs * s < 2 ^ 64) (t' : Nat)
    (h : Dccrg.indices_from_neighborhood_dimension p G s t o = some t') :
    Dccrg.indices_from_neighborhood_dimension p G s t' (-o) = some t := by
  obtain ⟨hb, hd⟩ := dimension_result p G s t o hs hsG ht hst hov t' h
  have hov' : G + (-o).natAbs * s < 2 ^ 64 := by rw [Int.natAbs_neg]; exact hov
  rw [indices_from_neighborhood_dimension_spec p G s t' (-o) hs hsG hb hd hov' t]
  rcases (indices_from_neighborhood_dimension_spec p G s t o hs hsG ht hst hov t').1 h with
    ⟨hp, e⟩ | ⟨hp, e, _⟩
  · left
    refine ⟨hp, ?_⟩
    rw [e]
    have hG : (0 : Int) < (G : Int) := by exact_mod_cast (by omega : 0 < G)
    rw [Int.add_emod, Int.emod_emod_of_dvd _ (dvd_refl _), ← Int.add_emod]
    have e2 : (t : Int) + o * s + -o * s = t := by ring
    rw [e2]
    exact (Int.emod_eq_of_lt (by positivity) (by exact_mod_cast ht)).symm
  · right
    refine ⟨hp, ?_, ht⟩
    rw [e]
    ring

theorem dimension_eq_shift_index (p : Bool) (G s t : Nat) (o : Int)
    (hs : 0 < s) (hsG : s ∣ G) (ht : t < G) (hst : s ∣ t)
    (hov : G + o.natAbs * s < 2 ^ 64) :
    Dccrg.indices_from_neighborhood_dimension p G s t o = Dccrg.shift_index p G s t o := by
  have hG : (0 : Int) < (G : Int) := by exact_mod_cast (by omega : 0 < G)
  apply Option.ext
  intro t'
  rw [Option.mem_def, Option.mem_def,
    indices_from_neighborhood_dimension_spec p G s t o hs hsG ht hst hov t']
  unfold shift_index
  cases p with
  | true =>
    simp only [if_true, true_and, Bool.true_eq_false, false_and, or_false,
      Option.some.injEq]
    have hnn : 0 ≤ ((t : Int) + o * s) % G := Int.emod_nonneg _ (ne_of_gt hG)
    constructor
    · intro e
      rw [← e]
      exact Int.toNat_natCast t'
    · intro e
      rw [← e]
      exact (Int.toNat_of_nonneg hnn)
  | false =>
    simp only [Bool.false_eq_true, if_false, false_and, false_or, true_and]
    by_cases hin : 0 ≤ (t : Int) + o * s ∧ (t : Int) + o * s < G
    · rw [if_pos hin]
      simp only [Option.some.injEq]
      constructor
      · rintro ⟨e, _⟩
        rw [← e]
        exact Int.toNat_natCast t'
      · intro e
        rw [← e]
        refine ⟨Int.toNat_of_nonneg hin.1, ?_⟩
        have := hin.2
        have h2 := Int.toNat_of_nonneg hin.1
        omega
    · rw [if_neg hin]
      simp only [reduceCtorEq, iff_false, not_and]
      intro e hlt
      apply hin
      rw [← e]
      exact ⟨by positivity, by exact_mod_cast hlt⟩

theorem cell_facts (g : Dccrg UserData) (hfit : g.index.ids_fit)
    (hinv : g.existence_invariant) {c : Nat} (hc : map_has g.cell_process c = true) :
    Fit g.index g.index.max_refinement_level.toNat ∧
    (1 ≤ c ∧ c ≤ g.index.last_cell) ∧
    ∃ l : Nat, l ≤ g.index.max_refinement_level.toNat ∧
      g.index.get_refinement_level c = (l : Int) ∧
      g.index.get_cell_size_in_indices c = 2 ^ (g.index.max_refinement_level.toNat - l) ∧
      ((g.index.get_indices c).1 < g.index.x_length * 2 ^ g.index.max_refinement_level.toNat ∧
        (g.index.get_indices c).2.1
          < g.index.y_length * 2 ^ g.index.max_refinement_level.toNat ∧
        (g.index.get_indices c).2.2
          < g.index.z_length * 2 ^ g.index.max_refinement_level.toNat) ∧
      (2 ^ (g.index.max_refinement_level.toNat - l) ∣ (g.index.get_indices c).1 ∧
        2 ^ (g.index.max_refinement_level.toNat - l) ∣ (g.index.get_indices c).2.1 ∧
        2 ^ (g.index.max_refinement_level.toNat - l) ∣ (g.index.get_indices c).2.2) ∧
      g.index.get_cell_from_indices (g.index.get_indices c) (l : Int) = c := by
  obtain ⟨h1, h2⟩ := hinv.1 c ((mem_map_keys _ _).2 hc)
  have F := Fit.of_valid_cell hfit h1 h2
  obtain ⟨l, hl, hlvl, b0, b1, b2, d0, d1, d2, henc⟩ := F.roundtrip_cell h1 h2
  exact ⟨F, ⟨h1, h2⟩, l, hl, hlvl, F.size_eq hlvl, ⟨b0, b1, b2⟩, ⟨d0, d1, d2⟩, henc⟩

end dccrg
namespace dccrg
open Index Dccrg
variable {UserData : Type}

theorem for_le_pair (q h : Nat) (hh : 0 < h) (hov : q + 2 * h < 2 ^ 64) :
    for_le q (usub (u64 (q + 2 * h)) 1) h = [q, q + h] := by
  have e1 : u64 (q + 2 * h) = q + 2 * h := u64_of_lt hov
  have e2 : usub (q + 2 * h) 1 = q + 2 * h - 1 := usub_eq (by omega) hov
  rw [e1, e2]
  unfold for_le
  have e3 : q + 2 * h - 1 + 1 - q = (2 * h - 2) + 1 + 1 := by omega
  rw [e3]
  have e4 : u64 (q + h) = q + h := u64_of_lt (by omega)
  have e5 : u64 (q + h + h) = q + h + h := u64_of_lt (by omega)
  rw [for_le_loop, if_pos (by omega), e4, for_le_loop, if_pos (by omega), e5]
  cases hk : 2 * h - 2 with
  | zero => rfl
  | succ k => rw [for_le_loop, if_neg (by omega)]

theorem dedup_fold {α : Type} (f : α → Nat) (keep : Nat → Prop) [DecidablePred keep] :
    ∀ (l : List α) (acc : List Nat), (acc ++ l.map f).Nodup →
      l.foldl (fun result x =>
        if ¬ keep (f x) then result
        else if f x ∈ result then result
        else result ++ [f x]) acc
      = acc ++ (l.map f).filter (fun c => decide (keep c)) := by
  intro l
  induction l with
  | nil => intro acc _; simp
  | cons a t ih =>
    intro acc hnd
    rw [List.foldl_cons, List.map_cons]
    have hna : f a ∉ acc := by
      intro hin
      rw [List.map_cons, List.nodup_append] at hnd
      exact hnd.2.2 hin (List.mem_cons_self _ _)
    by_cases hk : keep (f a)
    · rw [if_neg (not_not.2 hk), if_neg hna, ih]
      · rw [List.filter_cons_of_pos (by simpa using hk)]
        simp
      · rw [List.map_cons] at hnd
        simpa using hnd
    · rw [if_pos hk, ih]
      · rw [List.filter_cons_of_neg (by simpa using hk)]
      · rw [List.map_cons] at hnd
        have := hnd
        rw [List.nodup_append] at this ⊢
        refine ⟨this.1, (List.nodup_cons.1 this.2.1).2, ?_⟩
        intro x hx hx'
        exact this.2.2 hx (List.mem_cons_of_mem _ hx')


theorem get_existing_cell_of_has (g : Dccrg UserData) {R : Nat} (F : Fit g.index R)
    (hfit : g.index.ids_fit) (hinv : g.existence_invariant) (lo hi : Nat) (hlh : lo ≤ hi)
    (hR : hi ≤ R) (pos : indices_t)
    (hex : map_has g.cell_process (g.index.get_cell_from_indices pos (hi : Int)) = true) :
    g.get_existing_cell pos (lo : Int) (hi : Int)
      = g.index.get_cell_from_indices pos (hi : Int) := by
  have hne : g.index.get_cell_from_indices pos (hi : Int) ≠ 0 := by
    intro e
    have := (hinv.1 _ ((mem_map_keys _ _).2 hex)).1
    omega
  obtain ⟨_, _, k0, k1, k2, _⟩ := enc_facts hfit hne
  have hRR : g.index.max_refinement_level.toNat = R := by rw [F.hR]; rfl
  rw [hRR] at k0 k1 k2
  obtain ⟨i0, i1, i2⟩ := pos
  exact get_existing_cell_exact g F hinv k0 k1 k2 lo hi hi hlh (le_refl _) hR hex (Or.inl rfl)

theorem find_cells_children (g : Dccrg UserData) {R : Nat} (F : Fit g.index R)
    (hfit : g.index.ids_fit) (hinv : g.existence_invariant) (l : Nat) (hl : l < R)
    (q0 q1 q2 : Nat) (b0 : q0 < g.index.x_length * 2 ^ R)
    (b1 : q1 < g.index.y_length * 2 ^ R) (b2 : q2 < g.index.z_length * 2 ^ R)
    (d0 : 2 ^ (R - l) ∣ q0) (d1 : 2 ^ (R - l) ∣ q1) (d2 : 2 ^ (R - l) ∣ q2)
    (hex : map_has g.cell_process
      (g.index.get_cell_from_indices (q0, q1, q2) ((l : Int) + 1)) = true)
    (lo : Nat) (hlo : lo ≤ l + 1) :
    g.find_cells (q0, q1, q2)
        (usub (u64 (q0 + 2 ^ (R - l))) 1, usub (u64 (q1 + 2 ^ (R - l))) 1,
          usub (u64 (q2 + 2 ^ (R - l))) 1) (lo : Int) ((l + 1 : Nat) : Int)
      = (children_at g.index (q0, q1, q2) ((l : Int) + 1) (2 ^ (R - l - 1))).filter
          fun c => decide (c = g.get_child c) := by
  have hpow : 2 ^ (R - l) = 2 * 2 ^ (R - l - 1) := by
    rw [← pow_succ']
    congr 1
    omega
  have hh : 0 < 2 ^ (R - l - 1) := by positivity
  have hsR : 2 ^ (R - l) ∣ 2 ^ R := pow_dvd_pow 2 (by omega)
  have fit : ∀ (L q : Nat), L * 2 ^ R < 2 ^ 64 → q < L * 2 ^ R → 2 ^ (R - l) ∣ q →
      q + 2 * 2 ^ (R - l - 1) < 2 ^ 64 := by
    intro L q hL hq hd
    rw [← hpow]
    obtain ⟨k, hk⟩ := hd
    obtain ⟨m, hm⟩ := Dvd.dvd.mul_left hsR L
    rw [hk, hm] at hq
    have hkm : k < m := lt_of_mul_lt_mul_left hq (Nat.zero_le _)
    have : 2 ^ (R - l) * k + 2 ^ (R - l) ≤ 2 ^ (R - l) * m := by
      have := Nat.mul_le_mul_left (2 ^ (R - l)) (Nat.succ_le_of_lt hkm)
      rw [Nat.mul_succ] at this
      exact this
    rw [hk]
    rw [hm] at hL
    omega
  have f0 := fit _ q0 (F.x_lt (le_refl R)) b0 d0
  have f1 := fit _ q1 (F.y_lt (le_refl R)) b1 d1
  have f2 := fit _ q2 (F.z_lt (le_refl R)) b2 d2
  -- the cell of level `l` at the position and its children
  have hlvl := (F.roundtrip_indices (Nat.le_of_lt hl) b0 b1 b2).2.1
  have hind := (F.roundtrip_indices (Nat.le_of_lt hl) b0 b1 b2).1
  rw [Nat.div_mul_cancel d0, Nat.div_mul_cancel d1, Nat.div_mul_cancel d2] at hind
  have hch := children_of_eq F hlvl hl
  rw [hind] at hch
  have hpar : g.index.get_parent_for_removed
      (g.index.get_cell_from_indices (q0, q1, q2) ((l : Int) + 1))
      = g.index.get_cell_from_indices (q0, q1, q2) (l : Int) := F.parent_enc hl b0 b1 b2
  have hlvl1 := (F.roundtrip_indices (Nat.succ_le_of_lt hl) b0 b1 b2).2.1
  have hne0 : g.index.get_refinement_level
      (g.index.get_cell_from_indices (q0, q1, q2) ((l : Int) + 1)) ≠ 0 := by
    have e : ((l : Int) + 1) = ((l + 1 : Nat) : Int) := by push_cast; rfl
    rw [e, hlvl1]
    exact_mod_cast Nat.succ_ne_zero l
  have hsib := (hinv.2.2 _ ((mem_map_keys _ _).2 hex) hne0).2
  rw [hpar, hch] at hsib
  have e1 : ((l + 1 : Nat) : Int) = (l : Int) + 1 := by push_cast; rfl
  have hgec : ∀ pos : indices_t,
      g.index.get_cell_from_indices pos ((l : Int) + 1)
        ∈ children_at g.index (q0, q1, q2) ((l : Int) + 1) (2 ^ (R - l - 1)) →
      g.get_existing_cell pos (lo : Int) ((l + 1 : Nat) : Int)
        = g.index.get_cell_from_indices pos ((l : Int) + 1) := by
    intro pos hmem
    have := get_existing_cell_of_has g F hfit hinv lo (l + 1) hlo (Nat.succ_le_of_lt hl) pos
      (by rw [e1]; exact hsib _ hmem)
    rw [this, e1]
  have hnd : (children_at g.index (q0, q1, q2) ((l : Int) + 1) (2 ^ (R - l - 1))).Nodup := by
    rw [← hch]
    have hpe := (hinv.2.2 _ ((mem_map_keys _ _).2 hex) hne0).1
    rw [hpar] at hpe
    obtain ⟨v1, v2⟩ := hinv.1 _ ((mem_map_keys _ _).2 hpe)
    exact (children_of_length hfit v1 v2 (by rw [hlvl, F.hR]; exact_mod_cast hl)).2
  unfold find_cells
  simp only
  have hstep : R - l.succ = R - l - 1 := by omega
  rw [F.shl1_sub_eq (Nat.succ_le_of_lt hl), hpow, hstep, for_le_pair q0 _ hh f0,
    for_le_pair q1 _ hh f1, for_le_pair q2 _ hh f2]
  have hv : (List.flatMap [q2, q2 + 2 ^ (R - l - 1)] fun i2 =>
      List.flatMap [q1, q1 + 2 ^ (R - l - 1)] fun i1 =>
        List.map (fun i0 => ((i0, i1, i2) : indices_t)) [q0, q0 + 2 ^ (R - l - 1)])
      = [(q0, q1, q2), (q0 + 2 ^ (R - l - 1), q1, q2), (q0, q1 + 2 ^ (R - l - 1), q2),
        (q0 + 2 ^ (R - l - 1), q1 + 2 ^ (R - l - 1), q2),
        (q0, q1, q2 + 2 ^ (R - l - 1)), (q0 + 2 ^ (R - l - 1), q1, q2 + 2 ^ (R - l - 1)),
        (q0, q1 + 2 ^ (R - l - 1), q2 + 2 ^ (R - l - 1)),
        (q0 + 2 ^ (R - l - 1), q1 + 2 ^ (R - l - 1), q2 + 2 ^ (R - l - 1))] := by
    simp
  rw [hv]
  have hmap : List.map (fun pos : indices_t =>
        g.get_existing_cell pos (lo : Int) ((l + 1 : Nat) : Int))
      [(q0, q1, q2), (q0 + 2 ^ (R - l - 1), q1, q2), (q0, q1 + 2 ^ (R - l - 1), q2),
        (q0 + 2 ^ (R - l - 1), q1 + 2 ^ (R - l - 1), q2),
        (q0, q1, q2 + 2 ^ (R - l - 1)), (q0 + 2 ^ (R - l - 1), q1, q2 + 2 ^ (R - l - 1)),
        (q0, q1 + 2 ^ (R - l - 1), q2 + 2 ^ (R - l - 1)),
        (q0 + 2 ^ (R - l - 1), q1 + 2 ^ (R - l - 1), q2 + 2 ^ (R - l - 1))]
      = children_at g.index (q0, q1, q2) ((l : Int) + 1) (2 ^ (R - l - 1)) := by
    simp only [List.map]
    rw [hgec _ (by simp [children_at]), hgec _ (by simp [children_at]),
      hgec _ (by simp [children_at]), hgec _ (by simp [children_at]),
      hgec _ (by simp [children_at]), hgec _ (by simp [children_at]),
      hgec _ (by simp [children_at]), hgec _ (by simp [children_at])]
    rfl
  have := dedup_fold (fun pos : indices_t =>
      g.get_existing_cell pos (lo : Int) ((l + 1 : Nat) : Int))
    (fun c => c = g.get_child c)
    [(q0, q1, q2), (q0 + 2 ^ (R - l - 1), q1, q2), (q0, q1 + 2 ^ (R - l - 1), q2),
      (q0 + 2 ^ (R - l - 1), q1 + 2 ^ (R - l - 1), q2),
      (q0, q1, q2 + 2 ^ (R - l - 1)), (q0 + 2 ^ (R - l - 1), q1, q2 + 2 ^ (R - l - 1)),
      (q0, q1 + 2 ^ (R - l - 1), q2 + 2 ^ (R - l - 1)),
      (q0 + 2 ^ (R - l - 1), q1 + 2 ^ (R - l - 1), q2 + 2 ^ (R - l - 1))] []
    (by rw [hmap]; simpa using hnd)
  rw [hmap] at this
  simpa using this


theorem search_levels (R l : Nat) (hl : l ≤ R) :
    (if (l : Int) < 1 then (0 : Int) else (l : Int) - 1) = ((l - 1 : Nat) : Int) ∧
    (if (l : Int) ≤ (R : Int) - 1 then (l : Int) + 1 else (R : Int))
      = ((min R (l + 1) : Nat) : Int) ∧
    max (0 : Int) ((l : Int) - 1) = ((l - 1 : Nat) : Int) ∧
    min (R : Int) ((l : Int) + 1) = ((min R (l + 1) : Nat) : Int) := by
  refine ⟨?_, ?_, ?_, ?_⟩
  · split_ifs <;> omega
  · split_ifs <;> omega
  · omega
  · omega

theorem segment_single (g : Dccrg UserData) {R : Nat} (F : Fit g.index R)
    (hinv : g.existence_invariant) (l r : Nat) (hl : l ≤ R) (hr1 : r ≤ l) (hr2 : l ≤ r + 1)
    (q0 q1 q2 : Nat) (b0 : q0 < g.index.x_length * 2 ^ R)
    (b1 : q1 < g.index.y_length * 2 ^ R) (b2 : q2 < g.index.z_length * 2 ^ R)
    (hex : map_has g.cell_process
      (g.index.get_cell_from_indices (q0, q1, q2) (r : Int)) = true)
    (hleaf : r = R ∨ map_has g.cell_process
      (g.index.get_cell_from_indices (q0, q1, q2) ((r : Int) + 1)) = false)
    (size : Nat) :
    g.find_neighbors_of_at (l : Int) size 1 (q0, q1, q2)
      = [g.index.get_cell_from_indices (q0, q1, q2) (r : Int)] := by
  obtain ⟨e1, e2, _, _⟩ := search_levels R l hl
  have hx := F.x_lt (le_refl R)
  have hq : ¬ q0 = error_index := by unfold error_index; omega
  have hgec := get_existing_cell_exact g F hinv b0 b1 b2 (l - 1) (min R (l + 1)) r
    (by omega) (by omega) (by omega) hex (by
      rcases hleaf with h | h
      · left; omega
      · right; exact h)
  have hlvl := (F.roundtrip_indices (by omega : r ≤ R) b0 b1 b2).2.1
  unfold find_neighbors_of_at
  simp only
  rw [if_neg hq, F.hR, e1, e2, hgec, hlvl, if_pos (by exact_mod_cast hr1)]

theorem segment_children (g : Dccrg UserData) {R : Nat} (F : Fit g.index R)
    (hfit : g.index.ids_fit) (hinv : g.existence_invariant) (l : Nat) (hl : l < R)
    (q0 q1 q2 : Nat) (b0 : q0 < g.index.x_length * 2 ^ R)
    (b1 : q1 < g.index.y_length * 2 ^ R) (b2 : q2 < g.index.z_length * 2 ^ R)
    (d0 : 2 ^ (R - l) ∣ q0) (d1 : 2 ^ (R - l) ∣ q1) (d2 : 2 ^ (R - l) ∣ q2)
    (hex : map_has g.cell_process
      (g.index.get_cell_from_indices (q0, q1, q2) ((l : Int) + 1)) = true) :
    g.find_neighbors_of_at (l : Int) (2 ^ (R - l)) 1 (q0, q1, q2)
      = (children_at g.index (q0, q1, q2) ((l : Int) + 1) (2 ^ (R - l - 1))).filter
          fun c => decide (c = g.get_child c) := by
  obtain ⟨e1, e2, e3, e4⟩ := search_levels R l (Nat.le_of_lt hl)
  have hmin : min R (l + 1) = l + 1 := by omega
  rw [hmin] at e2 e4
  have hx := F.x_lt (le_refl R)
  have hq : ¬ q0 = error_index := by unfold error_index; omega
  have c1 : ((l + 1 : Nat) : Int) = (l : Int) + 1 := by push_cast; rfl
  have hgec := get_existing_cell_of_has g F hfit hinv (l - 1) (l + 1) (by omega)
    (Nat.succ_le_of_lt hl) (q0, q1, q2) (by rw [c1]; exact hex)
  have hlvl := (F.roundtrip_indices (Nat.succ_le_of_lt hl) b0 b1 b2).2.1
  unfold find_neighbors_of_at
  simp only
  rw [if_neg hq, F.hR, e1, e2, e3, e4, hgec, hlvl, if_neg (by push_cast; omega)]
  exact find_cells_children g F hfit hinv l hl q0 q1 q2 b0 b1 b2 d0 d1 d2 hex (l - 1)
    (by omega)

end dccrg
namespace dccrg
open Index Dccrg
variable {UserData : Type}

theorem indices_single_cases (g : Dccrg UserData) (ind : indices_t) (s : Nat)
    (o : neighborhood_item_t) :
    (∃ q, g.shifted ind s o q ∧ g.indices_from_neighborhood ind s [o] = [q]) ∨
    ((∀ q, ¬ g.shifted ind s o q) ∧
      g.indices_from_neighborhood ind s [o] = [(error_index, error_index, error_index)]) := by
  unfold indices_from_neighborhood shifted
  simp only [List.map_cons, List.map_nil]
  cases h0 : indices_from_neighborhood_dimension g.periodic.1
      (u64 (g.index.x_length * shl1 g.index.max_refinement_level)) s ind.1 o.1 with
  | none => right; exact ⟨fun q hq => by simp at hq, rfl⟩
  | some t0 =>
    cases h1 : indices_from_neighborhood_dimension g.periodic.2.1
        (u64 (g.index.y_length * shl1 g.index.max_refinement_level)) s ind.2.1 o.2.1 with
    | none => right; exact ⟨fun q hq => by simp at hq, rfl⟩
    | some t1 =>
      cases h2 : indices_from_neighborhood_dimension g.periodic.2.2
          (u64 (g.index.z_length * shl1 g.index.max_refinement_level)) s ind.2.2 o.2.2 with
      | none => right; exact ⟨fun q hq => by simp at hq, rfl⟩
      | some t2 => left; exact ⟨(t0, t1, t2), ⟨rfl, rfl, rfl⟩, rfl⟩

theorem indices_single_of_shifted (g : Dccrg UserData) (ind : indices_t) (s : Nat)
    (o : neighborhood_item_t) (q : indices_t) (h : g.shifted ind s o q) :
    g.indices_from_neighborhood ind s [o] = [q] := by
  rcases indices_single_cases g ind s o with ⟨q', hq', e⟩ | ⟨hno, _⟩
  · rw [e]
    unfold shifted at h hq'
    obtain ⟨a0, a1, a2⟩ := h
    obtain ⟨c0, c1, c2⟩ := hq'
    rw [a0] at c0
    rw [a1] at c1
    rw [a2] at c2
    obtain ⟨q0, q1, q2⟩ := q
    obtain ⟨r0, r1, r2⟩ := q'
    simp only [Option.some.injEq] at c0 c1 c2
    rw [c0, c1, c2]
  · exact absurd h (hno q)

theorem find_neighbors_of_eq (g : Dccrg UserData) (c : Nat)
    (hc : map_has g.cell_process c = true) (hleaf : g.get_child c = c) :
    g.find_neighbors_of c 1 false
      = g.neighborhood_of.flatMap fun o =>
        (g.indices_from_neighborhood (g.index.get_indices c)
          (g.index.get_cell_size_in_indices c) [o]).flatMap
          (g.find_neighbors_of_at (g.index.get_refinement_level c)
            (g.index.get_cell_size_in_indices c) 1) := by
  unfold find_neighbors_of
  simp only
  rw [if_neg (by simp [hc]), if_neg (by simp [hleaf])]
  unfold indices_from_neighborhood
  simp only [List.map_cons, List.map_nil, List.flatMap_cons, List.flatMap_nil,
    List.append_nil]
  rw [List.flatMap_def, List.flatMap_def, List.map_map]
  rfl


theorem shifted_facts (g : Dccrg UserData) {R : Nat} (F : Fit g.index R) (l : Nat)
    (hl : l ≤ R) (p : indices_t)
    (pb : p.1 < g.index.x_length * 2 ^ R ∧ p.2.1 < g.index.y_length * 2 ^ R ∧
      p.2.2 < g.index.z_length * 2 ^ R)
    (pd : 2 ^ (R - l) ∣ p.1 ∧ 2 ^ (R - l) ∣ p.2.1 ∧ 2 ^ (R - l) ∣ p.2.2)
    (o : neighborhood_item_t)
    (hov : g.index.x_length * 2 ^ R + o.1.natAbs * 2 ^ R < 2 ^ 64 ∧
      g.index.y_length * 2 ^ R + o.2.1.natAbs * 2 ^ R < 2 ^ 64 ∧
      g.index.z_length * 2 ^ R + o.2.2.natAbs * 2 ^ R < 2 ^ 64)
    (q : indices_t) (h : g.shifted p (2 ^ (R - l)) o q) :
    (q.1 < g.index.x_length * 2 ^ R ∧ q.2.1 < g.index.y_length * 2 ^ R ∧
      q.2.2 < g.index.z_length * 2 ^ R) ∧
    (2 ^ (R - l) ∣ q.1 ∧ 2 ^ (R - l) ∣ q.2.1 ∧ 2 ^ (R - l) ∣ q.2.2) ∧
    g.shifted q (2 ^ (R - l)) (-o.1, -o.2.1, -o.2.2) p := by
  have hs : 0 < 2 ^ (R - l) := by positivity
  have hsR : 2 ^ (R - l) ∣ 2 ^ R := pow_dvd_pow 2 (Nat.sub_le _ _)
  have hle : 2 ^ (R - l) ≤ 2 ^ R := Nat.pow_le_pow_right (by norm_num) (Nat.sub_le _ _)
  have hov' : ∀ (G k : Nat), G + k * 2 ^ R < 2 ^ 64 → G + k * 2 ^ (R - l) < 2 ^ 64 := by
    intro G k hk
    have := Nat.mul_le_mul_left k hle
    omega
  unfold shifted at h ⊢
  rw [F.hR, F.xlen_eq (le_refl R), F.ylen_eq (le_refl R), F.zlen_eq (le_refl R)] at h ⊢
  obtain ⟨h0, h1, h2⟩ := h
  obtain ⟨r0, s0⟩ := dimension_result _ _ _ _ _ hs (Dvd.dvd.mul_left hsR _) pb.1 pd.1
    (hov' _ _ hov.1) _ h0
  obtain ⟨r1, s1⟩ := dimension_result _ _ _ _ _ hs (Dvd.dvd.mul_left hsR _) pb.2.1 pd.2.1
    (hov' _ _ hov.2.1) _ h1
  obtain ⟨r2, s2⟩ := dimension_result _ _ _ _ _ hs (Dvd.dvd.mul_left hsR _) pb.2.2 pd.2.2
    (hov' _ _ hov.2.2) _ h2
  exact ⟨⟨r0, r1, r2⟩, ⟨s0, s1, s2⟩,
    dimension_reverse _ _ _ _ _ hs (Dvd.dvd.mul_left hsR _) pb.1 pd.1 (hov' _ _ hov.1) _ h0,
    dimension_reverse _ _ _ _ _ hs (Dvd.dvd.mul_left hsR _) pb.2.1 pd.2.1
      (hov' _ _ hov.2.1) _ h1,
    dimension_reverse _ _ _ _ _ hs (Dvd.dvd.mul_left hsR _) pb.2.2 pd.2.2
      (hov' _ _ hov.2.2) _ h2⟩

theorem segment_none (g : Dccrg UserData) {R : Nat} (F : Fit g.index R) (l : Nat)
    (hl : l ≤ R) (q : indices_t)
    (hno : ∀ r : Nat, l ≤ r + 1 → r ≤ l + 1 → r ≤ R →
      map_has g.cell_process (g.index.get_cell_from_indices q (r : Int)) = false)
    (size : Nat) : g.find_neighbors_of_at (l : Int) size 1 q = [0] := by
  obtain ⟨e1, e2, _, _⟩ := search_levels R l hl
  unfold find_neighbors_of_at
  simp only
  by_cases hq : q.1 = error_index
  · rw [if_pos hq]
  · rw [if_neg hq, F.hR, e1, e2]
    have hz : g.get_existing_cell q ((l - 1 : Nat) : Int) ((min R (l + 1) : Nat) : Int) = 0 := by
      rcases get_existing_cell_spec g q ((l - 1 : Nat) : Int) ((min R (l + 1) : Nat) : Int)
        (by positivity) with h | ⟨r, h1, h2, _, h4⟩
      · exact h
      · have hr0 : 0 ≤ r := le_trans (by positivity) h1
        obtain ⟨n, rfl⟩ := Int.eq_ofNat_of_zero_le hr0
        have := hno n (by omega) (by omega) (by omega)
        rw [this] at h4
        cases h4
    rw [hz]
    have hl0 : g.index.get_refinement_level 0 = -1 := by
      unfold get_refinement_level error_cell
      simp
    rw [hl0, if_pos (by omega)]

theorem enc_eq_iff {ix : Index} {R : Nat} (F : Fit ix R) {a la : Nat} (hla : la ≤ R)
    (ab : (ix.get_indices a).1 < ix.x_length * 2 ^ R ∧
      (ix.get_indices a).2.1 < ix.y_length * 2 ^ R ∧
      (ix.get_indices a).2.2 < ix.z_length * 2 ^ R)
    (aenc : ix.get_cell_from_indices (ix.get_indices a) (la : Int) = a)
    (q0 q1 q2 : Nat) (b0 : q0 < ix.x_length * 2 ^ R) (b1 : q1 < ix.y_length * 2 ^ R)
    (b2 : q2 < ix.z_length * 2 ^ R) :
    a = ix.get_cell_from_indices (q0, q1, q2) (la : Int) ↔
      q0 / 2 ^ (R - la) = (ix.get_indices a).1 / 2 ^ (R - la) ∧
      q1 / 2 ^ (R - la) = (ix.get_indices a).2.1 / 2 ^ (R - la) ∧
      q2 / 2 ^ (R - la) = (ix.get_indices a).2.2 / 2 ^ (R - la) := by
  constructor
  · intro e
    have e' : ix.get_cell_from_indices (q0, q1, q2) (la : Int)
        = ix.get_cell_from_indices ((ix.get_indices a).1, (ix.get_indices a).2.1,
          (ix.get_indices a).2.2) (la : Int) := by
      rw [← e]; exact aenc.symm
    exact F.enc_inj hla b0 b1 b2 ab.1 ab.2.1 ab.2.2 e'
  · rintro ⟨e0, e1, e2⟩
    have := F.enc_congr hla b0 b1 b2 ab.1 ab.2.1 ab.2.2 e0 e1 e2
    rw [this]
    exact aenc.symm

theorem mem_children_at_iff {ix : Index} {R : Nat} (F : Fit ix R) (l : Nat) (hl : l < R)
    (q0 q1 q2 : Nat) (b0 : q0 < ix.x_length * 2 ^ R) (b1 : q1 < ix.y_length * 2 ^ R)
    (b2 : q2 < ix.z_length * 2 ^ R)
    (d0 : 2 ^ (R - l) ∣ q0) (d1 : 2 ^ (R - l) ∣ q1) (d2 : 2 ^ (R - l) ∣ q2)
    (x : Nat) (h1 : 1 ≤ x) (h2 : x ≤ ix.last_cell) :
    x ∈ children_at ix (q0, q1, q2) ((l : Int) + 1) (2 ^ (R - l - 1)) ↔
      ix.get_refinement_level x = (l : Int) + 1 ∧
      q0 / 2 ^ (R - l) = (ix.get_indices x).1 / 2 ^ (R - l) ∧
      q1 / 2 ^ (R - l) = (ix.get_indices x).2.1 / 2 ^ (R - l) ∧
      q2 / 2 ^ (R - l) = (ix.get_indices x).2.2 / 2 ^ (R - l) := by
  have hlvl := (F.roundtrip_indices (Nat.le_of_lt hl) b0 b1 b2).2.1
  have hind := (F.roundtrip_indices (Nat.le_of_lt hl) b0 b1 b2).1
  rw [Nat.div_mul_cancel d0, Nat.div_mul_cancel d1, Nat.div_mul_cancel d2] at hind
  have hch := children_of_eq F hlvl hl
  rw [hind] at hch
  rw [← hch, mem_children_of_iff F hlvl hl]
  obtain ⟨lx, hlx, hlvx, xb0, xb1, xb2, _, _, _, xenc⟩ := F.roundtrip_cell h1 h2
  constructor
  · rintro ⟨e1, e2⟩
    refine ⟨e1, ?_⟩
    have hlx1 : lx = l + 1 := by rw [hlvx] at e1; exact_mod_cast e1
    subst hlx1
    have hp := F.parent_enc hl xb0 xb1 xb2
    have c1 : ((l + 1 : Nat) : Int) = (l : Int) + 1 := by push_cast; rfl
    rw [← c1, xenc, e2] at hp
    exact F.enc_inj (Nat.le_of_lt hl) b0 b1 b2 xb0 xb1 xb2 hp
  · rintro ⟨e1, e2⟩
    refine ⟨e1, ?_⟩
    have hlx1 : lx = l + 1 := by rw [hlvx] at e1; exact_mod_cast e1
    subst hlx1
    have hp := F.parent_enc hl xb0 xb1 xb2
    have c1 : ((l + 1 : Nat) : Int) = (l : Int) + 1 := by push_cast; rfl
    rw [← c1, xenc] at hp
    rw [hp]
    exact (F.enc_congr (Nat.le_of_lt hl) b0 b1 b2 xb0 xb1 xb2 e2.1 e2.2.1 e2.2.2).symm


theorem pow_max (R la lb : Nat) :
    max (2 ^ (R - la)) (2 ^ (R - lb)) = 2 ^ (R - min la lb) := by
  rcases Nat.le_total la lb with h | h
  · rw [Nat.min_eq_left h]
    exact max_eq_left (Nat.pow_le_pow_right (by norm_num) (by omega))
  · rw [Nat.min_eq_right h]
    exact max_eq_right (Nat.pow_le_pow_right (by norm_num) (by omega))

theorem div_of_trunc (q s : Nat) (hs : 0 < s) : q / s * s / s = q / s :=
  Nat.mul_div_cancel _ hs

theorem reach_of_mem (g : Dccrg UserData) {R : Nat} (F : Fit g.index R)
    (hreach : g.reach_fits) (o : neighborhood_item_t) (ho : o ∈ g.neighborhood_of) :
    g.index.x_length * 2 ^ R + o.1.natAbs * 2 ^ R < 2 ^ 64 ∧
    g.index.y_length * 2 ^ R + o.2.1.natAbs * 2 ^ R < 2 ^ 64 ∧
    g.index.z_length * 2 ^ R + o.2.2.natAbs * 2 ^ R < 2 ^ 64 := by
  have hRR : g.index.max_refinement_level.toNat = R := by rw [F.hR]; rfl
  have := hreach o ho
  rw [hRR] at this
  exact this

theorem sees_of_mem_find_neighbors_of (g : Dccrg UserData) (hfit : g.index.ids_fit)
    (hinv : g.existence_invariant) (hreach : g.reach_fits) (a b : Nat)
    (ha : g.is_leaf a) (hb : g.is_leaf b) (h : a ∈ g.find_neighbors_of b 1 false) :
    g.sees b a := by
  obtain ⟨F, ⟨a1, a2⟩, la, hla, hlva, hsa, ab, ad, aenc⟩ := cell_facts g hfit hinv ha.1
  obtain ⟨_, ⟨b1, b2⟩, lb, hlb, hlvb, hsb, bb, bd, benc⟩ := cell_facts g hfit hinv hb.1
  generalize hR : g.index.max_refinement_level.toNat = R at *
  rw [find_neighbors_of_eq g b hb.1 hb.2, hlvb, hsb] at h
  obtain ⟨o, ho, h⟩ := List.mem_flatMap.1 h
  unfold sees
  rw [hlva, hlvb, hsa, hsb, pow_max]
  rcases indices_single_cases g (g.index.get_indices b) (2 ^ (R - lb)) o with
    ⟨q, hq, e⟩ | ⟨_, e⟩
  swap
  · rw [e] at h
    simp only [List.flatMap_cons, List.flatMap_nil, List.append_nil] at h
    unfold find_neighbors_of_at at h
    rw [if_pos rfl, List.mem_singleton] at h
    omega
  rw [e] at h
  simp only [List.flatMap_cons, List.flatMap_nil, List.append_nil] at h
  obtain ⟨qb, qd, _⟩ := shifted_facts g F lb hlb _ bb bd o (reach_of_mem g F hreach o ho) q hq
  obtain ⟨q0, q1, q2⟩ := q
  simp only at qb qd
  by_cases h1 : lb < R ∧ map_has g.cell_process
      (g.index.get_cell_from_indices (q0, q1, q2) ((lb : Int) + 1)) = true
  · rw [segment_children g F hfit hinv lb h1.1 q0 q1 q2 qb.1 qb.2.1 qb.2.2 qd.1 qd.2.1 qd.2.2
      h1.2] at h
    have hmem := (List.mem_filter.1 h).1
    rw [mem_children_at_iff F lb h1.1 q0 q1 q2 qb.1 qb.2.1 qb.2.2 qd.1 qd.2.1 qd.2.2 a a1 a2]
      at hmem
    obtain ⟨e1, e2⟩ := hmem
    have hl : la = lb + 1 := by rw [hlva] at e1; exact_mod_cast e1
    have hmin : min la lb = lb := by omega
    rw [hmin]
    exact ⟨by omega, o, ho, (q0, q1, q2), hq, e2⟩
  · by_cases h2 : map_has g.cell_process
        (g.index.get_cell_from_indices (q0, q1, q2) (lb : Int)) = true
    · rw [segment_single g F hinv lb lb hlb (le_refl _) (by omega) q0 q1 q2 qb.1 qb.2.1 qb.2.2
        h2 (by
          by_cases hlR : lb < R
          · right
            by_contra hh
            exact h1 ⟨hlR, by simpa using hh⟩
          · left; omega), List.mem_singleton] at h
      have hl : la = lb := by
        have := (F.roundtrip_indices hlb qb.1 qb.2.1 qb.2.2).2.1
        rw [← h, hlva] at this
        exact_mod_cast this
      subst hl
      rw [Nat.min_self]
      exact ⟨by omega, o, ho, (q0, q1, q2), hq,
        (enc_eq_iff F hla ab aenc q0 q1 q2 qb.1 qb.2.1 qb.2.2).1 h⟩
    · by_cases h3 : 1 ≤ lb ∧ map_has g.cell_process
          (g.index.get_cell_from_indices (q0, q1, q2) ((lb - 1 : Nat) : Int)) = true
      · have c1 : ((lb - 1 : Nat) : Int) + 1 = (lb : Int) := by omega
        rw [segment_single g F hinv lb (lb - 1) hlb (by omega) (by omega) q0 q1 q2
          qb.1 qb.2.1 qb.2.2 h3.2 (by
            right
            rw [c1]
            simpa using h2), List.mem_singleton] at h
        have hl : la = lb - 1 := by
          have := (F.roundtrip_indices (by omega : lb - 1 ≤ R) qb.1 qb.2.1 qb.2.2).2.1
          rw [← h, hlva] at this
          exact_mod_cast this
        have hmin : min la lb = la := by omega
        rw [hmin]
        rw [← hl] at h
        exact ⟨by omega, o, ho, (q0, q1, q2), hq,
          (enc_eq_iff F hla ab aenc q0 q1 q2 qb.1 qb.2.1 qb.2.2).1 h⟩
      · rw [segment_none g F lb hlb (q0, q1, q2) (by
          intro r hr1 hr2 hr3
          have hcases : r = lb + 1 ∨ r = lb ∨ (1 ≤ lb ∧ r = lb - 1) := by omega
          rcases hcases with hr | hr | ⟨hr0, hr⟩
          · subst hr
            by_contra hh
            exact h1 ⟨by omega, by
              have c2 : ((lb + 1 : Nat) : Int) = (lb : Int) + 1 := by push_cast; rfl
              rw [← c2]
              simpa using hh⟩
          · subst hr
            simpa using h2
          · subst hr
            by_contra hh
            exact h3 ⟨hr0, by simpa using hh⟩), List.mem_singleton] at h
        omega


theorem mem_find_neighbors_of_of_sees (g : Dccrg UserData) (hfit : g.index.ids_fit)
    (hinv : g.existence_invariant) (hreach : g.reach_fits) (a b : Nat)
    (ha : g.is_leaf a) (hb : g.is_leaf b) (h : g.sees b a) :
    a ∈ g.find_neighbors_of b 1 false := by
  obtain ⟨F, ⟨a1, a2⟩, la, hla, hlva, hsa, ab, ad, aenc⟩ := cell_facts g hfit hinv ha.1
  obtain ⟨_, ⟨b1, b2⟩, lb, hlb, hlvb, hsb, bb, bd, benc⟩ := cell_facts g hfit hinv hb.1
  generalize hR : g.index.max_refinement_level.toNat = R at *
  rw [find_neighbors_of_eq g b hb.1 hb.2, hlvb, hsb]
  unfold sees at h
  rw [hlva, hlvb, hsa, hsb, pow_max] at h
  obtain ⟨hdiff, o, ho, q, hq, e⟩ := h
  refine List.mem_flatMap.2 ⟨o, ho, ?_⟩
  rw [indices_single_of_shifted g _ _ o q hq]
  simp only [List.flatMap_cons, List.flatMap_nil, List.append_nil]
  obtain ⟨qb, qd, _⟩ := shifted_facts g F lb hlb _ bb bd o (reach_of_mem g F hreach o ho) q hq
  obtain ⟨q0, q1, q2⟩ := q
  simp only at qb qd e
  by_cases hle : la ≤ lb
  · have hmin : min la lb = la := by omega
    rw [hmin] at e
    have hae := (enc_eq_iff F hla ab aenc q0 q1 q2 qb.1 qb.2.1 qb.2.2).2 e
    have hleaf := ha
    rw [hae] at hleaf
    obtain ⟨hex, hnc⟩ := (cover_leaf_iff g F hinv qb.1 qb.2.1 qb.2.2 hla).1 hleaf
    rw [segment_single g F hinv lb la hlb hle (by omega) q0 q1 q2 qb.1 qb.2.1 qb.2.2 hex hnc,
      List.mem_singleton]
    exact hae
  · have hl : la = lb + 1 := by omega
    have hlR : lb < R := by omega
    have hmin : min la lb = lb := by omega
    rw [hmin] at e
    have hS : 0 < 2 ^ (R - lb) := by positivity
    have c1 : ((lb + 1 : Nat) : Int) = (lb : Int) + 1 := by push_cast; rfl
    have hw := window_sibling g F hinv a lb (by omega) (by rw [hlva, hl]) ha.1
    rw [← e.1, ← e.2.1, ← e.2.2, Nat.div_mul_cancel qd.1, Nat.div_mul_cancel qd.2.1,
      Nat.div_mul_cancel qd.2.2, c1] at hw
    rw [segment_children g F hfit hinv lb hlR q0 q1 q2 qb.1 qb.2.1 qb.2.2 qd.1 qd.2.1 qd.2.2
      hw]
    refine List.mem_filter.2 ⟨?_, by simpa using ha.2.symm⟩
    rw [mem_children_at_iff F lb hlR q0 q1 q2 qb.1 qb.2.1 qb.2.2 qd.1 qd.2.1 qd.2.2 a a1 a2]
    exact ⟨by rw [hlva, hl]; push_cast; rfl, e⟩

theorem mem_find_neighbors_of_iff_sees (g : Dccrg UserData) (hfit : g.index.ids_fit)
    (hinv : g.existence_invariant) (hreach : g.reach_fits) (a b : Nat)
    (ha : g.is_leaf a) (hb : g.is_leaf b) :
    a ∈ g.find_neighbors_of b 1 false ↔ g.sees b a :=
  ⟨sees_of_mem_find_neighbors_of g hfit hinv hreach a b ha hb,
    mem_find_neighbors_of_of_sees g hfit hinv hreach a b ha hb⟩

end dccrg
namespace dccrg
open Index Dccrg
variable {UserData : Type}

theorem neg_neg_item (o : neighborhood_item_t) :
    ((- (-o.1), - (-o.2.1), - (-o.2.2)) : neighborhood_item_t) = o := by
  obtain ⟨x, y, z⟩ := o
  simp

theorem mem_neighbors_to_at (g : Dccrg UserData) (ind : indices_t) (size : Nat)
    (level : Int) (b : Nat) :
    b ∈ g.neighbors_to_at ind size level ↔
      ∃ si ∈ g.indices_from_neighborhood ind size g.neighborhood_to,
        si.1 ≠ error_index ∧ b = g.index.get_cell_from_indices si level ∧
        b = g.get_child b := by
  unfold neighbors_to_at
  rw [List.mem_flatMap]
  constructor
  · rintro ⟨si, hsi, hb⟩
    by_cases he : si.1 = error_index
    · rw [if_pos he] at hb; cases hb
    · rw [if_neg he] at hb
      simp only at hb
      by_cases hl : g.index.get_cell_from_indices si level
          = g.get_child (g.index.get_cell_from_indices si level)
      · rw [if_pos hl, List.mem_singleton] at hb
        subst hb
        exact ⟨si, hsi, he, rfl, hl⟩
      · rw [if_neg hl] at hb; cases hb
  · rintro ⟨si, hsi, he, hb, hl⟩
    refine ⟨si, hsi, ?_⟩
    rw [if_neg he]
    simp only
    rw [← hb, if_pos hl]
    exact List.mem_singleton.2 rfl

theorem neighbors_to_at_of_mem (g : Dccrg UserData) {R : Nat} (F : Fit g.index R)
    (hreach : g.reach_fits)
    (hto : g.neighborhood_to = g.neighborhood_of.map fun o => (-o.1, -o.2.1, -o.2.2))
    (l : Nat) (hl : l ≤ R) (p : indices_t)
    (pb : p.1 < g.index.x_length * 2 ^ R ∧ p.2.1 < g.index.y_length * 2 ^ R ∧
      p.2.2 < g.index.z_length * 2 ^ R)
    (pd : 2 ^ (R - l) ∣ p.1 ∧ 2 ^ (R - l) ∣ p.2.1 ∧ 2 ^ (R - l) ∣ p.2.2)
    (b : Nat) (h : b ∈ g.neighbors_to_at p (2 ^ (R - l)) (l : Int)) :
    g.index.get_refinement_level b = (l : Int) ∧
    ∃ o ∈ g.neighborhood_of, g.shifted (g.index.get_indices b) (2 ^ (R - l)) o p := by
  obtain ⟨si, hsi, he, hbe, _⟩ := (mem_neighbors_to_at g p _ _ b).1 h
  obtain ⟨o', ho', hcase⟩ := mem_indices_from_neighborhood g _ _ _ _ hsi
  rcases hcase with herr | hsh
  · rw [herr] at he
    exact absurd rfl he
  rw [hto] at ho'
  obtain ⟨o, ho, rfl⟩ := List.mem_map.1 ho'
  have hov := reach_of_mem g F hreach o ho
  have hov' : g.index.x_length * 2 ^ R + (-o.1).natAbs * 2 ^ R < 2 ^ 64 ∧
      g.index.y_length * 2 ^ R + (-o.2.1).natAbs * 2 ^ R < 2 ^ 64 ∧
      g.index.z_length * 2 ^ R + (-o.2.2).natAbs * 2 ^ R < 2 ^ 64 := by
    rw [Int.natAbs_neg, Int.natAbs_neg, Int.natAbs_neg]
    exact hov
  obtain ⟨sb, sd, hrev⟩ := shifted_facts g F l hl p pb pd (-o.1, -o.2.1, -o.2.2) hov' si hsh
  rw [neg_neg_item] at hrev
  obtain ⟨s0, s1, s2⟩ := si
  simp only at sb sd
  obtain ⟨hind, hlvl, _⟩ := F.roundtrip_indices hl sb.1 sb.2.1 sb.2.2
  rw [Nat.div_mul_cancel sd.1, Nat.div_mul_cancel sd.2.1, Nat.div_mul_cancel sd.2.2] at hind
  rw [hbe, hlvl, hind]
  exact ⟨rfl, o, ho, hrev⟩

theorem mem_neighbors_to_at_of_shifted (g : Dccrg UserData) {R : Nat} (F : Fit g.index R)
    (hreach : g.reach_fits)
    (hto : g.neighborhood_to = g.neighborhood_of.map fun o => (-o.1, -o.2.1, -o.2.2))
    (l : Nat) (hl : l ≤ R) (p : indices_t) (b : Nat) (hb : g.get_child b = b)
    (bb : (g.index.get_indices b).1 < g.index.x_length * 2 ^ R ∧
      (g.index.get_indices b).2.1 < g.index.y_length * 2 ^ R ∧
      (g.index.get_indices b).2.2 < g.index.z_length * 2 ^ R)
    (bd : 2 ^ (R - l) ∣ (g.index.get_indices b).1 ∧ 2 ^ (R - l) ∣ (g.index.get_indices b).2.1 ∧
      2 ^ (R - l) ∣ (g.index.get_indices b).2.2)
    (benc : g.index.get_cell_from_indices (g.index.get_indices b) (l : Int) = b)
    (o : neighborhood_item_t) (ho : o ∈ g.neighborhood_of)
    (h : g.shifted (g.index.get_indices b) (2 ^ (R - l)) o p) :
    b ∈ g.neighbors_to_at p (2 ^ (R - l)) (l : Int) := by
  obtain ⟨_, _, hrev⟩ := shifted_facts g F l hl _ bb bd o (reach_of_mem g F hreach o ho) p h
  rw [mem_neighbors_to_at]
  refine ⟨g.index.get_indices b, ?_, ?_, benc.symm, hb.symm⟩
  · have hmem : (-o.1, -o.2.1, -o.2.2) ∈ g.neighborhood_to := by
      rw [hto]
      exact List.mem_map.2 ⟨o, ho, rfl⟩
    exact indices_from_neighborhood_mem g p _ _ _ hmem _ _ _ hrev.1 hrev.2.1 hrev.2.2
  · have hx := F.x_lt (le_refl R)
    unfold error_index
    omega


theorem find_neighbors_to_eq (g : Dccrg UserData) (a : Nat) (ha : g.is_leaf a)
    (a1 : 1 ≤ a) (a2 : a ≤ g.index.last_cell) :
    g.find_neighbors_to a = set_insert_range []
      ((if g.index.get_refinement_level a > 0 then
          g.neighbors_to_at (g.index.get_indices (g.get_parent a))
            (g.index.get_cell_size_in_indices (g.get_parent a))
            (g.index.get_refinement_level a - 1)
        else []) ++
        (if g.index.get_refinement_level a < g.index.max_refinement_level then
          (g.get_all_children a).flatMap fun child =>
            g.neighbors_to_at (g.index.get_indices child)
              (g.index.get_cell_size_in_indices ((g.get_all_children a).headD 0))
              (g.index.get_refinement_level a + 1)
        else []) ++
        g.neighbors_to_at (g.index.get_indices a) (g.index.get_cell_size_in_indices a)
          (g.index.get_refinement_level a)) := by
  unfold find_neighbors_to
  rw [if_neg (by
    intro h
    rcases h with h | h | h | h
    · omega
    · omega
    · exact h ha.1
    · exact h ha.2.symm)]

theorem parent_facts {ix : Index} {R : Nat} (F : Fit ix R) {a k : Nat} (hk : k < R)
    (ab : (ix.get_indices a).1 < ix.x_length * 2 ^ R ∧
      (ix.get_indices a).2.1 < ix.y_length * 2 ^ R ∧
      (ix.get_indices a).2.2 < ix.z_length * 2 ^ R)
    (aenc : ix.get_cell_from_indices (ix.get_indices a) ((k + 1 : Nat) : Int) = a) :
    ix.get_refinement_level (ix.get_parent_for_removed a) = (k : Int) ∧
    ix.get_indices (ix.get_parent_for_removed a)
      = ((ix.get_indices a).1 / 2 ^ (R - k) * 2 ^ (R - k),
        (ix.get_indices a).2.1 / 2 ^ (R - k) * 2 ^ (R - k),
        (ix.get_indices a).2.2 / 2 ^ (R - k) * 2 ^ (R - k)) ∧
    ix.get_cell_size_in_indices (ix.get_parent_for_removed a) = 2 ^ (R - k) := by
  have hp := F.parent_enc hk ab.1 ab.2.1 ab.2.2
  have c1 : ((k + 1 : Nat) : Int) = (k : Int) + 1 := by push_cast; rfl
  rw [← c1, aenc] at hp
  obtain ⟨hind, hlvl, _⟩ := F.roundtrip_indices (Nat.le_of_lt hk) ab.1 ab.2.1 ab.2.2
  rw [hp]
  exact ⟨hlvl, hind, F.size_eq hlvl⟩

theorem sees_of_mem_find_neighbors_to (g : Dccrg UserData) (hfit : g.index.ids_fit)
    (hinv : g.existence_invariant) (hreach : g.reach_fits)
    (hto : g.neighborhood_to = g.neighborhood_of.map fun o => (-o.1, -o.2.1, -o.2.2))
    (a b : Nat) (ha : g.is_leaf a) (h : b ∈ g.find_neighbors_to a) : g.sees b a := by
  obtain ⟨F, ⟨a1, a2⟩, la, hla, hlva, hsa, ab, ad, aenc⟩ := cell_facts g hfit hinv ha.1
  generalize hR : g.index.max_refinement_level.toNat = R at *
  rw [find_neighbors_to_eq g a ha a1 a2, mem_set_insert_range] at h
  have key : ∀ (l : Nat) (hl : l ≤ R) (p : indices_t),
      (p.1 < g.index.x_length * 2 ^ R ∧ p.2.1 < g.index.y_length * 2 ^ R ∧
        p.2.2 < g.index.z_length * 2 ^ R) →
      (2 ^ (R - l) ∣ p.1 ∧ 2 ^ (R - l) ∣ p.2.1 ∧ 2 ^ (R - l) ∣ p.2.2) →
      (la ≤ l + 1 ∧ l ≤ la + 1) →
      (p.1 / 2 ^ (R - min la l) = (g.index.get_indices a).1 / 2 ^ (R - min la l) ∧
        p.2.1 / 2 ^ (R - min la l) = (g.index.get_indices a).2.1 / 2 ^ (R - min la l) ∧
        p.2.2 / 2 ^ (R - min la l) = (g.index.get_indices a).2.2 / 2 ^ (R - min la l)) →
      b ∈ g.neighbors_to_at p (2 ^ (R - l)) (l : Int) → g.sees b a := by
    intro l hl p pb pd hd hdiv hmem
    obtain ⟨hlvb, o, ho, hsh⟩ := neighbors_to_at_of_mem g F hreach hto l hl p pb pd b hmem
    unfold sees
    rw [hlva, hlvb, hsa, F.size_eq hlvb, pow_max]
    exact ⟨by omega, o, ho, p, hsh, hdiv⟩
  rcases h with h | h
  · cases h
  rcases List.mem_append.1 h with h | h
  · rcases List.mem_append.1 h with h | h
    · -- larger
      by_cases h0 : g.index.get_refinement_level a > 0
      · rw [if_pos h0] at h
        obtain ⟨k, rfl⟩ : ∃ k, la = k + 1 := ⟨la - 1, by rw [hlva] at h0; omega⟩
        have hk : k < R := by omega
        obtain ⟨p1, p2, p3⟩ := parent_facts F hk ab aenc
        rw [(get_parent_eq g hfit hinv ha.1).1, p2, p3, hlva] at h
        have c1 : ((k + 1 : Nat) : Int) - 1 = (k : Int) := by push_cast; ring
        rw [c1] at h
        have hS : 0 < 2 ^ (R - k) := by positivity
        have hm : min (k + 1) k = k := by omega
        refine key k (Nat.le_of_lt hk) _
          ⟨lt_of_le_of_lt (Nat.div_mul_le_self _ _) ab.1,
            lt_of_le_of_lt (Nat.div_mul_le_self _ _) ab.2.1,
            lt_of_le_of_lt (Nat.div_mul_le_self _ _) ab.2.2⟩
          ⟨Nat.dvd_mul_left _ _, Nat.dvd_mul_left _ _, Nat.dvd_mul_left _ _⟩
          ⟨by omega, by omega⟩ ?_ h
        rw [hm]
        exact ⟨div_of_trunc _ _ hS, div_of_trunc _ _ hS, div_of_trunc _ _ hS⟩
      · rw [if_neg h0] at h; cases h
    · -- smaller
      by_cases h0 : g.index.get_refinement_level a < g.index.max_refinement_level
      · rw [if_pos h0] at h
        have hk : la < R := by rw [hlva, F.hR] at h0; omega
        have hch := get_all_children_eq g F ha.1 hlva hk
        obtain ⟨ch, hch1, h⟩ := List.mem_flatMap.1 h
        rw [hch] at hch1 h
        have c1 : ((la + 1 : Nat) : Int) = (la : Int) + 1 := by push_cast; rfl
        have hfirst : g.index.get_cell_size_in_indices
            ((children_at g.index (g.index.get_indices a) ((la : Int) + 1)
              (2 ^ (R - la - 1))).headD 0) = 2 ^ (R - (la + 1)) := by
          simp only [children_at, List.headD_cons]
          apply F.size_eq
          rw [← c1]
          exact (F.roundtrip_indices (Nat.succ_le_of_lt hk) ab.1 ab.2.1 ab.2.2).2.1
        rw [hfirst, hlva, ← c1] at h
        -- the child is a valid cell of level la + 1 inside a
        have hchv : 1 ≤ ch ∧ ch ≤ g.index.last_cell := by
          rw [← children_of_eq F hlva hk] at hch1
          have := children_of_facts hfit a1 a2 hch1
          exact ⟨this.2.2.1, this.2.2.2.1⟩
        obtain ⟨lc, hlc, hlvc, cb0, cb1, cb2, cd0, cd1, cd2, _⟩ :=
          F.roundtrip_cell hchv.1 hchv.2
        have hin := (mem_children_at_iff F la hk _ _ _ ab.1 ab.2.1 ab.2.2 ad.1 ad.2.1 ad.2.2
          ch hchv.1 hchv.2).1 hch1
        have hlc1 : lc = la + 1 := by
          have := hin.1
          rw [hlvc] at this
          exact_mod_cast this
        subst hlc1
        have hm : min la (la + 1) = la := by omega
        refine key (la + 1) hlc _ ⟨cb0, cb1, cb2⟩ ⟨cd0, cd1, cd2⟩ ⟨by omega, by omega⟩ ?_ h
        rw [hm]
        exact ⟨hin.2.1.symm, hin.2.2.1.symm, hin.2.2.2.symm⟩
      · rw [if_neg h0] at h; cases h
  · -- same
    rw [hsa, hlva] at h
    have hm : min la la = la := Nat.min_self la
    refine key la hla _ ab ad ⟨by omega, by omega⟩ ?_ h
    rw [hm]
    exact ⟨rfl, rfl, rfl⟩


theorem aligned_eq_of_div (s x y : Nat) (hx : s ∣ x) (hy : s ∣ y)
    (h : x / s = y / s) : x = y := by
  rw [← Nat.div_mul_cancel hx, ← Nat.div_mul_cancel hy, h]

theorem mem_find_neighbors_to_of_sees (g : Dccrg UserData) (hfit : g.index.ids_fit)
    (hinv : g.existence_invariant) (hreach : g.reach_fits)
    (hto : g.neighborhood_to = g.neighborhood_of.map fun o => (-o.1, -o.2.1, -o.2.2))
    (a b : Nat) (ha : g.is_leaf a) (hb : g.is_leaf b) (h : g.sees b a) :
    b ∈ g.find_neighbors_to a := by
  obtain ⟨F, ⟨a1, a2⟩, la, hla, hlva, hsa, ab, ad, aenc⟩ := cell_facts g hfit hinv ha.1
  obtain ⟨_, ⟨b1, b2⟩, lb, hlb, hlvb, hsb, bb, bd, benc⟩ := cell_facts g hfit hinv hb.1
  generalize hR : g.index.max_refinement_level.toNat = R at *
  unfold sees at h
  rw [hlva, hlvb, hsa, hsb, pow_max] at h
  obtain ⟨hdiff, o, ho, q, hq, e⟩ := h
  obtain ⟨qb, qd, _⟩ := shifted_facts g F lb hlb _ bb bd o (reach_of_mem g F hreach o ho) q hq
  have hmem : b ∈ g.neighbors_to_at q (2 ^ (R - lb)) (lb : Int) :=
    mem_neighbors_to_at_of_shifted g F hreach hto lb hlb q b hb.2 bb bd benc o ho hq
  rw [find_neighbors_to_eq g a ha a1 a2, mem_set_insert_range]
  right
  obtain ⟨q0, q1, q2⟩ := q
  simp only at qb qd e
  have hcases : la = lb ∨ la = lb + 1 ∨ lb = la + 1 := by omega
  rcases hcases with hl | hl | hl
  · -- same
    subst hl
    rw [Nat.min_self] at e
    have hS : 0 < 2 ^ (R - la) := by positivity
    have e0 := aligned_eq_of_div _ _ _ qd.1 ad.1 e.1
    have e1 := aligned_eq_of_div _ _ _ qd.2.1 ad.2.1 e.2.1
    have e2 := aligned_eq_of_div _ _ _ qd.2.2 ad.2.2 e.2.2
    rw [e0, e1, e2] at hmem
    apply List.mem_append_right
    rw [hsa, hlva]
    exact hmem
  · -- b is larger than a
    subst hl
    have hk : lb < R := by omega
    have hm : min (lb + 1) lb = lb := by omega
    rw [hm] at e
    apply List.mem_append_left
    apply List.mem_append_left
    rw [if_pos (by rw [hlva]; push_cast; omega)]
    obtain ⟨p1, p2, p3⟩ := parent_facts F hk ab aenc
    rw [(get_parent_eq g hfit hinv ha.1).1, p2, p3, hlva]
    have c1 : ((lb + 1 : Nat) : Int) - 1 = (lb : Int) := by push_cast; ring
    rw [c1, ← e.1, ← e.2.1, ← e.2.2, Nat.div_mul_cancel qd.1, Nat.div_mul_cancel qd.2.1,
      Nat.div_mul_cancel qd.2.2]
    exact hmem
  · -- b is smaller than a
    subst hl
    have hk : la < R := by omega
    have hm : min la (la + 1) = la := by omega
    rw [hm] at e
    apply List.mem_append_left
    apply List.mem_append_right
    rw [if_pos (by rw [hlva, F.hR]; exact_mod_cast hk)]
    have c1 : ((la + 1 : Nat) : Int) = (la : Int) + 1 := by push_cast; rfl
    have hch := get_all_children_eq g F ha.1 hlva hk
    rw [hch]
    have hfirst : g.index.get_cell_size_in_indices
        ((children_at g.index (g.index.get_indices a) ((la : Int) + 1)
          (2 ^ (R - la - 1))).headD 0) = 2 ^ (R - (la + 1)) := by
      simp only [children_at, List.headD_cons]
      apply F.size_eq
      rw [← c1]
      exact (F.roundtrip_indices (Nat.succ_le_of_lt hk) ab.1 ab.2.1 ab.2.2).2.1
    rw [hfirst, hlva, ← c1]
    -- the child of a at the position q
    obtain ⟨hind, hlvl, hlow, _⟩ := F.roundtrip_indices hlb qb.1 qb.2.1 qb.2.2
    rw [Nat.div_mul_cancel qd.1, Nat.div_mul_cancel qd.2.1, Nat.div_mul_cancel qd.2.2] at hind
    have hne : g.index.get_cell_from_indices (q0, q1, q2) ((la + 1 : Nat) : Int) ≠ 0 := by
      omega
    obtain ⟨_, _, _, _, _, _, v1, v2⟩ := enc_facts hfit hne
    refine List.mem_flatMap.2 ⟨g.index.get_cell_from_indices (q0, q1, q2)
      ((la + 1 : Nat) : Int), ?_, ?_⟩
    · refine (mem_children_at_iff F la hk _ _ _ ab.1 ab.2.1 ab.2.2 ad.1 ad.2.1 ad.2.2 _
        v1 v2).2 ?_
      rw [hlvl, hind]
      exact ⟨c1, e.1.symm, e.2.1.symm, e.2.2.symm⟩
    · rw [hind]
      exact hmem

theorem mem_find_neighbors_to_iff_sees (g : Dccrg UserData) (hfit : g.index.ids_fit)
    (hinv : g.existence_invariant) (hreach : g.reach_fits)
    (hto : g.neighborhood_to = g.neighborhood_of.map fun o => (-o.1, -o.2.1, -o.2.2))
    (a b : Nat) (ha : g.is_leaf a) (hb : g.is_leaf b) :
    b ∈ g.find_neighbors_to a ↔ g.sees b a :=
  ⟨sees_of_mem_find_neighbors_to g hfit hinv hreach hto a b ha,
    mem_find_neighbors_to_of_sees g hfit hinv hreach hto a b ha hb⟩

theorem find_neighbors_to_nodup (g : Dccrg UserData) (a : Nat) :
    (g.find_neighbors_to a).Nodup := by
  unfold find_neighbors_to
  split
  · exact List.nodup_nil
  · exact set_insert_range_nodup _ _ List.nodup_nil


theorem reach_fits_of_level (g : Dccrg UserData) {R : Nat} (F : Fit g.index R) (hR : 1 ≤ R)
    (hnb : ∀ o ∈ g.neighborhood_of,
      o.1.natAbs < 2 ^ 31 ∧ o.2.1.natAbs < 2 ^ 31 ∧ o.2.2.natAbs < 2 ^ 31) :
    g.reach_fits := by
  intro o ho
  have hRR : g.index.max_refinement_level.toNat = R := by rw [F.hR]; rfl
  rw [hRR]
  obtain ⟨n0, n1, n2⟩ := hnb o ho
  exact ⟨(F.shift_fits hR (le_refl R) _ n0).1, (F.shift_fits hR (le_refl R) _ n1).2.1,
    (F.shift_fits hR (le_refl R) _ n2).2.2⟩

end dccrg
namespace dccrg
open Index Dccrg
variable {UserData : Type}

theorem leaf_of_get_child (g : Dccrg UserData) {a : Nat} (h0 : a ≠ 0)
    (h : a = g.get_child a) : g.is_leaf a := by
  constructor
  · by_contra hn
    unfold get_child at h
    rw [if_pos hn] at h
    exact h0 h
  · exact h.symm

theorem find_neighbors_to_entry_leaf (g : Dccrg UserData) (a b : Nat)
    (h : b ∈ g.find_neighbors_to a) (h0 : b ≠ 0) : g.is_leaf b := by
  unfold find_neighbors_to at h
  split at h
  · cases h
  · rw [mem_set_insert_range] at h
    rcases h with h | h
    · cases h
    have key : ∀ ind size level, b ∈ g.neighbors_to_at ind size level → g.is_leaf b := by
      intro ind size level hb
      obtain ⟨_, _, _, _, hl⟩ := (mem_neighbors_to_at g ind size level b).1 hb
      exact leaf_of_get_child g h0 hl
    rcases List.mem_append.1 h with h | h
    · rcases List.mem_append.1 h with h | h
      · split at h
        · exact key _ _ _ h
        · cases h
      · split at h
        · obtain ⟨ch, _, h⟩ := List.mem_flatMap.1 h
          exact key _ _ _ h
        · cases h
    · exact key _ _ _ h

theorem segment_cases (g : Dccrg UserData) {R : Nat} (F : Fit g.index R)
    (hfit : g.index.ids_fit) (hinv : g.existence_invariant) (l : Nat) (hl : l ≤ R)
    (q0 q1 q2 : Nat) (b0 : q0 < g.index.x_length * 2 ^ R)
    (b1 : q1 < g.index.y_length * 2 ^ R) (b2 : q2 < g.index.z_length * 2 ^ R)
    (d0 : 2 ^ (R - l) ∣ q0) (d1 : 2 ^ (R - l) ∣ q1) (d2 : 2 ^ (R - l) ∣ q2) :
    (l < R ∧ map_has g.cell_process
        (g.index.get_cell_from_indices (q0, q1, q2) ((l : Int) + 1)) = true ∧
      g.find_neighbors_of_at (l : Int) (2 ^ (R - l)) 1 (q0, q1, q2)
        = (children_at g.index (q0, q1, q2) ((l : Int) + 1) (2 ^ (R - l - 1))).filter
            fun c => decide (c = g.get_child c)) ∨
    (∃ r : Nat, r ≤ l ∧ l ≤ r + 1 ∧
      g.is_leaf (g.index.get_cell_from_indices (q0, q1, q2) (r : Int)) ∧
      g.find_neighbors_of_at (l : Int) (2 ^ (R - l)) 1 (q0, q1, q2)
        = [g.index.get_cell_from_indices (q0, q1, q2) (r : Int)]) ∨
    ((∀ r : Nat, l ≤ r + 1 → r ≤ l + 1 → r ≤ R →
        map_has g.cell_process (g.index.get_cell_from_indices (q0, q1, q2) (r : Int)) = false) ∧
      g.find_neighbors_of_at (l : Int) (2 ^ (R - l)) 1 (q0, q1, q2) = [0]) := by
  by_cases h1 : l < R ∧ map_has g.cell_process
      (g.index.get_cell_from_indices (q0, q1, q2) ((l : Int) + 1)) = true
  · exact Or.inl ⟨h1.1, h1.2,
      segment_children g F hfit hinv l h1.1 q0 q1 q2 b0 b1 b2 d0 d1 d2 h1.2⟩
  · right
    by_cases h2 : map_has g.cell_process
        (g.index.get_cell_from_indices (q0, q1, q2) (l : Int)) = true
    · have hnc : l = R ∨ map_has g.cell_process
          (g.index.get_cell_from_indices (q0, q1, q2) ((l : Int) + 1)) = false := by
        by_cases hlR : l < R
        · right
          by_contra hh
          exact h1 ⟨hlR, by simpa using hh⟩
        · left; omega
      exact Or.inl ⟨l, le_refl _, by omega,
        (cover_leaf_iff g F hinv b0 b1 b2 hl).2 ⟨h2, hnc⟩,
        segment_single g F hinv l l hl (le_refl _) (by omega) q0 q1 q2 b0 b1 b2 h2 hnc _⟩
    · by_cases h3 : 1 ≤ l ∧ map_has g.cell_process
          (g.index.get_cell_from_indices (q0, q1, q2) ((l - 1 : Nat) : Int)) = true
      · have c1 : ((l - 1 : Nat) : Int) + 1 = (l : Int) := by omega
        have hnc : l - 1 = R ∨ map_has g.cell_process
            (g.index.get_cell_from_indices (q0, q1, q2) (((l - 1 : Nat) : Int) + 1))
              = false := by
          right
          rw [c1]
          simpa using h2
        exact Or.inl ⟨l - 1, by omega, by omega,
          (cover_leaf_iff g F hinv b0 b1 b2 (by omega)).2 ⟨h3.2, hnc⟩,
          segment_single g F hinv l (l - 1) hl (by omega) (by omega) q0 q1 q2 b0 b1 b2 h3.2
            hnc _⟩
      · have hno : ∀ r : Nat, l ≤ r + 1 → r ≤ l + 1 → r ≤ R →
            map_has g.cell_process
              (g.index.get_cell_from_indices (q0, q1, q2) (r : Int)) = false := by
          intro r hr1 hr2 hr3
          have hcases : r = l + 1 ∨ r = l ∨ (1 ≤ l ∧ r = l - 1) := by omega
          rcases hcases with hr | hr | ⟨hr0, hr⟩
          · subst hr
            by_contra hh
            exact h1 ⟨by omega, by
              have c2 : ((l + 1 : Nat) : Int) = (l : Int) + 1 := by push_cast; rfl
              rw [← c2]
              simpa using hh⟩
          · subst hr
            simpa using h2
          · subst hr
            by_contra hh
            exact h3 ⟨hr0, by simpa using hh⟩
        exact Or.inr ⟨hno, segment_none g F l hl (q0, q1, q2) hno _⟩

theorem find_neighbors_of_entry_leaf (g : Dccrg UserData) (hfit : g.index.ids_fit)
    (hinv : g.existence_invariant) (hreach : g.reach_fits) (a b : Nat)
    (h : a ∈ g.find_neighbors_of b 1 false) (h0 : a ≠ 0) : g.is_leaf a := by
  have hb := find_neighbors_of_leaf g b a h
  obtain ⟨F, ⟨b1, b2⟩, lb, hlb, hlvb, hsb, bb, bd, benc⟩ := cell_facts g hfit hinv hb.1
  generalize hR : g.index.max_refinement_level.toNat = R at *
  rw [find_neighbors_of_eq g b hb.1 hb.2, hlvb, hsb] at h
  obtain ⟨o, ho, h⟩ := List.mem_flatMap.1 h
  rcases indices_single_cases g (g.index.get_indices b) (2 ^ (R - lb)) o with
    ⟨q, hq, e⟩ | ⟨_, e⟩
  swap
  · rw [e] at h
    simp only [List.flatMap_cons, List.flatMap_nil, List.append_nil] at h
    unfold find_neighbors_of_at at h
    rw [if_pos rfl, List.mem_singleton] at h
    exact absurd h h0
  rw [e] at h
  simp only [List.flatMap_cons, List.flatMap_nil, List.append_nil] at h
  obtain ⟨qb, qd, _⟩ := shifted_facts g F lb hlb _ bb bd o (reach_of_mem g F hreach o ho) q hq
  obtain ⟨q0, q1, q2⟩ := q
  simp only at qb qd
  rcases segment_cases g F hfit hinv lb hlb q0 q1 q2 qb.1 qb.2.1 qb.2.2 qd.1 qd.2.1 qd.2.2 with
    ⟨_, _, e⟩ | ⟨r, _, _, hleaf, e⟩ | ⟨_, e⟩
  · rw [e] at h
    have := (List.mem_filter.1 h).2
    exact leaf_of_get_child g h0 (by simpa using this)
  · rw [e, List.mem_singleton] at h
    rw [h]
    exact hleaf
  · rw [e, List.mem_singleton] at h
    exact absurd h h0

end dccrg
namespace dccrg
open Index Dccrg
variable {UserData : Type}

theorem neighbor_position_iff (g : Dccrg UserData) (hfit : g.index.ids_fit)
    (hinv : g.existence_invariant) (hreach : g.reach_fits) (c : Nat)
    (hc : map_has g.cell_process c = true) (o : neighborhood_item_t)
    (ho : o ∈ g.neighborhood_of) (q : indices_t) :
    g.neighbor_position c o = some q
      ↔ g.shifted (g.index.get_indices c) (g.index.get_cell_size_in_indices c) o q := by
  obtain ⟨F, _, l, hl, _, hs, pb, pd, _⟩ := cell_facts g hfit hinv hc
  have hov := reach_of_mem g F hreach o ho
  generalize hR : g.index.max_refinement_level.toNat = R at *
  have hs0 : 0 < 2 ^ (R - l) := by positivity
  have hsR : 2 ^ (R - l) ∣ 2 ^ R := pow_dvd_pow 2 (Nat.sub_le _ _)
  have hle : 2 ^ (R - l) ≤ 2 ^ R := Nat.pow_le_pow_right (by norm_num) (Nat.sub_le _ _)
  have hov' : ∀ (G k : Nat), G + k * 2 ^ R < 2 ^ 64 → G + k * 2 ^ (R - l) < 2 ^ 64 := by
    intro G k hk
    have := Nat.mul_le_mul_left k hle
    omega
  unfold shifted neighbor_position
  rw [F.hR, F.xlen_eq (le_refl R), F.ylen_eq (le_refl R), F.zlen_eq (le_refl R), Int.toNat_natCast, hs,
    dimension_eq_shift_index _ _ _ _ _ hs0 (Dvd.dvd.mul_left hsR _) pb.1 pd.1
      (hov' _ _ hov.1),
    dimension_eq_shift_index _ _ _ _ _ hs0 (Dvd.dvd.mul_left hsR _) pb.2.1 pd.2.1
      (hov' _ _ hov.2.1),
    dimension_eq_shift_index _ _ _ _ _ hs0 (Dvd.dvd.mul_left hsR _) pb.2.2 pd.2.2
      (hov' _ _ hov.2.2)]
  obtain ⟨q0, q1, q2⟩ := q
  simp only [Option.bind_eq_some, Option.map_eq_some', Prod.mk.injEq]
  constructor
  · rintro ⟨x, hx, y, hy, z, hz, e0, e1, e2⟩
    subst e0 e1 e2
    exact ⟨hx, hy, hz⟩
  · rintro ⟨hx, hy, hz⟩
    exact ⟨q0, hx, q1, hy, q2, hz, rfl, rfl, rfl⟩

theorem covering_leaf_eq (g : Dccrg UserData) (hfit : g.index.ids_fit)
    (hinv : g.existence_invariant) (p : indices_t)
    (h0 : p.1 < g.index.x_length * 2 ^ g.index.max_refinement_level.toNat)
    (h1 : p.2.1 < g.index.y_length * 2 ^ g.index.max_refinement_level.toNat)
    (h2 : p.2.2 < g.index.z_length * 2 ^ g.index.max_refinement_level.toNat)
    (n : Nat) (hn : g.is_leaf n) (hf : g.in_footprint n p) :
    g.covering_leaf p = some n := by
  obtain ⟨m, _, hu⟩ := covered_once_of_invariant g hfit hinv p h0 h1 h2
  unfold covering_leaf
  cases hfind : (map_keys g.cell_process).find?
      fun n => decide (g.is_leaf n ∧ g.in_footprint n p) with
  | none =>
    have := List.find?_eq_none.1 hfind n ((mem_map_keys _ _).2 hn.1)
    simp only [decide_eq_true_eq] at this
    exact absurd ⟨hn, hf⟩ this
  | some n' =>
    have := List.find?_some hfind
    simp only [decide_eq_true_eq] at this
    rw [hu n' this, hu n ⟨hn, hf⟩]

theorem enc_in_footprint (g : Dccrg UserData) {R : Nat} (F : Fit g.index R) {r : Nat}
    (hr : r ≤ R) {i0 i1 i2 : Nat} (h0 : i0 < g.index.x_length * 2 ^ R)
    (h1 : i1 < g.index.y_length * 2 ^ R) (h2 : i2 < g.index.z_length * 2 ^ R) :
    g.in_footprint (g.index.get_cell_from_indices (i0, i1, i2) (r : Int)) (i0, i1, i2) := by
  obtain ⟨q1, q2, _, _⟩ := F.roundtrip_indices hr h0 h1 h2
  have hpos : 0 < 2 ^ (R - r) := by positivity
  unfold in_footprint
  rw [F.size_eq q2, q1]
  refine ⟨Nat.div_mul_le_self _ _, ?_, Nat.div_mul_le_self _ _, ?_,
    Nat.div_mul_le_self _ _, ?_⟩ <;> exact Nat.lt_div_mul_add hpos

/-- A leaf whose footprint holds an index triple is the cell of its level at the
triple, and the cell of every coarser level at the triple is in the directory. -/
theorem leaf_cover (g : Dccrg UserData) {R : Nat} (F : Fit g.index R)
    (hinv : g.existence_invariant) {i0 i1 i2 : Nat} (h0 : i0 < g.index.x_length * 2 ^ R)
    (h1 : i1 < g.index.y_length * 2 ^ R) (h2 : i2 < g.index.z_length * 2 ^ R)
    (n : Nat) (hn : g.is_leaf n) (hf : g.in_footprint n (i0, i1, i2)) :
    ∃ r : Nat, r ≤ R ∧ g.index.get_refinement_level n = (r : Int) ∧
      n = g.index.get_cell_from_indices (i0, i1, i2) (r : Int) ∧
      (∀ y : Nat, r < y → y ≤ R →
        map_has g.cell_process (g.index.get_cell_from_indices (i0, i1, i2) (y : Int))
          = false) := by
  have hv := hinv.1 n ((mem_map_keys _ _).2 hn.1)
  obtain ⟨r, hr, hlvl, _⟩ := F.roundtrip_cell hv.1 hv.2
  unfold in_footprint at hf
  rw [F.size_eq hlvl] at hf
  obtain ⟨f0, f0', f1, f1', f2, f2'⟩ := hf
  have hc := F.eq_enc_of_footprint hlvl f0 f0' f1 f1' f2 f2' h0 h1 h2
  refine ⟨r, hr, hlvl, hc, ?_⟩
  intro y hry hy
  rw [hc] at hn
  obtain ⟨_, hno⟩ := (cover_leaf_iff g F hinv h0 h1 h2 hr).1 hn
  rcases hno with hno | hno
  · omega
  · by_contra hE
    have hE' : map_has g.cell_process
        (g.index.get_cell_from_indices (i0, i1, i2) (y : Int)) = true := by simpa using hE
    have e : y = (r + 1) + (y - (r + 1)) := by omega
    rw [e] at hE'
    have := cover_down g F hinv h0 h1 h2 (y - (r + 1)) (r + 1) (by omega) hE'
    have e1 : ((r + 1 : Nat) : Int) = (r : Int) + 1 := by push_cast; rfl
    rw [e1, hno] at this
    exact Bool.noConfusion this

end dccrg

namespace dccrg
open Index Dccrg
variable {UserData : Type}

theorem flatMap_congr_mem {α β : Type} (l : List α) (f h : α → List β)
    (e : ∀ x ∈ l, f x = h x) : l.flatMap f = l.flatMap h := by
  induction l with
  | nil => rfl
  | cons a t ih =>
    simp only [List.flatMap_cons]
    rw [e a (List.mem_cons_self _ _), ih fun x hx => e x (List.mem_cons_of_mem _ hx)]

theorem div_eq_of_cube (s k x : Nat) (h1 : s * k ≤ x) (h2 : x < s * k + s) :
    x / s = s * k / s := by
  have hs : 0 < s := by
    rcases Nat.eq_zero_or_pos s with h | h
    · subst h; omega
    · exact h
  rw [Nat.mul_div_cancel_left _ hs]
  apply Nat.div_eq_of_lt_le
  · rw [Nat.mul_comm]; exact h1
  · rw [Nat.succ_mul, Nat.mul_comm]; exact h2

/-- Under the 2:1 balance at the cube of level `l` at `q`, a cell of level `l + 1`
that the directory holds inside the cube makes every cell of level `l + 1` inside the
cube a leaf. -/
theorem cube_leaf_fine (g : Dccrg UserData) {R : Nat} (F : Fit g.index R)
    (hfit : g.index.ids_fit) (hinv : g.existence_invariant) (l : Nat) (hl : l < R)
    (q0 q1 q2 : Nat) (b0 : q0 < g.index.x_length * 2 ^ R)
    (b1 : q1 < g.index.y_length * 2 ^ R) (b2 : q2 < g.index.z_length * 2 ^ R)
    (d0 : 2 ^ (R - l) ∣ q0) (d1 : 2 ^ (R - l) ∣ q1) (d2 : 2 ^ (R - l) ∣ q2)
    (hex : map_has g.cell_process
      (g.index.get_cell_from_indices (q0, q1, q2) ((l : Int) + 1)) = true)
    (hB : ∀ n, g.is_leaf n → g.meets n (q0, q1, q2) (2 ^ (R - l)) →
      ((l : Int) - g.index.get_refinement_level n).natAbs ≤ 1)
    (p0 p1 p2 : Nat) (c0 : q0 ≤ p0 ∧ p0 < q0 + 2 ^ (R - l))
    (c1 : q1 ≤ p1 ∧ p1 < q1 + 2 ^ (R - l)) (c2 : q2 ≤ p2 ∧ p2 < q2 + 2 ^ (R - l)) :
    g.is_leaf (g.index.get_cell_from_indices (p0, p1, p2) ((l : Int) + 1)) ∧
    g.index.get_refinement_level (g.index.get_cell_from_indices (p0, p1, p2) ((l : Int) + 1))
      = (l : Int) + 1 := by
  have e1 : ((l + 1 : Nat) : Int) = (l : Int) + 1 := by push_cast; rfl
  have hR : g.index.max_refinement_level.toNat = R := by rw [F.hR]; exact Int.toNat_natCast R
  -- the triple lies in the grid
  have inb : ∀ (L q p : Nat), q < L * 2 ^ R → 2 ^ (R - l) ∣ q → q ≤ p →
      p < q + 2 ^ (R - l) → p < L * 2 ^ R ∧ p / 2 ^ (R - l) = q / 2 ^ (R - l) := by
    intro L q p hq hd hqp hpq
    obtain ⟨k, rfl⟩ := hd
    have hdiv := div_eq_of_cube _ k p hqp hpq
    refine ⟨?_, hdiv⟩
    have hsR : 2 ^ (R - l) ∣ L * 2 ^ R := Dvd.dvd.mul_left (pow_dvd_pow 2 (Nat.sub_le _ _)) _
    obtain ⟨m, hm⟩ := hsR
    rw [hm] at hq ⊢
    have hkm : k < m := Nat.lt_of_mul_lt_mul_left hq
    have : 2 ^ (R - l) * k + 2 ^ (R - l) ≤ 2 ^ (R - l) * m := by
      rw [← Nat.mul_succ]
      exact Nat.mul_le_mul_left _ hkm
    omega
  obtain ⟨pb0, pe0⟩ := inb _ _ _ b0 d0 c0.1 c0.2
  obtain ⟨pb1, pe1⟩ := inb _ _ _ b1 d1 c1.1 c1.2
  obtain ⟨pb2, pe2⟩ := inb _ _ _ b2 d2 c2.1 c2.2
  obtain ⟨_, plv, _, _⟩ := F.roundtrip_indices (show l + 1 ≤ R by omega) pb0 pb1 pb2
  obtain ⟨_, qlv, _, _⟩ := F.roundtrip_indices (show l + 1 ≤ R by omega) b0 b1 b2
  obtain ⟨_, qlv0, _, _⟩ := F.roundtrip_indices (show l ≤ R by omega) b0 b1 b2
  rw [e1] at plv qlv
  refine ⟨?_, plv⟩
  -- the cell of level l + 1 at the triple is in the directory
  have hall := (hinv.2.2 _ ((mem_map_keys _ _).2 hex) (by rw [qlv]; omega)).2
  rw [F.parent_enc hl b0 b1 b2] at hall
  have hx : map_has g.cell_process
      (g.index.get_cell_from_indices (p0, p1, p2) ((l : Int) + 1)) = true := by
    apply hall
    rw [mem_children_of_iff F qlv0 hl]
    refine ⟨plv, ?_⟩
    rw [F.parent_enc hl pb0 pb1 pb2]
    exact F.enc_congr (by omega) pb0 pb1 pb2 b0 b1 b2 pe0 pe1 pe2
  -- the leaf that covers the triple
  obtain ⟨n, ⟨hn, hf⟩, _⟩ := covered_once_of_invariant g hfit hinv (p0, p1, p2)
    (by rw [hR]; exact pb0) (by rw [hR]; exact pb1) (by rw [hR]; exact pb2)
  obtain ⟨r, hr, hlv, hnr, hup⟩ := leaf_cover g F hinv pb0 pb1 pb2 n hn hf
  have hmeet : g.meets n (q0, q1, q2) (2 ^ (R - l)) := by
    unfold in_footprint at hf
    unfold meets
    simp only at hf ⊢
    omega
  have hb := hB n hn hmeet
  rw [hlv] at hb
  have hrl : l + 1 ≤ r := by
    by_contra hlt
    have := hup (l + 1) (by omega) (by omega)
    rw [e1, hx] at this
    exact Bool.noConfusion this
  have : r = l + 1 := by omega
  subst this
  rw [e1] at hnr
  rw [← hnr]
  exact hn

end dccrg

namespace dccrg
open Index Dccrg
variable {UserData : Type}

theorem neighbor_segment_spec (g : Dccrg UserData) (hfit : g.index.ids_fit)
    (hinv : g.existence_invariant) (hreach : g.reach_fits) (c : Nat) (hc : g.is_leaf c)
    (hbal : g.balanced_around c) (o : neighborhood_item_t) (ho : o ∈ g.neighborhood_of) :
    (g.indices_from_neighborhood (g.index.get_indices c)
        (g.index.get_cell_size_in_indices c) [o]).flatMap
        (g.find_neighbors_of_at (g.index.get_refinement_level c)
          (g.index.get_cell_size_in_indices c) 1) = g.neighbor_segment c o ∧
    ((g.neighbor_position c o = none ∧ g.neighbor_segment c o = [0]) ∨
      (∃ p n, g.neighbor_position c o = some p ∧ g.is_leaf n ∧ g.in_footprint n p ∧
        (g.index.get_refinement_level n = g.index.get_refinement_level c ∨
          g.index.get_refinement_level n = g.index.get_refinement_level c - 1) ∧
        g.neighbor_segment c o = [n]) ∨
      (∃ p, g.neighbor_position c o = some p ∧
        g.neighbor_segment c o = g.get_all_children
          (g.index.get_cell_from_indices p (g.index.get_refinement_level c)) ∧
        (g.neighbor_segment c o).length = 8 ∧
        ∀ x ∈ g.neighbor_segment c o, g.is_leaf x ∧
          g.index.get_refinement_level x = g.index.get_refinement_level c + 1)) := by
  obtain ⟨F, _, l, hl, hlv, hs, pb, pd, _⟩ := cell_facts g hfit hinv hc.1
  have hpos := neighbor_position_iff g hfit hinv hreach c hc.1 o ho
  have hB := hbal o ho
  generalize hR : g.index.max_refinement_level.toNat = R at *
  rw [hs] at hpos
  rw [hlv, hs] at hB
  rw [hlv, hs]
  rcases indices_single_cases g (g.index.get_indices c) (2 ^ (R - l)) o with
    ⟨q, hq, e⟩ | ⟨hnone, e⟩
  swap
  · have hp : g.neighbor_position c o = none := by
      cases h : g.neighbor_position c o with
      | none => rfl
      | some q => exact absurd ((hpos q).1 h) (hnone q)
    have hseg : g.neighbor_segment c o = [0] := by
      unfold neighbor_segment
      rw [hp]
    rw [e, hseg]
    refine ⟨?_, Or.inl ⟨hp, rfl⟩⟩
    simp only [List.flatMap_cons, List.flatMap_nil, List.append_nil]
    unfold find_neighbors_of_at
    rw [if_pos rfl]
  have hp : g.neighbor_position c o = some q := (hpos q).2 hq
  rw [e]
  simp only [List.flatMap_cons, List.flatMap_nil, List.append_nil]
  obtain ⟨qb, qd, _⟩ := shifted_facts g F l hl _ pb pd o (reach_of_mem g F hreach o ho) q hq
  have hB' : ∀ n, g.is_leaf n → g.meets n q (2 ^ (R - l)) →
      ((l : Int) - g.index.get_refinement_level n).natAbs ≤ 1 :=
    fun n hn hm => hB q (by rw [hp]; rfl) n ((mem_map_keys _ _).2 hn.1) hn hm
  obtain ⟨q0, q1, q2⟩ := q
  simp only at qb qd
  have hsp : 0 < 2 ^ (R - l) := by positivity
  rcases segment_cases g F hfit hinv l hl q0 q1 q2 qb.1 qb.2.1 qb.2.2 qd.1 qd.2.1 qd.2.2 with
    ⟨hlR, hex, e2⟩ | ⟨r, hr1, hr2, hleaf, e2⟩ | ⟨hno, e2⟩
  · -- the cell of level l at the position has children
    have hhalf : 2 ^ (R - l) = 2 * 2 ^ (R - l - 1) := by
      have : R - l = (R - l - 1) + 1 := by omega
      rw [this, pow_succ]
      simp only [Nat.add_sub_cancel]
      ring
    have hh : 0 < 2 ^ (R - l - 1) := by positivity
    have hall : ∀ x ∈ children_at g.index (q0, q1, q2) ((l : Int) + 1) (2 ^ (R - l - 1)),
        g.is_leaf x ∧ g.index.get_refinement_level x = (l : Int) + 1 := by
      intro x hx
      simp only [children_at, List.mem_cons, List.mem_singleton, List.not_mem_nil,
        or_false] at hx
      rcases hx with rfl | rfl | rfl | rfl | rfl | rfl | rfl | rfl <;>
        exact cube_leaf_fine g F hfit hinv l hlR q0 q1 q2 qb.1 qb.2.1 qb.2.2 qd.1 qd.2.1
          qd.2.2 hex hB' _ _ _ (by omega) (by omega) (by omega)
    obtain ⟨hfirst, hflv⟩ := cube_leaf_fine g F hfit hinv l hlR q0 q1 q2 qb.1 qb.2.1 qb.2.2
      qd.1 qd.2.1 qd.2.2 hex hB' q0 q1 q2 (by omega) (by omega) (by omega)
    have hcov := covering_leaf_eq g hfit hinv (q0, q1, q2) (by rw [hR]; exact qb.1)
      (by rw [hR]; exact qb.2.1) (by rw [hR]; exact qb.2.2) _ hfirst
      (by
        have e1 : ((l + 1 : Nat) : Int) = (l : Int) + 1 := by push_cast; rfl
        rw [← e1]
        exact enc_in_footprint g F (by omega) qb.1 qb.2.1 qb.2.2)
    obtain ⟨qi, qlv, _, _⟩ := F.roundtrip_indices (show l ≤ R by omega) qb.1 qb.2.1 qb.2.2
    have hpar : map_has g.cell_process
        (g.index.get_cell_from_indices (q0, q1, q2) (l : Int)) = true :=
      cover_parent g F hinv qb.1 qb.2.1 qb.2.2 hlR hex
    have hgac := get_all_children_eq g F hpar qlv hlR
    rw [qi, Nat.div_mul_cancel qd.1, Nat.div_mul_cancel qd.2.1, Nat.div_mul_cancel qd.2.2]
      at hgac
    have hseg : g.neighbor_segment c o
        = children_at g.index (q0, q1, q2) ((l : Int) + 1) (2 ^ (R - l - 1)) := by
      unfold neighbor_segment
      rw [hp]
      simp only [hcov, hflv, hlv]
      rw [if_neg (by omega), hgac]
    rw [e2, hseg]
    refine ⟨List.filter_eq_self.2 fun x hx => by simpa using (hall x hx).1.2.symm, ?_⟩
    refine Or.inr (Or.inr ⟨(q0, q1, q2), hp, hgac.symm, rfl, hall⟩)
  · -- a leaf of level l or l - 1 covers the position
    obtain ⟨_, rlv, _, _⟩ := F.roundtrip_indices (show r ≤ R by omega) qb.1 qb.2.1 qb.2.2
    have hfoot := @enc_in_footprint _ g R F r (by omega) q0 q1 q2 qb.1 qb.2.1 qb.2.2
    have hcov := covering_leaf_eq g hfit hinv (q0, q1, q2) (by rw [hR]; exact qb.1)
      (by rw [hR]; exact qb.2.1) (by rw [hR]; exact qb.2.2) _ hleaf hfoot
    have hlevels : (r : Int) = (l : Int) ∨ (r : Int) = (l : Int) - 1 := by omega
    have hseg : g.neighbor_segment c o
        = [g.index.get_cell_from_indices (q0, q1, q2) (r : Int)] := by
      unfold neighbor_segment
      rw [hp]
      simp only [hcov, rlv, hlv]
      rw [if_pos hlevels]
    rw [e2, hseg]
    exact ⟨rfl, Or.inr (Or.inl ⟨(q0, q1, q2), _, hp, hleaf, hfoot, by rw [rlv]; exact hlevels,
      rfl⟩)⟩
  · -- no cell of the levels l - 1 to l + 1 at the position: excluded by the balance
    exfalso
    obtain ⟨n, ⟨hn, hf⟩, _⟩ := covered_once_of_invariant g hfit hinv (q0, q1, q2)
      (by rw [hR]; exact qb.1) (by rw [hR]; exact qb.2.1) (by rw [hR]; exact qb.2.2)
    obtain ⟨r, hr, hnlv, hnr, _⟩ := leaf_cover g F hinv qb.1 qb.2.1 qb.2.2 n hn hf
    have hmeet : g.meets n (q0, q1, q2) (2 ^ (R - l)) := by
      unfold in_footprint at hf
      unfold meets
      simp only at hf ⊢
      omega
    have hb := hB' n hn hmeet
    rw [hnlv] at hb
    have := hno r (by omega) (by omega) hr
    rw [← hnr, hn.1] at this
    exact Bool.noConfusion this

end dccrg

namespace dccrg
open Index Dccrg
variable {UserData : Type}

theorem le_of_lt_add_of_dvd (s a b : Nat) (ha : s ∣ a) (hb : s ∣ b) (h : a < b + s) :
    a ≤ b := by
  obtain ⟨x, rfl⟩ := ha
  obtain ⟨y, rfl⟩ := hb
  rcases Nat.eq_zero_or_pos s with hs | hs
  · subst hs; simp
  · have : s * x < s * (y + 1) := by rw [Nat.mul_succ]; exact h
    have := Nat.lt_of_mul_lt_mul_left this
    exact Nat.mul_le_mul_left s (by omega)

theorem div_max_of_meets (R la lb a b : Nat) (ha : 2 ^ (R - la) ∣ a) (hb : 2 ^ (R - lb) ∣ b)
    (h1 : a < b + 2 ^ (R - lb)) (h2 : b < a + 2 ^ (R - la)) :
    b / max (2 ^ (R - la)) (2 ^ (R - lb)) = a / max (2 ^ (R - la)) (2 ^ (R - lb)) := by
  rw [pow_max]
  by_cases hle : la ≤ lb
  · have hmin : min la lb = la := by omega
    rw [hmin]
    have hdvd : 2 ^ (R - lb) ∣ 2 ^ (R - la) := pow_dvd_pow 2 (by omega)
    have hab := le_of_lt_add_of_dvd _ a b (dvd_trans hdvd ha) hb h1
    obtain ⟨k, rfl⟩ := ha
    exact div_eq_of_cube _ k b hab h2
  · have hmin : min la lb = lb := by omega
    rw [hmin]
    have hdvd : 2 ^ (R - la) ∣ 2 ^ (R - lb) := pow_dvd_pow 2 (by omega)
    have hba := le_of_lt_add_of_dvd _ b a (dvd_trans hdvd hb) ha h2
    obtain ⟨k, rfl⟩ := hb
    exact (div_eq_of_cube _ k a hba h1).symm

theorem sees_of_meets (g : Dccrg UserData) (hfit : g.index.ids_fit)
    (hinv : g.existence_invariant) (hreach : g.reach_fits) (c : Nat) (hc : g.is_leaf c)
    (hbal : g.balanced_around c) (o : neighborhood_item_t) (ho : o ∈ g.neighborhood_of)
    (p : indices_t) (hp : g.neighbor_position c o = some p) (n : Nat) (hn : g.is_leaf n)
    (hm : g.meets n p (g.index.get_cell_size_in_indices c)) : g.sees c n := by
  have hb := hbal o ho p (by rw [hp]; rfl) n ((mem_map_keys _ _).2 hn.1) hn hm
  have hq := (neighbor_position_iff g hfit hinv hreach c hc.1 o ho p).1 hp
  obtain ⟨F, _, l, hl, hlv, hs, pb, pd, _⟩ := cell_facts g hfit hinv hc.1
  obtain ⟨_, _, ln, hln, hlvn, hsn, nb, nd, _⟩ := cell_facts g hfit hinv hn.1
  generalize hR : g.index.max_refinement_level.toNat = R at *
  rw [hs] at hq hm
  obtain ⟨_, qd, _⟩ := shifted_facts g F l hl _ pb pd o (reach_of_mem g F hreach o ho) p hq
  unfold meets at hm
  rw [hsn] at hm
  unfold sees
  refine ⟨?_, o, ho, p, by rw [hs]; exact hq, ?_⟩
  · rw [hlv, hlvn] at hb ⊢
    omega
  · rw [hs, hsn]
    exact ⟨div_max_of_meets R ln l _ _ nd.1 qd.1 hm.1 hm.2.1,
      div_max_of_meets R ln l _ _ nd.2.1 qd.2.1 hm.2.2.1 hm.2.2.2.1,
      div_max_of_meets R ln l _ _ nd.2.2 qd.2.2 hm.2.2.2.2.1 hm.2.2.2.2.2⟩

end dccrg
namespace dccrg
open Index Dccrg
variable {UserData : Type}

theorem foldlM_filter_skip {σ α : Type} (f : σ → α → Option σ) (keep : α → Prop)
    [DecidablePred keep] (hskip : ∀ s x, ¬ keep x → f s x = some s) (l : List α) (s : σ) :
    l.foldlM f s = (l.filter fun x => decide (keep x)).foldlM f s := by
  induction l generalizing s with
  | nil => rfl
  | cons a t ih =>
    by_cases ha : keep a
    · rw [List.filter_cons_of_pos (by simpa using ha)]
      simp only [List.foldlM_cons]
      cases f s a with
      | none => rfl
      | some s' => exact ih s'
    · rw [List.filter_cons_of_neg (by simpa using ha)]
      simp only [List.foldlM_cons, hskip s a ha]
      exact ih s

theorem filter_flatMap_eq {α β : Type} (l : List α) (f : α → List β) (p : β → Bool) :
    (l.flatMap f).filter p = l.flatMap fun x => (f x).filter p := by
  induction l with
  | nil => rfl
  | cons a t ih => simp only [List.flatMap_cons, List.filter_append, ih]

theorem level_error_cell (ix : Index) : ix.get_refinement_level 0 = -1 := by
  unfold get_refinement_level
  rw [if_pos (Or.inl (by unfold error_cell; rfl))]

theorem get_neighbors_of_done (g : Dccrg UserData) (cell : Nat) (l i j k : Int)
    (T : List (Int × Int × Int)) (st : Nat × List Nat × Bool) (h : st.2.2 = true) :
    T.foldlM (g.get_neighbors_of_step cell l i j k) st = some st := by
  induction T with
  | nil => rfl
  | cons o t ih =>
    simp only [List.foldlM_cons]
    unfold get_neighbors_of_step
    rw [if_pos h]
    exact ih

theorem read_tail (pre tail post : List Nat) (first : Nat) (h : tail.length = 7) :
    ((List.range 7).mapM fun t => (pre ++ (first :: tail) ++ post)[pre.length + 1 + t]?)
      = some tail := by
  rcases tail with _ | ⟨a1, _ | ⟨a2, _ | ⟨a3, _ | ⟨a4, _ | ⟨a5, _ | ⟨a6, _ | ⟨a7, _ | ⟨a8, t⟩⟩⟩⟩⟩⟩⟩⟩
    <;> simp only [List.length_cons, List.length_nil] at h <;> try omega
  rw [mapM_some_iff]
  have hr : List.range 7 = [0, 1, 2, 3, 4, 5, 6] := by decide
  rw [hr]
  have key : ∀ t, (pre ++ [first, a1, a2, a3, a4, a5, a6, a7] ++ post)[pre.length + 1 + t]?
      = ([a1, a2, a3, a4, a5, a6, a7] ++ post)[t]? := by
    intro t
    rw [List.append_assoc, List.getElem?_append_right (by omega)]
    have : pre.length + 1 + t - pre.length = t + 1 := by omega
    rw [this]
    simp only [List.cons_append, List.getElem?_cons_succ]
  simp only [List.forall₂_cons, List.Forall₂.nil, and_true, key]
  simp

end dccrg
namespace dccrg
open Index Dccrg
variable {UserData : Type}

theorem offsets_filter_pos (n : Nat) (hn : 0 < n) :
    ((((List.range (2 * (n : Int) + 1).toNat).map fun t => (t : Int) - (n : Int)).flatMap
      fun current_k =>
        ((List.range (2 * (n : Int) + 1).toNat).map fun t => (t : Int) - (n : Int)).flatMap
          fun current_j =>
            ((List.range (2 * (n : Int) + 1).toNat).map fun t => (t : Int) - (n : Int)).map
              fun current_i => (current_i, current_j, current_k)).filter
      fun (o : Int × Int × Int) => decide (¬ (o.1 = 0 ∧ o.2.1 = 0 ∧ o.2.2 = 0) ∧
        ¬ (n = 0 ∧ (if o.2.2 = 0 then 1 else 0) + (if o.2.1 = 0 then 1 else 0)
          + (if o.1 = 0 then 1 else 0) ≠ (2 : Int))))
      = make_neighborhood_of n := by
  have e : (2 * (n : Int) + 1).toNat = 2 * n + 1 := by omega
  rw [e]
  unfold make_neighborhood_of
  rw [if_neg (by omega)]
  simp only []
  rw [filter_flatMap_eq]
  apply flatMap_congr_mem
  intro z _
  rw [filter_flatMap_eq]
  apply flatMap_congr_mem
  intro y _
  rw [List.filter_map]
  congr 1
  apply List.filter_congr
  intro x _
  have hn0 : n ≠ 0 := by omega
  simp [hn0]

theorem get_neighbors_of_eq_fold (g : Dccrg UserData) (cell : Nat) (i j k : Int)
    (hguard : ¬ (¬ map_has g.cell_process cell ∨ map_find g.cell_process cell ≠ some g.rank
      ∨ (i = 0 ∧ j = 0 ∧ k = 0)))
    (hsize : g.neighborhood_size < 2 ^ 31) :
    g.get_neighbors_of cell i j k
      = ((make_neighborhood_of g.neighborhood_size).foldlM
          (g.get_neighbors_of_step cell (g.index.get_refinement_level cell) i j k)
          ((0, [], false) : Nat × List Nat × Bool)).map fun state => state.2.1 := by
  unfold get_neighbors_of
  rw [if_neg hguard]
  simp only []
  rw [foldlM_filter_skip _ (fun (o : Int × Int × Int) =>
    ¬ (o.1 = 0 ∧ o.2.1 = 0 ∧ o.2.2 = 0) ∧
    ¬ (g.neighborhood_size = 0 ∧ (if o.2.2 = 0 then 1 else 0) + (if o.2.1 = 0 then 1 else 0)
      + (if o.1 = 0 then 1 else 0) ≠ (2 : Int)))]
  · congr 2
    rcases Nat.eq_zero_or_pos g.neighborhood_size with hz | hp
    · rw [hz]
      decide
    · rw [if_pos hp, to_int_of_lt hsize]
      exact offsets_filter_pos _ hp
  · intro s x hx
    unfold get_neighbors_of_step
    by_cases hd : s.2.2 = true
    · rw [if_pos hd]
    · rw [if_neg hd]
      by_cases h0 : x.1 = 0 ∧ x.2.1 = 0 ∧ x.2.2 = 0
      · rw [if_pos h0]
      · rw [if_neg h0]
        have : g.neighborhood_size = 0 ∧ (if x.2.2 = 0 then 1 else 0)
            + (if x.2.1 = 0 then 1 else 0) + (if x.1 = 0 then 1 else 0) ≠ (2 : Int) := by
          by_contra hc
          exact hx ⟨h0, hc⟩
        rw [if_pos this]

end dccrg
namespace dccrg
open Index Dccrg
variable {UserData : Type}

theorem get_neighbors_of_traverse (g : Dccrg UserData) (cell : Nat) (l : Int) (hl : 0 ≤ l)
    (i j k : Int) (list : List Nat) (hstored : map_find g.neighbors cell = some list)
    (seg : Int × Int × Int → List Nat) :
    ∀ (T : List (Int × Int × Int)) (pre post acc : List Nat),
      list = pre ++ T.flatMap seg ++ post →
      (∀ o ∈ T, ¬ (o.1 = 0 ∧ o.2.1 = 0 ∧ o.2.2 = 0) ∧
        ¬ (g.neighborhood_size = 0 ∧ (if o.2.2 = 0 then 1 else 0)
          + (if o.2.1 = 0 then 1 else 0) + (if o.1 = 0 then 1 else 0) ≠ (2 : Int))) →
      (∀ o ∈ T, seg o = [0] ∨
        (∃ n, seg o = [n] ∧ 0 ≤ g.index.get_refinement_level n ∧
          g.index.get_refinement_level n ≤ l) ∨
        ((seg o).length = 8 ∧ ∀ x ∈ seg o, g.index.get_refinement_level x = l + 1)) →
      ∃ st, T.foldlM (g.get_neighbors_of_step cell l i j k) (pre.length, acc, false) = some st ∧
        st.2.1 = if (i, j, k) ∈ T then acc ++ seg (i, j, k) else acc := by
  intro T
  induction T with
  | nil =>
    intro pre post acc _ _ _
    exact ⟨_, rfl, by simp⟩
  | cons o t ih =>
    intro pre post acc hlist hkeep hshape
    have hk := hkeep o (List.mem_cons_self _ _)
    have hs := hshape o (List.mem_cons_self _ _)
    -- the first entry of the segment and the shape of the rest
    have hfirst : ∃ first tail, seg o = first :: tail ∧
        ((g.index.get_refinement_level first = -1 ∧ first = 0 ∧ tail = []) ∨
          (g.index.get_refinement_level first ≠ -1 ∧
            ¬ g.index.get_refinement_level first > l ∧ tail = []) ∨
          (g.index.get_refinement_level first ≠ -1 ∧
            g.index.get_refinement_level first > l ∧ tail.length = 7)) := by
      rcases hs with h | ⟨n, h, h1, h2⟩ | ⟨h, hall⟩
      · exact ⟨0, [], h, Or.inl ⟨level_error_cell _, rfl, rfl⟩⟩
      · exact ⟨n, [], h, Or.inr (Or.inl ⟨by omega, by omega, rfl⟩)⟩
      · cases hso : seg o with
        | nil => rw [hso] at h; simp at h
        | cons first tail =>
          rw [hso] at h hall
          have := hall first (List.mem_cons_self _ _)
          refine ⟨first, tail, rfl, Or.inr (Or.inr ⟨by omega, by omega, ?_⟩)⟩
          simpa using h
    obtain ⟨first, tail, hso, hcases⟩ := hfirst
    have hlist' : list = pre ++ (first :: tail) ++ (t.flatMap seg ++ post) := by
      rw [hlist, List.flatMap_cons, hso]
      simp only [List.append_assoc]
    have hread : list[pre.length]? = some first := by
      rw [hlist', List.append_assoc, List.getElem?_append_right (le_refl _)]
      simp
    have hnext : list = (pre ++ seg o) ++ t.flatMap seg ++ post := by
      rw [hlist, List.flatMap_cons]
      simp only [List.append_assoc]
    have hkeep' := fun o' ho' => hkeep o' (List.mem_cons_of_mem _ ho')
    have hshape' := fun o' ho' => hshape o' (List.mem_cons_of_mem _ ho')
    simp only [List.foldlM_cons]
    by_cases hmatch : i = o.1 ∧ j = o.2.1 ∧ k = o.2.2
    · -- the offsets asked for
      have ho : (i, j, k) = o := by
        obtain ⟨o1, o2, o3⟩ := o
        simp only at hmatch
        rw [hmatch.1, hmatch.2.1, hmatch.2.2]
      have hmem : (i, j, k) ∈ o :: t := by rw [ho]; exact List.mem_cons_self _ _
      rw [if_pos hmem, ho, hso]
      have hstep : ∃ idx, g.get_neighbors_of_step cell l i j k (pre.length, acc, false) o
          = some (idx, acc ++ first :: tail, true) := by
        unfold get_neighbors_of_step
        simp only [Bool.false_eq_true, if_false]
        rw [if_neg hk.1, if_neg hk.2, hstored]
        simp only [hread]
        rw [if_pos hmatch]
        rcases hcases with ⟨h1, h2, h3⟩ | ⟨h1, h2, h3⟩ | ⟨h1, h2, h3⟩
        · rw [if_pos h1, h2, h3]
          exact ⟨_, rfl⟩
        · rw [if_neg h1, if_neg h2, h3]
          exact ⟨_, rfl⟩
        · rw [if_neg h1, if_pos h2, hlist', read_tail pre tail _ first h3]
          exact ⟨_, rfl⟩
      obtain ⟨idx, hstep⟩ := hstep
      rw [hstep]
      exact ⟨_, get_neighbors_of_done g cell l i j k t _ rfl, rfl⟩
    · have hmem : (i, j, k) ∈ o :: t ↔ (i, j, k) ∈ t := by
        rw [List.mem_cons]
        constructor
        · rintro (h | h)
          · exfalso
            apply hmatch
            rw [← h]
            exact ⟨rfl, rfl, rfl⟩
          · exact h
        · exact Or.inr
      have hstep : g.get_neighbors_of_step cell l i j k (pre.length, acc, false) o
          = some ((pre ++ seg o).length, acc, false) := by
        unfold get_neighbors_of_step
        simp only [Bool.false_eq_true, if_false]
        rw [if_neg hk.1, if_neg hk.2, hstored]
        simp only [hread]
        rw [if_neg hmatch, hso]
        rcases hcases with ⟨h1, h2, h3⟩ | ⟨h1, h2, h3⟩ | ⟨h1, h2, h3⟩
        · rw [if_neg (by omega), h3]
          simp
        · rw [if_neg h2, h3]
          simp
        · rw [if_pos h2]
          simp [h3]
      rw [hstep]
      obtain ⟨st, h1, h2⟩ := ih (pre ++ seg o) post acc hnext hkeep' hshape'
      refine ⟨st, h1, ?_⟩
      rw [h2]
      by_cases hm : (i, j, k) ∈ t
      · rw [if_pos hm, if_pos (hmem.2 hm)]
      · rw [if_neg hm, if_neg (fun h => hm (hmem.1 h))]

end dccrg
namespace dccrg
open Index Dccrg
variable {UserData : Type}

theorem make_neighborhood_of_keep (n : Nat) (o : Int × Int × Int)
    (ho : o ∈ make_neighborhood_of n) :
    ¬ (o.1 = 0 ∧ o.2.1 = 0 ∧ o.2.2 = 0) ∧
    ¬ (n = 0 ∧ (if o.2.2 = 0 then 1 else 0) + (if o.2.1 = 0 then 1 else 0)
      + (if o.1 = 0 then 1 else 0) ≠ (2 : Int)) := by
  rcases Nat.eq_zero_or_pos n with hz | hp
  · subst hz
    revert o
    decide
  · rw [← offsets_filter_pos n hp] at ho
    exact of_decide_eq_true (List.mem_filter.1 ho).2

end dccrg
namespace dccrg
open Index Dccrg
variable {UserData : Type}

theorem mem_erase_unrefines_iff (s : uset) (l : List Nat) (x : Nat) :
    x ∈ erase_unrefines s l ↔ x ∈ s ∧ x ∉ l := by
  unfold erase_unrefines
  induction l generalizing s with
  | nil => simp
  | cons a t ih =>
    rw [List.foldl_cons, ih, mem_set_erase, List.mem_cons]
    constructor
    · rintro ⟨⟨h1, h2⟩, h3⟩
      exact ⟨h1, fun h => h.elim h2 h3⟩
    · rintro ⟨h1, h2⟩
      exact ⟨⟨h1, fun h => h2 (Or.inl h)⟩, fun h => h2 (Or.inr h)⟩

theorem mem_override_neighbor_unrefines_iff (g : Dccrg UserData) (lvl : Int)
    (l : List Nat) (s : uset) (x : Nat) :
    x ∈ g.override_neighbor_unrefines lvl l s ↔
      x ∈ s ∧ ∀ n ∈ l, g.index.get_refinement_level n ≤ lvl →
        x ∉ g.get_all_children (g.get_parent n) := by
  unfold override_neighbor_unrefines
  induction l generalizing s with
  | nil => simp
  | cons a t ih =>
    rw [List.foldl_cons, ih]
    by_cases ha : g.index.get_refinement_level a ≤ lvl
    · rw [if_pos ha, mem_erase_unrefines_iff]
      constructor
      · rintro ⟨⟨h1, h2⟩, h3⟩
        refine ⟨h1, ?_⟩
        intro n hn hl
        rcases List.mem_cons.1 hn with rfl | hn
        · exact h2
        · exact h3 n hn hl
      · rintro ⟨h1, h2⟩
        exact ⟨⟨h1, h2 a (List.mem_cons_self _ _) ha⟩,
          fun n hn hl => h2 n (List.mem_cons_of_mem _ hn) hl⟩
    · rw [if_neg ha]
      constructor
      · rintro ⟨h1, h3⟩
        refine ⟨h1, ?_⟩
        intro n hn hl
        rcases List.mem_cons.1 hn with rfl | hn
        · exact absurd hl ha
        · exact h3 n hn hl
      · rintro ⟨h1, h2⟩
        exact ⟨h1, fun n hn hl => h2 n (List.mem_cons_of_mem _ hn) hl⟩

theorem erase_unrefines_nodup (s : uset) (l : List Nat) (h : s.Nodup) :
    (erase_unrefines s l).Nodup := by
  unfold erase_unrefines
  induction l generalizing s with
  | nil => exact h
  | cons a t ih =>
    rw [List.foldl_cons]
    apply ih
    unfold set_erase
    exact h.filter _

theorem override_neighbor_unrefines_nodup (g : Dccrg UserData) (lvl : Int) (l : List Nat)
    (s : uset) (h : s.Nodup) : (g.override_neighbor_unrefines lvl l s).Nodup := by
  unfold override_neighbor_unrefines
  induction l generalizing s with
  | nil => exact h
  | cons a t ih =>
    rw [List.foldl_cons]
    apply ih
    split_ifs
    · exact erase_unrefines_nodup _ _ h
    · exact h

end dccrg
namespace dccrg
open Index Dccrg
variable {UserData : Type}

/-- The siblings of a cell of the directory above level 0: the cell is one of them,
all of them are in the directory above level 0 and have the same siblings. -/
theorem sibling_facts (g : Dccrg UserData) (hfit : g.index.ids_fit)
    (hinv : g.existence_invariant) {x : Nat} (hx : map_has g.cell_process x = true)
    (h0 : g.index.get_refinement_level x ≠ 0) :
    x ∈ g.get_all_children (g.get_parent x) ∧
    ∀ y ∈ g.get_all_children (g.get_parent x),
      map_has g.cell_process y = true ∧ g.index.get_refinement_level y ≠ 0 ∧
      g.get_all_children (g.get_parent y) = g.get_all_children (g.get_parent x) := by
  obtain ⟨x1, x2⟩ := hinv.1 x ((mem_map_keys _ _).2 hx)
  obtain ⟨hp, hph⟩ := get_parent_eq g hfit hinv hx
  obtain ⟨hmem, _, p1, p2⟩ := mem_children_of_parent hfit x1 x2 h0
  have hsib : g.get_all_children (g.get_parent x)
      = g.index.children_of (g.index.get_parent_for_removed x) := by
    rw [hp]
    exact get_all_children_of_has g (by omega) hph
  rw [hsib]
  refine ⟨hmem, ?_⟩
  intro y hy
  obtain ⟨ylv, ypar, y1, y2, _⟩ := children_of_facts hfit p1 p2 hy
  have yh : map_has g.cell_process y = true := (hinv.2.2 x ((mem_map_keys _ _).2 hx) h0).2 y hy
  have hpl : 0 ≤ g.index.get_refinement_level (g.index.get_parent_for_removed x) := by
    obtain ⟨_, hl, _⟩ := mem_children_of_parent hfit x1 x2 h0
    have := level_of_valid hfit p1 p2
    omega
  refine ⟨yh, by omega, ?_⟩
  obtain ⟨hpy, hphy⟩ := get_parent_eq g hfit hinv yh
  rw [hpy, ypar]
  exact get_all_children_of_has g (by omega) hph

end dccrg

namespace dccrg
open Index Dccrg
variable {UserData : Type}

theorem unrefines_exclusive_transport {g g' : Dccrg UserData}
    (hb : g.same_but_requests g')
    (h : g'.cells_to_unrefine.Nodup ∧
      ∀ u ∈ g'.cells_to_unrefine,
        (map_has g.cell_process u = true ∧ g.index.get_refinement_level u ≠ 0) ∧
        u ∈ g.get_all_children (g.get_parent u) ∧
        ∀ s ∈ g.get_all_children (g.get_parent u),
          (s ∈ g'.cells_to_unrefine → s = u) ∧ s ∉ g'.cells_to_refine ∧
          s ∉ g'.cells_not_to_unrefine) : g'.unrefines_exclusive := by
  obtain ⟨f1, f2, _⟩ := same_but_requests_fields hb
  have hi : g'.index = g.index := congrArg (fun t => t.1) f1
  have hd : ∀ c, map_has g'.cell_process c = map_has g.cell_process c := by
    intro c; rw [f2]
  unfold unrefines_exclusive
  refine ⟨h.1, ?_⟩
  intro u hu
  rw [get_parent_congr g g' hi hd, get_all_children_congr g g' hi hd, hi, f2]
  exact h.2 u hu

theorem dont_unrefine_cases (g : Dccrg UserData) (cell : Nat) :
    g.dont_unrefine cell = g ∨
    ((map_has g.cell_process cell = true ∧ g.index.get_refinement_level cell ≠ 0) ∧
      (∀ s ∈ g.get_all_children (g.get_parent cell), s ∉ g.cells_not_to_unrefine) ∧
      g.dont_unrefine cell = { g with
        cells_to_unrefine := erase_unrefines g.cells_to_unrefine
          (g.get_all_children (g.get_parent cell))
        cells_not_to_unrefine := set_insert g.cells_not_to_unrefine cell }) := by
  unfold dont_unrefine
  by_cases c1 : cell = error_cell
  · rw [if_pos c1]; exact Or.inl rfl
  rw [if_neg c1]
  by_cases c2 : ¬ map_has g.cell_process cell
  · rw [if_pos c2]; exact Or.inl rfl
  rw [if_neg c2]
  by_cases c3 : ¬ map_has g.cells cell
  · rw [if_pos c3]; exact Or.inl rfl
  rw [if_neg c3]
  by_cases c4 : g.index.get_refinement_level cell = 0
  · rw [if_pos c4]; exact Or.inl rfl
  rw [if_neg c4]
  by_cases c5 : cell ≠ g.get_child cell
  · rw [if_pos c5]; exact Or.inl rfl
  rw [if_neg c5]
  simp only []
  by_cases c6 : (g.get_all_children (g.get_parent cell)).any
      (fun sibling => decide (sibling ∈ g.cells_not_to_unrefine)) = true
  · rw [if_pos c6]; exact Or.inl rfl
  rw [if_neg c6]
  refine Or.inr ⟨⟨by simpa using c2, c4⟩, ?_, rfl⟩
  intro s hs hm
  apply c6
  rw [List.any_eq_true]
  exact ⟨s, hs, by simp [hm]⟩

theorem unrefine_completely_cases (g : Dccrg UserData) (cell : Nat) :
    g.unrefine_completely cell = g ∨
    ((map_has g.cell_process cell = true ∧ g.index.get_refinement_level cell ≠ 0) ∧
      (∀ s ∈ g.get_all_children (g.get_parent cell), s ∉ g.cells_to_refine ∧
        s ∉ g.cells_not_to_unrefine ∧ s ∉ g.cells_to_unrefine) ∧
      g.unrefine_completely cell = { g with
        cells_to_unrefine := set_insert g.cells_to_unrefine cell }) := by
  unfold unrefine_completely
  by_cases c1 : cell = error_cell
  · rw [if_pos c1]; exact Or.inl rfl
  rw [if_neg c1]
  by_cases c2 : ¬ map_has g.cell_process cell
  · rw [if_pos c2]; exact Or.inl rfl
  rw [if_neg c2]
  by_cases c3 : ¬ map_has g.cells cell
  · rw [if_pos c3]; exact Or.inl rfl
  rw [if_neg c3]
  by_cases c4 : g.index.get_refinement_level cell = 0
  · rw [if_pos c4]; exact Or.inl rfl
  rw [if_neg c4]
  simp only []
  split_ifs with c5 c6 c7
  · exact Or.inl rfl
  · exact Or.inl rfl
  · exact Or.inl rfl
  · refine Or.inr ⟨⟨by simpa using c2, c4⟩, ?_, rfl⟩
    intro s hs
    refine ⟨?_, ?_, ?_⟩
    · intro hm
      apply c5
      rw [List.any_eq_true]
      exact ⟨s, hs, by simp [hm]⟩
    · intro hm
      apply c5
      rw [List.any_eq_true]
      exact ⟨s, hs, by simp [hm]⟩
    · intro hm
      apply c7
      rw [List.any_eq_true]
      exact ⟨s, hs, by simp [hm]⟩

theorem refine_completely_cases (g g' : Dccrg UserData) (cell : Nat)
    (h : g.refine_completely cell = some g') :
    g' = g ∨ g' = g.dont_unrefine cell ∨
    ∃ neighbors_of neighbors_to, g' = { g with
      cells_to_refine := set_insert g.cells_to_refine cell
      cells_to_unrefine :=
        g.override_neighbor_unrefines (g.index.get_refinement_level cell) neighbors_to
          (g.override_neighbor_unrefines (g.index.get_refinement_level cell) neighbors_of
            (erase_unrefines g.cells_to_unrefine
              (g.get_all_children (g.get_parent cell)))) } := by
  unfold refine_completely at h
  by_cases c1 : cell = error_cell
  · rw [if_pos c1] at h; cases h; exact Or.inl rfl
  rw [if_neg c1] at h
  by_cases c2 : ¬ map_has g.cell_process cell
  · rw [if_pos c2] at h; cases h; exact Or.inl rfl
  rw [if_neg c2] at h
  by_cases c3 : ¬ map_has g.cells cell
  · rw [if_pos c3] at h; cases h; exact Or.inl rfl
  rw [if_neg c3] at h
  simp only [] at h
  by_cases c4 : g.index.get_refinement_level cell > g.index.max_refinement_level
  · rw [if_pos c4] at h; cases h; exact Or.inl rfl
  rw [if_neg c4] at h
  by_cases c5 : cell ≠ g.get_child cell
  · rw [if_pos c5] at h; cases h; exact Or.inl rfl
  rw [if_neg c5] at h
  by_cases c6 : g.index.get_refinement_level cell = g.index.max_refinement_level
  · rw [if_pos c6] at h; cases h; exact Or.inr (Or.inl rfl)
  rw [if_neg c6] at h
  cases h1 : map_find g.neighbors cell with
  | none => rw [h1] at h; cases h
  | some neighbors_of =>
    cases h2 : map_find g.neighbors_to cell with
    | none => rw [h1, h2] at h; cases h
    | some neighbors_to =>
      rw [h1, h2] at h
      simp only [Option.some.injEq] at h
      exact Or.inr (Or.inr ⟨neighbors_of, neighbors_to, h.symm⟩)

theorem dont_unrefine_exclusive (g : Dccrg UserData) (hfit : g.index.ids_fit)
    (hinv : g.existence_invariant) (cell : Nat) (h : g.unrefines_exclusive) :
    (g.dont_unrefine cell).unrefines_exclusive := by
  rcases dont_unrefine_cases g cell with e | ⟨_, g6, e⟩
  · rw [e]; exact h
  apply unrefines_exclusive_transport (dont_unrefine_spec g cell).1
  rw [e]
  simp only
  refine ⟨erase_unrefines_nodup _ _ h.1, ?_⟩
  intro u hu
  obtain ⟨hu1, hu2⟩ := (mem_erase_unrefines_iff _ _ _).1 hu
  obtain ⟨a, b, c⟩ := h.2 u hu1
  refine ⟨a, b, ?_⟩
  intro s hs
  obtain ⟨d1, d2, d3⟩ := c s hs
  refine ⟨fun hm => d1 ((mem_erase_unrefines_iff _ _ _).1 hm).1, d2, ?_⟩
  intro hm
  rcases (mem_set_insert _ _ _).1 hm with hm | hm
  · exact d3 hm
  · subst hm
    have := ((sibling_facts g hfit hinv a.1 a.2).2 s hs).2.2
    rw [this] at hu2
    exact hu2 b

theorem unrefine_completely_exclusive (g : Dccrg UserData) (hfit : g.index.ids_fit)
    (hinv : g.existence_invariant) (cell : Nat) (h : g.unrefines_exclusive) :
    (g.unrefine_completely cell).unrefines_exclusive := by
  rcases unrefine_completely_cases g cell with e | ⟨⟨hc, c4⟩, gd, e⟩
  · rw [e]; exact h
  apply unrefines_exclusive_transport (unrefine_completely_spec g cell).1
  rw [e]
  obtain ⟨k1, k2⟩ := sibling_facts g hfit hinv hc c4
  simp only
  refine ⟨set_insert_nodup _ _ h.1, ?_⟩
  intro u hu
  rcases (mem_set_insert _ _ _).1 hu with hu1 | hu1
  · obtain ⟨a, b, c⟩ := h.2 u hu1
    refine ⟨a, b, ?_⟩
    intro s hs
    obtain ⟨d1, d2, d3⟩ := c s hs
    refine ⟨?_, d2, d3⟩
    intro hm
    rcases (mem_set_insert _ _ _).1 hm with hm | hm
    · exact d1 hm
    · subst hm
      exfalso
      have := ((sibling_facts g hfit hinv a.1 a.2).2 s hs).2.2
      exact (gd u (by rw [this]; exact b)).2.2 hu1
  · subst hu1
    refine ⟨⟨hc, c4⟩, k1, ?_⟩
    intro s hs
    refine ⟨?_, (gd s hs).1, (gd s hs).2.1⟩
    intro hm
    rcases (mem_set_insert _ _ _).1 hm with hm | hm
    · exact absurd hm (gd s hs).2.2
    · exact hm

theorem refine_completely_exclusive (g g' : Dccrg UserData) (hfit : g.index.ids_fit)
    (hinv : g.existence_invariant) (cell : Nat) (hr : g.refine_completely cell = some g')
    (h : g.unrefines_exclusive) : g'.unrefines_exclusive := by
  have hspec := (refine_completely_spec g g' cell hr).1
  rcases refine_completely_cases g g' cell hr with e | e | ⟨nof, nto, e⟩
  · rw [e]; exact h
  · rw [e]; exact dont_unrefine_exclusive g hfit hinv cell h
  apply unrefines_exclusive_transport hspec
  rw [e]
  simp only
  refine ⟨override_neighbor_unrefines_nodup _ _ _ _ (override_neighbor_unrefines_nodup _ _ _
    _ (erase_unrefines_nodup _ _ h.1)), ?_⟩
  intro u hu
  have hu' := mem_override_neighbor_unrefines g _ _ (mem_override_neighbor_unrefines g _ _ hu)
  obtain ⟨hu1, hu2⟩ := (mem_erase_unrefines_iff _ _ _).1 hu'
  obtain ⟨a, b, c⟩ := h.2 u hu1
  refine ⟨a, b, ?_⟩
  intro s hs
  obtain ⟨d1, d2, d3⟩ := c s hs
  refine ⟨?_, ?_, d3⟩
  · intro hm
    exact d1 (mem_erase_unrefines (mem_override_neighbor_unrefines g _ _
      (mem_override_neighbor_unrefines g _ _ hm)))
  · intro hm
    rcases (mem_set_insert _ _ _).1 hm with hm | hm
    · exact d2 hm
    · subst hm
      have := ((sibling_facts g hfit hinv a.1 a.2).2 s hs).2.2
      rw [this] at hu2
      exact hu2 b

theorem apply_requests_exclusive (requests : List Request) :
    ∀ (g g' : Dccrg UserData), g.index.ids_fit → g.existence_invariant →
      g.unrefines_exclusive → g.apply_requests requests = some g' →
      g'.unrefines_exclusive ∧ g.same_but_requests g' := by
  induction requests with
  | nil =>
    intro g g' _ _ h hr
    unfold apply_requests at hr
    simp only [List.foldlM_nil, Option.pure_def, Option.some.injEq] at hr
    subst hr
    exact ⟨h, rfl⟩
  | cons r t ih =>
    intro g g' hfit hinv h hr
    unfold apply_requests at hr
    simp only [List.foldlM_cons, Option.bind_eq_bind, Option.bind_eq_some] at hr
    obtain ⟨g1, h1, hr⟩ := hr
    have hb := (request_apply_spec r g g1 h1).1
    obtain ⟨f1, f2, _⟩ := same_but_requests_fields hb
    have hi : g1.index = g.index := congrArg (fun t => t.1) f1
    have hfit1 : g1.index.ids_fit := by rw [hi]; exact hfit
    have hinv1 : g1.existence_invariant := by
      unfold existence_invariant
      rw [hi, f2]
      exact hinv
    have hx1 : g1.unrefines_exclusive := by
      cases r with
      | refine_completely cell => exact refine_completely_exclusive g g1 hfit hinv cell h1 h
      | unrefine_completely cell =>
        simp only [Request.apply, Option.some.injEq] at h1
        subst h1
        exact unrefine_completely_exclusive g hfit hinv cell h
      | dont_unrefine cell =>
        simp only [Request.apply, Option.some.injEq] at h1
        subst h1
        exact dont_unrefine_exclusive g hfit hinv cell h
    obtain ⟨k1, k2⟩ := ih g1 g' hfit1 hinv1 hx1 hr
    exact ⟨k1, same_but_requests_trans hb k2⟩

end dccrg

namespace dccrg
open Index
variable {UserData : Type}

theorem of_nat_not_nan (n : Nat) : Double.of_nat n ≠ Double.nan := by
  unfold Double.of_nat
  split_ifs <;> simp

theorem add_not_finite (a b : Double) (hb : ∀ v, b ≠ Double.finite v) :
    ∀ v, a.add b ≠ Double.finite v := by
  intro v
  cases a <;> cases b <;> simp [Double.add]
  all_goals exact absurd rfl (hb _)

theorem mul_infinity_not_finite (a : Double) : ∀ v, a.mul Double.infinity ≠ Double.finite v := by
  intro v
  cases a with
  | finite x =>
    simp only [Double.mul]
    split_ifs <;> simp
  | infinity => simp [Double.mul]
  | nan => simp [Double.mul]

theorem pow8_overflow : Double.pow8 342 = Double.infinity := by decide!

theorem max_uint64_as_double : Double.of_nat (2 ^ 64 - 1) = Double.finite (2 ^ 64) := by
  decide!

/-- The loop of `get_maximum_possible_refinement_level` ends before the refinement
level 344: at the level 342 the power is infinite, and so is `current_last` from then
on (or a NaN). -/
theorem maximum_possible_loop_total (ix : Index) :
    ∀ (n fuel : Nat) (level : Int) (current_last : Double),
      level = 343 - (n : Int) → n ≤ 343 → n + 1 ≤ fuel →
      (n = 0 → ∀ v, current_last ≠ Double.finite v) →
      ∃ r, ix.maximum_possible_loop fuel level current_last = some r := by
  intro n
  induction n with
  | zero =>
    intro fuel level cur _ _ hf hcur
    obtain ⟨f, rfl⟩ : ∃ f, fuel = f + 1 := ⟨fuel - 1, by omega⟩
    unfold maximum_possible_loop
    rw [max_uint64_as_double]
    cases cur with
    | finite v => exact absurd rfl (hcur rfl v)
    | infinity => exact ⟨level - 2, by simp [Double.le]⟩
    | nan => exact ⟨level - 2, by simp [Double.le]⟩
  | succ k ih =>
    intro fuel level cur hl hn hf _
    obtain ⟨f, rfl⟩ : ∃ f, fuel = f + 1 := ⟨fuel - 1, by omega⟩
    unfold maximum_possible_loop
    split_ifs
    · apply ih f (level + 1) _ (by push_cast at hl; omega) (by omega) (by omega)
      intro hk
      have h342 : level = 342 := by subst hk; simp at hl; omega
      rw [h342, pow8_overflow]
      exact add_not_finite _ _ (mul_infinity_not_finite _)
    · exact ⟨_, rfl⟩

theorem get_maximum_possible_refinement_level_total (ix : Index) :
    ∃ r, ix.get_maximum_possible_refinement_level = some r := by
  unfold get_maximum_possible_refinement_level
  exact maximum_possible_loop_total ix 343 400 0 _ (by norm_num) (by norm_num) (by norm_num)
    (by norm_num)

theorem set_length_total (ix : Index) (x y z : Nat) : ∃ r, ix.set_length x y z = some r := by
  unfold set_length
  by_cases c1 : x = 0 ∨ y = 0 ∨ z = 0
  · rw [if_pos c1]
    exact ⟨_, rfl⟩
  rw [if_neg c1]
  simp only []
  by_cases c2 : (((Double.of_nat x).add (Double.of_nat x)).add (Double.of_nat x)).gt
      (Double.of_nat (2 ^ 64 - 1)) = true
  · rw [if_pos c2]
    exact ⟨_, rfl⟩
  rw [if_neg c2]
  obtain ⟨r, hr⟩ := get_maximum_possible_refinement_level_total
    { ix with x_length := x, y_length := y, z_length := z,
              grid_length := u64 (u64 (x * y) * z) }
  rw [hr, Option.some_bind]
  split_ifs
  · exact ⟨_, rfl⟩
  · exact ⟨_, rfl⟩

end dccrg

namespace dccrg
open Index

theorem set_length_false_unchanged (ix ix' : Index) (x y z : Nat)
    (h : ix.set_length x y z = some (ix', false)) : ix' = ix := by
  unfold set_length at h
  by_cases c1 : x = 0 ∨ y = 0 ∨ z = 0
  · rw [if_pos c1] at h
    simp only [Option.some.injEq, Prod.mk.injEq, and_true] at h
    exact h.symm
  rw [if_neg c1] at h
  simp only [] at h
  by_cases c2 : (((Double.of_nat x).add (Double.of_nat x)).add (Double.of_nat x)).gt
      (Double.of_nat (2 ^ 64 - 1)) = true
  · rw [if_pos c2] at h
    simp only [Option.some.injEq, Prod.mk.injEq, and_true] at h
    exact h.symm
  rw [if_neg c2] at h
  obtain ⟨r, hr, h⟩ := Option.bind_eq_some.1 h
  split_ifs at h
  · simp only [Option.some.injEq, Prod.mk.injEq, and_true] at h
    exact h.symm
  · simp at h

end dccrg
namespace dccrg
open Index Dccrg
variable {UserData : Type}

/-! ## The pin requests and the weights during `execute_refines` -/

theorem map_find_inherit {V : Type} (m : umap V) (r : Nat) (children : List Nat) (x : Nat) :
    map_find (inherit m r children) x =
      match map_find m r with
      | none => map_find m x
      | some v => if r = x then none else if x ∈ children then some v else map_find m x := by
  unfold inherit
  cases h : map_find m r with
  | none => rfl
  | some v => simp only [map_find_erase, map_find_foldl_set]

/-- A loop that lets the children of the cells `r` of `l` with `act r` inherit the
entry of `r`, when no child of a cell of `l` is in `l` and no two cells of `l` share
a child. -/
theorem inherit_loop_spec {V : Type} (ch : Nat → List Nat) (act : Nat → Bool) (m0 : umap V)
    (l : List Nat) (H1 : ∀ r ∈ l, ∀ x ∈ ch r, x ∉ l)
    (H2 : ∀ r ∈ l, ∀ r' ∈ l, ∀ x, x ∈ ch r → x ∈ ch r' → r = r') :
    (∀ r ∈ l, act r = true → ∀ v, map_find m0 r = some v →
      map_find (l.foldl (fun m r => if act r = true then inherit m r (ch r) else m) m0) r
        = none ∧
      ∀ x ∈ ch r,
        map_find (l.foldl (fun m r => if act r = true then inherit m r (ch r) else m) m0) x
          = some v) ∧
    (∀ x, (x ∈ l → act x = false) →
      (∀ r ∈ l, act r = true → x ∈ ch r → map_find m0 r = none) →
      map_find (l.foldl (fun m r => if act r = true then inherit m r (ch r) else m) m0) x
        = map_find m0 x) ∧
    (∀ x, map_find m0 x = none → (∀ r ∈ l, x ∉ ch r) →
      map_find (l.foldl (fun m r => if act r = true then inherit m r (ch r) else m) m0) x
        = none) := by
  have key := foldl_invariant (fun m r => if act r = true then inherit m r (ch r) else m)
    (fun done (s : umap V) =>
      (∀ r ∈ done, r ∈ l) ∧
      (∀ r ∈ done, act r = true → ∀ v, map_find m0 r = some v →
        map_find s r = none ∧ ∀ x ∈ ch r, map_find s x = some v) ∧
      (∀ x, (x ∈ done → act x = false) →
        (∀ r ∈ done, act r = true → x ∈ ch r → map_find m0 r = none) →
        map_find s x = map_find m0 x) ∧
      (∀ x, map_find m0 x = none → (∀ r ∈ l, x ∉ ch r) → map_find s x = none))
    l m0 ⟨by simp, by simp, fun x _ _ => rfl, fun x hx _ => hx⟩ ?_
  · exact key.2
  · rintro done a s ⟨f0, fa, fb, fc⟩ ha
    have hsub : ∀ r ∈ done ++ [a], r ∈ l := by
      intro r hr
      rcases List.mem_append.1 hr with hr | hr
      · exact f0 r hr
      · rw [List.mem_singleton.1 hr]; exact ha
    have ha_nochild : ∀ r ∈ l, a ∉ ch r := fun r hr hmem => H1 r hr a hmem ha
    by_cases hact : act a = true
    · simp only [hact, if_true]
      cases hs : map_find s a with
      | none =>
        have hsame : ∀ x, map_find (inherit s a (ch a)) x = map_find s x := by
          intro x; rw [map_find_inherit, hs]
        refine ⟨hsub, ?_, ?_, ?_⟩
        · intro r hr hra v hv
          simp only [hsame]
          rcases List.mem_append.1 hr with hr | hr
          · exact fa r hr hra v hv
          · rw [List.mem_singleton.1 hr] at hv ⊢
            by_cases had : a ∈ done
            · exact fa a had hact v hv
            · have := fb a (fun h => absurd h had)
                (fun r hr _ hmem => absurd hmem (ha_nochild r (f0 r hr)))
              rw [hs, hv] at this
              cases this
        · intro x hx1 hx2
          rw [hsame]
          exact fb x (fun h => hx1 (List.mem_append.2 (Or.inl h)))
            (fun r hr => hx2 r (List.mem_append.2 (Or.inl hr)))
        · intro x hx1 hx2
          rw [hsame]
          exact fc x hx1 hx2
      | some v =>
        have had : a ∉ done := by
          intro had
          cases h0 : map_find m0 a with
          | none =>
            have := fc a h0 ha_nochild
            rw [hs] at this
            cases this
          | some v0 =>
            have := (fa a had hact v0 h0).1
            rw [hs] at this
            cases this
        have hm0 : map_find m0 a = some v := by
          rw [← fb a (fun h => absurd h had)
            (fun r hr _ hmem => absurd hmem (ha_nochild r (f0 r hr)))]
          exact hs
        have hfind : ∀ x, map_find (inherit s a (ch a)) x =
            if a = x then none else if x ∈ ch a then some v else map_find s x := by
          intro x; rw [map_find_inherit, hs]
        refine ⟨hsub, ?_, ?_, ?_⟩
        · intro r hr hra v1 hv1
          rcases List.mem_append.1 hr with hr | hr
          · obtain ⟨k1, k2⟩ := fa r hr hra v1 hv1
            have hne : a ≠ r := fun e => had (e ▸ hr)
            refine ⟨?_, ?_⟩
            · rw [hfind, if_neg hne, if_neg (H1 a ha r · (f0 r hr))]
              exact k1
            · intro x hx
              have hxa : a ≠ x := fun e => H1 r (f0 r hr) x hx (e ▸ ha)
              have hxc : x ∉ ch a := fun hmem =>
                hne (H2 r (f0 r hr) a ha x hx hmem).symm
              rw [hfind, if_neg hxa, if_neg hxc]
              exact k2 x hx
          · rw [List.mem_singleton.1 hr] at hv1 ⊢
            rw [hm0] at hv1
            simp only [Option.some.injEq] at hv1
            subst hv1
            refine ⟨by rw [hfind, if_pos rfl], ?_⟩
            intro x hx
            have hxa : a ≠ x := fun e => H1 a ha x hx (e ▸ ha)
            rw [hfind, if_neg hxa, if_pos hx]
        · intro x hx1 hx2
          have hxa : a ≠ x := by
            intro e
            have := hx1 (List.mem_append.2 (Or.inr (List.mem_singleton.2 e.symm)))
            rw [← e, hact] at this
            cases this
          have hxc : x ∉ ch a := by
            intro hmem
            have := hx2 a (List.mem_append.2 (Or.inr (List.mem_singleton.2 rfl))) hact hmem
            rw [hm0] at this
            cases this
          rw [hfind, if_neg hxa, if_neg hxc]
          exact fb x (fun h => hx1 (List.mem_append.2 (Or.inl h)))
            (fun r hr => hx2 r (List.mem_append.2 (Or.inl hr)))
        · intro x hx1 hx2
          have hxa : a ≠ x := by
            intro e
            rw [← e, hm0] at hx1
            cases hx1
          rw [hfind, if_neg hxa, if_neg (hx2 a ha)]
          exact fc x hx1 hx2
    · simp only [hact, if_false]
      have hf : act a = false := by
        cases h : act a
        · rfl
        · exact absurd h hact
      refine ⟨hsub, ?_, ?_, fc⟩
      · intro r hr hra v hv
        rcases List.mem_append.1 hr with hr | hr
        · exact fa r hr hra v hv
        · rw [List.mem_singleton.1 hr, hf] at hra
          cases hra
      · intro x hx1 hx2
        exact fb x (fun h => hx1 (List.mem_append.2 (Or.inl h)))
          (fun r hr => hx2 r (List.mem_append.2 (Or.inl hr)))

end dccrg
namespace dccrg
open Index Dccrg
namespace Dccrg
variable {UserData : Type}

/-- One round of the loop over `cells_to_refine`: the pin requests and the weight. -/
theorem execute_refines_refine_pins [Inhabited UserData] (g : Dccrg UserData) (nc : List Nat)
    (upd : uset) (r : Nat) (g' : Dccrg UserData) (nc' : List Nat) (upd' : uset)
    (h : execute_refines_refine (g, nc, upd) r = some (g', nc', upd')) :
    ∃ p, map_find g.cell_process r = some p ∧
      g'.pin_requests = inherit g.pin_requests r (g.get_all_children r) ∧
      g'.new_pin_requests = inherit g.new_pin_requests r (g.get_all_children r) ∧
      g'.cell_weights =
        if g.rank = p then inherit g.cell_weights r (g.get_all_children r)
        else g.cell_weights := by
  unfold execute_refines_refine at h
  simp only at h
  cases hp : map_find g.cell_process r with
  | none => rw [hp] at h; simp at h
  | some p =>
    rw [hp] at h
    simp only at h
    refine ⟨p, rfl, ?_⟩
    by_cases hr : g.rank = p
    · subst hr
      rw [if_pos rfl] at h
      cases hd : map_find g.cells r with
      | none => rw [hd] at h; simp at h
      | some data =>
        rw [hd] at h
        simp only [Option.some_bind, add_children_eq, if_true, Option.map_eq_some'] at h
        obtain ⟨u, _, h⟩ := h
        simp only [Prod.mk.injEq] at h
        obtain ⟨h1, h2, _⟩ := h
        subst h1 h2
        exact ⟨rfl, rfl, by rw [if_pos rfl]; rfl⟩
    · rw [if_neg hr] at h
      simp only [Option.some_bind, add_children_eq, hr, if_false, Option.map_eq_some'] at h
      obtain ⟨u, _, h⟩ := h
      simp only [Prod.mk.injEq] at h
      obtain ⟨h1, h2, _⟩ := h
      subst h1 h2
      exact ⟨rfl, rfl, by rw [if_neg hr]⟩

/-- One round of the loop over `all_to_unrefine`: the pin requests and the weight. -/
theorem execute_refines_unrefine_pins (g : Dccrg UserData) (upd : uset) (u : Nat)
    (g' : Dccrg UserData) (upd' : uset)
    (h : execute_refines_unrefine (g, upd) u = some (g', upd')) :
    g'.pin_requests = map_erase g.pin_requests u ∧
    g'.new_pin_requests = map_erase g.new_pin_requests u ∧
    g'.cell_weights = map_erase g.cell_weights u := by
  unfold execute_refines_unrefine at h
  simp only at h
  cases hpp : map_find g.cell_process (g.get_parent u) with
  | none => rw [hpp] at h; simp at h
  | some pp =>
    cases hpu : map_find g.cell_process u with
    | none => rw [hpp, hpu] at h; simp at h
    | some pu =>
      rw [hpp, hpu] at h
      simp only at h
      by_cases c1 : g.rank = pu
      · by_cases c2 : g.rank = pp
        · rw [if_pos ⟨c1, c2⟩] at h
          cases hd : map_find g.cells u with
          | none => rw [hd] at h; simp at h
          | some data =>
            rw [hd] at h
            simp only [Option.some.injEq, Prod.mk.injEq] at h
            obtain ⟨h1, _⟩ := h
            subst h1
            exact ⟨rfl, rfl, rfl⟩
        · rw [if_neg (fun hn => c2 hn.2), if_pos c1] at h
          simp only [Option.some.injEq, Prod.mk.injEq] at h
          obtain ⟨h1, _⟩ := h
          subst h1
          exact ⟨rfl, rfl, rfl⟩
      · by_cases c2 : g.rank = pp
        · rw [if_neg (fun hn => c1 hn.1), if_neg c1, if_pos c2] at h
          simp only [Option.some.injEq, Prod.mk.injEq] at h
          obtain ⟨h1, _⟩ := h
          subst h1
          exact ⟨rfl, rfl, rfl⟩
        · rw [if_neg (fun hn => c1 hn.1), if_neg c1, if_neg c2] at h
          simp only [Option.some.injEq, Prod.mk.injEq] at h
          obtain ⟨h1, _⟩ := h
          subst h1
          exact ⟨rfl, rfl, rfl⟩

/-- The loop over `all_to_unrefine`: the entries of the unrefined cells are erased. -/
theorem unrefine_loop_pins (g : Dccrg UserData) (l : List Nat) (upd : uset)
    (acc : Dccrg UserData × uset)
    (h : l.foldlM execute_refines_unrefine (g, upd) = some acc) :
    acc.1.pin_requests = l.foldl map_erase g.pin_requests ∧
    acc.1.new_pin_requests = l.foldl map_erase g.new_pin_requests ∧
    acc.1.cell_weights = l.foldl map_erase g.cell_weights := by
  refine foldlM_invariant execute_refines_unrefine
    (fun done (s : Dccrg UserData × uset) =>
      s.1.pin_requests = done.foldl map_erase g.pin_requests ∧
      s.1.new_pin_requests = done.foldl map_erase g.new_pin_requests ∧
      s.1.cell_weights = done.foldl map_erase g.cell_weights)
    l (g, upd) acc ⟨rfl, rfl, rfl⟩ ?_ h
  rintro done a ⟨s, supd⟩ ⟨s', supd'⟩ ⟨f1, f2, f3⟩ _ hs
  simp only at f1 f2 f3 ⊢
  obtain ⟨e1, e2, e3⟩ := execute_refines_unrefine_pins s supd a s' supd' hs
  rw [e1, e2, e3, f1, f2, f3, List.foldl_append, List.foldl_append, List.foldl_append]
  exact ⟨rfl, rfl, rfl⟩

theorem start_user_data_transfers_pins (g g' : Dccrg UserData)
    (h : g.start_user_data_transfers = some g') : g'.pin_data = g.pin_data := by
  unfold start_user_data_transfers at h
  simp only at h
  have e1 := foldl_preserves (fun (g : Dccrg UserData) sender =>
      if sender = g.rank then g
      else if ¬ map_has g.cells_to_receive sender then g
      else { g with
        incoming_data :=
          if map_has g.incoming_data sender then g.incoming_data
          else g.incoming_data ++ [(sender, [])] })
    pin_data (by intro s a; simp only; split_ifs <;> rfl)
    (List.range g.comm_size) g
  have e2 := foldlM_preserves _ (pin_data : Dccrg UserData → _) (by
      intro s a s' hs
      split_ifs at hs
      · simp only [Option.some.injEq] at hs; subst hs; rfl
      · split at hs
        · simp only [Option.some.injEq] at hs; subst hs; rfl
        · simp only [Option.map_eq_some'] at hs
          obtain ⟨d, _, hs⟩ := hs
          subst hs; rfl) _ _ _ h
  rw [e2, e1]

theorem parent_loop_pins [Inhabited UserData] (g : Dccrg UserData) (l : List Nat)
    (upd : uset) (acc : Dccrg UserData × uset)
    (h : l.foldlM execute_refines_parent (g, upd) = some acc) :
    acc.1.pin_data = g.pin_data :=
  foldlM_preserves execute_refines_parent
    (fun s : Dccrg UserData × uset => s.1.pin_data) (by
      rintro ⟨s, su⟩ a ⟨s', su'⟩ hs
      unfold execute_refines_parent at hs
      simp only [Option.bind_eq_some] at hs
      obtain ⟨u1, _, u2, _, hs⟩ := hs
      split at hs
      · cases hs
      · split_ifs at hs
        all_goals
          simp only [Option.some.injEq, Prod.mk.injEq] at hs
          obtain ⟨hs, _⟩ := hs
          subst hs
          rfl) _ _ _ h

theorem update_neighbors_loop_pins (g g' : Dccrg UserData) (l : List Nat)
    (h : l.foldlM update_neighbors g = some g') : g'.pin_data = g.pin_data :=
  foldlM_preserves update_neighbors pin_data (by
    intro s a s' hs
    unfold update_neighbors at hs
    split_ifs at hs
    all_goals (simp only [Option.some.injEq] at hs; subst hs; rfl)) l g g' h

theorem remove_neighbor_lists_pins (g g' : Dccrg UserData) (atu : uset)
    (h : g.remove_neighbor_lists atu = some g') : g'.pin_data = g.pin_data := by
  unfold remove_neighbor_lists at h
  simp only [Option.map_eq_some'] at h
  obtain ⟨g1, h1, h2⟩ := h
  have e1 := foldlM_preserves _ (pin_data : Dccrg UserData → _) (by
      intro s a s' hs
      split at hs
      · cases hs
      · split_ifs at hs <;> simp only [Option.some.injEq] at hs <;> subst hs <;> rfl) _ _ _ h1
  have e2 := foldl_preserves (fun (g : Dccrg UserData) unrefined =>
      { g with
        neighbors := map_erase g.neighbors unrefined
        neighbors_to := map_erase g.neighbors_to unrefined })
    pin_data (by intro s a; rfl) atu g1
  rw [h2, e1] at e2
  exact e2

theorem update_remote_neighbor_info_pins (g g' : Dccrg UserData)
    (h : g.update_remote_neighbor_info = some g') : g'.pin_data = g.pin_data := by
  unfold update_remote_neighbor_info at h
  simp only [Option.map_eq_some'] at h
  obtain ⟨sets, _, h2⟩ := h
  subst h2
  rfl

theorem after_wait_pins (g g' : Dccrg UserData) (atu : uset)
    (h : g.execute_refines_after_wait atu = some g') : g'.pin_data = g.pin_data := by
  unfold execute_refines_after_wait at h
  simp only [Option.bind_eq_some] at h
  obtain ⟨g1, h1, h2⟩ := h
  unfold wait_user_data_transfer_receives at h1
  simp only [Option.map_eq_some'] at h1
  obtain ⟨g0, h0, h1⟩ := h1
  have e := foldlM_preserves _ (pin_data : Dccrg UserData → _) (by
      intro s a s' hs
      split at hs
      · cases hs
      · split_ifs at hs
        simp only [Option.some.injEq] at hs; subst hs; rfl) _ _ _ h0
  unfold recalculate_neighbor_update_send_receive_lists at h2
  simp only [Option.map_eq_some'] at h2
  obtain ⟨acc, _, h2⟩ := h2
  subst h2 h1
  exact e


/-- The loop over `cells_to_refine` when every refined cell is a leaf of the
directory: the pin requests and the weights after the loop. -/
theorem refine_loop_pins [Inhabited UserData] (g : Dccrg UserData)
    (hfit : g.index.ids_fit) (hinv : g.existence_invariant) (l : List Nat)
    (hleaf : ∀ c ∈ l, map_has g.cell_process c = true ∧
      ∀ x ∈ g.index.children_of c, map_has g.cell_process x = false)
    (nc : List Nat) (upd : uset) (acc : Dccrg UserData × List Nat × uset)
    (h : l.foldlM execute_refines_refine (g, nc, upd) = some acc) :
    acc.1.pin_requests = l.foldl (fun m r =>
      if (fun _ => true) r = true then inherit m r (g.index.children_of r) else m)
      g.pin_requests ∧
    acc.1.new_pin_requests = l.foldl (fun m r =>
      if (fun _ => true) r = true then inherit m r (g.index.children_of r) else m)
      g.new_pin_requests ∧
    acc.1.cell_weights = l.foldl (fun m r =>
      if (fun c => map_find g.cell_process c == some g.rank) r = true then
        inherit m r (g.index.children_of r) else m)
      g.cell_weights := by
  have hchild_not_l : ∀ r ∈ l, ∀ x ∈ g.index.children_of r, x ∉ l := by
    intro r hr x hx hxl
    have := (hleaf r hr).2 x hx
    rw [(hleaf x hxl).1] at this
    exact Bool.noConfusion this
  have hvalid : ∀ r ∈ l, 1 ≤ r ∧ r ≤ g.index.last_cell :=
    fun r hr => hinv.1 r ((mem_map_keys _ _).2 (hleaf r hr).1)
  have key := foldlM_invariant execute_refines_refine
    (fun done (s : Dccrg UserData × List Nat × uset) =>
      (∀ r ∈ done, r ∈ l) ∧
      s.1.fixed = g.fixed ∧ s.1.existence_invariant ∧
      (∀ x, (∀ r ∈ done, x ∉ g.index.children_of r) →
        map_find s.1.cell_process x = map_find g.cell_process x) ∧
      s.1.pin_requests = done.foldl (fun m r =>
        if (fun _ => true) r = true then inherit m r (g.index.children_of r) else m)
        g.pin_requests ∧
      s.1.new_pin_requests = done.foldl (fun m r =>
        if (fun _ => true) r = true then inherit m r (g.index.children_of r) else m)
        g.new_pin_requests ∧
      s.1.cell_weights = done.foldl (fun m r =>
        if (fun c => map_find g.cell_process c == some g.rank) r = true then
          inherit m r (g.index.children_of r) else m)
        g.cell_weights)
    l (g, nc, upd) acc ?_ ?_ h
  · exact key.2.2.2.2
  · exact ⟨by simp, rfl, hinv, fun x _ => rfl, rfl, rfl, rfl⟩
  · rintro done a ⟨s, snc, supd⟩ ⟨s', snc', supd'⟩ ⟨f0, f1, f2, f4, p1, p2, p3⟩ ha hs
    simp only at f0 f1 f2 f4 p1 p2 p3 ⊢
    have hix : s.index = g.index := congrArg (fun t => t.1) f1
    have hrk : s.rank = g.rank := congrArg (fun t => t.2.1) f1
    obtain ⟨e1, _⟩ := execute_refines_refine_frame s snc supd a s' snc' supd' hs
    obtain ⟨d1, d2, d3⟩ := execute_refines_refine_directory s (by rw [hix]; exact hfit) f2
      snc supd a s' snc' supd' hs
    obtain ⟨p, hp, hdir, _⟩ := execute_refines_refine_eq s snc supd a s' snc' supd' hs
    obtain ⟨p', hp', q1, q2, q3⟩ := execute_refines_refine_pins s snc supd a s' snc' supd' hs
    rw [hp] at hp'
    simp only [Option.some.injEq] at hp'
    subst hp'
    obtain ⟨v1, v2⟩ := hvalid a ha
    rw [get_all_children_of_has s (by omega) d1, hix] at hdir q1 q2 q3
    have ha_nochild : ∀ r ∈ l, a ∉ g.index.children_of r :=
      fun r hr hmem => hchild_not_l r hr a hmem ha
    have hpa : map_find g.cell_process a = some p := by
      rw [← f4 a (fun r hr => ha_nochild r (f0 r hr))]
      exact hp
    refine ⟨?_, e1.trans f1, d3, ?_, ?_, ?_, ?_⟩
    · intro r hr
      rcases List.mem_append.1 hr with hr | hr
      · exact f0 r hr
      · simp only [List.mem_singleton] at hr; rw [hr]; exact ha
    · intro x hx
      rw [hdir, map_find_foldl_set, if_neg (hx a (by simp))]
      exact f4 x (fun r hr => hx r (List.mem_append.2 (Or.inl hr)))
    · rw [q1, p1, List.foldl_append]
      rfl
    · rw [q2, p2, List.foldl_append]
      rfl
    · rw [q3, p3, List.foldl_append, hrk]
      simp only [List.foldl_cons, List.foldl_nil, hpa, beq_iff_eq, Option.some.injEq]
      by_cases hpr : g.rank = p
      · rw [if_pos hpr, if_pos hpr.symm]
      · rw [if_neg hpr, if_neg (fun e => hpr e.symm)]

/-- The pin requests and the weights of a process after `execute_refines`: the
children of a refined cell have inherited its entries, an unrefined cell has no entry,
and the entries of the other cells are unchanged. -/
theorem rank_pins [Inhabited UserData] (g : Dccrg UserData)
    (hfit : g.index.ids_fit) (hinv : g.existence_invariant)
    (hCU : ∀ u ∈ g.cells_to_unrefine, map_has g.cell_process u = true ∧
      g.index.get_refinement_level u ≠ 0 ∧
      ∀ s ∈ g.index.children_of (g.index.get_parent_for_removed u),
        (∀ x ∈ g.index.children_of s, map_has g.cell_process x = false) ∧
        s ∉ g.cells_to_refine)
    (hleaf : ∀ c ∈ g.cells_to_refine, map_has g.cell_process c = true ∧
      ∀ x ∈ g.index.children_of c, map_has g.cell_process x = false)
    (b : Dccrg UserData × List Nat × uset) (hb : g.execute_refines_before_wait = some b)
    (incoming : umap (List UserData)) (g' : Dccrg UserData)
    (ha : ({ b.1 with incoming_data := incoming }).execute_refines_after_wait b.2.2
      = some g') :
    (∀ c ∈ g.cells_to_refine,
      (∀ v, map_find g.pin_requests c = some v →
        map_find g'.pin_requests c = none ∧
        ∀ x ∈ g.index.children_of c, map_find g'.pin_requests x = some v) ∧
      (∀ v, map_find g.new_pin_requests c = some v →
        map_find g'.new_pin_requests c = none ∧
        ∀ x ∈ g.index.children_of c, map_find g'.new_pin_requests x = some v) ∧
      (map_find g.cell_process c = some g.rank →
        ∀ v, map_find g.cell_weights c = some v →
          map_find g'.cell_weights c = none ∧
          ∀ x ∈ g.index.children_of c, map_find g'.cell_weights x = some v)) ∧
    (∀ u ∈ b.2.2, map_find g'.pin_requests u = none ∧
      map_find g'.new_pin_requests u = none ∧ map_find g'.cell_weights u = none) ∧
    (∀ x, x ∉ g.cells_to_refine → (∀ r ∈ g.cells_to_refine, x ∉ g.index.children_of r) →
      x ∉ b.2.2 →
      map_find g'.pin_requests x = map_find g.pin_requests x ∧
      map_find g'.new_pin_requests x = map_find g.new_pin_requests x ∧
      map_find g'.cell_weights x = map_find g.cell_weights x) := by
  obtain ⟨acc1, acc2, g3, acc4, g5, g6, h1, h2, h3, h4, h5, h6, h7, _, hatu⟩ :=
    before_wait_steps g b hb
  obtain ⟨_, _, _, U4, U5⟩ := unrefine_set_facts g hfit hinv hCU hleaf acc1 h1
  obtain ⟨P1, P2, P3⟩ := refine_loop_pins g.execute_refines_clear hfit hinv
    g.cells_to_refine hleaf [] [] acc1 h1
  obtain ⟨E1, E2, E3⟩ := unrefine_loop_pins _ _ _ _ h2
  have F3 := start_user_data_transfers_pins _ _ h3
  have F4 := parent_loop_pins _ _ _ _ h4
  have F5 := update_neighbors_loop_pins _ _ _ h5
  have F6 := remove_neighbor_lists_pins _ _ _ h6
  have F7 := update_remote_neighbor_info_pins _ _ h7
  have F8 := after_wait_pins _ _ _ ha
  have hall : g'.pin_data = acc2.1.pin_data := by
    rw [F8]
    change b.1.pin_data = _
    rw [F7, F6, F5, F4, F3]
  unfold pin_data at hall
  simp only [Prod.mk.injEq] at hall
  obtain ⟨G1, G2, G3⟩ := hall
  rw [E1, P1] at G1
  rw [E2, P2] at G2
  rw [E3, P3] at G3
  rw [← hatu] at G1 G2 G3
  change g'.pin_requests = b.2.2.foldl map_erase (g.cells_to_refine.foldl (fun m r =>
      if (fun _ => true) r = true then inherit m r (g.index.children_of r) else m)
      g.pin_requests) at G1
  change g'.new_pin_requests = b.2.2.foldl map_erase (g.cells_to_refine.foldl (fun m r =>
      if (fun _ => true) r = true then inherit m r (g.index.children_of r) else m)
      g.new_pin_requests) at G2
  change g'.cell_weights = b.2.2.foldl map_erase (g.cells_to_refine.foldl (fun m r =>
      if (fun c => map_find g.cell_process c == some g.rank) r = true then
        inherit m r (g.index.children_of r) else m)
      g.cell_weights) at G3
  have H1 : ∀ r ∈ g.cells_to_refine, ∀ x ∈ g.index.children_of r,
      x ∉ g.cells_to_refine := by
    intro r hr x hx hxl
    have := (hleaf r hr).2 x hx
    rw [(hleaf x hxl).1] at this
    exact Bool.noConfusion this
  have hvalid : ∀ c ∈ g.cells_to_refine, 1 ≤ c ∧ c ≤ g.index.last_cell :=
    fun c hc => hinv.1 c ((mem_map_keys _ _).2 (hleaf c hc).1)
  have H2 : ∀ r ∈ g.cells_to_refine, ∀ r' ∈ g.cells_to_refine, ∀ x,
      x ∈ g.index.children_of r → x ∈ g.index.children_of r' → r = r' := by
    intro r hr r' hr' x h1 h2
    obtain ⟨w1, w2⟩ := hvalid r hr
    obtain ⟨v1, v2⟩ := hvalid r' hr'
    exact children_of_parent_unique hfit w1 w2 v1 v2 h1 h2
  obtain ⟨A1, B1, _⟩ := inherit_loop_spec g.index.children_of (fun _ => true)
    g.pin_requests g.cells_to_refine H1 H2
  obtain ⟨A2, B2, _⟩ := inherit_loop_spec g.index.children_of (fun _ => true)
    g.new_pin_requests g.cells_to_refine H1 H2
  obtain ⟨A3, B3, _⟩ := inherit_loop_spec g.index.children_of
    (fun c => map_find g.cell_process c == some g.rank)
    g.cell_weights g.cells_to_refine H1 H2
  -- the unrefined cells are in the directory
  have hatu_has : ∀ u ∈ b.2.2, map_has g.cell_process u = true := by
    intro u hu
    rw [hatu] at hu
    exact (U5 u hu).2.1
  have hchild_atu : ∀ c ∈ g.cells_to_refine, ∀ x ∈ g.index.children_of c, x ∉ b.2.2 := by
    intro c hc x hx hmem
    have := (hleaf c hc).2 x hx
    rw [hatu_has x hmem] at this
    exact Bool.noConfusion this
  refine ⟨?_, ?_, ?_⟩
  · intro c hc
    refine ⟨?_, ?_, ?_⟩
    · intro v hv
      obtain ⟨k1, k2⟩ := A1 c hc rfl v hv
      rw [G1]
      refine ⟨?_, ?_⟩
      · rw [map_find_foldl_erase]
        split_ifs
        · rfl
        · exact k1
      · intro x hx
        rw [map_find_foldl_erase, if_neg (hchild_atu c hc x hx)]
        exact k2 x hx
    · intro v hv
      obtain ⟨k1, k2⟩ := A2 c hc rfl v hv
      rw [G2]
      refine ⟨?_, ?_⟩
      · rw [map_find_foldl_erase]
        split_ifs
        · rfl
        · exact k1
      · intro x hx
        rw [map_find_foldl_erase, if_neg (hchild_atu c hc x hx)]
        exact k2 x hx
    · intro hown v hv
      obtain ⟨k1, k2⟩ := A3 c hc (by simp only [hown, beq_self_eq_true]) v hv
      rw [G3]
      refine ⟨?_, ?_⟩
      · rw [map_find_foldl_erase]
        split_ifs
        · rfl
        · exact k1
      · intro x hx
        rw [map_find_foldl_erase, if_neg (hchild_atu c hc x hx)]
        exact k2 x hx
  · intro u hu
    rw [G1, G2, G3, map_find_foldl_erase, map_find_foldl_erase, map_find_foldl_erase,
      if_pos hu, if_pos hu, if_pos hu]
    exact ⟨rfl, rfl, rfl⟩
  · intro x hx1 hx2 hx3
    rw [G1, G2, G3, map_find_foldl_erase, map_find_foldl_erase, map_find_foldl_erase,
      if_neg hx3, if_neg hx3, if_neg hx3]
    exact ⟨B1 x (fun h => absurd h hx1) (fun r hr _ hmem => absurd hmem (hx2 r hr)),
      B2 x (fun h => absurd h hx1) (fun r hr _ hmem => absurd hmem (hx2 r hr)),
      B3 x (fun h => absurd h hx1) (fun r hr _ hmem => absurd hmem (hx2 r hr))⟩

end Dccrg
end dccrg
namespace dccrg
open Index Dccrg
namespace Dccrg
variable {UserData : Type}

/-- The pin requests and the weights of an unrefined sibling group after
`execute_refines`: the siblings have no entries and the entries of the parent are
unchanged. -/
theorem rank_unrefined_pins [Inhabited UserData] (g : Dccrg UserData)
    (hfit : g.index.ids_fit) (hinv : g.existence_invariant)
    (hCU : ∀ u ∈ g.cells_to_unrefine, map_has g.cell_process u = true ∧
      g.index.get_refinement_level u ≠ 0 ∧
      ∀ s ∈ g.index.children_of (g.index.get_parent_for_removed u),
        (∀ x ∈ g.index.children_of s, map_has g.cell_process x = false) ∧
        s ∉ g.cells_to_refine)
    (hleaf : ∀ c ∈ g.cells_to_refine, map_has g.cell_process c = true ∧
      ∀ x ∈ g.index.children_of c, map_has g.cell_process x = false)
    (b : Dccrg UserData × List Nat × uset) (hb : g.execute_refines_before_wait = some b)
    (incoming : umap (List UserData)) (g' : Dccrg UserData)
    (ha : ({ b.1 with incoming_data := incoming }).execute_refines_after_wait b.2.2
      = some g') :
    ∀ u ∈ g.cells_to_unrefine,
      u ∈ g.get_all_children (g.get_parent u) ∧
      (∀ s ∈ g.get_all_children (g.get_parent u),
        map_has g'.cell_process s = false ∧
        map_find g'.pin_requests s = none ∧ map_find g'.new_pin_requests s = none ∧
        map_find g'.cell_weights s = none) ∧
      map_has g'.cell_process (g.get_parent u) = true ∧
      map_find g'.pin_requests (g.get_parent u) = map_find g.pin_requests (g.get_parent u) ∧
      map_find g'.new_pin_requests (g.get_parent u)
        = map_find g.new_pin_requests (g.get_parent u) ∧
      map_find g'.cell_weights (g.get_parent u) = map_find g.cell_weights (g.get_parent u) := by
  intro u hu
  obtain ⟨_, PB, PC⟩ := rank_pins g hfit hinv hCU hleaf b hb incoming g' ha
  obtain ⟨_, _, _, _, _, _, hatu, hdir⟩ := rank_directory g hfit hinv hCU b hb incoming g' ha
  obtain ⟨acc1, _, _, _, _, _, h1, _, _, _, _, _, _, _, hb22⟩ := before_wait_steps g b hb
  obtain ⟨_, _, _, _, U5⟩ := unrefine_set_facts g hfit hinv hCU hleaf acc1 h1
  obtain ⟨hu1, hu2, hu3⟩ := hCU u hu
  obtain ⟨v1, v2⟩ := hinv.1 u ((mem_map_keys _ _).2 hu1)
  obtain ⟨hpe, hph⟩ := get_parent_eq g hfit hinv hu1
  obtain ⟨m1, _, m3, m4⟩ := mem_children_of_parent hfit v1 v2 hu2
  have hgac : g.get_all_children (g.index.get_parent_for_removed u)
      = g.index.children_of (g.index.get_parent_for_removed u) :=
    get_all_children_of_has g (by omega) hph
  have hub : u ∈ b.2.2 := (hatu u).2 ⟨u, hu, m1⟩
  rw [hb22] at hub
  have hparent_atu : g.index.get_parent_for_removed u ∉ b.2.2 := by
    rw [hb22]
    exact (U5 u hub).2.2.2.2.2.2.1
  have hparent_cr : g.index.get_parent_for_removed u ∉ g.cells_to_refine := by
    intro hmem
    have := (hleaf _ hmem).2 u m1
    rw [hu1] at this
    exact Bool.noConfusion this
  have hparent_child : ∀ r ∈ g.cells_to_refine,
      g.index.get_parent_for_removed u ∉ g.index.children_of r := by
    intro r hr hmem
    have := (hleaf r hr).2 _ hmem
    rw [hph] at this
    exact Bool.noConfusion this
  rw [hpe, hgac]
  refine ⟨m1, ?_, ?_, PC _ hparent_cr hparent_child hparent_atu⟩
  · intro s hs
    have hsb : s ∈ b.2.2 := (hatu s).2 ⟨u, hu, hs⟩
    refine ⟨?_, PB s hsb⟩
    cases hh : map_has g'.cell_process s
    · rfl
    · exact absurd ⟨u, hu, hs⟩ ((hdir s).1 hh).2
  · refine (hdir _).2 ⟨Or.inl hph, ?_⟩
    rintro ⟨c, hc, hmem⟩
    exact hparent_atu ((hatu _).2 ⟨c, hc, hmem⟩)

/-- The directory of a process after `execute_refines` in terms of the directory, the
refine set and the unrefine set before it. -/
theorem rank_directory_value [Inhabited UserData] (g : Dccrg UserData)
    (hfit : g.index.ids_fit) (hinv : g.existence_invariant)
    (hCU : ∀ u ∈ g.cells_to_unrefine, map_has g.cell_process u = true ∧
      g.index.get_refinement_level u ≠ 0 ∧
      ∀ s ∈ g.index.children_of (g.index.get_parent_for_removed u),
        (∀ x ∈ g.index.children_of s, map_has g.cell_process x = false) ∧
        s ∉ g.cells_to_refine)
    (hleaf : ∀ c ∈ g.cells_to_refine, map_has g.cell_process c = true ∧
      ∀ x ∈ g.index.children_of c, map_has g.cell_process x = false)
    (b : Dccrg UserData × List Nat × uset) (hb : g.execute_refines_before_wait = some b)
    (incoming : umap (List UserData)) (g' : Dccrg UserData)
    (ha : ({ b.1 with incoming_data := incoming }).execute_refines_after_wait b.2.2
      = some g') (x : Nat) :
    ((∃ u ∈ g.cells_to_unrefine,
        x ∈ g.index.children_of (g.index.get_parent_for_removed u)) →
      map_find g'.cell_process x = none) ∧
    ((¬ ∃ u ∈ g.cells_to_unrefine,
        x ∈ g.index.children_of (g.index.get_parent_for_removed u)) →
      (∀ r ∈ g.cells_to_refine, x ∈ g.index.children_of r →
        map_find g'.cell_process x = map_find g.cell_process r) ∧
      ((∀ r ∈ g.cells_to_refine, x ∉ g.index.children_of r) →
        map_find g'.cell_process x = map_find g.cell_process x)) := by
  obtain ⟨acc1, h1, _, _, _, _, s3, _⟩ := rank_stores g b hb incoming g' ha
  obtain ⟨_, _, _, _, _, _, hatu, _⟩ := rank_directory g hfit hinv hCU b hb incoming g' ha
  obtain ⟨A1, A2, _⟩ := refine_loop_spec g.execute_refines_clear hfit hinv
    g.cells_to_refine hleaf [] [] acc1 h1
  change ∀ r ∈ g.cells_to_refine, ∀ x ∈ g.index.children_of r,
      map_find acc1.1.cell_process x = map_find g.cell_process r at A1
  change ∀ x, (∀ r ∈ g.cells_to_refine, x ∉ g.index.children_of r) →
      map_find acc1.1.cell_process x = map_find g.cell_process x at A2
  rw [s3, map_find_foldl_erase]
  refine ⟨fun hx => by rw [if_pos ((hatu x).2 hx)], fun hx => ?_⟩
  rw [if_neg (fun hmem => hx ((hatu x).1 hmem))]
  exact ⟨fun r hr hmem => A1 r hr x hmem, fun hno => A2 x hno⟩

end Dccrg
end dccrg
namespace dccrg
open Index Dccrg
variable {UserData : Type}

/-! ## `find_neighbors_to (cell, found_neighbors_of)` -/

theorem find_neighbors_to_from_eq (g : Dccrg UserData) (a : Nat) (ha : g.is_leaf a)
    (a1 : 1 ≤ a) (a2 : a ≤ g.index.last_cell) (found : List Nat) :
    g.find_neighbors_to_from a found = set_insert_range []
      ((found.filter fun neighbor_of => neighbor_of != 0 && g.is_neighbor neighbor_of a) ++
        (if g.index.get_refinement_level a > 0 then
          g.neighbors_to_at (g.index.get_indices (g.get_parent a))
            (g.index.get_cell_size_in_indices (g.get_parent a))
            (g.index.get_refinement_level a - 1)
        else [])) := by
  unfold find_neighbors_to_from
  rw [if_neg (by
    intro h
    rcases h with h | h | h | h
    · omega
    · omega
    · exact h ha.1
    · exact h ha.2.symm)]

/-- The cells that `find_neighbors_to` finds through the parent of a leaf `a`: leaves
one level above `a` that have `a` in their `find_neighbors_of`. -/
theorem larger_neighbors_to_facts (g : Dccrg UserData) (hfit : g.index.ids_fit)
    (hinv : g.existence_invariant) (hreach : g.reach_fits)
    (hto : g.neighborhood_to = g.neighborhood_of.map fun o => (-o.1, -o.2.1, -o.2.2))
    (a b : Nat) (ha : g.is_leaf a) (h0 : g.index.get_refinement_level a > 0)
    (h : b ∈ g.neighbors_to_at (g.index.get_indices (g.get_parent a))
      (g.index.get_cell_size_in_indices (g.get_parent a))
      (g.index.get_refinement_level a - 1)) :
    g.is_leaf b ∧ g.index.get_refinement_level b = g.index.get_refinement_level a - 1 ∧
    a ∈ g.find_neighbors_of b 1 false := by
  obtain ⟨F, ⟨a1, a2⟩, la, hla, hlva, hsa, ab, ad, aenc⟩ := cell_facts g hfit hinv ha.1
  have hmem : b ∈ g.find_neighbors_to a := by
    rw [find_neighbors_to_eq g a ha a1 a2, mem_set_insert_range, if_pos h0]
    exact Or.inr (List.mem_append.2 (Or.inl (List.mem_append.2 (Or.inl h))))
  have hsees := sees_of_mem_find_neighbors_to g hfit hinv hreach hto a b ha hmem
  have hlvb : g.index.get_refinement_level b = g.index.get_refinement_level a - 1 := by
    generalize hR : g.index.max_refinement_level.toNat = R at *
    obtain ⟨k, rfl⟩ : ∃ k, la = k + 1 := ⟨la - 1, by rw [hlva] at h0; omega⟩
    have hk : k < R := by omega
    obtain ⟨p1, p2, p3⟩ := parent_facts F hk ab aenc
    rw [(get_parent_eq g hfit hinv ha.1).1, p2, p3, hlva] at h
    have c1 : ((k + 1 : Nat) : Int) - 1 = (k : Int) := by push_cast; ring
    rw [c1] at h
    obtain ⟨hl, _⟩ := neighbors_to_at_of_mem g F hreach hto k (Nat.le_of_lt hk) _
      ⟨lt_of_le_of_lt (Nat.div_mul_le_self _ _) ab.1,
        lt_of_le_of_lt (Nat.div_mul_le_self _ _) ab.2.1,
        lt_of_le_of_lt (Nat.div_mul_le_self _ _) ab.2.2⟩
      ⟨Nat.dvd_mul_left _ _, Nat.dvd_mul_left _ _, Nat.dvd_mul_left _ _⟩ b h
    rw [hl, hlva, c1]
  have hb0 : b ≠ 0 := by
    intro e
    rw [e, level_error_cell] at hlvb
    omega
  have hb := find_neighbors_to_entry_leaf g a b hmem hb0
  exact ⟨hb, hlvb, (mem_find_neighbors_of_iff_sees g hfit hinv hreach a b ha hb).2 hsees⟩

/-- The list `find_neighbors_to (c, found_neighbors_of)` of a leaf `c`. -/
theorem find_neighbors_to_from_spec (g : Dccrg UserData) (hfit : g.index.ids_fit)
    (hinv : g.existence_invariant) (hreach : g.reach_fits)
    (hto : g.neighborhood_to = g.neighborhood_of.map fun o => (-o.1, -o.2.1, -o.2.2))
    (c : Nat) (hc : g.is_leaf c) (found : List Nat) :
    (g.find_neighbors_to_from c found).Nodup ∧
    (∀ n ∈ found, n ≠ 0 → g.is_neighbor n c = true → n ∈ g.find_neighbors_to_from c found) ∧
    ∀ n ∈ g.find_neighbors_to_from c found,
      (n ∈ found ∧ n ≠ 0 ∧ g.is_neighbor n c = true) ∨
      (g.is_leaf n ∧ g.index.get_refinement_level n = g.index.get_refinement_level c - 1 ∧
        c ∈ g.find_neighbors_of n 1 false) := by
  obtain ⟨c1, c2⟩ := hinv.1 c ((mem_map_keys _ _).2 hc.1)
  rw [find_neighbors_to_from_eq g c hc c1 c2]
  refine ⟨set_insert_range_nodup _ _ List.nodup_nil, ?_, ?_⟩
  · intro n hn h0 hnb
    rw [mem_set_insert_range]
    refine Or.inr (List.mem_append.2 (Or.inl (List.mem_filter.2 ⟨hn, ?_⟩)))
    simp [h0, hnb]
  · intro n hn
    rw [mem_set_insert_range] at hn
    rcases hn with hn | hn
    · cases hn
    rcases List.mem_append.1 hn with hn | hn
    · obtain ⟨k1, k2⟩ := List.mem_filter.1 hn
      simp only [Bool.and_eq_true, bne_iff_ne, ne_eq] at k2
      exact Or.inl ⟨k1, k2.1, k2.2⟩
    · by_cases h0 : g.index.get_refinement_level c > 0
      · rw [if_pos h0] at hn
        exact Or.inr (larger_neighbors_to_facts g hfit hinv hreach hto c n hc h0 hn)
      · rw [if_neg h0] at hn; cases hn

end dccrg
namespace dccrg
open Index Dccrg
variable {UserData : Type}

/-! ## `is_neighbor` -/

theorem is_neighbor_distance_eq (per : Bool) (L i1 i2 s1 s2 : Nat)
    (h1L : i1 + s1 ≤ L) (h2L : i2 + s2 ≤ L) (hL : L < 2 ^ 64) :
    is_neighbor_distance per L i1 i2 s1 s2 =
      if i1 ≤ i2 then
        (if per = true then min (i2 - (i1 + s1)) (i1 + (L - (i2 + s2))) else i2 - (i1 + s1))
      else
        (if per = true then min (i1 - (i2 + s2)) (i2 + (L - (i1 + s1))) else i1 - (i2 + s2)) := by
  unfold is_neighbor_distance
  have e1 : u64 (i1 + s1) = i1 + s1 := u64_of_lt (by omega)
  have e2 : u64 (i2 + s2) = i2 + s2 := u64_of_lt (by omega)
  have e3 : usub L (i2 + s2) = L - (i2 + s2) := usub_eq h2L hL
  have e4 : usub L (i1 + s1) = L - (i1 + s1) := usub_eq h1L hL
  simp only [e1, e2, e3, e4]
  by_cases hle : i1 ≤ i2
  · rw [if_pos hle, if_pos hle]
    have e5 : u64 (i1 + (L - (i2 + s2))) = i1 + (L - (i2 + s2)) := u64_of_lt (by omega)
    have e6 : (if i2 ≤ i1 + s1 then 0 else usub i2 (i1 + s1)) = i2 - (i1 + s1) := by
      by_cases h : i2 ≤ i1 + s1
      · rw [if_pos h]; omega
      · rw [if_neg h, usub_eq (by omega) (by omega)]
    simp only [e5, e6]
  · rw [if_neg hle, if_neg hle]
    have e5 : u64 (i2 + (L - (i1 + s1))) = i2 + (L - (i1 + s1)) := u64_of_lt (by omega)
    have e6 : (if i1 ≤ i2 + s2 then 0 else usub i1 (i2 + s2)) = i1 - (i2 + s2) := by
      by_cases h : i1 ≤ i2 + s2
      · rw [if_pos h]; omega
      · rw [if_neg h, usub_eq (by omega) (by omega)]
    simp only [e5, e6]

theorem shift_index_nat (per : Bool) (L s i p : Nat) (k : Int) (hp : p < L)
    (h : (i : Int) + k * s = p) : shift_index per L s i k = some p := by
  unfold shift_index
  rw [h]
  cases per
  · simp only [Bool.false_eq_true, if_false]
    rw [if_pos ⟨by omega, by omega⟩]
    simp
  · simp only [if_true]
    rw [Int.emod_eq_of_lt (by omega) (by omega)]
    simp

theorem shift_index_wrap (L s i p : Nat) (k t : Int) (hp : p < L)
    (h : (i : Int) + k * s = p + t * L) : shift_index true L s i k = some p := by
  unfold shift_index
  rw [h]
  simp only [if_true]
  rw [Int.add_mul_emod_self, Int.emod_eq_of_lt (by omega) (by omega)]
  simp

/-- In one dimension: when the distance that `is_neighbor` computes from the cell at
`i1` of size `s1` to the cell at `i2` of size `s2` is below `N * s1`, some offset of at
most `N` cells of size `s1` leads from `i1` to an index whose cube of size `s1` meets
the other cell; the offset is 0 exactly when the two cells overlap. -/
theorem distance_offset (per : Bool) (L i1 i2 s1 s2 N : Nat) (hs1 : 0 < s1) (hs2 : 0 < s2)
    (hd1 : s1 ∣ i1) (hdL : s1 ∣ L) (h1L : i1 + s1 ≤ L) (h2L : i2 + s2 ≤ L) (hL : L < 2 ^ 64)
    (h : is_neighbor_distance per L i1 i2 s1 s2 < N * s1) :
    ∃ k : Int, k.natAbs ≤ N ∧ ∃ p : Nat, shift_index per L s1 i1 k = some p ∧
      i2 < p + s1 ∧ p < i2 + s2 ∧ (k = 0 ↔ (i2 < i1 + s1 ∧ i1 < i2 + s2)) := by
  rw [is_neighbor_distance_eq per L i1 i2 s1 s2 h1L h2L hL] at h
  obtain ⟨a, rfl⟩ := hd1
  obtain ⟨l, rfl⟩ := hdL
  by_cases hov : i2 < s1 * a + s1 ∧ s1 * a < i2 + s2
  · refine ⟨0, by simp, s1 * a, shift_index_nat per _ _ _ _ 0 (by omega) (by simp), hov.1,
      hov.2, ?_⟩
    simp [hov]
  by_cases hle : s1 * a ≤ i2
  · rw [if_pos hle] at h
    have hleft : s1 * a + s1 ≤ i2 := by
      by_contra hc
      exact hov ⟨by omega, by omega⟩
    by_cases hdir : i2 - (s1 * a + s1) < N * s1
    · -- the cell at `i2` lies further up
      have m1 := Nat.div_mul_le_self (i2 - s1 * a) s1
      have m2 := Nat.lt_div_mul_add (a := i2 - s1 * a) hs1
      generalize hm : (i2 - s1 * a) / s1 = m at m1 m2
      have hm0 : m ≠ 0 := by
        intro e; rw [e] at m2; omega
      have hmN : m ≤ N := by
        by_contra hc
        have := Nat.mul_le_mul_right s1 (by omega : N + 1 ≤ m)
        rw [Nat.add_mul] at this
        omega
      refine ⟨(m : Int), by omega, s1 * a + m * s1,
        shift_index_nat per _ _ _ _ _ (by omega) (by push_cast; ring), by omega, by omega, ?_⟩
      constructor
      · intro e; omega
      · intro e; exact absurd e hov
    · -- around the end of the grid
      have hper : per = true := by
        cases per
        · simp only [Bool.false_eq_true, if_false] at h; exact absurd h hdir
        · rfl
      subst hper
      simp only [if_true] at h
      have hw : s1 * a + (s1 * l - (i2 + s2)) < N * s1 := by
        rcases Nat.lt_or_ge (i2 - (s1 * a + s1)) (s1 * a + (s1 * l - (i2 + s2))) with c | c
        · rw [Nat.min_eq_left (Nat.le_of_lt c)] at h; exact absurd h hdir
        · rw [Nat.min_eq_right c] at h; exact h
      have m1 := Nat.div_mul_le_self (s1 * a + (s1 * l - (i2 + s2))) s1
      have m2 := Nat.lt_div_mul_add (a := s1 * a + (s1 * l - (i2 + s2))) hs1
      generalize hm : (s1 * a + (s1 * l - (i2 + s2))) / s1 = m at m1 m2
      have hmN : m + 1 ≤ N := by
        by_contra hc
        have := Nat.mul_le_mul_right s1 (by omega : N ≤ m)
        omega
      -- `m + 1 ≤ a + l` and `a ≤ m`
      have hal : (m + 1) * s1 ≤ s1 * a + s1 * l := by
        have hlt : m < a + l := by
          by_contra hc
          have := Nat.mul_le_mul_right s1 (by omega : a + l ≤ m)
          rw [Nat.add_mul, Nat.mul_comm a, Nat.mul_comm l] at this
          omega
        have := Nat.mul_le_mul_right s1 (by omega : m + 1 ≤ a + l)
        rw [Nat.add_mul a, Nat.mul_comm a, Nat.mul_comm l] at this
        exact this
      have e1 : (m + 1) * s1 = m * s1 + s1 := by ring
      refine ⟨-((m + 1 : Nat) : Int), by omega, s1 * a + s1 * l - (m + 1) * s1,
        shift_index_wrap _ _ _ _ _ (-1) (by omega) ?_, by omega, by omega, ?_⟩
      · rw [Nat.cast_sub hal]
        push_cast
        ring
      · constructor
        · intro e; omega
        · intro e; exact absurd e hov
  · rw [if_neg hle] at h
    have hright : i2 + s2 ≤ s1 * a := by
      by_contra hc
      exact hov ⟨by omega, by omega⟩
    by_cases hdir : s1 * a - (i2 + s2) < N * s1
    · -- the cell at `i2` lies further down
      have m1 := Nat.div_mul_le_self (s1 * a - (i2 + s2)) s1
      have m2 := Nat.lt_div_mul_add (a := s1 * a - (i2 + s2)) hs1
      generalize hm : (s1 * a - (i2 + s2)) / s1 = m at m1 m2
      have hmN : m + 1 ≤ N := by
        by_contra hc
        have := Nat.mul_le_mul_right s1 (by omega : N ≤ m)
        omega
      have hal : (m + 1) * s1 ≤ s1 * a := by
        have hlt : m < a := by
          by_contra hc
          have := Nat.mul_le_mul_right s1 (by omega : a ≤ m)
          rw [Nat.mul_comm a] at this
          omega
        have := Nat.mul_le_mul_right s1 (by omega : m + 1 ≤ a)
        rw [Nat.mul_comm a] at this
        exact this
      have e1 : (m + 1) * s1 = m * s1 + s1 := by ring
      refine ⟨-((m + 1 : Nat) : Int), by omega, s1 * a - (m + 1) * s1,
        shift_index_nat per _ _ _ _ _ (by omega) ?_, by omega, by omega, ?_⟩
      · rw [Nat.cast_sub hal]
        push_cast
        ring
      · constructor
        · intro e; omega
        · intro e; exact absurd e hov
    · -- around the end of the grid
      have hper : per = true := by
        cases per
        · simp only [Bool.false_eq_true, if_false] at h; exact absurd h hdir
        · rfl
      subst hper
      simp only [if_true] at h
      have hw : i2 + (s1 * l - (s1 * a + s1)) < N * s1 := by
        rcases Nat.lt_or_ge (s1 * a - (i2 + s2)) (i2 + (s1 * l - (s1 * a + s1))) with c | c
        · rw [Nat.min_eq_left (Nat.le_of_lt c)] at h; exact absurd h hdir
        · rw [Nat.min_eq_right c] at h; exact h
      have m1 := Nat.div_mul_le_self (i2 + s1 * l - s1 * a) s1
      have m2 := Nat.lt_div_mul_add (a := i2 + s1 * l - s1 * a) hs1
      generalize hm : (i2 + s1 * l - s1 * a) / s1 = m at m1 m2
      have hm0 : m ≠ 0 := by
        intro e; rw [e] at m2; omega
      have hmN : m ≤ N := by
        by_contra hc
        have := Nat.mul_le_mul_right s1 (by omega : N + 1 ≤ m)
        rw [Nat.add_mul] at this
        omega
      -- `l ≤ a + m`
      have hal : s1 * l ≤ s1 * a + m * s1 := by
        have hlt : l ≤ a + m := by
          by_contra hc
          have := Nat.mul_le_mul_right s1 (by omega : a + m + 1 ≤ l)
          rw [Nat.add_mul, Nat.add_mul, Nat.mul_comm a, Nat.mul_comm l] at this
          omega
        have := Nat.mul_le_mul_right s1 hlt
        rw [Nat.add_mul, Nat.mul_comm a, Nat.mul_comm l] at this
        exact this
      refine ⟨(m : Int), by omega, s1 * a + m * s1 - s1 * l,
        shift_index_wrap _ _ _ _ _ 1 (by omega) ?_, by omega, by omega, ?_⟩
      · rw [Nat.cast_sub hal]
        push_cast
        ring
      · constructor
        · intro e; omega
        · intro e; exact absurd e hov

theorem aligned_add_le {i L R l : Nat} (hl : l ≤ R) (hd : 2 ^ (R - l) ∣ i)
    (hi : i < L * 2 ^ R) : i + 2 ^ (R - l) ≤ L * 2 ^ R ∧ 2 ^ (R - l) ∣ L * 2 ^ R := by
  have eR : L * 2 ^ R = 2 ^ (R - l) * (L * 2 ^ l) := by
    rw [mul_comm (2 ^ (R - l)), mul_assoc, ← pow_add]; congr 2; omega
  refine ⟨?_, eR ▸ Nat.dvd_mul_right _ _⟩
  obtain ⟨k, rfl⟩ := hd
  rw [eR] at hi ⊢
  have hk : k < L * 2 ^ l := lt_of_mul_lt_mul_left hi (Nat.zero_le _)
  calc 2 ^ (R - l) * k + 2 ^ (R - l) = 2 ^ (R - l) * (k + 1) := by ring
    _ ≤ 2 ^ (R - l) * (L * 2 ^ l) := Nat.mul_le_mul_left _ hk

/-- Two leaves whose footprints overlap in every dimension are the same cell. -/
theorem leaves_overlap_eq (g : Dccrg UserData) (hfit : g.index.ids_fit)
    (hinv : g.existence_invariant) (n c : Nat) (hn : g.is_leaf n) (hc : g.is_leaf c)
    (h0 : (g.index.get_indices c).1 < (g.index.get_indices n).1
        + g.index.get_cell_size_in_indices n ∧
      (g.index.get_indices n).1 < (g.index.get_indices c).1
        + g.index.get_cell_size_in_indices c)
    (h1 : (g.index.get_indices c).2.1 < (g.index.get_indices n).2.1
        + g.index.get_cell_size_in_indices n ∧
      (g.index.get_indices n).2.1 < (g.index.get_indices c).2.1
        + g.index.get_cell_size_in_indices c)
    (h2 : (g.index.get_indices c).2.2 < (g.index.get_indices n).2.2
        + g.index.get_cell_size_in_indices n ∧
      (g.index.get_indices n).2.2 < (g.index.get_indices c).2.2
        + g.index.get_cell_size_in_indices c) : n = c := by
  obtain ⟨F, _, ln, hln, _, hsn, nb, nd, _⟩ := cell_facts g hfit hinv hn.1
  obtain ⟨_, _, lc, _, _, hsc, _, _, _⟩ := cell_facts g hfit hinv hc.1
  have a0 := (aligned_add_le hln nd.1 nb.1).1
  have a1 := (aligned_add_le hln nd.2.1 nb.2.1).1
  have a2 := (aligned_add_le hln nd.2.2 nb.2.2).1
  have hpn : 0 < g.index.get_cell_size_in_indices n := by rw [hsn]; positivity
  have hpc : 0 < g.index.get_cell_size_in_indices c := by rw [hsc]; positivity
  rw [← hsn] at a0 a1 a2
  have key : ∀ (a b sa sb : Nat), 0 < sa → 0 < sb → b < a + sa → a < b + sb →
      (a ≤ max a b ∧ max a b < a + sa) ∧ (b ≤ max a b ∧ max a b < b + sb) :=
    fun a b sa sb h1 h2 h3 h4 =>
      ⟨⟨le_max_left a b, max_lt (by omega) h3⟩, ⟨le_max_right a b, max_lt h4 (by omega)⟩⟩
  obtain ⟨⟨x1, x2⟩, x3, x4⟩ := key _ _ _ _ hpn hpc h0.1 h0.2
  obtain ⟨⟨y1, y2⟩, y3, y4⟩ := key _ _ _ _ hpn hpc h1.1 h1.2
  obtain ⟨⟨z1, z2⟩, z3, z4⟩ := key _ _ _ _ hpn hpc h2.1 h2.2
  obtain ⟨m, _, hu⟩ := covered_once_of_invariant g hfit hinv
    (max (g.index.get_indices n).1 (g.index.get_indices c).1,
      max (g.index.get_indices n).2.1 (g.index.get_indices c).2.1,
      max (g.index.get_indices n).2.2 (g.index.get_indices c).2.2)
    (lt_of_lt_of_le x2 a0) (lt_of_lt_of_le y2 a1) (lt_of_lt_of_le z2 a2)
  rw [hu n ⟨hn, ⟨x1, x2, y1, y2, z1, z2⟩⟩, hu c ⟨hc, ⟨x3, x4, y3, y4, z3, z4⟩⟩]

theorem sees_of_meets_levels (g : Dccrg UserData) (hfit : g.index.ids_fit)
    (hinv : g.existence_invariant) (hreach : g.reach_fits) (c : Nat)
    (hc : map_has g.cell_process c = true) (o : neighborhood_item_t)
    (ho : o ∈ g.neighborhood_of) (p : indices_t) (hp : g.neighbor_position c o = some p)
    (n : Nat) (hn : map_has g.cell_process n = true)
    (hb : (g.index.get_refinement_level c - g.index.get_refinement_level n).natAbs ≤ 1)
    (hm : g.meets n p (g.index.get_cell_size_in_indices c)) : g.sees c n := by
  have hq := (neighbor_position_iff g hfit hinv hreach c hc o ho p).1 hp
  obtain ⟨F, _, l, hl, hlv, hs, pb, pd, _⟩ := cell_facts g hfit hinv hc
  obtain ⟨_, _, ln, hln, hlvn, hsn, nb, nd, _⟩ := cell_facts g hfit hinv hn
  generalize hR : g.index.max_refinement_level.toNat = R at *
  rw [hs] at hq hm
  obtain ⟨_, qd, _⟩ := shifted_facts g F l hl _ pb pd o (reach_of_mem g F hreach o ho) p hq
  unfold meets at hm
  rw [hsn] at hm
  unfold sees
  refine ⟨?_, o, ho, p, by rw [hs]; exact hq, ?_⟩
  · rw [hlv, hlvn] at hb ⊢
    omega
  · rw [hs, hsn]
    exact ⟨div_max_of_meets R ln l _ _ nd.1 qd.1 hm.1 hm.2.1,
      div_max_of_meets R ln l _ _ nd.2.1 qd.2.1 hm.2.2.1 hm.2.2.2.1,
      div_max_of_meets R ln l _ _ nd.2.2 qd.2.2 hm.2.2.2.2.1 hm.2.2.2.2.2⟩

theorem face_of_overlaps (ox oy oz : Prop) [Decidable ox] [Decidable oy] [Decidable oz]
    (kx ky kz : Int) (hx : kx.natAbs ≤ 1) (hy : ky.natAbs ≤ 1) (hz : kz.natAbs ≤ 1)
    (zx : kx = 0 ↔ ox) (zy : ky = 0 ↔ oy) (zz : kz = 0 ↔ oz)
    (hcount : ((if ox then 1 else 0) + (if oy then 1 else 0) + (if oz then 1 else 0) : Int)
      ≥ 2)
    (hnot : ¬ (ox ∧ oy ∧ oz)) :
    (kx = 0 ∧ ky = 0 ∧ kz.natAbs = 1) ∨ (kx = 0 ∧ ky.natAbs = 1 ∧ kz = 0) ∨
      (kx.natAbs = 1 ∧ ky = 0 ∧ kz = 0) := by
  by_cases ox' : ox
  · by_cases oy' : oy
    · have oz' : ¬ oz := fun o => hnot ⟨ox', oy', o⟩
      have hz0 : kz ≠ 0 := fun e => oz' (zz.1 e)
      exact Or.inl ⟨zx.2 ox', zy.2 oy', by omega⟩
    · by_cases oz' : oz
      · have hy0 : ky ≠ 0 := fun e => oy' (zy.1 e)
        exact Or.inr (Or.inl ⟨zx.2 ox', by omega, zz.2 oz'⟩)
      · rw [if_pos ox', if_neg oy', if_neg oz'] at hcount
        omega
  · by_cases oy' : oy
    · by_cases oz' : oz
      · have hx0 : kx ≠ 0 := fun e => ox' (zx.1 e)
        exact Or.inr (Or.inr ⟨by omega, zy.2 oy', zz.2 oz'⟩)
      · rw [if_neg ox', if_pos oy', if_neg oz'] at hcount
        omega
    · rw [if_neg ox', if_neg oy'] at hcount
      split_ifs at hcount <;> omega

/-- What `is_neighbor (n, c)` says about two cells of the directory, in terms of the
distances in the three dimensions. -/
theorem is_neighbor_bounds (g : Dccrg UserData) {R : Nat} (F : Fit g.index R)
    (hreach : g.reach_fits)
    (hnb : g.neighborhood_of = make_neighborhood_of g.neighborhood_size)
    (n c : Nat) (hn : map_has g.cell_process n = true) (hc : map_has g.cell_process c = true)
    (s1 s2 : Nat) (hsn : g.index.get_cell_size_in_indices n = s1)
    (hsc : g.index.get_cell_size_in_indices c = s2) (hs1 : s1 ≤ 2 ^ R)
    (ax : (g.index.get_indices n).1 + s1 ≤ g.index.x_length * 2 ^ R)
    (ay : (g.index.get_indices n).2.1 + s1 ≤ g.index.y_length * 2 ^ R)
    (az : (g.index.get_indices n).2.2 + s1 ≤ g.index.z_length * 2 ^ R)
    (cx : (g.index.get_indices c).1 + s2 ≤ g.index.x_length * 2 ^ R)
    (cy : (g.index.get_indices c).2.1 + s2 ≤ g.index.y_length * 2 ^ R)
    (cz : (g.index.get_indices c).2.2 + s2 ≤ g.index.z_length * 2 ^ R)
    (h : g.is_neighbor n c = true) :
    (is_neighbor_distance g.periodic.1 (g.index.x_length * 2 ^ R) (g.index.get_indices n).1
        (g.index.get_indices c).1 s1 s2 < max 1 g.neighborhood_size * s1 ∧
      is_neighbor_distance g.periodic.2.1 (g.index.y_length * 2 ^ R)
        (g.index.get_indices n).2.1 (g.index.get_indices c).2.1 s1 s2
        < max 1 g.neighborhood_size * s1 ∧
      is_neighbor_distance g.periodic.2.2 (g.index.z_length * 2 ^ R)
        (g.index.get_indices n).2.2 (g.index.get_indices c).2.2 s1 s2
        < max 1 g.neighborhood_size * s1) ∧
    (g.neighborhood_size = 0 →
      ((if (g.index.get_indices c).1 < (g.index.get_indices n).1 + s1 ∧
            (g.index.get_indices n).1 < (g.index.get_indices c).1 + s2 then 1 else 0)
        + (if (g.index.get_indices c).2.1 < (g.index.get_indices n).2.1 + s1 ∧
            (g.index.get_indices n).2.1 < (g.index.get_indices c).2.1 + s2 then 1 else 0)
        + (if (g.index.get_indices c).2.2 < (g.index.get_indices n).2.2 + s1 ∧
            (g.index.get_indices n).2.2 < (g.index.get_indices c).2.2 + s2 then 1 else 0)
        : Int) ≥ 2) := by
  have hLx := F.x_lt (le_refl R)
  have hLy := F.y_lt (le_refl R)
  have hLz := F.z_lt (le_refl R)
  unfold is_neighbor at h
  simp only [] at h
  rw [hsn, hsc, F.hR, F.xlen_eq (le_refl R), F.ylen_eq (le_refl R), F.zlen_eq (le_refl R)] at h
  by_cases hN : g.neighborhood_size = 0
  · rw [if_pos hN] at h
    simp only [decide_eq_true_eq] at h
    obtain ⟨hmax, hov⟩ := h
    rw [hN, show max 1 0 = 1 from rfl, one_mul]
    refine ⟨⟨by omega, by omega, by omega⟩, fun _ => ?_⟩
    unfold overlapping_indices at hov
    rw [if_neg (by simp [hn, hc])] at hov
    simp only [] at hov
    rw [hsn, hsc] at hov
    unfold indices_overlap at hov
    rw [u64_of_lt (lt_of_le_of_lt ax hLx), u64_of_lt (lt_of_le_of_lt ay hLy),
      u64_of_lt (lt_of_le_of_lt az hLz), u64_of_lt (lt_of_le_of_lt cx hLx),
      u64_of_lt (lt_of_le_of_lt cy hLy), u64_of_lt (lt_of_le_of_lt cz hLz)] at hov
    simp only [decide_eq_true_eq, gt_iff_lt] at hov
    exact hov
  · rw [if_neg hN] at h
    simp only [decide_eq_true_eq] at h
    have hN1 : 1 ≤ g.neighborhood_size := by omega
    have hmem : ((g.neighborhood_size : Int), (g.neighborhood_size : Int),
        (g.neighborhood_size : Int)) ∈ g.neighborhood_of := by
      rw [hnb, mem_make_neighborhood_of _ hN1]
      refine ⟨by omega, by omega, by omega, ?_⟩
      rintro ⟨e, _, _⟩
      omega
    have hov := (reach_of_mem g F hreach _ hmem).1
    simp only [Int.natAbs_ofNat] at hov
    have hNs : g.neighborhood_size * s1 < 2 ^ 64 := by
      have := Nat.mul_le_mul_left g.neighborhood_size hs1
      omega
    rw [u64_of_lt hNs] at h
    rw [Nat.max_eq_right hN1]
    exact ⟨⟨by omega, by omega, by omega⟩, fun e => absurd e hN⟩

/-- A leaf `n` with `is_neighbor (n, c)` for another leaf `c` whose level differs by at
most 1 has `c` in its neighbourhood. -/
theorem sees_of_is_neighbor (g : Dccrg UserData) (hfit : g.index.ids_fit)
    (hinv : g.existence_invariant) (hreach : g.reach_fits)
    (hnb : g.neighborhood_of = make_neighborhood_of g.neighborhood_size)
    (n c : Nat) (hn : g.is_leaf n) (hc : g.is_leaf c)
    (hlev : (g.index.get_refinement_level n - g.index.get_refinement_level c).natAbs ≤ 1)
    (hne : n ≠ c) (h : g.is_neighbor n c = true) : g.sees n c := by
  obtain ⟨F, _, ln, hln, hlvn, hsn, nb, nd, _⟩ := cell_facts g hfit hinv hn.1
  obtain ⟨_, _, lc, hlc, hlvc, hsc, cb, cd, _⟩ := cell_facts g hfit hinv hc.1
  generalize hR : g.index.max_refinement_level.toNat = R at *
  have hs1 : 0 < 2 ^ (R - ln) := by positivity
  have hs2 : 0 < 2 ^ (R - lc) := by positivity
  obtain ⟨ax, dLx⟩ := aligned_add_le hln nd.1 nb.1
  obtain ⟨ay, dLy⟩ := aligned_add_le hln nd.2.1 nb.2.1
  obtain ⟨az, dLz⟩ := aligned_add_le hln nd.2.2 nb.2.2
  obtain ⟨cx, _⟩ := aligned_add_le hlc cd.1 cb.1
  obtain ⟨cy, _⟩ := aligned_add_le hlc cd.2.1 cb.2.1
  obtain ⟨cz, _⟩ := aligned_add_le hlc cd.2.2 cb.2.2
  obtain ⟨⟨bx, by', bz⟩, hcount⟩ := is_neighbor_bounds g F hreach hnb n c hn.1 hc.1 _ _ hsn hsc
    (Nat.pow_le_pow_right (by norm_num) (Nat.sub_le _ _)) ax ay az cx cy cz h
  clear h
  obtain ⟨kx, hkx, px, hpx, mx1, mx2, zx⟩ := distance_offset g.periodic.1 _ _
    (g.index.get_indices c).1 _ (2 ^ (R - lc)) _ hs1 hs2 nd.1 dLx ax cx
    (F.x_lt (le_refl R)) bx
  obtain ⟨ky, hky, py, hpy, my1, my2, zy⟩ := distance_offset g.periodic.2.1 _ _
    (g.index.get_indices c).2.1 _ (2 ^ (R - lc)) _ hs1 hs2 nd.2.1 dLy ay cy
    (F.y_lt (le_refl R)) by'
  obtain ⟨kz, hkz, pz, hpz, mz1, mz2, zz⟩ := distance_offset g.periodic.2.2 _ _
    (g.index.get_indices c).2.2 _ (2 ^ (R - lc)) _ hs1 hs2 nd.2.2 dLz az cz
    (F.z_lt (le_refl R)) bz
  clear bx by' bz
  -- two distinct leaves do not overlap in all three dimensions
  have hdisjoint : ¬ (((g.index.get_indices c).1 < (g.index.get_indices n).1 + 2 ^ (R - ln) ∧
        (g.index.get_indices n).1 < (g.index.get_indices c).1 + 2 ^ (R - lc)) ∧
      ((g.index.get_indices c).2.1 < (g.index.get_indices n).2.1 + 2 ^ (R - ln) ∧
        (g.index.get_indices n).2.1 < (g.index.get_indices c).2.1 + 2 ^ (R - lc)) ∧
      ((g.index.get_indices c).2.2 < (g.index.get_indices n).2.2 + 2 ^ (R - ln) ∧
        (g.index.get_indices n).2.2 < (g.index.get_indices c).2.2 + 2 ^ (R - lc))) := by
    rintro ⟨o0, o1, o2⟩
    rw [← hsn, ← hsc] at o0 o1 o2
    exact hne (leaves_overlap_eq g hfit hinv n c hn hc o0 o1 o2)
  have ho : (kx, ky, kz) ∈ g.neighborhood_of := by
    rw [hnb]
    by_cases hN : g.neighborhood_size = 0
    · rw [hN, mem_make_neighborhood_of_zero]
      rw [hN] at hkx hky hkz
      exact face_of_overlaps _ _ _ kx ky kz hkx hky hkz zx zy zz (hcount hN) hdisjoint
    · have hN1 : 1 ≤ g.neighborhood_size := by omega
      rw [Nat.max_eq_right hN1] at hkx hky hkz
      rw [mem_make_neighborhood_of _ hN1]
      exact ⟨hkx, hky, hkz, fun e => hdisjoint ⟨zx.1 e.1, zy.1 e.2.1, zz.1 e.2.2⟩⟩
  refine sees_of_meets_levels g hfit hinv hreach n hn.1 (kx, ky, kz) ho (px, py, pz) ?_ c
    hc.1 hlev ?_
  · unfold neighbor_position
    rw [hR, hsn]
    simp only [hpx, hpy, hpz, Option.some_bind, Option.map_some']
  · unfold meets
    rw [hsn, hsc]
    exact ⟨mx1, mx2, my1, my2, mz1, mz2⟩

end dccrg
namespace dccrg
namespace Dccrg
variable {UserData : Type}

/-- The loop of `get_part_number` after the levels `0 .. n`: `process` is the rank
reduced modulo `processes_per_part[0]`, ..., `processes_per_part[n]` in turn, and
`part` is the quotient of the last division. -/
theorem part_number_loop (ppp : List Nat) (rank : Nat) :
    ∀ n : Nat, n < ppp.length →
      (List.range (n + 1)).foldl
        (fun (state : Nat × Nat) i => (state.1 % ppp.getD i 0, state.1 / ppp.getD i 0))
        (rank, 0)
      = ((ppp.take (n + 1)).foldl (fun process p => process % p) rank,
         (ppp.take n).foldl (fun process p => process % p) rank / ppp.getD n 0) := by
  intro n
  induction n with
  | zero =>
    intro h
    cases ppp with
    | nil => simp at h
    | cons a t => simp [List.range_succ]
  | succ n ih =>
    intro h
    rw [List.range_succ, List.foldl_append, ih (by omega)]
    have hget : ppp.take (n + 1 + 1) = ppp.take (n + 1) ++ [ppp.getD (n + 1) 0] := by
      rw [List.take_succ]
      congr 1
      rw [List.getD_eq_getElem?_getD, List.getElem?_eq_getElem h]
      simp
    simp only [List.foldl_cons, List.foldl_nil]
    rw [hget, List.foldl_append]
    simp

end Dccrg
end dccrg
namespace dccrg
open Index Dccrg
namespace Dccrg
variable {UserData : Type}

/-- The quotient of the `int` division by 2, which rounds towards zero, is within one
half of the exact quotient. -/
theorem tdiv_two_bounds (a : Int) : a - 1 ≤ 2 * a.tdiv 2 ∧ 2 * a.tdiv 2 ≤ a + 1 := by
  rcases le_or_lt 0 a with h | h
  · have := Int.tdiv_eq_ediv h (show (0:Int) ≤ 2 by omega)
    omega
  · have e : a = -(-a) := by omega
    have := Int.tdiv_eq_ediv (show 0 ≤ -a by omega) (show (0:Int) ≤ 2 by omega)
    rw [e, Int.neg_tdiv]
    omega

/-- With an empty range of levels the search returns `error_cell`, whatever the
fuel. -/
theorem get_existing_cell_loop_empty (g : Dccrg UserData) (indices : indices_t)
    (fuel : Nat) (lo hi : Int) (h : lo > hi) :
    g.get_existing_cell_loop indices fuel lo hi = 0 := by
  cases fuel with
  | zero => rfl
  | succ n =>
    unfold get_existing_cell_loop
    simp only [error_cell]
    split_ifs <;> rfl

/-- The recursion of `get_existing_cell` ends: the depth of the recursion is at most
the number of levels `hi - lo + 1` of the range, so every fuel of at least that number
gives the same result. -/
theorem get_existing_cell_loop_fuel (g : Dccrg UserData) (indices : indices_t) :
    ∀ (n f1 f2 : Nat) (lo hi : Int), hi - lo + 1 ≤ n → hi - lo + 1 ≤ f1 → hi - lo + 1 ≤ f2 →
      g.get_existing_cell_loop indices f1 lo hi = g.get_existing_cell_loop indices f2 lo hi := by
  intro n
  induction n with
  | zero =>
    intro f1 f2 lo hi hn _ _
    rw [get_existing_cell_loop_empty g indices f1 lo hi (by omega),
      get_existing_cell_loop_empty g indices f2 lo hi (by omega)]
  | succ n ih =>
    intro f1 f2 lo hi hn h1 h2
    by_cases hlh : lo > hi
    · rw [get_existing_cell_loop_empty g indices f1 lo hi hlh,
        get_existing_cell_loop_empty g indices f2 lo hi hlh]
    cases f1 with
    | zero => omega
    | succ m1 =>
      cases f2 with
      | zero => omega
      | succ m2 =>
        have hb := tdiv_two_bounds (hi + lo)
        unfold get_existing_cell_loop
        simp only
        generalize (hi + lo).tdiv 2 = avg at hb ⊢
        rw [ih m1 m2 lo (avg - 1) (by omega) (by omega) (by omega),
          ih m1 m2 (avg + 1) hi (by omega) (by omega) (by omega)]

/-- The search returns 0 when no cell of the levels of the range is in the
directory. -/
theorem get_existing_cell_loop_none (g : Dccrg UserData) (indices : indices_t) :
    ∀ (fuel : Nat) (lo hi : Int),
      (∀ r : Int, lo ≤ r → r ≤ hi →
        map_has g.cell_process (g.index.get_cell_from_indices indices r) = false) →
      g.get_existing_cell_loop indices fuel lo hi = 0 := by
  intro fuel
  induction fuel with
  | zero => intro lo hi _; rfl
  | succ n ih =>
    intro lo hi hno
    by_cases hlh : lo > hi
    · exact get_existing_cell_loop_empty g indices _ lo hi hlh
    have hb := tdiv_two_bounds (hi + lo)
    unfold get_existing_cell_loop
    simp only [error_cell]
    generalize (hi + lo).tdiv 2 = avg at hb ⊢
    have e := ih lo (avg - 1) (fun r a b => hno r a (by omega))
    rw [e]
    have c5 := hno avg (by omega) (by omega)
    rw [c5]
    split_ifs <;> first | rfl | contradiction

/-- The search returns `error_cell` when an index is outside of the grid. -/
theorem get_existing_cell_loop_outside (g : Dccrg UserData) {R : Nat} (F : Fit g.index R)
    (indices : indices_t) (fuel : Nat) (lo hi : Int)
    (h : g.index.x_length * 2 ^ R ≤ indices.1 ∨ g.index.y_length * 2 ^ R ≤ indices.2.1 ∨
      g.index.z_length * 2 ^ R ≤ indices.2.2) :
    g.get_existing_cell_loop indices fuel lo hi = 0 := by
  cases fuel with
  | zero => rfl
  | succ n =>
    unfold get_existing_cell_loop
    simp only [error_cell]
    rw [F.hR, F.xlen_eq (le_refl R), F.ylen_eq (le_refl R), F.zlen_eq (le_refl R)]
    rcases h with h | h | h
    · rw [if_pos h]
    · split_ifs <;> rfl
    · split_ifs <;> rfl

end Dccrg
end dccrg
namespace dccrg
open Index Dccrg
variable {UserData : Type}

/-- The assignment `m[k] = v` for a key that `m` does not hold appends the pair. -/
theorem map_set_fresh {V : Type} (m : umap V) (k : Nat) (v : V)
    (h : map_has m k = false) : map_set m k v = m ++ [(k, v)] := by
  induction m with
  | nil => rfl
  | cons a t ih =>
    obtain ⟨k', v'⟩ := a
    unfold map_has at h ih
    rw [map_find_cons] at h
    unfold map_set
    by_cases e : k' = k
    · rw [if_pos e] at h; simp at h
    · rw [if_neg e] at h
      rw [if_neg e, ih h]
      rfl

/-- The inner loop of the creation of the unrefined cells appends the next `k` ids
with their owner to the directory. -/
theorem create_inner_list [Inhabited UserData] (process rank : Nat) :
    ∀ (k : Nat) (acc : umap Nat × umap UserData × Nat) (n : Nat),
      acc.2.2 = u64 (1 + n) → n + k < 2 ^ 64 →
      (∀ c, map_has acc.1 c = true ↔ 1 ≤ c ∧ c ≤ n) →
      ((List.range k).foldl
        (fun (acc : umap Nat × umap UserData × Nat) (_ : Nat) =>
          (map_set acc.1 acc.2.2 process,
           (if process = rank then map_touch acc.2.1 acc.2.2 else acc.2.1),
           u64 (acc.2.2 + 1))) acc).1
        = acc.1 ++ (List.range k).map (fun i => (1 + (n + i), process)) := by
  intro k
  induction k with
  | zero => intro acc n _ _ _; simp
  | succ j ih =>
    intro acc n h1 h2 h3
    obtain ⟨a1, a2⟩ := create_inner process rank j acc n h1 (by omega) h3
    have ihj := ih acc n h1 (by omega) h3
    rw [List.range_succ, List.foldl_append]
    simp only [List.foldl_cons, List.foldl_nil]
    have e : u64 (1 + (n + j)) = 1 + (n + j) :=
      u64_of_lt (show 1 + (n + j) < 2 ^ 64 by omega)
    have hfresh : map_has ((List.range j).foldl
        (fun (acc : umap Nat × umap UserData × Nat) (_ : Nat) =>
          (map_set acc.1 acc.2.2 process,
           (if process = rank then map_touch acc.2.1 acc.2.2 else acc.2.1),
           u64 (acc.2.2 + 1))) acc).1 (1 + (n + j)) = false := by
      by_contra hn
      have := (a2 (1 + (n + j))).1 (by simpa using hn)
      omega
    rw [a1, e, map_set_fresh _ _ _ hfresh, ihj, List.map_append, List.append_assoc]
    rfl

/-- The loop over the processes of the creation of the unrefined cells appends the
blocks of the processes to the directory. -/
theorem create_outer_list [Inhabited UserData] (rank : Nat) (ctc : Nat → Nat) :
    ∀ (ps : List Nat) (acc : umap Nat × umap UserData × Nat) (n : Nat),
      acc.2.2 = u64 (1 + n) → n + (ps.map ctc).sum < 2 ^ 64 →
      (∀ c, map_has acc.1 c = true ↔ 1 ≤ c ∧ c ≤ n) →
      (ps.foldl (fun (acc : umap Nat × umap UserData × Nat) process =>
        (List.range (ctc process)).foldl
          (fun (acc : umap Nat × umap UserData × Nat) (_ : Nat) =>
            (map_set acc.1 acc.2.2 process,
             (if process = rank then map_touch acc.2.1 acc.2.2 else acc.2.1),
             u64 (acc.2.2 + 1))) acc) acc).1 = acc.1 ++ block_list ctc ps n := by
  intro ps
  induction ps with
  | nil => intro acc n _ _ _; simp [block_list]
  | cons p t ih =>
    intro acc n h1 h2 h3
    simp only [List.map_cons, List.sum_cons] at h2
    rw [List.foldl_cons]
    obtain ⟨a1, a2⟩ := create_inner p rank (ctc p) acc n h1 (by omega) h3
    have a3 := create_inner_list p rank (ctc p) acc n h1 (by omega) h3
    rw [ih _ (n + ctc p) a1 (by omega) a2, a3, List.append_assoc]
    rfl

/-- The ids of the blocks are the next ids after `n`, in ascending order. -/
theorem block_list_keys (count : Nat → Nat) :
    ∀ (ps : List Nat) (n : Nat),
      map_keys (block_list count ps n)
        = (List.range (ps.map count).sum).map (fun i => 1 + (n + i)) := by
  intro ps
  induction ps with
  | nil => intro n; rfl
  | cons p t ih =>
    intro n
    unfold block_list
    unfold map_keys at ih ⊢
    rw [List.map_append, ih, List.map_map, List.map_cons, List.sum_cons, List.range_add,
      List.map_append, List.map_map]
    congr 1
    apply List.map_congr_left
    intro i _
    simp only [Function.comp]
    omega

/-- A pair of a block list: its owner is one of the processes and its id is one of
the next ids after `n`. -/
theorem mem_block_list (count : Nat → Nat) :
    ∀ (ps : List Nat) (n : Nat) (e : Nat × Nat), e ∈ block_list count ps n →
      e.2 ∈ ps ∧ n < e.1 ∧ e.1 ≤ n + (ps.map count).sum := by
  intro ps
  induction ps with
  | nil => intro n e h; cases h
  | cons p t ih =>
    intro n e h
    unfold block_list at h
    rw [List.mem_append] at h
    simp only [List.map_cons, List.sum_cons]
    rcases h with h | h
    · obtain ⟨i, hi, rfl⟩ := List.mem_map.1 h
      rw [List.mem_range] at hi
      exact ⟨List.mem_cons_self _ _, by simp only; omega, by simp only; omega⟩
    · obtain ⟨b1, b2, b3⟩ := ih _ e h
      exact ⟨List.mem_cons_of_mem _ b1, by omega, by omega⟩

/-- In a block list for ascending processes the ids ascend and the owners do not
descend. -/
theorem block_list_pairwise (count : Nat → Nat) :
    ∀ (ps : List Nat) (n : Nat), ps.Pairwise (fun a b => a < b) →
      (block_list count ps n).Pairwise (fun e e' => e.1 < e'.1 ∧ e.2 ≤ e'.2) := by
  intro ps
  induction ps with
  | nil => intro n _; exact List.Pairwise.nil
  | cons p t ih =>
    intro n hp
    unfold block_list
    rw [List.pairwise_cons] at hp
    rw [List.pairwise_append]
    refine ⟨?_, ih _ hp.2, ?_⟩
    · rw [List.pairwise_map]
      refine List.Pairwise.imp ?_ (List.pairwise_lt_range (count p))
      intro a b hab
      exact ⟨by simp only; omega, le_refl _⟩
    · intro e he e' he'
      obtain ⟨i, hi, rfl⟩ := List.mem_map.1 he
      rw [List.mem_range] at hi
      obtain ⟨b1, b2, _⟩ := mem_block_list count t _ e' he'
      exact ⟨by simp only; omega, le_of_lt (hp.1 _ b1)⟩

/-- Two members of a list that is pairwise related are equal or related. -/
theorem pairwise_mem_cases {α : Type} (R : α → α → Prop) :
    ∀ (l : List α), l.Pairwise R → ∀ a ∈ l, ∀ b ∈ l, a = b ∨ R a b ∨ R b a := by
  intro l
  induction l with
  | nil => intro _ a ha; cases ha
  | cons x t ih =>
    intro hp a ha b hb
    rw [List.pairwise_cons] at hp
    rcases List.mem_cons.1 ha with rfl | ha'
    · rcases List.mem_cons.1 hb with rfl | hb'
      · exact Or.inl rfl
      · exact Or.inr (Or.inl (hp.1 b hb'))
    · rcases List.mem_cons.1 hb with rfl | hb'
      · exact Or.inr (Or.inr (hp.1 a ha'))
      · exact ih hp.2 a ha' b hb'

/-- The number of cells that a block list gives to a process. -/
theorem block_list_owned (count : Nat → Nat) :
    ∀ (ps : List Nat) (n : Nat) (p : Nat), ps.Nodup →
      cells_owned (block_list count ps n) p = if p ∈ ps then count p else 0 := by
  intro ps
  induction ps with
  | nil => intro n p _; rfl
  | cons q t ih =>
    intro n p hnd
    rw [List.nodup_cons] at hnd
    unfold block_list
    unfold cells_owned at ih ⊢
    rw [List.filter_append, List.length_append, ih _ p hnd.2, List.filter_map,
      List.length_map]
    by_cases hpq : q = p
    · subst hpq
      rw [if_neg hnd.1, if_pos (List.mem_cons_self _ _)]
      have : List.filter ((fun entry : Nat × Nat => decide (entry.2 = q)) ∘
          fun i => (1 + (n + i), q)) (List.range (count q)) = List.range (count q) := by
        apply List.filter_eq_self.2
        intro a _
        simp
      rw [this, List.length_range]
      rfl
    · have : List.filter ((fun entry : Nat × Nat => decide (entry.2 = p)) ∘
          fun i => (1 + (n + i), q)) (List.range (count q)) = [] := by
        apply List.filter_eq_nil_iff.2
        intro a _
        simp [hpq]
      rw [this]
      simp only [List.length_nil, Nat.zero_add, List.mem_cons]
      by_cases hpt : p ∈ t
      · rw [if_pos hpt, if_pos (Or.inr hpt)]
      · rw [if_neg hpt, if_neg (by
          intro h
          rcases h with h | h
          · exact hpq h.symm
          · exact hpt h)]

end dccrg
namespace dccrg
open Index Dccrg
variable {UserData : Type}

/-- The quotient `ceil (G / P)` when `P` does not divide `G`. -/
theorem ceil_div_of_rest (G P : Nat) (hpos : 0 < P) (h : G % P > 0) :
    (G + P - 1) / P = G / P + 1 := by
  have hdm := Nat.div_add_mod G P
  have hml := Nat.mod_lt G hpos
  apply Nat.div_eq_of_lt_le
  · rw [Nat.add_mul, Nat.one_mul, Nat.mul_comm]; omega
  · rw [Nat.succ_mul, Nat.add_mul, Nat.one_mul, Nat.mul_comm]; omega

/-- The quotient `ceil (G / P)` when `P` divides `G`. -/
theorem ceil_div_of_dvd (G P : Nat) (hpos : 0 < P) (h : G % P = 0) :
    (G + P - 1) / P = G / P := by
  have hdm := Nat.div_add_mod G P
  apply Nat.div_eq_of_lt_le
  · rw [Nat.mul_comm]; omega
  · rw [Nat.succ_mul, Nat.mul_comm]; omega

/-- The numbers `cells_per_process` and `procs_with_fewer` that `initialize`
computes: `procs_with_fewer` processes get `cells_per_process - 1` cells and the others
`cells_per_process`, which makes `grid_length` cells in all, and every process gets
`ceil (G / P)` cells or one less. -/
theorem create_counts (comm_size G : Nat) (hcs : comm_size < 2 ^ 64) (hpos : 0 < comm_size)
    (hG : G < 2 ^ 64) :
    ∃ cpp pwf, 1 ≤ cpp ∧ cpp < 2 ^ 64 ∧ pwf ≤ comm_size ∧
      comm_size * cpp = G + pwf ∧
      (if G < comm_size then 1
        else if G % comm_size > 0 then u64 (G / comm_size + 1) else G / comm_size) = cpp ∧
      usub (u64 (cpp * comm_size)) G = pwf ∧ usub cpp 1 = cpp - 1 ∧
      ((List.range comm_size).map fun p => if p < pwf then usub cpp 1 else cpp).sum = G ∧
      (cpp = (G + comm_size - 1) / comm_size ∨
        (pwf = comm_size ∧ cpp - 1 = (G + comm_size - 1) / comm_size)) := by
  have key : ∀ (cpp pwf : Nat), 1 ≤ cpp → cpp < 2 ^ 64 → pwf ≤ comm_size →
      comm_size * cpp = G + pwf →
      usub cpp 1 = cpp - 1 ∧
      ((List.range comm_size).map fun p => if p < pwf then usub cpp 1 else cpp).sum = G := by
    intro cpp pwf h1 hc h2 h3
    have e : usub cpp 1 = cpp - 1 := by
      unfold usub u64
      have h1' : (1 : Nat) % 2 ^ 64 = 1 := Nat.mod_eq_of_lt (by norm_num)
      rw [h1']
      omega
    refine ⟨e, ?_⟩
    rw [e, sum_map_ite_range, Nat.min_eq_right h2]
    have : pwf * (cpp - 1) + (comm_size - pwf) * cpp + pwf = comm_size * cpp := by
      obtain ⟨d, rfl⟩ : ∃ d, cpp = d + 1 := ⟨cpp - 1, by omega⟩
      obtain ⟨e, rfl⟩ : ∃ e, comm_size = pwf + e := ⟨comm_size - pwf, by omega⟩
      simp only [Nat.add_sub_cancel, Nat.add_sub_cancel_left]
      ring
    omega
  have hdm := Nat.div_add_mod G comm_size
  have hml := Nat.mod_lt G hpos
  by_cases c1 : G < comm_size
  · have k := key 1 (comm_size - G) (le_refl 1) (by norm_num) (by omega) (by omega)
    refine ⟨1, comm_size - G, le_refl 1, by norm_num, by omega, by omega, by rw [if_pos c1],
      ?_, k.1, k.2, ?_⟩
    · rw [Nat.one_mul, u64_of_lt hcs]
      unfold usub u64
      omega
    · by_cases hG0 : G = 0
      · right
        subst hG0
        refine ⟨by omega, ?_⟩
        rw [Nat.zero_add]
        exact (Nat.div_eq_of_lt (by omega)).symm
      · left
        symm
        apply Nat.div_eq_of_lt_le
        · omega
        · omega
  · by_cases c2 : G % comm_size > 0
    · have hq : G / comm_size + 1 < 2 ^ 64 := by
        have h2 : 2 ≤ comm_size := by
          by_contra hn
          have : comm_size = 1 := by omega
          rw [this, Nat.mod_one] at c2
          omega
        have : 2 * (G / comm_size) ≤ comm_size * (G / comm_size) :=
          Nat.mul_le_mul_right _ h2
        omega
      have h4 : comm_size * (G / comm_size + 1) = G + (comm_size - G % comm_size) := by
        rw [Nat.mul_add, Nat.mul_one]; omega
      have k := key (G / comm_size + 1) (comm_size - G % comm_size) (Nat.le_add_left 1 _) hq
        (Nat.sub_le _ _) h4
      refine ⟨G / comm_size + 1, comm_size - G % comm_size, Nat.le_add_left 1 _, hq,
        Nat.sub_le _ _, h4,
        by rw [if_neg c1, if_pos c2, u64_of_lt hq], ?_, k.1, k.2,
        Or.inl (ceil_div_of_rest G comm_size hpos c2).symm⟩
      have e : (G / comm_size + 1) * comm_size = G + (comm_size - G % comm_size) := by
        rw [Nat.add_mul, Nat.one_mul, Nat.mul_comm]; omega
      rw [e]
      unfold usub u64
      omega
    · have hz : G % comm_size = 0 := by omega
      have hq : 1 ≤ G / comm_size := Nat.div_pos (by omega) hpos
      have hle : G / comm_size ≤ G := Nat.div_le_self _ _
      have k := key (G / comm_size) 0 hq (by omega) (by omega) (by omega)
      refine ⟨G / comm_size, 0, hq, by omega, by omega, by omega,
        by rw [if_neg c1, if_neg c2], ?_, k.1, k.2,
        Or.inl (ceil_div_of_dvd G comm_size hpos hz).symm⟩
      have e : G / comm_size * comm_size = G := by rw [Nat.mul_comm]; omega
      rw [e]
      unfold usub u64
      omega

/-- The directory and the final `cell_to_create` of the creation of the unrefined
cells: the blocks of the processes in the order of their ranks. -/
theorem create_unrefined_cells_blocks [Inhabited UserData] (comm_size rank G : Nat)
    (hcs : comm_size < 2 ^ 64) (hpos : 0 < comm_size) (hG : G < 2 ^ 64) :
    ∃ count : Nat → Nat,
      (create_unrefined_cells comm_size rank G : umap Nat × umap UserData × Nat).1
        = block_list count (List.range comm_size) 0 ∧
      (create_unrefined_cells comm_size rank G : umap Nat × umap UserData × Nat).2.2
        = u64 (G + 1) ∧
      ((List.range comm_size).map count).sum = G ∧
      ∀ p < comm_size, count p = (G + comm_size - 1) / comm_size ∨
        count p = (G + comm_size - 1) / comm_size - 1 := by
  obtain ⟨cpp, pwf, f1, f2, f3, f4, f5, f6, f7, f8, f9⟩ := create_counts comm_size G hcs hpos hG
  refine ⟨fun p => if p < pwf then usub cpp 1 else cpp, ?_, ?_, f8, ?_⟩
  · unfold create_unrefined_cells
    simp only
    rw [f5, f6]
    have := @create_outer_list UserData _ rank
      (fun p => if p < pwf then usub cpp 1 else cpp) (List.range comm_size) ([], [], 1) 0 rfl
      (by rw [f8]; omega) (by intro c; simp only [map_has, map_find]; simp; omega)
    rw [this]
    rfl
  · unfold create_unrefined_cells
    simp only
    rw [f5, f6]
    have := (@create_outer UserData _ rank
      (fun p => if p < pwf then usub cpp 1 else cpp) (List.range comm_size) ([], [], 1) 0 rfl
      (by rw [f8]; omega) (by intro c; simp only [map_has, map_find]; simp; omega)).1
    rw [this, f8, Nat.zero_add, Nat.add_comm]
  · intro p hp
    simp only
    rw [f7]
    rcases f9 with h | ⟨h1, h2⟩
    · rw [← h]
      by_cases c : p < pwf
      · rw [if_pos c]; right; rfl
      · rw [if_neg c]; left; rfl
    · rw [if_pos (by omega)]
      left
      exact h2

end dccrg
namespace dccrg
open Index Dccrg
variable {UserData : Type}

/-- A shift by whole root cells in a dimension that is not periodic. -/
theorem shift_index_root (L R x : Nat) (o : Int) :
    shift_index false (L * 2 ^ R) (2 ^ R) (x * 2 ^ R) o
      = if 0 ≤ (x : Int) + o ∧ (x : Int) + o < L then some (((x : Int) + o).toNat * 2 ^ R)
        else none := by
  unfold shift_index
  have hpos : (0 : Int) < 2 ^ R := by positivity
  have e : ((x * 2 ^ R : Nat) : Int) + o * ((2 ^ R : Nat) : Int) = ((x : Int) + o) * 2 ^ R := by
    push_cast; ring
  have eL : ((L * 2 ^ R : Nat) : Int) = (L : Int) * 2 ^ R := by push_cast; ring
  simp only [Bool.false_eq_true, if_false]
  rw [e, eL]
  by_cases h : 0 ≤ (x : Int) + o ∧ (x : Int) + o < L
  · rw [if_pos h, if_pos ⟨mul_nonneg h.1 (le_of_lt hpos), mul_lt_mul_of_pos_right h.2 hpos⟩]
    congr 1
    obtain ⟨k, hk⟩ := Int.eq_ofNat_of_zero_le h.1
    rw [hk]
    have : ((k : Int) * 2 ^ R) = ((k * 2 ^ R : Nat) : Int) := by push_cast; ring
    rw [this, Int.toNat_ofNat, Int.toNat_ofNat]
  · rw [if_neg h, if_neg]
    intro hn
    apply h
    constructor
    · by_contra hc
      have : ((x : Int) + o) * 2 ^ R < 0 := mul_neg_of_neg_of_pos (by omega) hpos
      omega
    · exact lt_of_mul_lt_mul_right hn.2 (le_of_lt hpos)

/-- The ids `1 .. G` are the ids of refinement level 0. -/
theorem root_level {ix : Index} {R : Nat} (F : Fit ix R) (c : Nat) (h1 : 1 ≤ c)
    (h2 : c ≤ ix.x_length * ix.y_length * ix.z_length) : ix.get_refinement_level c = 0 := by
  have := @Fit.get_refinement_level_eq ix R F c 0 (Nat.zero_le R)
    (by show 0 < c; omega) (by
      show c ≤ ids_below _ 0 + _ * 8 ^ 0
      simp [ids_below]; exact h2)
  simpa using this

/-- The indices of a root cell. -/
theorem root_indices {ix : Index} {R : Nat} (F : Fit ix R) (c : Nat) (h1 : 1 ≤ c)
    (h2 : c ≤ ix.x_length * ix.y_length * ix.z_length) :
    ix.get_indices c = ((c - 1) % ix.x_length * 2 ^ R,
      (c - 1) / ix.x_length % ix.y_length * 2 ^ R,
      (c - 1) / (ix.x_length * ix.y_length) * 2 ^ R) := by
  have := @Fit.get_indices_eq ix R F 0 (c - 1) (Nat.zero_le R) (by simp; omega)
  have e : 1 + ids_below (ix.x_length * ix.y_length * ix.z_length) 0 + (c - 1) = c := by
    simp [ids_below]; omega
  rw [e] at this
  simpa using this

/-- The root cell at a position of the root grid. -/
theorem root_cell_from {ix : Index} {R : Nat} (F : Fit ix R) (a b d : Nat)
    (ha : a < ix.x_length) (hb : b < ix.y_length) (hd : d < ix.z_length) :
    ix.get_cell_from_indices (a * 2 ^ R, b * 2 ^ R, d * 2 ^ R) 0
      = 1 + a + b * ix.x_length + d * ix.x_length * ix.y_length := by
  have hp : 0 < 2 ^ R := by positivity
  have := @Fit.get_cell_from_indices_eq ix R F (a * 2 ^ R) (b * 2 ^ R)
    (d * 2 ^ R) 0 (Nat.zero_le R)
    (Nat.mul_lt_mul_of_pos_right ha hp) (Nat.mul_lt_mul_of_pos_right hb hp)
    (Nat.mul_lt_mul_of_pos_right hd hp)
  simp only [Nat.sub_zero, Nat.mul_div_cancel _ hp, pow_zero, Nat.mul_one, ids_below,
    Nat.add_zero] at this
  rw [show ((0 : Nat) : Int) = 0 from rfl] at this
  rw [this]
  ring

end dccrg

namespace dccrg
open Index Dccrg
variable {UserData : Type}

/-- In a directory that holds root cells only every cell of the directory is a leaf of
level 0. -/
theorem unrefined_leaf (g : Dccrg UserData) (hfit : g.index.ids_fit)
    (hinv : g.existence_invariant)
    (hunref : ∀ n ∈ map_keys g.cell_process, n ≤ g.index.grid_length)
    (c : Nat) (hc : map_has g.cell_process c = true) :
    g.is_leaf c ∧ g.index.get_refinement_level c = 0 ∧
    g.index.get_cell_size_in_indices c = 2 ^ g.index.max_refinement_level.toNat := by
  obtain ⟨F, ⟨c1, c2⟩, l, hl, hlev, hsize, hb, hd, henc⟩ := cell_facts g hfit hinv hc
  have hG := hfit.2.1
  have hcG := hunref c ((mem_map_keys _ _).2 hc)
  rw [hG] at hcG
  have h0 := root_level F c c1 hcG
  have hl0 : l = 0 := by
    rw [h0] at hlev
    exact_mod_cast hlev.symm
  subst hl0
  refine ⟨⟨hc, ?_⟩, h0, by simpa using hsize⟩
  unfold get_child
  rw [if_neg (by simp [hc])]
  simp only
  by_cases hm : g.index.get_refinement_level c = g.index.max_refinement_level
  · rw [if_pos hm]
  · rw [if_neg hm, if_neg]
    intro hch
    have hR : 1 ≤ g.index.max_refinement_level.toNat := by
      have := F.hR
      rw [h0] at hm
      omega
    have hk := (hinv.1 _ ((mem_map_keys _ _).2 hch)).1
    have hkG := hunref _ ((mem_map_keys _ _).2 hch)
    rw [hG] at hkG
    have hlev0 := root_level F _ hk hkG
    rw [h0] at hlev0
    have := (F.roundtrip_indices (r := 1) hR hb.1 hb.2.1 hb.2.2).2.1
    have e : ((1 : Nat) : Int) = 0 + 1 := rfl
    rw [e, hlev0] at this
    omega

end dccrg

namespace dccrg
open Index Dccrg
variable {UserData : Type}

/-- The neighbor position of a root cell in a grid that is not periodic, in root
coordinates. -/
theorem neighbor_position_root (g : Dccrg UserData) (hfit : g.index.ids_fit)
    (hinv : g.existence_invariant)
    (hper : g.periodic = (false, false, false))
    (hunref : ∀ n ∈ map_keys g.cell_process, n ≤ g.index.grid_length)
    (c : Nat) (hc : map_has g.cell_process c = true) (o : neighborhood_item_t) :
    g.neighbor_position c o
      = if 0 ≤ (((c - 1) % g.index.x_length : Nat) : Int) + o.1 ∧
          (((c - 1) % g.index.x_length : Nat) : Int) + o.1 < g.index.x_length ∧
          0 ≤ (((c - 1) / g.index.x_length % g.index.y_length : Nat) : Int) + o.2.1 ∧
          (((c - 1) / g.index.x_length % g.index.y_length : Nat) : Int) + o.2.1
            < g.index.y_length ∧
          0 ≤ (((c - 1) / (g.index.x_length * g.index.y_length) : Nat) : Int) + o.2.2 ∧
          (((c - 1) / (g.index.x_length * g.index.y_length) : Nat) : Int) + o.2.2
            < g.index.z_length then
        some (((((c - 1) % g.index.x_length : Nat) : Int) + o.1).toNat
            * 2 ^ g.index.max_refinement_level.toNat,
          ((((c - 1) / g.index.x_length % g.index.y_length : Nat) : Int) + o.2.1).toNat
            * 2 ^ g.index.max_refinement_level.toNat,
          ((((c - 1) / (g.index.x_length * g.index.y_length) : Nat) : Int) + o.2.2).toNat
            * 2 ^ g.index.max_refinement_level.toNat)
      else none := by
  obtain ⟨F, ⟨c1, c2⟩, _⟩ := cell_facts g hfit hinv hc
  obtain ⟨_, _, hsize⟩ := unrefined_leaf g hfit hinv hunref c hc
  have hcG := hunref c ((mem_map_keys _ _).2 hc)
  rw [hfit.2.1] at hcG
  have hidx := root_indices F c c1 hcG
  unfold neighbor_position
  rw [hsize, hidx, hper]
  simp only
  rw [shift_index_root, shift_index_root, shift_index_root]
  generalize (((c - 1) % g.index.x_length : Nat) : Int) + o.1 = x
  generalize (((c - 1) / g.index.x_length % g.index.y_length : Nat) : Int) + o.2.1 = y
  generalize (((c - 1) / (g.index.x_length * g.index.y_length) : Nat) : Int) + o.2.2 = z
  by_cases hx : 0 ≤ x ∧ x < g.index.x_length
  · by_cases hy : 0 ≤ y ∧ y < g.index.y_length
    · by_cases hz : 0 ≤ z ∧ z < g.index.z_length
      · simp [hx, hy, hz]
      · have : ¬ (0 ≤ x ∧ x < g.index.x_length ∧ 0 ≤ y ∧ y < g.index.y_length ∧
            0 ≤ z ∧ z < g.index.z_length) := fun h => hz ⟨h.2.2.2.2.1, h.2.2.2.2.2⟩
        simp only [if_pos hx, if_pos hy, if_neg hz, if_neg this]
        rfl
    · have : ¬ (0 ≤ x ∧ x < g.index.x_length ∧ 0 ≤ y ∧ y < g.index.y_length ∧
          0 ≤ z ∧ z < g.index.z_length) := fun h => hy ⟨h.2.2.1, h.2.2.2.1⟩
      simp only [if_pos hx, if_neg hy, if_neg this]
      rfl
  · have : ¬ (0 ≤ x ∧ x < g.index.x_length ∧ 0 ≤ y ∧ y < g.index.y_length ∧
        0 ≤ z ∧ z < g.index.z_length) := fun h => hx ⟨h.1, h.2.1⟩
    simp only [if_neg hx, if_neg this]
    rfl

/-- In an unrefined grid that is not periodic `find_neighbors_of` of a root cell has one
entry per item of the neighbourhood: the root cell at that offset, or 0 when the offset
leaves the grid. -/
theorem find_neighbors_of_unrefined (g : Dccrg UserData) (hfit : g.index.ids_fit)
    (hinv : g.existence_invariant) (hreach : g.reach_fits)
    (hper : g.periodic = (false, false, false))
    (hunref : ∀ n ∈ map_keys g.cell_process, n ≤ g.index.grid_length)
    (c : Nat) (hc : map_has g.cell_process c = true) :
    g.find_neighbors_of c 1 false = g.neighborhood_of.map (g.index.root_neighbor c) := by
  obtain ⟨F, ⟨c1, c2⟩, _⟩ := cell_facts g hfit hinv hc
  obtain ⟨hleaf, hlev, hsize⟩ := unrefined_leaf g hfit hinv hunref c hc
  have hbal : g.balanced_around c := by
    intro o _ p _ n hn hnl _
    have := (unrefined_leaf g hfit hinv hunref n hnl.1).2.1
    rw [hlev, this]
    decide
  rw [find_neighbors_of_eq g c hc hleaf.2, List.map_eq_flatMap]
  apply flatMap_congr_mem
  intro o ho
  obtain ⟨hseg, hcases⟩ := neighbor_segment_spec g hfit hinv hreach c hleaf hbal o ho
  rw [hseg]
  have hpos := neighbor_position_root g hfit hinv hper hunref c hc o
  unfold root_neighbor
  simp only
  by_cases hin : 0 ≤ (((c - 1) % g.index.x_length : Nat) : Int) + o.1 ∧
          (((c - 1) % g.index.x_length : Nat) : Int) + o.1 < g.index.x_length ∧
          0 ≤ (((c - 1) / g.index.x_length % g.index.y_length : Nat) : Int) + o.2.1 ∧
          (((c - 1) / g.index.x_length % g.index.y_length : Nat) : Int) + o.2.1
            < g.index.y_length ∧
          0 ≤ (((c - 1) / (g.index.x_length * g.index.y_length) : Nat) : Int) + o.2.2 ∧
          (((c - 1) / (g.index.x_length * g.index.y_length) : Nat) : Int) + o.2.2
            < g.index.z_length
  · rw [if_pos hin] at hpos ⊢
    rcases hcases with ⟨hp, _⟩ | ⟨p, n, hp, hn, hf, _, hs⟩ | ⟨p, hp, _, hlen, hall⟩
    · rw [hpos] at hp; cases hp
    · rw [hs]
      rw [hpos] at hp
      simp only [Option.some.injEq] at hp
      subst hp
      obtain ⟨x, hx⟩ := Int.eq_ofNat_of_zero_le hin.1
      obtain ⟨y, hy⟩ := Int.eq_ofNat_of_zero_le hin.2.2.1
      obtain ⟨z, hz⟩ := Int.eq_ofNat_of_zero_le hin.2.2.2.2.1
      rw [hx, hy, hz] at hf hin ⊢
      simp only [Int.toNat_ofNat] at hf ⊢
      have hp2 : 0 < 2 ^ g.index.max_refinement_level.toNat := by positivity
      have bx : x < g.index.x_length := by exact_mod_cast hin.2.1
      have by' : y < g.index.y_length := by exact_mod_cast hin.2.2.2.1
      have bz : z < g.index.z_length := by exact_mod_cast hin.2.2.2.2.2
      obtain ⟨r, _, hr, hnr, _⟩ := leaf_cover g F hinv
        (Nat.mul_lt_mul_of_pos_right bx hp2) (Nat.mul_lt_mul_of_pos_right by' hp2)
        (Nat.mul_lt_mul_of_pos_right bz hp2) n hn hf
      have hn0 := (unrefined_leaf g hfit hinv hunref n hn.1).2.1
      rw [hn0] at hr
      have hr0 : r = 0 := by exact_mod_cast hr.symm
      subst hr0
      rw [hnr]
      congr 1
      exact root_cell_from F x y z bx by' bz
    · exfalso
      cases hl : g.neighbor_segment c o with
      | nil => rw [hl] at hlen; cases hlen
      | cons a t =>
        have ha := hall a (by rw [hl]; exact List.mem_cons_self _ _)
        have := (unrefined_leaf g hfit hinv hunref a ha.1.1).2.1
        rw [ha.2, hlev] at this
        omega
  · rw [if_neg hin] at hpos ⊢
    rcases hcases with ⟨_, hs⟩ | ⟨p, n, hp, _⟩ | ⟨p, hp, _⟩
    · rw [hs]
    · rw [hpos] at hp; cases hp
    · rw [hpos] at hp; cases hp

end dccrg

namespace dccrg
open Index Dccrg
variable {UserData : Type}

/-- The neighbourhood of size 1: the 26 offsets of the cube `[-1, 1]^3` but the
origin. -/
theorem make_neighborhood_of_one :
    make_neighborhood_of 1 =
      [(-1, -1, -1), (0, -1, -1), (1, -1, -1), (-1, 0, -1), (0, 0, -1), (1, 0, -1),
       (-1, 1, -1), (0, 1, -1), (1, 1, -1), (-1, -1, 0), (0, -1, 0), (1, -1, 0),
       (-1, 0, 0), (1, 0, 0), (-1, 1, 0), (0, 1, 0), (1, 1, 0), (-1, -1, 1), (0, -1, 1),
       (1, -1, 1), (-1, 0, 1), (0, 0, 1), (1, 0, 1), (-1, 1, 1), (0, 1, 1), (1, 1, 1)] := by
  decide

/-- The offsets of the neighbourhood of size 1 are -1, 0 or 1 in every dimension. -/
theorem make_neighborhood_of_one_range :
    ∀ o ∈ make_neighborhood_of 1, (o.1 = -1 ∨ o.1 = 0 ∨ o.1 = 1) ∧
      (o.2.1 = -1 ∨ o.2.1 = 0 ∨ o.2.1 = 1) ∧ (o.2.2 = -1 ∨ o.2.2 = 0 ∨ o.2.2 = 1) := by
  rw [make_neighborhood_of_one]
  decide

/-- Of the 26 offsets of the neighbourhood of size 1, 7 stay inside the grid when in
every dimension the offset 0 and exactly one of the offsets -1 and 1 do. -/
theorem corner_count (fx fy fz : Int → Bool) (hx0 : fx 0 = true) (hy0 : fy 0 = true)
    (hz0 : fz 0 = true) (hx : fx (-1) = !(fx 1)) (hy : fy (-1) = !(fy 1))
    (hz : fz (-1) = !(fz 1)) :
    ((make_neighborhood_of 1).filter fun o => fx o.1 && fy o.2.1 && fz o.2.2).length = 7 ∧
    ((make_neighborhood_of 1).filter fun o => !(fx o.1 && fy o.2.1 && fz o.2.2)).length
      = 19 := by
  have sel : ∀ (f : Int → Bool), f 0 = true → f (-1) = !(f 1) → ∀ o : Int,
      (o = -1 ∨ o = 0 ∨ o = 1) →
      f o = (if o = 0 then true else if o = 1 then f 1 else !(f 1)) := by
    intro f h0 h1 o ho
    rcases ho with rfl | rfl | rfl
    · rw [h1]; rfl
    · rw [h0]; rfl
    · rfl
  have e1 : ∀ o ∈ make_neighborhood_of 1, (fx o.1 && fy o.2.1 && fz o.2.2)
      = ((if o.1 = 0 then true else if o.1 = 1 then fx 1 else !(fx 1)) &&
        (if o.2.1 = 0 then true else if o.2.1 = 1 then fy 1 else !(fy 1)) &&
        (if o.2.2 = 0 then true else if o.2.2 = 1 then fz 1 else !(fz 1))) := by
    intro o ho
    obtain ⟨a, b, c⟩ := make_neighborhood_of_one_range o ho
    rw [sel fx hx0 hx o.1 a, sel fy hy0 hy o.2.1 b, sel fz hz0 hz o.2.2 c]
  have e2 : ∀ o ∈ make_neighborhood_of 1, (!(fx o.1 && fy o.2.1 && fz o.2.2))
      = !((if o.1 = 0 then true else if o.1 = 1 then fx 1 else !(fx 1)) &&
        (if o.2.1 = 0 then true else if o.2.1 = 1 then fy 1 else !(fy 1)) &&
        (if o.2.2 = 0 then true else if o.2.2 = 1 then fz 1 else !(fz 1))) := by
    intro o ho
    rw [e1 o ho]
  rw [List.filter_congr e1, List.filter_congr e2, make_neighborhood_of_one]
  generalize fx 1 = a
  generalize fy 1 = b
  generalize fz 1 = c
  cases a <;> cases b <;> cases c <;> exact ⟨by decide, by decide⟩

/-- In a dimension of at least 2 root cells the offset 0 stays inside the grid from
the first and from the last root cell, and exactly one of the offsets -1 and 1 does. -/
theorem corner_dimension (v L : Nat) (hL : 2 ≤ L) (h : v = 0 ∨ v = L - 1) :
    decide (0 ≤ (v : Int) + 0 ∧ (v : Int) + 0 < L) = true ∧
    decide (0 ≤ (v : Int) + -1 ∧ (v : Int) + -1 < L)
      = !(decide (0 ≤ (v : Int) + 1 ∧ (v : Int) + 1 < L)) := by
  rcases h with h | h
  · have a0 : 0 ≤ (v : Int) + 0 ∧ (v : Int) + 0 < L := by omega
    have a1 : ¬ (0 ≤ (v : Int) + -1 ∧ (v : Int) + -1 < L) := by omega
    have a2 : 0 ≤ (v : Int) + 1 ∧ (v : Int) + 1 < L := by omega
    rw [decide_eq_true a0, decide_eq_false a1, decide_eq_true a2]
    exact ⟨rfl, rfl⟩
  · have a0 : 0 ≤ (v : Int) + 0 ∧ (v : Int) + 0 < L := by omega
    have a1 : 0 ≤ (v : Int) + -1 ∧ (v : Int) + -1 < L := by omega
    have a2 : ¬ (0 ≤ (v : Int) + 1 ∧ (v : Int) + 1 < L) := by omega
    rw [decide_eq_true a0, decide_eq_true a1, decide_eq_false a2]
    exact ⟨rfl, rfl⟩

/-- The entry of `root_neighbor` is 0 exactly when the offset leaves the grid. -/
theorem root_neighbor_ne_zero (ix : Index) (c : Nat) (o : neighborhood_item_t) :
    (ix.root_neighbor c o != 0) =
      (decide (0 ≤ (((c - 1) % ix.x_length : Nat) : Int) + o.1 ∧
          (((c - 1) % ix.x_length : Nat) : Int) + o.1 < ix.x_length) &&
        decide (0 ≤ (((c - 1) / ix.x_length % ix.y_length : Nat) : Int) + o.2.1 ∧
          (((c - 1) / ix.x_length % ix.y_length : Nat) : Int) + o.2.1 < ix.y_length) &&
        decide (0 ≤ (((c - 1) / (ix.x_length * ix.y_length) : Nat) : Int) + o.2.2 ∧
          (((c - 1) / (ix.x_length * ix.y_length) : Nat) : Int) + o.2.2 < ix.z_length)) := by
  unfold root_neighbor
  simp only
  generalize (((c - 1) % ix.x_length : Nat) : Int) + o.1 = x
  generalize (((c - 1) / ix.x_length % ix.y_length : Nat) : Int) + o.2.1 = y
  generalize (((c - 1) / (ix.x_length * ix.y_length) : Nat) : Int) + o.2.2 = z
  by_cases h : 0 ≤ x ∧ x < ix.x_length ∧ 0 ≤ y ∧ y < ix.y_length ∧ 0 ≤ z ∧ z < ix.z_length
  · rw [if_pos h]
    obtain ⟨a1, a2, a3, a4, a5, a6⟩ := h
    simp [a1, a2, a3, a4, a5, a6]
  · rw [if_neg h]
    simp only [bne_self_eq_false]
    symm
    rw [Bool.eq_false_iff]
    intro hn
    simp only [Bool.and_eq_true, decide_eq_true_eq] at hn
    exact h ⟨hn.1.1.1, hn.1.1.2, hn.1.2.1, hn.1.2.2, hn.2.1, hn.2.2⟩

/-- A corner cell of a grid with at least 2 root cells in every dimension has 7 root
cells and 19 times 0 among the 26 entries for the neighbourhood of size 1. -/
theorem corner_entries (ix : Index) (c : Nat) (hx : 2 ≤ ix.x_length) (hy : 2 ≤ ix.y_length)
    (hz : 2 ≤ ix.z_length) (hcorner : ix.is_corner c) :
    ((make_neighborhood_of 1).map (ix.root_neighbor c)).length = 26 ∧
    (((make_neighborhood_of 1).map (ix.root_neighbor c)).filter fun n => n != 0).length
      = 7 ∧
    (((make_neighborhood_of 1).map (ix.root_neighbor c)).filter fun n => n == 0).length
      = 19 := by
  have key := corner_count
    (fun o => decide (0 ≤ (((c - 1) % ix.x_length : Nat) : Int) + o ∧
      (((c - 1) % ix.x_length : Nat) : Int) + o < ix.x_length))
    (fun o => decide (0 ≤ (((c - 1) / ix.x_length % ix.y_length : Nat) : Int) + o ∧
      (((c - 1) / ix.x_length % ix.y_length : Nat) : Int) + o < ix.y_length))
    (fun o => decide (0 ≤ (((c - 1) / (ix.x_length * ix.y_length) : Nat) : Int) + o ∧
      (((c - 1) / (ix.x_length * ix.y_length) : Nat) : Int) + o < ix.z_length))
    (corner_dimension _ _ hx hcorner.1).1 (corner_dimension _ _ hy hcorner.2.1).1
    (corner_dimension _ _ hz hcorner.2.2).1
    (corner_dimension _ _ hx hcorner.1).2 (corner_dimension _ _ hy hcorner.2.1).2
    (corner_dimension _ _ hz hcorner.2.2).2
  refine ⟨by rw [List.length_map, make_neighborhood_of_one]; rfl, ?_, ?_⟩
  · rw [List.filter_map, List.length_map, ← key.1]
    congr 1
    apply List.filter_congr
    intro o _
    exact root_neighbor_ne_zero ix c o
  · rw [List.filter_map, List.length_map, ← key.2]
    congr 1
    apply List.filter_congr
    intro o _
    have := root_neighbor_ne_zero ix c o
    simp only [Function.comp]
    rw [← this]
    cases h : ix.root_neighbor c o == 0 <;> simp [bne, h]

end dccrg
namespace dccrg
open Index Dccrg
variable {UserData : Type}

/-- An offset of at most `M` cells of size `s1` that leads from `i1` to an index whose
cube of size `s1` meets the other cell bounds the distance that `is_neighbor` computes;
with the offset 0 the two cells overlap. -/
theorem offset_distance (per : Bool) (L i1 i2 s1 s2 M : Nat) (hs1 : 0 < s1) (hs2 : 0 < s2)
    (h1L : i1 + s1 ≤ L) (h2L : i2 + s2 ≤ L) (hL : L < 2 ^ 64) (hM : 1 ≤ M)
    (k : Int) (hk : k.natAbs ≤ M) (p : Nat) (hp : shift_index per L s1 i1 k = some p)
    (m1 : i2 < p + s1) (m2 : p < i2 + s2) :
    is_neighbor_distance per L i1 i2 s1 s2 < M * s1 ∧
    (k = 0 → i2 < i1 + s1 ∧ i1 < i2 + s2) := by
  rw [is_neighbor_distance_eq per L i1 i2 s1 s2 h1L h2L hL]
  have hs1' : (0 : Int) ≤ s1 := by omega
  have hK1 : k * (s1 : Int) ≤ (M : Int) * s1 :=
    mul_le_mul_of_nonneg_right (by omega) hs1'
  have hK2 : -((M : Int) * s1) ≤ k * (s1 : Int) := by
    have := mul_le_mul_of_nonneg_right (show -(M : Int) ≤ k by omega) hs1'
    rw [neg_mul] at this
    exact this
  have hMS : s1 ≤ M * s1 := Nat.le_mul_of_pos_left _ (by omega)
  have hK0 : k = 0 → k * (s1 : Int) = 0 := by intro e; rw [e, zero_mul]
  have hcast : ((M * s1 : Nat) : Int) = (M : Int) * s1 := by push_cast; rfl
  unfold shift_index at hp
  generalize k * (s1 : Int) = K at hp hK1 hK2 hK0
  generalize M * s1 = MS at hMS hcast ⊢
  rw [← hcast] at hK1 hK2
  clear hcast
  cases per with
  | false =>
    simp only [Bool.false_eq_true, if_false] at hp ⊢
    split_ifs at hp with hc
    simp only [Option.some.injEq] at hp
    refine ⟨?_, fun e => ?_⟩
    · split_ifs <;> omega
    · have := hK0 e
      omega
  | true =>
    simp only [if_true] at hp ⊢
    simp only [Option.some.injEq] at hp
    have hLpos : (0 : Int) < L := by omega
    have e1 := Int.emod_add_ediv ((i1 : Int) + K) L
    have e2 := Int.emod_nonneg ((i1 : Int) + K) (show (L : Int) ≠ 0 by omega)
    have e3 := Int.emod_lt_of_pos ((i1 : Int) + K) hLpos
    by_cases hbig : L ≤ MS
    · refine ⟨?_, fun e => ?_⟩
      · split_ifs
        · have := Nat.min_le_left (i2 - (i1 + s1)) (i1 + (L - (i2 + s2)))
          omega
        · have := Nat.min_le_left (i1 - (i2 + s2)) (i2 + (L - (i1 + s1)))
          omega
      · have hK := hK0 e
        rw [hK, add_zero, Int.emod_eq_of_lt (by omega) (by omega)] at hp
        omega
    · have t1 : ((i1 : Int) + K) / L < 2 :=
        Int.ediv_lt_of_lt_mul hLpos (by omega)
      have t2 : -1 ≤ ((i1 : Int) + K) / L :=
        Int.le_ediv_of_mul_le hLpos (by omega)
      generalize ((i1 : Int) + K) / L = t at e1 t1 t2
      generalize ((i1 : Int) + K) % L = E at e1 e2 e3 hp
      have ht : t = -1 ∨ t = 0 ∨ t = 1 := by omega
      refine ⟨?_, fun e => ?_⟩
      · rcases ht with rfl | rfl | rfl
        · simp only [mul_neg, mul_one] at e1
          split_ifs
          · have := Nat.min_le_right (i2 - (i1 + s1)) (i1 + (L - (i2 + s2)))
            omega
          · have := Nat.min_le_left (i1 - (i2 + s2)) (i2 + (L - (i1 + s1)))
            omega
        · simp only [mul_zero, add_zero] at e1
          split_ifs
          · have := Nat.min_le_left (i2 - (i1 + s1)) (i1 + (L - (i2 + s2)))
            omega
          · have := Nat.min_le_left (i1 - (i2 + s2)) (i2 + (L - (i1 + s1)))
            omega
        · simp only [mul_one] at e1
          split_ifs
          · have := Nat.min_le_left (i2 - (i1 + s1)) (i1 + (L - (i2 + s2)))
            omega
          · have := Nat.min_le_right (i1 - (i2 + s2)) (i2 + (L - (i1 + s1)))
            omega
      · have hK := hK0 e
        rw [hK] at e1
        rcases ht with rfl | rfl | rfl <;> omega

end dccrg

namespace dccrg
open Index Dccrg
variable {UserData : Type}

/-- Two aligned cubes whose indices agree after rounding down to the larger of the two
sizes have an index in common. -/
theorem meets_of_div_max (R la lb a q : Nat) (ha : 2 ^ (R - la) ∣ a) (hq : 2 ^ (R - lb) ∣ q)
    (h : q / max (2 ^ (R - la)) (2 ^ (R - lb)) = a / max (2 ^ (R - la)) (2 ^ (R - lb))) :
    a < q + 2 ^ (R - lb) ∧ q < a + 2 ^ (R - la) := by
  have hsa : 0 < 2 ^ (R - la) := by positivity
  have hsb : 0 < 2 ^ (R - lb) := by positivity
  rcases le_total (2 ^ (R - la)) (2 ^ (R - lb)) with hle | hle
  · rw [Nat.max_eq_right hle] at h
    have q1 := Nat.div_mul_cancel hq
    have a1 := Nat.div_mul_le_self a (2 ^ (R - lb))
    have a2 := Nat.lt_div_mul_add (a := a) hsb
    rw [← h, q1] at a1 a2
    omega
  · rw [Nat.max_eq_left hle] at h
    have a1 := Nat.div_mul_cancel ha
    have q1 := Nat.div_mul_le_self q (2 ^ (R - la))
    have q2 := Nat.lt_div_mul_add (a := q) hsa
    rw [h, a1] at q1 q2
    omega

/-- The items of the neighbourhood that `initialize` builds reach at most
`max 1 neighborhood_size` cells in every dimension, and for the size 0 two of the three
offsets are 0. -/
theorem neighborhood_item_bounds (N : Nat) (o : neighborhood_item_t)
    (ho : o ∈ make_neighborhood_of N) :
    (o.1.natAbs ≤ max 1 N ∧ o.2.1.natAbs ≤ max 1 N ∧ o.2.2.natAbs ≤ max 1 N) ∧
    (N = 0 → (o.1 = 0 ∧ o.2.1 = 0) ∨ (o.1 = 0 ∧ o.2.2 = 0) ∨ (o.2.1 = 0 ∧ o.2.2 = 0)) := by
  obtain ⟨x, y, z⟩ := o
  by_cases hN : N = 0
  · subst hN
    rw [mem_make_neighborhood_of_zero] at ho
    simp only
    refine ⟨?_, fun _ => ?_⟩ <;> omega
  · rw [mem_make_neighborhood_of N (by omega)] at ho
    simp only
    refine ⟨?_, fun e => absurd e hN⟩
    omega

end dccrg

namespace dccrg
open Index Dccrg
variable {UserData : Type}

/-- Bounds on the three distances, and for the neighbourhood size 0 two overlapping
dimensions, make `is_neighbor` true. -/
theorem is_neighbor_of_bounds (g : Dccrg UserData) {R : Nat} (F : Fit g.index R)
    (hreach : g.reach_fits)
    (hnb : g.neighborhood_of = make_neighborhood_of g.neighborhood_size)
    (n c : Nat) (hn : map_has g.cell_process n = true) (hc : map_has g.cell_process c = true)
    (s1 s2 : Nat) (hsn : g.index.get_cell_size_in_indices n = s1)
    (hsc : g.index.get_cell_size_in_indices c = s2) (hs1 : s1 ≤ 2 ^ R)
    (ax : (g.index.get_indices n).1 + s1 ≤ g.index.x_length * 2 ^ R)
    (ay : (g.index.get_indices n).2.1 + s1 ≤ g.index.y_length * 2 ^ R)
    (az : (g.index.get_indices n).2.2 + s1 ≤ g.index.z_length * 2 ^ R)
    (cx : (g.index.get_indices c).1 + s2 ≤ g.index.x_length * 2 ^ R)
    (cy : (g.index.get_indices c).2.1 + s2 ≤ g.index.y_length * 2 ^ R)
    (cz : (g.index.get_indices c).2.2 + s2 ≤ g.index.z_length * 2 ^ R)
    (bx : is_neighbor_distance g.periodic.1 (g.index.x_length * 2 ^ R) (g.index.get_indices n).1
        (g.index.get_indices c).1 s1 s2 < max 1 g.neighborhood_size * s1)
    (by' : is_neighbor_distance g.periodic.2.1 (g.index.y_length * 2 ^ R)
        (g.index.get_indices n).2.1 (g.index.get_indices c).2.1 s1 s2
        < max 1 g.neighborhood_size * s1)
    (bz : is_neighbor_distance g.periodic.2.2 (g.index.z_length * 2 ^ R)
        (g.index.get_indices n).2.2 (g.index.get_indices c).2.2 s1 s2
        < max 1 g.neighborhood_size * s1)
    (hcount : g.neighborhood_size = 0 →
      ((if (g.index.get_indices c).1 < (g.index.get_indices n).1 + s1 ∧
            (g.index.get_indices n).1 < (g.index.get_indices c).1 + s2 then 1 else 0)
        + (if (g.index.get_indices c).2.1 < (g.index.get_indices n).2.1 + s1 ∧
            (g.index.get_indices n).2.1 < (g.index.get_indices c).2.1 + s2 then 1 else 0)
        + (if (g.index.get_indices c).2.2 < (g.index.get_indices n).2.2 + s1 ∧
            (g.index.get_indices n).2.2 < (g.index.get_indices c).2.2 + s2 then 1 else 0)
        : Int) ≥ 2) :
    g.is_neighbor n c = true := by
  have hLx := F.x_lt (le_refl R)
  have hLy := F.y_lt (le_refl R)
  have hLz := F.z_lt (le_refl R)
  unfold is_neighbor
  simp only []
  rw [hsn, hsc, F.hR, F.xlen_eq (le_refl R), F.ylen_eq (le_refl R), F.zlen_eq (le_refl R)]
  by_cases hN : g.neighborhood_size = 0
  · rw [if_pos hN]
    simp only [decide_eq_true_eq]
    rw [hN, show max 1 0 = 1 from rfl, one_mul] at bx by' bz
    refine ⟨by omega, ?_⟩
    unfold overlapping_indices
    rw [if_neg (by simp [hn, hc])]
    simp only []
    rw [hsn, hsc]
    unfold indices_overlap
    rw [u64_of_lt (lt_of_le_of_lt ax hLx), u64_of_lt (lt_of_le_of_lt ay hLy),
      u64_of_lt (lt_of_le_of_lt az hLz), u64_of_lt (lt_of_le_of_lt cx hLx),
      u64_of_lt (lt_of_le_of_lt cy hLy), u64_of_lt (lt_of_le_of_lt cz hLz)]
    simp only [decide_eq_true_eq, gt_iff_lt]
    exact hcount hN
  · rw [if_neg hN]
    simp only [decide_eq_true_eq]
    have hN1 : 1 ≤ g.neighborhood_size := by omega
    have hmem : ((g.neighborhood_size : Int), (g.neighborhood_size : Int),
        (g.neighborhood_size : Int)) ∈ g.neighborhood_of := by
      rw [hnb, mem_make_neighborhood_of _ hN1]
      refine ⟨by omega, by omega, by omega, ?_⟩
      rintro ⟨e, _, _⟩
      omega
    have hov := (reach_of_mem g F hreach _ hmem).1
    simp only [Int.natAbs_ofNat] at hov
    have hNs : g.neighborhood_size * s1 < 2 ^ 64 := by
      have := Nat.mul_le_mul_left g.neighborhood_size hs1
      omega
    rw [u64_of_lt hNs]
    rw [Nat.max_eq_right hN1] at bx by' bz
    omega

/-- A cell that has another cell in its neighbourhood considers it a neighbor:
`is_neighbor (b, a)` is true when `b` sees `a`. -/
theorem is_neighbor_of_sees (g : Dccrg UserData) (hfit : g.index.ids_fit)
    (hinv : g.existence_invariant) (hreach : g.reach_fits)
    (hnb : g.neighborhood_of = make_neighborhood_of g.neighborhood_size)
    (b a : Nat) (hb : map_has g.cell_process b = true) (ha : map_has g.cell_process a = true)
    (h : g.sees b a) : g.is_neighbor b a = true := by
  obtain ⟨F, _, lb, hlb, hlvb, hsb, bb, bd, _⟩ := cell_facts g hfit hinv hb
  obtain ⟨_, _, la, hla, hlva, hsa, ab, ad, _⟩ := cell_facts g hfit hinv ha
  obtain ⟨_, o, ho, q, hsh, e0, e1, e2⟩ := h
  have hpos := (neighbor_position_iff g hfit hinv hreach b hb o ho q).2 hsh
  generalize hR : g.index.max_refinement_level.toNat = R at *
  rw [hsb] at hsh
  rw [hsa, hsb] at e0 e1 e2
  obtain ⟨qb, qd, _⟩ := shifted_facts g F lb hlb _ bb bd o (reach_of_mem g F hreach o ho) q hsh
  obtain ⟨mx1, mx2⟩ := meets_of_div_max R la lb _ _ ad.1 qd.1 e0
  obtain ⟨my1, my2⟩ := meets_of_div_max R la lb _ _ ad.2.1 qd.2.1 e1
  obtain ⟨mz1, mz2⟩ := meets_of_div_max R la lb _ _ ad.2.2 qd.2.2 e2
  unfold neighbor_position at hpos
  rw [hR, hsb] at hpos
  simp only [Option.bind_eq_some, Option.map_eq_some'] at hpos
  obtain ⟨px, hpx, py, hpy, pz, hpz, hq⟩ := hpos
  subst hq
  simp only at mx1 mx2 my1 my2 mz1 mz2
  rw [hnb] at ho
  obtain ⟨⟨kx, ky, kz⟩, hzero⟩ := neighborhood_item_bounds _ o ho
  have hs1 : 0 < 2 ^ (R - lb) := by positivity
  have hs2 : 0 < 2 ^ (R - la) := by positivity
  obtain ⟨ax, _⟩ := aligned_add_le hlb bd.1 bb.1
  obtain ⟨ay, _⟩ := aligned_add_le hlb bd.2.1 bb.2.1
  obtain ⟨az, _⟩ := aligned_add_le hlb bd.2.2 bb.2.2
  obtain ⟨cx, _⟩ := aligned_add_le hla ad.1 ab.1
  obtain ⟨cy, _⟩ := aligned_add_le hla ad.2.1 ab.2.1
  obtain ⟨cz, _⟩ := aligned_add_le hla ad.2.2 ab.2.2
  have hM : 1 ≤ max 1 g.neighborhood_size := le_max_left _ _
  obtain ⟨dx, zx⟩ := offset_distance g.periodic.1 _ _ _ _ _ _ hs1 hs2 ax cx
    (F.x_lt (le_refl R)) hM o.1 kx px hpx mx1 mx2
  obtain ⟨dy, zy⟩ := offset_distance g.periodic.2.1 _ _ _ _ _ _ hs1 hs2 ay cy
    (F.y_lt (le_refl R)) hM o.2.1 ky py hpy my1 my2
  obtain ⟨dz, zz⟩ := offset_distance g.periodic.2.2 _ _ _ _ _ _ hs1 hs2 az cz
    (F.z_lt (le_refl R)) hM o.2.2 kz pz hpz mz1 mz2
  refine is_neighbor_of_bounds g F hreach hnb b a hb ha _ _ hsb hsa
    (Nat.pow_le_pow_right (by norm_num) (Nat.sub_le _ _)) ax ay az cx cy cz dx dy dz ?_
  intro hN
  rcases hzero hN with ⟨e1, e2⟩ | ⟨e1, e2⟩ | ⟨e1, e2⟩
  · rw [if_pos (zx e1), if_pos (zy e2)]
    split_ifs <;> omega
  · rw [if_pos (zx e1), if_pos (zz e2)]
    split_ifs <;> omega
  · rw [if_pos (zy e1), if_pos (zz e2)]
    split_ifs <;> omega

end dccrg

namespace dccrg
open Index Dccrg
variable {UserData : Type}

/-- The parts of `find_neighbors_to (a)`: an entry comes from the search around the
parent of `a` and is one level above `a`, or it has the level of `a` or the level of
the children of `a`. -/
theorem find_neighbors_to_parts (g : Dccrg UserData) (hfit : g.index.ids_fit)
    (hinv : g.existence_invariant) (hreach : g.reach_fits)
    (hto : g.neighborhood_to = g.neighborhood_of.map fun o => (-o.1, -o.2.1, -o.2.2))
    (a b : Nat) (ha : g.is_leaf a) (h : b ∈ g.find_neighbors_to a) :
    (g.index.get_refinement_level a > 0 ∧
      b ∈ g.neighbors_to_at (g.index.get_indices (g.get_parent a))
        (g.index.get_cell_size_in_indices (g.get_parent a))
        (g.index.get_refinement_level a - 1) ∧
      g.index.get_refinement_level b = g.index.get_refinement_level a - 1) ∨
    g.index.get_refinement_level b = g.index.get_refinement_level a ∨
    g.index.get_refinement_level b = g.index.get_refinement_level a + 1 := by
  obtain ⟨F, ⟨a1, a2⟩, la, hla, hlva, hsa, ab, ad, aenc⟩ := cell_facts g hfit hinv ha.1
  generalize hR : g.index.max_refinement_level.toNat = R at *
  rw [find_neighbors_to_eq g a ha a1 a2, mem_set_insert_range] at h
  have key : ∀ (l : Nat) (hl : l ≤ R) (p : indices_t),
      (p.1 < g.index.x_length * 2 ^ R ∧ p.2.1 < g.index.y_length * 2 ^ R ∧
        p.2.2 < g.index.z_length * 2 ^ R) →
      (2 ^ (R - l) ∣ p.1 ∧ 2 ^ (R - l) ∣ p.2.1 ∧ 2 ^ (R - l) ∣ p.2.2) →
      b ∈ g.neighbors_to_at p (2 ^ (R - l)) (l : Int) →
      g.index.get_refinement_level b = (l : Int) := by
    intro l hl p pb pd hmem
    exact (neighbors_to_at_of_mem g F hreach hto l hl p pb pd b hmem).1
  rcases h with h | h
  · cases h
  rcases List.mem_append.1 h with h | h
  · rcases List.mem_append.1 h with h | h
    · -- larger
      by_cases h0 : g.index.get_refinement_level a > 0
      · rw [if_pos h0] at h
        refine Or.inl ⟨h0, h, ?_⟩
        obtain ⟨k, rfl⟩ : ∃ k, la = k + 1 := ⟨la - 1, by rw [hlva] at h0; omega⟩
        have hk : k < R := by omega
        obtain ⟨p1, p2, p3⟩ := parent_facts F hk ab aenc
        rw [(get_parent_eq g hfit hinv ha.1).1, p2, p3, hlva] at h
        have c1 : ((k + 1 : Nat) : Int) - 1 = (k : Int) := by push_cast; ring
        rw [c1] at h
        rw [hlva, c1]
        exact key k (Nat.le_of_lt hk) _
          ⟨lt_of_le_of_lt (Nat.div_mul_le_self _ _) ab.1,
            lt_of_le_of_lt (Nat.div_mul_le_self _ _) ab.2.1,
            lt_of_le_of_lt (Nat.div_mul_le_self _ _) ab.2.2⟩
          ⟨Nat.dvd_mul_left _ _, Nat.dvd_mul_left _ _, Nat.dvd_mul_left _ _⟩ h
      · rw [if_neg h0] at h; cases h
    · -- smaller
      by_cases h0 : g.index.get_refinement_level a < g.index.max_refinement_level
      · rw [if_pos h0] at h
        have hk : la < R := by rw [hlva, F.hR] at h0; omega
        have hch := get_all_children_eq g F ha.1 hlva hk
        obtain ⟨ch, hch1, h⟩ := List.mem_flatMap.1 h
        rw [hch] at hch1 h
        have c1 : ((la + 1 : Nat) : Int) = (la : Int) + 1 := by push_cast; rfl
        have hfirst : g.index.get_cell_size_in_indices
            ((children_at g.index (g.index.get_indices a) ((la : Int) + 1)
              (2 ^ (R - la - 1))).headD 0) = 2 ^ (R - (la + 1)) := by
          simp only [children_at, List.headD_cons]
          apply F.size_eq
          rw [← c1]
          exact (F.roundtrip_indices (Nat.succ_le_of_lt hk) ab.1 ab.2.1 ab.2.2).2.1
        rw [hfirst, hlva, ← c1] at h
        have hchv : 1 ≤ ch ∧ ch ≤ g.index.last_cell := by
          rw [← children_of_eq F hlva hk] at hch1
          have := children_of_facts hfit a1 a2 hch1
          exact ⟨this.2.2.1, this.2.2.2.1⟩
        obtain ⟨lc, hlc, hlvc, cb0, cb1, cb2, cd0, cd1, cd2, _⟩ :=
          F.roundtrip_cell hchv.1 hchv.2
        have hin := (mem_children_at_iff F la hk _ _ _ ab.1 ab.2.1 ab.2.2 ad.1 ad.2.1 ad.2.2
          ch hchv.1 hchv.2).1 hch1
        have hlc1 : lc = la + 1 := by
          have := hin.1
          rw [hlvc] at this
          exact_mod_cast this
        subst hlc1
        refine Or.inr (Or.inr ?_)
        rw [hlva, ← c1]
        exact key (la + 1) hlc _ ⟨cb0, cb1, cb2⟩ ⟨cd0, cd1, cd2⟩ h
      · rw [if_neg h0] at h; cases h
  · -- same
    rw [hsa, hlva] at h
    refine Or.inr (Or.inl ?_)
    rw [hlva]
    exact key la hla _ ab ad h

/-- An entry of `find_neighbors_to` is a cell, not the error cell. -/
theorem find_neighbors_to_entry_ne_zero (g : Dccrg UserData) (hfit : g.index.ids_fit)
    (hinv : g.existence_invariant) (hreach : g.reach_fits)
    (hto : g.neighborhood_to = g.neighborhood_of.map fun o => (-o.1, -o.2.1, -o.2.2))
    (a b : Nat) (ha : g.is_leaf a) (h : b ∈ g.find_neighbors_to a) : b ≠ 0 := by
  obtain ⟨_, _, la, _, hlva, _⟩ := cell_facts g hfit hinv ha.1
  have hp := find_neighbors_to_parts g hfit hinv hreach hto a b ha h
  intro e
  subst e
  have h0 : g.index.get_refinement_level 0 = -1 := by
    unfold get_refinement_level
    exact if_pos (Or.inl rfl)
  rw [h0, hlva] at hp
  omega

end dccrg

namespace dccrg
open Index Dccrg
variable {UserData : Type}

/-- The distance that `is_neighbor` computes in one dimension does not depend on the
order of the two cells. -/
theorem is_neighbor_distance_symm (per : Bool) (L i1 i2 s1 s2 : Nat)
    (h1L : i1 + s1 ≤ L) (h2L : i2 + s2 ≤ L) (hL : L < 2 ^ 64) :
    is_neighbor_distance per L i1 i2 s1 s2 = is_neighbor_distance per L i2 i1 s2 s1 := by
  rw [is_neighbor_distance_eq per L i1 i2 s1 s2 h1L h2L hL,
    is_neighbor_distance_eq per L i2 i1 s2 s1 h2L h1L hL]
  cases per with
  | false =>
    simp only [Bool.false_eq_true, if_false]
    split_ifs <;> omega
  | true =>
    simp only [if_true]
    split_ifs <;> omega

/-- A cell that considers a cell of at least its own size a neighbor is considered a
neighbor by that cell. -/
theorem is_neighbor_symm (g : Dccrg UserData) (hfit : g.index.ids_fit)
    (hinv : g.existence_invariant) (hreach : g.reach_fits)
    (hnb : g.neighborhood_of = make_neighborhood_of g.neighborhood_size)
    (n c : Nat) (hn : map_has g.cell_process n = true) (hc : map_has g.cell_process c = true)
    (hs : g.index.get_cell_size_in_indices n ≤ g.index.get_cell_size_in_indices c)
    (h : g.is_neighbor n c = true) : g.is_neighbor c n = true := by
  obtain ⟨F, _, ln, hln, hlvn, hsn, nb, nd, _⟩ := cell_facts g hfit hinv hn
  obtain ⟨_, _, lc, hlc, hlvc, hsc, cb, cd, _⟩ := cell_facts g hfit hinv hc
  generalize hR : g.index.max_refinement_level.toNat = R at *
  obtain ⟨ax, _⟩ := aligned_add_le hln nd.1 nb.1
  obtain ⟨ay, _⟩ := aligned_add_le hln nd.2.1 nb.2.1
  obtain ⟨az, _⟩ := aligned_add_le hln nd.2.2 nb.2.2
  obtain ⟨cx, _⟩ := aligned_add_le hlc cd.1 cb.1
  obtain ⟨cy, _⟩ := aligned_add_le hlc cd.2.1 cb.2.1
  obtain ⟨cz, _⟩ := aligned_add_le hlc cd.2.2 cb.2.2
  obtain ⟨⟨bx, by', bz⟩, hcount⟩ := is_neighbor_bounds g F hreach hnb n c hn hc _ _ hsn hsc
    (Nat.pow_le_pow_right (by norm_num) (Nat.sub_le _ _)) ax ay az cx cy cz h
  rw [hsn, hsc] at hs
  have hmul := Nat.mul_le_mul_left (max 1 g.neighborhood_size) hs
  rw [is_neighbor_distance_symm _ _ _ _ _ _ ax cx (F.x_lt (le_refl R))] at bx
  rw [is_neighbor_distance_symm _ _ _ _ _ _ ay cy (F.y_lt (le_refl R))] at by'
  rw [is_neighbor_distance_symm _ _ _ _ _ _ az cz (F.z_lt (le_refl R))] at bz
  refine is_neighbor_of_bounds g F hreach hnb c n hc hn _ _ hsc hsn
    (Nat.pow_le_pow_right (by norm_num) (Nat.sub_le _ _)) cx cy cz ax ay az
    (lt_of_lt_of_le bx hmul) (lt_of_lt_of_le by' hmul) (lt_of_lt_of_le bz hmul) ?_
  intro hN
  have := hcount hN
  simp only [and_comm] at this ⊢
  exact this

end dccrg
namespace dccrg
open Index Dccrg
variable {UserData : Type}

/-- The level check of the unrefine requests carries over to a process that differs in
its requests only and whose unrefine requests have been checked. -/
theorem level_checked_transport {g g' : Dccrg UserData} (hb : g.same_but_requests g')
    (h : ∀ u ∈ g'.cells_to_unrefine, ∀ n ∈ g.find_neighbors_of (g.get_parent u) 2 true,
      g.index.get_refinement_level n ≤ g.index.get_refinement_level (g.get_parent u) + 1) :
    g'.unrefines_level_checked := by
  obtain ⟨f1, f2, _⟩ := same_but_requests_fields hb
  have hi : g'.index = g.index := congrArg (fun t => t.1) f1
  have hd' : ∀ c, map_has g'.cell_process c = map_has g.cell_process c := by
    intro c; rw [f2]
  intro u hu n hn
  rw [get_parent_congr g g' hi hd', find_neighbors_of_congr g g' f1 f2] at hn
  rw [get_parent_congr g g' hi hd', hi]
  exact h u hu n hn

/-- `unrefine_completely` records a request only after the level check of the
neighbors of the parent. -/
theorem unrefine_completely_level (g : Dccrg UserData) (cell : Nat) :
    g.unrefine_completely cell = g ∨
    ((∀ n ∈ g.find_neighbors_of (g.get_parent cell) 2 true,
        g.index.get_refinement_level n
          ≤ g.index.get_refinement_level (g.get_parent cell) + 1) ∧
      g.unrefine_completely cell = { g with
        cells_to_unrefine := set_insert g.cells_to_unrefine cell }) := by
  unfold unrefine_completely
  by_cases c1 : cell = error_cell
  · rw [if_pos c1]; exact Or.inl rfl
  rw [if_neg c1]
  by_cases c2 : ¬ map_has g.cell_process cell
  · rw [if_pos c2]; exact Or.inl rfl
  rw [if_neg c2]
  by_cases c3 : ¬ map_has g.cells cell
  · rw [if_pos c3]; exact Or.inl rfl
  rw [if_neg c3]
  by_cases c4 : g.index.get_refinement_level cell = 0
  · rw [if_pos c4]; exact Or.inl rfl
  rw [if_neg c4]
  simp only []
  split_ifs with c5 c6 c7
  · exact Or.inl rfl
  · exact Or.inl rfl
  · exact Or.inl rfl
  · refine Or.inr ⟨?_, rfl⟩
    intro n hn
    by_contra hc
    apply c6
    rw [List.any_eq_true]
    exact ⟨n, hn, by simp; left; omega⟩

/-- Every request keeps the level check of the recorded unrefine requests. -/
theorem request_level_checked (r : Request) (g g' : Dccrg UserData)
    (h : r.apply g = some g') (hc : g.unrefines_level_checked) :
    g'.unrefines_level_checked := by
  have hb := (request_apply_spec r g g' h).1
  apply level_checked_transport hb
  have hdont : ∀ cell, ∀ u ∈ (g.dont_unrefine cell).cells_to_unrefine,
      u ∈ g.cells_to_unrefine := by
    intro cell u hu
    rcases dont_unrefine_cases g cell with e | ⟨_, _, e⟩
    · rw [e] at hu; exact hu
    · rw [e] at hu
      exact ((mem_erase_unrefines_iff _ _ _).1 hu).1
  cases r with
  | refine_completely cell =>
    simp only [Request.apply] at h
    intro u hu
    apply hc u
    rcases refine_completely_cases g g' cell h with e | e | ⟨no, nt, e⟩
    · rw [e] at hu; exact hu
    · rw [e] at hu; exact hdont cell u hu
    · rw [e] at hu
      simp only at hu
      have h1 := ((mem_override_neighbor_unrefines_iff _ _ _ _ _).1 hu).1
      have h2 := ((mem_override_neighbor_unrefines_iff _ _ _ _ _).1 h1).1
      exact ((mem_erase_unrefines_iff _ _ _).1 h2).1
  | unrefine_completely cell =>
    simp only [Request.apply, Option.some.injEq] at h
    subst h
    intro u hu
    rcases unrefine_completely_level g cell with e | ⟨k, e⟩
    · rw [e] at hu; exact hc u hu
    · rw [e] at hu
      simp only at hu
      rcases (mem_set_insert _ _ _).1 hu with hu | rfl
      · exact hc u hu
      · exact k
  | dont_unrefine cell =>
    simp only [Request.apply, Option.some.injEq] at h
    subst h
    intro u hu
    exact hc u (hdont cell u hu)

/-- The unrefine requests that a sequence of requests leaves on a process have passed
the level check of `unrefine_completely`. -/
theorem apply_requests_level_checked (requests : List Request) :
    ∀ (g g' : Dccrg UserData), g.unrefines_level_checked →
      g.apply_requests requests = some g' → g'.unrefines_level_checked := by
  induction requests with
  | nil =>
    intro g g' h hr
    unfold apply_requests at hr
    simp only [List.foldlM_nil, Option.pure_def, Option.some.injEq] at hr
    subst hr
    exact h
  | cons r t ih =>
    intro g g' h hr
    unfold apply_requests at hr
    simp only [List.foldlM_cons, Option.bind_eq_bind, Option.bind_eq_some] at hr
    obtain ⟨g1, h1, hr⟩ := hr
    exact ih g1 g' (request_level_checked r g g1 h1 h) hr

/-- The unrefine requests after `override_unrefines`: on every process the union of the
unrefines that the processes have kept. -/
theorem mem_override_unrefines (w : World UserData)
    (hcs : ∀ g ∈ w, g.comm_size = w.length) :
    ∀ g' ∈ override_unrefines w, ∀ u,
      u ∈ g'.cells_to_unrefine ↔ ∃ g ∈ w, u ∈ g.final_unrefines := by
  intro g' hg' u
  unfold override_unrefines at hg'
  simp only at hg'
  obtain ⟨g, hg, rfl⟩ := List.mem_map.1 hg'
  simp only
  rw [hcs g hg, mem_foldl_set_insert_range]
  have : (w.map fun g => g.final_unrefines).take w.length
      = w.map fun g => g.final_unrefines := by
    apply List.take_of_length_le
    simp
  rw [this]
  constructor
  · rintro (h | ⟨l, hl, hu⟩)
    · cases h
    · obtain ⟨g2, hg2, rfl⟩ := List.mem_map.1 hl
      exact ⟨g2, hg2, hu⟩
  · rintro ⟨g2, hg2, hu⟩
    exact Or.inr ⟨_, List.mem_map.2 ⟨g2, hg2, rfl⟩, hu⟩

end dccrg
namespace dccrg
open Index Dccrg
namespace Dccrg
variable {UserData : Type}

/-- The loop of `induce_refines` over a neighbor list of a refined local cell: the set
grows, every local cell of the list with a smaller level than the refined cell is in
`cells_to_refine` or in the set afterwards, and what joins the set is a local cell of
the list. -/
theorem induce_local_closure (g : Dccrg UserData) (refined : Nat) (list : List Nat)
    (acc out : uset) (h : g.induce_local refined list acc = some out) :
    (∀ x ∈ acc, x ∈ out) ∧
    (∀ n ∈ list, n ≠ 0 → map_find g.cell_process n = some g.rank →
      g.index.get_refinement_level n < g.index.get_refinement_level refined →
      n ∈ g.cells_to_refine ∨ n ∈ out) ∧
    (∀ x ∈ out, x ∈ acc ∨
      (x ∈ list ∧ x ≠ 0 ∧ map_find g.cell_process x = some g.rank)) := by
  unfold induce_local at h
  refine foldlM_invariant _ (fun done (s : uset) =>
    (∀ x ∈ acc, x ∈ s) ∧
    (∀ n ∈ done, n ≠ 0 → map_find g.cell_process n = some g.rank →
      g.index.get_refinement_level n < g.index.get_refinement_level refined →
      n ∈ g.cells_to_refine ∨ n ∈ s) ∧
    (∀ x ∈ s, x ∈ acc ∨
      (x ∈ done ∧ x ≠ 0 ∧ map_find g.cell_process x = some g.rank))) list acc out
    (by
      refine ⟨fun x hx => hx, fun n hn => ?_, fun x hx => Or.inl hx⟩
      simp at hn) ?_ h
  intro done a s s' ⟨p1, p2, p3⟩ _ hstep
  have keep : s' = s → ((a ≠ 0 → map_find g.cell_process a = some g.rank →
      g.index.get_refinement_level a < g.index.get_refinement_level refined →
      a ∈ g.cells_to_refine ∨ a ∈ s)) →
      (∀ x ∈ acc, x ∈ s') ∧
      (∀ n ∈ done ++ [a], n ≠ 0 → map_find g.cell_process n = some g.rank →
        g.index.get_refinement_level n < g.index.get_refinement_level refined →
        n ∈ g.cells_to_refine ∨ n ∈ s') ∧
      (∀ x ∈ s', x ∈ acc ∨
        (x ∈ done ++ [a] ∧ x ≠ 0 ∧ map_find g.cell_process x = some g.rank)) := by
    intro e ha
    subst e
    refine ⟨p1, ?_, ?_⟩
    · intro n hn
      rcases List.mem_append.1 hn with hn | hn
      · exact p2 n hn
      · rw [List.mem_singleton] at hn
        subst hn
        exact ha
    · intro x hx
      rcases p3 x hx with h1 | ⟨h1, h2⟩
      · exact Or.inl h1
      · exact Or.inr ⟨List.mem_append_left _ h1, h2⟩
  by_cases c1 : a = 0
  · rw [if_pos c1] at hstep
    simp only [Option.some.injEq] at hstep
    exact keep hstep.symm (fun h0 => absurd c1 h0)
  · rw [if_neg c1] at hstep
    cases hp : map_find g.cell_process a with
    | none => rw [hp] at hstep; simp at hstep
    | some p =>
      rw [hp] at hstep
      simp only at hstep
      by_cases c2 : p ≠ g.rank
      · rw [if_pos c2] at hstep
        simp only [Option.some.injEq] at hstep
        exact keep hstep.symm (fun _ hr => by
          rw [hp] at hr
          exact absurd (Option.some.inj hr) c2)
      · rw [if_neg c2] at hstep
        by_cases c3 : g.index.get_refinement_level a < g.index.get_refinement_level refined
            ∧ a ∉ g.cells_to_refine
        · rw [if_pos c3] at hstep
          simp only [Option.some.injEq] at hstep
          subst hstep
          refine ⟨fun x hx => (mem_set_insert _ _ _).2 (Or.inl (p1 x hx)), ?_, ?_⟩
          · intro n hn h0 ho hl
            rcases List.mem_append.1 hn with hn | hn
            · rcases p2 n hn h0 ho hl with h1 | h1
              · exact Or.inl h1
              · exact Or.inr ((mem_set_insert _ _ _).2 (Or.inl h1))
            · rw [List.mem_singleton] at hn
              exact Or.inr ((mem_set_insert _ _ _).2 (Or.inr hn))
          · intro x hx
            rcases (mem_set_insert _ _ _).1 hx with hx | hx
            · rcases p3 x hx with h1 | ⟨h1, h2⟩
              · exact Or.inl h1
              · exact Or.inr ⟨List.mem_append_left _ h1, h2⟩
            · subst hx
              refine Or.inr ⟨List.mem_append_right _ (List.mem_singleton.2 rfl), c1, ?_⟩
              have : p = g.rank := by
                by_contra hn; exact c2 hn
              rw [hp, this]
        · rw [if_neg c3] at hstep
          simp only [Option.some.injEq] at hstep
          exact keep hstep.symm (fun _ _ hl => by
            by_contra hn
            exact c3 ⟨hl, fun hm => hn (Or.inl hm)⟩)

end Dccrg
end dccrg

namespace dccrg
open Index Dccrg
namespace Dccrg
variable {UserData : Type}

/-- The loop of `induce_refines` over the refines of this process. -/
theorem induce_own_closure (g : Dccrg UserData) (own : List Nat) (out : uset)
    (h : own.foldlM
      (fun unique_induced_refines refined =>
        match map_find g.neighbors refined, map_find g.neighbors_to refined with
        | some neighbors_of, some neighbors_to =>
          (g.induce_local refined neighbors_of unique_induced_refines).bind
            (g.induce_local refined neighbors_to)
        | _, _ => none)
      ([] : uset) = some out) :
    (∀ refined ∈ own, ∃ neighbors_of neighbors_to,
      map_find g.neighbors refined = some neighbors_of ∧
      map_find g.neighbors_to refined = some neighbors_to ∧
      ∀ n, n ∈ neighbors_of ∨ n ∈ neighbors_to → n ≠ 0 →
        map_find g.cell_process n = some g.rank →
        g.index.get_refinement_level n < g.index.get_refinement_level refined →
        n ∈ g.cells_to_refine ∨ n ∈ out) ∧
    (∀ x ∈ out, ∃ refined ∈ own, ∃ neighbors_of neighbors_to,
      map_find g.neighbors refined = some neighbors_of ∧
      map_find g.neighbors_to refined = some neighbors_to ∧
      (x ∈ neighbors_of ∨ x ∈ neighbors_to) ∧ x ≠ 0 ∧
      map_find g.cell_process x = some g.rank) := by
  refine foldlM_invariant _ (fun done (s : uset) =>
    (∀ refined ∈ done, ∃ neighbors_of neighbors_to,
      map_find g.neighbors refined = some neighbors_of ∧
      map_find g.neighbors_to refined = some neighbors_to ∧
      ∀ n, n ∈ neighbors_of ∨ n ∈ neighbors_to → n ≠ 0 →
        map_find g.cell_process n = some g.rank →
        g.index.get_refinement_level n < g.index.get_refinement_level refined →
        n ∈ g.cells_to_refine ∨ n ∈ s) ∧
    (∀ x ∈ s, ∃ refined ∈ done, ∃ neighbors_of neighbors_to,
      map_find g.neighbors refined = some neighbors_of ∧
      map_find g.neighbors_to refined = some neighbors_to ∧
      (x ∈ neighbors_of ∨ x ∈ neighbors_to) ∧ x ≠ 0 ∧
      map_find g.cell_process x = some g.rank)) own [] out
    (by
      refine ⟨fun r hr => ?_, fun x hx => ?_⟩
      · simp at hr
      · simp at hx) ?_ h
  intro done a s s' ⟨p1, p2⟩ _ hstep
  cases h1 : map_find g.neighbors a with
  | none => rw [h1] at hstep; simp at hstep
  | some no =>
    cases h2 : map_find g.neighbors_to a with
    | none => rw [h1, h2] at hstep; simp at hstep
    | some nt =>
      rw [h1, h2] at hstep
      simp only [Option.bind_eq_some] at hstep
      obtain ⟨mid, hm, hs'⟩ := hstep
      obtain ⟨a1, a2, a3⟩ := induce_local_closure g a no s mid hm
      obtain ⟨b1, b2, b3⟩ := induce_local_closure g a nt mid s' hs'
      constructor
      · intro refined hr
        rcases List.mem_append.1 hr with hr | hr
        · obtain ⟨no', nt', e1, e2, e3⟩ := p1 refined hr
          refine ⟨no', nt', e1, e2, ?_⟩
          intro n hn h0 ho hl
          rcases e3 n hn h0 ho hl with k | k
          · exact Or.inl k
          · exact Or.inr (b1 n (a1 n k))
        · rw [List.mem_singleton] at hr
          subst hr
          refine ⟨no, nt, h1, h2, ?_⟩
          intro n hn h0 ho hl
          rcases hn with hn | hn
          · rcases a2 n hn h0 ho hl with k | k
            · exact Or.inl k
            · exact Or.inr (b1 n k)
          · exact b2 n hn h0 ho hl
      · intro x hx
        rcases b3 x hx with k | ⟨k1, k2, k3⟩
        · rcases a3 x k with k' | ⟨k1, k2, k3⟩
          · obtain ⟨r, hr, rest⟩ := p2 x k'
            exact ⟨r, List.mem_append_left _ hr, rest⟩
          · exact ⟨a, List.mem_append_right _ (List.mem_singleton.2 rfl), no, nt, h1, h2,
              Or.inl k1, k2, k3⟩
        · exact ⟨a, List.mem_append_right _ (List.mem_singleton.2 rfl), no, nt, h1, h2,
            Or.inr k1, k2, k3⟩

/-- The loop of `induce_refines` over `cells_with_remote_neighbors` for a refined cell
of another process. -/
theorem induce_remote_cell_closure (g : Dccrg UserData) (refined : Nat) (acc : uset) :
    (∀ x ∈ acc, x ∈ g.cells_with_remote_neighbors.foldl
      (fun unique_induced_refines loc =>
        if g.is_neighbor loc refined
            ∧ g.index.get_refinement_level loc < g.index.get_refinement_level refined
            ∧ loc ∉ g.cells_to_refine then
          set_insert unique_induced_refines loc
        else unique_induced_refines) acc) ∧
    (∀ loc ∈ g.cells_with_remote_neighbors, g.is_neighbor loc refined = true →
      g.index.get_refinement_level loc < g.index.get_refinement_level refined →
      loc ∈ g.cells_to_refine ∨ loc ∈ g.cells_with_remote_neighbors.foldl
        (fun unique_induced_refines loc =>
          if g.is_neighbor loc refined
              ∧ g.index.get_refinement_level loc < g.index.get_refinement_level refined
              ∧ loc ∉ g.cells_to_refine then
            set_insert unique_induced_refines loc
          else unique_induced_refines) acc) ∧
    (∀ x ∈ g.cells_with_remote_neighbors.foldl
      (fun unique_induced_refines loc =>
        if g.is_neighbor loc refined
            ∧ g.index.get_refinement_level loc < g.index.get_refinement_level refined
            ∧ loc ∉ g.cells_to_refine then
          set_insert unique_induced_refines loc
        else unique_induced_refines) acc,
      x ∈ acc ∨ x ∈ g.cells_with_remote_neighbors) := by
  refine foldl_invariant _ (fun done (s : uset) =>
    (∀ x ∈ acc, x ∈ s) ∧
    (∀ loc ∈ done, g.is_neighbor loc refined = true →
      g.index.get_refinement_level loc < g.index.get_refinement_level refined →
      loc ∈ g.cells_to_refine ∨ loc ∈ s) ∧
    (∀ x ∈ s, x ∈ acc ∨ x ∈ done)) g.cells_with_remote_neighbors acc
    (by
      refine ⟨fun x hx => hx, fun l hl => ?_, fun x hx => Or.inl hx⟩
      simp at hl) ?_
  · intro done a s ⟨p1, p2, p3⟩ _
    by_cases c : g.is_neighbor a refined
        ∧ g.index.get_refinement_level a < g.index.get_refinement_level refined
        ∧ a ∉ g.cells_to_refine
    · rw [if_pos c]
      refine ⟨fun x hx => (mem_set_insert _ _ _).2 (Or.inl (p1 x hx)), ?_, ?_⟩
      · intro loc hl hn hlev
        rcases List.mem_append.1 hl with hl | hl
        · rcases p2 loc hl hn hlev with k | k
          · exact Or.inl k
          · exact Or.inr ((mem_set_insert _ _ _).2 (Or.inl k))
        · rw [List.mem_singleton] at hl
          exact Or.inr ((mem_set_insert _ _ _).2 (Or.inr hl))
      · intro x hx
        rcases (mem_set_insert _ _ _).1 hx with hx | hx
        · rcases p3 x hx with k | k
          · exact Or.inl k
          · exact Or.inr (List.mem_append_left _ k)
        · exact Or.inr (List.mem_append_right _ (List.mem_singleton.2 hx))
    · rw [if_neg c]
      refine ⟨p1, ?_, ?_⟩
      · intro loc hl hn hlev
        rcases List.mem_append.1 hl with hl | hl
        · exact p2 loc hl hn hlev
        · rw [List.mem_singleton] at hl
          subst hl
          by_contra hc
          exact c ⟨hn, hlev, fun hm => hc (Or.inl hm)⟩
      · intro x hx
        rcases p3 x hx with k | k
        · exact Or.inl k
        · exact Or.inr (List.mem_append_left _ k)

end Dccrg
end dccrg

namespace dccrg
open Index Dccrg
namespace Dccrg
variable {UserData : Type}

/-- The loop of `induce_refines` over the refines of another process. -/
theorem induce_remote_list_closure (g : Dccrg UserData) (refines : List Nat)
    (acc result : uset)
    (h : refines.foldl
      (fun unique_induced_refines refined =>
        if refined ∉ g.remote_cells_with_local_neighbors then unique_induced_refines
        else
          g.cells_with_remote_neighbors.foldl
            (fun unique_induced_refines loc =>
              if g.is_neighbor loc refined
                  ∧ g.index.get_refinement_level loc
                    < g.index.get_refinement_level refined
                  ∧ loc ∉ g.cells_to_refine then
                set_insert unique_induced_refines loc
              else unique_induced_refines)
            unique_induced_refines)
      acc = result) :
    (∀ x ∈ acc, x ∈ result) ∧
    (∀ refined ∈ refines, refined ∈ g.remote_cells_with_local_neighbors →
      ∀ loc ∈ g.cells_with_remote_neighbors, g.is_neighbor loc refined = true →
        g.index.get_refinement_level loc < g.index.get_refinement_level refined →
        loc ∈ g.cells_to_refine ∨ loc ∈ result) ∧
    (∀ x ∈ result, x ∈ acc ∨ x ∈ g.cells_with_remote_neighbors) := by
  subst h
  refine foldl_invariant _ (fun done (s : uset) =>
    (∀ x ∈ acc, x ∈ s) ∧
    (∀ refined ∈ done, refined ∈ g.remote_cells_with_local_neighbors →
      ∀ loc ∈ g.cells_with_remote_neighbors, g.is_neighbor loc refined = true →
        g.index.get_refinement_level loc < g.index.get_refinement_level refined →
        loc ∈ g.cells_to_refine ∨ loc ∈ s) ∧
    (∀ x ∈ s, x ∈ acc ∨ x ∈ g.cells_with_remote_neighbors)) refines acc
    (by
      refine ⟨fun x hx => hx, fun l hl => ?_, fun x hx => Or.inl hx⟩
      simp at hl) ?_
  intro done a s ⟨p1, p2, p3⟩ _
  by_cases c : a ∉ g.remote_cells_with_local_neighbors
  · rw [if_pos c]
    refine ⟨p1, ?_, p3⟩
    intro refined hr hm
    rcases List.mem_append.1 hr with hr | hr
    · exact p2 refined hr hm
    · rw [List.mem_singleton] at hr
      subst hr
      exact absurd hm c
  · rw [if_neg c]
    obtain ⟨q1, q2, q3⟩ := induce_remote_cell_closure g a s
    refine ⟨fun x hx => q1 x (p1 x hx), ?_, ?_⟩
    · intro refined hr hm loc hl hn hlev
      rcases List.mem_append.1 hr with hr | hr
      · rcases p2 refined hr hm loc hl hn hlev with k | k
        · exact Or.inl k
        · exact Or.inr (q1 loc k)
      · rw [List.mem_singleton] at hr
        subst hr
        exact q2 loc hl hn hlev
    · intro x hx
      rcases q3 x hx with k | k
      · exact p3 x k
      · exact Or.inr k

/-- The loop of `induce_refines` over the other processes. -/
theorem induce_remote_closure (g : Dccrg UserData) (all_new_refines : List (List Nat))
    (acc out : uset)
    (h : (List.range g.comm_size).foldlM
      (fun unique_induced_refines process =>
        if process = g.rank then some unique_induced_refines
        else
          all_new_refines[process]?.map fun (refines : List Nat) =>
            refines.foldl
              (fun unique_induced_refines refined =>
                if refined ∉ g.remote_cells_with_local_neighbors then unique_induced_refines
                else
                  g.cells_with_remote_neighbors.foldl
                    (fun unique_induced_refines loc =>
                      if g.is_neighbor loc refined
                          ∧ g.index.get_refinement_level loc
                            < g.index.get_refinement_level refined
                          ∧ loc ∉ g.cells_to_refine then
                        set_insert unique_induced_refines loc
                      else unique_induced_refines)
                    unique_induced_refines)
              unique_induced_refines)
      acc = some out) :
    (∀ x ∈ acc, x ∈ out) ∧
    (∀ process < g.comm_size, process ≠ g.rank →
      ∀ refines, all_new_refines[process]? = some refines →
      ∀ refined ∈ refines, refined ∈ g.remote_cells_with_local_neighbors →
      ∀ loc ∈ g.cells_with_remote_neighbors, g.is_neighbor loc refined = true →
        g.index.get_refinement_level loc < g.index.get_refinement_level refined →
        loc ∈ g.cells_to_refine ∨ loc ∈ out) ∧
    (∀ x ∈ out, x ∈ acc ∨ x ∈ g.cells_with_remote_neighbors) := by
  have key := foldlM_invariant _ (fun done (s : uset) =>
    (∀ x ∈ acc, x ∈ s) ∧
    (∀ process ∈ done, process ≠ g.rank →
      ∀ refines, all_new_refines[process]? = some refines →
      ∀ refined ∈ refines, refined ∈ g.remote_cells_with_local_neighbors →
      ∀ loc ∈ g.cells_with_remote_neighbors, g.is_neighbor loc refined = true →
        g.index.get_refinement_level loc < g.index.get_refinement_level refined →
        loc ∈ g.cells_to_refine ∨ loc ∈ s) ∧
    (∀ x ∈ s, x ∈ acc ∨ x ∈ g.cells_with_remote_neighbors)) (List.range g.comm_size) acc out
    (by
      refine ⟨fun x hx => hx, fun l hl => ?_, fun x hx => Or.inl hx⟩
      simp at hl) ?_ h
  · exact ⟨key.1, fun process hp => key.2.1 process (List.mem_range.2 hp), key.2.2⟩
  · intro done a s s' ⟨p1, p2, p3⟩ _ hstep
    by_cases c : a = g.rank
    · rw [if_pos c] at hstep
      simp only [Option.some.injEq] at hstep
      subst hstep
      refine ⟨p1, ?_, p3⟩
      intro process hp hne
      rcases List.mem_append.1 hp with hp | hp
      · exact p2 process hp hne
      · rw [List.mem_singleton] at hp
        subst hp
        exact absurd c hne
    · rw [if_neg c] at hstep
      simp only [Option.map_eq_some'] at hstep
      obtain ⟨refines, hr, hs'⟩ := hstep
      obtain ⟨q1, q2, q3⟩ := induce_remote_list_closure g refines s s' hs'
      refine ⟨fun x hx => q1 x (p1 x hx), ?_, ?_⟩
      · intro process hp hne refines' hr' refined hrf hm loc hl hn hlev
        rcases List.mem_append.1 hp with hp | hp
        · rcases p2 process hp hne refines' hr' refined hrf hm loc hl hn hlev with k | k
          · exact Or.inl k
          · exact Or.inr (q1 loc k)
        · rw [List.mem_singleton] at hp
          subst hp
          rw [hr] at hr'
          simp only [Option.some.injEq] at hr'
          subst hr'
          exact q2 refined hrf hm loc hl hn hlev
      · intro x hx
        rcases q3 x hx with k | k
        · exact p3 x k
        · exact Or.inr k

/-- One round of the loop of `induce_refines` on a process: the new refines are local
cells of the neighbor lists of own refines or cells of `cells_with_remote_neighbors`;
afterwards every local neighbor with a smaller level of an own new refine, and every
cell of `cells_with_remote_neighbors` with a smaller level that has a new refine of
another process as neighbor, is in `cells_to_refine`. -/
theorem induce_refines_round_closure (g : Dccrg UserData)
    (all_new_refines : List (List Nat)) (res : Dccrg UserData × List Nat)
    (h : g.induce_refines_round all_new_refines = some res) :
    res.1 = { g with cells_to_refine := set_insert_range g.cells_to_refine res.2 } ∧
    (∃ own, all_new_refines[g.rank]? = some own ∧
      (∀ refined ∈ own, ∃ neighbors_of neighbors_to,
        map_find g.neighbors refined = some neighbors_of ∧
        map_find g.neighbors_to refined = some neighbors_to ∧
        ∀ n, n ∈ neighbors_of ∨ n ∈ neighbors_to → n ≠ 0 →
          map_find g.cell_process n = some g.rank →
          g.index.get_refinement_level n < g.index.get_refinement_level refined →
          n ∈ res.1.cells_to_refine) ∧
      ∀ x ∈ res.2,
        (∃ refined ∈ own, ∃ neighbors_of neighbors_to,
          map_find g.neighbors refined = some neighbors_of ∧
          map_find g.neighbors_to refined = some neighbors_to ∧
          (x ∈ neighbors_of ∨ x ∈ neighbors_to) ∧ x ≠ 0 ∧
          map_find g.cell_process x = some g.rank) ∨
        x ∈ g.cells_with_remote_neighbors) ∧
    ∀ process < g.comm_size, process ≠ g.rank →
      ∀ refines, all_new_refines[process]? = some refines →
      ∀ refined ∈ refines, refined ∈ g.remote_cells_with_local_neighbors →
      ∀ loc ∈ g.cells_with_remote_neighbors, g.is_neighbor loc refined = true →
        g.index.get_refinement_level loc < g.index.get_refinement_level refined →
        loc ∈ res.1.cells_to_refine := by
  unfold induce_refines_round at h
  simp only [Option.bind_eq_some, Option.map_eq_some'] at h
  obtain ⟨own, hown, loc, h1, uir, h2, hres⟩ := h
  subst hres
  obtain ⟨a1, a2⟩ := induce_own_closure g own loc h1
  obtain ⟨b1, b2, b3⟩ := induce_remote_closure g all_new_refines loc uir h2
  refine ⟨rfl, ⟨own, hown, ?_, ?_⟩, ?_⟩
  · intro refined hr
    obtain ⟨no, nt, e1, e2, e3⟩ := a1 refined hr
    refine ⟨no, nt, e1, e2, ?_⟩
    intro n hn h0 ho hl
    simp only
    rw [mem_set_insert_range]
    rcases e3 n hn h0 ho hl with k | k
    · exact Or.inl k
    · exact Or.inr (b1 n k)
  · intro x hx
    simp only at hx
    rcases b3 x hx with k | k
    · exact Or.inl (a2 x k)
    · exact Or.inr k
  · intro process hp hne refines hr refined hrf hm l hl hn hlev
    simp only
    rw [mem_set_insert_range]
    exact b2 process hp hne refines hr refined hrf hm l hl hn hlev

end Dccrg
end dccrg

namespace dccrg
open Index Dccrg
namespace Dccrg
variable {UserData : Type}

/-- A larger neighbor `n` of a leaf `c` (an entry other than 0 of `find_neighbors_of (c)`
or of `find_neighbors_to (c)` with a smaller refinement level) is a leaf that has `c` in
one of its own lists and that considers `c` a neighbor. -/
theorem larger_neighbor_facts (g : Dccrg UserData) (hfit : g.index.ids_fit)
    (hinv : g.existence_invariant) (hreach : g.reach_fits)
    (hof : g.neighborhood_of = make_neighborhood_of g.neighborhood_size)
    (hto : g.neighborhood_to = g.neighborhood_of.map fun o => (-o.1, -o.2.1, -o.2.2))
    (c n : Nat) (hc : g.is_leaf c) (hn0 : n ≠ 0)
    (hlev : g.index.get_refinement_level n < g.index.get_refinement_level c)
    (hnb : n ∈ g.find_neighbors_of c 1 false ∨ n ∈ g.find_neighbors_to c) :
    g.is_leaf n ∧ (c ∈ g.find_neighbors_of n 1 false ∨ c ∈ g.find_neighbors_to n) ∧
    g.is_neighbor n c = true := by
  rcases hnb with h | h
  · have hleaf := find_neighbors_of_entry_leaf g hfit hinv hreach n c h hn0
    have hsee := (mem_find_neighbors_of_iff_sees g hfit hinv hreach n c hleaf hc).1 h
    refine ⟨hleaf, Or.inr (mem_find_neighbors_to_of_sees g hfit hinv hreach hto n c hleaf hc
      hsee), ?_⟩
    have hcn := is_neighbor_of_sees g hfit hinv hreach hof c n hc.1 hleaf.1 hsee
    obtain ⟨F, _, ln, hln, hlvn, hsn, _⟩ := cell_facts g hfit hinv hleaf.1
    obtain ⟨_, _, lc, hlc, hlvc, hsc, _⟩ := cell_facts g hfit hinv hc.1
    apply is_neighbor_symm g hfit hinv hreach hof c n hc.1 hleaf.1 ?_ hcn
    rw [hsn, hsc]
    apply Nat.pow_le_pow_right (by norm_num)
    rw [hlvn, hlvc] at hlev
    omega
  · have hleaf := find_neighbors_to_entry_leaf g c n h hn0
    have hsee := sees_of_mem_find_neighbors_to g hfit hinv hreach hto c n hc h
    exact ⟨hleaf, Or.inl (mem_find_neighbors_of_of_sees g hfit hinv hreach c n hc hleaf hsee),
      is_neighbor_of_sees g hfit hinv hreach hof n c hleaf.1 hc.1 hsee⟩

/-- The relation "sees" depends on the grid only. -/
theorem sees_same_grid {V : Type} (g : Dccrg UserData) (g' : Dccrg V)
    (h1 : g'.index = g.index) (h4 : g'.periodic = g.periodic)
    (h6 : g'.neighborhood_of = g.neighborhood_of) (b a : Nat) :
    g'.sees b a ↔ g.sees b a := by
  unfold sees shifted
  rw [h1, h4, h6]

/-- Being a leaf depends on the grid and on the cells of the directory only. -/
theorem is_leaf_same_grid {V : Type} (g : Dccrg UserData) (g' : Dccrg V)
    (h1 : g'.index = g.index)
    (hd : ∀ c, map_has g'.cell_process c = map_has g.cell_process c) (c : Nat) :
    g'.is_leaf c ↔ g.is_leaf c := by
  unfold is_leaf
  rw [hd, get_child_congr g g' h1 hd]

end Dccrg
end dccrg
set_option maxHeartbeats 400000
namespace dccrg
open Index Dccrg
variable {UserData : Type}

/-- A process that differs from `g` in `cells_to_refine` only has the fields of `g`. -/
theorem frame_fields (g s : Dccrg UserData)
    (hs : s = { g with cells_to_refine := s.cells_to_refine }) :
    s.index = g.index ∧ s.rank = g.rank ∧ s.comm_size = g.comm_size ∧
    s.cell_process = g.cell_process ∧ s.cells = g.cells ∧
    s.neighbors = g.neighbors ∧ s.neighbors_to = g.neighbors_to ∧
    s.cells_with_remote_neighbors = g.cells_with_remote_neighbors ∧
    s.remote_cells_with_local_neighbors = g.remote_cells_with_local_neighbors ∧
    ∀ a b, s.is_neighbor a b = g.is_neighbor a b := by
  refine ⟨by rw [hs], by rw [hs], by rw [hs], by rw [hs], by rw [hs], by rw [hs], by rw [hs],
    by rw [hs], by rw [hs], ?_⟩
  intro a b
  rw [hs]
  rfl

/-- The neighbor lists do not depend on `cells_to_refine`. -/
theorem frame_lists (g s : Dccrg UserData)
    (hs : s = { g with cells_to_refine := s.cells_to_refine }) (c : Nat) :
    s.find_neighbors_of c 1 false = g.find_neighbors_of c 1 false ∧
    s.find_neighbors_to c = g.find_neighbors_to c := by
  generalize s.cells_to_refine = X at hs
  subst hs
  refine ⟨find_neighbors_of_congr g { g with cells_to_refine := X } rfl rfl c 1 false, ?_⟩
  unfold find_neighbors_to neighbors_to_at indices_from_neighborhood
  simp only [get_child_congr g { g with cells_to_refine := X } rfl (fun _ => rfl),
    get_parent_congr g { g with cells_to_refine := X } rfl (fun _ => rfl),
    get_all_children_congr g { g with cells_to_refine := X } rfl (fun _ => rfl)]

/-- Process `i` of a consistent world has rank `i`. -/
theorem world_getElem (w : World UserData) (hcons : consistent w) (i : Nat)
    (g : Dccrg UserData) (h : w[i]? = some g) :
    g ∈ w ∧ g.rank = i ∧ g.comm_size = w.length ∧ i < w.length := by
  have hmem : g ∈ w := List.mem_iff_getElem?.2 ⟨i, h⟩
  obtain ⟨hi, _⟩ := List.getElem?_eq_some.1 h
  refine ⟨hmem, ?_, (hcons.2.1 g hmem).1, hi⟩
  have := congrArg (fun l => l[i]?) hcons.1
  simp only [List.getElem?_map, h, Option.map_some', List.getElem?_range hi] at this
  exact Option.some.inj this

/-- The process of rank `q` of a consistent world is process `q`. -/
theorem world_of_rank (w : World UserData) (hcons : consistent w)
    (g : Dccrg UserData) (hg : g ∈ w) : w[g.rank]? = some g := by
  obtain ⟨i, hi⟩ := List.mem_iff_getElem?.1 hg
  have := (world_getElem w hcons i g hi).2.1
  rw [this]; exact hi

namespace Dccrg

/-- The neighbor lists of a leaf hold the same cells on two processes with the same
grid. -/
theorem neighbor_lists_same_grid (g g' : Dccrg UserData) (hfit : g.index.ids_fit)
    (hinv : g.existence_invariant) (hreach : g.reach_fits)
    (hto : g.neighborhood_to = g.neighborhood_of.map fun o => (-o.1, -o.2.1, -o.2.2))
    (hfit' : g'.index.ids_fit) (hinv' : g'.existence_invariant) (hreach' : g'.reach_fits)
    (hto' : g'.neighborhood_to = g'.neighborhood_of.map fun o => (-o.1, -o.2.1, -o.2.2))
    (h1 : g'.index = g.index) (h4 : g'.periodic = g.periodic)
    (h6 : g'.neighborhood_of = g.neighborhood_of)
    (hd : ∀ c, map_has g'.cell_process c = map_has g.cell_process c)
    (c n : Nat) (hc : g.is_leaf c) (hn0 : n ≠ 0)
    (hnb : n ∈ g.find_neighbors_of c 1 false ∨ n ∈ g.find_neighbors_to c) :
    n ∈ g'.find_neighbors_of c 1 false ∨ n ∈ g'.find_neighbors_to c := by
  have hc' : g'.is_leaf c := (is_leaf_same_grid g g' h1 hd c).2 hc
  rcases hnb with h | h
  · have hleaf := find_neighbors_of_entry_leaf g hfit hinv hreach n c h hn0
    have hsee := (mem_find_neighbors_of_iff_sees g hfit hinv hreach n c hleaf hc).1 h
    have hleaf' : g'.is_leaf n := (is_leaf_same_grid g g' h1 hd n).2 hleaf
    exact Or.inl (mem_find_neighbors_of_of_sees g' hfit' hinv' hreach' n c hleaf' hc'
      ((sees_same_grid g g' h1 h4 h6 c n).2 hsee))
  · have hleaf := find_neighbors_to_entry_leaf g c n h hn0
    have hsee := sees_of_mem_find_neighbors_to g hfit hinv hreach hto c n hc h
    have hleaf' : g'.is_leaf n := (is_leaf_same_grid g g' h1 hd n).2 hleaf
    exact Or.inr (mem_find_neighbors_to_of_sees g' hfit' hinv' hreach' hto' c n hc' hleaf'
      ((sees_same_grid g g' h1 h4 h6 n c).2 hsee))

end Dccrg
end dccrg

namespace dccrg
open Index Dccrg
variable {UserData : Type}

/-- One round of the loop of `induce_refines` on all processes keeps the state in the
frame of the world and keeps the refines that have been dealt with closed under the
2:1 rule; the new refines of the round before are dealt with in this round. -/
theorem induce_round_step (w : World UserData) (hcons : consistent w)
    (hgeo : ∀ g ∈ w, g.reach_fits ∧
      g.neighborhood_of = make_neighborhood_of g.neighborhood_size ∧
      g.neighborhood_to = (g.neighborhood_of.map fun o => (-o.1, -o.2.1, -o.2.2)) ∧
      g.neighbor_info_ok)
    (state state' : List (Dccrg UserData × List Nat))
    (hA : induce_frame w state) (hB : refines_closed_in w state)
    (h : state.mapM (fun (s : Dccrg UserData × List Nat) =>
        s.1.induce_refines_round (state.map fun s => s.2)) = some state') :
    induce_frame w state' ∧ refines_closed_in w state' := by
  have hF := (mapM_some_iff _ _ _).1 h
  have hlen : state.length = state'.length := hF.length_eq
  have hall : ∀ (i : Nat) (s : Dccrg UserData × List Nat), state[i]? = some s →
      (state.map fun s => s.2)[i]? = some s.2 := by
    intro i s hs
    rw [List.getElem?_map, hs]; rfl
  have hround : ∀ (i : Nat) (g : Dccrg UserData) (s' : Dccrg UserData × List Nat),
      w[i]? = some g → state'[i]? = some s' →
      ∃ s, state[i]? = some s ∧
        s.1 = { g with cells_to_refine := s.1.cells_to_refine } ∧
        (∀ c ∈ s.2, c ∈ s.1.cells_to_refine) ∧
        (∀ c ∈ s.1.cells_to_refine, map_has g.cells c = true) ∧
        s'.1 = { g with cells_to_refine := s'.1.cells_to_refine } ∧
        (∀ c, c ∈ s'.1.cells_to_refine ↔ c ∈ s.1.cells_to_refine ∨ c ∈ s'.2) ∧
        s.1.induce_refines_round (state.map fun s => s.2) = some s' := by
    intro i g s' hg hs'
    obtain ⟨s, hs, hr⟩ := forall₂_getElem?_right hF i s' hs'
    obtain ⟨a1, a2, a3⟩ := hA.2 i g s hg hs
    obtain ⟨r1, -⟩ := induce_refines_round_closure s.1 _ s' hr
    have e : s'.1.cells_to_refine = set_insert_range s.1.cells_to_refine s'.2 := by
      conv_lhs => rw [r1]
    refine ⟨s, hs, a1, a2, a3, ?_, ?_, hr⟩
    · rw [e]
      conv_lhs => rw [r1, a1]
    · intro c
      rw [e, mem_set_insert_range]
  constructor
  · refine ⟨by rw [← hlen]; exact hA.1, ?_⟩
    intro i g s' hg hs'
    obtain ⟨s, hs, a1, a2, a3, b1, b2, hr⟩ := hround i g s' hg hs'
    refine ⟨b1, fun c hc => (b2 c).2 (Or.inr hc), ?_⟩
    intro c hc
    rcases (b2 c).1 hc with k | k
    · exact a3 c k
    · obtain ⟨hgw, hrank, hcs, hi⟩ := world_getElem w hcons i g hg
      obtain ⟨f1, f2, f3, f4, f5, f6, f7, f8, f9, f10⟩ := frame_fields g s.1 a1
      obtain ⟨-, ⟨own, hown, -, snd⟩, -⟩ := induce_refines_round_closure s.1 _ s' hr
      have hown2 : own = s.2 := by
        rw [f2, hrank, hall i s hs] at hown
        exact (Option.some.inj hown).symm
      obtain ⟨-, hfit, hinv, hloc, -⟩ := hcons.2.1 g hgw
      obtain ⟨hreach, hof, hto, hinfo⟩ := hgeo g hgw
      rcases snd c k with ⟨refined, hr1, no, nt, e1, e2, e3, e4, e5⟩ | k2
      · rw [hown2] at hr1
        have hrc : map_has g.cells refined = true := a3 refined (a2 refined hr1)
        have hrk := (mem_map_keys _ _).2 hrc
        obtain ⟨i1, i2, i3⟩ := hinfo.1 refined hrk
        rw [f6, i1] at e1
        rw [f7] at e2
        have hleafc : g.is_leaf c := by
          rcases e3 with e3 | e3
          · rw [← Option.some.inj e1] at e3
            exact find_neighbors_of_entry_leaf g hfit hinv hreach c refined e3 e4
          · have := (i3 nt (Option.mem_def.2 e2)).1 c e3
            exact find_neighbors_to_entry_leaf g refined c this e4
        rw [f4, f2] at e5
        exact hloc.2.1 c ((mem_map_keys _ _).2 hleafc.1) e5 hleafc.2
      · rw [f8] at k2
        exact hloc.2.2 c k2
  · intro p gp sp' hgp hsp' c hc hcn q gq sq' hgq hsq' n hn0 hown hlev hnb
    obtain ⟨sp, hsp, a1, a2, a3, b1, b2, hrp⟩ := hround p gp sp' hgp hsp'
    obtain ⟨sq, hsq, c1, c2, c3, d1, d2, hrq⟩ := hround q gq sq' hgq hsq'
    have hc0 : c ∈ sp.1.cells_to_refine := by
      rcases (b2 c).1 hc with k | k
      · exact k
      · exact absurd k hcn
    by_cases hnew : c ∈ sp.2
    swap
    · exact (d2 n).2 (Or.inl
        (hB p gp sp hgp hsp c hc0 hnew q gq sq hgq hsq n hn0 hown hlev hnb))
    obtain ⟨hgpw, hrankp, hcsp, hp⟩ := world_getElem w hcons p gp hgp
    obtain ⟨hgqw, hrankq, hcsq, hq⟩ := world_getElem w hcons q gq hgq
    obtain ⟨f1, f2, f3, f4, f5, f6, f7, f8, f9, f10⟩ := frame_fields gq sq.1 c1
    obtain ⟨-, hfit, hinv, hloc, -⟩ := hcons.2.1 gq hgqw
    obtain ⟨hreach, hof, hto, hinfo⟩ := hgeo gq hgqw
    obtain ⟨-, ⟨own, hown2, cl, -⟩, rem⟩ := induce_refines_round_closure sq.1 _ sq' hrq
    have hcp : map_has gp.cells c = true := a3 c hc0
    obtain ⟨o1, o2⟩ := (hcons.2.1 gp hgpw).2.2.2.1.1 c ((mem_map_keys _ _).2 hcp)
    have hleafp : gp.is_leaf c := ⟨(map_has_iff _ _).2 ⟨_, o1⟩, o2⟩
    obtain ⟨g1, g4, g6, gd⟩ := world_same_grid hcons hgpw hgqw
    have hleafq : gq.is_leaf c := (is_leaf_same_grid gp gq g1 gd c).2 hleafp
    obtain ⟨hleafn, hback, hisn⟩ :=
      larger_neighbor_facts gq hfit hinv hreach hof hto c n hleafq hn0 hlev hnb
    have hncell : map_has gq.cells n = true :=
      hloc.2.1 n ((mem_map_keys _ _).2 hleafn.1) (by rw [hown, hrankq]) hleafn.2
    by_cases hpq : q = p
    · subst hpq
      have e1 : gp = gq := by
        rw [hgp] at hgq; exact Option.some.inj hgq
      subst e1
      have e2 : sp = sq := by
        rw [hsp] at hsq; exact Option.some.inj hsq
      subst e2
      have hown3 : own = sp.2 := by
        rw [f2, hrankq, hall q sp hsp] at hown2
        exact (Option.some.inj hown2).symm
      rw [← hown3] at hnew
      obtain ⟨no, nt, k1, k2, k3⟩ := cl c hnew
      obtain ⟨i1, i2, i3⟩ := hinfo.1 c ((mem_map_keys _ _).2 hcp)
      rw [f6, i1] at k1
      rw [f7] at k2
      apply k3 n ?_ hn0 (by rw [f4, f2, hown, hrankq]) (by rw [f1]; exact hlev)
      rcases hnb with k | k
      · exact Or.inl (by rw [← Option.some.inj k1]; exact k)
      · exact Or.inr ((i3 nt (Option.mem_def.2 k2)).2 n k)
    · have hc1 : c ≠ 0 := by
        obtain ⟨_, ⟨z1, _⟩, _⟩ := cell_facts gq hfit hinv hleafq.1
        omega
      have howner : map_find gq.cell_process c ≠ some gq.rank := by
        rw [consistent_owner hcons hgpw hgqw c, o1, hrankp, hrankq]
        intro e
        exact hpq (Option.some.inj e).symm
      obtain ⟨q1, q2⟩ := hinfo.2 n ((mem_map_keys _ _).2 hncell) c
        (List.mem_append.2 hback) hc1 howner
      apply rem p (by rw [f3, hcsq]; exact hp) (by rw [f2, hrankq]; exact fun e => hpq e.symm)
        sp.2 (hall p sp hsp) c hnew (by rw [f9]; exact q2) n (by rw [f8]; exact q1)
        (by rw [f10]; exact hisn) (by rw [f1]; exact hlev)

end dccrg

namespace dccrg
open Index Dccrg
variable {UserData : Type}

theorem new_refines_empty (state : List (Dccrg UserData × List Nat))
    (h : ¬ (state.map fun s => s.2.length).sum > 0) : ∀ s ∈ state, s.2 = [] := by
  induction state with
  | nil => intro s hs; simp at hs
  | cons a t ih =>
    simp only [List.map_cons, List.sum_cons] at h
    intro s hs
    rcases List.mem_cons.1 hs with rfl | hs
    · exact List.length_eq_zero.1 (by omega)
    · exact ih (by omega) s hs

/-- The loop of `induce_refines` ends with no new refines, and the refines of its last
state are closed under the 2:1 rule. -/
theorem induce_loop_closed (w : World UserData) (hcons : consistent w)
    (hgeo : ∀ g ∈ w, g.reach_fits ∧
      g.neighborhood_of = make_neighborhood_of g.neighborhood_size ∧
      g.neighborhood_to = (g.neighborhood_of.map fun o => (-o.1, -o.2.1, -o.2.2)) ∧
      g.neighbor_info_ok) :
    ∀ (fuel : Nat) (state state' : List (Dccrg UserData × List Nat)),
      induce_frame w state → refines_closed_in w state →
      induce_refines_loop fuel state = some state' →
      induce_frame w state' ∧ refines_closed_in w state' ∧ ∀ s ∈ state', s.2 = [] := by
  intro fuel
  induction fuel with
  | zero =>
    intro state state' hA hB h
    unfold induce_refines_loop at h
    split_ifs at h with hs
    cases Option.some.inj h
    exact ⟨hA, hB, new_refines_empty state hs⟩
  | succ k ih =>
    intro state state' hA hB h
    unfold induce_refines_loop at h
    split_ifs at h with hs
    · simp only [Option.bind_eq_some] at h
      obtain ⟨mid, hm, hl⟩ := h
      obtain ⟨A1, B1⟩ := induce_round_step w hcons hgeo state mid hA hB hm
      exact ih mid state' A1 B1 hl
    · cases Option.some.inj h
      exact ⟨hA, hB, new_refines_empty state hs⟩

/-- After `induce_refines` the refines of every process are closed under the 2:1 rule:
with a cell, `cells_to_refine` holds every larger neighbor of the cell. -/
theorem induce_refines_closed (w wi : World UserData) (hcons : consistent w)
    (hgeo : ∀ g ∈ w, g.reach_fits ∧
      g.neighborhood_of = make_neighborhood_of g.neighborhood_size ∧
      g.neighborhood_to = (g.neighborhood_of.map fun o => (-o.1, -o.2.1, -o.2.2)) ∧
      g.neighbor_info_ok)
    (hlocal : ∀ g ∈ w, ∀ c ∈ g.cells_to_refine, map_has g.cells c = true)
    (h : induce_refines w = some wi) :
    ∀ gi ∈ wi, ∀ c ∈ gi.cells_to_refine,
      ∀ n, n ∈ gi.find_neighbors_of c 1 false ∨ n ∈ gi.find_neighbors_to c → n ≠ 0 →
        gi.index.get_refinement_level n < gi.index.get_refinement_level c →
        n ∈ gi.cells_to_refine := by
  unfold induce_refines at h
  simp only [Option.map_eq_some'] at h
  obtain ⟨state, hloop, hwi⟩ := h
  have hA0 : induce_frame w (w.map fun g => (g, g.cells_to_refine)) := by
    refine ⟨by simp, ?_⟩
    intro i g s hg hs
    rw [List.getElem?_map, hg] at hs
    cases Option.some.inj hs
    exact ⟨rfl, fun c hc => hc, hlocal g (List.mem_iff_getElem?.2 ⟨i, hg⟩)⟩
  have hB0 : refines_closed_in w (w.map fun g => (g, g.cells_to_refine)) := by
    intro p gp sp hgp hsp c hc hcn
    rw [List.getElem?_map, hgp] at hsp
    cases Option.some.inj hsp
    exact absurd hc hcn
  obtain ⟨hA, hB, hE⟩ := induce_loop_closed w hcons hgeo _ _ _ hA0 hB0 hloop
  have hidx : ∀ s ∈ state, ∃ (i : Nat) (g : Dccrg UserData),
      state[i]? = some s ∧ w[i]? = some g ∧
      s.1 = { g with cells_to_refine := s.1.cells_to_refine } ∧
      ∀ c ∈ s.1.cells_to_refine, map_has g.cells c = true := by
    intro s hs
    obtain ⟨i, hi⟩ := List.mem_iff_getElem?.1 hs
    obtain ⟨hlt, _⟩ := List.getElem?_eq_some.1 hi
    rw [hA.1] at hlt
    have hg : w[i]? = some w[i] := List.getElem?_eq_getElem hlt
    obtain ⟨a1, _, a3⟩ := hA.2 i _ s hg hi
    exact ⟨i, _, hi, hg, a1, a3⟩
  have hX : ∀ s ∈ state, ∀ c,
      c ∈ ((state.map fun s => s.1.cells_to_refine).take s.1.comm_size).foldl
        set_insert_range s.1.cells_to_refine ↔ ∃ s' ∈ state, c ∈ s'.1.cells_to_refine := by
    intro s hs c
    obtain ⟨i, g, hi, hg, a1, _⟩ := hidx s hs
    have hc : s.1.comm_size = state.length := by
      rw [(frame_fields g s.1 a1).2.2.1, (world_getElem w hcons i g hg).2.2.1, hA.1]
    rw [hc, mem_foldl_set_insert_range]
    have : (state.map fun s => s.1.cells_to_refine).take state.length
        = state.map fun s => s.1.cells_to_refine := by
      apply List.take_of_length_le
      simp
    rw [this]
    constructor
    · rintro (k | ⟨l, hl, k⟩)
      · exact ⟨s, hs, k⟩
      · obtain ⟨s', hs', rfl⟩ := List.mem_map.1 hl
        exact ⟨s', hs', k⟩
    · rintro ⟨s', hs', k⟩
      exact Or.inr ⟨_, List.mem_map.2 ⟨s', hs', rfl⟩, k⟩
  intro gi hgi c hc n hnb hn0 hlev
  subst hwi
  obtain ⟨s, hs, hgi⟩ := List.mem_map.1 hgi
  have hgi1 : gi = { s.1 with cells_to_refine := gi.cells_to_refine } := by rw [← hgi]
  have hgi2 : gi.cells_to_refine
      = ((state.map fun s => s.1.cells_to_refine).take s.1.comm_size).foldl
        set_insert_range s.1.cells_to_refine := by rw [← hgi]
  rw [hgi2, hX s hs] at hc ⊢
  obtain ⟨sp, hsp, hcp⟩ := hc
  obtain ⟨i, g, hi, hg, a1, _⟩ := hidx s hs
  obtain ⟨p, gp, hp, hgp, b1, b3⟩ := hidx sp hsp
  obtain ⟨hgw, hrank, hcs, hilt⟩ := world_getElem w hcons i g hg
  obtain ⟨hgpw, hrankp, hcsp, hplt⟩ := world_getElem w hcons p gp hgp
  obtain ⟨-, hfit, hinv, hloc, -⟩ := hcons.2.1 g hgw
  obtain ⟨hreach, hof, hto, hinfo⟩ := hgeo g hgw
  -- the lists of the process after `induce_refines` are those of `g`
  have hlists : n ∈ g.find_neighbors_of c 1 false ∨ n ∈ g.find_neighbors_to c := by
    rw [(frame_lists s.1 gi hgi1 c).1, (frame_lists s.1 gi hgi1 c).2,
      (frame_lists g s.1 a1 c).1, (frame_lists g s.1 a1 c).2] at hnb
    exact hnb
  have hlev2 : g.index.get_refinement_level n < g.index.get_refinement_level c := by
    rw [(frame_fields s.1 gi hgi1).1, (frame_fields g s.1 a1).1] at hlev
    exact hlev
  obtain ⟨o1, o2⟩ := (hcons.2.1 gp hgpw).2.2.2.1.1 c ((mem_map_keys _ _).2 (b3 c hcp))
  have hleafp : gp.is_leaf c := ⟨(map_has_iff _ _).2 ⟨_, o1⟩, o2⟩
  obtain ⟨g1, g4, g6, gd⟩ := world_same_grid hcons hgpw hgw
  have hleaf : g.is_leaf c := (is_leaf_same_grid gp g g1 gd c).2 hleafp
  obtain ⟨hleafn, -, -⟩ :=
    larger_neighbor_facts g hfit hinv hreach hof hto c n hleaf hn0 hlev2 hlists
  obtain ⟨q, hq⟩ := (map_has_iff _ _).1 hleafn.1
  obtain ⟨gq, hgqw, hrq⟩ := consistent_owner_exists hcons hgw hq
  have hgq : w[q]? = some gq := by
    rw [← hrq]; exact world_of_rank w hcons gq hgqw
  obtain ⟨-, -, -, hqlt⟩ := world_getElem w hcons q gq hgq
  rw [← hA.1] at hqlt
  have hsq : state[q]? = some state[q] := List.getElem?_eq_getElem hqlt
  obtain ⟨-, hfitq, hinvq, -, -⟩ := hcons.2.1 gq hgqw
  obtain ⟨hreachq, -, htoq, -⟩ := hgeo gq hgqw
  obtain ⟨k1, k4, k6, kd⟩ := world_same_grid hcons hgw hgqw
  have hnq := neighbor_lists_same_grid g gq hfit hinv hreach hto hfitq hinvq hreachq htoq
    k1 k4 k6 kd c n hleaf hn0 hlists
  refine ⟨state[q], List.mem_iff_getElem?.2 ⟨q, hsq⟩, ?_⟩
  apply hB p gp sp hgp hp c hcp (by rw [hE sp hsp]; simp) q gq _ hgq hsq n hn0
    (by rw [consistent_owner hcons hgw hgqw n]; exact hq) (by rw [k1]; exact hlev2) hnq

end dccrg
namespace dccrg
open Index Dccrg

theorem reachable_invariant {UserData : Type} [Inhabited UserData] (w : World UserData)
    (h : Reachable w) : grid_invariant w := by
  induction h with
  | construction index comm_size neighborhood_size maximum_refinement_level maximum_possible
      periodic_in_x periodic_in_y periodic_in_z w hcs hinit hfit =>
    exact initialize_world_invariant index comm_size neighborhood_size
      maximum_refinement_level maximum_possible periodic_in_x periodic_in_y periodic_in_z w
      hcs hinit hfit
  | stop_refining w requests w1 result _ hreq hstop ih =>
    exact stop_refining_invariant w w1 requests result ih hreq hstop

/-- C7 (coverage): in every world that a program reaches, that is after the
construction of the grid and after every `stop_refining`, on every process every
index triple inside the root grid lies in the footprint of exactly one leaf, where
a leaf is a cell `c` of the directory with `get_child c = c` and the footprint of
`c` is the cube of side `get_cell_size_in_indices c` that starts at
`get_indices c`. -/
theorem C7_leaves_cover_grid {UserData : Type} [Inhabited UserData] (w : World UserData)
    (h : Reachable w) : ∀ g ∈ w, g.covered_once := by
  intro g hg
  obtain ⟨_, hfit, hex, _⟩ := (reachable_invariant w h).2.1 g hg
  exact covered_once_of_invariant g hfit hex

end dccrg
namespace dccrg
open Index Dccrg

end dccrg
namespace dccrg
open Index Dccrg

end dccrg
namespace dccrg
open Index Dccrg

end dccrg
namespace dccrg
open Index Dccrg
variable {UserData : Type}

/-- C11 (the segments of `find_neighbors_of`): for a leaf `c` of a directory that
satisfies the existence invariant and the 2:1 balance around `c`, in a grid whose ids
fit in 64 bits and whose shifted indices do not overflow, `find_neighbors_of (c)` is
the concatenation over the items of `neighborhood_of`, in their order, of one segment
per item, `neighbor_segment c offset`.  The segment is `[0]` when the position
`get_indices(c) + offset * size(c)` falls outside of the grid in a dimension that is
not periodic (it is taken modulo the length of the grid in a periodic dimension); it
is `[n]` for the leaf `n` that covers the position when the level of `n` is the level
of `c` or one less; otherwise it is the list of the 8 children of the cell of the
level of `c` at the position, in the order of `get_all_children`, which are leaves of
the level of `c` plus 1. -/
theorem C11_find_neighbors_of_segments (g : Dccrg UserData) (hfit : g.index.ids_fit)
    (hinv : g.existence_invariant) (hreach : g.reach_fits) (c : Nat) (hc : g.is_leaf c)
    (hbal : g.balanced_around c) :
    g.find_neighbors_of c 1 false = g.neighborhood_of.flatMap (g.neighbor_segment c) ∧
    ∀ o ∈ g.neighborhood_of,
      (g.neighbor_position c o = none ∧ g.neighbor_segment c o = [0]) ∨
      (∃ p n, g.neighbor_position c o = some p ∧ g.is_leaf n ∧ g.in_footprint n p ∧
        (g.index.get_refinement_level n = g.index.get_refinement_level c ∨
          g.index.get_refinement_level n = g.index.get_refinement_level c - 1) ∧
        g.neighbor_segment c o = [n]) ∨
      (∃ p, g.neighbor_position c o = some p ∧
        g.neighbor_segment c o = g.get_all_children
          (g.index.get_cell_from_indices p (g.index.get_refinement_level c)) ∧
        (g.neighbor_segment c o).length = 8 ∧
        ∀ x ∈ g.neighbor_segment c o, g.is_leaf x ∧
          g.index.get_refinement_level x = g.index.get_refinement_level c + 1) := by
  constructor
  · rw [find_neighbors_of_eq g c hc.1 hc.2]
    exact flatMap_congr_mem _ _ _ fun o ho =>
      (neighbor_segment_spec g hfit hinv hreach c hc hbal o ho).1
  · exact fun o ho => (neighbor_segment_spec g hfit hinv hreach c hc hbal o ho).2

end dccrg
namespace dccrg
open Index Dccrg
variable {UserData : Type}

/-- C12 (completeness of `find_neighbors_of`): for a leaf `c` of a directory that
satisfies the existence invariant and the 2:1 balance around `c`, in a grid whose ids
fit in 64 bits and whose shifted indices do not overflow, every cell `n` of the
directory without children whose footprint meets the cube of side `size(c)` at the
position `get_indices(c) + offset * size(c)` of an item `offset` of `neighborhood_of`
(taken modulo the length of the grid in a periodic dimension) is an entry of
`find_neighbors_of (c)`. -/
theorem C12_neighbors_complete (g : Dccrg UserData) (hfit : g.index.ids_fit)
    (hinv : g.existence_invariant) (hreach : g.reach_fits) (c : Nat) (hc : g.is_leaf c)
    (hbal : g.balanced_around c) (offset : neighborhood_item_t)
    (ho : offset ∈ g.neighborhood_of) (p : indices_t)
    (hp : g.neighbor_position c offset = some p) (n : Nat) (hn : g.is_leaf n)
    (hm : g.meets n p (g.index.get_cell_size_in_indices c)) :
    n ∈ g.find_neighbors_of c 1 false :=
  mem_find_neighbors_of_of_sees g hfit hinv hreach n c hn hc
    (sees_of_meets g hfit hinv hreach c hc hbal offset ho p hp n hn hm)

end dccrg

namespace dccrg
open Index Dccrg
variable {UserData : Type}

/-- C13 (`find_neighbors_to` is the converse of `find_neighbors_of`): in a grid whose
ids fit in 64 bits, whose directory satisfies the existence invariant, whose
`neighborhood_to` is the negated `neighborhood_of` and whose shifted indices do not
overflow, for any two leaves `a` and `b` the cell `b` is in `find_neighbors_to (a)` if
and only if `a` is in `find_neighbors_of (b)`; and `find_neighbors_to (a)` holds no
cell twice.  The 2:1 balance is not needed. -/
theorem C13_neighbors_to_iff_neighbors_of (g : Dccrg UserData) (hfit : g.index.ids_fit)
    (hinv : g.existence_invariant) (hreach : g.reach_fits)
    (hto : g.neighborhood_to = g.neighborhood_of.map fun o => (-o.1, -o.2.1, -o.2.2))
    (a b : Nat) (ha : g.is_leaf a) (hb : g.is_leaf b) :
    (b ∈ g.find_neighbors_to a ↔ a ∈ g.find_neighbors_of b 1 false) ∧
    (g.find_neighbors_to a).Nodup := by
  refine ⟨?_, find_neighbors_to_nodup g a⟩
  rw [mem_find_neighbors_to_iff_sees g hfit hinv hreach hto a b ha hb,
    mem_find_neighbors_of_iff_sees g hfit hinv hreach a b ha hb]

end dccrg
namespace dccrg
open Index Dccrg
variable {UserData : Type}

/-- C14 (neighbor symmetry): in a grid whose ids fit in 64 bits, whose directory
satisfies the existence invariant, whose `neighborhood_to` is the negated
`neighborhood_of` and whose shifted indices do not overflow, let `neighbors_of` and
`neighbors_to` of two leaves `a` and `b` be the lists that `find_neighbors_of` and
`find_neighbors_to` compute.  Then `b` is in `neighbors_of (a)` or `neighbors_to (a)`
if and only if `a` is in `neighbors_of (b)` or `neighbors_to (b)`. -/
theorem C14_neighbor_symmetry (g : Dccrg UserData) (hfit : g.index.ids_fit)
    (hinv : g.existence_invariant) (hreach : g.reach_fits)
    (hto : g.neighborhood_to = g.neighborhood_of.map fun o => (-o.1, -o.2.1, -o.2.2))
    (a b : Nat) (ha : g.is_leaf a) (hb : g.is_leaf b)
    (neighbors_of_a neighbors_to_a neighbors_of_b neighbors_to_b : List Nat)
    (h1 : neighbors_of_a = g.find_neighbors_of a 1 false)
    (h2 : neighbors_to_a = g.find_neighbors_to a)
    (h3 : neighbors_of_b = g.find_neighbors_of b 1 false)
    (h4 : neighbors_to_b = g.find_neighbors_to b) :
    (b ∈ neighbors_of_a ∨ b ∈ neighbors_to_a) ↔ (a ∈ neighbors_of_b ∨ a ∈ neighbors_to_b) := by
  subst h1 h2 h3 h4
  rw [mem_find_neighbors_to_iff_sees g hfit hinv hreach hto a b ha hb,
    mem_find_neighbors_of_iff_sees g hfit hinv hreach a b ha hb,
    mem_find_neighbors_to_iff_sees g hfit hinv hreach hto b a hb ha,
    mem_find_neighbors_of_iff_sees g hfit hinv hreach b a hb ha]
  exact Or.comm

end dccrg
namespace dccrg
open Index Dccrg
variable {UserData : Type}

/-- C15 (`get_neighbors_of (c, i, j, k)` returns the segment of the offsets): let `c`
be a leaf of the local process whose stored neighbor list is `find_neighbors_of (c)`,
in a directory that satisfies the existence invariant and the 2:1 balance around `c`,
with `neighborhood_of` as `initialize` builds it for the neighbourhood size.  For
every item `(i, j, k)` of `neighborhood_of` the function returns the segment that
`find_neighbors_of` produces for the item, which is `neighbor_segment c (i, j, k)` and
has 1 entry or 8 entries.  It returns the empty vector for `(0, 0, 0)`, for offsets
that are not an item of `neighborhood_of`, and for a cell that is not in the directory
or that another process owns. -/
theorem C15_get_neighbors_of_segment (g : Dccrg UserData) (hfit : g.index.ids_fit)
    (hinv : g.existence_invariant) (hreach : g.reach_fits)
    (hsize : g.neighborhood_size + 1 < 2 ^ 31)
    (htemplate : g.neighborhood_of = make_neighborhood_of g.neighborhood_size)
    (c : Nat) (hc : g.is_leaf c) (hlocal : map_find g.cell_process c = some g.rank)
    (hbal : g.balanced_around c)
    (hlist : map_find g.neighbors c = some (g.find_neighbors_of c 1 false)) :
    (∀ i j k : Int, (i, j, k) ∈ g.neighborhood_of →
      g.get_neighbors_of c i j k
        = some ((g.indices_from_neighborhood (g.index.get_indices c)
            (g.index.get_cell_size_in_indices c) [(i, j, k)]).flatMap
            (g.find_neighbors_of_at (g.index.get_refinement_level c)
              (g.index.get_cell_size_in_indices c) 1)) ∧
      g.get_neighbors_of c i j k = some (g.neighbor_segment c (i, j, k)) ∧
      ((g.neighbor_segment c (i, j, k)).length = 1 ∨
        (g.neighbor_segment c (i, j, k)).length = 8)) ∧
    (∀ i j k : Int, (i, j, k) ∉ g.neighborhood_of → g.get_neighbors_of c i j k = some []) ∧
    (∀ cell, g.get_neighbors_of cell 0 0 0 = some []) ∧
    ∀ (cell : Nat) (i j k : Int),
      map_has g.cell_process cell = false ∨ map_find g.cell_process cell ≠ some g.rank →
      g.get_neighbors_of cell i j k = some [] := by
  obtain ⟨_, _, l, _, hlv, _⟩ := cell_facts g hfit hinv hc.1
  have hspec := neighbor_segment_spec g hfit hinv hreach c hc hbal
  have hkeep : ∀ o ∈ g.neighborhood_of, ¬ (o.1 = 0 ∧ o.2.1 = 0 ∧ o.2.2 = 0) ∧
      ¬ (g.neighborhood_size = 0 ∧ (if o.2.2 = 0 then 1 else 0)
        + (if o.2.1 = 0 then 1 else 0) + (if o.1 = 0 then 1 else 0) ≠ (2 : Int)) := by
    intro o ho
    rw [htemplate] at ho
    exact make_neighborhood_of_keep _ o ho
  have hshape : ∀ o ∈ g.neighborhood_of, g.neighbor_segment c o = [0] ∨
      (∃ n, g.neighbor_segment c o = [n] ∧ 0 ≤ g.index.get_refinement_level n ∧
        g.index.get_refinement_level n ≤ g.index.get_refinement_level c) ∨
      ((g.neighbor_segment c o).length = 8 ∧ ∀ x ∈ g.neighbor_segment c o,
        g.index.get_refinement_level x = g.index.get_refinement_level c + 1) := by
    intro o ho
    rcases (hspec o ho).2 with ⟨_, h⟩ | ⟨p, n, _, hn, _, hlvn, h⟩ | ⟨p, _, _, h8, hall⟩
    · exact Or.inl h
    · obtain ⟨_, _, ln, _, hln, _⟩ := cell_facts g hfit hinv hn.1
      exact Or.inr (Or.inl ⟨n, h, by omega, by omega⟩)
    · exact Or.inr (Or.inr ⟨h8, fun x hx => (hall x hx).2⟩)
  have hlen : ∀ o ∈ g.neighborhood_of, (g.neighbor_segment c o).length = 1 ∨
      (g.neighbor_segment c o).length = 8 := by
    intro o ho
    rcases hshape o ho with h | ⟨n, h, _⟩ | ⟨h, _⟩
    · rw [h]; exact Or.inl rfl
    · rw [h]; exact Or.inl rfl
    · exact Or.inr h
  have hstored : g.find_neighbors_of c 1 false
      = [] ++ g.neighborhood_of.flatMap (g.neighbor_segment c) ++ [] := by
    rw [find_neighbors_of_eq g c hc.1 hc.2, List.nil_append, List.append_nil]
    exact flatMap_congr_mem _ _ _ fun o ho => (hspec o ho).1
  have hzero : ∀ cell, g.get_neighbors_of cell 0 0 0 = some [] := by
    intro cell
    unfold get_neighbors_of
    rw [if_pos (Or.inr (Or.inr ⟨rfl, rfl, rfl⟩))]
  have hrun : ∀ i j k : Int, ¬ (i = 0 ∧ j = 0 ∧ k = 0) →
      g.get_neighbors_of c i j k
        = some (if (i, j, k) ∈ g.neighborhood_of then g.neighbor_segment c (i, j, k)
            else []) := by
    intro i j k hnz
    have hguard : ¬ (¬ map_has g.cell_process c ∨ map_find g.cell_process c ≠ some g.rank
        ∨ (i = 0 ∧ j = 0 ∧ k = 0)) := by
      rintro (h | h | h)
      · exact h hc.1
      · exact h hlocal
      · exact hnz h
    rw [get_neighbors_of_eq_fold g c i j k hguard (by omega), ← htemplate]
    obtain ⟨st, h1, h2⟩ := get_neighbors_of_traverse g c (g.index.get_refinement_level c)
      (by omega) i j k _ hlist (g.neighbor_segment c) g.neighborhood_of [] [] [] hstored
      hkeep hshape
    rw [List.length_nil] at h1
    rw [h1, Option.map_some', h2]
    simp only [List.nil_append]
  refine ⟨?_, ?_, hzero, ?_⟩
  · intro i j k ho
    have hnz := (hkeep _ ho).1
    have h := hrun i j k hnz
    rw [if_pos ho] at h
    exact ⟨by rw [h, (hspec _ ho).1], h, hlen _ ho⟩
  · intro i j k ho
    by_cases hnz : i = 0 ∧ j = 0 ∧ k = 0
    · rw [hnz.1, hnz.2.1, hnz.2.2]
      exact hzero c
    · have h := hrun i j k hnz
      rw [if_neg ho] at h
      exact h
  · intro cell i j k h
    unfold get_neighbors_of
    rcases h with h | h
    · rw [if_pos (Or.inl (by simp [h]))]
    · rw [if_pos (Or.inr (Or.inl h))]

end dccrg

namespace dccrg
open Index Dccrg
variable {UserData : Type}

end dccrg
namespace dccrg
open Index Dccrg
variable {UserData : Type}

/-- C17 (receive lists of the neighbor data update): after
`update_remote_neighbor_info ()` and
`recalculate_neighbor_update_send_receive_lists`, for every process `q` other than
the local one the vector `cells_to_receive[q]` (empty when the map has no entry for
`q`) is strictly ascending and holds exactly the cells owned by `q` that are an entry
other than 0 of `neighbors[c]` for a cell `c` of the local store without children.
So a remote neighbor `n` of a local leaf occurs exactly once in the vector of its
owner and in no other vector of `cells_to_receive`, whose keys are distinct. -/
theorem C17_receive_lists (g g1 g2 : Dccrg UserData)
    (h1 : g.update_remote_neighbor_info = some g1)
    (h2 : g1.recalculate_neighbor_update_send_receive_lists = some g2) :
    (∀ q, q ≠ g.rank →
      ((map_find g2.cells_to_receive q).getD []).Sorted (fun a b => a < b) ∧
      ∀ n, n ∈ (map_find g2.cells_to_receive q).getD [] ↔
        map_find g.cell_process n = some q ∧ n ≠ 0 ∧
        ∃ c ∈ map_keys g.cells, g.get_child c = c ∧
          ∃ l, map_find g.neighbors c = some l ∧ n ∈ l) ∧
    (map_keys g2.cells_to_receive).Nodup ∧
    ∀ c ∈ map_keys g.cells, g.get_child c = c →
      ∀ l, map_find g.neighbors c = some l → ∀ n ∈ l, n ≠ 0 →
        ∀ q, map_find g.cell_process n = some q → q ≠ g.rank →
          ((map_find g2.cells_to_receive q).getD []).count n = 1 ∧
          ∀ item ∈ g2.cells_to_receive, n ∈ item.2 → item.1 = q := by
  obtain ⟨⟨sets, e1⟩, u1, u2, _⟩ := update_remote_neighbor_info_spec g g1 h1
  unfold recalculate_neighbor_update_send_receive_lists at h2
  obtain ⟨acc, hacc, e2⟩ := Option.map_eq_some'.1 h2
  obtain ⟨_, nd, _, r⟩ := unique_cells_to_send_receive_spec g1 acc hacc
  obtain ⟨_, kd⟩ := unique_cells_to_send_receive_keys g1 acc hacc
  have hcp : g1.cell_process = g.cell_process := by rw [e1]
  have hnb : g1.neighbors = g.neighbors := by rw [e1]
  have hrk : g1.rank = g.rank := by rw [e1]
  have hrecv : g2.cells_to_receive = acc.2.map fun item => (item.1, sort_cells item.2) := by
    rw [← e2]
  have hfind : ∀ q, (map_find g2.cells_to_receive q).getD []
      = sort_cells ((map_find acc.2 q).getD []) := by
    intro q
    rw [hrecv, map_find_map_values]
    cases map_find acc.2 q with
    | none => simp [sort_cells]
    | some l => simp
  have hmem : ∀ q, q ≠ g.rank → ∀ n, n ∈ (map_find g2.cells_to_receive q).getD [] ↔
      map_find g.cell_process n = some q ∧ n ≠ 0 ∧
      ∃ c ∈ map_keys g.cells, g.get_child c = c ∧
        ∃ l, map_find g.neighbors c = some l ∧ n ∈ l := by
    intro q hq n
    rw [hfind, mem_sort_cells, r q n, hcp, hnb, hrk]
    constructor
    · rintro ⟨c, hc, l, hl, hn, hn0, ho, _⟩
      obtain ⟨hck, hcl, _⟩ := (u2 c).1 hc
      exact ⟨ho, hn0, c, hck, hcl, l, hl, hn⟩
    · rintro ⟨ho, hn0, c, hck, hcl, l, hl, hn⟩
      obtain ⟨lo, lt, hlo, hlt, _, _⟩ := u1 c hck hcl
      rw [hl] at hlo
      cases hlo
      exact ⟨c, (u2 c).2 ⟨hck, hcl, l, lt, hl, hlt, Or.inl ⟨n, hn, hn0, q, ho, hq⟩⟩,
        l, hl, hn, hn0, ho, hq⟩
  have hsorted : ∀ q, ((map_find g2.cells_to_receive q).getD []).Sorted
      (fun a b => a < b) := by
    intro q
    rw [hfind]
    exact sort_cells_strict _ (nd q)
  have hkeys : (map_keys g2.cells_to_receive).Nodup := by
    rw [hrecv, map_keys_map_values]
    exact kd
  refine ⟨fun q hq => ⟨hsorted q, hmem q hq⟩, hkeys, ?_⟩
  intro c hck hcl l hl n hn hn0 q ho hq
  constructor
  · exact List.count_eq_one_of_mem (hsorted q).nodup
      ((hmem q hq n).2 ⟨ho, hn0, c, hck, hcl, l, hl, hn⟩)
  · intro item hitem hin
    have hf := map_find_of_mem _ hkeys item.1 item.2 hitem
    have hin' : n ∈ (map_find g2.cells_to_receive item.1).getD [] := by
      rw [hf]
      exact hin
    rw [hfind, mem_sort_cells, r item.1 n, hcp] at hin'
    obtain ⟨_, _, _, _, _, _, ho', _⟩ := hin'
    rw [ho] at ho'
    cases ho'
    rfl

end dccrg
namespace dccrg
open Index Dccrg
variable {UserData : Type}

/-- C18 (the plan of `make_new_partition`): let `make_new_partition` return on all
processes, for pin tables with distinct keys, and let the processes named by the pin
tables after `update_pin_requests` and by Zoltan be non-negative.  On every process
(`me` is its rank, `pin_requests` the table after `update_pin_requests`):
a cell `c` is in `cells_to_send[r]` if and only if `r != me` and either the table maps
`c` to `r` and `me` owns `c`, or `c` has no pin, Zoltan was used and proposed to send
`c` to `r`; `c` is in `cells_to_receive[s]` if and only if `s != me` and either the
table maps `c` to `me` and `s` owns `c`, or `c` has no pin, Zoltan was used and
proposed to receive `c` from `s`; every vector is sorted ascending; and in the build
with `DCCRG_SEND_SINGLE_CELLS` every vector holds the same cells in the same order,
entry number `i` (counted from 0) with the tag `i + 1`. -/
theorem C18_partition_plan (w w' : World UserData) (use_zoltan : Bool)
    (balance : Nat → ZoltanBalance)
    (hkeys : ∀ g ∈ w, (map_keys g.pin_requests).Nodup)
    (hpins : ∀ g ∈ update_pin_requests w, ∀ item ∈ g.pin_requests, 0 ≤ item.2)
    (hbal : ∀ p, ∀ item ∈ (balance p).to_send ++ (balance p).to_receive, 0 ≤ item.2)
    (h : make_new_partition w use_zoltan balance = some w') :
    List.Forall₂ (fun (gu g' : Dccrg UserData) =>
      (g'.pin_requests = gu.pin_requests ∧ g'.cell_process = gu.cell_process ∧
        g'.rank = gu.rank) ∧
      (∀ r c, c ∈ (map_find g'.cells_to_send r).getD [] ↔
        r ≠ g'.rank ∧
        ((map_find g'.pin_requests c = some (r : Int) ∧
            map_find g'.cell_process c = some g'.rank) ∨
          (map_has g'.pin_requests c = false ∧ use_zoltan = true ∧
            (c, (r : Int)) ∈ (balance g'.rank).to_send))) ∧
      (∀ s c, c ∈ (map_find g'.cells_to_receive s).getD [] ↔
        s ≠ g'.rank ∧
        ((map_find g'.pin_requests c = some (g'.rank : Int) ∧
            map_find g'.cell_process c = some s) ∨
          (map_has g'.pin_requests c = false ∧ use_zoltan = true ∧
            (c, (s : Int)) ∈ (balance g'.rank).to_receive))) ∧
      (∀ r, ((map_find g'.cells_to_send r).getD []).Sorted (fun a b => a ≤ b)) ∧
      (∀ s, ((map_find g'.cells_to_receive s).getD []).Sorted (fun a b => a ≤ b)) ∧
      ∃ sends receives, gu.planned_sends use_zoltan (balance gu.rank) = some sends ∧
        gu.planned_receives use_zoltan (balance gu.rank) = some receives ∧
        (∀ r, (single_cell_list ((map_find sends.1 r).getD [])).length
            = ((map_find g'.cells_to_send r).getD []).length ∧
          ∀ (i cell : Nat), ((map_find g'.cells_to_send r).getD [])[i]? = some cell →
            i + 1 < 2 ^ 31 →
            (single_cell_list ((map_find sends.1 r).getD []))[i]?
              = some (cell, (i : Int) + 1)) ∧
        ∀ s, (single_cell_list ((map_find receives.1 s).getD [])).length
            = ((map_find g'.cells_to_receive s).getD []).length ∧
          ∀ (i cell : Nat), ((map_find g'.cells_to_receive s).getD [])[i]? = some cell →
            i + 1 < 2 ^ 31 →
            (single_cell_list ((map_find receives.1 s).getD []))[i]?
              = some (cell, (i : Int) + 1))
      (update_pin_requests w) w' := by
  unfold make_new_partition at h
  have hk := update_pin_requests_keys w hkeys
  refine forall₂_imp ?_ _ _ (forall₂_with_mem _ _ ((mapM_some_iff _ _ _).1 h))
  rintro gu g' ⟨⟨hgu, _⟩, hp⟩
  obtain ⟨⟨e1, e2, e3⟩, s1, s2, s3, s4, sends, receives, hs, hr, t1, t2⟩ :=
    plan_partition_lists gu g' use_zoltan (balance gu.rank) (hk gu hgu) (hpins gu hgu)
      (hbal gu.rank) hp
  have tag : ∀ i : Nat, i + 1 < 2 ^ 31 → to_int (i + 1) = (i : Int) + 1 := by
    intro i hi
    rw [to_int_of_lt hi]
    push_cast
    rfl
  have len : ∀ (pushed sorted : List Nat),
      (∀ i, (single_cell_list pushed)[i]? = (sorted[i]?).map fun cell =>
        (cell, to_int (i + 1))) →
      (single_cell_list pushed).length = sorted.length := by
    intro pushed sorted hh
    apply Nat.le_antisymm
    · by_contra hlt
      have h1 := hh sorted.length
      rw [List.getElem?_eq_none (le_refl _)] at h1
      rw [Option.map_none', List.getElem?_eq_none_iff] at h1
      exact hlt h1
    · by_contra hlt
      have h1 := hh (single_cell_list pushed).length
      rw [List.getElem?_eq_none (le_refl _)] at h1
      have h2 := h1.symm
      rw [Option.map_eq_none', List.getElem?_eq_none_iff] at h2
      exact hlt h2
  rw [e1, e2, e3]
  refine ⟨⟨rfl, rfl, rfl⟩, s1, s2, s3, s4, sends, receives, hs, hr, fun r => ⟨?_, ?_⟩,
    fun s => ⟨?_, ?_⟩⟩
  · exact len _ _ (t1 r)
  · intro i cell hc hi
    rw [t1 r i, hc, Option.map_some', tag i hi]
  · exact len _ _ (t2 s)
  · intro i cell hc hi
    rw [t2 s i, hc, Option.map_some', tag i hi]

end dccrg
namespace dccrg
open Index Dccrg
variable {UserData : Type}

/-- C19 (the last pin request decides): the claim fails.  On a single process that
holds the root cells 1 and 2, `pin (1, 0)` followed by `update_pin_requests` pins
cell 1 to process 0; after `unpin (1)` a second `pin (1, 0)` is the last request for
the cell, but it returns at the test "do nothing if the request already exists" and
leaves the pending unpin in `new_pin_requests`, so the next `update_pin_requests`
removes the pin of cell 1. -/
theorem C19_pin_after_unpin_is_lost :
    (update_pin_requests [example_grid.pin 1 0]).map (fun g => g.pin_requests) = [[(1, 0)]] ∧
    ((update_pin_requests [example_grid.pin 1 0]).map fun g =>
      ((g.unpin 1).pin 1 0).new_pin_requests) = [[(1, -1)]] ∧
    (update_pin_requests ((update_pin_requests [example_grid.pin 1 0]).map fun g =>
      (g.unpin 1).pin 1 0)).map (fun g => g.pin_requests) = [[]] := by
  decide

end dccrg
namespace dccrg
open Index Dccrg
variable {UserData : Type}

/-- C20 (pin is idempotent): for every state, cell and process, a second call of
`pin (cell, process)` right after the first leaves the state of the first call, in
every data member and so in `pin_requests` and `new_pin_requests`. -/
theorem C20_pin_idempotent (g : Dccrg UserData) (cell : Nat) (process : Int) :
    (g.pin cell process).pin cell process = g.pin cell process ∧
    ((g.pin cell process).pin cell process).pin_requests = (g.pin cell process).pin_requests ∧
    ((g.pin cell process).pin cell process).new_pin_requests
      = (g.pin cell process).new_pin_requests := by
  have key : (g.pin cell process).pin cell process = g.pin cell process := by
    by_cases h1 : map_has g.cell_process cell = true
    · by_cases h2 : map_find g.cell_process cell = some g.rank
      · by_cases h3 : cell = g.get_child cell
        · by_cases h4 : process < 0 ∨ process ≥ g.comm_size
          · have e : g.pin cell process = g := by
              simp only [pin, h1, h2, ← h3, h4]; simp
            rw [e, e]
          · by_cases h5 : map_has g.pin_requests cell = true ∧
                map_find g.pin_requests cell = some process
            · have e : g.pin cell process = g := by
                simp only [pin, h1, h2, ← h3, h4, h5]; simp
              rw [e, e]
            · have e : g.pin cell process
                  = { g with new_pin_requests := map_set g.new_pin_requests cell process } := by
                simp only [pin, h1, h2, ← h3, h4, h5]; simp
              rw [e]
              have h3' : cell = Dccrg.get_child
                  { g with new_pin_requests := map_set g.new_pin_requests cell process } cell := h3
              simp only [pin, h1, h2, ← h3', h4, h5]
              simp [map_set_idem]
        · have e : g.pin cell process = g := by
            simp only [pin, h1, h2, h3]; simp; intro h; exact absurd h h3
          rw [e, e]
      · have e : g.pin cell process = g := by
          simp only [pin, h1, h2]; simp; intro h; exact absurd h h2
        rw [e, e]
    · have e : g.pin cell process = g := by
        simp only [pin, h1]; simp
      rw [e, e]
  exact ⟨key, by rw [key], by rw [key]⟩

end dccrg
namespace dccrg

open Index Dccrg

/-- C21, evaluation of the code at the failing input: on a two-process world without any
pin request, `prepare_to_migrate_cells` plans the migration of cells 3 and 4 from
process 0 to process 1 (it runs `make_new_partition` with Zoltan), while the partition
step of `migrate_cells` itself, which the documentation of `prepare_to_migrate_cells`
refers to, leaves every cell where it is. -/
theorem C21_prepare_uses_zoltan :
    pin_tables example_deep1 = [([], []), ([], [])] ∧
    (prepare_to_migrate_cells example_deep1 example_balance).map migration_lists
      = some [([(1, [3, 4])], []), ([], [(0, [3, 4])])] ∧
    (prepare_to_migrate_cells example_deep1 example_balance).map migration_sets
      = some [([], [4, 3]), ([4, 3], [])] ∧
    (migrate_cells_partition example_deep1 false example_balance).map migration_lists
      = some [([], []), ([], [])] ∧
    (migrate_cells_partition example_deep1 false example_balance).map migration_sets
      = some [([], []), ([], [])] :=
  ⟨by decide!, by decide!, by decide!, by decide!, by decide!⟩

end dccrg
namespace dccrg
open Index Dccrg
variable {UserData : Type}

/-- C22 (one unrefine per sibling group): on a process whose ids fit in 64 bits and
whose directory satisfies the existence invariant, starting from empty request sets,
after any sequence of calls of `refine_completely`, `unrefine_completely` and
`dont_unrefine` that return: `cells_to_unrefine` has no duplicates; every cell `u` of it
is one of its siblings `get_all_children (get_parent (u))`, and of these siblings no
other one is in `cells_to_unrefine` and none (`u` included) is in `cells_to_refine` or
in `cells_not_to_unrefine`. -/
theorem C22_unrefines_one_per_sibling_group (g0 : Dccrg UserData)
    (hfit : g0.index.ids_fit) (hinv : g0.existence_invariant) (hempty : g0.no_pending)
    (requests : List Request) (g : Dccrg UserData)
    (h : g0.apply_requests requests = some g) :
    g.cells_to_unrefine.Nodup ∧
    ∀ u ∈ g.cells_to_unrefine,
      u ∈ g.get_all_children (g.get_parent u) ∧
      ∀ s ∈ g.get_all_children (g.get_parent u),
        (s ∈ g.cells_to_unrefine → s = u) ∧ s ∉ g.cells_to_refine ∧
        s ∉ g.cells_not_to_unrefine := by
  have h0 : g0.unrefines_exclusive := by
    unfold unrefines_exclusive
    rw [hempty.2.1]
    exact ⟨List.nodup_nil, fun u hu => absurd hu (List.not_mem_nil u)⟩
  obtain ⟨k, _⟩ := apply_requests_exclusive requests g0 g hfit hinv h0 h
  exact ⟨k.1, fun u hu => ⟨(k.2 u hu).2.1, (k.2 u hu).2.2⟩⟩

end dccrg
namespace dccrg
open Index Dccrg
variable {UserData : Type}

/-- C23 (effect of `refine_completely`): let `c` be a cell of the local store without
children whose neighbor lists `neighbors[c]` and `neighbors_to[c]` exist.  If the level
of `c` is below the maximum refinement level, `refine_completely (c)` returns and
afterwards `c` is in `cells_to_refine`, `cells_to_unrefine` holds no sibling of `c`
(no cell of `get_all_children (get_parent (c))`) and no sibling of a cell `n` of
`neighbors[c]` or `neighbors_to[c]` with `level n ≤ level c`, `cells_not_to_unrefine` is
unchanged, nothing is added to `cells_to_unrefine` and nothing but the three request
sets changes.  If the level of `c` is the maximum refinement level, the call changes
the state exactly as `dont_unrefine (c)` does and `cells_to_refine` is unchanged. -/
theorem C23_refine_completely_effect (g : Dccrg UserData) (c : Nat) (hc0 : c ≠ 0)
    (hc : map_has g.cell_process c = true) (hlocal : map_has g.cells c = true)
    (hleaf : c = g.get_child c) (neighbors_of neighbors_to : List Nat)
    (h1 : map_find g.neighbors c = some neighbors_of)
    (h2 : map_find g.neighbors_to c = some neighbors_to) :
    (g.index.get_refinement_level c < g.index.max_refinement_level →
      ∃ g', g.refine_completely c = some g' ∧
        c ∈ g'.cells_to_refine ∧
        (∀ x, x ∈ g'.cells_to_refine ↔ x ∈ g.cells_to_refine ∨ x = c) ∧
        (∀ s ∈ g.get_all_children (g.get_parent c), s ∉ g'.cells_to_unrefine) ∧
        (∀ n ∈ neighbors_of ++ neighbors_to,
          g.index.get_refinement_level n ≤ g.index.get_refinement_level c →
          ∀ s ∈ g.get_all_children (g.get_parent n), s ∉ g'.cells_to_unrefine) ∧
        (∀ x ∈ g'.cells_to_unrefine, x ∈ g.cells_to_unrefine) ∧
        g'.cells_not_to_unrefine = g.cells_not_to_unrefine ∧
        g.same_but_requests g') ∧
    (g.index.get_refinement_level c = g.index.max_refinement_level →
      g.refine_completely c = some (g.dont_unrefine c) ∧
      (g.dont_unrefine c).cells_to_refine = g.cells_to_refine) := by
  constructor
  · intro hlt
    have e : g.refine_completely c = some { g with
        cells_to_refine := set_insert g.cells_to_refine c
        cells_to_unrefine :=
          g.override_neighbor_unrefines (g.index.get_refinement_level c) neighbors_to
            (g.override_neighbor_unrefines (g.index.get_refinement_level c) neighbors_of
              (erase_unrefines g.cells_to_unrefine
                (g.get_all_children (g.get_parent c)))) } := by
      unfold refine_completely
      rw [if_neg (by unfold error_cell; exact hc0), if_neg (by simp [hc]),
        if_neg (by simp [hlocal])]
      simp only []
      rw [if_neg (by omega), if_neg (by simpa using hleaf), if_neg (by omega), h1, h2]
    refine ⟨_, e, ?_, ?_, ?_, ?_, ?_, rfl, rfl⟩
    · exact (mem_set_insert _ _ _).2 (Or.inr rfl)
    · intro x
      exact mem_set_insert _ _ _
    · intro s hs hmem
      have := ((mem_override_neighbor_unrefines_iff g _ _ _ s).1
        ((mem_override_neighbor_unrefines_iff g _ _ _ s).1 hmem).1).1
      exact ((mem_erase_unrefines_iff _ _ _).1 this).2 hs
    · intro n hn hl s hs hmem
      have a := (mem_override_neighbor_unrefines_iff g _ _ _ s).1 hmem
      rcases List.mem_append.1 hn with hn | hn
      · exact ((mem_override_neighbor_unrefines_iff g _ _ _ s).1 a.1).2 n hn hl hs
      · exact a.2 n hn hl hs
    · intro x hx
      exact mem_erase_unrefines (mem_override_neighbor_unrefines g _ _
        (mem_override_neighbor_unrefines g _ _ hx))
  · intro heq
    constructor
    · unfold refine_completely
      rw [if_neg (by unfold error_cell; exact hc0), if_neg (by simp [hc]),
        if_neg (by simp [hlocal])]
      simp only []
      rw [if_neg (by omega), if_neg (by simpa using hleaf), if_pos heq]
    · exact (dont_unrefine_spec g c).2.1

end dccrg

namespace dccrg
open Index Dccrg
variable {UserData : Type}

/-- C24 (requests for cells that are not local are ignored): in a directory that
satisfies the existence invariant, on a process whose local store holds only cells
that the directory assigns to it, `refine_completely`, `unrefine_completely`,
`dont_unrefine`, `pin` and `unpin` return without any change of the state (so
`cells_to_refine`, `cells_to_unrefine`, `cells_not_to_unrefine`, `pin_requests` and
`new_pin_requests` are unchanged) whenever the given id is 0, is not in the directory
or belongs to a cell that the directory assigns to another process. -/
theorem C24_requests_ignore_foreign_cells (g : Dccrg UserData)
    (hinv : g.existence_invariant) (hstore : g.local_store_ok) (cell : Nat) (process : Int)
    (h : cell = 0 ∨ map_has g.cell_process cell = false
      ∨ map_find g.cell_process cell ≠ some g.rank) :
    g.refine_completely cell = some g ∧ g.unrefine_completely cell = g ∧
    g.dont_unrefine cell = g ∧ g.pin cell process = g ∧ g.unpin cell = g := by
  have hzero : map_has g.cell_process 0 = false := by
    by_contra hc
    have := (hinv.1 0 ((mem_map_keys _ _).2 (by simpa using hc))).1
    omega
  have hcases : map_has g.cell_process cell = false ∨
      (map_has g.cell_process cell = true ∧ map_has g.cells cell = false ∧
        map_find g.cell_process cell ≠ some g.rank) := by
    rcases h with h | h | h
    · left; rw [h]; exact hzero
    · left; exact h
    · by_cases hd : map_has g.cell_process cell = true
      · right
        refine ⟨hd, ?_, h⟩
        by_contra hc
        exact h (hstore.1 cell ((mem_map_keys _ _).2 (by simpa using hc))).1
      · left; simpa using hd
  rcases hcases with hno | ⟨hd, hnl, hown⟩
  · refine ⟨?_, ?_, ?_, ?_, ?_⟩
    · unfold refine_completely
      split_ifs <;> simp_all
    · unfold unrefine_completely
      split_ifs <;> simp_all
    · unfold dont_unrefine
      split_ifs <;> simp_all
    · unfold pin
      rw [if_pos (by simp [hno])]
    · unfold unpin
      rw [if_pos (by simp [hno])]
  · refine ⟨?_, ?_, ?_, ?_, ?_⟩
    · unfold refine_completely
      split_ifs <;> simp_all
    · unfold unrefine_completely
      split_ifs <;> simp_all
    · unfold dont_unrefine
      split_ifs <;> simp_all
    · unfold pin
      rw [if_neg (by simp [hd]), if_pos hown]
    · unfold unpin
      rw [if_neg (by simp [hd]), if_pos hown]

end dccrg

namespace dccrg
open Index Dccrg

end dccrg
namespace dccrg
open Index Dccrg

/-- C26, counterexample: in the world `example_pin_prepared`, in which `execute_refines`
runs during `stop_refining`, cell 3 is in the unrefine set of both processes, it is the
first of the siblings `get_all_children (get_parent (3))`, the children of cell 1, and
the pin table maps it to process 0.  After `execute_refines` cell 3 has left the
directory and cell 1 is a leaf, but the pin table has no entry for cell 1. -/
theorem C26_parent_not_pinned :
    refines_prepared example_pin3 = some example_pin_prepared ∧
    stop_refining example_pin3 = some example_pin_result ∧
    (∀ gp ∈ example_pin_prepared, 3 ∈ gp.cells_to_unrefine ∧ gp.get_parent 3 = 1 ∧
      (gp.get_all_children (gp.get_parent 3)).head? = some 3 ∧
      map_find gp.pin_requests 3 = some 0) ∧
    ∀ r ∈ example_pin_result, map_has r.1.cell_process 3 = false ∧ r.1.is_leaf 1 ∧
      ¬ map_find r.1.pin_requests 1 = some 0 := by
  decide!

/-- C26, as amended (the parent inherits nothing): let `wp` be the world in which
`execute_refines` runs during `stop_refining`, after any requests made in a consistent
world without pending requests. For every process `gp` of `wp`, its state `r.1` after
`stop_refining` and every cell `u` of the unrefine set: `u` is one of the siblings
`get_all_children (get_parent (u))`; afterwards none of the siblings is in the
directory and `pin_requests`, `new_pin_requests` and `cell_weights` have no entry for
any of them; and the parent is still in the directory with the entries in
`pin_requests`, `new_pin_requests` and `cell_weights` that it had before the call. -/
theorem C26_unrefine_drops_pins {UserData : Type} [Inhabited UserData]
    (w0 w1 wp : World UserData) (requests : List (Nat × Request))
    (result : List (Dccrg UserData × List Nat))
    (hcons : consistent w0) (hnp : ∀ g ∈ w0, g.no_pending)
    (hreq : make_requests w0 requests = some w1) (hwp : refines_prepared w1 = some wp)
    (hstop : stop_refining w1 = some result) :
    List.Forall₂ (fun (gp : Dccrg UserData) (r : Dccrg UserData × List Nat) =>
      ∀ u ∈ gp.cells_to_unrefine,
        u ∈ gp.get_all_children (gp.get_parent u) ∧
        (∀ sibling ∈ gp.get_all_children (gp.get_parent u),
          map_has r.1.cell_process sibling = false ∧
          map_find r.1.pin_requests sibling = none ∧
          map_find r.1.new_pin_requests sibling = none ∧
          map_find r.1.cell_weights sibling = none) ∧
        map_has r.1.cell_process (gp.get_parent u) = true ∧
        map_find r.1.pin_requests (gp.get_parent u)
          = map_find gp.pin_requests (gp.get_parent u) ∧
        map_find r.1.new_pin_requests (gp.get_parent u)
          = map_find gp.new_pin_requests (gp.get_parent u) ∧
        map_find r.1.cell_weights (gp.get_parent u)
          = map_find gp.cell_weights (gp.get_parent u))
      wp result := by
  have hinv := consistent_grid_invariant w0 hcons hnp
  have hex : execute_refines wp = some result := by
    rw [stop_refining_eq, hwp] at hstop
    exact hstop
  obtain ⟨before, hb1, hb2⟩ := execute_refines_spec wp result hex
  obtain ⟨hcp, hleaves⟩ :=
    prepared_refines_leaves w0 w1 wp requests before hcons hnp hreq hwp hb1
  have r01 := forall₂_with_mem _ _ (make_requests_spec requests w0 w1 hreq)
  have hc1 : consistent w1 := consistent_of_same_but_requests w0 w1
    (forall₂_imp (fun _ _ h => h.2.1) _ _ r01) hcons
  obtain ⟨r1p, _, _⟩ := refines_prepared_spec w1 wp (fun g hg => (hc1.2.1 g hg).2.1.1)
    (fun g hg => (hc1.2.1 g hg).1) hwp
  have hCU : ∀ gp ∈ wp, ∀ u ∈ gp.cells_to_unrefine, map_has gp.cell_process u = true ∧
      gp.index.get_refinement_level u ≠ 0 ∧
      ∀ s ∈ gp.index.children_of (gp.index.get_parent_for_removed u),
        (∀ x ∈ gp.index.children_of s, map_has gp.cell_process x = false) ∧
        s ∉ gp.cells_to_refine := by
    intro gp hgp
    obtain ⟨g1, hg1, a2, _⟩ := forall₂_mem_right _ _ r1p gp hgp
    obtain ⟨g0, _, ⟨hg0, _⟩, a1, _⟩ := forall₂_mem_right _ _ r01 g1 hg1
    exact (prepared_unrefines_checked w0 w1 wp requests hinv hreq hwp g0 g1 gp hg0 hgp
      a1 a2).2.2
  have hpb := forall₂_with_mem _ _ hb1
  refine forall₂_comp ?_ _ _ _ hpb hb2
  rintro gp b r ⟨⟨hgp, _⟩, hb⟩ ⟨inc, _, haw, _⟩
  obtain ⟨_, hfit, hexi, _⟩ := hcp.2.1 gp hgp
  exact rank_unrefined_pins gp hfit hexi (hCU gp hgp)
    (fun c hc => ⟨(hleaves gp hgp c hc).1, (hleaves gp hgp c hc).2.1⟩) b hb inc r.1 haw

end dccrg
namespace dccrg
open Index Dccrg

/-- C27 (the directory after `execute_refines` does not depend on the process): let `g`
and `h` be two processes with the same `Index`, directories that map every cell alike
and refine and unrefine sets with the same cells, in a grid whose ids fit in 64 bits
and whose directory satisfies the existence invariant, where the cells of the refine
set are leaves of the directory and `unrefine_completely` has checked the cells of the
unrefine set.  Whatever their ranks, local stores, neighbor lists and received payloads
are, if `execute_refines` ends on both then the directories of both map every cell
alike afterwards. -/
theorem C27_directory_independent_of_rank {UserData : Type} [Inhabited UserData]
    (g h : Dccrg UserData) (hix : h.index = g.index)
    (hdir : ∀ x, map_find h.cell_process x = map_find g.cell_process x)
    (hrefine : ∀ x, x ∈ h.cells_to_refine ↔ x ∈ g.cells_to_refine)
    (hunrefine : ∀ x, x ∈ h.cells_to_unrefine ↔ x ∈ g.cells_to_unrefine)
    (hfit : g.index.ids_fit) (hinv : g.existence_invariant)
    (hCU : ∀ u ∈ g.cells_to_unrefine, map_has g.cell_process u = true ∧
      g.index.get_refinement_level u ≠ 0 ∧
      ∀ s ∈ g.index.children_of (g.index.get_parent_for_removed u),
        (∀ x ∈ g.index.children_of s, map_has g.cell_process x = false) ∧
        s ∉ g.cells_to_refine)
    (hleaf : ∀ c ∈ g.cells_to_refine, map_has g.cell_process c = true ∧
      ∀ x ∈ g.index.children_of c, map_has g.cell_process x = false)
    (bg : Dccrg UserData × List Nat × uset) (hbg : g.execute_refines_before_wait = some bg)
    (incoming_g : umap (List UserData)) (g' : Dccrg UserData)
    (hag : ({ bg.1 with incoming_data := incoming_g }).execute_refines_after_wait bg.2.2
      = some g')
    (bh : Dccrg UserData × List Nat × uset) (hbh : h.execute_refines_before_wait = some bh)
    (incoming_h : umap (List UserData)) (h' : Dccrg UserData)
    (hah : ({ bh.1 with incoming_data := incoming_h }).execute_refines_after_wait bh.2.2
      = some h') :
    ∀ x, map_find h'.cell_process x = map_find g'.cell_process x := by
  have hhas : ∀ c, map_has h.cell_process c = map_has g.cell_process c := by
    intro c; unfold map_has; rw [hdir]
  have hfit' : h.index.ids_fit := by rw [hix]; exact hfit
  have hinv' : h.existence_invariant := existence_invariant_congr hix hhas hinv
  have hCU' : ∀ u ∈ h.cells_to_unrefine, map_has h.cell_process u = true ∧
      h.index.get_refinement_level u ≠ 0 ∧
      ∀ s ∈ h.index.children_of (h.index.get_parent_for_removed u),
        (∀ x ∈ h.index.children_of s, map_has h.cell_process x = false) ∧
        s ∉ h.cells_to_refine := by
    intro u hu
    simp only [hix, hhas, hrefine]
    exact hCU u ((hunrefine u).1 hu)
  have hleaf' : ∀ c ∈ h.cells_to_refine, map_has h.cell_process c = true ∧
      ∀ x ∈ h.index.children_of c, map_has h.cell_process x = false := by
    intro c hc
    simp only [hix, hhas]
    exact hleaf c ((hrefine c).1 hc)
  intro x
  obtain ⟨G1, G2⟩ := rank_directory_value g hfit hinv hCU hleaf bg hbg incoming_g g' hag x
  obtain ⟨H1, H2⟩ := rank_directory_value h hfit' hinv' hCU' hleaf' bh hbh incoming_h h' hah x
  simp only [hix, hunrefine, hrefine, hdir] at H1 H2
  by_cases hu : ∃ u ∈ g.cells_to_unrefine,
      x ∈ g.index.children_of (g.index.get_parent_for_removed u)
  · rw [G1 hu, H1 hu]
  · obtain ⟨G3, G4⟩ := G2 hu
    obtain ⟨H3, H4⟩ := H2 hu
    by_cases hc : ∃ r ∈ g.cells_to_refine, x ∈ g.index.children_of r
    · obtain ⟨r, hr, hmem⟩ := hc
      rw [G3 r hr hmem, H3 r hr hmem]
    · have hno : ∀ r ∈ g.cells_to_refine, x ∉ g.index.children_of r :=
        fun r hr hmem => hc ⟨r, hr, hmem⟩
      rw [G4 hno, H4 hno]

end dccrg
namespace dccrg
open Index

/-- C28 (`set_length` and the overflow of the ids): `set_length (2^32, 2^32 + 1, 1)` on
the `Index` that the constructor creates (maximum refinement level 0) returns true and
sets `grid_length` and `last_cell` to `2^32`, although the grid has `2^64 + 2^32` cells,
more than `2^64 - 1`: the check for too many unrefined cells adds `double (x_length)`
three times and the product of the lengths is taken modulo `2^64`.  The other half of
the claim holds: whenever `set_length` returns false the `Index` is unchanged. -/
theorem C28_set_length_accepts_overflow :
    default_index.set_length (2 ^ 32) (2 ^ 32 + 1) 1
      = some (⟨2 ^ 32, 2 ^ 32 + 1, 1, 2 ^ 32, 0, 2 ^ 32⟩, true) ∧
    2 ^ 64 - 1 < ids_below (2 ^ 32 * (2 ^ 32 + 1) * 1) (0 + 1) ∧
    ∀ (ix ix' : Index) (x y z : Nat), ix.set_length x y z = some (ix', false) → ix' = ix :=
  ⟨by decide!, by decide!, set_length_false_unchanged⟩

end dccrg
namespace dccrg
open Index

/-- C29 (`get_maximum_possible_refinement_level` rounds): for a grid of
`2049638230412172402` root cells, as `set_length (2049638230412172402, 1, 1)` sets it
up, the function returns 1, although the ids of the levels 0 and 1 number `2^64 + 2`
and only level 0 fits in 64 bits: the sum is computed in `double`, where it rounds to
`2^64 = double (2^64 - 1)`.  With that maximum refinement level `last_cell` wraps
around to 2. -/
theorem C29_maximum_possible_too_large :
    default_index.set_length 2049638230412172402 1 1 = some (example_wide_index, true) ∧
    example_wide_index.get_maximum_possible_refinement_level = some 1 ∧
    ids_below example_wide_index.grid_length (0 + 1) ≤ 2 ^ 64 - 1 ∧
    2 ^ 64 - 1 < ids_below example_wide_index.grid_length (1 + 1) ∧
    (example_wide_index.set_maximum_refinement_level 1 1).1.last_cell = 2 := by
  refine ⟨by decide!, by decide!, by decide!, by decide!, by decide!⟩

end dccrg
namespace dccrg
open Index Dccrg

/-- C30, counterexample: in the grid `example_mixed` the local leaf 4 gets the lists
`neighbors[4] = [0, 0, 3, 2, 8, 12]` and `neighbors_to[4] = [3, 2, 8, 12]` from
`update_neighbors (4)`: every cell of `neighbors_to[4]` also occurs in `neighbors[4]`. -/
theorem C30_neighbors_to_overlaps :
    (example_mixed.is_leaf 4 ∧ map_find example_mixed.cell_process 4 = some example_mixed.rank) ∧
    example_mixed.find_neighbors_of 4 1 false = [0, 0, 3, 2, 8, 12] ∧
    example_mixed.find_neighbors_to_from 4 [0, 0, 3, 2, 8, 12] = [3, 2, 8, 12] ∧
    (example_mixed.update_neighbors 4).map
        (fun g => (map_find g.neighbors 4, map_find g.neighbors_to 4))
      = some (some [0, 0, 3, 2, 8, 12], some [3, 2, 8, 12]) ∧
    ¬ ∀ n ∈ [3, 2, 8, 12], n ∉ [0, 0, 3, 2, 8, 12] :=
  ⟨by decide!, by decide!, by decide!, by decide!, by decide!⟩

/-- C30, as amended (`neighbors_to` also holds cells of `neighbors`): in a grid whose ids
fit in 64 bits, whose directory satisfies the existence invariant, whose
`neighborhood_of` is the one that `initialize` builds for the neighbourhood size, with
the negated items as `neighborhood_to`, and whose shifted indices do not overflow, let
`update_neighbors (c)` set the lists of a local leaf `c`.  Then `neighbors[c]` is
`find_neighbors_of (c)` and `neighbors_to[c]` is `find_neighbors_to (c, neighbors[c])`;
`neighbors_to[c]` holds no cell twice and holds only leaves that have `c` in their
`find_neighbors_of`, whether `c` lists them or not: every cell `n` other than 0 of
`neighbors[c]` with `is_neighbor (n, c)` is in `neighbors_to[c]`, and the cells of
`neighbors_to[c]` that are not in `neighbors[c]` are one level above `c`. -/
theorem C30_neighbors_to_after_update {UserData : Type} (g : Dccrg UserData)
    (hfit : g.index.ids_fit) (hinv : g.existence_invariant) (hreach : g.reach_fits)
    (hof : g.neighborhood_of = make_neighborhood_of g.neighborhood_size)
    (hto : g.neighborhood_to = g.neighborhood_of.map fun o => (-o.1, -o.2.1, -o.2.2))
    (c : Nat) (hc : g.is_leaf c) (hlocal : map_find g.cell_process c = some g.rank)
    (g' : Dccrg UserData) (h : g.update_neighbors c = some g') :
    ∃ neighbors_of neighbors_to,
      map_find g'.neighbors c = some neighbors_of ∧
      map_find g'.neighbors_to c = some neighbors_to ∧
      neighbors_of = g.find_neighbors_of c 1 false ∧
      neighbors_to = g.find_neighbors_to_from c neighbors_of ∧
      neighbors_to.Nodup ∧
      (∀ n ∈ neighbors_to, g.is_leaf n ∧ c ∈ g.find_neighbors_of n 1 false) ∧
      (∀ n ∈ neighbors_of, n ≠ 0 → g.is_neighbor n c = true → n ∈ neighbors_to) ∧
      ∀ n ∈ neighbors_to, n ∉ neighbors_of →
        g.index.get_refinement_level n = g.index.get_refinement_level c - 1 := by
  unfold update_neighbors at h
  rw [if_neg (by simp [hc.1]), if_neg (by simp [hlocal]), if_neg (by simp [hc.2])] at h
  split_ifs at h
  simp only [Option.some.injEq] at h
  subst h
  obtain ⟨k1, k2, k3⟩ := find_neighbors_to_from_spec g hfit hinv hreach hto c hc
    (g.find_neighbors_of c 1 false)
  refine ⟨_, _, ?_, ?_, rfl, rfl, k1, ?_, k2, ?_⟩
  · simp only [map_find_set, if_true]
  · simp only [map_find_set, if_true]
  · intro n hn
    rcases k3 n hn with ⟨m1, m2, m3⟩ | ⟨m1, _, m3⟩
    · have hleaf := find_neighbors_of_entry_leaf g hfit hinv hreach n c m1 m2
      have hsee := (mem_find_neighbors_of_iff_sees g hfit hinv hreach n c hleaf hc).1 m1
      refine ⟨hleaf, (mem_find_neighbors_of_iff_sees g hfit hinv hreach c n hc hleaf).2 ?_⟩
      by_cases hne : n = c
      · rw [hne] at hsee ⊢
        exact hsee
      · exact sees_of_is_neighbor g hfit hinv hreach hof n c hleaf hc hsee.1 hne m3
    · exact ⟨m1, m3⟩
  · intro n hn hno
    rcases k3 n hn with ⟨m1, _, _⟩ | ⟨_, m2, _⟩
    · exact absurd m1 hno
    · exact m2

end dccrg
namespace dccrg
open Index Dccrg

/-- C31 (the directory after construction, without `USE_SFC`): for a grid of `G` root
cells and a communicator of `P >= 1` processes the loop of `initialize` creates a
directory whose ids are exactly `1, ..., G`, every id once and with a rank below `P` as
owner; the owners do not descend with the ids, so that every rank owns a contiguous
block of ids and the blocks ascend in rank order; every rank owns `ceil (G / P)` or
`ceil (G / P) - 1` cells; and `cell_to_create` ends as `grid_length + 1`, which is the
assertion of `initialize`.  For the 64 root cells of a 4 x 4 x 4 grid on 2 ranks each
rank owns 32 cells. -/
theorem C31_initial_directory_blocks {UserData : Type} [Inhabited UserData]
    (P rank G : Nat) (hP : 1 ≤ P) (hint : P < 2 ^ 31) (hG : G < 2 ^ 64) :
    map_keys (create_unrefined_cells P rank G : umap Nat × umap UserData × Nat).1
      = (List.range G).map (fun i => i + 1) ∧
    (∀ c p, map_find (create_unrefined_cells P rank G : umap Nat × umap UserData × Nat).1
      c = some p → p < P) ∧
    (∀ c c' p p',
      map_find (create_unrefined_cells P rank G : umap Nat × umap UserData × Nat).1 c
        = some p →
      map_find (create_unrefined_cells P rank G : umap Nat × umap UserData × Nat).1 c'
        = some p' →
      c ≤ c' → p ≤ p') ∧
    (∀ p < P,
      cells_owned (create_unrefined_cells P rank G : umap Nat × umap UserData × Nat).1 p
        = (G + P - 1) / P ∨
      cells_owned (create_unrefined_cells P rank G : umap Nat × umap UserData × Nat).1 p
        = (G + P - 1) / P - 1) ∧
    (create_unrefined_cells P rank G : umap Nat × umap UserData × Nat).2.2 = u64 (G + 1) ∧
    cells_owned (create_unrefined_cells 2 0 (4 * 4 * 4) : umap Nat × umap Nat × Nat).1 0
      = 32 ∧
    cells_owned (create_unrefined_cells 2 0 (4 * 4 * 4) : umap Nat × umap Nat × Nat).1 1
      = 32 := by
  obtain ⟨count, h1, h2, h3, h4⟩ := @create_unrefined_cells_blocks UserData _ P rank G
    (lt_trans hint (by norm_num)) hP hG
  rw [h1, h2]
  refine ⟨?_, ?_, ?_, ?_, rfl, by decide!, by decide!⟩
  · rw [block_list_keys, h3]
    apply List.map_congr_left
    intro i _
    omega
  · intro c p hf
    have := (mem_block_list count _ _ _ (mem_of_map_find _ _ _ hf)).1
    exact List.mem_range.1 this
  · intro c c' p p' hf hf' hcc
    have hpw := block_list_pairwise count (List.range P) 0 (List.pairwise_lt_range P)
    rcases pairwise_mem_cases _ _ hpw _ (mem_of_map_find _ _ _ hf) _
      (mem_of_map_find _ _ _ hf') with h | h | h
    · simp only [Prod.mk.injEq] at h
      omega
    · exact h.2
    · have := h.1
      simp only at this
      omega
  · intro p hp
    rw [block_list_owned count _ _ p (List.nodup_range P), if_pos (List.mem_range.2 hp)]
    exact h4 p hp

end dccrg
namespace dccrg
open Index Dccrg

/-- C32 (`find_neighbors_of` in an unrefined grid): in a grid that is not periodic, whose
ids fit in 64 bits and whose directory holds exactly the root cells `1 .. grid_length`,
`find_neighbors_of (c)` of a root cell `c` has exactly one entry per item of the
neighbourhood, in the order of the items: the id of the root cell at that offset from
`c`, or 0 when the offset leaves the grid.  With the neighbourhood of size 1 and at
least 2 root cells in every dimension a corner cell gets 26 entries, of which exactly 7
are not 0 and 19 are 0. -/
theorem C32_unrefined_neighbors {UserData : Type} (g : Dccrg UserData)
    (hfit : g.index.ids_fit) (hinv : g.existence_invariant) (hreach : g.reach_fits)
    (hper : g.periodic = (false, false, false))
    (hunref : ∀ n ∈ map_keys g.cell_process, n ≤ g.index.grid_length)
    (c : Nat) (h1 : 1 ≤ c) (h2 : c ≤ g.index.grid_length) :
    g.find_neighbors_of c 1 false = g.neighborhood_of.map (g.index.root_neighbor c) ∧
    (g.find_neighbors_of c 1 false).length = g.neighborhood_of.length ∧
    (g.neighborhood_of = make_neighborhood_of 1 → 2 ≤ g.index.x_length →
      2 ≤ g.index.y_length → 2 ≤ g.index.z_length → g.index.is_corner c →
      (g.find_neighbors_of c 1 false).length = 26 ∧
      ((g.find_neighbors_of c 1 false).filter fun n => n != 0).length = 7 ∧
      ((g.find_neighbors_of c 1 false).filter fun n => n == 0).length = 19) := by
  have hc : map_has g.cell_process c = true := hinv.2.1 c (by omega) h1
  have main := find_neighbors_of_unrefined g hfit hinv hreach hper hunref c hc
  refine ⟨main, by rw [main, List.length_map], ?_⟩
  intro hnb hx hy hz hcorner
  rw [main, hnb]
  exact corner_entries g.index c hx hy hz hcorner

end dccrg
namespace dccrg
open Dccrg

/-- C33, counterexample: on process 7 with `processes_per_part = [12, 6]` the call
`get_part_number (1)` returns 1 (7 / 12 = 0 with remainder 7, then 7 / 6 = 1), while
7 divided by the product 12 * 6 is 0. -/
theorem C33_part_number_not_quotient :
    example_hierarchy.rank = 7 ∧ example_hierarchy.processes_per_part = [12, 6] ∧
    example_hierarchy.get_part_number 1 = some 1 ∧
    part_number_by_product 7 [12, 6] 1 = 0 ∧
    example_hierarchy.get_part_number 1
      ≠ some (part_number_by_product example_hierarchy.rank
          example_hierarchy.processes_per_part 1) :=
  ⟨by decide!, by decide!, by decide!, by decide!, by decide!⟩

/-- C33, as amended (the rank is reduced modulo the sizes of the levels above): for
every rank, every list `processes_per_part` of positive integers and every valid level
`l`, `get_part_number` returns the quotient of `rank mod processes_per_part[0] mod ...
mod processes_per_part[l - 1]` by `processes_per_part[l]`; on level 0 this is the rank
divided by `processes_per_part[0]`, the value of the product formula. -/
theorem C33_part_number_of_remainder {UserData : Type} (g : Dccrg UserData) (l : Nat)
    (hl : l < g.processes_per_part.length)
    (hpos : ∀ p ∈ g.processes_per_part, 0 < p) :
    g.get_part_number (l : Int)
      = some ((g.processes_per_part.take l).foldl (fun process p => process % p) g.rank
          / g.processes_per_part.getD l 0) ∧
    (l = 0 → g.get_part_number (l : Int)
      = some (part_number_by_product g.rank g.processes_per_part 0)) := by
  have main : g.get_part_number (l : Int)
      = some ((g.processes_per_part.take l).foldl (fun process p => process % p) g.rank
          / g.processes_per_part.getD l 0) := by
    unfold get_part_number
    rw [if_neg (by omega)]
    simp only [Int.toNat_ofNat]
    rw [part_number_loop g.processes_per_part g.rank l hl]
  refine ⟨main, ?_⟩
  intro h0
  subst h0
  rw [main]
  unfold part_number_by_product
  cases hp : g.processes_per_part with
  | nil => rw [hp] at hl; simp at hl
  | cons a t => simp

end dccrg
namespace dccrg
open Index Dccrg

/-- C34 (`get_siblings` of a cell that is not in the directory): in `example_grid`
(2 x 1 x 1 root cells, maximum refinement level 1, directory `{1, 2}`) the id 3 is a
valid id of level 1 whose parent position holds the ids `[3, 4, 7, 8, 11, 12, 15, 16]`,
but `get_siblings (3)` returns the empty list: `get_parent` returns 0 for a cell that
is not in the directory and `get_all_children (0)` is empty.  In general `get_siblings`
returns nothing for every id above level 0 that is not in the directory.  The rest of
the claim holds: for an id of level 0 the result is `[c]`, for an id without a valid
level it is empty, and for a cell of the directory whose parent is in the directory it
is the list of the 8 ids at the parent position in the order of `get_all_children`,
whether or not the other 7 are in the directory. -/
theorem C34_siblings_of_absent_cell :
    (1 ≤ 3 ∧ 3 ≤ example_grid.index.last_cell ∧
      example_grid.index.get_refinement_level 3 = 1 ∧
      map_has example_grid.cell_process 3 = false ∧
      example_grid.index.children_of (example_grid.index.get_parent_for_removed 3)
        = [3, 4, 7, 8, 11, 12, 15, 16] ∧
      example_grid.get_siblings 3 = []) ∧
    (∀ (UserData : Type) (g : Dccrg UserData) (c : Nat), map_has g.cell_process c = false →
      g.index.get_refinement_level c ≠ 0 → g.get_siblings c = []) ∧
    (∀ (UserData : Type) (g : Dccrg UserData) (c : Nat), g.index.get_refinement_level c = 0 →
      0 ≤ g.index.max_refinement_level → g.get_siblings c = [c]) ∧
    (∀ (UserData : Type) (g : Dccrg UserData) (c : Nat), (g.index.get_refinement_level c < 0 ∨
      g.index.get_refinement_level c > g.index.max_refinement_level) →
      g.get_siblings c = []) ∧
    (∀ (UserData : Type) (g : Dccrg UserData) (c : Nat), map_has g.cell_process 0 = false →
      map_has g.cell_process c = true →
      0 < g.index.get_refinement_level c →
      g.index.get_refinement_level c ≤ g.index.max_refinement_level →
      map_has g.cell_process (g.index.get_parent_for_removed c) = true →
      g.get_siblings c = g.index.children_of (g.index.get_parent_for_removed c)) := by
  refine ⟨⟨by decide!, by decide!, by decide!, by decide!, by decide!, by decide!⟩,
    ?_, ?_, ?_, ?_⟩
  · intro _ g c hc hl
    unfold get_siblings
    simp only
    split_ifs with h1
    · rfl
    · unfold get_parent
      rw [if_pos (by simp [hc])]
      unfold get_all_children
      exact if_pos rfl
  · intro _ g c hl hm
    unfold get_siblings
    simp only
    rw [if_neg (by omega), if_pos hl]
  · intro _ g c hl
    unfold get_siblings
    simp only
    rw [if_pos hl]
  · intro _ g c h0 hc hl hm hp
    have hpar : g.index.get_parent_for_removed c
        = g.index.get_cell_from_indices (g.index.get_indices c)
          (g.index.get_refinement_level c - 1) := by
      unfold get_parent_for_removed
      simp only
      rw [if_neg (by omega), if_neg (by omega)]
    have hget : g.get_parent c = g.index.get_parent_for_removed c := by
      unfold get_parent
      rw [if_neg (by simp [hc]), if_neg (by omega)]
      simp only
      rw [← hpar, if_pos hp]
    unfold get_siblings
    simp only
    rw [if_neg (by omega), if_neg (by omega), hget]
    have hne : g.index.get_parent_for_removed c ≠ error_cell := by
      intro he
      rw [he] at hp
      have : map_has g.cell_process 0 = true := hp
      rw [h0] at this
      exact Bool.noConfusion this
    unfold get_all_children children_of
    rw [if_neg hne, if_neg (by simp [hp])]

end dccrg
namespace dccrg
open Index Dccrg

/-- C35 (the fast path of `find_neighbors_to`): in a grid whose ids fit in 64 bits, whose
directory satisfies the existence invariant, whose `neighborhood_of` is the one that
`initialize` builds for the neighbourhood size, with the negated items as
`neighborhood_to`, and whose shifted indices do not overflow, for every leaf `c` the
fast path `find_neighbors_to (c, find_neighbors_of (c))` and the slow path
`find_neighbors_to (c)` return the same set of cells; neither list holds a cell twice,
so that the lists are equal after sorting, which is what `verify_neighbors` compares. -/
theorem C35_fast_path_is_slow_path {UserData : Type} (g : Dccrg UserData)
    (hfit : g.index.ids_fit) (hinv : g.existence_invariant) (hreach : g.reach_fits)
    (hof : g.neighborhood_of = make_neighborhood_of g.neighborhood_size)
    (hto : g.neighborhood_to = g.neighborhood_of.map fun o => (-o.1, -o.2.1, -o.2.2))
    (c : Nat) (hc : g.is_leaf c) :
    (∀ n, n ∈ g.find_neighbors_to_from c (g.find_neighbors_of c 1 false)
      ↔ n ∈ g.find_neighbors_to c) ∧
    (g.find_neighbors_to_from c (g.find_neighbors_of c 1 false)).Nodup ∧
    (g.find_neighbors_to c).Nodup ∧
    (g.find_neighbors_to_from c (g.find_neighbors_of c 1 false)).Perm
      (g.find_neighbors_to c) := by
  obtain ⟨k1, k2, k3⟩ := find_neighbors_to_from_spec g hfit hinv hreach hto c hc
    (g.find_neighbors_of c 1 false)
  have hiff : ∀ n, n ∈ g.find_neighbors_to_from c (g.find_neighbors_of c 1 false)
      ↔ n ∈ g.find_neighbors_to c := by
    intro n
    constructor
    · intro hn
      rcases k3 n hn with ⟨m1, m2, m3⟩ | ⟨m1, _, m3⟩
      · have hleaf := find_neighbors_of_entry_leaf g hfit hinv hreach n c m1 m2
        have hsee := (mem_find_neighbors_of_iff_sees g hfit hinv hreach n c hleaf hc).1 m1
        apply mem_find_neighbors_to_of_sees g hfit hinv hreach hto c n hc hleaf
        by_cases hne : n = c
        · rw [hne] at hsee ⊢
          exact hsee
        · exact sees_of_is_neighbor g hfit hinv hreach hof n c hleaf hc hsee.1 hne m3
      · exact mem_find_neighbors_to_of_sees g hfit hinv hreach hto c n hc m1
          ((mem_find_neighbors_of_iff_sees g hfit hinv hreach c n hc m1).1 m3)
    · intro hn
      have h0 := find_neighbors_to_entry_ne_zero g hfit hinv hreach hto c n hc hn
      have hleaf := find_neighbors_to_entry_leaf g c n hn h0
      have hsee := sees_of_mem_find_neighbors_to g hfit hinv hreach hto c n hc hn
      rcases find_neighbors_to_parts g hfit hinv hreach hto c n hc hn with
        ⟨p1, p2, _⟩ | hlev
      · obtain ⟨_, ⟨c1, c2⟩, _⟩ := cell_facts g hfit hinv hc.1
        rw [find_neighbors_to_from_eq g c hc c1 c2, mem_set_insert_range]
        right
        apply List.mem_append_right
        rw [if_pos p1]
        exact p2
      · have hnc := is_neighbor_of_sees g hfit hinv hreach hof n c hleaf.1 hc.1 hsee
        apply k2 n ?_ h0 hnc
        obtain ⟨F, _, ln, hln, hlvn, hsn, _⟩ := cell_facts g hfit hinv hleaf.1
        obtain ⟨_, _, lc, hlc, hlvc, hsc, _⟩ := cell_facts g hfit hinv hc.1
        have hsize : g.index.get_cell_size_in_indices n
            ≤ g.index.get_cell_size_in_indices c := by
          rw [hsn, hsc]
          apply Nat.pow_le_pow_right (by norm_num)
          rw [hlvn, hlvc] at hlev
          omega
        have hcn := is_neighbor_symm g hfit hinv hreach hof n c hleaf.1 hc.1 hsize hnc
        apply mem_find_neighbors_of_of_sees g hfit hinv hreach n c hleaf hc
        by_cases hne : c = n
        · rw [← hne] at hsee ⊢
          exact hsee
        · refine sees_of_is_neighbor g hfit hinv hreach hof c n hc hleaf ?_ hne hcn
          have := hsee.1
          omega
  have hnd := find_neighbors_to_nodup g c
  exact ⟨hiff, k1, hnd, (List.perm_ext_iff_of_nodup k1 hnd).2 hiff⟩

end dccrg
namespace dccrg
open Index Dccrg

/-- C36 (`get_existing_cell` finds the smallest covering cell): in a grid whose ids fit
in 64 bits and whose directory holds cell ids only (not the error cell 0), let the
directory be closed under parents at the in-grid index triple `indices`: with the cell
of a level `r` that covers `indices` it holds the covering cells of all levels below
`r`.  Then for all levels `0 <= lo <= hi <= R`, `get_existing_cell (indices, lo, hi)`
returns `get_cell_from_indices (indices, m)` for the greatest level `m` of `[lo, hi]`
whose covering cell is in the directory, and 0 when there is no such level.  For every
index triple with an index outside of the grid and for every range with `lo > hi` the
result is 0, and the recursion ends for every input: its depth is at most
`hi - lo + 1`, every fuel of at least that number gives the result of
`get_existing_cell`. -/
theorem C36_get_existing_cell_greatest {UserData : Type} (g : Dccrg UserData)
    (hfit : g.index.ids_fit) (h00 : map_has g.cell_process error_cell = false)
    (indices : indices_t)
    (h0 : indices.1 < g.index.x_length * 2 ^ g.index.max_refinement_level.toNat)
    (h1 : indices.2.1 < g.index.y_length * 2 ^ g.index.max_refinement_level.toNat)
    (h2 : indices.2.2 < g.index.z_length * 2 ^ g.index.max_refinement_level.toNat)
    (lo hi : Nat) (hlh : lo ≤ hi) (hR : (hi : Int) ≤ g.index.max_refinement_level)
    (hclosed : ∀ r r' : Nat, r' ≤ r → (r : Int) ≤ g.index.max_refinement_level →
      map_has g.cell_process (g.index.get_cell_from_indices indices (r : Int)) = true →
      map_has g.cell_process (g.index.get_cell_from_indices indices (r' : Int)) = true) :
    (∀ m : Nat, lo ≤ m → m ≤ hi →
      map_has g.cell_process (g.index.get_cell_from_indices indices (m : Int)) = true →
      (∀ m' : Nat, m < m' → m' ≤ hi →
        map_has g.cell_process (g.index.get_cell_from_indices indices (m' : Int)) = false) →
      g.get_existing_cell indices (lo : Int) (hi : Int)
        = g.index.get_cell_from_indices indices (m : Int)) ∧
    ((∀ m : Nat, lo ≤ m → m ≤ hi →
      map_has g.cell_process (g.index.get_cell_from_indices indices (m : Int)) = false) →
      g.get_existing_cell indices (lo : Int) (hi : Int) = 0) ∧
    (∀ (outside : indices_t) (lo' hi' : Int),
      (g.index.x_length * 2 ^ g.index.max_refinement_level.toNat ≤ outside.1 ∨
        g.index.y_length * 2 ^ g.index.max_refinement_level.toNat ≤ outside.2.1 ∨
        g.index.z_length * 2 ^ g.index.max_refinement_level.toNat ≤ outside.2.2) →
      g.get_existing_cell outside lo' hi' = 0) ∧
    (∀ (any : indices_t) (lo' hi' : Int), lo' > hi' →
      g.get_existing_cell any lo' hi' = 0) ∧
    (∀ (any : indices_t) (lo' hi' : Int) (fuel : Nat), hi' - lo' + 1 ≤ (fuel : Int) →
      g.get_existing_cell_loop any fuel lo' hi' = g.get_existing_cell any lo' hi') := by
  have F := Fit.of_index_lt hfit h0 h1 h2
  refine ⟨?_, ?_, ?_, ?_, ?_⟩
  · intro m hm1 hm2 hex hno
    unfold get_existing_cell
    refine get_existing_cell_loop_exact g F h00 h0 h1 h2 _ _ _ _ (by omega) (by omega)
      (by omega) (by omega) ?_ ?_
    · intro r' a b
      obtain ⟨k, rfl⟩ := Int.eq_ofNat_of_zero_le (show 0 ≤ r' by omega)
      exact hclosed m k (by omega) (by omega) hex
    · intro r' a b
      obtain ⟨k, rfl⟩ := Int.eq_ofNat_of_zero_le (show 0 ≤ r' by omega)
      exact hno k (by omega) (by omega)
  · intro hno
    unfold get_existing_cell
    apply get_existing_cell_loop_none
    intro r a b
    obtain ⟨k, rfl⟩ := Int.eq_ofNat_of_zero_le (show 0 ≤ r by omega)
    exact hno k (by omega) (by omega)
  · intro outside lo' hi' hout
    exact get_existing_cell_loop_outside g F outside _ lo' hi' hout
  · intro any lo' hi' h
    exact get_existing_cell_loop_empty g any _ lo' hi' h
  · intro any lo' hi' fuel hf
    unfold get_existing_cell
    exact get_existing_cell_loop_fuel g any (hi' - lo' + 1).toNat _ _ lo' hi' (by omega)
      hf (by omega)

end dccrg
namespace dccrg
open Index Dccrg

/-- C37 (the assertions of `verify_remote_neighbor_info` hold): in a grid whose ids fit
in 64 bits, whose directory satisfies the existence invariant, whose `neighborhood_of`
is the one that `initialize` builds for the neighbourhood size (0 included), with the
negated items as `neighborhood_to`, and whose shifted indices do not overflow, for every
leaf `c` and whatever dimensions are periodic: `is_neighbor (c, n)` is true for every
entry `n` other than 0 of `find_neighbors_of (c)`, and `is_neighbor (n, c)` is true for
every entry `n` of `find_neighbors_to (c)`, none of which is 0. -/
theorem C37_neighbor_lists_are_neighbors {UserData : Type} (g : Dccrg UserData)
    (hfit : g.index.ids_fit) (hinv : g.existence_invariant) (hreach : g.reach_fits)
    (hof : g.neighborhood_of = make_neighborhood_of g.neighborhood_size)
    (hto : g.neighborhood_to = g.neighborhood_of.map fun o => (-o.1, -o.2.1, -o.2.2))
    (c : Nat) (hc : g.is_leaf c) :
    (∀ n ∈ g.find_neighbors_of c 1 false, n ≠ 0 → g.is_neighbor c n = true) ∧
    (∀ n ∈ g.find_neighbors_to c, n ≠ 0 ∧ g.is_neighbor n c = true) := by
  constructor
  · intro n hn h0
    have hleaf := find_neighbors_of_entry_leaf g hfit hinv hreach n c hn h0
    have hsee := (mem_find_neighbors_of_iff_sees g hfit hinv hreach n c hleaf hc).1 hn
    exact is_neighbor_of_sees g hfit hinv hreach hof c n hc.1 hleaf.1 hsee
  · intro n hn
    have h0 := find_neighbors_to_entry_ne_zero g hfit hinv hreach hto c n hc hn
    have hleaf := find_neighbors_to_entry_leaf g c n hn h0
    have hsee := sees_of_mem_find_neighbors_to g hfit hinv hreach hto c n hc hn
    exact ⟨h0, is_neighbor_of_sees g hfit hinv hreach hof n c hleaf.1 hc.1 hsee⟩

end dccrg
namespace dccrg
open Index Dccrg
variable {UserData : Type}

/-- C38: after `induce_refines` has returned, `cells_to_refine` is closed under the 2:1
rule on every process: for every cell `c` of `cells_to_refine` and every `n` other than 0
of `find_neighbors_of (c)` or of `find_neighbors_to (c)` with a smaller refinement level
than `c`, `n` is in `cells_to_refine`; so the `DEBUG` check "all required refines have
been induced" at the end of `induce_refines` does not abort. The processes form a
consistent world whose neighbourhoods are those of `initialize` and fit the grid, the
neighbor data of every process is that of `update_neighbors` and
`update_remote_neighbor_info`, and the refines requested before the call are local
cells, as `refine_completely` leaves them. -/
theorem C38_induce_refines_closed (w wi : World UserData) (hcons : consistent w)
    (hgeo : ∀ g ∈ w, g.reach_fits ∧
      g.neighborhood_of = make_neighborhood_of g.neighborhood_size ∧
      g.neighborhood_to = (g.neighborhood_of.map fun o => (-o.1, -o.2.1, -o.2.2)) ∧
      g.neighbor_info_ok)
    (hlocal : ∀ g ∈ w, ∀ c ∈ g.cells_to_refine, map_has g.cells c = true)
    (h : induce_refines w = some wi) :
    ∀ gi ∈ wi,
      (∀ c ∈ gi.cells_to_refine,
        ∀ n ∈ gi.find_neighbors_of c 1 false ++ gi.find_neighbors_to c, n ≠ 0 →
          gi.index.get_refinement_level n < gi.index.get_refinement_level c →
          n ∈ gi.cells_to_refine) ∧
      gi.induce_refines_check = true := by
  intro gi hgi
  have key := induce_refines_closed w wi hcons hgeo hlocal h gi hgi
  refine ⟨fun c hc n hn => key c hc n (List.mem_append.1 hn), ?_⟩
  unfold induce_refines_check
  rw [List.all_eq_true]
  intro c hc
  rw [Bool.and_eq_true, List.all_eq_true, List.all_eq_true]
  constructor
  · intro n hn
    by_cases h0 : n = 0
    · rw [if_pos h0]
    · rw [if_neg h0]
      by_cases hl : gi.index.get_refinement_level n < gi.index.get_refinement_level c
      · rw [if_neg (fun k => k.2 (key c hc n (Or.inl hn) h0 hl))]
      · rw [if_neg (fun k => hl k.1)]
  · intro n hn
    by_cases h0 : n = 0
    · rw [if_pos h0]
    · rw [if_neg h0]
      by_cases hl : gi.index.get_refinement_level n < gi.index.get_refinement_level c
      · rw [if_neg (fun k => k.2 (key c hc n (Or.inr hn) h0 hl))]
      · rw [if_neg (fun k => hl k.1)]

end dccrg
namespace dccrg
open Index Dccrg

/-- C39 (`override_unrefines`): let the unrefine requests of every process be requests
that `unrefine_completely` has recorded, so that they have passed its level check of
the neighbors of the parent (`unrefines_level_checked`, which every sequence of
requests keeps).  Then `override_unrefines` keeps a local unrefine request `u` if and only
if (a) no sibling of `u` is in `cells_to_refine` or in `cells_not_to_unrefine` and
(b) every cell `n` of `find_neighbors_of (parent (u), 2, true)` has a level of at most
`level (parent (u)) + 1` and is not in `cells_to_refine` when its level is
`level (parent (u)) + 1`.  Every other request is dropped: afterwards
`cells_to_unrefine` holds on every process exactly the requests of the processes that
satisfy (a) and (b). -/
theorem C39_override_unrefines_keeps {UserData : Type} (w : World UserData)
    (hcs : ∀ g ∈ w, g.comm_size = w.length)
    (hchecked : ∀ g ∈ w, g.unrefines_level_checked) :
    (∀ g ∈ w, ∀ u ∈ g.cells_to_unrefine,
      (u ∈ g.final_unrefines ↔
        (∀ s ∈ g.get_all_children (g.get_parent u),
          s ∉ g.cells_to_refine ∧ s ∉ g.cells_not_to_unrefine) ∧
        ∀ n ∈ g.find_neighbors_of (g.get_parent u) 2 true,
          g.index.get_refinement_level n
            ≤ g.index.get_refinement_level (g.get_parent u) + 1 ∧
          (g.index.get_refinement_level n
              = g.index.get_refinement_level (g.get_parent u) + 1 →
            n ∉ g.cells_to_refine))) ∧
    (∀ g' ∈ override_unrefines w, ∀ u,
      (u ∈ g'.cells_to_unrefine ↔
        ∃ g ∈ w, u ∈ g.cells_to_unrefine ∧
          (∀ s ∈ g.get_all_children (g.get_parent u),
            s ∉ g.cells_to_refine ∧ s ∉ g.cells_not_to_unrefine) ∧
          ∀ n ∈ g.find_neighbors_of (g.get_parent u) 2 true,
            g.index.get_refinement_level n
              ≤ g.index.get_refinement_level (g.get_parent u) + 1 ∧
            (g.index.get_refinement_level n
                = g.index.get_refinement_level (g.get_parent u) + 1 →
              n ∉ g.cells_to_refine))) := by
  have key : ∀ g ∈ w, ∀ u ∈ g.cells_to_unrefine,
      (u ∈ g.final_unrefines ↔
        (∀ s ∈ g.get_all_children (g.get_parent u),
          s ∉ g.cells_to_refine ∧ s ∉ g.cells_not_to_unrefine) ∧
        ∀ n ∈ g.find_neighbors_of (g.get_parent u) 2 true,
          g.index.get_refinement_level n
            ≤ g.index.get_refinement_level (g.get_parent u) + 1 ∧
          (g.index.get_refinement_level n
              = g.index.get_refinement_level (g.get_parent u) + 1 →
            n ∉ g.cells_to_refine)) := by
    intro g hg u hu
    rw [mem_final_unrefines]
    constructor
    · rintro ⟨_, h1, h2⟩
      exact ⟨h1, fun n hn => ⟨hchecked g hg u hu n hn, fun e hm => h2 n hn ⟨e, hm⟩⟩⟩
    · rintro ⟨h1, h2⟩
      exact ⟨hu, h1, fun n hn hc => (h2 n hn).2 hc.1 hc.2⟩
  refine ⟨key, ?_⟩
  intro g' hg' u
  rw [mem_override_unrefines w hcs g' hg' u]
  constructor
  · rintro ⟨g, hg, hu⟩
    have hmem := ((mem_final_unrefines g u).1 hu).1
    exact ⟨g, hg, hmem, (key g hg u hmem).1 hu⟩
  · rintro ⟨g, hg, hu, h⟩
    exact ⟨g, hg, (key g hg u hu).2 h⟩

end dccrg
namespace dccrg
open Index

/-- C40 (`set_length` always returns): for every `Index` and every triple of lengths
`set_length` ends and returns a boolean, because the loop of
`get_maximum_possible_refinement_level` that it calls ends for every `grid_length`
(after at most 344 rounds: `pow (8, 342)` is infinite, so `current_last` is then
infinite or a NaN and the comparison with `double (~uint64_t (0))` is false).  This
includes the triples whose product wraps modulo `2^64`, such as `(2^32, 2^32, 1)`, for
which `grid_length` becomes 0. -/
theorem C40_set_length_terminates :
    (∀ (ix : Index) (x y z : Nat), ∃ (ix' : Index) (ok : Bool),
      ix.set_length x y z = some (ix', ok)) ∧
    (∀ ix : Index, ∃ r : Int, ix.get_maximum_possible_refinement_level = some r) ∧
    u64 (u64 (2 ^ 32 * 2 ^ 32) * 1) = 0 ∧
    ∃ (ix' : Index) (ok : Bool), default_index.set_length (2 ^ 32) (2 ^ 32) 1 = some (ix', ok) :=
  ⟨fun ix x y z => by
      obtain ⟨r, hr⟩ := set_length_total ix x y z
      exact ⟨r.1, r.2, hr⟩,
    get_maximum_possible_refinement_level_total, by decide!, by
      obtain ⟨r, hr⟩ := set_length_total default_index (2 ^ 32) (2 ^ 32) 1
      exact ⟨r.1, r.2, hr⟩⟩

end dccrg
namespace dccrg

open Index Dccrg

theorem C1_witness :
    example_index.ids_fit ∧
    example_index.get_indices (example_index.get_cell_from_indices (5, 7, 2) 1)
      = example_index.truncate 1 (5, 7, 2) ∧
    example_index.get_refinement_level (example_index.get_cell_from_indices (5, 7, 2) 1)
      = 1 :=
  ⟨by decide, C1_indices_of_cell_from_indices example_index (by decide) (5, 7, 2) 1
    (by decide) (by decide) (by decide) (by decide) (by decide)⟩

theorem C2_witness :
    example_index.ids_fit ∧ 1 ≤ 40 ∧ 40 ≤ example_index.last_cell ∧
    example_index.get_cell_from_indices (example_index.get_indices 40)
      (example_index.get_refinement_level 40) = 40 :=
  ⟨by decide, by decide, by decide,
    (C2_cell_from_indices_of_indices example_index (by decide) 40 (by decide) (by decide)).1⟩

theorem C3_witness :
    example_grid.index.ids_fit ∧ map_has example_grid.cell_process 2 = true ∧
    ((example_grid.get_all_children 2).get? 5).map example_grid.index.get_parent_for_removed
      = some 2 :=
  ⟨by decide, by decide,
    C3_parent_of_children example_grid (by decide) 2 (by decide) (by decide) (by decide) 5
      (by decide)⟩

theorem C4_witness :
    example_grid.index.ids_fit ∧ map_has example_grid.cell_process 1 = true ∧
    (example_grid.get_all_children 1).length = 8 ∧ (example_grid.get_all_children 1).Nodup :=
  ⟨by decide, by decide,
    ((C4_all_children example_grid (by decide) 1).1 (by decide) (by decide) (by decide)).1,
    ((C4_all_children example_grid (by decide) 1).1 (by decide) (by decide) (by decide)).2.1⟩

theorem C5_witness :
    example_index.ids_fit ∧
    (example_index.get_cell_from_indices (8, 0, 0) 1 = 0 ↔
      ((8 : Nat) ≥ example_index.x_length * 2 ^ example_index.max_refinement_level.toNat ∨
       (0 : Nat) ≥ example_index.y_length * 2 ^ example_index.max_refinement_level.toNat ∨
       (0 : Nat) ≥ example_index.z_length * 2 ^ example_index.max_refinement_level.toNat ∨
       (1 : Int) < 0 ∨ (1 : Int) > example_index.max_refinement_level)) :=
  ⟨by decide, (C5_cell_from_indices_error example_index (by decide) (8, 0, 0) 1).1⟩

end dccrg
namespace dccrg

open Index Dccrg

theorem C7_witness : covered_once_everywhere (example_result.map fun r => r.1) := by
  have h0 : Reachable example_world0 :=
    Reachable.construction ⟨2, 1, 1, 2, 0, 2⟩ 2 1 1 20 false false false example_world0
      (by norm_num) (by decide!) (by decide!)
  have h1 : Reachable (example_result.map fun r => r.1) :=
    Reachable.stop_refining example_world0 [(0, Request.refine_completely 1)]
      example_world1 example_result h0 (by decide!) (by decide!)
  exact C7_leaves_cover_grid _ h1

end dccrg
namespace dccrg

open Index Dccrg

end dccrg
namespace dccrg

open Index Dccrg

end dccrg
namespace dccrg

open Index Dccrg

/-- The world `example_deep1` is what two processes reach by constructing a grid of
2 x 1 x 1 root cells with maximum refinement level 2 and neighbourhood size 0 and
refining both root cells. -/
theorem example_deep1_reached :
    (((make_requests
      ((initialize_world ⟨2, 1, 1, 2, 0, 2⟩ 2 0 2 20 false false false).getD [])
      [(0, Request.refine_completely 1), (1, Request.refine_completely 2)]).bind
      stop_refining).map fun res => res.map fun r => r.1) = some example_deep1 := by
  decide!

end dccrg
namespace dccrg

open Index Dccrg

theorem C17_witness :
    example_deep_lists.cells_to_receive = [(1, [5, 9, 13, 17])] ∧
    ((∀ q, q ≠ example_deep_first.rank →
      ((map_find example_deep_lists.cells_to_receive q).getD []).Sorted (fun a b => a < b) ∧
      ∀ n, n ∈ (map_find example_deep_lists.cells_to_receive q).getD [] ↔
        map_find example_deep_first.cell_process n = some q ∧ n ≠ 0 ∧
        ∃ c ∈ map_keys example_deep_first.cells, example_deep_first.get_child c = c ∧
          ∃ l, map_find example_deep_first.neighbors c = some l ∧ n ∈ l) ∧
    (map_keys example_deep_lists.cells_to_receive).Nodup ∧
    ∀ c ∈ map_keys example_deep_first.cells, example_deep_first.get_child c = c →
      ∀ l, map_find example_deep_first.neighbors c = some l → ∀ n ∈ l, n ≠ 0 →
        ∀ q, map_find example_deep_first.cell_process n = some q →
          q ≠ example_deep_first.rank →
          ((map_find example_deep_lists.cells_to_receive q).getD []).count n = 1 ∧
          ∀ item ∈ example_deep_lists.cells_to_receive, n ∈ item.2 → item.1 = q) :=
  ⟨by decide, C17_receive_lists example_deep_first example_deep_info example_deep_lists
    (by decide) (by decide)⟩

theorem C18_witness :
    (example_planned.map fun g => (g.pin_requests, g.cells_to_send, g.cells_to_receive))
      = [([(3, 1)], [(1, [3, 4])], []), ([(3, 1)], [], [(0, [3, 4])])] ∧
    List.Forall₂ (fun (gu g' : Dccrg Nat) =>
      (g'.pin_requests = gu.pin_requests ∧ g'.cell_process = gu.cell_process ∧
        g'.rank = gu.rank) ∧
      (∀ r c, c ∈ (map_find g'.cells_to_send r).getD [] ↔
        r ≠ g'.rank ∧
        ((map_find g'.pin_requests c = some (r : Int) ∧
            map_find g'.cell_process c = some g'.rank) ∨
          (map_has g'.pin_requests c = false ∧ true = true ∧
            (c, (r : Int)) ∈ (example_balance g'.rank).to_send))) ∧
      (∀ s c, c ∈ (map_find g'.cells_to_receive s).getD [] ↔
        s ≠ g'.rank ∧
        ((map_find g'.pin_requests c = some (g'.rank : Int) ∧
            map_find g'.cell_process c = some s) ∨
          (map_has g'.pin_requests c = false ∧ true = true ∧
            (c, (s : Int)) ∈ (example_balance g'.rank).to_receive))) ∧
      (∀ r, ((map_find g'.cells_to_send r).getD []).Sorted (fun a b => a ≤ b)) ∧
      (∀ s, ((map_find g'.cells_to_receive s).getD []).Sorted (fun a b => a ≤ b)) ∧
      ∃ sends receives, gu.planned_sends true (example_balance gu.rank) = some sends ∧
        gu.planned_receives true (example_balance gu.rank) = some receives ∧
        (∀ r, (single_cell_list ((map_find sends.1 r).getD [])).length
            = ((map_find g'.cells_to_send r).getD []).length ∧
          ∀ (i cell : Nat), ((map_find g'.cells_to_send r).getD [])[i]? = some cell →
            i + 1 < 2 ^ 31 →
            (single_cell_list ((map_find sends.1 r).getD []))[i]?
              = some (cell, (i : Int) + 1)) ∧
        ∀ s, (single_cell_list ((map_find receives.1 s).getD [])).length
            = ((map_find g'.cells_to_receive s).getD []).length ∧
          ∀ (i cell : Nat), ((map_find g'.cells_to_receive s).getD [])[i]? = some cell →
            i + 1 < 2 ^ 31 →
            (single_cell_list ((map_find receives.1 s).getD []))[i]?
              = some (cell, (i : Int) + 1))
      (update_pin_requests example_pinned) example_planned :=
  ⟨by decide, C18_partition_plan example_pinned example_planned true example_balance
    (by decide) (by decide)
    (fun p => by unfold example_balance; split <;> decide) (by decide)⟩

end dccrg
namespace dccrg

open Index Dccrg

theorem C13_witness :
    (example_deep_first.is_leaf 4 ∧ example_deep_first.is_leaf 5) ∧
    example_deep_first.find_neighbors_to 4 = [12, 8, 5, 3] ∧
    example_deep_first.find_neighbors_of 5 1 false = [0, 0, 4, 6, 9, 13] ∧
    (5 ∈ example_deep_first.find_neighbors_to 4 ↔
      4 ∈ example_deep_first.find_neighbors_of 5 1 false) ∧
    (example_deep_first.find_neighbors_to 4).Nodup :=
  ⟨by decide, by decide, by decide,
    C13_neighbors_to_iff_neighbors_of example_deep_first (by decide) (by decide)
      (by decide) (by decide) 4 5 (by decide) (by decide)⟩

theorem C14_witness :
    (example_deep_first.is_leaf 4 ∧ example_deep_first.is_leaf 5) ∧
    ((5 ∈ example_deep_first.find_neighbors_of 4 1 false ∨
        5 ∈ example_deep_first.find_neighbors_to 4) ↔
      (4 ∈ example_deep_first.find_neighbors_of 5 1 false ∨
        4 ∈ example_deep_first.find_neighbors_to 5)) :=
  ⟨by decide, C14_neighbor_symmetry example_deep_first (by decide) (by decide) (by decide)
    (by decide) 4 5 (by decide) (by decide) _ _ _ _ rfl rfl rfl rfl⟩

end dccrg
namespace dccrg

open Index Dccrg

end dccrg
namespace dccrg

open Index Dccrg

theorem C11_witness :
    (example_mixed.is_leaf 2 ∧ example_mixed.balanced_around 2) ∧
    example_mixed.neighborhood_of.map (example_mixed.neighbor_segment 2)
      = [[0], [0], [3, 4, 7, 8, 11, 12, 15, 16], [0], [0], [0]] ∧
    example_mixed.neighborhood_of.map (example_mixed.neighbor_segment 4)
      = [[0], [0], [3], [2], [8], [12]] ∧
    (example_mixed.find_neighbors_of 2 1 false
      = example_mixed.neighborhood_of.flatMap (example_mixed.neighbor_segment 2) ∧
    ∀ o ∈ example_mixed.neighborhood_of,
      (example_mixed.neighbor_position 2 o = none ∧ example_mixed.neighbor_segment 2 o = [0]) ∨
      (∃ p n, example_mixed.neighbor_position 2 o = some p ∧ example_mixed.is_leaf n ∧
        example_mixed.in_footprint n p ∧
        (example_mixed.index.get_refinement_level n
            = example_mixed.index.get_refinement_level 2 ∨
          example_mixed.index.get_refinement_level n
            = example_mixed.index.get_refinement_level 2 - 1) ∧
        example_mixed.neighbor_segment 2 o = [n]) ∨
      (∃ p, example_mixed.neighbor_position 2 o = some p ∧
        example_mixed.neighbor_segment 2 o = example_mixed.get_all_children
          (example_mixed.index.get_cell_from_indices p
            (example_mixed.index.get_refinement_level 2)) ∧
        (example_mixed.neighbor_segment 2 o).length = 8 ∧
        ∀ x ∈ example_mixed.neighbor_segment 2 o, example_mixed.is_leaf x ∧
          example_mixed.index.get_refinement_level x
            = example_mixed.index.get_refinement_level 2 + 1)) :=
  ⟨by decide, by decide, by decide,
    C11_find_neighbors_of_segments example_mixed (by decide) (by decide) (by decide) 2
      (by decide) (by decide)⟩

theorem C12_witness :
    (example_mixed.is_leaf 2 ∧ example_mixed.balanced_around 2 ∧ example_mixed.is_leaf 12) ∧
    example_mixed.neighbor_position 2 (-1, 0, 0) = some (0, 0, 0) ∧
    example_mixed.meets 12 (0, 0, 0) (example_mixed.index.get_cell_size_in_indices 2) ∧
    12 ∈ example_mixed.find_neighbors_of 2 1 false :=
  ⟨by decide, by decide, by decide,
    C12_neighbors_complete example_mixed (by decide) (by decide) (by decide) 2 (by decide)
      (by decide) (-1, 0, 0) (by decide) (0, 0, 0) (by decide) 12 (by decide) (by decide)⟩

theorem C15_witness :
    example_mixed.get_neighbors_of 2 (-1) 0 0 = some [3, 4, 7, 8, 11, 12, 15, 16] ∧
    example_mixed.get_neighbors_of 4 1 0 0 = some [2] ∧
    example_mixed.get_neighbors_of 2 1 0 0 = some [0] ∧
    ((∀ i j k : Int, (i, j, k) ∈ example_mixed.neighborhood_of →
      example_mixed.get_neighbors_of 2 i j k
        = some ((example_mixed.indices_from_neighborhood (example_mixed.index.get_indices 2)
            (example_mixed.index.get_cell_size_in_indices 2) [(i, j, k)]).flatMap
            (example_mixed.find_neighbors_of_at (example_mixed.index.get_refinement_level 2)
              (example_mixed.index.get_cell_size_in_indices 2) 1)) ∧
      example_mixed.get_neighbors_of 2 i j k
        = some (example_mixed.neighbor_segment 2 (i, j, k)) ∧
      ((example_mixed.neighbor_segment 2 (i, j, k)).length = 1 ∨
        (example_mixed.neighbor_segment 2 (i, j, k)).length = 8)) ∧
    (∀ i j k : Int, (i, j, k) ∉ example_mixed.neighborhood_of →
      example_mixed.get_neighbors_of 2 i j k = some []) ∧
    (∀ cell, example_mixed.get_neighbors_of cell 0 0 0 = some []) ∧
    ∀ (cell : Nat) (i j k : Int),
      map_has example_mixed.cell_process cell = false
        ∨ map_find example_mixed.cell_process cell ≠ some example_mixed.rank →
      example_mixed.get_neighbors_of cell i j k = some []) :=
  ⟨by decide, by decide, by decide,
    C15_get_neighbors_of_segment example_mixed (by decide) (by decide) (by decide)
      (by decide) (by decide) 2 (by decide) (by decide) (by decide) (by decide)⟩

end dccrg
namespace dccrg

open Index Dccrg

theorem C22_witness :
    (example_requested.cells_to_refine, example_requested.cells_to_unrefine,
      example_requested.cells_not_to_unrefine) = ([2], [3], []) ∧
    (example_requested.cells_to_unrefine.Nodup ∧
    ∀ u ∈ example_requested.cells_to_unrefine,
      u ∈ example_requested.get_all_children (example_requested.get_parent u) ∧
      ∀ s ∈ example_requested.get_all_children (example_requested.get_parent u),
        (s ∈ example_requested.cells_to_unrefine → s = u) ∧
        s ∉ example_requested.cells_to_refine ∧
        s ∉ example_requested.cells_not_to_unrefine) :=
  ⟨by decide!, C22_unrefines_one_per_sibling_group example_mixed (by decide) (by decide)
    (by decide) [Request.unrefine_completely 3, Request.unrefine_completely 4,
      Request.refine_completely 2] example_requested (by decide!)⟩

theorem C23_witness :
    example_mixed.index.get_refinement_level 2 < example_mixed.index.max_refinement_level ∧
    ((example_mixed.index.get_refinement_level 2 < example_mixed.index.max_refinement_level →
      ∃ g', example_mixed.refine_completely 2 = some g' ∧
        2 ∈ g'.cells_to_refine ∧
        (∀ x, x ∈ g'.cells_to_refine ↔ x ∈ example_mixed.cells_to_refine ∨ x = 2) ∧
        (∀ s ∈ example_mixed.get_all_children (example_mixed.get_parent 2),
          s ∉ g'.cells_to_unrefine) ∧
        (∀ n ∈ [0, 0, 3, 4, 7, 8, 11, 12, 15, 16, 0, 0, 0] ++ [4, 8, 12, 16],
          example_mixed.index.get_refinement_level n
            ≤ example_mixed.index.get_refinement_level 2 →
          ∀ s ∈ example_mixed.get_all_children (example_mixed.get_parent n),
            s ∉ g'.cells_to_unrefine) ∧
        (∀ x ∈ g'.cells_to_unrefine, x ∈ example_mixed.cells_to_unrefine) ∧
        g'.cells_not_to_unrefine = example_mixed.cells_not_to_unrefine ∧
        example_mixed.same_but_requests g') ∧
    (example_mixed.index.get_refinement_level 2 = example_mixed.index.max_refinement_level →
      example_mixed.refine_completely 2 = some (example_mixed.dont_unrefine 2) ∧
      (example_mixed.dont_unrefine 2).cells_to_refine = example_mixed.cells_to_refine)) :=
  ⟨by decide, C23_refine_completely_effect example_mixed 2 (by decide) (by decide)
    (by decide) (by decide) _ _ (by decide) (by decide)⟩

theorem C24_witness :
    (5 = 0 ∨ map_has example_mixed.cell_process 5 = false
      ∨ map_find example_mixed.cell_process 5 ≠ some example_mixed.rank) ∧
    (example_mixed.refine_completely 5 = some example_mixed ∧
      example_mixed.unrefine_completely 5 = example_mixed ∧
      example_mixed.dont_unrefine 5 = example_mixed ∧
      example_mixed.pin 5 0 = example_mixed ∧ example_mixed.unpin 5 = example_mixed) :=
  ⟨by decide, C24_requests_ignore_foreign_cells example_mixed (by decide) (by decide) 5 0
    (by decide)⟩

end dccrg
namespace dccrg

open Index Dccrg

theorem C26_witness :
    consistent example_pin2 ∧
    stop_refining example_pin3 = some example_pin_result ∧
    List.Forall₂ (fun (gp : Dccrg Nat) (r : Dccrg Nat × List Nat) =>
      ∀ u ∈ gp.cells_to_unrefine,
        u ∈ gp.get_all_children (gp.get_parent u) ∧
        (∀ sibling ∈ gp.get_all_children (gp.get_parent u),
          map_has r.1.cell_process sibling = false ∧
          map_find r.1.pin_requests sibling = none ∧
          map_find r.1.new_pin_requests sibling = none ∧
          map_find r.1.cell_weights sibling = none) ∧
        map_has r.1.cell_process (gp.get_parent u) = true ∧
        map_find r.1.pin_requests (gp.get_parent u)
          = map_find gp.pin_requests (gp.get_parent u) ∧
        map_find r.1.new_pin_requests (gp.get_parent u)
          = map_find gp.new_pin_requests (gp.get_parent u) ∧
        map_find r.1.cell_weights (gp.get_parent u)
          = map_find gp.cell_weights (gp.get_parent u))
      example_pin_prepared example_pin_result :=
  have h : (consistent example_pin2 ∧ ∀ g ∈ example_pin2, g.no_pending) ∧
      make_requests example_pin2 [(0, Request.unrefine_completely 3)] = some example_pin3 ∧
      refines_prepared example_pin3 = some example_pin_prepared ∧
      stop_refining example_pin3 = some example_pin_result := by decide!
  ⟨h.1.1, h.2.2.2,
    C26_unrefine_drops_pins example_pin2 example_pin3 example_pin_prepared
      [(0, Request.unrefine_completely 3)] example_pin_result h.1.1 h.1.2 h.2.1 h.2.2.1
      h.2.2.2⟩

theorem C27_witness :
    (example_prepared_rank 0).rank = 0 ∧ (example_prepared_rank 1).rank = 1 ∧
    (example_prepared_rank 0).cells_to_refine = [1] ∧
    map_keys (example_prepared_rank 0).cells = [1] ∧
    map_keys (example_prepared_rank 1).cells = [2] ∧
    ∀ x, map_find (example_prepared_after 1).cell_process x
      = map_find (example_prepared_after 0).cell_process x :=
  have h : ((example_prepared_rank 0).rank = 0 ∧ (example_prepared_rank 1).rank = 1 ∧
        (example_prepared_rank 0).cells_to_refine = [1] ∧
        map_keys (example_prepared_rank 0).cells = [1] ∧
        map_keys (example_prepared_rank 1).cells = [2]) ∧
      ((example_prepared_rank 1).index = (example_prepared_rank 0).index ∧
        (example_prepared_rank 1).cell_process = (example_prepared_rank 0).cell_process ∧
        (example_prepared_rank 1).cells_to_refine
          = (example_prepared_rank 0).cells_to_refine ∧
        (example_prepared_rank 1).cells_to_unrefine
          = (example_prepared_rank 0).cells_to_unrefine) ∧
      ((example_prepared_rank 0).index.ids_fit ∧
        (example_prepared_rank 0).existence_invariant ∧
        (∀ u ∈ (example_prepared_rank 0).cells_to_unrefine,
          map_has (example_prepared_rank 0).cell_process u = true ∧
          (example_prepared_rank 0).index.get_refinement_level u ≠ 0 ∧
          ∀ s ∈ (example_prepared_rank 0).index.children_of
              ((example_prepared_rank 0).index.get_parent_for_removed u),
            (∀ x ∈ (example_prepared_rank 0).index.children_of s,
              map_has (example_prepared_rank 0).cell_process x = false) ∧
            s ∉ (example_prepared_rank 0).cells_to_refine) ∧
        ∀ c ∈ (example_prepared_rank 0).cells_to_refine,
          map_has (example_prepared_rank 0).cell_process c = true ∧
          ∀ x ∈ (example_prepared_rank 0).index.children_of c,
            map_has (example_prepared_rank 0).cell_process x = false) ∧
      ((example_prepared_rank 0).execute_refines_before_wait
          = some (example_prepared_before 0) ∧
        ({ (example_prepared_before 0).1 with incoming_data := [] }).execute_refines_after_wait
            (example_prepared_before 0).2.2 = some (example_prepared_after 0)) ∧
      (example_prepared_rank 1).execute_refines_before_wait
          = some (example_prepared_before 1) ∧
        ({ (example_prepared_before 1).1 with incoming_data := [] }).execute_refines_after_wait
            (example_prepared_before 1).2.2 = some (example_prepared_after 1) := by decide!
  ⟨h.1.1, h.1.2.1, h.1.2.2.1, h.1.2.2.2.1, h.1.2.2.2.2,
    C27_directory_independent_of_rank (example_prepared_rank 0) (example_prepared_rank 1)
      h.2.1.1
      (fun x => congrArg (fun m => map_find m x) h.2.1.2.1)
      (fun x => Iff.of_eq (congrArg (fun l => x ∈ l) h.2.1.2.2.1))
      (fun x => Iff.of_eq (congrArg (fun l => x ∈ l) h.2.1.2.2.2))
      h.2.2.1.1 h.2.2.1.2.1 h.2.2.1.2.2.1 h.2.2.1.2.2.2
      (example_prepared_before 0) h.2.2.2.1.1 [] (example_prepared_after 0) h.2.2.2.1.2
      (example_prepared_before 1) h.2.2.2.2.1 [] (example_prepared_after 1) h.2.2.2.2.2⟩

theorem C30_witness :
    example_mixed.is_leaf 4 ∧
    ∃ neighbors_of neighbors_to,
      map_find ((example_mixed.update_neighbors 4).getD example_mixed).neighbors 4
        = some neighbors_of ∧
      map_find ((example_mixed.update_neighbors 4).getD example_mixed).neighbors_to 4
        = some neighbors_to ∧
      neighbors_of = example_mixed.find_neighbors_of 4 1 false ∧
      neighbors_to = example_mixed.find_neighbors_to_from 4 neighbors_of ∧
      neighbors_to.Nodup ∧
      (∀ n ∈ neighbors_to,
        example_mixed.is_leaf n ∧ 4 ∈ example_mixed.find_neighbors_of n 1 false) ∧
      (∀ n ∈ neighbors_of, n ≠ 0 → example_mixed.is_neighbor n 4 = true →
        n ∈ neighbors_to) ∧
      ∀ n ∈ neighbors_to, n ∉ neighbors_of →
        example_mixed.index.get_refinement_level n
          = example_mixed.index.get_refinement_level 4 - 1 :=
  ⟨by decide!,
    C30_neighbors_to_after_update example_mixed (by decide!) (by decide!) (by decide!)
      (by decide!) (by decide!) 4 (by decide!) (by decide!)
      ((example_mixed.update_neighbors 4).getD example_mixed) (by decide!)⟩

end dccrg
namespace dccrg
open Index Dccrg

/-- C33 at process 7 with `processes_per_part = [12, 6]` and level 1. -/
theorem C33_witness :
    1 < example_hierarchy.processes_per_part.length ∧
    (∀ p ∈ example_hierarchy.processes_per_part, 0 < p) ∧
    example_hierarchy.get_part_number ((1 : Nat) : Int)
      = some ((example_hierarchy.processes_per_part.take 1).foldl
          (fun process p => process % p) example_hierarchy.rank
          / example_hierarchy.processes_per_part.getD 1 0) :=
  ⟨by decide!, by decide!,
    (C33_part_number_of_remainder example_hierarchy 1 (by decide!) (by decide!)).1⟩

/-- C36 in the grid `example_mixed` at the index triple `(0, 0, 0)` with the levels
0 to 1: the covering cells 1 and 3 are in the directory, the search returns the cell
of level 1. -/
theorem C36_witness :
    example_mixed.index.ids_fit ∧ map_has example_mixed.cell_process error_cell = false ∧
    example_mixed.get_existing_cell (0, 0, 0) ((0 : Nat) : Int) ((1 : Nat) : Int)
      = example_mixed.index.get_cell_from_indices (0, 0, 0) ((1 : Nat) : Int) :=
  ⟨by decide!, by decide!,
    (C36_get_existing_cell_greatest example_mixed (by decide!) (by decide!) (0, 0, 0)
      (by decide!) (by decide!) (by decide!) 0 1 (by decide) (by decide!)
      (fun r r' h1 h2 _ => by
        have hm : example_mixed.index.max_refinement_level = 1 := rfl
        rw [hm] at h2
        have hr : r' = 0 ∨ r' = 1 := by omega
        rcases hr with rfl | rfl <;> decide!)).1 1 (by decide) (by decide) (by decide!)
      (fun m' a b => by omega)⟩

/-- C31 for 3 processes and the 8 root cells of a 2 x 2 x 2 grid: process 0 owns the
ids 1 and 2, and the processes 1 and 2 own 3 ids each. -/
theorem C31_witness :
    (1 ≤ 3 ∧ 3 < 2 ^ 31 ∧ 8 < 2 ^ 64) ∧
    (create_unrefined_cells 3 0 8 : umap Nat × umap Nat × Nat).1
      = [(1, 0), (2, 0), (3, 1), (4, 1), (5, 1), (6, 2), (7, 2), (8, 2)] ∧
    map_keys (create_unrefined_cells 3 0 8 : umap Nat × umap Nat × Nat).1
      = (List.range 8).map (fun i => i + 1) :=
  ⟨⟨by decide, by norm_num, by norm_num⟩, by decide!,
    (@C31_initial_directory_blocks Nat _ 3 0 8 (by decide) (by norm_num) (by norm_num)).1⟩

/-- C32 at the corner cell 1 of the unrefined grid `example_cube` of 2 x 2 x 2 root
cells: the 7 other root cells are the entries that are not 0. -/
theorem C32_witness :
    (example_cube.index.ids_fit ∧ example_cube.existence_invariant ∧
      example_cube.reach_fits ∧ example_cube.index.is_corner 1) ∧
    example_cube.find_neighbors_of 1 1 false
      = [0, 0, 0, 0, 0, 0, 0, 0, 0, 0, 0, 0, 0, 2, 0, 3, 4, 0, 0, 0, 0, 5, 6, 0, 7, 8] ∧
    example_cube.find_neighbors_of 1 1 false
      = example_cube.neighborhood_of.map (example_cube.index.root_neighbor 1) :=
  ⟨⟨by decide!, by decide!, by decide!, by decide!⟩, by decide!,
    (C32_unrefined_neighbors example_cube (by decide!) (by decide!) (by decide!) rfl
      (by decide!) 1 (by decide) (by decide!)).1⟩

/-- C35 at the leaf 4 of the grid `example_mixed`: both paths give the cells 2, 3, 8
and 12. -/
theorem C35_witness :
    (example_mixed.is_leaf 4 ∧
      example_mixed.find_neighbors_to_from 4 (example_mixed.find_neighbors_of 4 1 false)
        = [3, 2, 8, 12] ∧
      example_mixed.find_neighbors_to 4 = [2, 12, 8, 3]) ∧
    (example_mixed.find_neighbors_to_from 4 (example_mixed.find_neighbors_of 4 1 false)).Perm
      (example_mixed.find_neighbors_to 4) :=
  ⟨⟨by decide!, by decide!, by decide!⟩,
    (C35_fast_path_is_slow_path example_mixed (by decide!) (by decide!) (by decide!)
      (by decide!) (by decide!) 4 (by decide!)).2.2.2⟩

/-- C37 at the leaf 2 of the grid `example_mixed` (neighbourhood size 0), whose
neighbors are the smaller cells 4, 8, 12 and 16. -/
theorem C37_witness :
    (example_mixed.is_leaf 2 ∧ example_mixed.neighborhood_size = 0 ∧
      example_mixed.find_neighbors_of 2 1 false
        = [0, 0, 3, 4, 7, 8, 11, 12, 15, 16, 0, 0, 0] ∧
      example_mixed.find_neighbors_to 2 = [4, 8, 12, 16]) ∧
    (∀ n ∈ example_mixed.find_neighbors_of 2 1 false, n ≠ 0 →
      example_mixed.is_neighbor 2 n = true) ∧
    (∀ n ∈ example_mixed.find_neighbors_to 2,
      n ≠ 0 ∧ example_mixed.is_neighbor n 2 = true) :=
  ⟨⟨by decide!, by decide!, by decide!, by decide!⟩,
    C37_neighbor_lists_are_neighbors example_mixed (by decide!) (by decide!) (by decide!)
      (by decide!) (by decide!) 2 (by decide!)⟩

/-- C39 in the world `example_unrefine_world`: the request to unrefine cell 3 has passed
the level check and is kept. -/
theorem C39_witness :
    ((∀ g ∈ example_unrefine_world, g.comm_size = example_unrefine_world.length) ∧
      (∀ g ∈ example_unrefine_world, g.unrefines_level_checked) ∧
      example_unrefine_world.map (fun g => g.cells_to_unrefine) = [[3]] ∧
      (override_unrefines example_unrefine_world).map (fun g => g.cells_to_unrefine)
        = [[3]]) ∧
    (∀ g ∈ example_unrefine_world, ∀ u ∈ g.cells_to_unrefine,
      (u ∈ g.final_unrefines ↔
        (∀ s ∈ g.get_all_children (g.get_parent u),
          s ∉ g.cells_to_refine ∧ s ∉ g.cells_not_to_unrefine) ∧
        ∀ n ∈ g.find_neighbors_of (g.get_parent u) 2 true,
          g.index.get_refinement_level n
            ≤ g.index.get_refinement_level (g.get_parent u) + 1 ∧
          (g.index.get_refinement_level n
              = g.index.get_refinement_level (g.get_parent u) + 1 →
            n ∉ g.cells_to_refine))) :=
  ⟨⟨by decide!, by decide!, by decide!, by decide!⟩,
    (C39_override_unrefines_keeps example_unrefine_world (by decide!) (by decide!)).1⟩

/-- In `example_induce_world` process 0 has requested the refine of cell 4, a cell of
level 1 next to cell 2 of level 0 on process 1: `induce_refines` adds cell 2 on process 1
and ends with the refines `{4, 2}` on both processes, which passes the check. -/
theorem C38_witness :
    consistent example_induce_world ∧
    induce_refines example_induce_world
      = some [{ example_induce_first with cells_to_refine := [4, 2] },
          { example_induce_second with cells_to_refine := [2, 4] }] ∧
    ∀ gi ∈ [{ example_induce_first with cells_to_refine := [4, 2] },
          { example_induce_second with cells_to_refine := [2, 4] }],
      (∀ c ∈ gi.cells_to_refine,
        ∀ n ∈ gi.find_neighbors_of c 1 false ++ gi.find_neighbors_to c, n ≠ 0 →
          gi.index.get_refinement_level n < gi.index.get_refinement_level c →
          n ∈ gi.cells_to_refine) ∧
      gi.induce_refines_check = true :=
  have h : consistent example_induce_world ∧
      (∀ g ∈ example_induce_world, g.reach_fits ∧
        g.neighborhood_of = make_neighborhood_of g.neighborhood_size ∧
        g.neighborhood_to = (g.neighborhood_of.map fun o => (-o.1, -o.2.1, -o.2.2)) ∧
        g.neighbor_info_ok) ∧
      (∀ g ∈ example_induce_world, ∀ c ∈ g.cells_to_refine, map_has g.cells c = true) ∧
      induce_refines example_induce_world
        = some [{ example_induce_first with cells_to_refine := [4, 2] },
            { example_induce_second with cells_to_refine := [2, 4] }] := by decide!
  ⟨h.1, h.2.2.2,
    C38_induce_refines_closed example_induce_world _ h.1 h.2.1 h.2.2.1 h.2.2.2⟩

end dccrg
